import Mathlib

/-!
# pdfmeta: PDF envelope probes, incremental writer and XMP codec

A shallow embedding of the Go packages `internal/pdf`, `internal/metadata`,
`internal/xmp` and `internal/model` of pdfmeta, followed by theorems about them.

Conventions of the embedding.

* A Go `string` or `[]byte` is a list of bytes; a byte is a natural number
  below 256.  The functions only compare bytes, so every theorem stated for all
  lists holds in particular for all byte strings.
* A Go `int` is a 64-bit two's complement integer: it is an `Int` here, and
  every addition on values read from the input goes through `wrapInt`.
  Lengths of byte strings are natural numbers (a slice never has 2^63 elements).
* A Go result `(v, ok)` or `(v, err)` is an `Option` or an `Except`; the index
  `-1` of `bytes.Index` is `none`.
* Loops whose progress is not structural carry a fuel argument that the
  caller sets from the length of the input.
-/

namespace PdfMeta

/-- Equality of Go results `(v, err)` is decidable. -/
instance instDecidableEqExcept {ε α : Type} [DecidableEq ε] [DecidableEq α] :
    DecidableEq (Except ε α)
  | .ok a, .ok b =>
    if h : a = b then isTrue (by rw [h]) else isFalse (fun h2 => h (by cases h2; rfl))
  | .error a, .error b =>
    if h : a = b then isTrue (by rw [h]) else isFalse (fun h2 => h (by cases h2; rfl))
  | .ok _, .error _ => isFalse (fun h => by cases h)
  | .error _, .ok _ => isFalse (fun h => by cases h)

/-! ## Nat strings -/

/-- A byte string. -/
abbrev Bytes := List Nat

/-- The bytes of an ASCII string literal. -/
def bytesOf (s : String) : Bytes := s.data.map Char.toNat

/-- Go `bytes.HasPrefix(s, p)`. -/
def hasPrefix : Bytes → Bytes → Bool
  | _, [] => true
  | [], _ :: _ => false
  | x :: xs, p :: ps => x == p && hasPrefix xs ps

/-- Go `bytes.HasSuffix(s, p)`. -/
def hasSuffix (s p : Bytes) : Bool := hasPrefix s.reverse p.reverse

/-- Go `bytes.Index(s, sep)`: the first index at which `sep` occurs; `none` is Go's -1. -/
def index : Bytes → Bytes → Option Nat
  | [], sep => if sep.isEmpty then some 0 else none
  | x :: xs, sep =>
    if hasPrefix (x :: xs) sep then some 0
    else match index xs sep with
      | some i => some (i + 1)
      | none => none

/-- Go `bytes.LastIndex(s, sep)`: the last index at which `sep` occurs; `none` is Go's -1. -/
def lastIndex : Bytes → Bytes → Option Nat
  | [], sep => if sep.isEmpty then some 0 else none
  | x :: xs, sep =>
    match lastIndex xs sep with
    | some i => some (i + 1)
    | none => if hasPrefix (x :: xs) sep then some 0 else none

/-- Go `strings.IndexByte(s, c)`. -/
def indexByte : Bytes → Nat → Option Nat
  | [], _ => none
  | x :: xs, c =>
    if x = c then some 0
    else match indexByte xs c with
      | some i => some (i + 1)
      | none => none

/-! ## UTF-8 and `strings.TrimSpace` -/

def runeError : Nat := 0xFFFD

def isCont (b : Nat) : Bool := decide (0x80 ≤ b) && decide (b ≤ 0xBF)

/-- Go `utf8.DecodeRune`: the first rune of `s` and its width in bytes.  An
invalid or truncated encoding is `(0xFFFD, 1)`, the empty input `(0xFFFD, 0)`. -/
def decodeRune : Bytes → Nat × Nat
  | [] => (runeError, 0)
  | b0 :: rest =>
    if b0 < 0x80 then (b0, 1)
    else if b0 < 0xC2 then (runeError, 1)
    else if b0 < 0xE0 then
      match rest with
      | b1 :: _ =>
        if isCont b1 then ((b0 - 0xC0) * 64 + (b1 - 0x80), 2) else (runeError, 1)
      | [] => (runeError, 1)
    else if b0 < 0xF0 then
      match rest with
      | b1 :: b2 :: _ =>
        if decide ((if b0 = 0xE0 then 0xA0 else 0x80) ≤ b1)
            && decide (b1 ≤ (if b0 = 0xED then 0x9F else 0xBF)) && isCont b2 then
          (((b0 - 0xE0) * 64 + (b1 - 0x80)) * 64 + (b2 - 0x80), 3)
        else (runeError, 1)
      | _ => (runeError, 1)
    else if b0 < 0xF5 then
      match rest with
      | b1 :: b2 :: b3 :: _ =>
        if decide ((if b0 = 0xF0 then 0x90 else 0x80) ≤ b1)
            && decide (b1 ≤ (if b0 = 0xF4 then 0x8F else 0xBF)) && isCont b2 && isCont b3 then
          ((((b0 - 0xF0) * 64 + (b1 - 0x80)) * 64 + (b2 - 0x80)) * 64 + (b3 - 0x80), 4)
        else (runeError, 1)
      | _ => (runeError, 1)
    else (runeError, 1)

/-- The index at which `utf8.DecodeLastRune` starts decoding: it walks back from
the byte before the last, over at most three bytes, to the first byte that is
not a continuation byte. -/
def lastRuneStart (s : Bytes) : Nat :=
  let e := s.length
  if e < 2 then 0
  else if !(isCont (s.getD (e - 2) 0)) then e - 2
  else if e < 3 then 0
  else if !(isCont (s.getD (e - 3) 0)) then e - 3
  else if e < 4 then 0
  else if !(isCont (s.getD (e - 4) 0)) then e - 4
  else e - 5

/-- Go `utf8.DecodeLastRune`: the last rune of `s` and its width. -/
def decodeLastRune (s : Bytes) : Nat × Nat :=
  match s.getLast? with
  | none => (runeError, 0)
  | some c =>
    if c < 0x80 then (c, 1)
    else
      let start := lastRuneStart s
      let rs := decodeRune (s.drop start)
      if start + rs.2 != s.length then (runeError, 1) else rs

/-- Go `unicode.IsSpace`. -/
def isSpaceRune (r : Nat) : Bool :=
  r == 0x09 || r == 0x0A || r == 0x0B || r == 0x0C || r == 0x0D || r == 0x20
    || r == 0x85 || r == 0xA0 || r == 0x1680 || (decide (0x2000 ≤ r) && decide (r ≤ 0x200A))
    || r == 0x2028 || r == 0x2029 || r == 0x202F || r == 0x205F || r == 0x3000

/-- The table `asciiSpace` of package strings. -/
def isAsciiSpace (c : Nat) : Bool :=
  c == 0x09 || c == 0x0A || c == 0x0B || c == 0x0C || c == 0x0D || c == 0x20

/-- Go `strings.TrimLeftFunc(s, unicode.IsSpace)`. -/
def trimLeftFunc : Nat → Bytes → Bytes
  | 0, s => s
  | fuel + 1, s =>
    match s with
    | [] => []
    | _ :: _ =>
      let rs := decodeRune s
      if isSpaceRune rs.1 then trimLeftFunc fuel (s.drop rs.2) else s

/-- Go `strings.TrimRightFunc(s, unicode.IsSpace)`. -/
def trimRightFunc : Nat → Bytes → Bytes
  | 0, s => s
  | fuel + 1, s =>
    match s with
    | [] => []
    | _ :: _ =>
      let rs := decodeLastRune s
      if isSpaceRune rs.1 then trimRightFunc fuel (s.take (s.length - rs.2)) else s

/-- The second loop of `strings.TrimSpace`, on the reversed string. -/
def trimSpaceEnd : Bytes → Bytes
  | [] => []
  | c :: rest =>
    if 0x80 ≤ c then (trimRightFunc (rest.length + 1) (c :: rest).reverse)
    else if isAsciiSpace c then trimSpaceEnd rest
    else (c :: rest).reverse

/-- Go `strings.TrimSpace`: the ASCII fast path from both ends, falling back to
the rune-wise `TrimFunc` at the first byte that is not ASCII. -/
def trimSpace : Bytes → Bytes
  | [] => []
  | c :: rest =>
    if 0x80 ≤ c then
      trimRightFunc (rest.length + 1) (trimLeftFunc (rest.length + 1) (c :: rest))
    else if isAsciiSpace c then trimSpace rest
    else trimSpaceEnd (c :: rest).reverse

/-- Go `strings.TrimRight(s, "\r\n")`. -/
def trimRightCRLF (s : Bytes) : Bytes :=
  (s.reverse.dropWhile (fun c => c == 13 || c == 10)).reverse

/-! ## Go integers, `strconv.Atoi` and `%d` -/

def maxInt : Int := 9223372036854775807
def minInt : Int := -9223372036854775808

/-- The value a 64-bit `int` holds after an arithmetic result `x`. -/
def wrapInt (x : Int) : Int :=
  (x + 9223372036854775808) % 18446744073709551616 - 9223372036854775808

def isDigit (c : Nat) : Bool := decide (48 ≤ c) && decide (c ≤ 57)

/-- The number a sequence of decimal digits denotes, most significant first. -/
def digitsValue : Nat → Bytes → Nat
  | acc, [] => acc
  | acc, c :: cs => digitsValue (acc * 10 + (c - 48)) cs

/-- Go `strconv.Atoi`: the value and whether it parsed without error.  The text
is an optional sign and decimal digits; a value out of the range of `int` is an
error that reports the nearest bound, any other error reports 0. -/
def atoi (s : Bytes) : Int × Bool :=
  let neg := hasPrefix s [45]
  let ds := if hasPrefix s [45] || hasPrefix s [43] then s.drop 1 else s
  if ds.isEmpty || !(ds.all isDigit) then (0, false)
  else
    let n : Int := digitsValue 0 ds
    if neg then (if n ≤ 9223372036854775808 then (-n, true) else (minInt, false))
    else (if n ≤ maxInt then (n, true) else (maxInt, false))

/-- Decimal digits of `n`, most significant first, prepended to `acc`. -/
def natDigitsAux : Nat → Nat → Bytes → Bytes
  | 0, _, acc => acc
  | fuel + 1, n, acc =>
    if n < 10 then (48 + n) :: acc
    else natDigitsAux fuel (n / 10) ((48 + n % 10) :: acc)

def natDigits (n : Nat) : Bytes := natDigitsAux (n + 1) n []

/-- The verb `%d` of `fmt.Sprintf` and `strconv.Itoa`. -/
def itoa (x : Int) : Bytes :=
  if x < 0 then 45 :: natDigits (-x).toNat else natDigits x.toNat

/-- The verb `%010d` for a non-negative number: zero padded to width ten. -/
def pad10 (n : Nat) : Bytes :=
  List.replicate (10 - (natDigits n).length) 48 ++ natDigits n

/-! ## internal/model -/

/-- Go `model.Metadata`: eight strings, the empty string meaning absent. -/
structure Metadata where
  Title : Bytes := []
  Author : Bytes := []
  Subject : Bytes := []
  Keywords : Bytes := []
  Creator : Bytes := []
  Producer : Bytes := []
  CreationDate : Bytes := []
  ModDate : Bytes := []
deriving DecidableEq, Repr

/-- Go `model.MetadataPatch`: `none` is the nil pointer, untouched. -/
structure MetadataPatch where
  Title : Option Bytes := none
  Author : Option Bytes := none
  Subject : Option Bytes := none
  Keywords : Option Bytes := none
  Creator : Option Bytes := none
  Producer : Option Bytes := none
  CreationDate : Option Bytes := none
  ModDate : Option Bytes := none
deriving DecidableEq, Repr

/-- Go `model.Field` is a string type. -/
abbrev Field := Bytes

def FieldTitle : Field := bytesOf "title"
def FieldAuthor : Field := bytesOf "author"
def FieldSubject : Field := bytesOf "subject"
def FieldKeywords : Field := bytesOf "keywords"
def FieldCreator : Field := bytesOf "creator"
def FieldProducer : Field := bytesOf "producer"
def FieldCreationDate : Field := bytesOf "creation-date"
def FieldModDate : Field := bytesOf "mod-date"

/-- Go `model.ErrorCode`; `ErrIo` is the code `ErrIO` (kind `io`). -/
inductive ErrorCode where
  | ErrUnknown | ErrUsage | ErrValidation | ErrNotFound | ErrConflict
  | ErrPDFEncrypted | ErrPDFMalformed | ErrIo | ErrInternal
deriving DecidableEq, Repr

/-- Go `model.AppError` (the wrapped cause is not modelled). -/
structure AppError where
  Code : ErrorCode
  Message : String
deriving DecidableEq, Repr

/-! ## internal/pdf/document.go -/

def headerScanLimit : Nat := 1024
def pdfHeader : Bytes := bytesOf "%PDF-"

def findHeaderOffset (b : Bytes) : Option Nat :=
  let limit := if b.length > headerScanLimit then headerScanLimit else b.length
  index (b.take limit) pdfHeader

def isPDFNameTerminator (c : Nat) : Bool :=
  c == 0x00 || c == 0x09 || c == 0x0A || c == 0x0C || c == 0x0D || c == 0x20
    || c == 40 || c == 41 || c == 60 || c == 62 || c == 91 || c == 93
    || c == 123 || c == 125 || c == 47 || c == 37

/-- The loop of `hasNameKey`; `start` is the loop variable. -/
def hasNameKeyLoop (b key : Bytes) : Nat → Nat → Bool
  | 0, _ => false
  | fuel + 1, start =>
    match index (b.drop start) key with
    | none => false
    | some i =>
      let idx := i + start
      let next := idx + key.length
      if decide (next ≥ b.length) || isPDFNameTerminator (b.getD next 0) then true
      else hasNameKeyLoop b key fuel (idx + 1)

def hasNameKey (b key : Bytes) : Bool := hasNameKeyLoop b key (b.length + 1) 0

def hasEncryptMarkerInTrailer (b : Bytes) : Bool :=
  match lastIndex b (bytesOf "trailer") with
  | none => false
  | some trailerIdx =>
    let searchSpace := b.drop trailerIdx
    let searchSpace := match index searchSpace (bytesOf "startxref") with
      | some sx => searchSpace.take sx
      | none => searchSpace
    hasNameKey searchSpace (bytesOf "/Encrypt")

/-- Go `pdf.Document` (the getters read these fields). -/
structure Document where
  path : Bytes
  content : Bytes
  headerOffset : Nat
  version : Bytes
  encrypted : Bool
deriving DecidableEq, Repr

def parseVersionAt (b : Bytes) (headerOffset : Nat) : Bytes :=
  (b.drop (headerOffset + pdfHeader.length)).takeWhile
    (fun c => !(c == 10 || c == 13 || c == 32 || c == 9))

def ParseBytes (path b : Bytes) : Except AppError Document :=
  if b.length = 0 then .error ⟨.ErrPDFMalformed, "pdf is empty"⟩
  else match findHeaderOffset b with
    | none => .error ⟨.ErrPDFMalformed, "missing PDF header"⟩
    | some headerOffset =>
      .ok { path := path, content := b, headerOffset := headerOffset,
            version := parseVersionAt b headerOffset,
            encrypted := hasEncryptMarkerInTrailer b }

/-! ## internal/metadata/store.go: lexical helpers -/

/-- Each `if patch.F != nil { next.F = *patch.F }` of the source sets one field. -/
def applyPatch (cur : Metadata) (patch : MetadataPatch) : Metadata :=
  { Title := patch.Title.getD cur.Title
    Author := patch.Author.getD cur.Author
    Subject := patch.Subject.getD cur.Subject
    Keywords := patch.Keywords.getD cur.Keywords
    Creator := patch.Creator.getD cur.Creator
    Producer := patch.Producer.getD cur.Producer
    CreationDate := patch.CreationDate.getD cur.CreationDate
    ModDate := patch.ModDate.getD cur.ModDate }

/-- One iteration of the loop of `applyUnset`: the `switch` on the field name. -/
def unsetField (next : Metadata) (f : Field) : Metadata :=
  if f = FieldTitle then { next with Title := [] }
  else if f = FieldAuthor then { next with Author := [] }
  else if f = FieldSubject then { next with Subject := [] }
  else if f = FieldKeywords then { next with Keywords := [] }
  else if f = FieldCreator then { next with Creator := [] }
  else if f = FieldProducer then { next with Producer := [] }
  else if f = FieldCreationDate then { next with CreationDate := [] }
  else if f = FieldModDate then { next with ModDate := [] }
  else next

def applyUnset (cur : Metadata) (fields : List Field) (unsetAll : Bool) : Metadata :=
  if unsetAll then {} else fields.foldl unsetField cur

structure ObjRef where
  Obj : Int := 0
  Gen : Int := 0
deriving DecidableEq, Repr

/-- The loop of `matchDictEnd` on the input from index `i` on. -/
def matchDictEndFrom : Bytes → Nat → Int → Option Nat
  | a :: b :: rest, i, depth =>
    if a = 60 ∧ b = 60 then matchDictEndFrom rest (i + 2) (depth + 1)
    else if a = 62 ∧ b = 62 then
      if depth - 1 = 0 then some i else matchDictEndFrom rest (i + 2) (depth - 1)
    else matchDictEndFrom (b :: rest) (i + 1) depth
  | _, _, _ => none

def matchDictEnd (s : Bytes) (start : Nat) : Option Nat :=
  matchDictEndFrom (s.drop start) start 0

def lastTrailerDict (b : Bytes) : Bytes :=
  match lastIndex b (bytesOf "trailer") with
  | none => []
  | some idx =>
    let tail := b.drop (idx + 7)
    match index tail (bytesOf "<<") with
    | none => []
    | some start =>
      let absStart := idx + 7 + start
      match matchDictEnd b absStart with
      | none => []
      | some e => (b.take (e + 2)).drop absStart

def parseStartXRef (b : Bytes) : Option Int :=
  match lastIndex b (bytesOf "startxref") with
  | none => none
  | some idx =>
    let rest := trimSpace (b.drop (idx + 9))
    if rest.isEmpty then none
    else
      let line := match indexByte rest 10 with
        | some nl => trimSpace (rest.take nl)
        | none => rest
      let r := atoi line
      if r.2 then some r.1 else none

/-! ## Regular expressions of store.go

Go's `regexp` returns the leftmost match and, at one start position, the first
match in backtracking order.  Each pattern of store.go is a sequence of
literals, of greedy runs `\s+` and `\d+` that are followed by a byte outside
the run's class, and of alternatives that begin with different bytes, so at a
given start position it has at most one match: the one that takes every run to
its end.  The functions below compute that match piece by piece, in the order
of the pattern, and search start positions from left to right.  Go matches
runes, not bytes; every byte these patterns look for is ASCII, and an ASCII
byte is never part of a longer rune, so matching byte by byte finds the same
positions. -/

/-- The class `\s` of Go regexp: tab, LF, FF, CR, space. -/
def isReSpace (c : Nat) : Bool := c == 9 || c == 10 || c == 12 || c == 13 || c == 32

/-- The ASCII word characters of `\b`. -/
def isWordByte (c : Nat) : Bool :=
  isDigit c || (decide (65 ≤ c) && decide (c ≤ 90)) || (decide (97 ≤ c) && decide (c ≤ 122))
    || c == 95

/-- A literal at the head of the input: the input after it. -/
def skipLit (lit xs : Bytes) : Option Bytes :=
  if hasPrefix xs lit then some (xs.drop lit.length) else none

/-- The run `\s+` at the head of the input: the input after it. -/
def skipSpaces1 : Bytes → Option Bytes
  | [] => none
  | c :: rest => if isReSpace c then some (rest.dropWhile isReSpace) else none

/-- The group `(\d+)` at the head of the input: the digits and the input after them. -/
def takeDigits1 (xs : Bytes) : Option (Bytes × Bytes) :=
  if (xs.takeWhile isDigit).isEmpty then none
  else some (xs.takeWhile isDigit, xs.dropWhile isDigit)

/-- The assertion `\b` after a word character: the next byte, if any, is not one. -/
def boundaryAfterWord : Bytes → Bool
  | [] => true
  | c :: _ => !isWordByte c

/-- A match of `/name\s+(\d+)\s+(\d+)\s+R` at the head of the input: the
two groups and the input after the match. -/
def namedRefAt (name xs : Bytes) : Option (Bytes × Bytes × Bytes) := do
  let r ← skipLit (47 :: name) xs
  let r ← skipSpaces1 r
  let (d1, r) ← takeDigits1 r
  let r ← skipSpaces1 r
  let (d2, r) ← takeDigits1 r
  let r ← skipSpaces1 r
  let r ← skipLit [82] r
  pure (d1, d2, r)

/-- The leftmost match of `/name\s+(\d+)\s+(\d+)\s+R`. -/
def findNamedRef (name : Bytes) : Bytes → Option (Bytes × Bytes × Bytes)
  | [] => none
  | x :: xs =>
    match namedRefAt name (x :: xs) with
    | some m => some m
    | none => findNamedRef name xs

/-- The errors of `strconv.Atoi` are dropped, as in the source: digits out of
range give the bound `atoi` reports. -/
def parseNamedRef (dict name : Bytes) : Option ObjRef :=
  match findNamedRef name dict with
  | none => none
  | some (d1, d2, _) => some { Obj := (atoi d1).1, Gen := (atoi d2).1 }

def parseTrailerRefs (b : Bytes) : Option (ObjRef × ObjRef) :=
  let trailer := lastTrailerDict b
  if trailer.isEmpty then none
  else match parseNamedRef trailer (bytesOf "Root") with
    | none => none
    | some root => some (root, (parseNamedRef trailer (bytesOf "Info")).getD {})

/-- A match of `(\d+)\s+(\d+)\s+obj\b` at the head of the input: the first
group and the input after the match. -/
def objHeaderAt (xs : Bytes) : Option (Bytes × Bytes) := do
  let (d1, r) ← takeDigits1 xs
  let r ← skipSpaces1 r
  let (_, r) ← takeDigits1 r
  let r ← skipSpaces1 r
  let r ← skipLit (bytesOf "obj") r
  if boundaryAfterWord r then pure (d1, r) else none

/-- The loop of `maxObjectNumber` over the successive matches that
`FindAllSubmatch` returns: after a match the search goes on behind it. -/
def maxObjLoop : Nat → Bytes → Int → Int
  | 0, _, mx => mx
  | _ + 1, [], mx => mx
  | fuel + 1, x :: xs, mx =>
    match objHeaderAt (x :: xs) with
    | some (d1, rest) =>
      maxObjLoop fuel rest (if (atoi d1).2 && decide ((atoi d1).1 > mx) then (atoi d1).1 else mx)
    | none => maxObjLoop fuel xs mx

def maxObjectNumber (b : Bytes) : Int := maxObjLoop (b.length + 1) b 0

/-- The lazy group `(.*?)` followed by `\bendobj`: the shortest text after
which `endobj` stands at a word boundary.  `prev` is the byte before the input. -/
def bodyToEndobj : Nat → Bytes → Option Bytes
  | _, [] => none
  | prev, c :: rest =>
    if !isWordByte prev && hasPrefix (c :: rest) (bytesOf "endobj") then some []
    else match bodyToEndobj c rest with
      | some body => some (c :: body)
      | none => none

/-- A match of `N\s+G\s+obj\b(.*?)\bendobj` at the head of the input, for
the decimal texts `N` and `G`: the group. -/
def objectAt (num gen xs : Bytes) : Option Bytes := do
  let r ← skipLit num xs
  let r ← skipSpaces1 r
  let r ← skipLit gen r
  let r ← skipSpaces1 r
  let r ← skipLit (bytesOf "obj") r
  if boundaryAfterWord r then bodyToEndobj 106 r else none

/-- The leftmost match of the pattern of `objectBody` through its alternative
`[\r\n]`. -/
def findObjectLine (num gen : Bytes) : Bytes → Option Bytes
  | [] => none
  | c :: rest =>
    match (if c == 13 || c == 10 then objectAt num gen rest else none) with
    | some body => some body
    | none => findObjectLine num gen rest

/-- The pattern is `(?s)(^|[\r\n])N\s+G\s+obj\b(.*?)\bendobj`: at index 0
the alternative `^` is tried before `[\r\n]`. -/
def objectBody (b : Bytes) (obj gen : Int) : Option Bytes :=
  match objectAt (itoa obj) (itoa gen) b with
  | some body => some body
  | none => findObjectLine (itoa obj) (itoa gen) b

def firstDict (body : Bytes) : Option Bytes :=
  match index body (bytesOf "<<") with
  | none => none
  | some start =>
    match matchDictEnd body start with
    | none => none
    | some e => some ((body.take (e + 2)).drop start)

def streamContent (objBody : Bytes) : Option Bytes :=
  match index objBody (bytesOf "stream") with
  | none => none
  | some i =>
    match index (objBody.drop (i + 6)) (bytesOf "endstream") with
    | none => none
    | some j =>
      let start := i + 6 + ((objBody.drop (i + 6)).takeWhile (fun c => c == 10 || c == 13)).length
      let e := i + 6 + j
      some (trimRightCRLF ((objBody.take e).drop start))

/-- The text matched by `(?:\\.|[^\\)])*\)`, the closing parenthesis
included: a backslash takes the next byte with it unless that byte is LF. -/
def literalBody : Bytes → Option Bytes
  | [] => none
  | c :: rest =>
    if c = 41 then some [41]
    else if c = 92 then
      match rest with
      | [] => none
      | d :: rest2 =>
        if d = 10 then none
        else match literalBody rest2 with
          | some m => some (c :: d :: m)
          | none => none
    else match literalBody rest with
      | some m => some (c :: m)
      | none => none

/-- The class `[^\s/<>\[\]()]`. -/
def isNameValueByte (c : Nat) : Bool :=
  !(isReSpace c || c == 47 || c == 60 || c == 62 || c == 91 || c == 93 || c == 40 || c == 41)

/-- A match of the group `(\((?:\\.|[^\\)])*\)|<[^>]*>|/[^\s/<>\[\]()]+)`
at the head of the input. -/
def dictValueAt : Bytes → Option Bytes
  | [] => none
  | c :: rest =>
    if c = 40 then
      match literalBody rest with
      | some m => some (c :: m)
      | none => none
    else if c = 60 then
      match indexByte rest 62 with
      | some k => some (c :: rest.take (k + 1))
      | none => none
    else if c = 47 then
      if (rest.takeWhile isNameValueByte).isEmpty then none
      else some (c :: rest.takeWhile isNameValueByte)
    else none

/-- A match of the pattern of `findDictValue` at the head of the input: the group. -/
def dictEntryAt (key xs : Bytes) : Option Bytes := do
  let r ← skipLit (47 :: key) xs
  let r ← skipSpaces1 r
  dictValueAt r

def findDictEntry (key : Bytes) : Bytes → Option Bytes
  | [] => none
  | x :: xs =>
    match dictEntryAt key (x :: xs) with
    | some m => some m
    | none => findDictEntry key xs

def findDictValue (dict key : Bytes) : Bytes := (findDictEntry key dict).getD []

/-- The replacer of `decodePDFString`: every old string is a backslash and one
more byte, so at a backslash at most one pair applies; a lone backslash is copied. -/
def unescapeLiteral : Bytes → Bytes
  | [] => []
  | c :: rest =>
    if c = 92 then
      match rest with
      | [] => [c]
      | d :: rest2 =>
        if d = 92 then 92 :: unescapeLiteral rest2
        else if d = 40 then 40 :: unescapeLiteral rest2
        else if d = 41 then 41 :: unescapeLiteral rest2
        else if d = 110 then 10 :: unescapeLiteral rest2
        else if d = 114 then 13 :: unescapeLiteral rest2
        else if d = 116 then 9 :: unescapeLiteral rest2
        else c :: d :: unescapeLiteral rest2
    else c :: unescapeLiteral rest

def isHexDigit (c : Nat) : Bool :=
  isDigit c || (decide (97 ≤ c) && decide (c ≤ 102)) || (decide (65 ≤ c) && decide (c ≤ 70))

def hexValue (c : Nat) : Nat :=
  if isDigit c then c - 48 else if decide (97 ≤ c) then c - 87 else c - 55

/-- The loop of the hexadecimal branch: `none` when `strconv.ParseUint` fails on a pair. -/
def hexPairs : Bytes → Option Bytes
  | a :: b :: rest =>
    if isHexDigit a && isHexDigit b then
      match hexPairs rest with
      | some out => some ((hexValue a * 16 + hexValue b) :: out)
      | none => none
    else none
  | _ => some []

/-- Go `decodePDFString`.  The result is `none` where the slice
`raw[1 : len(raw)-1]` of the hexadecimal branch would be out of range; that
branch is never taken, because a text that begins with `<` and ends with `>`
has two bytes or more (see `decodePDFString_isSome`): the Go function never
panics. -/
def decodePDFString (raw0 : Bytes) : Option Bytes :=
  let raw := trimSpace raw0
  if raw.isEmpty then some []
  else if hasPrefix raw [40] && hasSuffix raw [41] && decide (raw.length ≥ 2) then
    some (unescapeLiteral ((raw.take (raw.length - 1)).drop 1))
  else if hasPrefix raw [60] && hasSuffix raw [62] then
    if raw.length < 2 then none
    else
      let hex := (raw.take (raw.length - 1)).drop 1
      let hex := if hex.length % 2 = 1 then hex ++ [48] else hex
      some ((hexPairs hex).getD [])
  else if hasPrefix raw [47] then some (raw.drop 1)
  else some raw

/-- The closure `get` of `parseInfoDict`; `decodePDFString` always returns a
text (see `decodePDFString_isSome`). -/
def infoGet (dict key : Bytes) : Bytes := (decodePDFString (findDictValue dict key)).getD []

def parseInfoDict (dict : Bytes) : Metadata :=
  { Title := infoGet dict (bytesOf "Title")
    Author := infoGet dict (bytesOf "Author")
    Subject := infoGet dict (bytesOf "Subject")
    Keywords := infoGet dict (bytesOf "Keywords")
    Creator := infoGet dict (bytesOf "Creator")
    Producer := infoGet dict (bytesOf "Producer")
    CreationDate := infoGet dict (bytesOf "CreationDate")
    ModDate := infoGet dict (bytesOf "ModDate") }

/-- Each `if out.F == "" { out.F = fallback.F }` of the source sets one field. -/
def mergeMetadata (primary fallback : Metadata) : Metadata :=
  { Title := if primary.Title.isEmpty then fallback.Title else primary.Title
    Author := if primary.Author.isEmpty then fallback.Author else primary.Author
    Subject := if primary.Subject.isEmpty then fallback.Subject else primary.Subject
    Keywords := if primary.Keywords.isEmpty then fallback.Keywords else primary.Keywords
    Creator := if primary.Creator.isEmpty then fallback.Creator else primary.Creator
    Producer := if primary.Producer.isEmpty then fallback.Producer else primary.Producer
    CreationDate :=
      if primary.CreationDate.isEmpty then fallback.CreationDate else primary.CreationDate
    ModDate := if primary.ModDate.isEmpty then fallback.ModDate else primary.ModDate }

/-- The loop of `ReplaceAllString`: every match, left to right, is replaced and
the search goes on behind it. -/
def replaceAllRefs (name repl : Bytes) : Nat → Bytes → Bytes
  | 0, xs => xs
  | _ + 1, [] => []
  | fuel + 1, x :: xs =>
    match namedRefAt name (x :: xs) with
    | some (_, _, rest) => repl ++ replaceAllRefs name repl fuel rest
    | none => x :: replaceAllRefs name repl fuel xs

/-- The key is a plain name at the one call site (`Metadata`), so
`regexp.QuoteMeta` leaves it as it is and the replacement has no `$` to expand. -/
def upsertNamedRef (dict key : Bytes) (ref : ObjRef) : Bytes :=
  let replacement := 47 :: key ++ 32 :: itoa ref.Obj ++ 32 :: itoa ref.Gen ++ bytesOf " R"
  if (findNamedRef key dict).isSome then replaceAllRefs key replacement (dict.length + 1) dict
  else match lastIndex dict (bytesOf ">>") with
    | none => dict
    | some idx => dict.take idx ++ (10 :: replacement ++ [10]) ++ dict.drop idx

/-- The replacer of `escapePDFLiteral`.  Its old strings are written as raw
strings in the source: the first is two backslashes, replaced by four; a
parenthesis, LF, CR or TAB is replaced by two backslashes and `(`, `)`, `n`,
`r` or `t`. -/
def escapeByte (c : Nat) : Bytes :=
  if c = 40 then [92, 92, 40]
  else if c = 41 then [92, 92, 41]
  else if c = 10 then [92, 92, 110]
  else if c = 13 then [92, 92, 114]
  else if c = 9 then [92, 92, 116]
  else [c]

def escapePDFLiteral : Bytes → Bytes
  | [] => []
  | [c] => escapeByte c
  | c :: d :: rest =>
    if c = 92 ∧ d = 92 then 92 :: 92 :: 92 :: 92 :: escapePDFLiteral rest
    else escapeByte c ++ escapePDFLiteral (d :: rest)

/-- Go string comparison `a < b`. -/
def bytesLt : Bytes → Bytes → Bool
  | _, [] => false
  | [], _ :: _ => true
  | x :: xs, y :: ys => decide (x < y) || (x == y && bytesLt xs ys)

/-- Stable insertion by key, the step of `sort.SliceStable`. -/
def insertEntry (e : Bytes × Bytes) : List (Bytes × Bytes) → List (Bytes × Bytes)
  | [] => [e]
  | f :: fs => if bytesLt f.1 e.1 then f :: insertEntry e fs else e :: f :: fs

def sortEntries (es : List (Bytes × Bytes)) : List (Bytes × Bytes) :=
  es.foldr insertEntry []

def infoEntries (m : Metadata) : List (Bytes × Bytes) :=
  [ (bytesOf "Title", m.Title), (bytesOf "Author", m.Author), (bytesOf "Subject", m.Subject),
    (bytesOf "Keywords", m.Keywords), (bytesOf "Creator", m.Creator),
    (bytesOf "Producer", m.Producer), (bytesOf "CreationDate", m.CreationDate),
    (bytesOf "ModDate", m.ModDate) ]

/-- One iteration of the loop of `renderInfoObject`. -/
def renderInfoEntry (e : Bytes × Bytes) : Bytes :=
  if (trimSpace e.2).isEmpty then []
  else bytesOf "\n/" ++ e.1 ++ bytesOf " (" ++ escapePDFLiteral e.2 ++ bytesOf ")"

def renderInfoObject (objNr : Int) (m : Metadata) : Bytes :=
  itoa objNr ++ bytesOf " 0 obj\n<<"
    ++ ((sortEntries (infoEntries m)).map renderInfoEntry).flatten
    ++ bytesOf "\n>>\nendobj\n"

def renderMetadataObject (objNr : Int) (packet : Bytes) : Bytes :=
  itoa objNr ++ bytesOf " 0 obj\n"
    ++ bytesOf "<< /Type /Metadata /Subtype /XML /Length " ++ natDigits packet.length
    ++ bytesOf " >>\n"
    ++ bytesOf "stream\n" ++ packet
    ++ (if hasSuffix packet [10] then [] else [10])
    ++ bytesOf "endstream\nendobj\n"

def renderCatalogObject (objNr : Int) (dict : Bytes) : Bytes :=
  itoa objNr ++ bytesOf " 0 obj\n" ++ trimSpace dict ++ bytesOf "\nendobj\n"

def renderXRef (startObj : Int) (offsets : List Nat) : Bytes :=
  bytesOf "xref\n" ++ itoa startObj ++ [32] ++ natDigits offsets.length ++ [10]
    ++ (offsets.map (fun off => pad10 off ++ bytesOf " 00000 n \n")).flatten

def renderTrailer (size : Int) (root info : ObjRef) (prev : Int) : Bytes :=
  bytesOf "trailer\n<< /Size " ++ itoa size ++ bytesOf " /Root " ++ itoa root.Obj ++ [32]
    ++ itoa root.Gen ++ bytesOf " R /Info " ++ itoa info.Obj ++ [32] ++ itoa info.Gen
    ++ bytesOf " R /Prev " ++ itoa prev ++ bytesOf " >>\n"

def malformed (msg : String) : AppError := ⟨.ErrPDFMalformed, msg⟩

def writeNativeIncremental (src : Bytes) (meta : Metadata) (xmpPacket : Bytes) :
    Except AppError Bytes :=
  match parseTrailerRefs src with
  | none => .error (malformed "could not parse trailer root reference")
  | some (rootRef, _) =>
  match parseStartXRef src with
  | none => .error (malformed "could not parse startxref")
  | some startXRef =>
  let maxObj := maxObjectNumber src
  if maxObj < 1 then .error (malformed "could not detect object numbers")
  else
  match objectBody src rootRef.Obj rootRef.Gen with
  | none => .error (malformed "could not read catalog object")
  | some rootBody =>
  match firstDict rootBody with
  | none => .error (malformed "catalog dictionary missing")
  | some rootDict =>
  let infoObj := wrapInt (maxObj + 1)
  let metadataObj := wrapInt (maxObj + 2)
  let catalogObj := wrapInt (maxObj + 3)
  let newCatalogDict := upsertNamedRef rootDict (bytesOf "Metadata") { Obj := metadataObj, Gen := 0 }
  let infoObject := renderInfoObject infoObj meta
  let metadataObject := renderMetadataObject metadataObj xmpPacket
  let catalogObject := renderCatalogObject catalogObj newCatalogDict
  let out := src
  let out := if decide (out.length > 0) && out.getLast? != some 10 then out ++ [10] else out
  let offInfo := out.length
  let out := out ++ infoObject
  let offMetadata := out.length
  let out := out ++ metadataObject
  let offCatalog := out.length
  let out := out ++ catalogObject
  let xrefOffset := out.length
  let xref := renderXRef infoObj [offInfo, offMetadata, offCatalog]
  let out := out ++ xref
  let trailer := renderTrailer (wrapInt (catalogObj + 1)) { Obj := catalogObj, Gen := 0 }
    { Obj := infoObj, Gen := 0 } startXRef
  let out := out ++ trailer
  let out := out ++ bytesOf "startxref\n"
  let out := out ++ (natDigits xrefOffset ++ bytesOf "\n")
  let out := out ++ bytesOf "%%EOF\n"
  .ok out

/-! ## encoding/xml: `EscapeText` and the token reader

`xmp.Unmarshal` reads its input through `xml.Decoder.Token` of Go's standard
library (Go 1.20 and later, strict mode, no custom entities).  The functions
below follow that reader: `none` stands for any syntax error.  Two lookups of
the library are parameters of the model (`XmlEnv`); the theorems hold for
every value of them. -/

structure XmlEnv where
  /-- The check `isName` of encoding/xml on a name that has a byte outside
  ASCII: it consults the Unicode tables of XML 1.0, Appendix B. -/
  nameOk : Bytes → Bool
  /-- Whether the reader accepts the content of an `<?xml ...?>` declaration:
  its version is 1.0 or absent and its encoding is UTF-8 or absent. -/
  declOk : Bytes → Bool

/-- Go `xml.isInCharacterRange`. -/
def isInCharacterRange (r : Nat) : Bool :=
  r == 0x09 || r == 0x0A || r == 0x0D || (decide (0x20 ≤ r) && decide (r ≤ 0xD7FF))
    || (decide (0xE000 ≤ r) && decide (r ≤ 0xFFFD))
    || (decide (0x10000 ≤ r) && decide (r ≤ 0x10FFFF))

/-- What `escapeText` writes for the rune `r` of width `w` at the head of `s`. -/
def escapeRune (r w : Nat) (s : Bytes) : Bytes :=
  if r = 34 then bytesOf "&#34;"
  else if r = 39 then bytesOf "&#39;"
  else if r = 38 then bytesOf "&amp;"
  else if r = 60 then bytesOf "&lt;"
  else if r = 62 then bytesOf "&gt;"
  else if r = 9 then bytesOf "&#x9;"
  else if r = 10 then bytesOf "&#xA;"
  else if r = 13 then bytesOf "&#xD;"
  else if !isInCharacterRange r || (r == runeError && w == 1) then [0xEF, 0xBF, 0xBD]
  else s.take w

/-- Go `xml.EscapeText`. -/
def escapeText : Nat → Bytes → Bytes
  | 0, _ => []
  | fuel + 1, s =>
    match s with
    | [] => []
    | _ :: _ =>
      escapeRune (decodeRune s).1 (decodeRune s).2 s ++ escapeText fuel (s.drop (decodeRune s).2)

/-- The function `xmlEscape` of packet.go. -/
def xmlEscape (s : Bytes) : Bytes := escapeText s.length s

/-- Go `string(rune(n))`: the UTF-8 encoding, U+FFFD for a surrogate or a
value above U+10FFFF. -/
def encodeRune (n : Nat) : Bytes :=
  if n < 0x80 then [n]
  else if n < 0x800 then [0xC0 + n / 64, 0x80 + n % 64]
  else if decide (0xD800 ≤ n) && decide (n ≤ 0xDFFF) then [0xEF, 0xBF, 0xBD]
  else if n < 0x10000 then [0xE0 + n / 4096, 0x80 + n / 64 % 64, 0x80 + n % 64]
  else if n ≤ 0x10FFFF then
    [0xF0 + n / 262144, 0x80 + n / 4096 % 64, 0x80 + n / 64 % 64, 0x80 + n % 64]
  else [0xEF, 0xBF, 0xBD]

structure XName where
  Space : Bytes
  Local : Bytes
deriving DecidableEq, Repr

/-- The tokens `Unmarshal` tells apart.  A start tag that closes itself is one
token here; the reader returns its end element on the next call. -/
inductive XmlToken where
  | StartElement (name : XName) (selfClosing : Bool)
  | EndElement (name : XName)
  | CharData (data : Bytes)
  | Other
deriving DecidableEq, Repr

def isXmlSpace (c : Nat) : Bool := c == 32 || c == 13 || c == 10 || c == 9

def isLetter (c : Nat) : Bool :=
  (decide (65 ≤ c) && decide (c ≤ 90)) || (decide (97 ≤ c) && decide (c ≤ 122))

/-- Go `xml.isNameByte`. -/
def isNameByte (c : Nat) : Bool :=
  isLetter c || isDigit c || c == 95 || c == 58 || c == 46 || c == 45

/-- The bytes `readName` accepts: any byte outside ASCII and the name bytes. -/
def isReadNameByte (c : Nat) : Bool := decide (0x80 ≤ c) || isNameByte c

/-- Go `xml.isName`: an ASCII name starts with a letter, `_` or `:` and goes
on with name bytes. -/
def isName (env : XmlEnv) (s : Bytes) : Bool :=
  if s.all (fun c => decide (c < 0x80)) then
    match s with
    | [] => false
    | c :: cs => (isLetter c || c == 95 || c == 58) && cs.all isNameByte
  else env.nameOk s

/-- The method `name`: the name at the head of the input and the input after it. -/
def xmlName (env : XmlEnv) (xs : Bytes) : Option (Bytes × Bytes) :=
  if (xs.takeWhile isReadNameByte).isEmpty || (xs.dropWhile isReadNameByte).isEmpty
      || !isName env (xs.takeWhile isReadNameByte) then none
  else some (xs.takeWhile isReadNameByte, xs.dropWhile isReadNameByte)

/-- The method `nsname`: a name is split at its colon; more than one colon is an error. -/
def xmlNsName (env : XmlEnv) (xs : Bytes) : Option (XName × Bytes) :=
  match xmlName env xs with
  | none => none
  | some (s, rest) =>
    if s.count 58 > 1 then none
    else match indexByte s 58 with
      | none => some (⟨[], s⟩, rest)
      | some i =>
        if (s.take i).isEmpty || (s.drop (i + 1)).isEmpty then some (⟨[], s⟩, rest)
        else some (⟨s.take i, s.drop (i + 1)⟩, rest)

/-- The predefined entities. -/
def xmlEntityName (nm : Bytes) : Option Bytes :=
  if nm = bytesOf "lt" then some [60]
  else if nm = bytesOf "gt" then some [62]
  else if nm = bytesOf "amp" then some [38]
  else if nm = bytesOf "apos" then some [39]
  else if nm = bytesOf "quot" then some [34]
  else none

/-- The character reference or entity after `&`: its text and the input after
the `;`.  Anything else after `&` is an error in strict mode. -/
def xmlEntity (xs : Bytes) : Option (Bytes × Bytes) :=
  match xs with
  | [] => none
  | c :: r =>
    if c = 35 then
      let hex := hasPrefix r [120]
      let r := if hex then r.drop 1 else r
      let ok := fun (d : Nat) => if hex then isHexDigit d else isDigit d
      match r.dropWhile ok with
      | [] => none
      | e :: r2 =>
        if e ≠ 59 || (r.takeWhile ok).isEmpty then none
        else
          let n := (r.takeWhile ok).foldl (fun acc d => acc * (if hex then 16 else 10) + hexValue d) 0
          if n ≤ 0x10FFFF then some (encodeRune n, r2) else none
    else
      match xs.dropWhile isReadNameByte with
      | [] => none
      | e :: r2 =>
        if e ≠ 59 then none
        else match xmlEntityName (xs.takeWhile isReadNameByte) with
          | some t => some (t, r2)
          | none => none

/-- The check at the end of the method `text`: valid UTF-8 and characters in range. -/
def validChars : Nat → Bytes → Bool
  | 0, _ => true
  | fuel + 1, s =>
    match s with
    | [] => true
    | _ :: _ =>
      if (decodeRune s).1 == runeError && (decodeRune s).2 == 1 then false
      else if !isInCharacterRange (decodeRune s).1 then false
      else validChars fuel (s.drop (decodeRune s).2)

/-- The loop of the method `text(quote, cdata)`: `b0`, `b1` are the two bytes
read before, `buf` the text so far.  The result is the text and the input left. -/
def xmlTextLoop (quote : Option Nat) (cdata : Bool) :
    Nat → Nat → Nat → Bytes → Bytes → Option (Bytes × Bytes)
  | 0, _, _, _, _ => none
  | fuel + 1, b0, b1, input, buf =>
    match input with
    | [] => if cdata then none else some (buf, [])
    | b :: rest =>
      if b0 = 93 ∧ b1 = 93 ∧ b = 62 then
        (if cdata then some (buf.take (buf.length - 2), rest) else none)
      else if b = 60 ∧ cdata = false then
        (if quote.isSome then none else some (buf, b :: rest))
      else if quote = some b then some (buf, rest)
      else if b = 38 ∧ cdata = false then
        match xmlEntity rest with
        | some (text, rest2) => xmlTextLoop quote cdata fuel 0 0 rest2 (buf ++ text)
        | none => none
      else
        xmlTextLoop quote cdata fuel b1 b rest
          (if b = 13 then buf ++ [10] else if b1 = 13 ∧ b = 10 then buf else buf ++ [b])

def xmlText (quote : Option Nat) (cdata : Bool) (input : Bytes) : Option (Bytes × Bytes) :=
  match xmlTextLoop quote cdata (input.length + 1) 0 0 input [] with
  | some (data, rest) => if validChars data.length data then some (data, rest) else none
  | none => none

/-- A comment after `<!--`: the input after `-->`; `--` before anything else is an error. -/
def xmlComment : Nat → Nat → Bytes → Option Bytes
  | _, _, [] => none
  | b0, b1, b :: rest =>
    if b0 = 45 ∧ b1 = 45 then (if b = 62 then some rest else none)
    else xmlComment b1 b rest

/-- A processing instruction after its target: its content and the input after `?>`. -/
def xmlProcInst : Nat → Bytes → Bytes → Option (Bytes × Bytes)
  | _, [], _ => none
  | b0, b :: rest, buf =>
    if b0 = 63 ∧ b = 62 then some (buf.dropLast, rest)
    else xmlProcInst b rest (buf ++ [b])

/-- A comment inside a directive: the input after `-->`. -/
def xmlDirComment : Nat → Nat → Bytes → Option Bytes
  | _, _, [] => none
  | b0, b1, b :: rest =>
    if b0 = 45 ∧ b1 = 45 ∧ b = 62 then some rest
    else xmlDirComment b1 b rest

/-- A directive `<!...>` after its first byte: the input after the closing `>`.
`pending` is the byte the label `HandleB` is entered with. -/
def xmlDirective : Nat → Option Nat → Nat → Int → Bytes → Option Bytes
  | 0, _, _, _, _ => none
  | fuel + 1, none, inquote, depth, input =>
    match input with
    | [] => none
    | b :: rest =>
      if inquote = 0 ∧ b = 62 ∧ depth = 0 then some rest
      else xmlDirective fuel (some b) inquote depth rest
  | fuel + 1, some b, inquote, depth, rest =>
    if b = inquote then xmlDirective fuel none 0 depth rest
    else if inquote ≠ 0 then xmlDirective fuel none inquote depth rest
    else if b = 39 ∨ b = 34 then xmlDirective fuel none b depth rest
    else if b = 62 then xmlDirective fuel none inquote (depth - 1) rest
    else if b = 60 then
      match rest with
      | [] => none
      | c0 :: r0 =>
        if c0 ≠ 33 then xmlDirective fuel (some c0) inquote (depth + 1) r0
        else match r0 with
          | [] => none
          | c1 :: r1 =>
            if c1 ≠ 45 then xmlDirective fuel (some c1) inquote (depth + 1) r1
            else match r1 with
              | [] => none
              | c2 :: r2 =>
                if c2 ≠ 45 then xmlDirective fuel (some c2) inquote (depth + 1) r2
                else match xmlDirComment 0 0 r2 with
                  | some r3 => xmlDirective fuel none inquote depth r3
                  | none => none
    else xmlDirective fuel none inquote depth rest

/-- The attributes of a start tag up to its `>` or `/>`: whether the tag closes
itself and the input after it. -/
def xmlAttrs (env : XmlEnv) : Nat → Bytes → Option (Bool × Bytes)
  | 0, _ => none
  | fuel + 1, input =>
    match input.dropWhile isXmlSpace with
    | [] => none
    | b :: rest =>
      if b = 47 then
        match rest with
        | [] => none
        | c :: r => if c = 62 then some (true, r) else none
      else if b = 62 then some (false, rest)
      else match xmlNsName env (b :: rest) with
        | none => none
        | some (_, r) =>
          match r.dropWhile isXmlSpace with
          | [] => none
          | e :: r1 =>
            if e ≠ 61 then none
            else match r1.dropWhile isXmlSpace with
              | [] => none
              | q :: r2 =>
                if q = 34 ∨ q = 39 then
                  match xmlText (some q) false r2 with
                  | some (_, r3) => xmlAttrs env fuel r3
                  | none => none
                else none

/-- The method `rawToken` on a non-empty input: the token and the input left. -/
def xmlRawToken (env : XmlEnv) (input : Bytes) : Option (XmlToken × Bytes) :=
  match input with
  | [] => none
  | b :: rest =>
    if b ≠ 60 then
      match xmlText none false (b :: rest) with
      | some (data, r) => some (.CharData data, r)
      | none => none
    else match rest with
      | [] => none
      | c :: r =>
        if c = 47 then
          match xmlNsName env r with
          | none => none
          | some (name, r1) =>
            match r1.dropWhile isXmlSpace with
            | [] => none
            | e :: r2 => if e = 62 then some (.EndElement name, r2) else none
        else if c = 63 then
          match xmlName env r with
          | none => none
          | some (target, r1) =>
            match xmlProcInst 0 (r1.dropWhile isXmlSpace) [] with
            | none => none
            | some (data, r2) =>
              if target = bytesOf "xml" ∧ env.declOk data = false then none
              else some (.Other, r2)
        else if c = 33 then
          match r with
          | [] => none
          | d :: r1 =>
            if d = 45 then
              match r1 with
              | [] => none
              | e :: r2 =>
                if e = 45 then
                  match xmlComment 0 0 r2 with
                  | some r3 => some (.Other, r3)
                  | none => none
                else none
            else if d = 91 then
              if hasPrefix r1 (bytesOf "CDATA[") then
                match xmlText none true (r1.drop 6) with
                | some (data, r2) => some (.CharData data, r2)
                | none => none
              else none
            else
              match xmlDirective (r1.length + r1.length + 2) none 0 0 r1 with
              | some r2 => some (.Other, r2)
              | none => none
        else
          match xmlNsName env (c :: r) with
          | none => none
          | some (name, r1) =>
            match xmlAttrs env (r1.length + 1) r1 with
            | some (selfClosing, r2) => some (.StartElement name selfClosing, r2)
            | none => none

/-! ## internal/xmp/packet.go -/

def xpacketBegin : Bytes := bytesOf "<?xpacket begin=\"\\uFEFF\" id=\"W5M0MpCehiHzreSzNTczkc9d\"?>"
def xpacketEnd : Bytes := bytesOf "<?xpacket end=\"w\"?>"
def xmpOpenTag : Bytes := bytesOf "<x:xmpmeta"
def xmpCloseTag : Bytes := bytesOf "</x:xmpmeta>"

def writeLangAlt (key value : Bytes) : Bytes :=
  if value.isEmpty then []
  else bytesOf "<" ++ key ++ bytesOf "><rdf:Alt><rdf:li xml:lang=\"x-default\">"
    ++ xmlEscape value ++ bytesOf "</rdf:li></rdf:Alt></" ++ key ++ bytesOf ">\n"

def writeSeq (key value : Bytes) : Bytes :=
  if value.isEmpty then []
  else bytesOf "<" ++ key ++ bytesOf "><rdf:Seq><rdf:li>"
    ++ xmlEscape value ++ bytesOf "</rdf:li></rdf:Seq></" ++ key ++ bytesOf ">\n"

def writeValue (key value : Bytes) : Bytes :=
  if value.isEmpty then []
  else bytesOf "<" ++ key ++ bytesOf ">" ++ xmlEscape value ++ bytesOf "</" ++ key ++ bytesOf ">\n"

/-- The function returns no error in the source; the result is the packet. -/
def Marshal (m : Metadata) : Bytes :=
  xpacketBegin ++ bytesOf "\n"
    ++ bytesOf "<x:xmpmeta xmlns:x=\"adobe:ns:meta/\" x:xmptk=\"pdfmeta\">\n"
    ++ bytesOf "<rdf:RDF xmlns:rdf=\"http://www.w3.org/1999/02/22-rdf-syntax-ns#\">\n"
    ++ bytesOf "<rdf:Description rdf:about=\"\""
    ++ bytesOf " xmlns:dc=\"http://purl.org/dc/elements/1.1/\""
    ++ bytesOf " xmlns:pdf=\"http://ns.adobe.com/pdf/1.3/\""
    ++ bytesOf " xmlns:xmp=\"http://ns.adobe.com/xap/1.0/\">\n"
    ++ writeLangAlt (bytesOf "dc:title") m.Title
    ++ writeSeq (bytesOf "dc:creator") m.Author
    ++ writeLangAlt (bytesOf "dc:description") m.Subject
    ++ writeValue (bytesOf "pdf:Keywords") m.Keywords
    ++ writeValue (bytesOf "xmp:CreatorTool") m.Creator
    ++ writeValue (bytesOf "pdf:Producer") m.Producer
    ++ writeValue (bytesOf "xmp:CreateDate") m.CreationDate
    ++ writeValue (bytesOf "xmp:ModifyDate") m.ModDate
    ++ bytesOf "</rdf:Description>\n"
    ++ bytesOf "</rdf:RDF>\n"
    ++ bytesOf "</x:xmpmeta>\n"
    ++ xpacketEnd ++ bytesOf "\n"

/-- The errors of `Unmarshal`: a decode error of the XML reader, or no `xmpmeta` element. -/
inductive XmpError where
  | decode
  | notFound
deriving DecidableEq, Repr

/-- The function `hasSuffix` of packet.go. -/
def stackHasSuffix (stack want : List Bytes) : Bool :=
  if stack.length < want.length then false
  else stack.drop (stack.length - want.length) == want

/-- The case `xml.CharData` of the loop of `Unmarshal`. -/
def unmarshalCharData (stack : List Bytes) (meta : Metadata) (data : Bytes) : Metadata :=
  let value := trimSpace data
  if value.isEmpty then meta
  else if stackHasSuffix stack [bytesOf "title", bytesOf "Alt", bytesOf "li"] then
    (if meta.Title.isEmpty then { meta with Title := value } else meta)
  else if stackHasSuffix stack [bytesOf "creator", bytesOf "Seq", bytesOf "li"] then
    (if meta.Author.isEmpty then { meta with Author := value } else meta)
  else if stackHasSuffix stack [bytesOf "description", bytesOf "Alt", bytesOf "li"] then
    (if meta.Subject.isEmpty then { meta with Subject := value } else meta)
  else if stackHasSuffix stack [bytesOf "Keywords"] then { meta with Keywords := value }
  else if stackHasSuffix stack [bytesOf "CreatorTool"] then { meta with Creator := value }
  else if stackHasSuffix stack [bytesOf "Producer"] then { meta with Producer := value }
  else if stackHasSuffix stack [bytesOf "CreateDate"] then { meta with CreationDate := value }
  else if stackHasSuffix stack [bytesOf "ModifyDate"] then { meta with ModDate := value }
  else meta

/-- The loop of `Unmarshal` over the tokens of `input`.  `openEls` is the
reader's own stack of open elements (an end tag must repeat the name of the
start tag, and the input must not end inside an element); `stack`, `meta` and
`sawXMP` are the variables of `Unmarshal`. -/
def unmarshalLoop (env : XmlEnv) :
    Nat → Bytes → List XName → List Bytes → Metadata → Bool → Except XmpError Metadata
  | 0, _, _, _, _, _ => .error .decode
  | fuel + 1, input, openEls, stack, meta, sawXMP =>
    match input with
    | [] =>
      if !openEls.isEmpty then .error .decode
      else if !sawXMP then .error .notFound
      else .ok meta
    | _ :: _ =>
      match xmlRawToken env input with
      | none => .error .decode
      | some (.StartElement name selfClosing, rest) =>
        if selfClosing then
          unmarshalLoop env fuel rest openEls stack meta (sawXMP || name.Local == bytesOf "xmpmeta")
        else
          unmarshalLoop env fuel rest (name :: openEls) (stack ++ [name.Local]) meta
            (sawXMP || name.Local == bytesOf "xmpmeta")
      | some (.EndElement name, rest) =>
        match openEls with
        | [] => .error .decode
        | top :: els =>
          if top = name then unmarshalLoop env fuel rest els stack.dropLast meta sawXMP
          else .error .decode
      | some (.CharData data, rest) =>
        unmarshalLoop env fuel rest openEls stack (unmarshalCharData stack meta data) sawXMP
      | some (.Other, rest) => unmarshalLoop env fuel rest openEls stack meta sawXMP

/-- On an error the source returns the zero record with it. -/
def Unmarshal (env : XmlEnv) (packet : Bytes) : Except XmpError Metadata :=
  unmarshalLoop env (packet.length + 1) packet [] [] {} false

/-! ## internal/metadata/store.go: reading and writing -/

/-- The first block of `readNativeMetadata`: the record decoded from the Info
dictionary the trailer names, when that object and its dictionary are found. -/
def readInfoView (b : Bytes) (infoRef : ObjRef) : Option Metadata :=
  if infoRef.Obj > 0 then
    match objectBody b infoRef.Obj infoRef.Gen with
    | some body =>
      match firstDict body with
      | some dict => some (parseInfoDict dict)
      | none => none
    | none => none
  else none

/-- The second block of `readNativeMetadata`: the record decoded from the
metadata stream of the Catalog, when every step down to `xmp.Unmarshal` succeeds. -/
def readXmpView (env : XmlEnv) (b : Bytes) (rootRef : ObjRef) : Option Metadata :=
  if rootRef.Obj > 0 then
    match objectBody b rootRef.Obj rootRef.Gen with
    | some rootBody =>
      match firstDict rootBody with
      | some rootDict =>
        match parseNamedRef rootDict (bytesOf "Metadata") with
        | some mdRef =>
          match objectBody b mdRef.Obj mdRef.Gen with
          | some mdBody =>
            match streamContent mdBody with
            | some stream =>
              match Unmarshal env stream with
              | .ok x => some x
              | .error _ => none
            | none => none
          | none => none
        | none => none
      | none => none
    | none => none
  else none

/-- The result is `(meta, infoFound, xmpFound)`. -/
def readNativeMetadata (env : XmlEnv) (b : Bytes) : Metadata × Bool × Bool :=
  match parseTrailerRefs b with
  | none => ({}, false, false)
  | some (rootRef, infoRef) =>
    let meta : Metadata := {}
    let meta := match readInfoView b infoRef with
      | some info => mergeMetadata info meta
      | none => meta
    let infoFound := (readInfoView b infoRef).isSome
    let meta := match readXmpView env b rootRef with
      | some x => mergeMetadata meta x
      | none => meta
    let xmpFound := (readXmpView env b rootRef).isSome
    (meta, infoFound, xmpFound)

/-- The Info-derived view of a file: what the first block of
`readNativeMetadata` decodes, the zero record when it finds nothing. -/
def infoViewOf (b : Bytes) : Metadata :=
  match parseTrailerRefs b with
  | some (_, infoRef) => (readInfoView b infoRef).getD {}
  | none => {}

/-- The XMP-derived view of a file: what the second block of
`readNativeMetadata` decodes, the zero record when it finds nothing. -/
def xmpViewOf (env : XmlEnv) (b : Bytes) : Metadata :=
  match parseTrailerRefs b with
  | some (rootRef, _) => (readXmpView env b rootRef).getD {}
  | none => {}

/-! ## The store and its files -/

structure MetadataWriteRequest where
  InputPath : Bytes
  OutputPath : Bytes
  InPlace : Bool
  Set : MetadataPatch
  Unset : List Field
  UnsetAll : Bool

structure MetadataReadResult where
  Encrypted : Bool
  Metadata : Metadata
  InfoFound : Bool
  XMPFound : Bool
  Normalized : Bool
deriving DecidableEq, Repr

/-- What `os.ReadFile` reports when it fails. -/
inductive ReadError where
  | notExist
  | other
deriving DecidableEq, Repr

/-- The files the store sees: what reading a path gives, and whether
`filesafe.WriteAtomic` to a path succeeds. -/
structure Files where
  readFile : Bytes → Except ReadError Bytes
  writable : Bytes → Bool

/-- The files after `filesafe.WriteAtomic(dst, content)` succeeded. -/
def Files.write (fs : Files) (dst content : Bytes) : Files :=
  { fs with readFile := fun p => if p = dst then .ok content else fs.readFile p }

/-- Go `pdf.Open`. -/
def Open (fs : Files) (path : Bytes) : Except AppError Document :=
  if path.isEmpty then .error ⟨.ErrValidation, "input path is required"⟩
  else match fs.readFile path with
    | .error .notExist => .error ⟨.ErrNotFound, "read pdf"⟩
    | .error .other => .error ⟨.ErrIo, "read pdf"⟩
    | .ok b => ParseBytes path b

def writeTarget (req : MetadataWriteRequest) : Except AppError Bytes :=
  if req.InPlace then .ok req.InputPath
  else if req.OutputPath.isEmpty then
    .error ⟨.ErrValidation, "output path is required when not writing in place"⟩
  else .ok req.OutputPath

/-- Go `Store.Write`: the result and the files afterwards.  `canceled` says
whether the context is done when the call starts. -/
def Store.Write (env : XmlEnv) (canceled : Bool) (fs : Files) (req : MetadataWriteRequest) :
    Except AppError MetadataReadResult × Files :=
  if canceled then (.error ⟨.ErrInternal, "operation canceled"⟩, fs)
  else if req.InputPath.isEmpty then (.error ⟨.ErrValidation, "input path is required"⟩, fs)
  else match writeTarget req with
    | .error e => (.error e, fs)
    | .ok dst =>
      match Open fs req.InputPath with
      | .error e => (.error e, fs)
      | .ok doc =>
        if doc.encrypted then (.error ⟨.ErrPDFEncrypted, "cannot write encrypted pdf"⟩, fs)
        else
          let current := (readNativeMetadata env doc.content).1
          let next := applyPatch current req.Set
          let next := applyUnset next req.Unset req.UnsetAll
          let xmpPacket := Marshal next
          match writeNativeIncremental doc.content next xmpPacket with
          | .error e => (.error e, fs)
          | .ok updated =>
            if fs.writable dst then
              (.ok { Encrypted := false, Metadata := next, InfoFound := true, XMPFound := true,
                     Normalized := false }, fs.write dst updated)
            else (.error ⟨.ErrIo, "write"⟩, fs)

/-! ## The envelope probes with every index and slice checked

The same functions once more, written with Go's indices: an index or slice
expression out of range is the fault `panic`, a loop that outlives its fuel
the fault `fuel`. -/

inductive Fault where
  | panic
  | fuel
deriving DecidableEq, Repr

namespace Checked

/-- The Go expression `s[i]`. -/
def byteAt (s : Bytes) (i : Int) : Except Fault Nat :=
  if 0 ≤ i ∧ i < s.length then .ok (s.getD i.toNat 0) else .error .panic

/-- The Go expression `s[i:j]`. -/
def slice (s : Bytes) (i j : Int) : Except Fault Bytes :=
  if 0 ≤ i ∧ i ≤ j ∧ j ≤ s.length then .ok ((s.take j.toNat).drop i.toNat) else .error .panic

/-- The Go expression `s[i:]`. -/
def sliceFrom (s : Bytes) (i : Int) : Except Fault Bytes := slice s i s.length

/-- The Go expression `s[:j]`. -/
def sliceTo (s : Bytes) (j : Int) : Except Fault Bytes := slice s 0 j

/-- The result of `bytes.Index` and its kin as Go returns it: -1 when there is no match. -/
def goIndex : Option Nat → Int
  | some i => i
  | none => -1

def findHeaderOffset (b : Bytes) : Except Fault Int := do
  let limit : Int := if (b.length : Int) > headerScanLimit then headerScanLimit else b.length
  let window ← sliceTo b limit
  pure (goIndex (index window pdfHeader))

def hasNameKeyLoop (b key : Bytes) : Nat → Int → Except Fault Bool
  | 0, _ => .error .fuel
  | fuel + 1, start => do
    let tail ← sliceFrom b start
    let idx := goIndex (index tail key)
    if idx = -1 then pure false
    else
      let idx := idx + start
      let next := idx + key.length
      if next ≥ b.length then pure true
      else
        let c ← byteAt b next
        if isPDFNameTerminator c then pure true
        else hasNameKeyLoop b key fuel (idx + 1)

def hasNameKey (b key : Bytes) : Except Fault Bool := hasNameKeyLoop b key (b.length + 1) 0

def hasEncryptMarkerInTrailer (b : Bytes) : Except Fault Bool := do
  let trailerIdx := goIndex (lastIndex b (bytesOf "trailer"))
  if trailerIdx = -1 then pure false
  else
    let searchSpace ← sliceFrom b trailerIdx
    let sx := goIndex (index searchSpace (bytesOf "startxref"))
    let searchSpace ← if sx ≥ 0 then sliceTo searchSpace sx else pure searchSpace
    hasNameKey searchSpace (bytesOf "/Encrypt")

/-- The loop `for i := start; i < len(s)-1; i++` of `matchDictEnd`. -/
def matchDictEndLoop (s : Bytes) : Nat → Int → Int → Except Fault (Option Int)
  | 0, _, _ => .error .fuel
  | fuel + 1, i, depth =>
    if i < (s.length : Int) - 1 then do
      let a ← byteAt s i
      let isOpen ← if a = 60 then (do let b ← byteAt s (i + 1); pure (decide (b = 60))) else pure false
      if isOpen then matchDictEndLoop s fuel (i + 1 + 1) (depth + 1)
      else
        let isClose ← if a = 62 then (do let b ← byteAt s (i + 1); pure (decide (b = 62)))
          else pure false
        if isClose then
          if depth - 1 = 0 then pure (some i)
          else matchDictEndLoop s fuel (i + 1 + 1) (depth - 1)
        else matchDictEndLoop s fuel (i + 1) depth
    else pure none

def matchDictEnd (s : Bytes) (start : Int) : Except Fault (Option Int) :=
  matchDictEndLoop s (s.length + 1) start 0

def lastTrailerDict (b : Bytes) : Except Fault Bytes := do
  let idx := goIndex (lastIndex b (bytesOf "trailer"))
  if idx < 0 then pure []
  else
    let tail ← sliceFrom b (idx + 7)
    let start := goIndex (index tail (bytesOf "<<"))
    if start < 0 then pure []
    else
      let absStart := idx + 7 + start
      match ← matchDictEnd b absStart with
      | none => pure []
      | some e => slice b absStart (e + 2)

def parseStartXRef (b : Bytes) : Except Fault (Option Int) := do
  let idx := goIndex (lastIndex b (bytesOf "startxref"))
  if idx < 0 then pure none
  else
    let tail ← sliceFrom b (idx + 9)
    let rest := trimSpace tail
    if rest.isEmpty then pure none
    else
      let nl := goIndex (indexByte rest 10)
      let line ← if nl ≥ 0 then (do let l ← sliceTo rest nl; pure (trimSpace l)) else pure rest
      let r := atoi line
      if r.2 then pure (some r.1) else pure none

end Checked

/-! ## Inputs of the examples -/

/-- The reader tables used where a concrete value is needed: no name outside
ASCII is accepted, every `<?xml ...?>` declaration is. -/
def asciiEnv : XmlEnv := ⟨fun _ => false, fun _ => true⟩

/-- A file whose Info dictionary says Title `I` and whose XMP packet says Title `X`. -/
def twoTitles : Bytes :=
  bytesOf "%PDF-1.4\n1 0 obj\n<< /Type /Catalog /Metadata 3 0 R >>\nendobj\n2 0 obj\n<< /Title (I) >>\nendobj\n3 0 obj\n<< /Type /Metadata /Subtype /XML /Length 82 >>\nstream\n<x:xmpmeta><dc:title><rdf:Alt><rdf:li>X</rdf:li></rdf:Alt></dc:title></x:xmpmeta>\nendstream\nendobj\ntrailer\n<< /Size 4 /Root 1 0 R /Info 2 0 R >>\nstartxref\n0\n%%EOF\n"

/-- The line feed `writeNativeIncremental` puts behind a source that does not end with one. -/
def sourceLF (src : Bytes) : Bytes :=
  if decide (src.length > 0) && src.getLast? != some 10 then [10] else []

/-- The output `writeNativeIncremental` builds once its five checks have
passed: `maxObj` is the largest object number of the source, `prev` its
`startxref` and `rootDict` the dictionary of its Catalog. -/
def incrementalOutput (src : Bytes) (meta : Metadata) (xmpPacket : Bytes) (maxObj prev : Int)
    (rootDict : Bytes) : Bytes :=
  let infoObj := wrapInt (maxObj + 1)
  let metadataObj := wrapInt (maxObj + 2)
  let catalogObj := wrapInt (maxObj + 3)
  let pre := src ++ sourceLF src
  let infoObject := renderInfoObject infoObj meta
  let metadataObject := renderMetadataObject metadataObj xmpPacket
  let catalogObject := renderCatalogObject catalogObj
    (upsertNamedRef rootDict (bytesOf "Metadata") { Obj := metadataObj, Gen := 0 })
  let offInfo := pre.length
  let offMetadata := (pre ++ infoObject).length
  let offCatalog := (pre ++ infoObject ++ metadataObject).length
  let xrefOffset := (pre ++ infoObject ++ metadataObject ++ catalogObject).length
  pre ++ infoObject ++ metadataObject ++ catalogObject
    ++ renderXRef infoObj [offInfo, offMetadata, offCatalog]
    ++ renderTrailer (wrapInt (catalogObj + 1)) { Obj := catalogObj, Gen := 0 }
        { Obj := infoObj, Gen := 0 } prev
    ++ bytesOf "startxref\n" ++ (natDigits xrefOffset ++ bytesOf "\n") ++ bytesOf "%%EOF\n"

/-- A small PDF: a Catalog, a page tree, a trailer and no final line feed. -/
def minimalPdf : Bytes :=
  bytesOf "%PDF-1.4\n1 0 obj\n<< /Type /Catalog /Pages 2 0 R >>\nendobj\n2 0 obj\n<< /Type /Pages /Count 0 >>\nendobj\ntrailer\n<< /Size 3 /Root 1 0 R >>\nstartxref\n9\n%%EOF"

/-- What a write to `minimalPdf` with the zero record and an empty packet returns. -/
def minimalPdfRewritten : Bytes :=
  incrementalOutput minimalPdf {} [] 2 9 (bytesOf "<< /Type /Catalog /Pages 2 0 R >>")

/-- The slice of `b` from its last `trailer` up to, and not including, the
next `startxref` (up to the end when there is none); `none` when `b` has no `trailer`. -/
def trailerSlice (b : Bytes) : Option Bytes :=
  match lastIndex b (bytesOf "trailer") with
  | none => none
  | some t =>
    match index (b.drop t) (bytesOf "startxref") with
    | some sx => some ((b.drop t).take sx)
    | none => some (b.drop t)

/-- The name `key` stands at index `i` of `s` and the byte right after it is a
PDF whitespace or delimiter byte. -/
def nameTerminatedAt (s key : Bytes) (i : Nat) : Bool :=
  hasPrefix (s.drop i) key && decide (i + key.length < s.length)
    && isPDFNameTerminator (s.getD (i + key.length) 0)

/-- The name `key` stands at index `i` of `s` and `s` ends right after it. -/
def nameEndsAt (s key : Bytes) (i : Nat) : Bool :=
  hasPrefix (s.drop i) key && decide (i + key.length = s.length)

/-- A trailer whose last name is `/Encrypt`, with nothing behind it. -/
def encryptAtEnd : Bytes := bytesOf "trailer << /Encrypt"

/-- A PDF whose trailer names an encryption dictionary. -/
def encryptedPdf : Bytes :=
  bytesOf "%PDF-1.4\n1 0 obj\n<< /Type /Catalog >>\nendobj\ntrailer\n<< /Size 2 /Root 1 0 R /Encrypt 9 0 R >>\nstartxref\n9\n%%EOF\n"

/-- A file system with the one file `in.pdf`, which is `encryptedPdf`. -/
def encryptedFiles : Files :=
  { readFile := fun p => if p = bytesOf "in.pdf" then .ok encryptedPdf else .error .notExist
    writable := fun _ => true }

/-- A request to set the title of `in.pdf`, written to `out.pdf`. -/
def encryptedRequest : MetadataWriteRequest :=
  { InputPath := bytesOf "in.pdf", OutputPath := bytesOf "out.pdf", InPlace := false,
    Set := { Title := some (bytesOf "x") }, Unset := [], UnsetAll := false }

/-- The request of `encryptedRequest` without a destination. -/
def encryptedRequestNoTarget : MetadataWriteRequest :=
  { InputPath := bytesOf "in.pdf", OutputPath := [], InPlace := false,
    Set := { Title := some (bytesOf "x") }, Unset := [], UnsetAll := false }

/-- A string every rune of which the XML reader accepts: valid UTF-8 and
characters in the range of XML 1.0 (the check of the method `text`). -/
def xmlSafe (s : Bytes) : Bool := validChars s.length s

/-- The variables of the loop of `Unmarshal` together with the input left and
the reader's stack of open elements. -/
structure LoopState where
  input : Bytes
  openEls : List XName
  stack : List Bytes
  meta : Metadata
  sawXMP : Bool

/-- The loop of `Unmarshal` started in a state. -/
def LoopState.run (env : XmlEnv) (fuel : Nat) (s : LoopState) : Except XmpError Metadata :=
  unmarshalLoop env fuel s.input s.openEls s.stack s.meta s.sawXMP

/-- The loop goes from `s` to `s2` in `k` iterations, `k` at most the number of
bytes read in between. -/
def Reaches (env : XmlEnv) (s s2 : LoopState) : Prop :=
  ∃ k, k + s2.input.length ≤ s.input.length ∧
    ∀ fuel, s.run env (fuel + k) = s2.run env fuel

/-- The open elements and the stack of `Unmarshal` inside `rdf:Description`. -/
def descriptionEls : List XName :=
  [⟨bytesOf "rdf", bytesOf "Description"⟩, ⟨bytesOf "rdf", bytesOf "RDF"⟩,
    ⟨bytesOf "x", bytesOf "xmpmeta"⟩]

def descriptionStack : List Bytes :=
  [bytesOf "xmpmeta", bytesOf "RDF", bytesOf "Description"]

/-- Every field of the record is XML-safe. -/
def fieldsXmlSafe (m : Metadata) : Bool :=
  xmlSafe m.Title && xmlSafe m.Author && xmlSafe m.Subject && xmlSafe m.Keywords
    && xmlSafe m.Creator && xmlSafe m.Producer && xmlSafe m.CreationDate && xmlSafe m.ModDate

/-- The record with `strings.TrimSpace` applied to each field. -/
def trimFields (m : Metadata) : Metadata :=
  { Title := trimSpace m.Title, Author := trimSpace m.Author, Subject := trimSpace m.Subject,
    Keywords := trimSpace m.Keywords, Creator := trimSpace m.Creator,
    Producer := trimSpace m.Producer, CreationDate := trimSpace m.CreationDate,
    ModDate := trimSpace m.ModDate }

/-- A record whose Title is one space. -/
def spaceTitle : Metadata := { Title := bytesOf " " }

/-- A record whose fields need escaping, hold a character of two bytes and
have white space around them; the Author is `Zo` and U+00EB in UTF-8. -/
def escapedRecord : Metadata :=
  { Title := bytesOf " a<b>&\"c\" ", Author := [90, 111, 0xC3, 0xAB], Keywords := bytesOf "x\ty\n" }

/-- The file `minimalPdf` with one more object, numbered with the largest Go `int`. -/
def hugeObjectPdf : Bytes :=
  bytesOf "%PDF-1.4\n1 0 obj\n<< /Type /Catalog /Pages 2 0 R >>\nendobj\n2 0 obj\n<< /Type /Pages /Count 0 >>\nendobj\n9223372036854775807 0 obj\n<< >>\nendobj\ntrailer\n<< /Size 3 /Root 1 0 R >>\nstartxref\n9\n%%EOF\n"

/-- The string `p` stands at index `i` of `s`. -/
def occursAt (s p : Bytes) (i : Nat) : Bool := hasPrefix (s.drop i) p

/-- A file with three bytes of junk before its header. -/
def junkBeforeHeader : Bytes := bytesOf "xyz%PDF-1.7\n%%EOF\n"

/-- A file whose header starts at index 1020, so that it ends behind the window of 1024 bytes. -/
def lateHeader : Bytes := List.replicate 1020 32 ++ bytesOf "%PDF-1.7\n"

/-- The first white-space-delimited token of a text, in the words of the
specification of `parseStartXRef`: the bytes after the leading white space up
to the next white-space byte. -/
def specFirstToken (s : Bytes) : Bytes :=
  (s.dropWhile isAsciiSpace).takeWhile (fun c => !isAsciiSpace c)

/-- A cross-reference pointer followed by a second number on its line. -/
def startxrefTwoNumbers : Bytes := bytesOf "startxref\n12 0\n%%EOF\n"

/-- The delimiters `<<` (`true`) and `>>` (`false`) of a text with their
indices, read from left to right; `i` is the index of the first byte. -/
def delimsFrom : Bytes → Nat → List (Bool × Nat)
  | a :: b :: rest, i =>
    if a = 60 ∧ b = 60 then (true, i) :: delimsFrom rest (i + 2)
    else if a = 62 ∧ b = 62 then (false, i) :: delimsFrom rest (i + 2)
    else delimsFrom (b :: rest) (i + 1)
  | _, _ => []

/-- The index of the first `>>` up to which as many `>>` as `<<` were read,
`opens` and `closes` being the numbers read before. -/
def firstBalanced : List (Bool × Nat) → Nat → Nat → Option Nat
  | [], _, _ => none
  | (true, _) :: ts, opens, closes => firstBalanced ts (opens + 1) closes
  | (false, i) :: ts, opens, closes =>
    if opens = closes + 1 then some i else firstBalanced ts opens (closes + 1)

/-- The `>>` that balances the `<<` at the head of `xs`, as an index into `xs`,
in the words of the specification: pairs `<<` and `>>` are counted. -/
def specBalancedEnd (xs : Bytes) : Option Nat := firstBalanced (delimsFrom xs 0) 0 0

/-- A trailer with a nested dictionary and text behind it. -/
def nestedTrailer : Bytes :=
  bytesOf "trailer x trailer\n<< /A << /B 1 >> /Root 1 0 R >> junk >>\nstartxref\n0\n"

def isCRLF (c : Nat) : Bool := c == 10 || c == 13

/-- An object body whose stream data begins with an empty line. -/
def streamWithEmptyLine : Bytes := bytesOf "<< /Length 5 >>\nstream\n\nABC\nendstream\n"

/-- The bytes a string of hexadecimal digits denotes, two digits a byte. -/
def hexDecode : Bytes → Bytes
  | a :: b :: rest => (hexValue a * 16 + hexValue b) :: hexDecode rest
  | _ => []

/-- A record with a Title and a patch that names the Title with the empty string. -/
def titledRecord : Metadata := { Title := bytesOf "a" }

def emptyTitlePatch : MetadataPatch := { Title := some [] }

/-- No entry of the patch is the empty string. -/
def patchNonEmpty (p : MetadataPatch) : Bool :=
  p.Title != some [] && p.Author != some [] && p.Subject != some [] && p.Keywords != some []
    && p.Creator != some [] && p.Producer != some [] && p.CreationDate != some []
    && p.ModDate != some []

/-- The keys of the Info dictionary in ascending order of their bytes. -/
def infoKeysSorted : List Bytes :=
  [bytesOf "Author", bytesOf "CreationDate", bytesOf "Creator", bytesOf "Keywords",
    bytesOf "ModDate", bytesOf "Producer", bytesOf "Subject", bytesOf "Title"]

/-- Every key of the list is below the next one. -/
def ascending : List Bytes → Bool
  | a :: b :: rest => bytesLt a b && ascending (b :: rest)
  | _ => true

/-- The wrapper of an XMP packet up to the element lines. -/
def xmpWrapperHead : Bytes :=
  bytesOf "<?xpacket begin=\"\\uFEFF\" id=\"W5M0MpCehiHzreSzNTczkc9d\"?>\n<x:xmpmeta xmlns:x=\"adobe:ns:meta/\" x:xmptk=\"pdfmeta\">\n<rdf:RDF xmlns:rdf=\"http://www.w3.org/1999/02/22-rdf-syntax-ns#\">\n<rdf:Description rdf:about=\"\" xmlns:dc=\"http://purl.org/dc/elements/1.1/\" xmlns:pdf=\"http://ns.adobe.com/pdf/1.3/\" xmlns:xmp=\"http://ns.adobe.com/xap/1.0/\">\n"

/-- The wrapper of an XMP packet behind the element lines. -/
def xmpWrapperTail : Bytes :=
  bytesOf "</rdf:Description>\n</rdf:RDF>\n</x:xmpmeta>\n<?xpacket end=\"w\"?>\n"

/-- The element line of a field: nothing for the empty value, else the opening
tags, the escaped value, the closing tags and a line feed. -/
def elementLine (opening closing value : Bytes) : Bytes :=
  if value = [] then [] else opening ++ xmlEscape value ++ closing ++ [10]

/-- The tokens `xml.Decoder.Token` returns for `input` up to its end, `none`
when it reports a syntax error: a token that does not parse, an end tag that
does not close the element last opened, or an element left open at the end.
`openEls` are the elements open at the start. -/
def readTokens (env : XmlEnv) : Nat → Bytes → List XName → Option (List XmlToken)
  | 0, _, _ => none
  | fuel + 1, input, openEls =>
    match input with
    | [] => if openEls.isEmpty then some [] else none
    | _ :: _ =>
      match xmlRawToken env input with
      | none => none
      | some (.StartElement name selfClosing, rest) =>
        (readTokens env fuel rest (if selfClosing then openEls else name :: openEls)).map
          (fun ts => .StartElement name selfClosing :: ts)
      | some (.EndElement name, rest) =>
        match openEls with
        | [] => none
        | top :: els =>
          if top = name then (readTokens env fuel rest els).map (fun ts => .EndElement name :: ts)
          else none
      | some (.CharData data, rest) =>
        (readTokens env fuel rest openEls).map (fun ts => .CharData data :: ts)
      | some (.Other, rest) => (readTokens env fuel rest openEls).map (fun ts => .Other :: ts)

/-- The token stream of a whole input. -/
def tokensOf (env : XmlEnv) (input : Bytes) : Option (List XmlToken) :=
  readTokens env (input.length + 1) input []

/-- The token is a start element with the local name `xmpmeta`. -/
def isXmpmetaStart : XmlToken → Bool
  | .StartElement name _ => name.Local == bytesOf "xmpmeta"
  | _ => false

/-- The number of elements of a token stream that are inside no other element. -/
def topLevelElements : List XmlToken → Nat → Nat
  | [], _ => 0
  | .StartElement _ selfClosing :: ts, depth =>
    (if depth = 0 then 1 else 0) + topLevelElements ts (if selfClosing then depth else depth + 1)
  | .EndElement _ :: ts, depth => topLevelElements ts (depth - 1)
  | _ :: ts, depth => topLevelElements ts depth

/-- An input with two elements at the top level. -/
def twoRootElements : Bytes := bytesOf "<x:xmpmeta></x:xmpmeta><b></b>"

/-- An input with two Title runs and two Keywords runs. -/
def repeatedFields : Bytes :=
  bytesOf "<x:xmpmeta><dc:title><rdf:Alt><rdf:li> first </rdf:li><rdf:li>second</rdf:li></rdf:Alt></dc:title><pdf:Keywords>k1</pdf:Keywords><pdf:Keywords> k2\n</pdf:Keywords><other>zzz</other></x:xmpmeta>"

/-- The function `Extract` of packet.go. -/
def Extract (pdfBytes : Bytes) : Option Bytes :=
  match index pdfBytes xmpOpenTag with
  | none => none
  | some start =>
    match index (pdfBytes.drop start) xmpCloseTag with
    | none => none
    | some e => some ((pdfBytes.take (e + (start + xmpCloseTag.length))).drop start)

/-- The function `Upsert` of packet.go; `Marshal` returns no error, so neither does it. -/
def Upsert (pdfBytes : Bytes) (metadata : Metadata) : Bytes :=
  let packet := Marshal metadata
  let replaced : Option Bytes :=
    match index pdfBytes xmpOpenTag with
    | none => none
    | some start =>
      match index (pdfBytes.drop start) xmpCloseTag with
      | none => none
      | some e =>
        some (pdfBytes.take start ++ packet ++ pdfBytes.drop (e + (start + xmpCloseTag.length)))
  match replaced with
  | some out => out
  | none =>
    match lastIndex pdfBytes (bytesOf "%%EOF") with
    | none => pdfBytes ++ packet
    | some eof => pdfBytes.take eof ++ packet ++ pdfBytes.drop eof

/-! ## internal/validate and the dates of internal/app/service.go

`time.Parse` and `Time.Format` belong to Go's standard library, not to the
repository; the model takes them as a parameter (`TimeEnv`) and its theorems
hold for every value of it.  The one fact about the library that is used is
how every RFC3339 text begins. -/

/-- The four layouts `normalizeDate` tries, in its order. -/
inductive DateLayout where
  | dashDate
  | dashDateTime
  | slashDate
  | slashDateTime
deriving DecidableEq, Repr

/-- The layouts of `normalizeDate`: `2006-01-02`, `2006-01-02 15:04:05`,
`2006/01/02`, `2006/01/02 15:04:05`. -/
def dateLayouts : List DateLayout :=
  [.dashDate, .dashDateTime, .slashDate, .slashDateTime]

structure TimeEnv where
  /-- Whether `time.Parse(time.RFC3339, s)` returns no error. -/
  parsesRFC3339 : Bytes → Bool
  /-- The text `ts.UTC().Format(time.RFC3339)` for the `ts` that
  `time.Parse(layout, s)` returns, `none` when it returns an error. -/
  parseFormat : DateLayout → Bytes → Option Bytes
  /-- The layout `2006-01-02T15:04:05Z07:00` begins with the year in four
  digits and a hyphen, so every text `time.Parse` accepts for it does. -/
  rfc3339_begin : ∀ s, parsesRFC3339 s = true → isDigit (s.getD 0 0) = true ∧ s.getD 4 0 = 45

/-- Two decimal digits at the head of the input: the input behind them. -/
def twoDigits : Bytes → Option Bytes
  | a :: b :: rest => if isDigit a && isDigit b then some rest else none
  | _ => none

/-- The alternatives `[Zz]|[+-]\d{2}'?\d{2}'?` up to the end of the text. -/
def tzSuffix (s : Bytes) : Bool :=
  s == [90] || s == [122] ||
    (match s with
     | sign :: r =>
       (sign == 43 || sign == 45) &&
         (match twoDigits r with
          | some r2 =>
            (match twoDigits (if r2.head? = some 39 then r2.tail else r2) with
             | some r4 => r4 == [] || r4 == [39]
             | none => false)
          | none => false)
     | [] => false)

/-- The nested optional groups `(\d{2}(\d{2}( ... )?)?)?` of `pdfDatePattern`
up to the end of the text, `depth` groups of two digits around the group of
the time zone. -/
def optDigitPairs : Nat → Bytes → Bool
  | 0, s => s == [] || tzSuffix s
  | depth + 1, s =>
    s == [] || (match twoDigits s with
      | some rest => optDigitPairs depth rest
      | none => false)

/-- Whether `pdfDatePattern` matches: `D:`, four digits and five nested
optional groups of two digits, the innermost with the optional time zone;
the pattern is anchored at both ends. -/
def pdfDatePatternMatch (s : Bytes) : Bool :=
  match s with
  | 68 :: 58 :: a :: b :: c :: d :: rest =>
    isDigit a && isDigit b && isDigit c && isDigit d && optDigitPairs 5 rest
  | _ => false

/-- The PDF date form in the words of the specification: `D:`, then 4, 6, 8,
10, 12 or 14 digits, and behind 14 digits optionally `Z`, `z`, or a sign, two
digits, an optional apostrophe, two digits and an optional apostrophe. -/
def specPdfDate (s : Bytes) : Bool :=
  hasPrefix s (bytesOf "D:") &&
    (let n := ((s.drop 2).takeWhile isDigit).length
     let z := (s.drop 2).dropWhile isDigit
     ((n == 4 || n == 6 || n == 8 || n == 10 || n == 12) && z == [])
       || (n == 14 && (z == [] || tzSuffix z)))

/-- Go `validate.DateString`: `.ok ()` is the nil error. -/
def DateString (env : TimeEnv) (value : Bytes) : Except String Unit :=
  let trimmed := trimSpace value
  if trimmed.isEmpty then .error "must not be empty"
  else if env.parsesRFC3339 trimmed then .ok ()
  else if pdfDatePatternMatch trimmed then .ok ()
  else .error "must be RFC3339 or PDF date format"

/-- The function `dateValue` of validate.go. -/
def dateValue (env : TimeEnv) (v : Bytes) (strict : Bool) : Except String Unit :=
  if (trimSpace v).isEmpty then .error "must not be empty"
  else if strict then DateString env v
  else .ok ()

def validationError (msg : String) : AppError := ⟨.ErrValidation, msg⟩

/-- The function `metadataPatch` of validate.go. -/
def metadataPatch (env : TimeEnv) (patch : MetadataPatch) (strict : Bool) : Except AppError Unit :=
  match (match patch.CreationDate with
         | some v => dateValue env v strict
         | none => .ok ()) with
  | .error e => .error (validationError ("creation-date " ++ e))
  | .ok _ =>
    match (match patch.ModDate with
           | some v => dateValue env v strict
           | none => .ok ()) with
    | .error e => .error (validationError ("mod-date " ++ e))
    | .ok _ => .ok ()

/-- Go `model.IOOptions`. -/
structure IoOptions where
  InputPath : Bytes
  OutputPath : Bytes
  InPlace : Bool

structure SetRequest where
  Io : IoOptions
  Strict : Bool
  Changes : MetadataPatch

def ioOptions (io : IoOptions) : Except AppError Unit :=
  if (trimSpace io.InputPath).isEmpty then .error (validationError "input path is required")
  else if (trimSpace io.OutputPath).isEmpty && !io.InPlace then
    .error (validationError "either output path or in-place mode is required")
  else if !(trimSpace io.OutputPath).isEmpty && io.InPlace then
    .error (validationError "output path and in-place mode are mutually exclusive")
  else .ok ()

def HasAnyPatchField (patch : MetadataPatch) : Bool :=
  patch.Title.isSome || patch.Author.isSome || patch.Subject.isSome || patch.Keywords.isSome
    || patch.Creator.isSome || patch.Producer.isSome || patch.CreationDate.isSome
    || patch.ModDate.isSome

/-- Go `validate.SetRequest`. -/
def validateSetRequest (env : TimeEnv) (req : SetRequest) : Except AppError Unit :=
  match ioOptions req.Io with
  | .error e => .error e
  | .ok _ =>
    match metadataPatch env req.Changes req.Strict with
    | .error e => .error e
    | .ok _ =>
      if !HasAnyPatchField req.Changes then
        .error (validationError "at least one metadata field must be set")
      else .ok ()

/-- The loop of `normalizeDate` over its layouts: the first that parses. -/
def firstLayout (env : TimeEnv) (value : Bytes) : List DateLayout → Option Bytes
  | [] => none
  | l :: ls =>
    match env.parseFormat l value with
    | some r => some r
    | none => firstLayout env value ls

/-- The function `normalizeDate` of service.go: the value and whether it changed. -/
def normalizeDate (env : TimeEnv) (input : Bytes) (strict : Bool) : Except AppError (Bytes × Bool) :=
  let value := trimSpace input
  if value.isEmpty then .ok ([], false)
  else match DateString env value with
    | .ok _ => .ok (value, value != input)
    | .error _ =>
      if strict then .error ⟨.ErrValidation, "invalid date format"⟩
      else match firstLayout env value dateLayouts with
        | some r => .ok (r, true)
        | none => .ok (value, false)

/-! ### A value of `TimeEnv` for the examples

It reads the texts in which every part but the year has two digits, the date
and the time are one space apart and the second has no fraction; `time.Parse`
reads those texts the same way, and a few more. -/

def isLeapYear (y : Nat) : Bool := y % 4 == 0 && (y % 100 != 0 || y % 400 == 0)

def daysIn (m y : Nat) : Nat :=
  if m = 2 then (if isLeapYear y then 29 else 28)
  else if m = 4 ∨ m = 6 ∨ m = 9 ∨ m = 11 then 30 else 31

/-- A date `YYYY?MM?DD` with the separator `sep` at the head of the input: its
ten bytes with hyphens as separators, and the input behind it. -/
def fixedDate (sep : Nat) : Bytes → Option (Bytes × Bytes)
  | y1 :: y2 :: y3 :: y4 :: s1 :: m1 :: m2 :: s2 :: d1 :: d2 :: rest =>
    if [y1, y2, y3, y4, m1, m2, d1, d2].all isDigit && s1 == sep && s2 == sep
        && decide (1 ≤ digitsValue 0 [m1, m2]) && decide (digitsValue 0 [m1, m2] ≤ 12)
        && decide (1 ≤ digitsValue 0 [d1, d2])
        && decide (digitsValue 0 [d1, d2] ≤ daysIn (digitsValue 0 [m1, m2]) (digitsValue 0 [y1, y2, y3, y4]))
    then some ([y1, y2, y3, y4, 45, m1, m2, 45, d1, d2], rest)
    else none
  | _ => none

/-- A time `HH:MM:SS` at the head of the input: its eight bytes and the input behind it. -/
def fixedTime : Bytes → Option (Bytes × Bytes)
  | h1 :: h2 :: c1 :: m1 :: m2 :: c2 :: s1 :: s2 :: rest =>
    if [h1, h2, m1, m2, s1, s2].all isDigit && c1 == 58 && c2 == 58
        && decide (digitsValue 0 [h1, h2] < 24) && decide (digitsValue 0 [m1, m2] < 60)
        && decide (digitsValue 0 [s1, s2] < 60)
    then some ([h1, h2, 58, m1, m2, 58, s1, s2], rest)
    else none
  | _ => none

def fixedParseFormat (l : DateLayout) (s : Bytes) : Option Bytes :=
  match fixedDate (if l = .dashDate ∨ l = .dashDateTime then 45 else 47) s with
  | none => none
  | some (d, rest) =>
    if l = .dashDate ∨ l = .slashDate then
      (if rest.isEmpty then some (d ++ bytesOf "T00:00:00Z") else none)
    else match rest with
      | 32 :: r =>
        match fixedTime r with
        | some (t, []) => some (d ++ [84] ++ t ++ [90])
        | _ => none
      | _ => none

/-- A date, `T`, a time and `Z`. -/
def fixedRFC3339 (s : Bytes) : Bool :=
  match fixedDate 45 s with
  | some (_, 84 :: r) =>
    (match fixedTime r with
     | some (_, [90]) => true
     | _ => false)
  | _ => false

def fixedTimeEnv : TimeEnv :=
  { parsesRFC3339 := fixedRFC3339
    parseFormat := fixedParseFormat
    rfc3339_begin := by
      intro s h
      unfold fixedRFC3339 at h
      cases hd : fixedDate 45 s with
      | none => rw [hd] at h; cases h
      | some r =>
        match s, hd with
        | y1 :: y2 :: y3 :: y4 :: s1 :: m1 :: m2 :: s2 :: d1 :: d2 :: rest, hd =>
          simp only [fixedDate] at hd
          split at hd
          · rename_i hc
            simp only [List.all_cons, List.all_nil, Bool.and_true, Bool.and_eq_true,
              beq_iff_eq] at hc
            exact ⟨hc.1.1.1.1.1.1.1, hc.1.1.1.1.1.2⟩
          · cases hd }

/-- A strict request that sets the creation date to `v`, written to `out.pdf`. -/
def strictDateRequest (v : Bytes) : SetRequest :=
  { Io := { InputPath := bytesOf "in.pdf", OutputPath := bytesOf "out.pdf", InPlace := false }
    Strict := true
    Changes := { CreationDate := some v } }

/-! ### Patterns as lists of pieces

The pattern of `parseNamedRef` once more, as a list of pieces that are matched
one after the other; the theorems about texts in which a byte stops every
piece are proved on this form. -/

/-- A piece of a pattern: one byte, the run `\s+` or the run `\d+`. -/
inductive Piece where
  | lit (c : Nat)
  | spaces
  | digits
deriving DecidableEq, Repr

/-- The input behind a match of the pieces at the head of the input. -/
def matchPieces : List Piece → Bytes → Option Bytes
  | [], xs => some xs
  | .lit _ :: _, [] => none
  | .lit c :: ps, x :: xs => if x = c then matchPieces ps xs else none
  | .spaces :: _, [] => none
  | .spaces :: ps, x :: xs => if isReSpace x then matchPieces ps (xs.dropWhile isReSpace) else none
  | .digits :: ps, xs =>
    if (xs.takeWhile isDigit).isEmpty then none else matchPieces ps (xs.dropWhile isDigit)

/-- The pieces of `\s+\d+\s+\d+\s+R`. -/
def refTailPieces : List Piece := [.spaces, .digits, .spaces, .digits, .spaces, .lit 82]

/-- The pieces of `/name\s+\d+\s+\d+\s+R`. -/
def namedRefPieces (name : Bytes) : List Piece :=
  .lit 47 :: (name.map Piece.lit ++ refTailPieces)

/-- A byte at which every piece of `namedRefPieces name` stops. -/
def isStopper (name : Bytes) (b : Nat) : Bool :=
  !isReSpace b && !isDigit b && b != 82 && !name.contains b

/-- A text that begins, behind white space if any, with a stopper. -/
def isBlocked (name : Bytes) (s : Bytes) : Bool :=
  match s.dropWhile isReSpace with
  | b :: _ => isStopper name b
  | [] => false

/-- A Catalog dictionary without a Metadata entry. -/
def plainCatalog : Bytes := bytesOf "<< /Type /Catalog /Pages 2 0 R >>"

/-- The pieces are bytes of the name or `R`, and a run is never the last piece:
at a stopper every such list of pieces fails. -/
def stopsAll (name : Bytes) : List Piece → Bool
  | [] => true
  | .lit c :: ps => (name.contains c || c == 82) && stopsAll name ps
  | .spaces :: ps => !ps.isEmpty && stopsAll name ps
  | .digits :: ps => !ps.isEmpty && stopsAll name ps
/-- A Catalog dictionary with a Metadata entry, and a reference to put in. -/
def catalogWithMetadata : Bytes := bytesOf "<< /Type /Catalog /Metadata 5 0 R /Pages 2 0 R >>"

def sampleRef : ObjRef := { Obj := 7, Gen := 0 }

/-- A date value of white space only. -/
def blankDate : Bytes := bytesOf " \t "
/-! ## internal/model/errors.go: exit codes -/

/-- The text of a code, the Go constant of type `ErrorCode`. -/
def ErrorCode.text : ErrorCode → Bytes
  | .ErrUnknown => bytesOf "unknown"
  | .ErrUsage => bytesOf "usage"
  | .ErrValidation => bytesOf "validation"
  | .ErrNotFound => bytesOf "not_found"
  | .ErrConflict => bytesOf "conflict"
  | .ErrPDFEncrypted => bytesOf "pdf_encrypted"
  | .ErrPDFMalformed => bytesOf "pdf_malformed"
  | .ErrIo => bytesOf "io"
  | .ErrInternal => bytesOf "internal"

/-- One error of a chain of wrapped errors: a non-nil `*AppError` with its
code, which in Go is any string, and its message; a nil `*AppError` held in a
non-nil `error`; or an error of another type. -/
inductive ErrNode where
  | app (code : Bytes) (message : Bytes)
  | nilApp
  | other (text : Bytes)
deriving DecidableEq, Repr

/-- The error has the type `*AppError`, the type `errors.As` looks for. -/
def ErrNode.isAppPointer : ErrNode → Bool
  | .app _ _ => true
  | .nilApp => true
  | .other _ => false

/-- A Go `error` as the chain that `Unwrap` walks: the empty list is `nil`, the
head is the error itself and the tail is what it wraps.  Errors that wrap
several errors at once, and errors with a method `As` of their own, are not
modelled.  The chain ends at a nil `*AppError`, whose `Unwrap` returns nil;
what the list holds behind it is never looked at. -/
abbrev GoError := List ErrNode

/-- Go `errors.As(err, &ae)` for `ae` of type `*AppError`: `none` when the
chain holds no error of that type; else what is stored in `ae`, the first
error of that type: `some (some code)` for a pointer to an `AppError` with
that code, `some none` for the nil pointer. -/
def asAppError : GoError → Option (Option Bytes)
  | [] => none
  | .app code _ :: _ => some (some code)
  | .nilApp :: _ => some none
  | .other _ :: rest => asAppError rest

/-- Go `model.ExitCode`.  The result is `none` where the source panics: when
`errors.As` stores a nil pointer in `ae`, `ae.Code` dereferences it. -/
def ExitCode (err : GoError) : Option Int :=
  if err.isEmpty then some 0
  else match asAppError err with
    | none => some 1
    | some none => none
    | some (some code) =>
      if code = ErrorCode.text .ErrUsage then some 2
      else if code = ErrorCode.text .ErrValidation then some 3
      else if code = ErrorCode.text .ErrNotFound then some 4
      else if code = ErrorCode.text .ErrConflict then some 5
      else if code = ErrorCode.text .ErrPDFEncrypted then some 6
      else if code = ErrorCode.text .ErrPDFMalformed then some 7
      else if code = ErrorCode.text .ErrIo then some 8
      else if code = ErrorCode.text .ErrInternal then some 9
      else some 1

/-- The table of exit codes as the specification gives it. -/
def specExitCode : ErrorCode → Int
  | .ErrUnknown => 1
  | .ErrUsage => 2
  | .ErrValidation => 3
  | .ErrNotFound => 4
  | .ErrConflict => 5
  | .ErrPDFEncrypted => 6
  | .ErrPDFMalformed => 7
  | .ErrIo => 8
  | .ErrInternal => 9

/-- An `AppError` of kind `io` wrapped twice by errors of other types. -/
def wrappedIoError : GoError :=
  [.other (bytesOf "outer"), .other (bytesOf "inner"), .app (bytesOf "io") (bytesOf "disk")]

/-- The error `fmt.Errorf("wrap: %w", &AppError{Code: ErrValidation})` of the
test of `ExitCode`. -/
def wrappedValidationError : GoError :=
  [.other (bytesOf "wrap: validation"), .app (bytesOf "validation") []]

/-! ## internal/validate/fields.go -/

/-- Go `model.AllFields`. -/
def AllFields : List Field :=
  [FieldTitle, FieldAuthor, FieldSubject, FieldKeywords, FieldCreator, FieldProducer,
    FieldCreationDate, FieldModDate]

def isKnownField (f : Field) : Bool := AllFields.contains f

/-- The first loop of `NormalizeFields`; `seen` holds the keys of the map.
The messages of the source quote the field with `%q`; here they end before it. -/
def checkFields : List Field → List Field → Except AppError (List Field)
  | [], seen => .ok seen
  | f :: fs, seen =>
    if !isKnownField f then .error (validationError "unknown field")
    else if seen.contains f then .error (validationError "duplicate field")
    else checkFields fs (f :: seen)

/-- Go `validate.NormalizeFields`; the nil slice and the empty slice are both `[]`. -/
def NormalizeFields (fields : List Field) : Except AppError (List Field) :=
  if fields.isEmpty then .ok []
  else match checkFields fields [] with
    | .error e => .error e
    | .ok seen => .ok (AllFields.filter (fun f => seen.contains f))

/-- A record with the characters that `xmlEscape` rewrites, with CR, LF and TAB
inside a value, a value of three bytes in UTF-8 and a value of white space. -/
def markupRecord : Metadata :=
  { Title := bytesOf "a & b <c> \"d\" 'e'", Subject := bytesOf "line1\r\nline2\tend",
    Author := [0xE2, 0x82, 0xAC], Keywords := bytesOf " \n ", Producer := bytesOf "  padded " }
/-- The number of indices of `s` at which `p` stands. -/
def countAt (s p : Bytes) : Nat := ((List.range (s.length + 1)).filter (occursAt s p)).length

/-- The file of the tests of `Upsert`: a header and nothing else. -/
def headerOnlyPdf : Bytes := bytesOf "%PDF-1.4\n"

def firstTitle : Metadata := { Title := bytesOf "first" }
/-! ## internal/app/service.go: `normalizeMetadata` -/

/-- The closure `normalize` of `normalizeMetadata` applied to one field: the
trimmed value and the flag `changed` after it. -/
def normalizeText (v : Bytes) (changed : Bool) : Bytes × Bool :=
  (trimSpace v, if v != trimSpace v then true else changed)

/-- The function `normalizeMetadata` of service.go: the record and the flag `changed`. -/
def normalizeMetadata (env : TimeEnv) (meta : Metadata) (strict : Bool) :
    Except AppError (Metadata × Bool) :=
  let changed := false
  let (title, changed) := normalizeText meta.Title changed
  let (author, changed) := normalizeText meta.Author changed
  let (subject, changed) := normalizeText meta.Subject changed
  let (keywords, changed) := normalizeText meta.Keywords changed
  let (creator, changed) := normalizeText meta.Creator changed
  let (producer, changed) := normalizeText meta.Producer changed
  match normalizeDate env meta.CreationDate strict with
  | .error e => .error e
  | .ok (creationDate, dateChanged) =>
    let changed := if dateChanged then true else changed
    match normalizeDate env meta.ModDate strict with
    | .error e => .error e
    | .ok (modDate, dateChanged) =>
      let changed := if dateChanged then true else changed
      .ok ({ Title := title, Author := author, Subject := subject, Keywords := keywords,
             Creator := creator, Producer := producer, CreationDate := creationDate,
             ModDate := modDate }, changed)

/-- A record whose creation date is no date and has blanks around it. -/
def paddedDateRecord : Metadata := { Title := bytesOf "Report", CreationDate := bytesOf " next week " }

/-- A record whose modification date is white space. -/
def blankDateRecord : Metadata := { Title := bytesOf "Report", ModDate := bytesOf "  " }

/-! ## internal/template/store.go

The store keeps its records in one JSON file.  The file is modelled by the
list of records that `json.Unmarshal` reads from its text (the empty list when
the file is missing or blank); the JSON text itself is outside the model.  A
string that `json.MarshalIndent` writes is read back as `jsonText` of it: a
byte that is not part of a valid UTF-8 encoding comes back as U+FFFD.  What
the file system and the context do during one call is a value of `StoreIo`. -/

/-- Go `model.TemplateRecord`. -/
structure TemplateRecord where
  Name : Bytes := []
  Note : Bytes := []
  Metadata : MetadataPatch := {}
deriving DecidableEq, Repr

/-- The loop of `jsonText`. -/
def jsonTextLoop : Nat → Bytes → Bytes
  | 0, _ => []
  | fuel + 1, s =>
    match s with
    | [] => []
    | _ :: rest =>
      if (decodeRune s).1 == runeError && (decodeRune s).2 == 1 then
        [0xEF, 0xBF, 0xBD] ++ jsonTextLoop fuel rest
      else s.take (decodeRune s).2 ++ jsonTextLoop fuel (s.drop (decodeRune s).2)

/-- A Go string as `encoding/json` gives it back after writing and reading it:
the encoder writes `\ufffd` for each byte at which `utf8.DecodeRuneInString`
finds no valid encoding, and the decoder reads that as U+FFFD, the bytes
`EF BF BD`; every valid encoding is kept, the escapes that the encoder writes
for some characters being undone by the decoder. -/
def jsonText (s : Bytes) : Bytes := jsonTextLoop s.length s

/-- A patch written and read back by `encoding/json`: a nil pointer is left
out and read as nil, a string is read as `jsonText` of it. -/
def jsonPatch (p : MetadataPatch) : MetadataPatch :=
  { Title := p.Title.map jsonText, Author := p.Author.map jsonText,
    Subject := p.Subject.map jsonText, Keywords := p.Keywords.map jsonText,
    Creator := p.Creator.map jsonText, Producer := p.Producer.map jsonText,
    CreationDate := p.CreationDate.map jsonText, ModDate := p.ModDate.map jsonText }

/-- A record written and read back by `encoding/json`. -/
def jsonRecord (t : TemplateRecord) : TemplateRecord :=
  { Name := jsonText t.Name, Note := jsonText t.Note, Metadata := jsonPatch t.Metadata }

/-- Go `sort.Slice` with the comparison of `sortTemplates`, a function of the
standard library: the result is a rearrangement of the input in which no record
stands before a record of a smaller name.  The sort is not stable, so the order
of records of equal names is left open. -/
structure SortEnv where
  sort : List TemplateRecord → List TemplateRecord
  perm : ∀ l, (sort l).Perm l
  sorted : ∀ l, (sort l).Pairwise (fun a b => bytesLt b.Name a.Name = false)

def sortTemplates (env : SortEnv) (records : List TemplateRecord) : List TemplateRecord :=
  env.sort records

/-- The outside world during one call of the store: whether the context is
cancelled, the error of reading and decoding the file if that fails, and the
error of encoding and writing it if that fails. -/
structure StoreIo where
  canceled : Bool := false
  loadError : Option AppError := none
  storeError : Option AppError := none

def ctxErr (io : StoreIo) : Option AppError :=
  if io.canceled then some ⟨.ErrInternal, "operation canceled"⟩ else none

/-- The method `load`: the records of the file, sorted. -/
def FileStore.load (env : SortEnv) (io : StoreIo) (file : List TemplateRecord) :
    Except AppError (List TemplateRecord) :=
  match io.loadError with
  | some e => .error e
  | none => .ok (sortTemplates env file)

/-- The method `store`: the records the file holds after the call, which are
the sorted records as `json.MarshalIndent` writes them. -/
def FileStore.store (env : SortEnv) (io : StoreIo) (state : List TemplateRecord) :
    Except AppError (List TemplateRecord) :=
  match io.storeError with
  | some e => .error e
  | none => .ok ((sortTemplates env state).map jsonRecord)

/-- The loop of `Save` over the records: at the first record with the name of
`record`, the list with `record` in its place; `none` when the loop ends without one. -/
def replaceNamed (record : TemplateRecord) : List TemplateRecord → Option (List TemplateRecord)
  | [] => none
  | t :: ts =>
    if t.Name = record.Name then some (record :: ts)
    else match replaceNamed record ts with
      | some r => some (t :: r)
      | none => none

/-- Go `(*FileStore).Save`: the result and the records of the file after the
call.  The message of the conflict quotes the name with `%q` in the source. -/
def FileStore.Save (env : SortEnv) (io : StoreIo) (file : List TemplateRecord)
    (record : TemplateRecord) (force : Bool) :
    Except AppError TemplateRecord × List TemplateRecord :=
  match ctxErr io with
  | some e => (.error e, file)
  | none =>
    let name := trimSpace record.Name
    if name.isEmpty then (.error ⟨.ErrValidation, "template name is required"⟩, file)
    else
      let record := { record with Name := name }
      match FileStore.load env io file with
      | .error e => (.error e, file)
      | .ok state =>
        match replaceNamed record state with
        | some replaced =>
          if !force then (.error ⟨.ErrConflict, "template already exists"⟩, file)
          else match FileStore.store env io replaced with
            | .error e => (.error e, file)
            | .ok f => (.ok record, f)
        | none =>
          match FileStore.store env io (sortTemplates env (state ++ [record])) with
          | .error e => (.error e, file)
          | .ok f => (.ok record, f)

/-- Go `(*FileStore).Get`. -/
def FileStore.Get (env : SortEnv) (io : StoreIo) (file : List TemplateRecord) (name : Bytes) :
    Except AppError TemplateRecord :=
  match ctxErr io with
  | some e => .error e
  | none =>
    if (trimSpace name).isEmpty then .error ⟨.ErrValidation, "template name is required"⟩
    else
      match FileStore.load env io file with
      | .error e => .error e
      | .ok state =>
        match state.find? (fun record => record.Name == trimSpace name) with
        | some record => .ok record
        | none => .error ⟨.ErrNotFound, "template not found"⟩

/-- Go `(*FileStore).List`. -/
def FileStore.ListRecords (env : SortEnv) (io : StoreIo) (file : List TemplateRecord) :
    Except AppError (List TemplateRecord) :=
  match ctxErr io with
  | some e => .error e
  | none =>
    match FileStore.load env io file with
    | .error e => .error e
    | .ok state => .ok (sortTemplates env state)

/-- Go `(*FileStore).Delete`: the error, if any, and the records of the file
after the call. -/
def FileStore.Delete (env : SortEnv) (io : StoreIo) (file : List TemplateRecord) (name : Bytes) :
    Option AppError × List TemplateRecord :=
  match ctxErr io with
  | some e => (some e, file)
  | none =>
    if (trimSpace name).isEmpty then (some ⟨.ErrValidation, "template name is required"⟩, file)
    else
      match FileStore.load env io file with
      | .error e => (some e, file)
      | .ok state =>
        let next := state.filter (fun record => !(record.Name == trimSpace name))
        let found := state.any (fun record => record.Name == trimSpace name)
        if !found then (some ⟨.ErrNotFound, "template not found"⟩, file)
        else match FileStore.store env io (sortTemplates env next) with
          | .error e => (some e, file)
          | .ok f => (none, f)

/-- A call that changes the store. -/
inductive StoreOp where
  | save (record : TemplateRecord) (force : Bool)
  | delete (name : Bytes)

/-- The call saves no name that JSON changes: the trimmed name of a record to
save is valid UTF-8. -/
def StoreOp.nameKept : StoreOp → Bool
  | .save record _ => jsonText (trimSpace record.Name) == trimSpace record.Name
  | .delete _ => true

/-- The file after a sequence of calls all of which succeed; `none` when one fails. -/
def runStoreOps (env : SortEnv) : List TemplateRecord → List (StoreIo × StoreOp) →
    Option (List TemplateRecord)
  | file, [] => some file
  | file, (io, .save record force) :: rest =>
    match FileStore.Save env io file record force with
    | (.ok _, f) => runStoreOps env f rest
    | (.error _, _) => none
  | file, (io, .delete name) :: rest =>
    match FileStore.Delete env io file name with
    | (none, f) => runStoreOps env f rest
    | (some _, _) => none

/-- Insertion sort by name, a value of `SortEnv` for the examples. -/
def insertionSortEnv : SortEnv :=
  { sort := List.insertionSort (fun a b => bytesLt b.Name a.Name = false)
    perm := List.perm_insertionSort _
    sorted := by
      have asym : ∀ a b : Bytes, bytesLt a b = true → bytesLt b a = false := by
        intro a
        induction a with
        | nil => intro b _; cases b <;> rfl
        | cons x xs ih =>
          intro b h
          cases b with
          | nil => simp [bytesLt] at h
          | cons y ys =>
            simp only [bytesLt, Bool.or_eq_true, decide_eq_true_eq, Bool.and_eq_true,
              beq_iff_eq] at h
            simp only [bytesLt, Bool.or_eq_false_iff, decide_eq_false_iff_not, not_lt,
              Bool.and_eq_false_imp, beq_iff_eq]
            rcases h with h | ⟨h1, h2⟩
            · exact ⟨by omega, fun e => by omega⟩
            · exact ⟨by omega, fun _ => ih ys h2⟩
      have trans : ∀ a b c : Bytes, bytesLt b a = false → bytesLt c b = false →
          bytesLt c a = false := by
        intro a
        induction a with
        | nil => intro b c _ _; cases c <;> rfl
        | cons x xs ih =>
          intro b c h1 h2
          cases b with
          | nil => simp [bytesLt] at h1
          | cons y ys =>
            cases c with
            | nil => simp [bytesLt] at h2
            | cons z zs =>
              simp only [bytesLt, Bool.or_eq_false_iff, decide_eq_false_iff_not, not_lt,
                Bool.and_eq_false_imp, beq_iff_eq] at h1 h2 ⊢
              refine ⟨by omega, fun e => ?_⟩
              have e1 : y = x := by omega
              have e2 : z = y := by omega
              exact ih ys zs (h1.2 e1) (h2.2 e2)
      haveI : IsTotal TemplateRecord (fun a b => bytesLt b.Name a.Name = false) :=
        ⟨fun a b => by
          cases h : bytesLt b.Name a.Name with
          | false => exact Or.inl rfl
          | true => exact Or.inr (asym _ _ h)⟩
      haveI : IsTrans TemplateRecord (fun a b => bytesLt b.Name a.Name = false) :=
        ⟨fun a b c h1 h2 => trans a.Name b.Name c.Name h1 h2⟩
      exact fun l => List.sorted_insertionSort _ l }

/-- A store with one record without a name, as a file written by hand may hold. -/
def namelessStore : List TemplateRecord := [{ Name := [], Note := bytesOf "by hand" }]

/-- The store and the records of the test of `Save` with and without `force`. -/
def defaultV1 : TemplateRecord := { Name := bytesOf "default", Metadata := { Title := some (bytesOf "v1") } }

def defaultV2 : TemplateRecord := { Name := bytesOf " default ", Metadata := { Title := some (bytesOf "v2") } }

def twoTemplates : List TemplateRecord := [{ Name := bytesOf "alpha" }, defaultV1]
/-- Two calls of `Save`: a name of one character of four bytes, then a name
of the one byte `FF`, which is no UTF-8. -/
def invalidNameSteps : List (StoreIo × StoreOp) :=
  [({}, .save { Name := [0xF0, 0x9F, 0x98, 0x80] } false), ({}, .save { Name := [0xFF] } false)]

/-- The calls of the test of `List`: `zeta` is saved before `alpha`; then a
third record is saved and deleted again. -/
def listTestSteps : List (StoreIo × StoreOp) :=
  [({}, .save { Name := bytesOf "zeta" } false), ({}, .save { Name := bytesOf "alpha" } false),
    ({}, .save { Name := bytesOf " mid " } false), ({}, .delete (bytesOf "mid"))]

/-! ## internal/batch/engine.go

The runner is an interface whose methods act on the files; here a runner is
four functions on a state of the outside world of any type `σ`, with errors of
any type `ε`.  The results of the runner's methods other than the error are
dropped by the engine and are not modelled. -/

/-- Go `batch.Item`. -/
structure Item where
  Op : Bytes := []
  Input : Bytes := []
  Output : Bytes := []
  InPlace : Bool := false
  Set : MetadataPatch := {}
  Unset : List Field := []
  UnsetAll : Bool := false
  Template : Bytes := []

/-- Go `model.ShowRequest`, without the flag `JSON` that the engine leaves unset. -/
structure ShowRequest where
  InputPath : Bytes

/-- Go `model.UnsetRequest`; `Strict` is `Exec.Strict`. -/
structure UnsetRequest where
  Io : IoOptions
  Strict : Bool
  Fields : List Field
  All : Bool

/-- Go `model.TemplateApplyRequest`; `Strict` is `Exec.Strict`. -/
structure TemplateApplyRequest where
  Name : Bytes
  Io : IoOptions
  Strict : Bool

/-- Go `batch.Runner`: each method takes the state of the world and returns
the state after the call and the error, `none` for nil.  With the runner come
the two texts the engine takes from outside this package: `errorText` is the
method `Error` of the runner's errors, and `quote` is the verb `%q` of `fmt`
(`strconv.Quote`), with which the engine quotes an unknown operation. -/
structure Runner (σ ε : Type) where
  Show : σ → ShowRequest → σ × Option ε
  Set : σ → SetRequest → σ × Option ε
  Unset : σ → UnsetRequest → σ × Option ε
  TemplateApply : σ → TemplateApplyRequest → σ × Option ε
  errorText : ε → Bytes
  quote : Bytes → Bytes

/-- Go `model.BatchItemResult`. -/
structure BatchItemResult where
  InputPath : Bytes := []
  OutputPath : Bytes := []
  Status : Bytes := []
  Error : Bytes := []
deriving DecidableEq, Repr

/-- Go `model.BatchResult`. -/
structure BatchResult where
  Items : List BatchItemResult := []
  Total : Nat := 0
  Succeeded : Nat := 0
  Failed : Nat := 0
deriving DecidableEq, Repr

/-- Go `model.BatchRequest`, without the flag `JSON`. -/
structure BatchRequest where
  ManifestPath : Bytes
  ContinueOnError : Bool
  Strict : Bool

/-- The error of one item: one the engine makes itself, or one of the runner. -/
inductive ItemError (ε : Type) where
  | app (e : AppError)
  | run (e : ε)

def itemIo (item : Item) : IoOptions :=
  { InputPath := item.Input, OutputPath := item.Output, InPlace := item.InPlace }

/-- The method `executeItem`: the state after the call, the entry and the
error.  For an unknown operation the entry records the text `unsupported op`
followed by the operation quoted with `%q`; the `AppError` returned with it
has the same text as its message, of which the model keeps the fixed part. -/
def executeItem {σ ε : Type} (r : Runner σ ε) (s : σ) (item : Item) (strict : Bool) :
    σ × BatchItemResult × Option (ItemError ε) :=
  let out : BatchItemResult := { InputPath := item.Input, OutputPath := item.Output }
  if item.Input.isEmpty then
    (s, { out with Status := bytesOf "error", Error := bytesOf "input is required" },
      some (.app ⟨.ErrValidation, "input is required"⟩))
  else
    let called : Option (σ × Option ε) :=
      if item.Op = bytesOf "show" then some (r.Show s { InputPath := item.Input })
      else if item.Op = bytesOf "set" then
        some (r.Set s { Io := itemIo item, Strict := strict, Changes := item.Set })
      else if item.Op = bytesOf "unset" then
        some (r.Unset s { Io := itemIo item, Strict := strict, Fields := item.Unset,
                          All := item.UnsetAll })
      else if item.Op = bytesOf "template-apply" then
        some (r.TemplateApply s { Name := item.Template, Io := itemIo item, Strict := strict })
      else none
    match called with
    | none =>
      (s, { out with Status := bytesOf "error",
                     Error := bytesOf "unsupported op " ++ r.quote item.Op },
        some (.app ⟨.ErrValidation, "unsupported op"⟩))
    | some (s1, some e) =>
      (s1, { out with Status := bytesOf "error", Error := r.errorText e }, some (.run e))
    | some (s1, none) => (s1, { out with Status := bytesOf "ok" }, none)

/-- Go `batch.AggregateError`; the message of the source names the number of failures. -/
def AggregateError (result : BatchResult) : Option AppError :=
  if result.Failed = 0 then none
  else some ⟨.ErrUnknown, "batch completed with failures"⟩

/-- Go `batch.LoadManifest`.  `decoded` is what reading the file and decoding
its JSON give: the items, or the error that `LoadManifest` makes of a failure. -/
def LoadManifest (path : Bytes) (decoded : Except AppError (List Item)) :
    Except AppError (List Item) :=
  if path.isEmpty then .error ⟨.ErrValidation, "manifest path is required"⟩
  else match decoded with
    | .error e => .error e
    | .ok items =>
      if items.isEmpty then .error ⟨.ErrValidation, "manifest must include at least one item"⟩
      else .ok items

/-- The loop of `Execute`.  `canceled` is `ctx.Err() != nil` in a state of the world. -/
def executeLoop {σ ε : Type} (r : Runner σ ε) (canceled : σ → Bool) (strict continueOnError : Bool) :
    List Item → σ → BatchResult → σ × BatchResult × Option AppError
  | [], s, result => (s, result, AggregateError result)
  | item :: rest, s, result =>
    if canceled s then (s, result, some ⟨.ErrInternal, "batch canceled"⟩)
    else
      match executeItem r s item strict with
      | (s1, entry, some _) =>
        let result := { result with Items := result.Items ++ [entry], Failed := result.Failed + 1 }
        if !continueOnError then (s1, result, AggregateError result)
        else executeLoop r canceled strict continueOnError rest s1 result
      | (s1, entry, none) =>
        executeLoop r canceled strict continueOnError rest s1
          { result with Items := result.Items ++ [entry], Succeeded := result.Succeeded + 1 }

/-- Go `(*Engine).Execute`: the state of the world after the call, the result
and the error.  `runner` is `none` for a nil engine or runner. -/
def Execute {σ ε : Type} (runner : Option (Runner σ ε)) (canceled : σ → Bool) (req : BatchRequest)
    (decoded : Except AppError (List Item)) (s : σ) : σ × BatchResult × Option AppError :=
  match runner with
  | none => (s, {}, some ⟨.ErrInternal, "batch runner is required"⟩)
  | some r =>
    match LoadManifest req.ManifestPath decoded with
    | .error e => (s, {}, some e)
    | .ok items =>
      executeLoop r canceled req.Strict req.ContinueOnError items s
        { Items := [], Total := items.length }

/-- Items run one after the other, each in the state the one before left:
the state after the last and, for each item, its entry and whether it failed. -/
def runItems {σ ε : Type} (r : Runner σ ε) (strict : Bool) :
    List Item → σ → σ × List (BatchItemResult × Bool)
  | [], s => (s, [])
  | item :: rest, s =>
    match executeItem r s item strict with
    | (s1, entry, err) =>
      match runItems r strict rest s1 with
      | (s2, es) => (s2, (entry, err.isSome) :: es)

/-- The number of items of the longest prefix in which no item but the last fails. -/
def firstFailureLength {σ ε : Type} (r : Runner σ ε) (strict : Bool) : List Item → σ → Nat
  | [], _ => 0
  | item :: rest, s =>
    match executeItem r s item strict with
    | (_, _, some _) => 1
    | (s1, _, none) => firstFailureLength r strict rest s1 + 1

/-- The runner of the tests: the state is the list of calls made so far, and
the calls for the inputs in `failInputs` fail. -/
def fakeRunner (failInputs : List Bytes) : Runner (List Bytes) Bytes :=
  { Show := fun calls req =>
      (calls ++ [bytesOf "show:" ++ req.InputPath],
        if failInputs.contains req.InputPath then some (bytesOf "boom") else none)
    Set := fun calls req =>
      (calls ++ [bytesOf "set:" ++ req.Io.InputPath],
        if failInputs.contains req.Io.InputPath then some (bytesOf "boom") else none)
    Unset := fun calls req =>
      (calls ++ [bytesOf "unset:" ++ req.Io.InputPath],
        if failInputs.contains req.Io.InputPath then some (bytesOf "boom") else none)
    TemplateApply := fun calls req =>
      (calls ++ [bytesOf "template-apply:" ++ req.Io.InputPath],
        if failInputs.contains req.Io.InputPath then some (bytesOf "boom") else none)
    errorText := fun e => e
    quote := fun op => [34] ++ op ++ [34] }

/-- The manifest of the tests of `Execute`: three items, the second fails. -/
def threeItems : List Item :=
  [{ Op := bytesOf "show", Input := bytesOf "a.pdf" },
    { Op := bytesOf "set", Input := bytesOf "b.pdf" },
    { Op := bytesOf "unset", Input := bytesOf "c.pdf" }]

/-- The pieces of `\d+\s+\d+\s+obj`, the pattern of `maxObjectNumber` before its `\b`. -/
def headerPieces : List Piece :=
  [.digits, .spaces, .digits, .spaces, .lit 111, .lit 98, .lit 106]

/-- Every list of pieces that ends the list `ps` fails at the text `s`, and so
does what is left of it when a run that stands first has taken its bytes
from `s`. -/
def piecesDie (s : Bytes) : List Piece → Bool
  | [] => true
  | .lit c :: ps => (matchPieces (.lit c :: ps) s).isNone && piecesDie s ps
  | .spaces :: ps =>
    (matchPieces (.spaces :: ps) s).isNone && (matchPieces ps (s.dropWhile isReSpace)).isNone
      && piecesDie s ps
  | .digits :: ps =>
    (matchPieces (.digits :: ps) s).isNone && (matchPieces ps (s.dropWhile isDigit)).isNone
      && piecesDie s ps

/-- The pieces of `N\s+G\s+obj`, the pattern of `objectBody` between its
alternative for the start of a line and its `\b`, for the texts `num` and `gen`. -/
def objectPieces (num gen : Bytes) : List Piece :=
  num.map Piece.lit ++ (.spaces :: (gen.map Piece.lit ++ [.spaces, .lit 111, .lit 98, .lit 106]))
/-- No line break of the text stands right before a digit. -/
def lineSafe : Bytes → Bool
  | [] => true
  | [_] => true
  | a :: b :: t => (!(a == 13 || a == 10) || !isDigit b) && lineSafe (b :: t)

/-- A byte that `escapePDFLiteral` copies as it is: not `(`, `)`, LF, CR or TAB. -/
def literalByte (c : Nat) : Bool := !(c == 40 || c == 41 || c == 10 || c == 13 || c == 9)

/-- Read from the left as `escapePDFLiteral` reads: a backslash that is not
one of a pair `\\` is followed by a byte, and that byte is not `n`, `r` or `t`. -/
def backslashOk : Bytes → Bool
  | [] => true
  | [c] => c != 92
  | c :: d :: rest =>
    if c = 92 ∧ d = 92 then backslashOk rest
    else if c = 92 then !(d == 110 || d == 114 || d == 116) && backslashOk (d :: rest)
    else backslashOk (d :: rest)

/-- The text contains neither `<<` nor `>>`. -/
def anglePairFree : Bytes → Bool
  | a :: b :: rest =>
    !((a == 60 && b == 60) || (a == 62 && b == 62)) && anglePairFree (b :: rest)
  | _ => true

/-- The pattern `\bendobj` matches somewhere in the text; `prev` is the byte
before the text. -/
def hasEndobj : Nat → Bytes → Bool
  | _, [] => false
  | prev, c :: rest =>
    (!isWordByte prev && hasPrefix (c :: rest) (bytesOf "endobj")) || hasEndobj c rest

/-- The first byte of a value as the pattern of `findDictValue` reads one:
`(`, `<`, or `/` and a byte of a name. -/
def valueStart : Bytes → Bool
  | 40 :: _ => true
  | 60 :: _ => true
  | 47 :: c :: _ => isNameValueByte c
  | _ => false

/-- The text begins like an entry of the key: `/key`, white space, and the
first byte of a value. -/
def shadowAt (key s : Bytes) : Bool :=
  match skipLit (47 :: key) s with
  | none => false
  | some r =>
    match skipSpaces1 r with
    | none => false
    | some r2 => valueStart r2

/-- Somewhere in the text an entry of the key begins. -/
def hasShadow (key : Bytes) : Bytes → Bool
  | [] => false
  | c :: rest => shadowAt key (c :: rest) || hasShadow key rest

/-- The keys of the Info dictionary. -/
def infoKeyNames : List Bytes :=
  [bytesOf "Title", bytesOf "Author", bytesOf "Subject", bytesOf "Keywords", bytesOf "Creator",
    bytesOf "Producer", bytesOf "CreationDate", bytesOf "ModDate"]

/-- A key of the Info dictionary as the proofs about the rendered object need
it: without `<`, `>`, CR and LF and without `endobj` at the start of a word. -/
def infoKeySafe (k : Bytes) : Bool :=
  k.all (fun c => c != 60 && c != 62 && c != 10 && c != 13) && !hasEndobj 47 k

/-- A value of the key `k` that the writer and the reader of the Info
dictionary carry unchanged: it is not blank; it has no `(`, `)`, LF, CR or
TAB; its backslashes are pairs or stand before a byte other than `n`, `r`,
`t`; it contains no `<<` and no `>>`, no `endobj` at the start of a word, and
no beginning of an entry of another of the eight keys. -/
def safeValue (k v : Bytes) : Bool :=
  !(trimSpace v).isEmpty && v.all literalByte && backslashOk v && anglePairFree v
    && !hasEndobj 40 v && infoKeyNames.all (fun K => K == k || !hasShadow K v)

/-- A field that is empty or a safe value of its key. -/
def safeField (k v : Bytes) : Bool := v.isEmpty || safeValue k v

/-- Every field of the record is empty or a safe value of its key. -/
def safeRecord (m : Metadata) : Bool :=
  safeField (bytesOf "Title") m.Title && safeField (bytesOf "Author") m.Author
    && safeField (bytesOf "Subject") m.Subject && safeField (bytesOf "Keywords") m.Keywords
    && safeField (bytesOf "Creator") m.Creator && safeField (bytesOf "Producer") m.Producer
    && safeField (bytesOf "CreationDate") m.CreationDate
    && safeField (bytesOf "ModDate") m.ModDate

/-- What a run of the loop of `Unmarshal` from the state `s` comes to, given
fuel for the input left: an error, or a record with the property `Q`. -/
def Outcome (env : XmlEnv) (s : LoopState) (Q : Metadata → Prop) : Prop :=
  ∀ fuel, s.input.length + 1 ≤ fuel →
    (∃ e, s.run env fuel = .error e) ∨ ∃ R, s.run env fuel = .ok R ∧ Q R

/-- The fields that are empty in `M` are empty in `m`. -/
def emptyWhere (M m : Metadata) : Prop :=
  (M.Title = [] → m.Title = []) ∧ (M.Author = [] → m.Author = [])
    ∧ (M.Subject = [] → m.Subject = []) ∧ (M.Keywords = [] → m.Keywords = [])
    ∧ (M.Creator = [] → m.Creator = []) ∧ (M.Producer = [] → m.Producer = [])
    ∧ (M.CreationDate = [] → m.CreationDate = []) ∧ (M.ModDate = [] → m.ModDate = [])

/-- The element lines of a packet: the opening tags, the closing tags and the
value of each field, in the order of `Marshal`. -/
def xmpLines (M : Metadata) : List (Bytes × Bytes × Bytes) :=
  [(bytesOf "<dc:title><rdf:Alt><rdf:li xml:lang=\"x-default\">",
      bytesOf "</rdf:li></rdf:Alt></dc:title>", M.Title),
    (bytesOf "<dc:creator><rdf:Seq><rdf:li>", bytesOf "</rdf:li></rdf:Seq></dc:creator>", M.Author),
    (bytesOf "<dc:description><rdf:Alt><rdf:li xml:lang=\"x-default\">",
      bytesOf "</rdf:li></rdf:Alt></dc:description>", M.Subject),
    (bytesOf "<pdf:Keywords>", bytesOf "</pdf:Keywords>", M.Keywords),
    (bytesOf "<xmp:CreatorTool>", bytesOf "</xmp:CreatorTool>", M.Creator),
    (bytesOf "<pdf:Producer>", bytesOf "</pdf:Producer>", M.Producer),
    (bytesOf "<xmp:CreateDate>", bytesOf "</xmp:CreateDate>", M.CreationDate),
    (bytesOf "<xmp:ModifyDate>", bytesOf "</xmp:ModifyDate>", M.ModDate)]

/-- The text of an element line. -/
def lineText (l : Bytes × Bytes × Bytes) : Bytes := elementLine l.1 l.2.1 l.2.2

/-- What the proofs about a packet need of an element line: its tags end with
`>` and begin with `<`, contain neither `endobj` nor `endstream`, are read by
the loop of `Unmarshal` as elements opened and closed inside
`rdf:Description`, and character data inside them keeps the property `Inv`
when the value is not empty. -/
def LineOk (env : XmlEnv) (Inv : Metadata → Prop) (l : Bytes × Bytes × Bytes) : Prop :=
  ∃ (op cl : Bytes) (els : List XName) (stk : List Bytes),
    l.1 = 60 :: (op ++ [62]) ∧ l.2.1 = 60 :: cl ∧ els ≠ []
    ∧ index l.1 (bytesOf "endobj") = none ∧ index l.1 (bytesOf "endstream") = none
    ∧ index (l.2.1 ++ [10]) (bytesOf "endobj") = none
    ∧ index (l.2.1 ++ [10]) (bytesOf "endstream") = none
    ∧ (∀ r m, Reaches env ⟨l.1 ++ r, descriptionEls, descriptionStack, m, true⟩
        ⟨r, els, stk, m, true⟩)
    ∧ (∀ r m, Reaches env ⟨l.2.1 ++ 10 :: 60 :: r, els, stk, m, true⟩
        ⟨60 :: r, descriptionEls, descriptionStack, m, true⟩)
    ∧ (l.2.2 ≠ [] → ∀ m d, Inv m → Inv (unmarshalCharData stk m d))

/-- A patch whose values hold a slash, a single `>`, a backslash, `endobj`
inside a word, an ampersand and the word `endstream`. -/
def awkwardPatch : MetadataPatch :=
  { Title := some (bytesOf "a/b a>b a\\b xendobjx"), Author := some (bytesOf "A. Writer & Co."),
    Subject := some (bytesOf "endstream"), Keywords := some (bytesOf "2024/25 report") }

/-- What a write of `awkwardPatch` to `minimalPdf` returns. -/
def awkwardPdf : Bytes :=
  incrementalOutput minimalPdf
    { Title := bytesOf "a/b a>b a\\b xendobjx", Author := bytesOf "A. Writer & Co.",
      Subject := bytesOf "endstream", Keywords := bytesOf "2024/25 report" }
    (Marshal
      { Title := bytesOf "a/b a>b a\\b xendobjx", Author := bytesOf "A. Writer & Co.",
        Subject := bytesOf "endstream", Keywords := bytesOf "2024/25 report" }) 2 9
    (bytesOf "<< /Type /Catalog /Pages 2 0 R >>")

/-- A write of the patch to the source succeeds and the record read back from
the output is not the patched record. -/
def roundTripFails (src : Bytes) (D : MetadataPatch) : Bool :=
  match writeNativeIncremental src (applyPatch (readNativeMetadata asciiEnv src).1 D)
      (Marshal (applyPatch (readNativeMetadata asciiEnv src).1 D)) with
  | .ok out =>
    decide ((readNativeMetadata asciiEnv out).1 ≠ applyPatch (readNativeMetadata asciiEnv src).1 D)
  | .error _ => false

/-- A text in which no line break stands right before a digit and that does
not begin with a digit. -/
def lineStart (u : Bytes) : Bool :=
  lineSafe u && (match u with
    | [] => true
    | x :: _ => !isDigit x)

/-- Every match of `/name\s+(\d+)\s+(\d+)\s+R` in the text has the groups `d1` and `d2`. -/
def refsOk (name d1 d2 s : Bytes) : Prop :=
  ∀ q g1 g2 r, namedRefAt name (s.drop q) = some (g1, g2, r) → g1 = d1 ∧ g2 = d2

/-- A patch that sets the Title to one space. -/
def blankTitlePatch : MetadataPatch := { Title := some (bytesOf " ") }

/-- What a write of `blankTitlePatch` to `minimalPdf` returns. -/
def blankTitlePdf : Bytes :=
  incrementalOutput minimalPdf spaceTitle (Marshal spaceTitle) 2 9
    (bytesOf "<< /Type /Catalog /Pages 2 0 R >>")

/-- The runs of character data of a token stream, each with the stack of the
local names of the elements open around it, as the loop of `Unmarshal` keeps
it: a start element is appended, an end element takes the last name off. -/
def textRuns : List XmlToken → List Bytes → List (List Bytes × Bytes)
  | [], _ => []
  | .StartElement name selfClosing :: ts, stack =>
    textRuns ts (if selfClosing then stack else stack ++ [name.Local])
  | .EndElement _ :: ts, stack => textRuns ts stack.dropLast
  | .CharData data :: ts, stack => (stack, data) :: textRuns ts stack
  | .Other :: ts, stack => textRuns ts stack

/-- In the words of the specification: the trimmed values of the runs that are
not white space only and stand under a stack that ends with `path`. -/
def runsAt (path : List Bytes) (runs : List (List Bytes × Bytes)) : List Bytes :=
  (runs.filter (fun r => stackHasSuffix r.1 path && !(trimSpace r.2).isEmpty)).map
    (fun r => trimSpace r.2)

/-- The first run that counts for `path`, trimmed; empty when there is none. -/
def firstRun (path : List Bytes) (runs : List (List Bytes × Bytes)) : Bytes :=
  (runsAt path runs).head?.getD []

/-- The last run that counts for `path`, trimmed; empty when there is none. -/
def lastRun (path : List Bytes) (runs : List (List Bytes × Bytes)) : Bytes :=
  (runsAt path runs).getLast?.getD []

/-- The eight paths of `Unmarshal`. -/
def fieldPaths : List (List Bytes) :=
  [[bytesOf "title", bytesOf "Alt", bytesOf "li"], [bytesOf "creator", bytesOf "Seq", bytesOf "li"],
    [bytesOf "description", bytesOf "Alt", bytesOf "li"], [bytesOf "Keywords"],
    [bytesOf "CreatorTool"], [bytesOf "Producer"], [bytesOf "CreateDate"],
    [bytesOf "ModifyDate"]]

/-- The tokens of `repeatedFields`. -/
def repeatedFieldsTokens : List XmlToken :=
  [.StartElement ⟨bytesOf "x", bytesOf "xmpmeta"⟩ false,
    .StartElement ⟨bytesOf "dc", bytesOf "title"⟩ false,
    .StartElement ⟨bytesOf "rdf", bytesOf "Alt"⟩ false,
    .StartElement ⟨bytesOf "rdf", bytesOf "li"⟩ false,
    .CharData (bytesOf " first "),
    .EndElement ⟨bytesOf "rdf", bytesOf "li"⟩,
    .StartElement ⟨bytesOf "rdf", bytesOf "li"⟩ false,
    .CharData (bytesOf "second"),
    .EndElement ⟨bytesOf "rdf", bytesOf "li"⟩,
    .EndElement ⟨bytesOf "rdf", bytesOf "Alt"⟩,
    .EndElement ⟨bytesOf "dc", bytesOf "title"⟩,
    .StartElement ⟨bytesOf "pdf", bytesOf "Keywords"⟩ false,
    .CharData (bytesOf "k1"),
    .EndElement ⟨bytesOf "pdf", bytesOf "Keywords"⟩,
    .StartElement ⟨bytesOf "pdf", bytesOf "Keywords"⟩ false,
    .CharData (bytesOf " k2\n"),
    .EndElement ⟨bytesOf "pdf", bytesOf "Keywords"⟩,
    .StartElement ⟨[], bytesOf "other"⟩ false,
    .CharData (bytesOf "zzz"),
    .EndElement ⟨[], bytesOf "other"⟩,
    .EndElement ⟨bytesOf "x", bytesOf "xmpmeta"⟩]

/-! # Theorems -/

theorem mergeMetadata_zero_right (p : Metadata) : mergeMetadata p {} = p := by
  cases p; simp [mergeMetadata]

theorem mergeMetadata_zero_left (x : Metadata) : mergeMetadata {} x = x := by
  cases x; simp [mergeMetadata]

/-- The result of `readNativeMetadata` in terms of the two views. -/
theorem readNativeMetadata_eq_merge (env : XmlEnv) (b : Bytes) :
    (readNativeMetadata env b).1 = mergeMetadata (infoViewOf b) (xmpViewOf env b) := by
  unfold readNativeMetadata infoViewOf xmpViewOf
  cases h : parseTrailerRefs b with
  | none => simp [mergeMetadata]
  | some r =>
    obtain ⟨rootRef, infoRef⟩ := r
    cases hi : readInfoView b infoRef <;> cases hx : readXmpView env b rootRef <;>
      simp [hi, hx, mergeMetadata_zero_right, mergeMetadata_zero_left]

/-- C3, as stated, fails: on `twoTitles` the XMP view has the non-empty Title
`X`, and `readNativeMetadata` returns the Title `I` of the Info view. -/
theorem c3_xmp_does_not_take_precedence :
    (xmpViewOf asciiEnv twoTitles).Title = bytesOf "X"
      ∧ (infoViewOf twoTitles).Title = bytesOf "I"
      ∧ (readNativeMetadata asciiEnv twoTitles).1.Title = bytesOf "I"
      ∧ (readNativeMetadata asciiEnv twoTitles).1.Title ≠ (xmpViewOf asciiEnv twoTitles).Title := by
  decide!

/-- C3, amended: for every file and each of the eight fields, the result of
`readNativeMetadata` is the value of the Info-derived view when that value is
not empty and the value of the XMP-derived view otherwise (Info takes
precedence, XMP only fills blanks). -/
theorem c3_info_takes_precedence (env : XmlEnv) (b : Bytes) :
    let r := (readNativeMetadata env b).1
    let info := infoViewOf b
    let xmp := xmpViewOf env b
    r.Title = (if info.Title ≠ [] then info.Title else xmp.Title)
      ∧ r.Author = (if info.Author ≠ [] then info.Author else xmp.Author)
      ∧ r.Subject = (if info.Subject ≠ [] then info.Subject else xmp.Subject)
      ∧ r.Keywords = (if info.Keywords ≠ [] then info.Keywords else xmp.Keywords)
      ∧ r.Creator = (if info.Creator ≠ [] then info.Creator else xmp.Creator)
      ∧ r.Producer = (if info.Producer ≠ [] then info.Producer else xmp.Producer)
      ∧ r.CreationDate
          = (if info.CreationDate ≠ [] then info.CreationDate else xmp.CreationDate)
      ∧ r.ModDate = (if info.ModDate ≠ [] then info.ModDate else xmp.ModDate) := by
  simp only [readNativeMetadata_eq_merge, mergeMetadata, List.isEmpty_iff, ne_eq, ite_not]
  simp

/-! ### Prefixes and searching -/

theorem hasPrefix_iff (s p : Bytes) : hasPrefix s p = true ↔ p <+: s := by
  induction s generalizing p with
  | nil => cases p <;> simp [hasPrefix]
  | cons x xs ih =>
    cases p with
    | nil => simp [hasPrefix]
    | cons q qs =>
      simp only [hasPrefix, Bool.and_eq_true, beq_iff_eq, ih, List.cons_prefix_cons]
      constructor
      · rintro ⟨h1, h2⟩; exact ⟨h1.symm, h2⟩
      · rintro ⟨h1, h2⟩; exact ⟨h1.symm, h2⟩

theorem hasPrefix_append_self (p t : Bytes) : hasPrefix (p ++ t) p = true :=
  (hasPrefix_iff _ _).2 (List.prefix_append p t)

theorem hasPrefix_nil (s : Bytes) : hasPrefix s [] = true := by
  cases s <;> rfl

theorem hasPrefix_length {s p : Bytes} (h : hasPrefix s p = true) : p.length ≤ s.length :=
  ((hasPrefix_iff s p).1 h).length_le

theorem hasPrefix_eq_append {s p : Bytes} (h : hasPrefix s p = true) :
    s = p ++ s.drop p.length := by
  obtain ⟨t, rfl⟩ := (hasPrefix_iff s p).1 h
  simp

theorem hasPrefix_cons_ne {c q : Nat} (s qs : Bytes) (h : c ≠ q) :
    hasPrefix (c :: s) (q :: qs) = false := by
  simp [hasPrefix, h]

/-- The result of `index` is the first position at which `sep` is a prefix. -/
theorem index_some {s sep : Bytes} {i : Nat} (h : index s sep = some i) :
    hasPrefix (s.drop i) sep = true ∧ i + sep.length ≤ s.length
      ∧ ∀ j, j < i → hasPrefix (s.drop j) sep = false := by
  induction s generalizing i with
  | nil =>
    simp only [index] at h
    split at h
    · rename_i he
      cases h
      have : sep = [] := by simpa using he
      subst this
      simp [hasPrefix]
    · cases h
  | cons x xs ih =>
    simp only [index] at h
    split at h
    · rename_i hp
      cases h
      exact ⟨by simpa using hp, by simpa using hasPrefix_length hp, by intro j hj; omega⟩
    · rename_i hp
      split at h
      · rename_i k hk
        cases h
        obtain ⟨h1, h2, h3⟩ := ih hk
        refine ⟨by simpa using h1, by simp; omega, ?_⟩
        intro j hj
        cases j with
        | zero => simpa using hp
        | succ j => simpa using h3 j (by omega)
      · cases h

theorem index_none {s sep : Bytes} (h : index s sep = none) (j : Nat) :
    hasPrefix (s.drop j) sep = false := by
  induction s generalizing j with
  | nil =>
    simp only [index] at h
    split at h
    · cases h
    · rename_i he
      cases sep with
      | nil => simp at he
      | cons q qs => simp [hasPrefix]
  | cons x xs ih =>
    simp only [index] at h
    split at h
    · cases h
    · rename_i hp
      split at h
      · cases h
      · rename_i hk
        cases j with
        | zero => simpa using hp
        | succ j => simpa using ih hk j

theorem lastIndex_bound {s sep : Bytes} {i : Nat} (h : lastIndex s sep = some i) :
    hasPrefix (s.drop i) sep = true ∧ i + sep.length ≤ s.length := by
  induction s generalizing i with
  | nil =>
    simp only [lastIndex] at h
    split at h
    · rename_i he
      cases h
      have : sep = [] := by simpa using he
      subst this
      simp [hasPrefix]
    · cases h
  | cons x xs ih =>
    simp only [lastIndex] at h
    split at h
    · rename_i k hk
      cases h
      obtain ⟨h1, h2⟩ := ih hk
      exact ⟨by simpa using h1, by simp; omega⟩
    · split at h
      · rename_i hp
        cases h
        exact ⟨by simpa using hp, by simpa using hasPrefix_length hp⟩
      · cases h

theorem lastIndex_append {y sep : Bytes} {i : Nat} (x : Bytes) (h : lastIndex y sep = some i) :
    lastIndex (x ++ y) sep = some (x.length + i) := by
  induction x with
  | nil => simpa using h
  | cons c cs ih =>
    show lastIndex (c :: (cs ++ y)) sep = _
    simp only [lastIndex, ih, List.length_cons, Option.some.injEq]
    omega

/-- No occurrence of `sep` in a text none of whose bytes is the first byte of `sep`. -/
theorem lastIndex_none_of_not_mem {q : Nat} (qs y : Bytes) (h : q ∉ y) :
    lastIndex y (q :: qs) = none := by
  induction y with
  | nil => simp [lastIndex]
  | cons c cs ih =>
    have hc : c ≠ q := fun e => h (by simp [e])
    have hcs : q ∉ cs := fun e => h (by simp [e])
    simp [lastIndex, ih hcs, hasPrefix, hc]

theorem index_none_of_not_mem {q : Nat} (qs y : Bytes) (h : q ∉ y) :
    index y (q :: qs) = none := by
  induction y with
  | nil => simp [index]
  | cons c cs ih =>
    have hc : c ≠ q := fun e => h (by simp [e])
    have hcs : q ∉ cs := fun e => h (by simp [e])
    simp [index, ih hcs, hasPrefix, hc]

/-! ### Decimal digits -/

theorem natDigitsAux_all (p : Nat → Prop) (hp : ∀ d, d < 10 → p (48 + d)) :
    ∀ (fuel n : Nat) (acc : Bytes), (∀ c ∈ acc, p c) → ∀ c ∈ natDigitsAux fuel n acc, p c := by
  intro fuel
  induction fuel with
  | zero => intro n acc h; simpa [natDigitsAux] using h
  | succ f ih =>
    intro n acc h
    simp only [natDigitsAux]
    split
    · rename_i hn
      intro c hc
      simp only [List.mem_cons] at hc
      rcases hc with rfl | hc
      · exact hp n hn
      · exact h c hc
    · apply ih
      intro c hc
      simp only [List.mem_cons] at hc
      rcases hc with rfl | hc
      · exact hp _ (Nat.mod_lt _ (by norm_num))
      · exact h c hc

theorem natDigits_isDigit (n : Nat) : ∀ c ∈ natDigits n, isDigit c = true := by
  apply natDigitsAux_all (fun c => isDigit c = true)
  · intro d hd
    simp only [isDigit, Bool.and_eq_true, decide_eq_true_eq]
    omega
  · simp

theorem natDigitsAux_ne_nil : ∀ (fuel n : Nat) (acc : Bytes), n < fuel → natDigitsAux fuel n acc ≠ [] := by
  intro fuel
  induction fuel with
  | zero => intro n acc h; omega
  | succ f ih =>
    intro n acc h
    simp only [natDigitsAux]
    split
    · simp
    · apply ih
      omega

theorem natDigits_ne_nil (n : Nat) : natDigits n ≠ [] :=
  natDigitsAux_ne_nil _ _ _ (Nat.lt_succ_self n)

/-- Every byte of a number printed with `%d` is a digit or the minus sign. -/
theorem itoa_bytes (x : Int) : ∀ c ∈ itoa x, c = 45 ∨ isDigit c = true := by
  intro c hc
  unfold itoa at hc
  split at hc
  · simp only [List.mem_cons] at hc
    rcases hc with rfl | hc
    · exact Or.inl rfl
    · exact Or.inr (natDigits_isDigit _ c hc)
  · exact Or.inr (natDigits_isDigit _ c hc)

theorem itoa_ne_nil (x : Int) : itoa x ≠ [] := by
  unfold itoa
  split
  · simp
  · exact natDigits_ne_nil _

/-! ### The shape of a successful write -/

/-- A write succeeds exactly when the five probes of the source succeed, and
its output is `incrementalOutput`. -/
theorem writeNativeIncremental_ok {src : Bytes} {meta : Metadata} {packet out : Bytes}
    (h : writeNativeIncremental src meta packet = .ok out) :
    ∃ rootRef infoRef prev rootBody rootDict,
      parseTrailerRefs src = some (rootRef, infoRef) ∧ parseStartXRef src = some prev
        ∧ 1 ≤ maxObjectNumber src
        ∧ objectBody src rootRef.Obj rootRef.Gen = some rootBody
        ∧ firstDict rootBody = some rootDict
        ∧ out = incrementalOutput src meta packet (maxObjectNumber src) prev rootDict := by
  unfold writeNativeIncremental at h
  split at h
  · cases h
  · rename_i rootRef infoRef h1
    split at h
    · cases h
    · rename_i prev h2
      simp only at h
      split at h
      · cases h
      · rename_i h3
        split at h
        · cases h
        · rename_i rootBody h4
          split at h
          · cases h
          · rename_i rootDict h5
            refine ⟨rootRef, infoRef, prev, rootBody, rootDict, h1, h2, by omega, h4, h5, ?_⟩
            simp only [Except.ok.injEq] at h
            rw [← h]
            simp only [incrementalOutput, sourceLF]
            split <;> simp

theorem parseTrailerRefs_nil : parseTrailerRefs [] = none := by decide

/-- C4: the output of a successful write starts with the source unchanged; one
line feed follows it when the source does not end with a line feed, nothing
when it does; then comes the first appended object, the Info object. -/
theorem c4_source_bytes_preserved (src : Bytes) (meta : Metadata) (packet out : Bytes)
    (h : writeNativeIncremental src meta packet = .ok out) :
    ∃ tail, out = src ++ (if src.getLast? = some 10 then [] else [10])
      ++ renderInfoObject (wrapInt (maxObjectNumber src + 1)) meta ++ tail := by
  obtain ⟨rootRef, infoRef, prev, rootBody, rootDict, h1, -, -, -, -, rfl⟩ :=
    writeNativeIncremental_ok h
  have hne : src ≠ [] := by
    rintro rfl
    rw [parseTrailerRefs_nil] at h1
    cases h1
  have hlen : src.length > 0 := List.length_pos.2 hne
  have hlf : sourceLF src = (if src.getLast? = some 10 then [] else [10]) := by
    unfold sourceLF
    by_cases hl : src.getLast? = some 10 <;> simp [hl, hlen]
  simp only [incrementalOutput, hlf, List.append_assoc]
  exact ⟨_, rfl⟩

theorem c4_witness :
    writeNativeIncremental minimalPdf {} [] = .ok minimalPdfRewritten
      ∧ ∃ tail, minimalPdfRewritten = minimalPdf ++ (if minimalPdf.getLast? = some 10 then [] else [10])
          ++ renderInfoObject (wrapInt (maxObjectNumber minimalPdf + 1)) {} ++ tail :=
  ⟨by decide!, c4_source_bytes_preserved minimalPdf {} [] minimalPdfRewritten (by decide!)⟩

/-! ### The encryption marker -/

theorem hasNameKeyLoop_iff (b key : Bytes) :
    ∀ (fuel start : Nat), start ≤ b.length → b.length < fuel + start →
      (hasNameKeyLoop b key fuel start = true ↔
        ∃ i, start ≤ i ∧ (nameTerminatedAt b key i = true ∨ nameEndsAt b key i = true)) := by
  intro fuel
  induction fuel with
  | zero => intro start h1 h2; omega
  | succ f ih =>
    intro start h1 h2
    simp only [hasNameKeyLoop]
    cases hidx : index (b.drop start) key with
    | none =>
      simp only [Bool.false_eq_true, false_iff, not_exists, not_and, not_or]
      intro i hi
      have := index_none hidx (i - start)
      rw [List.drop_drop] at this
      have e : start + (i - start) = i := by omega
      rw [e] at this
      simp [nameTerminatedAt, nameEndsAt, this]
    | some i0 =>
      obtain ⟨hp, hb, hfirst⟩ := index_some hidx
      rw [List.drop_drop] at hp
      simp only [List.length_drop] at hb
      simp only
      by_cases hc : (decide (i0 + start + key.length ≥ b.length)
          || isPDFNameTerminator (b.getD (i0 + start + key.length) 0)) = true
      · simp only [hc, ↓reduceIte, true_iff]
        refine ⟨i0 + start, by omega, ?_⟩
        have e : start + i0 = i0 + start := by omega
        rw [e] at hp
        simp only [Bool.or_eq_true, decide_eq_true_eq] at hc
        rcases hc with hc | hc
        · right
          simp only [nameEndsAt, hp, Bool.true_and, decide_eq_true_eq]
          omega
        · by_cases hlt : i0 + start + key.length < b.length
          · left
            simp only [nameTerminatedAt, hp, Bool.true_and, Bool.and_eq_true, decide_eq_true_eq]
            exact ⟨hlt, hc⟩
          · right
            simp only [nameEndsAt, hp, Bool.true_and, decide_eq_true_eq]
            omega
      · simp only [hc, Bool.false_eq_true, ↓reduceIte]
        simp only [Bool.or_eq_true, decide_eq_true_eq, not_or, not_le, Bool.not_eq_true] at hc
        rw [ih (i0 + start + 1) (by omega) (by omega)]
        constructor
        · rintro ⟨i, hi, h⟩
          exact ⟨i, by omega, h⟩
        · rintro ⟨i, hi, h⟩
          refine ⟨i, ?_, h⟩
          by_contra hlt
          have hle : i ≤ i0 + start := by omega
          have hpi : hasPrefix (b.drop i) key = true := by
            rcases h with h | h
            · simp only [nameTerminatedAt, Bool.and_eq_true] at h
              exact h.1.1
            · simp only [nameEndsAt, Bool.and_eq_true] at h
              exact h.1
          rcases Nat.lt_or_eq_of_le hle with hlt2 | heq
          · have := hfirst (i - start) (by omega)
            rw [List.drop_drop] at this
            have e : start + (i - start) = i := by omega
            rw [e, hpi] at this
            cases this
          · subst heq
            rcases h with h | h
            · simp only [nameTerminatedAt, Bool.and_eq_true] at h
              rw [hc.2] at h
              exact absurd h.2 (by simp)
            · simp only [nameEndsAt, Bool.and_eq_true, decide_eq_true_eq] at h
              omega

theorem hasNameKey_iff (b key : Bytes) :
    hasNameKey b key = true ↔
      ∃ i, nameTerminatedAt b key i = true ∨ nameEndsAt b key i = true := by
  unfold hasNameKey
  rw [hasNameKeyLoop_iff b key (b.length + 1) 0 (by omega) (by omega)]
  simp

/-- C8, as stated, fails: the trailer slice of `encryptAtEnd` has no `/Encrypt`
followed by a whitespace or delimiter byte, and the marker is reported. -/
theorem c8_encrypt_at_end_of_slice :
    hasEncryptMarkerInTrailer encryptAtEnd = true
      ∧ trailerSlice encryptAtEnd = some encryptAtEnd
      ∧ ¬ ∃ i, nameTerminatedAt encryptAtEnd (bytesOf "/Encrypt") i = true := by
  refine ⟨by decide!, by decide!, ?_⟩
  rintro ⟨i, hi⟩
  have hlt : i + 8 < 19 := by
    simp only [nameTerminatedAt, Bool.and_eq_true, decide_eq_true_eq] at hi
    exact hi.1.2
  have hi' : i < 11 := by omega
  interval_cases i <;> revert hi <;> decide!

/-- C8, amended: `hasEncryptMarkerInTrailer(b)` is true if and only if the
slice of `b` from the last `trailer` up to the next `startxref` contains the
name `/Encrypt` either immediately followed by a PDF whitespace or delimiter
byte or standing at the very end of the slice. -/
theorem c8_encrypt_marker_iff (b : Bytes) :
    hasEncryptMarkerInTrailer b = true ↔
      ∃ s, trailerSlice b = some s
        ∧ ∃ i, nameTerminatedAt s (bytesOf "/Encrypt") i = true
            ∨ nameEndsAt s (bytesOf "/Encrypt") i = true := by
  unfold hasEncryptMarkerInTrailer trailerSlice
  cases lastIndex b (bytesOf "trailer") with
  | none => simp
  | some t =>
    cases hx : index (b.drop t) (bytesOf "startxref") with
    | none => simp [hx, hasNameKey_iff]
    | some sx => simp [hx, hasNameKey_iff]

/-! ### Writing an encrypted file -/

/-- C9, as stated, fails: `in.pdf` parses as a PDF envelope and has the
encryption marker, and a write request for it that names no destination fails
with kind `validation`: the destination is checked before the file is opened. -/
theorem c9_no_target_is_validation :
    (∃ doc, ParseBytes (bytesOf "in.pdf") encryptedPdf = .ok doc)
      ∧ hasEncryptMarkerInTrailer encryptedPdf = true
      ∧ encryptedFiles.readFile encryptedRequestNoTarget.InputPath = .ok encryptedPdf
      ∧ (Store.Write asciiEnv false encryptedFiles encryptedRequestNoTarget).1
          = .error ⟨.ErrValidation, "output path is required when not writing in place"⟩ :=
  ⟨⟨_, rfl⟩, by decide!, by decide!, by decide!⟩

/-- C9, amended: a call of `Store.Write` that is not canceled and names its
input and its destination (in place, or a non-empty output path), on an input
file whose bytes parse as a PDF envelope with the encryption marker, fails with
kind `pdf_encrypted`, whatever the patch and the unset selection are, and
leaves every file as it was. -/
theorem c9_write_encrypted_fails (env : XmlEnv) (fs : Files) (req : MetadataWriteRequest)
    (b : Bytes) (doc : Document)
    (hin : req.InputPath ≠ [])
    (hdst : req.InPlace = true ∨ req.OutputPath ≠ [])
    (hfile : fs.readFile req.InputPath = .ok b)
    (hparse : ParseBytes req.InputPath b = .ok doc)
    (henc : hasEncryptMarkerInTrailer b = true) :
    Store.Write env false fs req
      = (.error ⟨.ErrPDFEncrypted, "cannot write encrypted pdf"⟩, fs) := by
  have hdoc : doc.encrypted = true := by
    unfold ParseBytes at hparse
    split at hparse
    · cases hparse
    · split at hparse
      · cases hparse
      · simp only [Except.ok.injEq] at hparse
        rw [← hparse]
        exact henc
  have hne : req.InputPath.isEmpty = false := by
    cases h : req.InputPath with
    | nil => exact absurd h hin
    | cons _ _ => rfl
  have htarget : ∃ dst, writeTarget req = .ok dst := by
    unfold writeTarget
    rcases hdst with h | h
    · exact ⟨req.InputPath, by simp [h]⟩
    · cases hI : req.InPlace
      · cases hO : req.OutputPath with
        | nil => exact absurd hO h
        | cons c cs => exact ⟨c :: cs, by simp⟩
      · exact ⟨req.InputPath, by simp⟩
  obtain ⟨dst, hdst2⟩ := htarget
  simp [Store.Write, hne, hdst2, Open, hfile, hparse, hdoc]

theorem c9_witness :
    Store.Write asciiEnv false encryptedFiles encryptedRequest
      = (.error ⟨.ErrPDFEncrypted, "cannot write encrypted pdf"⟩, encryptedFiles) :=
  c9_write_encrypted_fails asciiEnv encryptedFiles encryptedRequest encryptedPdf
    { path := bytesOf "in.pdf", content := encryptedPdf, headerOffset := 0,
      version := bytesOf "1.4", encrypted := true }
    (by decide) (Or.inr (by decide)) (by decide!) (by decide!) (by decide!)

/-! ### The probes never fault -/

theorem checked_slice_ok (s : Bytes) (i j : Nat) (h1 : i ≤ j) (h2 : j ≤ s.length) :
    Checked.slice s (i : Int) (j : Int) = .ok ((s.take j).drop i) := by
  unfold Checked.slice
  have : (0 : Int) ≤ i ∧ (i : Int) ≤ j ∧ (j : Int) ≤ s.length := by omega
  simp [this]

theorem checked_sliceFrom_ok (s : Bytes) (i : Nat) (h : i ≤ s.length) :
    Checked.sliceFrom s (i : Int) = .ok (s.drop i) := by
  unfold Checked.sliceFrom
  rw [checked_slice_ok s i s.length h (le_refl _)]
  simp

theorem checked_sliceTo_ok (s : Bytes) (j : Nat) (h : j ≤ s.length) :
    Checked.sliceTo s (j : Int) = .ok (s.take j) := by
  unfold Checked.sliceTo
  have := checked_slice_ok s 0 j (Nat.zero_le _) h
  simpa using this

theorem checked_byteAt_ok (s : Bytes) (i : Nat) (h : i < s.length) :
    Checked.byteAt s (i : Int) = .ok (s.getD i 0) := by
  unfold Checked.byteAt
  have : (0 : Int) ≤ i ∧ (i : Int) < s.length := by omega
  simp [this]

theorem checked_findHeaderOffset (b : Bytes) :
    Checked.findHeaderOffset b = .ok (Checked.goIndex (findHeaderOffset b)) := by
  unfold Checked.findHeaderOffset findHeaderOffset
  by_cases h : b.length > headerScanLimit
  · have h2 : ((b.length : Int) > (headerScanLimit : Int)) := by exact_mod_cast h
    simp only [h2, h, ↓reduceIte]
    rw [checked_sliceTo_ok b headerScanLimit (by omega)]
    rfl
  · have h2 : ¬ ((b.length : Int) > (headerScanLimit : Int)) := by exact_mod_cast h
    simp only [h2, h, ↓reduceIte]
    rw [checked_sliceTo_ok b b.length (le_refl _)]
    rfl

theorem checked_hasNameKeyLoop (b key : Bytes) :
    ∀ (fuel start : Nat), start ≤ b.length → b.length < fuel + start →
      Checked.hasNameKeyLoop b key fuel (start : Int) = .ok (hasNameKeyLoop b key fuel start) := by
  intro fuel
  induction fuel with
  | zero => intro start h1 h2; omega
  | succ f ih =>
    intro start h1 h2
    simp only [Checked.hasNameKeyLoop, hasNameKeyLoop]
    rw [checked_sliceFrom_ok b start h1]
    simp only [bind, Except.bind]
    cases hidx : index (b.drop start) key with
    | none => simp [Checked.goIndex, pure, Except.pure]
    | some i0 =>
      obtain ⟨-, hb, -⟩ := index_some hidx
      simp only [List.length_drop] at hb
      have hne : ¬ ((i0 : Int) = -1) := by omega
      simp only [Checked.goIndex, hne, ↓reduceIte]
      by_cases hge : i0 + start + key.length ≥ b.length
      · have hge' : ((i0 : Int) + start + key.length ≥ b.length) := by exact_mod_cast hge
        simp [hge, hge', pure, Except.pure]
      · have hge' : ¬ ((i0 : Int) + start + key.length ≥ b.length) := by exact_mod_cast hge
        have e1 : ((i0 : Int) + start + key.length) = ((i0 + start + key.length : Nat) : Int) := by
          push_cast; ring
        have e2 : ((i0 : Int) + start + 1) = ((i0 + start + 1 : Nat) : Int) := by
          push_cast; ring
        simp only [hge', ↓reduceIte, hge, decide_False, Bool.false_or]
        rw [e1, checked_byteAt_ok b _ (by omega)]
        simp only
        by_cases ht : isPDFNameTerminator (b.getD (i0 + start + key.length) 0) = true
        · simp only [ht, ↓reduceIte]
          rfl
        · simp only [ht, Bool.false_eq_true, ↓reduceIte]
          rw [e2, ih (i0 + start + 1) (by omega) (by omega)]

theorem checked_hasNameKey (b key : Bytes) :
    Checked.hasNameKey b key = .ok (hasNameKey b key) := by
  unfold Checked.hasNameKey hasNameKey
  exact checked_hasNameKeyLoop b key (b.length + 1) 0 (by omega) (by omega)

theorem checked_hasEncryptMarkerInTrailer (b : Bytes) :
    Checked.hasEncryptMarkerInTrailer b = .ok (hasEncryptMarkerInTrailer b) := by
  unfold Checked.hasEncryptMarkerInTrailer hasEncryptMarkerInTrailer
  cases ht : lastIndex b (bytesOf "trailer") with
  | none => simp [Checked.goIndex, pure, Except.pure]
  | some t =>
    obtain ⟨-, hb⟩ := lastIndex_bound ht
    have hne : ¬ ((t : Int) = -1) := by omega
    simp only [Checked.goIndex, hne, ↓reduceIte]
    rw [checked_sliceFrom_ok b t (by omega)]
    simp only [bind, Except.bind]
    cases hs : index (b.drop t) (bytesOf "startxref") with
    | none =>
      simp [pure, Except.pure, checked_hasNameKey]
    | some sx =>
      obtain ⟨-, hb2, -⟩ := index_some hs
      have hge : (sx : Int) ≥ 0 := by omega
      simp only [hge, ↓reduceIte]
      rw [checked_sliceTo_ok _ sx (by omega)]
      simp [checked_hasNameKey]

theorem drop_eq_cons_getD {s : Bytes} {i a : Nat} {rest : Bytes} (h : s.drop i = a :: rest) :
    s.getD i 0 = a ∧ s.drop (i + 1) = rest ∧ i < s.length := by
  have hlt : i < s.length := by
    by_contra hge
    rw [List.drop_eq_nil_of_le (by omega)] at h
    cases h
  refine ⟨?_, ?_, hlt⟩
  · rw [List.getD_eq_getElem _ _ hlt]
    have := List.drop_eq_getElem_cons hlt
    rw [this] at h
    exact (List.cons.inj h).1
  · have := List.drop_eq_getElem_cons hlt
    rw [this] at h
    exact (List.cons.inj h).2

theorem checked_matchDictEndLoop (s : Bytes) :
    ∀ (fuel i : Nat) (depth : Int), 0 < fuel → s.length < fuel + i →
      Checked.matchDictEndLoop s fuel (i : Int) depth
        = .ok ((matchDictEndFrom (s.drop i) i depth).map Int.ofNat) := by
  intro fuel
  induction fuel with
  | zero => intro i depth h; omega
  | succ f ih =>
    intro i depth _ h2
    simp only [Checked.matchDictEndLoop]
    cases hd : s.drop i with
    | nil =>
      have hge : s.length ≤ i := by
        have := congrArg List.length hd
        simp at this
        omega
      have : ¬ ((i : Int) < (s.length : Int) - 1) := by omega
      simp [this, matchDictEndFrom, pure, Except.pure]
    | cons a t =>
      obtain ⟨ha, ht, hlt⟩ := drop_eq_cons_getD hd
      cases t with
      | nil =>
        have hlen : s.length = i + 1 := by
          have := congrArg List.length ht
          simp at this
          omega
        have : ¬ ((i : Int) < (s.length : Int) - 1) := by omega
        simp [this, matchDictEndFrom, pure, Except.pure]
      | cons b rest =>
        obtain ⟨hb, hrest, hlt2⟩ := drop_eq_cons_getD ht
        have hcond : (i : Int) < (s.length : Int) - 1 := by omega
        have e1 : (i : Int) + 1 = ((i + 1 : Nat) : Int) := by push_cast; ring
        have e2 : (i : Int) + 1 + 1 = ((i + 1 + 1 : Nat) : Int) := by push_cast; ring
        have hf : 0 < f := by omega
        simp only [hcond, ↓reduceIte, matchDictEndFrom]
        rw [e2, e1, checked_byteAt_ok s i hlt, checked_byteAt_ok s (i + 1) hlt2, ha, hb]
        simp only [bind, Except.bind, pure, Except.pure]
        by_cases h60 : a = 60
        · subst h60
          by_cases hb60 : b = 60
          · subst hb60
            simp only [↓reduceIte, decide_True, and_self]
            rw [ih (i + 1 + 1) (depth + 1) hf (by omega), hrest]
          · simp only [↓reduceIte, hb60, decide_False, Bool.false_eq_true, and_false,
              Nat.reduceEqDiff, false_and]
            rw [ih (i + 1) depth hf (by omega), ht]
        · by_cases h62 : a = 62
          · subst h62
            by_cases hb62 : b = 62
            · subst hb62
              simp only [Nat.reduceEqDiff, ↓reduceIte, Bool.false_eq_true, false_and, decide_True,
                and_self]
              by_cases hd0 : depth - 1 = 0
              · simp [hd0]
              · simp only [hd0, ↓reduceIte]
                rw [ih (i + 1 + 1) (depth - 1) hf (by omega), hrest]
            · simp only [Nat.reduceEqDiff, ↓reduceIte, Bool.false_eq_true, false_and, hb62,
                decide_False, and_false]
              rw [ih (i + 1) depth hf (by omega), ht]
          · simp only [h60, ↓reduceIte, Bool.false_eq_true, false_and, h62]
            rw [ih (i + 1) depth hf (by omega), ht]

theorem checked_matchDictEnd (s : Bytes) (start : Nat) :
    Checked.matchDictEnd s (start : Int) = .ok ((matchDictEnd s start).map Int.ofNat) := by
  unfold Checked.matchDictEnd matchDictEnd
  exact checked_matchDictEndLoop s (s.length + 1) start 0 (by omega) (by omega)

/-- The index `matchDictEndFrom` returns lies at least two bytes before the end. -/
theorem matchDictEndFrom_bound :
    ∀ (n : Nat) (u : Bytes) (i : Nat) (depth : Int) (e : Nat), u.length ≤ n →
      matchDictEndFrom u i depth = some e → i ≤ e ∧ e + 2 ≤ i + u.length := by
  intro n
  induction n with
  | zero =>
    intro u i depth e hn h
    have : u = [] := List.length_eq_zero.1 (by omega)
    subst this
    simp [matchDictEndFrom] at h
  | succ n ih =>
    intro u i depth e hn h
    match u, h with
    | [], h => simp [matchDictEndFrom] at h
    | [_], h => simp [matchDictEndFrom] at h
    | a :: b :: rest, h =>
      simp only [matchDictEndFrom] at h
      simp only [List.length_cons] at hn ⊢
      split at h
      · have := ih rest (i + 2) (depth + 1) e (by omega) h
        omega
      · split at h
        · split at h
          · cases h
            omega
          · have := ih rest (i + 2) (depth - 1) e (by omega) h
            omega
        · have := ih (b :: rest) (i + 1) depth e (by simp; omega) h
          simp only [List.length_cons] at this
          omega

theorem indexByte_bound {s : Bytes} {c i : Nat} (h : indexByte s c = some i) : i < s.length := by
  induction s generalizing i with
  | nil => simp [indexByte] at h
  | cons x xs ih =>
    simp only [indexByte] at h
    split at h
    · cases h; simp
    · split at h
      · rename_i k hk
        cases h
        have := ih hk
        simp; omega
      · cases h

theorem checked_lastTrailerDict (b : Bytes) :
    Checked.lastTrailerDict b = .ok (lastTrailerDict b) := by
  unfold Checked.lastTrailerDict lastTrailerDict
  cases ht : lastIndex b (bytesOf "trailer") with
  | none => simp [Checked.goIndex, pure, Except.pure]
  | some idx =>
    obtain ⟨-, hb⟩ := lastIndex_bound ht
    have hlen7 : (bytesOf "trailer").length = 7 := by decide
    rw [hlen7] at hb
    have hne : ¬ ((idx : Int) < 0) := by omega
    have e1 : (idx : Int) + 7 = ((idx + 7 : Nat) : Int) := by push_cast; ring
    simp only [Checked.goIndex, hne, ↓reduceIte]
    rw [e1, checked_sliceFrom_ok b (idx + 7) hb]
    simp only [bind, Except.bind]
    cases hs : index (b.drop (idx + 7)) (bytesOf "<<") with
    | none => simp [pure, Except.pure]
    | some start =>
      obtain ⟨-, hb2, -⟩ := index_some hs
      have hne2 : ¬ ((start : Int) < 0) := by omega
      have e2 : ((idx + 7 : Nat) : Int) + (start : Int) = ((idx + 7 + start : Nat) : Int) := by
        push_cast; ring
      simp only [hne2, ↓reduceIte]
      rw [e2, checked_matchDictEnd]
      simp only
      cases hm : matchDictEnd b (idx + 7 + start) with
      | none => simp [pure, Except.pure]
      | some e =>
        unfold matchDictEnd at hm
        have hbd := matchDictEndFrom_bound _ _ _ _ _ (le_refl _) hm
        simp only [List.length_drop] at hbd
        simp only [List.length_drop, List.length_cons] at hb2
        have e3 : (Int.ofNat e) + 2 = ((e + 2 : Nat) : Int) := by
          simp
        simp only [Option.map_some']
        rw [e3, checked_slice_ok b _ _ (by omega) (by omega)]

theorem checked_parseStartXRef (b : Bytes) :
    Checked.parseStartXRef b = .ok (parseStartXRef b) := by
  unfold Checked.parseStartXRef parseStartXRef
  cases ht : lastIndex b (bytesOf "startxref") with
  | none => simp [Checked.goIndex, pure, Except.pure]
  | some idx =>
    obtain ⟨-, hb⟩ := lastIndex_bound ht
    have hlen9 : (bytesOf "startxref").length = 9 := by decide
    rw [hlen9] at hb
    have hne : ¬ ((idx : Int) < 0) := by omega
    have e1 : (idx : Int) + 9 = ((idx + 9 : Nat) : Int) := by push_cast; ring
    simp only [Checked.goIndex, hne, ↓reduceIte]
    rw [e1, checked_sliceFrom_ok b (idx + 9) hb]
    simp only [bind, Except.bind]
    by_cases hr : (trimSpace (b.drop (idx + 9))).isEmpty = true
    · simp [hr, pure, Except.pure]
    · simp only [hr, Bool.false_eq_true, ↓reduceIte]
      cases hn : indexByte (trimSpace (b.drop (idx + 9))) 10 with
      | none =>
        have : ¬ ((-1 : Int) ≥ 0) := by omega
        simp only [this, ↓reduceIte, pure, Except.pure]
        split <;> rfl
      | some nl =>
        have hnl := indexByte_bound hn
        have : ((nl : Int) ≥ 0) := by omega
        simp only [this, ↓reduceIte]
        rw [checked_sliceTo_ok _ nl (by omega)]
        simp only [pure, Except.pure]
        split <;> rfl

/-- C10: for every byte string, the four envelope probes, with `matchDictEnd`
(from any start index that is not negative) and `hasNameKey` (for any key),
return a value: no index or slice expression is out of range, no loop outlives
its fuel, and the value is the one of the plain definitions, where a missing
result is `none`, -1 or the empty string. -/
theorem c10_probes_never_fault (b : Bytes) :
    Checked.findHeaderOffset b = .ok (Checked.goIndex (findHeaderOffset b))
      ∧ Checked.parseStartXRef b = .ok (parseStartXRef b)
      ∧ Checked.hasEncryptMarkerInTrailer b = .ok (hasEncryptMarkerInTrailer b)
      ∧ Checked.lastTrailerDict b = .ok (lastTrailerDict b)
      ∧ (∀ start : Nat,
          Checked.matchDictEnd b (start : Int) = .ok ((matchDictEnd b start).map Int.ofNat))
      ∧ (∀ key : Bytes, Checked.hasNameKey b key = .ok (hasNameKey b key)) :=
  ⟨checked_findHeaderOffset b, checked_parseStartXRef b, checked_hasEncryptMarkerInTrailer b,
    checked_lastTrailerDict b, checked_matchDictEnd b, checked_hasNameKey b⟩

/-! ### The appended trailer -/

/-- No occurrence of `sep` in a text that lacks one of the bytes of `sep`. -/
theorem lastIndex_none_of_missing {y sep : Bytes} {q : Nat} (hq : q ∈ sep) (hy : q ∉ y) :
    lastIndex y sep = none := by
  cases h : lastIndex y sep with
  | none => rfl
  | some i =>
    exfalso
    obtain ⟨hp, -⟩ := lastIndex_bound h
    obtain ⟨t, ht⟩ := (hasPrefix_iff _ _).1 hp
    apply hy
    have : q ∈ y.drop i := by
      rw [← ht]
      exact List.mem_append_left _ hq
    exact List.mem_of_mem_drop this

theorem matchDictEndFrom_shift :
    ∀ (n : Nat) (u : Bytes) (i k : Nat) (depth : Int), u.length ≤ n →
      matchDictEndFrom u (i + k) depth = (matchDictEndFrom u i depth).map (· + k) := by
  intro n
  induction n with
  | zero =>
    intro u i k depth hn
    have : u = [] := List.length_eq_zero.1 (by omega)
    subst this
    simp [matchDictEndFrom]
  | succ n ih =>
    intro u i k depth hn
    match u, hn with
    | [], _ => simp [matchDictEndFrom]
    | [_], _ => simp [matchDictEndFrom]
    | a :: b :: rest, hn =>
      simp only [List.length_cons] at hn
      simp only [matchDictEndFrom]
      have e2 : i + k + 2 = i + 2 + k := by omega
      have e1 : i + k + 1 = i + 1 + k := by omega
      split
      · rw [e2, ih rest (i + 2) k _ (by omega)]
      · split
        · split
          · simp
          · rw [e2, ih rest (i + 2) k _ (by omega)]
        · rw [e1, ih (b :: rest) (i + 1) k _ (by simp; omega)]

/-- Scanning a text without `<` and `>` up to the closing `>>`. -/
theorem matchDictEndFrom_plain (p z : Bytes) (i : Nat)
    (hp : ∀ c ∈ p, c ≠ 60 ∧ c ≠ 62) :
    matchDictEndFrom (p ++ 62 :: 62 :: z) i 1 = some (i + p.length) := by
  induction p generalizing i with
  | nil => simp [matchDictEndFrom]
  | cons c cs ih =>
    have hc := hp c (by simp)
    have hcs : ∀ d ∈ cs, d ≠ 60 ∧ d ≠ 62 := fun d hd => hp d (by simp [hd])
    have key : ∀ (b : Nat) (rest : Bytes), cs ++ 62 :: 62 :: z = b :: rest →
        matchDictEndFrom (c :: b :: rest) i 1 = matchDictEndFrom (b :: rest) (i + 1) 1 := by
      intro b rest _
      simp [matchDictEndFrom, hc.1, hc.2]
    cases hcs2 : cs ++ 62 :: 62 :: z with
    | nil => simp at hcs2
    | cons b rest =>
      show matchDictEndFrom (c :: (cs ++ 62 :: 62 :: z)) i 1 = _
      rw [hcs2, key b rest hcs2, ← hcs2, ih (i + 1) hcs]
      simp only [List.length_cons, Option.some.injEq]
      omega

theorem drop_take_add (l : Bytes) (n m : Nat) : (l.take (n + m)).drop n = (l.drop n).take m := by
  induction n generalizing l with
  | zero => simp
  | succ n ih =>
    cases l with
    | nil => simp
    | cons c cs =>
      have e : n + 1 + m = (n + m) + 1 := by omega
      rw [e]
      simpa using ih cs

theorem take_length_append (a b : Bytes) : (a ++ b).take a.length = a := by
  simp

theorem lastIndex_cons_none {y sep : Bytes} (c : Nat) (h : lastIndex y sep = none)
    (hc : hasPrefix (c :: y) sep = false) : lastIndex (c :: y) sep = none := by
  simp [lastIndex, h, hc]

theorem lastIndex_cons_zero {y sep : Bytes} (c : Nat) (h : lastIndex y sep = none)
    (hc : hasPrefix (c :: y) sep = true) : lastIndex (c :: y) sep = some 0 := by
  simp [lastIndex, h, hc]

theorem lastIndex_trailer_self (t : Bytes) (h : lastIndex t (bytesOf "trailer") = none) :
    lastIndex (bytesOf "trailer" ++ t) (bytesOf "trailer") = some 0 := by
  have e : bytesOf "trailer" = [116, 114, 97, 105, 108, 101, 114] := by decide
  rw [e] at h ⊢
  have h1 := lastIndex_cons_none 114 h (by simp [hasPrefix])
  have h2 := lastIndex_cons_none 101 h1 (by simp [hasPrefix])
  have h3 := lastIndex_cons_none 108 h2 (by simp [hasPrefix])
  have h4 := lastIndex_cons_none 105 h3 (by simp [hasPrefix])
  have h5 := lastIndex_cons_none 97 h4 (by simp [hasPrefix])
  have h6 := lastIndex_cons_none 114 h5 (by simp [hasPrefix])
  exact lastIndex_cons_zero 116 h6 (by simp [hasPrefix, hasPrefix_nil])

/-- The trailer dictionary of a text that ends with a trailer whose dictionary
has no `<` or `>` inside and that has no `trailer` behind it. -/
theorem lastTrailerDict_appended (x p z : Bytes)
    (hp : ∀ c ∈ p, c ≠ 60 ∧ c ≠ 62)
    (hz : lastIndex ([10, 60, 60] ++ p ++ 62 :: 62 :: z) (bytesOf "trailer") = none) :
    lastTrailerDict (x ++ (bytesOf "trailer" ++ ([10, 60, 60] ++ p ++ 62 :: 62 :: z)))
      = [60, 60] ++ p ++ [62, 62] := by
  have hlast := lastIndex_trailer_self _ hz
  unfold lastTrailerDict
  rw [lastIndex_append x hlast]
  have e : bytesOf "trailer" = [116, 114, 97, 105, 108, 101, 114] := by decide
  have e2 : bytesOf "<<" = [60, 60] := by decide
  have hdrop : (x ++ (bytesOf "trailer" ++ ([10, 60, 60] ++ p ++ 62 :: 62 :: z))).drop
      (x.length + 0 + 7) = [10, 60, 60] ++ p ++ 62 :: 62 :: z := by
    rw [e, Nat.add_zero, ← List.drop_drop, List.drop_left]
    rfl
  simp only [hdrop]
  have hidx : index ([10, 60, 60] ++ p ++ 62 :: 62 :: z) (bytesOf "<<") = some 1 := by
    rw [e2]
    simp [index, hasPrefix, hasPrefix_nil]
  simp only [hidx]
  have hdrop2 : (x ++ (bytesOf "trailer" ++ ([10, 60, 60] ++ p ++ 62 :: 62 :: z))).drop
      (x.length + 0 + 7 + 1) = 60 :: 60 :: (p ++ 62 :: 62 :: z) := by
    rw [← List.drop_drop, hdrop]
    rfl
  have hm : matchDictEnd (x ++ (bytesOf "trailer" ++ ([10, 60, 60] ++ p ++ 62 :: 62 :: z)))
      (x.length + 0 + 7 + 1) = some (x.length + 0 + 7 + 1 + 2 + p.length) := by
    unfold matchDictEnd
    rw [hdrop2]
    simp only [matchDictEndFrom, and_self, ↓reduceIte, zero_add]
    exact matchDictEndFrom_plain p z _ hp
  simp only [hm]
  have e3 : x.length + 0 + 7 + 1 + 2 + p.length + 2 = (x.length + 0 + 7 + 1) + (2 + p.length + 2) := by
    omega
  rw [e3, drop_take_add, hdrop2]
  have e4 : 60 :: 60 :: (p ++ 62 :: 62 :: z) = ([60, 60] ++ p ++ [62, 62]) ++ z := by simp
  have e5 : 2 + p.length + 2 = ([60, 60] ++ p ++ [62, 62]).length := by
    simp only [List.length_append, List.length_cons, List.length_nil]
  rw [e4, e5, take_length_append]



theorem itoa_all (f : Nat → Bool) (x : Int) (h45 : f 45 = true)
    (hd : ∀ c, isDigit c = true → f c = true) : (itoa x).all f = true := by
  rw [List.all_eq_true]
  intro c hc
  rcases itoa_bytes x c hc with rfl | h
  · exact h45
  · exact hd c h

theorem natDigits_all (f : Nat → Bool) (n : Nat)
    (hd : ∀ c, isDigit c = true → f c = true) : (natDigits n).all f = true := by
  rw [List.all_eq_true]
  intro c hc
  exact hd c (natDigits_isDigit n c hc)

theorem isDigit_range {c : Nat} (h : isDigit c = true) : 48 ≤ c ∧ c ≤ 57 := by
  simpa [isDigit] using h

theorem not_mem_of_all {l : Bytes} {q : Nat} (h : l.all (fun c => c != q) = true) : q ∉ l := by
  intro hq
  have := List.all_eq_true.1 h q hq
  simp at this

/-- The text of the appended trailer behind the word `trailer`, cut at its
dictionary: a line feed, `<<`, the entries, `>>` and a line feed. -/
theorem renderTrailer_eq (size : Int) (root info : ObjRef) (prev : Int) :
    renderTrailer size root info prev
      = bytesOf "trailer" ++ ([10, 60, 60]
          ++ (bytesOf " /Size " ++ itoa size ++ bytesOf " /Root " ++ itoa root.Obj ++ [32]
              ++ itoa root.Gen ++ bytesOf " R /Info " ++ itoa info.Obj ++ [32] ++ itoa info.Gen
              ++ bytesOf " R /Prev " ++ itoa prev ++ [32])
          ++ 62 :: 62 :: [10]) := by
  have e1 : bytesOf "trailer\n<< /Size " = bytesOf "trailer" ++ ([10, 60, 60] ++ bytesOf " /Size ") := by
    decide
  have e2 : bytesOf " >>\n" = [32, 62, 62, 10] := by decide
  unfold renderTrailer
  rw [e1, e2]
  simp only [List.append_assoc, List.cons_append, List.nil_append]

theorem wrapInt_wrapInt_add (a b : Int) : wrapInt (wrapInt a + b) = wrapInt (a + b) := by
  unfold wrapInt
  omega

/-- C6: after a successful write, `lastTrailerDict` of the output is the
appended trailer dictionary; it carries `/Size max+4`, `/Root (max+3) 0 R`,
`/Info (max+1) 0 R` and `/Prev` equal to `parseStartXRef(src)`, where `max` is
`maxObjectNumber(src)` and the sums are Go `int` sums. -/
theorem c6_appended_trailer (src : Bytes) (meta : Metadata) (packet out : Bytes)
    (h : writeNativeIncremental src meta packet = .ok out) :
    ∃ prev, parseStartXRef src = some prev
      ∧ lastTrailerDict out
        = bytesOf "<< /Size " ++ itoa (wrapInt (maxObjectNumber src + 4))
          ++ bytesOf " /Root " ++ itoa (wrapInt (maxObjectNumber src + 3))
          ++ bytesOf " 0 R /Info " ++ itoa (wrapInt (maxObjectNumber src + 1))
          ++ bytesOf " 0 R /Prev " ++ itoa prev ++ bytesOf " >>" := by
  obtain ⟨rootRef, infoRef, prev, rootBody, rootDict, -, h2, -, -, -, rfl⟩ :=
    writeNativeIncremental_ok h
  refine ⟨prev, h2, ?_⟩
  simp only [incrementalOutput, renderTrailer_eq]
  generalize hx : src ++ sourceLF src ++ renderInfoObject _ meta ++ renderMetadataObject _ packet
    ++ renderCatalogObject _ _ ++ renderXRef _ _ = x
  generalize hn : natDigits _ = ds
  have hds : ds.all (fun c => c != 108) = true := by
    rw [← hn]
    exact natDigits_all _ _ (fun c hc => by have := isDigit_range hc; simp; omega)
  have hi : ∀ y : Int, (itoa y).all (fun c => c != 108) = true := fun y =>
    itoa_all _ y (by decide) (fun c hc => by have := isDigit_range hc; simp; omega)
  have hi2 : ∀ y : Int, (itoa y).all (fun c => c != 60 && c != 62) = true := fun y =>
    itoa_all _ y (by decide) (fun c hc => by have := isDigit_range hc; simp; omega)
  have e0 : ∀ (p : Bytes), x ++ (bytesOf "trailer" ++ ([10, 60, 60] ++ p ++ [62, 62, 10]))
      ++ bytesOf "startxref\n" ++ (ds ++ bytesOf "\n") ++ bytesOf "%%EOF\n"
      = x ++ (bytesOf "trailer" ++ ([10, 60, 60] ++ p
          ++ 62 :: 62 :: ([10] ++ bytesOf "startxref\n" ++ (ds ++ bytesOf "\n") ++ bytesOf "%%EOF\n")))
      := by
    intro p
    simp only [List.append_assoc, List.cons_append, List.nil_append]
  rw [e0, lastTrailerDict_appended]
  · have e1 : bytesOf "<< /Size " = [60, 60] ++ bytesOf " /Size " := by decide
    have e2 : bytesOf " 0 R /Info " = [32] ++ itoa 0 ++ bytesOf " R /Info " := by decide
    have e3 : bytesOf " 0 R /Prev " = [32] ++ itoa 0 ++ bytesOf " R /Prev " := by decide
    have e4 : bytesOf " >>" = [32] ++ [62, 62] := by decide
    rw [e1, e2, e3, e4, wrapInt_wrapInt_add]
    have e5 : maxObjectNumber src + 3 + 1 = maxObjectNumber src + 4 := by ring
    rw [e5]
    simp only [List.append_assoc, List.cons_append, List.nil_append]
  · intro c hc
    have hall : (bytesOf " /Size " ++ itoa (wrapInt (wrapInt (maxObjectNumber src + 3) + 1))
        ++ bytesOf " /Root " ++ itoa (wrapInt (maxObjectNumber src + 3)) ++ [32]
        ++ itoa (0 : Int) ++ bytesOf " R /Info " ++ itoa (wrapInt (maxObjectNumber src + 1)) ++ [32]
        ++ itoa (0 : Int) ++ bytesOf " R /Prev " ++ itoa prev ++ [32]).all
          (fun c => c != 60 && c != 62) = true := by
      simp only [List.all_append, hi2, Bool.and_eq_true, and_true, true_and]
      decide
    have := List.all_eq_true.1 hall c hc
    simpa using this
  · apply lastIndex_none_of_missing (q := 108) (by decide)
    apply not_mem_of_all
    simp only [List.all_append, List.all_cons, hi, hds, Bool.and_eq_true, and_true, true_and]
    decide

theorem c6_witness :
    writeNativeIncremental minimalPdf {} [] = .ok minimalPdfRewritten
      ∧ ∃ prev, parseStartXRef minimalPdf = some prev
        ∧ lastTrailerDict minimalPdfRewritten
          = bytesOf "<< /Size " ++ itoa (wrapInt (maxObjectNumber minimalPdf + 4))
            ++ bytesOf " /Root " ++ itoa (wrapInt (maxObjectNumber minimalPdf + 3))
            ++ bytesOf " 0 R /Info " ++ itoa (wrapInt (maxObjectNumber minimalPdf + 1))
            ++ bytesOf " 0 R /Prev " ++ itoa prev ++ bytesOf " >>" :=
  ⟨by decide!, c6_appended_trailer minimalPdf {} [] minimalPdfRewritten (by decide!)⟩

/-! ### Decimal digits and the numbers they denote -/

theorem digitsValue_nil (a : Nat) : digitsValue a [] = a := rfl

theorem digitsValue_cons (a c : Nat) (cs : Bytes) :
    digitsValue a (c :: cs) = digitsValue (a * 10 + (c - 48)) cs := rfl

theorem digitsValue_append (a : Nat) (xs ys : Bytes) :
    digitsValue a (xs ++ ys) = digitsValue (digitsValue a xs) ys := by
  induction xs generalizing a with
  | nil => rfl
  | cons c cs ih => exact ih (a * 10 + (c - 48))

theorem natDigitsAux_spec :
    ∀ (fuel n : Nat) (acc : Bytes), n < fuel →
      ∃ ds, natDigitsAux fuel n acc = ds ++ acc ∧ digitsValue 0 ds = n ∧ ds ≠ []
        ∧ (∀ c ∈ ds, isDigit c = true) ∧ (1 ≤ n → ds.head? ≠ some 48) := by
  intro fuel
  induction fuel with
  | zero => intro n acc h; omega
  | succ f ih =>
    intro n acc h
    simp only [natDigitsAux]
    split
    · rename_i hn
      refine ⟨[48 + n], rfl, by rw [digitsValue_cons, digitsValue_nil]; omega, by simp, ?_, ?_⟩
      · intro c hc
        simp only [List.mem_singleton] at hc
        subst hc
        simp only [isDigit, Bool.and_eq_true, decide_eq_true_eq]
        omega
      · intro h1
        simp only [List.head?_cons, ne_eq, Option.some.injEq]
        omega
    · rename_i hn
      obtain ⟨ds, h1, h2, h3, h4, h5⟩ := ih (n / 10) ((48 + n % 10) :: acc) (by omega)
      refine ⟨ds ++ [48 + n % 10], by rw [h1]; simp, ?_, by simp, ?_, ?_⟩
      · rw [digitsValue_append, h2, digitsValue_cons, digitsValue_nil]
        omega
      · intro c hc
        simp only [List.mem_append, List.mem_singleton] at hc
        rcases hc with hc | rfl
        · exact h4 c hc
        · simp only [isDigit, Bool.and_eq_true, decide_eq_true_eq]
          omega
      · intro _
        have := h5 (by omega)
        cases ds with
        | nil => exact absurd rfl h3
        | cons d ds => simpa using this

theorem natDigits_spec (n : Nat) :
    digitsValue 0 (natDigits n) = n ∧ (1 ≤ n → (natDigits n).head? ≠ some 48) := by
  obtain ⟨ds, h1, h2, _, _, h5⟩ := natDigitsAux_spec (n + 1) n [] (Nat.lt_succ_self n)
  unfold natDigits
  rw [h1, List.append_nil]
  exact ⟨h2, h5⟩

theorem digitsValue_replicate_zero (k a : Nat) (ds : Bytes) :
    digitsValue a (List.replicate k 48 ++ ds) = digitsValue (a * 10 ^ k) ds := by
  induction k generalizing a with
  | zero => simp
  | succ k ih =>
    rw [List.replicate_succ, List.cons_append, digitsValue_cons, ih]
    congr 1
    rw [pow_succ]
    ring

theorem digitsValue_lower (ds : Bytes) : ∀ a, a * 10 ^ ds.length ≤ digitsValue a ds := by
  induction ds with
  | nil => intro a; simp [digitsValue_nil]
  | cons c cs ih =>
    intro a
    rw [digitsValue_cons, List.length_cons, pow_succ]
    calc a * (10 ^ cs.length * 10) = (a * 10) * 10 ^ cs.length := by ring
      _ ≤ (a * 10 + (c - 48)) * 10 ^ cs.length := Nat.mul_le_mul_right _ (by omega)
      _ ≤ _ := ih _

theorem natDigits_length_le (n : Nat) (h : n < 10 ^ 10) : (natDigits n).length ≤ 10 := by
  obtain ⟨hv, hh⟩ := natDigits_spec n
  have hd := natDigits_isDigit n
  cases hds : natDigits n with
  | nil => simp
  | cons c cs =>
    rw [hds] at hv hh hd
    by_cases hn : 1 ≤ n
    · have hc : c ≠ 48 := by simpa using hh hn
      have hc2 := isDigit_range (hd c (List.mem_cons_self _ _))
      rw [digitsValue_cons] at hv
      have := digitsValue_lower cs (0 * 10 + (c - 48))
      rw [hv] at this
      have h1 : 1 * 10 ^ cs.length ≤ (0 * 10 + (c - 48)) * 10 ^ cs.length :=
        Nat.mul_le_mul_right _ (by omega)
      have h2 : 10 ^ cs.length < 10 ^ 10 := by omega
      have h3 : cs.length < 10 := (Nat.pow_lt_pow_iff_right (by decide)).1 h2
      simp only [List.length_cons]
      omega
    · have : n = 0 := by omega
      subst this
      have : natDigits 0 = [48] := by decide
      rw [this] at hds
      cases hds
      simp

/-- The verb `%010d`: decimal digits that denote the number, at least ten of
them, and ten for a number below 10^10. -/
theorem pad10_spec (n : Nat) :
    (pad10 n).all isDigit = true ∧ digitsValue 0 (pad10 n) = n ∧ 10 ≤ (pad10 n).length
      ∧ (n < 10 ^ 10 → (pad10 n).length = 10) := by
  unfold pad10
  refine ⟨?_, ?_, ?_, ?_⟩
  · rw [List.all_append, Bool.and_eq_true]
    refine ⟨?_, List.all_eq_true.2 (natDigits_isDigit n)⟩
    rw [List.all_eq_true]
    intro c hc
    rw [List.eq_of_mem_replicate hc]
    decide
  · rw [digitsValue_replicate_zero, Nat.zero_mul]
    exact (natDigits_spec n).1
  · rw [List.length_append, List.length_replicate]
    omega
  · intro h
    have := natDigits_length_le n h
    rw [List.length_append, List.length_replicate]
    omega

/-- The subsection that `renderXRef` writes for three offsets: the line
`xref`, the line of the first number and the count 3, and one line of twenty
bytes for each offset. -/
theorem renderXRef_three (startObj : Int) (o1 o2 o3 : Nat) :
    renderXRef startObj [o1, o2, o3]
      = bytesOf "xref\n" ++ itoa startObj ++ bytesOf " 3\n"
        ++ pad10 o1 ++ bytesOf " 00000 n \n"
        ++ pad10 o2 ++ bytesOf " 00000 n \n"
        ++ pad10 o3 ++ bytesOf " 00000 n \n" := by
  have e : bytesOf " 3\n" = [32] ++ natDigits 3 ++ [10] := by decide
  rw [e]
  simp [renderXRef, List.flatten]

/-! ### The offsets of the appended cross-reference section -/

theorem drop_of_eq {l x r : Bytes} (h : l = x ++ r) : l.drop x.length = r := by
  rw [h, List.drop_left]

theorem hasPrefix_drop_of_eq {l x q p t : Bytes} (h : l = x ++ (q ++ t)) (hq : ∃ s, q = p ++ s) :
    hasPrefix (l.drop x.length) p = true := by
  obtain ⟨s, rfl⟩ := hq
  rw [h, List.drop_left, List.append_assoc]
  exact hasPrefix_append_self p _

/-- C5: in the output of a successful write, the appended xref subsection
stands at the position `ox` and is the line `xref`, the line of the number
`max+1` and the count 3, and three lines `pad10 o ++ " 00000 n "` for the
offsets `o1`, `o2`, `o3`, followed by the trailer; the digits `pad10 o` denote
`o` and are ten for an offset below 10^10.  At `o1`, `o2`, `o3` the new Info,
Metadata and Catalog objects begin (with the texts `{max+1} 0 obj`,
`{max+2} 0 obj`, `{max+3} 0 obj`, the sums being Go `int` sums).  The text
behind the last `startxref` of the output is a line feed, the decimal digits
of `ox`, a line feed and `%%EOF`. -/
theorem c5_xref_offsets (src : Bytes) (meta : Metadata) (packet out : Bytes)
    (h : writeNativeIncremental src meta packet = .ok out) :
    ∃ (o1 o2 o3 ox : Nat) (tail : Bytes),
      out.drop ox
          = bytesOf "xref\n" ++ itoa (wrapInt (maxObjectNumber src + 1)) ++ bytesOf " 3\n"
            ++ pad10 o1 ++ bytesOf " 00000 n \n"
            ++ pad10 o2 ++ bytesOf " 00000 n \n"
            ++ pad10 o3 ++ bytesOf " 00000 n \n" ++ tail
        ∧ hasPrefix tail (bytesOf "trailer\n") = true
        ∧ (∀ o ∈ [o1, o2, o3], (pad10 o).all isDigit = true ∧ digitsValue 0 (pad10 o) = o
            ∧ (o < 10 ^ 10 → (pad10 o).length = 10))
        ∧ out.drop ox = renderXRef (wrapInt (maxObjectNumber src + 1)) [o1, o2, o3] ++ tail
        ∧ hasPrefix (out.drop ox) (bytesOf "xref\n") = true
        ∧ hasPrefix (out.drop o1)
            (itoa (wrapInt (maxObjectNumber src + 1)) ++ bytesOf " 0 obj\n") = true
        ∧ hasPrefix (out.drop o1) (renderInfoObject (wrapInt (maxObjectNumber src + 1)) meta) = true
        ∧ hasPrefix (out.drop o2)
            (itoa (wrapInt (maxObjectNumber src + 2)) ++ bytesOf " 0 obj\n") = true
        ∧ hasPrefix (out.drop o2)
            (renderMetadataObject (wrapInt (maxObjectNumber src + 2)) packet) = true
        ∧ hasPrefix (out.drop o3)
            (itoa (wrapInt (maxObjectNumber src + 3)) ++ bytesOf " 0 obj\n") = true
        ∧ (∃ k, lastIndex out (bytesOf "startxref") = some k
            ∧ out.drop (k + 9) = bytesOf "\n" ++ natDigits ox ++ bytesOf "\n%%EOF\n"
            ∧ (natDigits ox).all isDigit = true ∧ digitsValue 0 (natDigits ox) = ox) := by
  obtain ⟨rootRef, infoRef, prev, rootBody, rootDict, -, -, -, -, -, rfl⟩ :=
    writeNativeIncremental_ok h
  simp only [incrementalOutput]
  generalize hpre : src ++ sourceLF src = pre
  generalize hinfo : renderInfoObject (wrapInt (maxObjectNumber src + 1)) meta = info
  generalize hmd : renderMetadataObject (wrapInt (maxObjectNumber src + 2)) packet = md
  generalize hcat : renderCatalogObject (wrapInt (maxObjectNumber src + 3))
    (upsertNamedRef rootDict (bytesOf "Metadata") { Obj := wrapInt (maxObjectNumber src + 2), Gen := 0 })
    = cat
  have htr' : ∃ t, renderTrailer (wrapInt (wrapInt (maxObjectNumber src + 3) + 1))
      { Obj := wrapInt (maxObjectNumber src + 3), Gen := 0 }
      { Obj := wrapInt (maxObjectNumber src + 1), Gen := 0 } prev = bytesOf "trailer\n" ++ t := by
    unfold renderTrailer
    have e : bytesOf "trailer\n<< /Size " = bytesOf "trailer\n" ++ bytesOf "<< /Size " := by decide
    rw [e]
    exact ⟨_, by simp only [List.append_assoc]; rfl⟩
  obtain ⟨tt, htt⟩ := htr'
  generalize htr : renderTrailer _ _ _ prev = tr at htt
  have hinfo' : ∃ t, info = itoa (wrapInt (maxObjectNumber src + 1)) ++ bytesOf " 0 obj\n" ++ t := by
    rw [← hinfo]
    unfold renderInfoObject
    have e : bytesOf " 0 obj\n<<" = bytesOf " 0 obj\n" ++ bytesOf "<<" := by decide
    rw [e]
    exact ⟨_, by simp only [List.append_assoc]; rfl⟩
  have hmd' : ∃ t, md = itoa (wrapInt (maxObjectNumber src + 2)) ++ bytesOf " 0 obj\n" ++ t := by
    rw [← hmd]
    unfold renderMetadataObject
    exact ⟨_, by simp only [List.append_assoc]; rfl⟩
  have hcat' : ∃ t, cat = itoa (wrapInt (maxObjectNumber src + 3)) ++ bytesOf " 0 obj\n" ++ t := by
    rw [← hcat]
    unfold renderCatalogObject
    exact ⟨_, by simp only [List.append_assoc]; rfl⟩
  obtain ⟨ti, hti⟩ := hinfo'
  obtain ⟨tm, htm⟩ := hmd'
  obtain ⟨tc, htc⟩ := hcat'
  have hxr : ∃ t, renderXRef (wrapInt (maxObjectNumber src + 1))
      [pre.length, (pre ++ info).length, (pre ++ info ++ md).length] = bytesOf "xref\n" ++ t := by
    unfold renderXRef
    exact ⟨_, by simp only [List.append_assoc]; rfl⟩
  refine ⟨pre.length, (pre ++ info).length, (pre ++ info ++ md).length,
    (pre ++ info ++ md ++ cat).length,
    tr ++ bytesOf "startxref\n"
      ++ (natDigits (pre ++ info ++ md ++ cat).length ++ bytesOf "\n") ++ bytesOf "%%EOF\n",
    ?_, ?_, ?_, ?_, ?_, ?_, ?_, ?_, ?_, ?_, ?_⟩
  · rw [← renderXRef_three]
    exact drop_of_eq (by simp only [List.append_assoc])
  · rw [htt]
    simp only [List.append_assoc]
    exact hasPrefix_append_self _ _
  · intro o _
    exact ⟨(pad10_spec o).1, (pad10_spec o).2.1, (pad10_spec o).2.2.2⟩
  · exact drop_of_eq (by simp only [List.append_assoc])
  · exact hasPrefix_drop_of_eq (t := tr ++ bytesOf "startxref\n"
      ++ (natDigits (pre ++ info ++ md ++ cat).length ++ bytesOf "\n") ++ bytesOf "%%EOF\n")
      (by simp only [List.append_assoc]) hxr
  · exact hasPrefix_drop_of_eq (q := info) (t := md ++ cat ++ renderXRef (wrapInt (maxObjectNumber src + 1))
          [pre.length, (pre ++ info).length, (pre ++ info ++ md).length]
        ++ tr ++ bytesOf "startxref\n"
        ++ (natDigits (pre ++ info ++ md ++ cat).length ++ bytesOf "\n") ++ bytesOf "%%EOF\n")
      (by simp only [List.append_assoc]) ⟨ti, hti⟩
  · exact hasPrefix_drop_of_eq (q := info) (t := md ++ cat ++ renderXRef (wrapInt (maxObjectNumber src + 1))
          [pre.length, (pre ++ info).length, (pre ++ info ++ md).length]
        ++ tr ++ bytesOf "startxref\n"
        ++ (natDigits (pre ++ info ++ md ++ cat).length ++ bytesOf "\n") ++ bytesOf "%%EOF\n")
      (by simp only [List.append_assoc]) ⟨[], by simp⟩
  · exact hasPrefix_drop_of_eq (q := md) (t := cat ++ renderXRef (wrapInt (maxObjectNumber src + 1))
          [pre.length, (pre ++ info).length, (pre ++ info ++ md).length]
        ++ tr ++ bytesOf "startxref\n"
        ++ (natDigits (pre ++ info ++ md ++ cat).length ++ bytesOf "\n") ++ bytesOf "%%EOF\n")
      (by simp only [List.append_assoc]) ⟨tm, htm⟩
  · exact hasPrefix_drop_of_eq (q := md) (t := cat ++ renderXRef (wrapInt (maxObjectNumber src + 1))
          [pre.length, (pre ++ info).length, (pre ++ info ++ md).length]
        ++ tr ++ bytesOf "startxref\n"
        ++ (natDigits (pre ++ info ++ md ++ cat).length ++ bytesOf "\n") ++ bytesOf "%%EOF\n")
      (by simp only [List.append_assoc]) ⟨[], by simp⟩
  · exact hasPrefix_drop_of_eq (q := cat) (t := renderXRef (wrapInt (maxObjectNumber src + 1))
          [pre.length, (pre ++ info).length, (pre ++ info ++ md).length]
        ++ tr ++ bytesOf "startxref\n"
        ++ (natDigits (pre ++ info ++ md ++ cat).length ++ bytesOf "\n") ++ bytesOf "%%EOF\n")
      (by simp only [List.append_assoc]) ⟨tc, htc⟩
  · generalize hn : natDigits (pre ++ info ++ md ++ cat).length = ds
    generalize hX : pre ++ info ++ md ++ cat ++ renderXRef (wrapInt (maxObjectNumber src + 1))
          [pre.length, (pre ++ info).length, (pre ++ info ++ md).length] ++ tr = X
    have hds : ds.all (fun c => c != 115) = true := by
      rw [← hn]
      exact natDigits_all _ _ (fun c hc => by have := isDigit_range hc; simp; omega)
    have e1 : bytesOf "startxref\n" = bytesOf "startxref" ++ [10] := by decide
    have e2 : bytesOf "startxref" = 115 :: bytesOf "tartxref" := by decide
    have e5 : bytesOf "\n%%EOF\n" = bytesOf "\n" ++ bytesOf "%%EOF\n" := by decide
    have e6 : bytesOf "\n" = [10] := by decide
    have e9 : (bytesOf "startxref").length = 9 := by decide
    have hnone : lastIndex (bytesOf "tartxref" ++ ([10] ++ ds ++ (bytesOf "\n" ++ bytesOf "%%EOF\n")))
        (115 :: bytesOf "tartxref") = none := by
      apply lastIndex_none_of_not_mem
      apply not_mem_of_all
      simp only [List.all_append, hds, Bool.and_eq_true, and_true, true_and]
      decide
    have hzero : lastIndex (bytesOf "startxref" ++ ([10] ++ ds ++ (bytesOf "\n" ++ bytesOf "%%EOF\n")))
        (bytesOf "startxref") = some 0 := by
      rw [e2]
      exact lastIndex_cons_zero 115 hnone (by simp [hasPrefix, hasPrefix_append_self])
    have hout : X ++ bytesOf "startxref\n" ++ (ds ++ bytesOf "\n") ++ bytesOf "%%EOF\n"
        = X ++ (bytesOf "startxref" ++ ([10] ++ ds ++ (bytesOf "\n" ++ bytesOf "%%EOF\n"))) := by
      rw [e1]
      simp only [List.append_assoc]
    rw [hout]
    refine ⟨X.length + 0, lastIndex_append X hzero, ?_, ?_, ?_⟩
    · have e4 : X.length + 0 + 9 = (X ++ bytesOf "startxref").length := by
        rw [List.length_append, e9]
      rw [← List.append_assoc X, e4, List.drop_left, e5, e6]
    · rw [← hn]
      exact List.all_eq_true.2 (natDigits_isDigit _)
    · rw [← hn]
      exact (natDigits_spec _).1

theorem c5_witness :
    writeNativeIncremental minimalPdf {} [] = .ok minimalPdfRewritten
      ∧ ∃ (o1 o2 o3 ox : Nat) (tail : Bytes),
        minimalPdfRewritten.drop ox
            = bytesOf "xref\n" ++ itoa (wrapInt (maxObjectNumber minimalPdf + 1)) ++ bytesOf " 3\n"
              ++ pad10 o1 ++ bytesOf " 00000 n \n"
              ++ pad10 o2 ++ bytesOf " 00000 n \n"
              ++ pad10 o3 ++ bytesOf " 00000 n \n" ++ tail
          ∧ hasPrefix tail (bytesOf "trailer\n") = true
          ∧ (∀ o ∈ [o1, o2, o3], (pad10 o).all isDigit = true ∧ digitsValue 0 (pad10 o) = o
              ∧ (o < 10 ^ 10 → (pad10 o).length = 10))
          ∧ minimalPdfRewritten.drop ox
              = renderXRef (wrapInt (maxObjectNumber minimalPdf + 1)) [o1, o2, o3] ++ tail
          ∧ hasPrefix (minimalPdfRewritten.drop ox) (bytesOf "xref\n") = true
          ∧ hasPrefix (minimalPdfRewritten.drop o1)
              (itoa (wrapInt (maxObjectNumber minimalPdf + 1)) ++ bytesOf " 0 obj\n") = true
          ∧ hasPrefix (minimalPdfRewritten.drop o1)
              (renderInfoObject (wrapInt (maxObjectNumber minimalPdf + 1)) {}) = true
          ∧ hasPrefix (minimalPdfRewritten.drop o2)
              (itoa (wrapInt (maxObjectNumber minimalPdf + 2)) ++ bytesOf " 0 obj\n") = true
          ∧ hasPrefix (minimalPdfRewritten.drop o2)
              (renderMetadataObject (wrapInt (maxObjectNumber minimalPdf + 2)) []) = true
          ∧ hasPrefix (minimalPdfRewritten.drop o3)
              (itoa (wrapInt (maxObjectNumber minimalPdf + 3)) ++ bytesOf " 0 obj\n") = true
          ∧ (∃ k, lastIndex minimalPdfRewritten (bytesOf "startxref") = some k
              ∧ minimalPdfRewritten.drop (k + 9)
                = bytesOf "\n" ++ natDigits ox ++ bytesOf "\n%%EOF\n"
              ∧ (natDigits ox).all isDigit = true ∧ digitsValue 0 (natDigits ox) = ox) :=
  ⟨by decide!, c5_xref_offsets minimalPdf {} [] minimalPdfRewritten (by decide!)⟩

/-! ### Escaped text read back by the XML reader -/

theorem isCont_ge {c : Nat} (h : isCont c = true) : 0x80 ≤ c := by
  simp [isCont] at h
  omega

/-- The first rune of a text: an ASCII byte, an invalid byte, or a sequence of
two to four bytes outside ASCII that encodes a rune outside ASCII. -/
theorem decodeRune_cases (b : Nat) (t : Bytes) :
    (b < 0x80 ∧ decodeRune (b :: t) = (b, 1))
      ∨ (0x80 ≤ b ∧ decodeRune (b :: t) = (runeError, 1))
      ∨ (0x80 ≤ b ∧ 0x80 ≤ (decodeRune (b :: t)).1 ∧ 2 ≤ (decodeRune (b :: t)).2
          ∧ (decodeRune (b :: t)).2 ≤ (b :: t).length
          ∧ ∀ c ∈ (b :: t).take (decodeRune (b :: t)).2, 0x80 ≤ c) := by
  unfold decodeRune
  by_cases h1 : b < 0x80
  · left
    simp [h1]
  · right
    simp only [h1, ↓reduceIte]
    by_cases h2 : b < 0xC2
    · left
      simp only [h2, ↓reduceIte, and_true]
      omega
    · simp only [h2, ↓reduceIte]
      by_cases h3 : b < 0xE0
      · simp only [h3, ↓reduceIte]
        cases t with
        | nil => left; simp only [and_true]; omega
        | cons b1 t1 =>
          by_cases hc : isCont b1 = true
          · right
            have := isCont_ge hc
            simp only [hc, ↓reduceIte, List.length_cons]
            refine ⟨by omega, by omega, le_refl _, by omega, ?_⟩
            intro c hc2
            simp only [List.take_succ_cons, List.take_zero, List.mem_cons, List.mem_nil_iff,
              or_false] at hc2
            rcases hc2 with rfl | rfl <;> omega
          · left
            simp only [hc, Bool.false_eq_true, ↓reduceIte, and_true]
            omega
      · simp only [h3, ↓reduceIte]
        by_cases h4 : b < 0xF0
        · simp only [h4, ↓reduceIte]
          match t with
          | [] => left; simp only [and_true]; omega
          | [_] => left; simp only [and_true]; omega
          | b1 :: b2 :: t2 =>
            simp only
            by_cases hc : (decide ((if b = 0xE0 then 0xA0 else 0x80) ≤ b1)
                && decide (b1 ≤ (if b = 0xED then 0x9F else 0xBF)) && isCont b2) = true
            · right
              rw [if_pos hc]
              simp only [Bool.and_eq_true, decide_eq_true_eq] at hc
              have := isCont_ge hc.2
              have hb1 : 0x80 ≤ b1 := by
                have := hc.1.1
                split at this <;> omega
              have hval : 0x80 ≤ ((b - 0xE0) * 64 + (b1 - 0x80)) * 64 + (b2 - 0x80) := by
                have := hc.1.1
                split at this <;> omega
              simp only [List.length_cons]
              refine ⟨by omega, hval, by omega, by omega, ?_⟩
              intro c hc2
              simp only [List.take_succ_cons, List.take_zero, List.mem_cons, List.mem_nil_iff,
                or_false] at hc2
              rcases hc2 with rfl | rfl | rfl <;> omega
            · left
              rw [if_neg hc]
              simp only [and_true]
              omega
        · simp only [h4, ↓reduceIte]
          by_cases h5 : b < 0xF5
          · simp only [h5, ↓reduceIte]
            match t with
            | [] => left; simp only [and_true]; omega
            | [_] => left; simp only [and_true]; omega
            | [_, _] => left; simp only [and_true]; omega
            | b1 :: b2 :: b3 :: t3 =>
              simp only
              by_cases hc : (decide ((if b = 0xF0 then 0x90 else 0x80) ≤ b1)
                  && decide (b1 ≤ (if b = 0xF4 then 0x8F else 0xBF)) && isCont b2 && isCont b3) = true
              · right
                rw [if_pos hc]
                simp only [Bool.and_eq_true, decide_eq_true_eq] at hc
                have := isCont_ge hc.2
                have := isCont_ge hc.1.2
                have hb1 : 0x80 ≤ b1 := by
                  have := hc.1.1.1
                  split at this <;> omega
                have hval : 0x80 ≤ (((b - 0xF0) * 64 + (b1 - 0x80)) * 64 + (b2 - 0x80)) * 64
                    + (b3 - 0x80) := by
                  have := hc.1.1.1
                  split at this <;> omega
                simp only [List.length_cons]
                refine ⟨by omega, hval, by omega, by omega, ?_⟩
                intro c hc2
                simp only [List.take_succ_cons, List.take_zero, List.mem_cons, List.mem_nil_iff,
                  or_false] at hc2
                rcases hc2 with rfl | rfl | rfl | rfl <;> omega
              · left
                rw [if_neg hc]
                simp only [and_true]
                omega
          · left
            simp only [h5, ↓reduceIte, and_true]
            omega

theorem xmlTextLoop_plain (bs : Bytes)
    (h : ∀ c ∈ bs, c ≠ 60 ∧ c ≠ 62 ∧ c ≠ 38 ∧ c ≠ 13 ∧ c ≠ 10) :
    ∀ (fuel b0 b1 : Nat) (rest buf : Bytes), ∃ c0 c1,
      xmlTextLoop none false (fuel + bs.length) b0 b1 (bs ++ rest) buf
        = xmlTextLoop none false fuel c0 c1 rest (buf ++ bs) := by
  induction bs with
  | nil => intro fuel b0 b1 rest buf; exact ⟨b0, b1, by simp⟩
  | cons c cs ih =>
    intro fuel b0 b1 rest buf
    obtain ⟨h60, h62, h38, h13, h10⟩ := h c (by simp)
    obtain ⟨c0, c1, hrec⟩ := ih (fun d hd => h d (by simp [hd])) fuel b1 c rest (buf ++ [c])
    refine ⟨c0, c1, ?_⟩
    have e : fuel + (c :: cs).length = (fuel + cs.length) + 1 := by simp; omega
    rw [e]
    simp only [List.cons_append, xmlTextLoop, h62, and_false, ↓reduceIte, h60, false_and,
      Option.some.injEq, h38, h13, h10]
    rw [hrec]
    simp

theorem xmlTextLoop_entity (e : Bytes) (c : Nat)
    (he : ∀ rest, xmlEntity (e ++ rest) = some ([c], rest))
    (fuel b0 b1 : Nat) (rest buf : Bytes) :
    xmlTextLoop none false (fuel + 1) b0 b1 (38 :: (e ++ rest)) buf
      = xmlTextLoop none false fuel 0 0 rest (buf ++ [c]) := by
  simp [xmlTextLoop, he]

theorem xmlTextLoop_lt (fuel c0 c1 : Nat) (rest buf : Bytes) :
    xmlTextLoop none false (fuel + 1) c0 c1 (60 :: rest) buf = some (buf, 60 :: rest) := by
  simp [xmlTextLoop]

theorem xmlEntity_escapes (rest : Bytes) :
    xmlEntity (bytesOf "#34;" ++ rest) = some ([34], rest)
    ∧ xmlEntity (bytesOf "#39;" ++ rest) = some ([39], rest)
    ∧ xmlEntity (bytesOf "amp;" ++ rest) = some ([38], rest)
    ∧ xmlEntity (bytesOf "lt;" ++ rest) = some ([60], rest)
    ∧ xmlEntity (bytesOf "gt;" ++ rest) = some ([62], rest)
    ∧ xmlEntity (bytesOf "#x9;" ++ rest) = some ([9], rest)
    ∧ xmlEntity (bytesOf "#xA;" ++ rest) = some ([10], rest)
    ∧ xmlEntity (bytesOf "#xD;" ++ rest) = some ([13], rest) :=
  ⟨rfl, rfl, rfl, rfl, rfl, rfl, rfl, rfl⟩

/-- The text loop reads what `escapeRune` wrote for an ASCII byte back as that byte. -/
theorem xmlTextLoop_escapeRune_ascii (b : Nat) (t : Bytes) (hb : b < 0x80)
    (hr : isInCharacterRange b = true) (fuel b0 b1 : Nat) (rest buf : Bytes) :
    ∃ c0 c1, xmlTextLoop none false (fuel + 1) b0 b1 (escapeRune b 1 (b :: t) ++ rest) buf
        = xmlTextLoop none false fuel c0 c1 rest (buf ++ [b])
      ∧ 1 ≤ (escapeRune b 1 (b :: t)).length
      ∧ (escapeRune b 1 (b :: t)).head? ≠ some 60 := by
  have E := xmlEntity_escapes rest
  by_cases h34 : b = 34
  · subst h34
    have he : escapeRune 34 1 (34 :: t) = bytesOf "&#34;" := rfl
    exact ⟨0, 0, xmlTextLoop_entity (bytesOf "#34;") 34 (fun r => (xmlEntity_escapes r).1) .., by rw [he]; decide, by rw [he]; decide⟩
  by_cases h39 : b = 39
  · subst h39
    have he : escapeRune 39 1 (39 :: t) = bytesOf "&#39;" := rfl
    exact ⟨0, 0, xmlTextLoop_entity (bytesOf "#39;") 39 (fun r => (xmlEntity_escapes r).2.1) .., by rw [he]; decide, by rw [he]; decide⟩
  by_cases h38 : b = 38
  · subst h38
    have he : escapeRune 38 1 (38 :: t) = bytesOf "&amp;" := rfl
    exact ⟨0, 0, xmlTextLoop_entity (bytesOf "amp;") 38 (fun r => (xmlEntity_escapes r).2.2.1) .., by rw [he]; decide, by rw [he]; decide⟩
  by_cases h60 : b = 60
  · subst h60
    have he : escapeRune 60 1 (60 :: t) = bytesOf "&lt;" := rfl
    exact ⟨0, 0, xmlTextLoop_entity (bytesOf "lt;") 60 (fun r => (xmlEntity_escapes r).2.2.2.1) .., by rw [he]; decide, by rw [he]; decide⟩
  by_cases h62 : b = 62
  · subst h62
    have he : escapeRune 62 1 (62 :: t) = bytesOf "&gt;" := rfl
    exact ⟨0, 0, xmlTextLoop_entity (bytesOf "gt;") 62 (fun r => (xmlEntity_escapes r).2.2.2.2.1) .., by rw [he]; decide, by rw [he]; decide⟩
  by_cases h9 : b = 9
  · subst h9
    have he : escapeRune 9 1 (9 :: t) = bytesOf "&#x9;" := rfl
    exact ⟨0, 0, xmlTextLoop_entity (bytesOf "#x9;") 9 (fun r => (xmlEntity_escapes r).2.2.2.2.2.1) .., by rw [he]; decide, by rw [he]; decide⟩
  by_cases h10 : b = 10
  · subst h10
    have he : escapeRune 10 1 (10 :: t) = bytesOf "&#xA;" := rfl
    exact ⟨0, 0, xmlTextLoop_entity (bytesOf "#xA;") 10 (fun r => (xmlEntity_escapes r).2.2.2.2.2.2.1) .., by rw [he]; decide, by rw [he]; decide⟩
  by_cases h13 : b = 13
  · subst h13
    have he : escapeRune 13 1 (13 :: t) = bytesOf "&#xD;" := rfl
    exact ⟨0, 0, xmlTextLoop_entity (bytesOf "#xD;") 13 (fun r => (xmlEntity_escapes r).2.2.2.2.2.2.2) .., by rw [he]; decide, by rw [he]; decide⟩
  have hne : b ≠ runeError := by unfold runeError; omega
  have he : escapeRune b 1 (b :: t) = [b] := by
    simp [escapeRune, h34, h39, h38, h60, h62, h9, h10, h13, hr, hne]
  rw [he]
  obtain ⟨c0, c1, h⟩ := xmlTextLoop_plain [b] (by
    intro c hc; simp at hc; subst hc; exact ⟨h60, h62, h38, h13, h10⟩) fuel b0 b1 rest buf
  exact ⟨c0, c1, h, by simp, by simp [h60]⟩

/-- The text loop reads the escaped form of an XML-safe string back as the string. -/
theorem xmlTextLoop_escapeText :
    ∀ (n : Nat) (v : Bytes), v.length ≤ n → validChars n v = true →
      ∃ k, k ≤ (escapeText n v).length
        ∧ (v ≠ [] → (escapeText n v).head? ≠ some 60 ∧ escapeText n v ≠ [])
        ∧ ∀ (fuel b0 b1 : Nat) (rest buf : Bytes), ∃ c0 c1,
            xmlTextLoop none false (fuel + k) b0 b1 (escapeText n v ++ rest) buf
              = xmlTextLoop none false fuel c0 c1 rest (buf ++ v) := by
  intro n
  induction n with
  | zero =>
    intro v hv _
    have : v = [] := List.length_eq_zero.mp (Nat.le_zero.mp hv)
    subst this
    exact ⟨0, by simp [escapeText], by simp, fun fuel b0 b1 rest buf => ⟨b0, b1, by simp [escapeText]⟩⟩
  | succ n ih =>
    intro v hv hvalid
    match v, hv, hvalid with
    | [], _, _ =>
      exact ⟨0, by simp [escapeText], by simp, fun fuel b0 b1 rest buf => ⟨b0, b1, by simp [escapeText]⟩⟩
    | b :: t, hv, hvalid =>
      have hE : escapeText (n + 1) (b :: t)
          = escapeRune (decodeRune (b :: t)).1 (decodeRune (b :: t)).2 (b :: t)
              ++ escapeText n ((b :: t).drop (decodeRune (b :: t)).2) := rfl
      have hV : validChars (n + 1) (b :: t)
          = (if (decodeRune (b :: t)).1 == runeError && (decodeRune (b :: t)).2 == 1 then false
             else if !isInCharacterRange (decodeRune (b :: t)).1 then false
             else validChars n ((b :: t).drop (decodeRune (b :: t)).2)) := rfl
      rw [hV] at hvalid
      have hbad : ¬ (((decodeRune (b :: t)).1 == runeError && (decodeRune (b :: t)).2 == 1) = true) := by
        intro h; rw [if_pos h] at hvalid; exact Bool.noConfusion hvalid
      rw [if_neg hbad] at hvalid
      have hrange : isInCharacterRange (decodeRune (b :: t)).1 = true := by
        cases hr : isInCharacterRange (decodeRune (b :: t)).1
        · rw [hr] at hvalid; simp at hvalid
        · rfl
      rw [hrange] at hvalid
      simp only [Bool.not_true, Bool.false_eq_true, ↓reduceIte] at hvalid
      rcases decodeRune_cases b t with ⟨hb, hd⟩ | ⟨_, hd⟩ | ⟨hb, hr, hw2, hwl, hall⟩
      · -- an ASCII byte
        rw [hd] at hvalid hrange
        simp only [List.drop_succ_cons, List.drop_zero] at hvalid
        simp only [List.length_cons] at hv
        obtain ⟨k, hk, _, hloop⟩ := ih t (by omega) hvalid
        rw [hE, hd]
        simp only [List.drop_succ_cons, List.drop_zero]
        refine ⟨k + 1, ?_, ?_, ?_⟩
        · obtain ⟨_, _, _, h1, _⟩ := xmlTextLoop_escapeRune_ascii b t hb hrange 0 0 0 [] []
          simp only [List.length_append]; omega
        · intro _
          obtain ⟨_, _, _, h1, h2⟩ := xmlTextLoop_escapeRune_ascii b t hb hrange 0 0 0 [] []
          cases he : escapeRune b 1 (b :: t) with
          | nil => rw [he] at h1; simp at h1
          | cons x xs => rw [he] at h2; simpa using h2
        · intro fuel b0 b1 rest buf
          obtain ⟨c0, c1, h1, _, _⟩ := xmlTextLoop_escapeRune_ascii b t hb hrange (fuel + k) b0 b1
            (escapeText n t ++ rest) buf
          obtain ⟨d0, d1, h2⟩ := hloop fuel c0 c1 rest (buf ++ [b])
          refine ⟨d0, d1, ?_⟩
          rw [List.append_assoc, ← Nat.add_assoc, h1, h2]
          simp
      · -- an invalid sequence
        rw [hd] at hbad
        exact absurd (by simp) hbad
      · -- a sequence of two to four bytes
        have hne : ∀ c ∈ (b :: t).take (decodeRune (b :: t)).2,
            c ≠ 60 ∧ c ≠ 62 ∧ c ≠ 38 ∧ c ≠ 13 ∧ c ≠ 10 := by
          intro c hc; have := hall c hc; omega
        have hesc : escapeRune (decodeRune (b :: t)).1 (decodeRune (b :: t)).2 (b :: t)
            = (b :: t).take (decodeRune (b :: t)).2 := by
          have h1 : (decodeRune (b :: t)).2 ≠ 1 := by omega
          unfold escapeRune
          rw [if_neg (by omega), if_neg (by omega), if_neg (by omega), if_neg (by omega),
            if_neg (by omega), if_neg (by omega), if_neg (by omega), if_neg (by omega)]
          simp [hrange, h1]
        have hlen : ((b :: t).drop (decodeRune (b :: t)).2).length ≤ n := by
          simp only [List.length_drop]; simp only [List.length_cons] at hv ⊢; omega
        obtain ⟨k, hk, _, hloop⟩ := ih _ hlen hvalid
        rw [hE, hesc]
        refine ⟨k + (decodeRune (b :: t)).2, ?_, ?_, ?_⟩
        · simp only [List.length_append, List.length_take]; omega
        · intro _
          have h2 : (decodeRune (b :: t)).2 = ((decodeRune (b :: t)).2 - 1) + 1 := by omega
          rw [h2]
          simp only [List.take_succ_cons, List.cons_append, List.head?_cons, ne_eq,
            Option.some.injEq, reduceCtorEq, not_false_eq_true, and_true]
          omega
        · intro fuel b0 b1 rest buf
          obtain ⟨c0, c1, h1⟩ := xmlTextLoop_plain _ hne (fuel + k) b0 b1
            (escapeText n ((b :: t).drop (decodeRune (b :: t)).2) ++ rest) buf
          obtain ⟨d0, d1, h2⟩ := hloop fuel c0 c1 rest (buf ++ (b :: t).take (decodeRune (b :: t)).2)
          refine ⟨d0, d1, ?_⟩
          have hl : ((b :: t).take (decodeRune (b :: t)).2).length = (decodeRune (b :: t)).2 := by
            simp only [List.length_take]; omega
          rw [hl] at h1
          rw [List.append_assoc, ← Nat.add_assoc, h1, h2, List.append_assoc, List.take_append_drop]

theorem xmlText_xmlEscape (v rest : Bytes) (hv : xmlSafe v = true) :
    xmlText none false (xmlEscape v ++ 60 :: rest) = some (v, 60 :: rest) := by
  obtain ⟨k, hk, _, hloop⟩ := xmlTextLoop_escapeText v.length v (Nat.le_refl _) hv
  obtain ⟨c0, c1, h⟩ := hloop ((xmlEscape v ++ 60 :: rest).length - k) 0 0 (60 :: rest) []
  have hlen : (xmlEscape v ++ 60 :: rest).length + 1
      = ((xmlEscape v ++ 60 :: rest).length - k) + 1 + k := by
    have : k ≤ (xmlEscape v ++ 60 :: rest).length := by
      simp only [List.length_append, xmlEscape]; omega
    omega
  have h2 := hloop ((xmlEscape v ++ 60 :: rest).length - k + 1) 0 0 (60 :: rest) []
  obtain ⟨d0, d1, h2⟩ := h2
  unfold xmlText
  rw [hlen]
  unfold xmlEscape at h2 ⊢
  rw [h2, xmlTextLoop_lt]
  simp only [List.nil_append]
  unfold xmlSafe at hv
  rw [hv]
  rfl

theorem xmlEscape_head (v : Bytes) (hv : xmlSafe v = true) (hne : v ≠ []) :
    ∃ b r, xmlEscape v = b :: r ∧ b ≠ 60 := by
  obtain ⟨k, hk, hhead, _⟩ := xmlTextLoop_escapeText v.length v (Nat.le_refl _) hv
  obtain ⟨h1, h2⟩ := hhead hne
  unfold xmlEscape
  cases he : escapeText v.length v with
  | nil => exact absurd he h2
  | cons b r =>
    rw [he] at h1
    exact ⟨b, r, rfl, by simpa using h1⟩

/-- The token of an escaped value before a tag is its character data. -/
theorem xmlRawToken_xmlEscape (env : XmlEnv) (v rest : Bytes) (hv : xmlSafe v = true)
    (hne : v ≠ []) :
    xmlRawToken env (xmlEscape v ++ 60 :: rest) = some (.CharData v, 60 :: rest) := by
  obtain ⟨b, r, he, hb⟩ := xmlEscape_head v hv hne
  have ht := xmlText_xmlEscape v rest hv
  rw [he] at ht ⊢
  simp only [List.cons_append] at ht ⊢
  unfold xmlRawToken
  simp only [ne_eq, hb, not_false_eq_true, ↓reduceIte, ht]

theorem Reaches.refl (env : XmlEnv) (s : LoopState) : Reaches env s s :=
  ⟨0, by simp, fun _ => rfl⟩

theorem Reaches.trans {env : XmlEnv} {s1 s2 s3 : LoopState}
    (h1 : Reaches env s1 s2) (h2 : Reaches env s2 s3) : Reaches env s1 s3 := by
  obtain ⟨k1, hk1, e1⟩ := h1
  obtain ⟨k2, hk2, e2⟩ := h2
  refine ⟨k2 + k1, by omega, fun fuel => ?_⟩
  rw [← Nat.add_assoc, e1, e2]

theorem Reaches.start {env : XmlEnv} {input rest : Bytes} {name : XName}
    (h : xmlRawToken env input = some (.StartElement name false, rest))
    (hl : rest.length < input.length)
    (o : List XName) (st : List Bytes) (m : Metadata) (saw : Bool) :
    Reaches env ⟨input, o, st, m, saw⟩
      ⟨rest, name :: o, st ++ [name.Local], m, saw || name.Local == bytesOf "xmpmeta"⟩ := by
  refine ⟨1, by simp only; omega, fun fuel => ?_⟩
  cases input with
  | nil => simp at hl
  | cons b t => simp only [LoopState.run, unmarshalLoop, h]; rfl

theorem Reaches.close {env : XmlEnv} {input rest : Bytes} {name : XName}
    (h : xmlRawToken env input = some (.EndElement name, rest))
    (hl : rest.length < input.length)
    (o : List XName) (st : List Bytes) (m : Metadata) (saw : Bool) :
    Reaches env ⟨input, name :: o, st, m, saw⟩ ⟨rest, o, st.dropLast, m, saw⟩ := by
  refine ⟨1, by simp only; omega, fun fuel => ?_⟩
  cases input with
  | nil => simp at hl
  | cons b t => simp only [LoopState.run, unmarshalLoop, h, ↓reduceIte]

theorem Reaches.text {env : XmlEnv} {input rest data : Bytes}
    (h : xmlRawToken env input = some (.CharData data, rest))
    (hl : rest.length < input.length)
    (o : List XName) (st : List Bytes) (m : Metadata) (saw : Bool) :
    Reaches env ⟨input, o, st, m, saw⟩ ⟨rest, o, st, unmarshalCharData st m data, saw⟩ := by
  refine ⟨1, by simp only; omega, fun fuel => ?_⟩
  cases input with
  | nil => simp at hl
  | cons b t => simp only [LoopState.run, unmarshalLoop, h]

theorem Reaches.other {env : XmlEnv} {input rest : Bytes}
    (h : xmlRawToken env input = some (.Other, rest))
    (hl : rest.length < input.length)
    (o : List XName) (st : List Bytes) (m : Metadata) (saw : Bool) :
    Reaches env ⟨input, o, st, m, saw⟩ ⟨rest, o, st, m, saw⟩ := by
  refine ⟨1, by simp only; omega, fun fuel => ?_⟩
  cases input with
  | nil => simp at hl
  | cons b t => simp only [LoopState.run, unmarshalLoop, h]

/-- A line feed between two tags is character data that sets no field. -/
theorem Reaches.newline (env : XmlEnv) (rest : Bytes)
    (o : List XName) (st : List Bytes) (m : Metadata) (saw : Bool) :
    Reaches env ⟨10 :: 60 :: rest, o, st, m, saw⟩ ⟨60 :: rest, o, st, m, saw⟩ := by
  have h : xmlRawToken env (10 :: 60 :: rest) = some (.CharData [10], 60 :: rest) := rfl
  have := Reaches.text h (by simp) o st m saw
  exact this

theorem Reaches.of_run {env : XmlEnv} (k : Nat) (p : Bytes) {s s2 : LoopState}
    (hs : s.input = p ++ s2.input) (hk : k ≤ p.length)
    (h : ∀ fuel, s.run env (fuel + k) = s2.run env fuel) : Reaches env s s2 :=
  ⟨k, by rw [hs, List.length_append]; omega, h⟩

/-- An escaped value before a tag is read as one piece of character data. -/
theorem Reaches.value (env : XmlEnv) (v rest : Bytes) (hv : xmlSafe v = true) (hne : v ≠ [])
    (o : List XName) (st : List Bytes) (m : Metadata) (saw : Bool) :
    Reaches env ⟨xmlEscape v ++ 60 :: rest, o, st, m, saw⟩
      ⟨60 :: rest, o, st, unmarshalCharData st m v, saw⟩ := by
  obtain ⟨b, t, he, _⟩ := xmlEscape_head v hv hne
  exact Reaches.text (xmlRawToken_xmlEscape env v rest hv hne)
    (by rw [he]; simp only [List.cons_append, List.length_cons, List.length_append]; omega) o st m saw

theorem charData_title (m : Metadata) (v : Bytes) (hm : m.Title = []) :
    unmarshalCharData (descriptionStack ++ [bytesOf "title", bytesOf "Alt", bytesOf "li"]) m v
      = { m with Title := trimSpace v } := by
  have h : unmarshalCharData (descriptionStack ++ [bytesOf "title", bytesOf "Alt", bytesOf "li"]) m v
      = if (trimSpace v).isEmpty then m
        else if m.Title.isEmpty then { m with Title := trimSpace v } else m := rfl
  rw [h, hm]
  cases m
  simp only at hm
  subst hm
  cases ht : trimSpace v <;> simp

theorem reaches_title (env : XmlEnv) (v r : Bytes) (m : Metadata)
    (hv : xmlSafe v = true) (hm : m.Title = []) :
    Reaches env ⟨writeLangAlt (bytesOf "dc:title") v ++ 60 :: r, descriptionEls, descriptionStack, m, true⟩
      ⟨60 :: r, descriptionEls, descriptionStack, { m with Title := trimSpace v }, true⟩ := by
  by_cases hne : v = []
  · subst hne
    have : ({ m with Title := trimSpace [] } : Metadata) = m := by
      cases m; simp only at hm; subst hm; rfl
    rw [this]
    exact Reaches.refl _ _
  · have hw : writeLangAlt (bytesOf "dc:title") v ++ 60 :: r
        = bytesOf "<dc:title><rdf:Alt><rdf:li xml:lang=\"x-default\">"
            ++ (xmlEscape v ++ 60 :: (bytesOf "/rdf:li></rdf:Alt></dc:title>\n" ++ 60 :: r)) := by
      unfold writeLangAlt
      rw [if_neg (by simpa using hne)]
      simp only [List.append_assoc]
      rfl
    rw [hw]
    have s1 : Reaches env
        ⟨bytesOf "<dc:title><rdf:Alt><rdf:li xml:lang=\"x-default\">"
            ++ (xmlEscape v ++ 60 :: (bytesOf "/rdf:li></rdf:Alt></dc:title>\n" ++ 60 :: r)),
          descriptionEls, descriptionStack, m, true⟩
        ⟨xmlEscape v ++ 60 :: (bytesOf "/rdf:li></rdf:Alt></dc:title>\n" ++ 60 :: r),
          [⟨bytesOf "rdf", bytesOf "li"⟩, ⟨bytesOf "rdf", bytesOf "Alt"⟩,
            ⟨bytesOf "dc", bytesOf "title"⟩] ++ descriptionEls,
          descriptionStack ++ [bytesOf "title", bytesOf "Alt", bytesOf "li"], m, true⟩ :=
      Reaches.of_run 3 _ rfl (by decide) (fun _ => rfl)
    have s2 := Reaches.value env v (bytesOf "/rdf:li></rdf:Alt></dc:title>\n" ++ 60 :: r) hv hne
      ([⟨bytesOf "rdf", bytesOf "li"⟩, ⟨bytesOf "rdf", bytesOf "Alt"⟩,
            ⟨bytesOf "dc", bytesOf "title"⟩] ++ descriptionEls)
      (descriptionStack ++ [bytesOf "title", bytesOf "Alt", bytesOf "li"]) m true
    rw [charData_title m v hm] at s2
    have s3 : Reaches env
        ⟨60 :: (bytesOf "/rdf:li></rdf:Alt></dc:title>\n" ++ 60 :: r),
          [⟨bytesOf "rdf", bytesOf "li"⟩, ⟨bytesOf "rdf", bytesOf "Alt"⟩,
            ⟨bytesOf "dc", bytesOf "title"⟩] ++ descriptionEls,
          descriptionStack ++ [bytesOf "title", bytesOf "Alt", bytesOf "li"],
          { m with Title := trimSpace v }, true⟩
        ⟨60 :: r, descriptionEls, descriptionStack, { m with Title := trimSpace v }, true⟩ :=
      Reaches.of_run 4 (bytesOf "</rdf:li></rdf:Alt></dc:title>\n") rfl (by decide) (fun _ => rfl)
    exact (s1.trans s2).trans s3

theorem charData_author (m : Metadata) (v : Bytes) (hm : m.Author = []) :
    unmarshalCharData (descriptionStack ++ [bytesOf "creator", bytesOf "Seq", bytesOf "li"]) m v
      = { m with Author := trimSpace v } := by
  have h : unmarshalCharData (descriptionStack ++ [bytesOf "creator", bytesOf "Seq", bytesOf "li"]) m v
      = if (trimSpace v).isEmpty then m
        else if m.Author.isEmpty then { m with Author := trimSpace v } else m := rfl
  rw [h, hm]
  cases m
  simp only at hm
  subst hm
  cases ht : trimSpace v <;> simp

theorem reaches_author (env : XmlEnv) (v r : Bytes) (m : Metadata)
    (hv : xmlSafe v = true) (hm : m.Author = []) :
    Reaches env ⟨writeSeq (bytesOf "dc:creator") v ++ 60 :: r, descriptionEls, descriptionStack, m, true⟩
      ⟨60 :: r, descriptionEls, descriptionStack, { m with Author := trimSpace v }, true⟩ := by
  by_cases hne : v = []
  · subst hne
    have : ({ m with Author := trimSpace [] } : Metadata) = m := by
      cases m; simp only at hm; subst hm; rfl
    rw [this]
    exact Reaches.refl _ _
  · have hw : writeSeq (bytesOf "dc:creator") v ++ 60 :: r
        = bytesOf "<dc:creator><rdf:Seq><rdf:li>"
            ++ (xmlEscape v ++ 60 :: (bytesOf "/rdf:li></rdf:Seq></dc:creator>\n" ++ 60 :: r)) := by
      unfold writeSeq
      rw [if_neg (by simpa using hne)]
      simp only [List.append_assoc]
      rfl
    rw [hw]
    have s1 : Reaches env
        ⟨bytesOf "<dc:creator><rdf:Seq><rdf:li>"
            ++ (xmlEscape v ++ 60 :: (bytesOf "/rdf:li></rdf:Seq></dc:creator>\n" ++ 60 :: r)),
          descriptionEls, descriptionStack, m, true⟩
        ⟨xmlEscape v ++ 60 :: (bytesOf "/rdf:li></rdf:Seq></dc:creator>\n" ++ 60 :: r),
          [⟨bytesOf "rdf", bytesOf "li"⟩, ⟨bytesOf "rdf", bytesOf "Seq"⟩, ⟨bytesOf "dc", bytesOf "creator"⟩] ++ descriptionEls,
          descriptionStack ++ [bytesOf "creator", bytesOf "Seq", bytesOf "li"], m, true⟩ :=
      Reaches.of_run 3 _ rfl (by decide) (fun _ => rfl)
    have s2 := Reaches.value env v (bytesOf "/rdf:li></rdf:Seq></dc:creator>\n" ++ 60 :: r) hv hne
      ([⟨bytesOf "rdf", bytesOf "li"⟩, ⟨bytesOf "rdf", bytesOf "Seq"⟩, ⟨bytesOf "dc", bytesOf "creator"⟩] ++ descriptionEls)
      (descriptionStack ++ [bytesOf "creator", bytesOf "Seq", bytesOf "li"]) m true
    rw [charData_author m v hm] at s2
    have s3 : Reaches env
        ⟨60 :: (bytesOf "/rdf:li></rdf:Seq></dc:creator>\n" ++ 60 :: r),
          [⟨bytesOf "rdf", bytesOf "li"⟩, ⟨bytesOf "rdf", bytesOf "Seq"⟩, ⟨bytesOf "dc", bytesOf "creator"⟩] ++ descriptionEls,
          descriptionStack ++ [bytesOf "creator", bytesOf "Seq", bytesOf "li"],
          { m with Author := trimSpace v }, true⟩
        ⟨60 :: r, descriptionEls, descriptionStack, { m with Author := trimSpace v }, true⟩ :=
      Reaches.of_run 4 (bytesOf "</rdf:li></rdf:Seq></dc:creator>\n") rfl (by decide) (fun _ => rfl)
    exact (s1.trans s2).trans s3

theorem charData_subject (m : Metadata) (v : Bytes) (hm : m.Subject = []) :
    unmarshalCharData (descriptionStack ++ [bytesOf "description", bytesOf "Alt", bytesOf "li"]) m v
      = { m with Subject := trimSpace v } := by
  have h : unmarshalCharData (descriptionStack ++ [bytesOf "description", bytesOf "Alt", bytesOf "li"]) m v
      = if (trimSpace v).isEmpty then m
        else if m.Subject.isEmpty then { m with Subject := trimSpace v } else m := rfl
  rw [h, hm]
  cases m
  simp only at hm
  subst hm
  cases ht : trimSpace v <;> simp

theorem reaches_subject (env : XmlEnv) (v r : Bytes) (m : Metadata)
    (hv : xmlSafe v = true) (hm : m.Subject = []) :
    Reaches env ⟨writeLangAlt (bytesOf "dc:description") v ++ 60 :: r, descriptionEls, descriptionStack, m, true⟩
      ⟨60 :: r, descriptionEls, descriptionStack, { m with Subject := trimSpace v }, true⟩ := by
  by_cases hne : v = []
  · subst hne
    have : ({ m with Subject := trimSpace [] } : Metadata) = m := by
      cases m; simp only at hm; subst hm; rfl
    rw [this]
    exact Reaches.refl _ _
  · have hw : writeLangAlt (bytesOf "dc:description") v ++ 60 :: r
        = bytesOf "<dc:description><rdf:Alt><rdf:li xml:lang=\"x-default\">"
            ++ (xmlEscape v ++ 60 :: (bytesOf "/rdf:li></rdf:Alt></dc:description>\n" ++ 60 :: r)) := by
      unfold writeLangAlt
      rw [if_neg (by simpa using hne)]
      simp only [List.append_assoc]
      rfl
    rw [hw]
    have s1 : Reaches env
        ⟨bytesOf "<dc:description><rdf:Alt><rdf:li xml:lang=\"x-default\">"
            ++ (xmlEscape v ++ 60 :: (bytesOf "/rdf:li></rdf:Alt></dc:description>\n" ++ 60 :: r)),
          descriptionEls, descriptionStack, m, true⟩
        ⟨xmlEscape v ++ 60 :: (bytesOf "/rdf:li></rdf:Alt></dc:description>\n" ++ 60 :: r),
          [⟨bytesOf "rdf", bytesOf "li"⟩, ⟨bytesOf "rdf", bytesOf "Alt"⟩, ⟨bytesOf "dc", bytesOf "description"⟩] ++ descriptionEls,
          descriptionStack ++ [bytesOf "description", bytesOf "Alt", bytesOf "li"], m, true⟩ :=
      Reaches.of_run 3 _ rfl (by decide) (fun _ => rfl)
    have s2 := Reaches.value env v (bytesOf "/rdf:li></rdf:Alt></dc:description>\n" ++ 60 :: r) hv hne
      ([⟨bytesOf "rdf", bytesOf "li"⟩, ⟨bytesOf "rdf", bytesOf "Alt"⟩, ⟨bytesOf "dc", bytesOf "description"⟩] ++ descriptionEls)
      (descriptionStack ++ [bytesOf "description", bytesOf "Alt", bytesOf "li"]) m true
    rw [charData_subject m v hm] at s2
    have s3 : Reaches env
        ⟨60 :: (bytesOf "/rdf:li></rdf:Alt></dc:description>\n" ++ 60 :: r),
          [⟨bytesOf "rdf", bytesOf "li"⟩, ⟨bytesOf "rdf", bytesOf "Alt"⟩, ⟨bytesOf "dc", bytesOf "description"⟩] ++ descriptionEls,
          descriptionStack ++ [bytesOf "description", bytesOf "Alt", bytesOf "li"],
          { m with Subject := trimSpace v }, true⟩
        ⟨60 :: r, descriptionEls, descriptionStack, { m with Subject := trimSpace v }, true⟩ :=
      Reaches.of_run 4 (bytesOf "</rdf:li></rdf:Alt></dc:description>\n") rfl (by decide) (fun _ => rfl)
    exact (s1.trans s2).trans s3

theorem charData_keywords (m : Metadata) (v : Bytes) (hm : m.Keywords = []) :
    unmarshalCharData (descriptionStack ++ [bytesOf "Keywords"]) m v
      = { m with Keywords := trimSpace v } := by
  have h : unmarshalCharData (descriptionStack ++ [bytesOf "Keywords"]) m v
      = if (trimSpace v).isEmpty then m
        else { m with Keywords := trimSpace v } := rfl
  rw [h]
  cases m
  simp only at hm
  subst hm
  cases ht : trimSpace v <;> simp

theorem reaches_keywords (env : XmlEnv) (v r : Bytes) (m : Metadata)
    (hv : xmlSafe v = true) (hm : m.Keywords = []) :
    Reaches env ⟨writeValue (bytesOf "pdf:Keywords") v ++ 60 :: r, descriptionEls, descriptionStack, m, true⟩
      ⟨60 :: r, descriptionEls, descriptionStack, { m with Keywords := trimSpace v }, true⟩ := by
  by_cases hne : v = []
  · subst hne
    have : ({ m with Keywords := trimSpace [] } : Metadata) = m := by
      cases m; simp only at hm; subst hm; rfl
    rw [this]
    exact Reaches.refl _ _
  · have hw : writeValue (bytesOf "pdf:Keywords") v ++ 60 :: r
        = bytesOf "<pdf:Keywords>"
            ++ (xmlEscape v ++ 60 :: (bytesOf "/pdf:Keywords>\n" ++ 60 :: r)) := by
      unfold writeValue
      rw [if_neg (by simpa using hne)]
      simp only [List.append_assoc]
      rfl
    rw [hw]
    have s1 : Reaches env
        ⟨bytesOf "<pdf:Keywords>"
            ++ (xmlEscape v ++ 60 :: (bytesOf "/pdf:Keywords>\n" ++ 60 :: r)),
          descriptionEls, descriptionStack, m, true⟩
        ⟨xmlEscape v ++ 60 :: (bytesOf "/pdf:Keywords>\n" ++ 60 :: r),
          [⟨bytesOf "pdf", bytesOf "Keywords"⟩] ++ descriptionEls,
          descriptionStack ++ [bytesOf "Keywords"], m, true⟩ :=
      Reaches.of_run 1 _ rfl (by decide) (fun _ => rfl)
    have s2 := Reaches.value env v (bytesOf "/pdf:Keywords>\n" ++ 60 :: r) hv hne
      ([⟨bytesOf "pdf", bytesOf "Keywords"⟩] ++ descriptionEls)
      (descriptionStack ++ [bytesOf "Keywords"]) m true
    rw [charData_keywords m v hm] at s2
    have s3 : Reaches env
        ⟨60 :: (bytesOf "/pdf:Keywords>\n" ++ 60 :: r),
          [⟨bytesOf "pdf", bytesOf "Keywords"⟩] ++ descriptionEls,
          descriptionStack ++ [bytesOf "Keywords"],
          { m with Keywords := trimSpace v }, true⟩
        ⟨60 :: r, descriptionEls, descriptionStack, { m with Keywords := trimSpace v }, true⟩ :=
      Reaches.of_run 2 (bytesOf "</pdf:Keywords>\n") rfl (by decide) (fun _ => rfl)
    exact (s1.trans s2).trans s3

theorem charData_creator (m : Metadata) (v : Bytes) (hm : m.Creator = []) :
    unmarshalCharData (descriptionStack ++ [bytesOf "CreatorTool"]) m v
      = { m with Creator := trimSpace v } := by
  have h : unmarshalCharData (descriptionStack ++ [bytesOf "CreatorTool"]) m v
      = if (trimSpace v).isEmpty then m
        else { m with Creator := trimSpace v } := rfl
  rw [h]
  cases m
  simp only at hm
  subst hm
  cases ht : trimSpace v <;> simp

theorem reaches_creator (env : XmlEnv) (v r : Bytes) (m : Metadata)
    (hv : xmlSafe v = true) (hm : m.Creator = []) :
    Reaches env ⟨writeValue (bytesOf "xmp:CreatorTool") v ++ 60 :: r, descriptionEls, descriptionStack, m, true⟩
      ⟨60 :: r, descriptionEls, descriptionStack, { m with Creator := trimSpace v }, true⟩ := by
  by_cases hne : v = []
  · subst hne
    have : ({ m with Creator := trimSpace [] } : Metadata) = m := by
      cases m; simp only at hm; subst hm; rfl
    rw [this]
    exact Reaches.refl _ _
  · have hw : writeValue (bytesOf "xmp:CreatorTool") v ++ 60 :: r
        = bytesOf "<xmp:CreatorTool>"
            ++ (xmlEscape v ++ 60 :: (bytesOf "/xmp:CreatorTool>\n" ++ 60 :: r)) := by
      unfold writeValue
      rw [if_neg (by simpa using hne)]
      simp only [List.append_assoc]
      rfl
    rw [hw]
    have s1 : Reaches env
        ⟨bytesOf "<xmp:CreatorTool>"
            ++ (xmlEscape v ++ 60 :: (bytesOf "/xmp:CreatorTool>\n" ++ 60 :: r)),
          descriptionEls, descriptionStack, m, true⟩
        ⟨xmlEscape v ++ 60 :: (bytesOf "/xmp:CreatorTool>\n" ++ 60 :: r),
          [⟨bytesOf "xmp", bytesOf "CreatorTool"⟩] ++ descriptionEls,
          descriptionStack ++ [bytesOf "CreatorTool"], m, true⟩ :=
      Reaches.of_run 1 _ rfl (by decide) (fun _ => rfl)
    have s2 := Reaches.value env v (bytesOf "/xmp:CreatorTool>\n" ++ 60 :: r) hv hne
      ([⟨bytesOf "xmp", bytesOf "CreatorTool"⟩] ++ descriptionEls)
      (descriptionStack ++ [bytesOf "CreatorTool"]) m true
    rw [charData_creator m v hm] at s2
    have s3 : Reaches env
        ⟨60 :: (bytesOf "/xmp:CreatorTool>\n" ++ 60 :: r),
          [⟨bytesOf "xmp", bytesOf "CreatorTool"⟩] ++ descriptionEls,
          descriptionStack ++ [bytesOf "CreatorTool"],
          { m with Creator := trimSpace v }, true⟩
        ⟨60 :: r, descriptionEls, descriptionStack, { m with Creator := trimSpace v }, true⟩ :=
      Reaches.of_run 2 (bytesOf "</xmp:CreatorTool>\n") rfl (by decide) (fun _ => rfl)
    exact (s1.trans s2).trans s3

theorem charData_producer (m : Metadata) (v : Bytes) (hm : m.Producer = []) :
    unmarshalCharData (descriptionStack ++ [bytesOf "Producer"]) m v
      = { m with Producer := trimSpace v } := by
  have h : unmarshalCharData (descriptionStack ++ [bytesOf "Producer"]) m v
      = if (trimSpace v).isEmpty then m
        else { m with Producer := trimSpace v } := rfl
  rw [h]
  cases m
  simp only at hm
  subst hm
  cases ht : trimSpace v <;> simp

theorem reaches_producer (env : XmlEnv) (v r : Bytes) (m : Metadata)
    (hv : xmlSafe v = true) (hm : m.Producer = []) :
    Reaches env ⟨writeValue (bytesOf "pdf:Producer") v ++ 60 :: r, descriptionEls, descriptionStack, m, true⟩
      ⟨60 :: r, descriptionEls, descriptionStack, { m with Producer := trimSpace v }, true⟩ := by
  by_cases hne : v = []
  · subst hne
    have : ({ m with Producer := trimSpace [] } : Metadata) = m := by
      cases m; simp only at hm; subst hm; rfl
    rw [this]
    exact Reaches.refl _ _
  · have hw : writeValue (bytesOf "pdf:Producer") v ++ 60 :: r
        = bytesOf "<pdf:Producer>"
            ++ (xmlEscape v ++ 60 :: (bytesOf "/pdf:Producer>\n" ++ 60 :: r)) := by
      unfold writeValue
      rw [if_neg (by simpa using hne)]
      simp only [List.append_assoc]
      rfl
    rw [hw]
    have s1 : Reaches env
        ⟨bytesOf "<pdf:Producer>"
            ++ (xmlEscape v ++ 60 :: (bytesOf "/pdf:Producer>\n" ++ 60 :: r)),
          descriptionEls, descriptionStack, m, true⟩
        ⟨xmlEscape v ++ 60 :: (bytesOf "/pdf:Producer>\n" ++ 60 :: r),
          [⟨bytesOf "pdf", bytesOf "Producer"⟩] ++ descriptionEls,
          descriptionStack ++ [bytesOf "Producer"], m, true⟩ :=
      Reaches.of_run 1 _ rfl (by decide) (fun _ => rfl)
    have s2 := Reaches.value env v (bytesOf "/pdf:Producer>\n" ++ 60 :: r) hv hne
      ([⟨bytesOf "pdf", bytesOf "Producer"⟩] ++ descriptionEls)
      (descriptionStack ++ [bytesOf "Producer"]) m true
    rw [charData_producer m v hm] at s2
    have s3 : Reaches env
        ⟨60 :: (bytesOf "/pdf:Producer>\n" ++ 60 :: r),
          [⟨bytesOf "pdf", bytesOf "Producer"⟩] ++ descriptionEls,
          descriptionStack ++ [bytesOf "Producer"],
          { m with Producer := trimSpace v }, true⟩
        ⟨60 :: r, descriptionEls, descriptionStack, { m with Producer := trimSpace v }, true⟩ :=
      Reaches.of_run 2 (bytesOf "</pdf:Producer>\n") rfl (by decide) (fun _ => rfl)
    exact (s1.trans s2).trans s3

theorem charData_creationDate (m : Metadata) (v : Bytes) (hm : m.CreationDate = []) :
    unmarshalCharData (descriptionStack ++ [bytesOf "CreateDate"]) m v
      = { m with CreationDate := trimSpace v } := by
  have h : unmarshalCharData (descriptionStack ++ [bytesOf "CreateDate"]) m v
      = if (trimSpace v).isEmpty then m
        else { m with CreationDate := trimSpace v } := rfl
  rw [h]
  cases m
  simp only at hm
  subst hm
  cases ht : trimSpace v <;> simp

theorem reaches_creationDate (env : XmlEnv) (v r : Bytes) (m : Metadata)
    (hv : xmlSafe v = true) (hm : m.CreationDate = []) :
    Reaches env ⟨writeValue (bytesOf "xmp:CreateDate") v ++ 60 :: r, descriptionEls, descriptionStack, m, true⟩
      ⟨60 :: r, descriptionEls, descriptionStack, { m with CreationDate := trimSpace v }, true⟩ := by
  by_cases hne : v = []
  · subst hne
    have : ({ m with CreationDate := trimSpace [] } : Metadata) = m := by
      cases m; simp only at hm; subst hm; rfl
    rw [this]
    exact Reaches.refl _ _
  · have hw : writeValue (bytesOf "xmp:CreateDate") v ++ 60 :: r
        = bytesOf "<xmp:CreateDate>"
            ++ (xmlEscape v ++ 60 :: (bytesOf "/xmp:CreateDate>\n" ++ 60 :: r)) := by
      unfold writeValue
      rw [if_neg (by simpa using hne)]
      simp only [List.append_assoc]
      rfl
    rw [hw]
    have s1 : Reaches env
        ⟨bytesOf "<xmp:CreateDate>"
            ++ (xmlEscape v ++ 60 :: (bytesOf "/xmp:CreateDate>\n" ++ 60 :: r)),
          descriptionEls, descriptionStack, m, true⟩
        ⟨xmlEscape v ++ 60 :: (bytesOf "/xmp:CreateDate>\n" ++ 60 :: r),
          [⟨bytesOf "xmp", bytesOf "CreateDate"⟩] ++ descriptionEls,
          descriptionStack ++ [bytesOf "CreateDate"], m, true⟩ :=
      Reaches.of_run 1 _ rfl (by decide) (fun _ => rfl)
    have s2 := Reaches.value env v (bytesOf "/xmp:CreateDate>\n" ++ 60 :: r) hv hne
      ([⟨bytesOf "xmp", bytesOf "CreateDate"⟩] ++ descriptionEls)
      (descriptionStack ++ [bytesOf "CreateDate"]) m true
    rw [charData_creationDate m v hm] at s2
    have s3 : Reaches env
        ⟨60 :: (bytesOf "/xmp:CreateDate>\n" ++ 60 :: r),
          [⟨bytesOf "xmp", bytesOf "CreateDate"⟩] ++ descriptionEls,
          descriptionStack ++ [bytesOf "CreateDate"],
          { m with CreationDate := trimSpace v }, true⟩
        ⟨60 :: r, descriptionEls, descriptionStack, { m with CreationDate := trimSpace v }, true⟩ :=
      Reaches.of_run 2 (bytesOf "</xmp:CreateDate>\n") rfl (by decide) (fun _ => rfl)
    exact (s1.trans s2).trans s3

theorem charData_modDate (m : Metadata) (v : Bytes) (hm : m.ModDate = []) :
    unmarshalCharData (descriptionStack ++ [bytesOf "ModifyDate"]) m v
      = { m with ModDate := trimSpace v } := by
  have h : unmarshalCharData (descriptionStack ++ [bytesOf "ModifyDate"]) m v
      = if (trimSpace v).isEmpty then m
        else { m with ModDate := trimSpace v } := rfl
  rw [h]
  cases m
  simp only at hm
  subst hm
  cases ht : trimSpace v <;> simp

theorem reaches_modDate (env : XmlEnv) (v r : Bytes) (m : Metadata)
    (hv : xmlSafe v = true) (hm : m.ModDate = []) :
    Reaches env ⟨writeValue (bytesOf "xmp:ModifyDate") v ++ 60 :: r, descriptionEls, descriptionStack, m, true⟩
      ⟨60 :: r, descriptionEls, descriptionStack, { m with ModDate := trimSpace v }, true⟩ := by
  by_cases hne : v = []
  · subst hne
    have : ({ m with ModDate := trimSpace [] } : Metadata) = m := by
      cases m; simp only at hm; subst hm; rfl
    rw [this]
    exact Reaches.refl _ _
  · have hw : writeValue (bytesOf "xmp:ModifyDate") v ++ 60 :: r
        = bytesOf "<xmp:ModifyDate>"
            ++ (xmlEscape v ++ 60 :: (bytesOf "/xmp:ModifyDate>\n" ++ 60 :: r)) := by
      unfold writeValue
      rw [if_neg (by simpa using hne)]
      simp only [List.append_assoc]
      rfl
    rw [hw]
    have s1 : Reaches env
        ⟨bytesOf "<xmp:ModifyDate>"
            ++ (xmlEscape v ++ 60 :: (bytesOf "/xmp:ModifyDate>\n" ++ 60 :: r)),
          descriptionEls, descriptionStack, m, true⟩
        ⟨xmlEscape v ++ 60 :: (bytesOf "/xmp:ModifyDate>\n" ++ 60 :: r),
          [⟨bytesOf "xmp", bytesOf "ModifyDate"⟩] ++ descriptionEls,
          descriptionStack ++ [bytesOf "ModifyDate"], m, true⟩ :=
      Reaches.of_run 1 _ rfl (by decide) (fun _ => rfl)
    have s2 := Reaches.value env v (bytesOf "/xmp:ModifyDate>\n" ++ 60 :: r) hv hne
      ([⟨bytesOf "xmp", bytesOf "ModifyDate"⟩] ++ descriptionEls)
      (descriptionStack ++ [bytesOf "ModifyDate"]) m true
    rw [charData_modDate m v hm] at s2
    have s3 : Reaches env
        ⟨60 :: (bytesOf "/xmp:ModifyDate>\n" ++ 60 :: r),
          [⟨bytesOf "xmp", bytesOf "ModifyDate"⟩] ++ descriptionEls,
          descriptionStack ++ [bytesOf "ModifyDate"],
          { m with ModDate := trimSpace v }, true⟩
        ⟨60 :: r, descriptionEls, descriptionStack, { m with ModDate := trimSpace v }, true⟩ :=
      Reaches.of_run 2 (bytesOf "</xmp:ModifyDate>\n") rfl (by decide) (fun _ => rfl)
    exact (s1.trans s2).trans s3

theorem writeLangAlt_head (key v r : Bytes) :
    ∃ r2, writeLangAlt key v ++ 60 :: r = 60 :: r2 := by
  unfold writeLangAlt
  split
  · exact ⟨r, rfl⟩
  · exact ⟨_, rfl⟩

theorem writeSeq_head (key v r : Bytes) :
    ∃ r2, writeSeq key v ++ 60 :: r = 60 :: r2 := by
  unfold writeSeq
  split
  · exact ⟨r, rfl⟩
  · exact ⟨_, rfl⟩

theorem writeValue_head (key v r : Bytes) :
    ∃ r2, writeValue key v ++ 60 :: r = 60 :: r2 := by
  unfold writeValue
  split
  · exact ⟨r, rfl⟩
  · exact ⟨_, rfl⟩

set_option maxRecDepth 1000000 in
/-- The loop of `Unmarshal` over a packet of `Marshal` ends at the end of the
input with the trimmed fields. -/
theorem reaches_marshal (env : XmlEnv) (M : Metadata) (h : fieldsXmlSafe M = true) :
    Reaches env ⟨Marshal M, [], [], {}, false⟩ ⟨[], [], [], trimFields M, true⟩ := by
  simp only [fieldsXmlSafe, Bool.and_eq_true] at h
  obtain ⟨⟨⟨⟨⟨⟨⟨h1, h2⟩, h3⟩, h4⟩, h5⟩, h6⟩, h7⟩, h8⟩ := h
  obtain ⟨r8, e8⟩ := writeValue_head (bytesOf "xmp:ModifyDate") M.ModDate
    (bytesOf "/rdf:Description>\n</rdf:RDF>\n</x:xmpmeta>\n<?xpacket end=\"w\"?>\n")
  obtain ⟨r7, e7⟩ := writeValue_head (bytesOf "xmp:CreateDate") M.CreationDate r8
  obtain ⟨r6, e6⟩ := writeValue_head (bytesOf "pdf:Producer") M.Producer r7
  obtain ⟨r5, e5⟩ := writeValue_head (bytesOf "xmp:CreatorTool") M.Creator r6
  obtain ⟨r4, e4⟩ := writeValue_head (bytesOf "pdf:Keywords") M.Keywords r5
  obtain ⟨r3, e3⟩ := writeLangAlt_head (bytesOf "dc:description") M.Subject r4
  obtain ⟨r2, e2⟩ := writeSeq_head (bytesOf "dc:creator") M.Author r3
  obtain ⟨r1, e1⟩ := writeLangAlt_head (bytesOf "dc:title") M.Title r2
  have hM : Marshal M
      = bytesOf "<?xpacket begin=\"\\uFEFF\" id=\"W5M0MpCehiHzreSzNTczkc9d\"?>\n<x:xmpmeta xmlns:x=\"adobe:ns:meta/\" x:xmptk=\"pdfmeta\">\n<rdf:RDF xmlns:rdf=\"http://www.w3.org/1999/02/22-rdf-syntax-ns#\">\n<rdf:Description rdf:about=\"\" xmlns:dc=\"http://purl.org/dc/elements/1.1/\" xmlns:pdf=\"http://ns.adobe.com/pdf/1.3/\" xmlns:xmp=\"http://ns.adobe.com/xap/1.0/\">"
        ++ 10 :: 60 :: r1 := by
    rw [← e1, ← e2, ← e3, ← e4, ← e5, ← e6, ← e7, ← e8]
    unfold Marshal
    simp only [List.append_assoc]
    rfl
  rw [hM]
  have s0 : Reaches env
      ⟨bytesOf "<?xpacket begin=\"\\uFEFF\" id=\"W5M0MpCehiHzreSzNTczkc9d\"?>\n<x:xmpmeta xmlns:x=\"adobe:ns:meta/\" x:xmptk=\"pdfmeta\">\n<rdf:RDF xmlns:rdf=\"http://www.w3.org/1999/02/22-rdf-syntax-ns#\">\n<rdf:Description rdf:about=\"\" xmlns:dc=\"http://purl.org/dc/elements/1.1/\" xmlns:pdf=\"http://ns.adobe.com/pdf/1.3/\" xmlns:xmp=\"http://ns.adobe.com/xap/1.0/\">"
        ++ 10 :: 60 :: r1, [], [], {}, false⟩
      ⟨10 :: 60 :: r1, descriptionEls, descriptionStack, {}, true⟩ :=
    Reaches.of_run 7 _ rfl (by decide) (fun _ => rfl)
  have s0b := Reaches.newline env r1 descriptionEls descriptionStack {} true
  have t1 := reaches_title env M.Title r2 {} h1 rfl
  rw [e1] at t1
  have t2 := reaches_author env M.Author r3 { ({} : Metadata) with Title := trimSpace M.Title } h2 rfl
  rw [e2] at t2
  have t3 := reaches_subject env M.Subject r4
    { Title := trimSpace M.Title, Author := trimSpace M.Author } h3 rfl
  rw [e3] at t3
  have t4 := reaches_keywords env M.Keywords r5
    { Title := trimSpace M.Title, Author := trimSpace M.Author, Subject := trimSpace M.Subject } h4 rfl
  rw [e4] at t4
  have t5 := reaches_creator env M.Creator r6
    { Title := trimSpace M.Title, Author := trimSpace M.Author, Subject := trimSpace M.Subject,
      Keywords := trimSpace M.Keywords } h5 rfl
  rw [e5] at t5
  have t6 := reaches_producer env M.Producer r7
    { Title := trimSpace M.Title, Author := trimSpace M.Author, Subject := trimSpace M.Subject,
      Keywords := trimSpace M.Keywords, Creator := trimSpace M.Creator } h6 rfl
  rw [e6] at t6
  have t7 := reaches_creationDate env M.CreationDate r8
    { Title := trimSpace M.Title, Author := trimSpace M.Author, Subject := trimSpace M.Subject,
      Keywords := trimSpace M.Keywords, Creator := trimSpace M.Creator,
      Producer := trimSpace M.Producer } h7 rfl
  rw [e7] at t7
  have t8 := reaches_modDate env M.ModDate
    (bytesOf "/rdf:Description>\n</rdf:RDF>\n</x:xmpmeta>\n<?xpacket end=\"w\"?>\n")
    { Title := trimSpace M.Title, Author := trimSpace M.Author, Subject := trimSpace M.Subject,
      Keywords := trimSpace M.Keywords, Creator := trimSpace M.Creator,
      Producer := trimSpace M.Producer, CreationDate := trimSpace M.CreationDate } h8 rfl
  rw [e8] at t8
  have s9 : Reaches env
      ⟨60 :: bytesOf "/rdf:Description>\n</rdf:RDF>\n</x:xmpmeta>\n<?xpacket end=\"w\"?>\n",
        descriptionEls, descriptionStack, trimFields M, true⟩
      ⟨[], [], [], trimFields M, true⟩ :=
    Reaches.of_run 8 (bytesOf "</rdf:Description>\n</rdf:RDF>\n</x:xmpmeta>\n<?xpacket end=\"w\"?>\n")
      rfl (by decide) (fun _ => rfl)
  exact s0.trans (s0b.trans (t1.trans (t2.trans (t3.trans (t4.trans (t5.trans (t6.trans
    (t7.trans (t8.trans s9)))))))))

theorem unmarshal_marshal (env : XmlEnv) (M : Metadata) (h : fieldsXmlSafe M = true) :
    Unmarshal env (Marshal M) = .ok (trimFields M) := by
  obtain ⟨k, hk, hrun⟩ := reaches_marshal env M h
  simp only [List.length_nil, Nat.add_zero] at hk
  have e : (Marshal M).length + 1 = ((Marshal M).length - k + 1) + k := by omega
  unfold Unmarshal
  have := hrun ((Marshal M).length - k + 1)
  simp only [LoopState.run] at this
  rw [e, this]
  rfl

/-- C2, as stated, fails: a Title of one space is written into the packet and
read back as the empty string, because `Unmarshal` applies `strings.TrimSpace`
to character data and skips what is empty after it. -/
theorem c2_space_title_lost :
    spaceTitle.Title = [32]
      ∧ Unmarshal asciiEnv (Marshal spaceTitle) = .ok {}
      ∧ Unmarshal asciiEnv (Marshal spaceTitle) ≠ .ok spaceTitle := by
  decide!

/-- C2, amended: for every record whose eight fields are valid UTF-8 made of
characters XML allows, `Unmarshal (Marshal M)` succeeds and returns `M` with
`strings.TrimSpace` applied to each field; it is `M` itself when no field has
white space at either end. -/
theorem c2_unmarshal_marshal_trimmed (env : XmlEnv) (M : Metadata)
    (h : fieldsXmlSafe M = true) :
    Unmarshal env (Marshal M) = .ok (trimFields M)
      ∧ (trimFields M = M → Unmarshal env (Marshal M) = .ok M) := by
  refine ⟨unmarshal_marshal env M h, fun ht => ?_⟩
  rw [unmarshal_marshal env M h, ht]

theorem c2_witness :
    fieldsXmlSafe escapedRecord = true
      ∧ trimFields escapedRecord
          = { Title := bytesOf "a<b>&\"c\"", Author := [90, 111, 0xC3, 0xAB], Keywords := bytesOf "x\ty" }
      ∧ Unmarshal asciiEnv (Marshal escapedRecord) = .ok (trimFields escapedRecord) :=
  ⟨by decide!, by decide!, (c2_unmarshal_marshal_trimmed asciiEnv escapedRecord (by decide!)).1⟩

/-- C7 fails on `hugeObjectPdf`: the largest object number is the largest Go
`int`, the write with the zero record succeeds, the three new object numbers
wrap around to negative numbers, and `readNativeMetadata` of the output finds
neither the Info dictionary nor the XMP packet. -/
theorem c7_overflow_readback :
    maxObjectNumber hugeObjectPdf = maxInt
      ∧ ∃ out, writeNativeIncremental hugeObjectPdf {} (Marshal {}) = .ok out
          ∧ hasPrefix (out.drop hugeObjectPdf.length) (bytesOf "-9223372036854775808 0 obj\n<<\n>>\nendobj\n") = true
          ∧ readNativeMetadata asciiEnv out = ({}, false, false) := by
  refine ⟨by decide!, incrementalOutput hugeObjectPdf {} (Marshal {}) maxInt 9
    (bytesOf "<< /Type /Catalog /Pages 2 0 R >>"), ?_, ?_, ?_⟩ <;> decide!

/-! ### The header window of `ParseBytes` -/

theorem hasPrefix_take_drop (s p : Bytes) (i n : Nat) (hp : p ≠ []) :
    hasPrefix ((s.take n).drop i) p = (hasPrefix (s.drop i) p && decide (i + p.length ≤ n)) := by
  have hlen : 0 < p.length := List.length_pos.2 hp
  rw [Bool.eq_iff_iff, Bool.and_eq_true, hasPrefix_iff, hasPrefix_iff, decide_eq_true_eq,
    List.drop_take, List.prefix_take_iff]
  constructor
  · rintro ⟨h1, h2⟩
    exact ⟨h1, by omega⟩
  · rintro ⟨h1, h2⟩
    exact ⟨h1, by omega⟩

theorem findHeaderOffset_eq (b : Bytes) : findHeaderOffset b = index (b.take 1024) pdfHeader := by
  unfold findHeaderOffset headerScanLimit
  split
  · rfl
  · rename_i h
    show index (b.take b.length) pdfHeader = index (b.take 1024) pdfHeader
    rw [List.take_of_length_le (Nat.le_refl _), List.take_of_length_le (by omega)]

theorem findHeaderOffset_some {b : Bytes} {i : Nat} (h : findHeaderOffset b = some i) :
    occursAt b pdfHeader i = true ∧ i + 5 ≤ 1024
      ∧ ∀ j, j < i → occursAt b pdfHeader j = false := by
  rw [findHeaderOffset_eq] at h
  obtain ⟨h1, _, h3⟩ := index_some h
  have hne : pdfHeader ≠ [] := by decide
  have hl : pdfHeader.length = 5 := by decide
  rw [hasPrefix_take_drop _ _ _ _ hne, Bool.and_eq_true, decide_eq_true_eq, hl] at h1
  refine ⟨h1.1, h1.2, fun j hj => ?_⟩
  have := h3 j hj
  rw [hasPrefix_take_drop _ _ _ _ hne, hl] at this
  have hd : decide (j + 5 ≤ 1024) = true := by simp; omega
  rw [hd, Bool.and_true] at this
  exact this

theorem findHeaderOffset_none {b : Bytes} (h : findHeaderOffset b = none) (i : Nat)
    (hi : i + 5 ≤ 1024) : occursAt b pdfHeader i = false := by
  rw [findHeaderOffset_eq] at h
  have := index_none h i
  have hne : pdfHeader ≠ [] := by decide
  have hl : pdfHeader.length = 5 := by decide
  rw [hasPrefix_take_drop _ _ _ _ hne, hl] at this
  have hd : decide (i + 5 ≤ 1024) = true := by simp; omega
  rw [hd, Bool.and_true] at this
  exact this

/-- C11: `ParseBytes` fails when `b` is empty or `%PDF-` stands at no index `i`
with `i + 5 ≤ 1024`, and then with the code `ErrPDFMalformed`; otherwise it
succeeds with the given path and with the least index at which `%PDF-` stands
as header offset.  Every error it returns has the code `ErrPDFMalformed`. -/
theorem c11_parseBytes (path b : Bytes) :
    ((b = [] ∨ ∀ i, i + 5 ≤ 1024 → occursAt b pdfHeader i = false) →
        ∃ msg, ParseBytes path b = .error ⟨.ErrPDFMalformed, msg⟩)
      ∧ ((b ≠ [] ∧ ∃ i, i + 5 ≤ 1024 ∧ occursAt b pdfHeader i = true) →
          ∃ doc, ParseBytes path b = .ok doc ∧ doc.path = path
            ∧ occursAt b pdfHeader doc.headerOffset = true
            ∧ ∀ j, j < doc.headerOffset → occursAt b pdfHeader j = false)
      ∧ (∀ e, ParseBytes path b = .error e → e.Code = .ErrPDFMalformed) := by
  refine ⟨?_, ?_, ?_⟩
  · rintro (rfl | h)
    · exact ⟨_, rfl⟩
    · unfold ParseBytes
      split
      · exact ⟨_, rfl⟩
      · cases hf : findHeaderOffset b with
        | none => exact ⟨_, rfl⟩
        | some i =>
          obtain ⟨h1, h2, _⟩ := findHeaderOffset_some hf
          rw [h i h2] at h1
          cases h1
  · rintro ⟨hne, i, hi, ho⟩
    unfold ParseBytes
    rw [if_neg (by simpa using hne)]
    cases hf : findHeaderOffset b with
    | none =>
      rw [findHeaderOffset_none hf i hi] at ho
      cases ho
    | some k =>
      obtain ⟨h1, _, h3⟩ := findHeaderOffset_some hf
      exact ⟨_, rfl, rfl, h1, h3⟩
  · intro e he
    unfold ParseBytes at he
    split at he
    · cases he; rfl
    · split at he
      · cases he; rfl
      · cases he

/-- C11 on examples: junk before the header gives a positive offset; a header
that starts at index 1020 is not wholly within the window. -/
theorem c11_examples :
    (ParseBytes (bytesOf "a.pdf") junkBeforeHeader).map (fun d => (d.path, d.headerOffset))
        = .ok (bytesOf "a.pdf", 3)
      ∧ occursAt lateHeader pdfHeader 1020 = true
      ∧ ParseBytes (bytesOf "a.pdf") lateHeader = .error ⟨.ErrPDFMalformed, "missing PDF header"⟩
      ∧ ParseBytes (bytesOf "a.pdf") [] = .error ⟨.ErrPDFMalformed, "pdf is empty"⟩ := by
  decide!

/-! ### First and last occurrences -/

theorem lastIndex_none {s sep : Bytes} (hs : sep ≠ []) (h : lastIndex s sep = none) (j : Nat) :
    hasPrefix (s.drop j) sep = false := by
  induction s generalizing j with
  | nil =>
    cases sep with
    | nil => exact absurd rfl hs
    | cons q qs => simp [hasPrefix]
  | cons x xs ih =>
    simp only [lastIndex] at h
    split at h
    · cases h
    · rename_i hk
      split at h
      · cases h
      · rename_i hp
        cases j with
        | zero => simpa using hp
        | succ j => simpa using ih hk j

theorem lastIndex_last {s sep : Bytes} {i : Nat} (hs : sep ≠ []) (h : lastIndex s sep = some i)
    (j : Nat) (hj : i < j) : hasPrefix (s.drop j) sep = false := by
  induction s generalizing i j with
  | nil =>
    cases sep with
    | nil => exact absurd rfl hs
    | cons q qs => simp [hasPrefix]
  | cons x xs ih =>
    simp only [lastIndex] at h
    split at h
    · rename_i k hk
      cases h
      cases j with
      | zero => omega
      | succ j => simpa using ih hk j (by omega)
    · rename_i hk
      cases j with
      | zero => omega
      | succ j => simpa using lastIndex_none hs hk j

/-- The result of `lastIndex` is the last index at which `sep` stands. -/
theorem lastIndex_eq_of_last {s sep : Bytes} {i : Nat} (hs : sep ≠ [])
    (hocc : occursAt s sep i = true) (hlast : ∀ j, i < j → occursAt s sep j = false) :
    lastIndex s sep = some i := by
  cases h : lastIndex s sep with
  | none =>
    have := lastIndex_none hs h i
    unfold occursAt at hocc
    rw [this] at hocc
    cases hocc
  | some k =>
    have h1 := (lastIndex_bound h).1
    have h2 := lastIndex_last hs h
    rcases Nat.lt_trichotomy k i with hlt | heq | hgt
    · have := h2 i hlt
      unfold occursAt at hocc
      rw [this] at hocc
      cases hocc
    · rw [heq]
    · have := hlast k hgt
      unfold occursAt at this
      rw [this] at h1
      cases h1

theorem lastIndex_eq_none_of_absent {s sep : Bytes}
    (h : ∀ j, occursAt s sep j = false) : lastIndex s sep = none := by
  cases hl : lastIndex s sep with
  | none => rfl
  | some k =>
    have h1 := (lastIndex_bound hl).1
    have := h k
    unfold occursAt at this
    rw [this] at h1
    cases h1

theorem index_eq_of_first {s sep : Bytes} {i : Nat}
    (hocc : occursAt s sep i = true) (hfirst : ∀ j, j < i → occursAt s sep j = false) :
    index s sep = some i := by
  cases h : index s sep with
  | none =>
    have := index_none h i
    unfold occursAt at hocc
    rw [this] at hocc
    cases hocc
  | some k =>
    obtain ⟨h1, _, h3⟩ := index_some h
    rcases Nat.lt_trichotomy k i with hlt | heq | hgt
    · have := hfirst k hlt
      unfold occursAt at this
      rw [this] at h1
      cases h1
    · rw [heq]
    · have := h3 i hgt
      unfold occursAt at hocc
      rw [this] at hocc
      cases hocc

theorem index_eq_none_of_absent {s sep : Bytes}
    (h : ∀ j, occursAt s sep j = false) : index s sep = none := by
  cases hl : index s sep with
  | none => rfl
  | some k =>
    have h1 := (index_some hl).1
    have := h k
    unfold occursAt at this
    rw [this] at h1
    cases h1

theorem indexByte_some {s : Bytes} {c i : Nat} (h : indexByte s c = some i) :
    s.take i = s.takeWhile (fun x => x != c) ∧ s.drop i = c :: s.drop (i + 1) := by
  induction s generalizing i with
  | nil => simp [indexByte] at h
  | cons x xs ih =>
    simp only [indexByte] at h
    split at h
    · rename_i hx
      cases h
      subst hx
      simp
    · rename_i hx
      split at h
      · rename_i k hk
        cases h
        obtain ⟨h1, h2⟩ := ih hk
        refine ⟨?_, by simpa using h2⟩
        simp [List.takeWhile_cons, hx, h1]
      · cases h

theorem indexByte_none {s : Bytes} {c : Nat} (h : indexByte s c = none) : c ∉ s := by
  induction s with
  | nil => simp
  | cons x xs ih =>
    simp only [indexByte] at h
    split at h
    · cases h
    · rename_i hx
      split at h
      · cases h
      · rename_i hk
        simp only [List.mem_cons, not_or]
        exact ⟨fun e => hx e.symm, ih hk⟩

theorem indexByte_isSome_of_mem {s : Bytes} {c : Nat} (h : c ∈ s) : (indexByte s c).isSome = true := by
  cases hi : indexByte s c with
  | none => exact absurd h (indexByte_none hi)
  | some _ => rfl

/-- C12, as stated, fails: in `startxref\n12 0\n%%EOF\n` the first
white-space-delimited token after `startxref` is `12`, which denotes 12, and
`parseStartXRef` reports the pointer as missing, because it reads the whole
first line `12 0`. -/
theorem c12_second_number_on_line :
    specFirstToken (startxrefTwoNumbers.drop 9) = bytesOf "12"
      ∧ atoi (bytesOf "12") = (12, true)
      ∧ parseStartXRef startxrefTwoNumbers = none := by
  decide!

/-- C12, amended: when `startxref` stands last at index `i`, `parseStartXRef`
trims the text behind it, takes its first line (the bytes before the first
LF, trimmed again; the whole text when it has no LF) and returns what
`strconv.Atoi` reads from that line, missing when the trimmed text is empty or
`Atoi` fails.  When `startxref` stands nowhere the result is missing. -/
theorem c12_parseStartXRef_first_line (b : Bytes) :
    (∀ i, occursAt b (bytesOf "startxref") i = true →
        (∀ j, i < j → occursAt b (bytesOf "startxref") j = false) →
        parseStartXRef b
          = (if trimSpace (b.drop (i + 9)) = [] then none
             else if 10 ∈ trimSpace (b.drop (i + 9)) then
               (if (atoi (trimSpace ((trimSpace (b.drop (i + 9))).takeWhile (fun c => c != 10)))).2
                then some (atoi (trimSpace ((trimSpace (b.drop (i + 9))).takeWhile (fun c => c != 10)))).1
                else none)
             else (if (atoi (trimSpace (b.drop (i + 9)))).2
                then some (atoi (trimSpace (b.drop (i + 9)))).1 else none)))
      ∧ ((∀ j, occursAt b (bytesOf "startxref") j = false) → parseStartXRef b = none) := by
  constructor
  · intro i hocc hlast
    have hl := lastIndex_eq_of_last (by decide) hocc hlast
    unfold parseStartXRef
    simp only [hl]
    by_cases he : trimSpace (b.drop (i + 9)) = []
    · simp [he]
    · rw [if_neg he, if_neg (by simpa using he)]
      by_cases hm : 10 ∈ trimSpace (b.drop (i + 9))
      · rw [if_pos hm]
        cases hi : indexByte (trimSpace (b.drop (i + 9))) 10 with
        | none => exact absurd hm (indexByte_none hi)
        | some nl =>
          simp only [(indexByte_some hi).1]
      · rw [if_neg hm]
        cases hi : indexByte (trimSpace (b.drop (i + 9))) 10 with
        | none => rfl
        | some nl =>
          exfalso
          apply hm
          have := (indexByte_some hi).2
          have hmem : 10 ∈ (trimSpace (b.drop (i + 9))).drop nl := by rw [this]; simp
          exact List.mem_of_mem_drop hmem
  · intro h
    unfold parseStartXRef
    rw [lastIndex_eq_none_of_absent h]

/-! ### The balanced dictionary of `matchDictEnd` -/

theorem delimsFrom_shift :
    ∀ (n : Nat) (u : Bytes) (i k : Nat), u.length ≤ n →
      delimsFrom u (i + k) = (delimsFrom u i).map (fun t => (t.1, t.2 + k)) := by
  intro n
  induction n with
  | zero =>
    intro u i k hn
    have : u = [] := List.length_eq_zero.1 (by omega)
    subst this
    simp [delimsFrom]
  | succ n ih =>
    intro u i k hn
    match u, hn with
    | [], _ => simp [delimsFrom]
    | [_], _ => simp [delimsFrom]
    | a :: b :: rest, hn =>
      simp only [List.length_cons] at hn
      simp only [delimsFrom]
      have e2 : i + k + 2 = i + 2 + k := by omega
      have e1 : i + k + 1 = i + 1 + k := by omega
      split
      · rw [e2, ih rest (i + 2) k (by omega)]; rfl
      · split
        · rw [e2, ih rest (i + 2) k (by omega)]; rfl
        · rw [e1, ih (b :: rest) (i + 1) k (by simp; omega)]

theorem firstBalanced_map (ts : List (Bool × Nat)) (k o c : Nat) :
    firstBalanced (ts.map (fun t => (t.1, t.2 + k))) o c = (firstBalanced ts o c).map (· + k) := by
  induction ts generalizing o c with
  | nil => rfl
  | cons t ts ih =>
    obtain ⟨isOpen, i⟩ := t
    cases isOpen
    · simp only [List.map_cons, firstBalanced]
      split
      · rfl
      · exact ih _ _
    · simp only [List.map_cons, firstBalanced]
      exact ih _ _

/-- The loop of `matchDictEnd` with its one counter finds the first `>>` up to
which the `<<` and `>>` read are equal in number. -/
theorem matchDictEndFrom_eq_firstBalanced :
    ∀ (n : Nat) (u : Bytes) (i o c : Nat), u.length ≤ n →
      matchDictEndFrom u i ((o : Int) - c) = firstBalanced (delimsFrom u i) o c := by
  intro n
  induction n with
  | zero =>
    intro u i o c hn
    have : u = [] := List.length_eq_zero.1 (by omega)
    subst this
    simp [matchDictEndFrom, delimsFrom, firstBalanced]
  | succ n ih =>
    intro u i o c hn
    match u, hn with
    | [], _ => simp [matchDictEndFrom, delimsFrom, firstBalanced]
    | [_], _ => simp [matchDictEndFrom, delimsFrom, firstBalanced]
    | a :: b :: rest, hn =>
      simp only [List.length_cons] at hn
      simp only [matchDictEndFrom, delimsFrom]
      split
      · simp only [firstBalanced]
        have e : (o : Int) - c + 1 = ((o + 1 : Nat) : Int) - c := by push_cast; ring
        rw [e]
        exact ih rest (i + 2) (o + 1) c (by omega)
      · split
        · simp only [firstBalanced]
          by_cases hoc : o = c + 1
          · rw [if_pos hoc, if_pos (by omega)]
          · rw [if_neg hoc, if_neg (by omega)]
            have e : (o : Int) - c - 1 = (o : Int) - ((c + 1 : Nat) : Int) := by push_cast; ring
            rw [e]
            exact ih rest (i + 2) o (c + 1) (by omega)
        · exact ih (b :: rest) (i + 1) o c (by simp; omega)

theorem matchDictEnd_eq_spec (s : Bytes) (start : Nat) :
    matchDictEnd s start = (specBalancedEnd (s.drop start)).map (· + start) := by
  unfold matchDictEnd specBalancedEnd
  have h := matchDictEndFrom_eq_firstBalanced _ (s.drop start) start 0 0 (Nat.le_refl _)
  simp only [Nat.cast_zero, sub_zero] at h
  have e := delimsFrom_shift _ (s.drop start) 0 start (Nat.le_refl _)
  rw [Nat.zero_add] at e
  rw [h, e, firstBalanced_map]

/-- C13: when `trailer` stands last at index `i` and the first `<<` behind it
stands at index `i + 7 + k`, `lastTrailerDict` returns the text from that `<<`
through the `>>` that balances it, pairs `<<` and `>>` being counted from left
to right, and the empty string when nothing balances it; it returns the empty
string when there is no `trailer` or no `<<` behind the last one. -/
theorem c13_lastTrailerDict (b : Bytes) :
    (∀ i k, occursAt b (bytesOf "trailer") i = true →
        (∀ j, i < j → occursAt b (bytesOf "trailer") j = false) →
        occursAt b (bytesOf "<<") (i + 7 + k) = true →
        (∀ j, j < k → occursAt b (bytesOf "<<") (i + 7 + j) = false) →
        lastTrailerDict b
          = match specBalancedEnd (b.drop (i + 7 + k)) with
            | some e => (b.drop (i + 7 + k)).take (e + 2)
            | none => [])
      ∧ ((∀ j, occursAt b (bytesOf "trailer") j = false) → lastTrailerDict b = [])
      ∧ (∀ i, occursAt b (bytesOf "trailer") i = true →
          (∀ j, i < j → occursAt b (bytesOf "trailer") j = false) →
          (∀ j, occursAt b (bytesOf "<<") (i + 7 + j) = false) → lastTrailerDict b = []) := by
  refine ⟨?_, ?_, ?_⟩
  · intro i k hocc hlast hopen hfirst
    have hl := lastIndex_eq_of_last (by decide) hocc hlast
    have hi : index (b.drop (i + 7)) (bytesOf "<<") = some k := by
      apply index_eq_of_first
      · unfold occursAt at hopen ⊢
        rw [List.drop_drop]
        exact hopen
      · intro j hj
        have := hfirst j hj
        unfold occursAt at this ⊢
        rw [List.drop_drop]
        exact this
    unfold lastTrailerDict
    simp only [hl, hi, matchDictEnd_eq_spec]
    cases hs : specBalancedEnd (b.drop (i + 7 + k)) with
    | none => rfl
    | some e =>
      simp only [Option.map_some']
      rw [show e + (i + 7 + k) + 2 = (i + 7 + k) + (e + 2) by omega, drop_take_add]
  · intro h
    unfold lastTrailerDict
    rw [lastIndex_eq_none_of_absent h]
  · intro i hocc hlast hno
    have hl := lastIndex_eq_of_last (by decide) hocc hlast
    have hi : index (b.drop (i + 7)) (bytesOf "<<") = none := by
      apply index_eq_none_of_absent
      intro j
      have := hno j
      unfold occursAt at this ⊢
      rw [List.drop_drop]
      exact this
    unfold lastTrailerDict
    simp only [hl, hi]

/-- C13 on an example with a nested dictionary. -/
theorem c13_example :
    lastTrailerDict nestedTrailer = bytesOf "<< /A << /B 1 >> /Root 1 0 R >>"
      ∧ lastTrailerDict (bytesOf "trailer << /A << /B 1 >>") = []
      ∧ lastTrailerDict (bytesOf "<< /Root 1 0 R >>") = [] := by
  decide!

/-! ### The data of a stream -/

theorem takeWhile_take_of_stop (p : Nat → Bool) :
    ∀ (t : Bytes) (j : Nat), p (t.getD j 0) = false → j < t.length →
      (t.take j).takeWhile p = t.takeWhile p := by
  intro t
  induction t with
  | nil => intro j _ hj; simp at hj
  | cons c cs ih =>
    intro j hstop hj
    cases j with
    | zero =>
      simp only [List.getD_cons_zero] at hstop
      simp [List.takeWhile_cons, hstop]
    | succ j =>
      simp only [List.getD_cons_succ] at hstop
      simp only [List.length_cons] at hj
      simp only [List.take_succ_cons, List.takeWhile_cons]
      split
      · rw [ih j hstop (by omega)]
      · rfl

theorem drop_length_takeWhile (p : Nat → Bool) (l : Bytes) :
    l.drop (l.takeWhile p).length = l.dropWhile p := by
  induction l with
  | nil => rfl
  | cons c cs ih =>
    simp only [List.takeWhile_cons, List.dropWhile_cons]
    split
    · simpa using ih
    · rfl

theorem getD_of_hasPrefix_cons {s : Bytes} {j q : Nat} {qs : Bytes}
    (h : hasPrefix (s.drop j) (q :: qs) = true) : s.getD j 0 = q ∧ j < s.length := by
  cases hd : s.drop j with
  | nil => rw [hd] at h; simp [hasPrefix] at h
  | cons a rest =>
    rw [hd] at h
    simp only [hasPrefix, Bool.and_eq_true, beq_iff_eq] at h
    have := drop_eq_cons_getD hd
    exact ⟨by rw [this.1, h.1], this.2.2⟩

/-- C14, as stated, fails: the data of `streamWithEmptyLine` begins with an
empty line; only its first end-of-line should be skipped, and `streamContent`
skips both line feeds. -/
theorem c14_leading_newlines_skipped :
    streamContent streamWithEmptyLine = some (bytesOf "ABC")
      ∧ streamContent streamWithEmptyLine ≠ some (bytesOf "\nABC") := by
  decide!

/-- C14, amended: when `stream` stands first at index `i` and `endstream`
stands first behind it at index `i + 6 + j`, `streamContent` returns the bytes
between them without any leading and any trailing CR or LF byte; it is missing
when `stream` stands nowhere or no `endstream` stands behind its first
occurrence. -/
theorem c14_streamContent (body : Bytes) :
    (∀ i j, occursAt body (bytesOf "stream") i = true →
        (∀ k, k < i → occursAt body (bytesOf "stream") k = false) →
        occursAt body (bytesOf "endstream") (i + 6 + j) = true →
        (∀ k, k < j → occursAt body (bytesOf "endstream") (i + 6 + k) = false) →
        streamContent body
          = some (trimRightCRLF ((((body.drop (i + 6)).take j)).dropWhile isCRLF)))
      ∧ ((∀ k, occursAt body (bytesOf "stream") k = false) → streamContent body = none)
      ∧ (∀ i, occursAt body (bytesOf "stream") i = true →
          (∀ k, k < i → occursAt body (bytesOf "stream") k = false) →
          (∀ k, occursAt body (bytesOf "endstream") (i + 6 + k) = false) →
          streamContent body = none) := by
  refine ⟨?_, ?_, ?_⟩
  · intro i j hocc hfirst hend hendfirst
    have hi := index_eq_of_first hocc hfirst
    have hend2 : hasPrefix ((body.drop (i + 6)).drop j) (bytesOf "endstream") = true := by
      rw [List.drop_drop]; exact hend
    have hj : index (body.drop (i + 6)) (bytesOf "endstream") = some j := by
      apply index_eq_of_first hend2
      intro k hk
      have := hendfirst k hk
      unfold occursAt at this ⊢
      rw [List.drop_drop]
      exact this
    unfold streamContent
    simp only [hi, hj, Option.some.injEq]
    congr 1
    have hstop := @getD_of_hasPrefix_cons (body.drop (i + 6)) j 101 (bytesOf "ndstream") hend2
    have htw := takeWhile_take_of_stop isCRLF (body.drop (i + 6)) j
      (by rw [hstop.1]; decide) hstop.2
    have hfun : (fun c => c == 10 || c == 13) = isCRLF := rfl
    rw [hfun, ← List.drop_drop, drop_take_add, ← htw, drop_length_takeWhile]
  · intro h
    unfold streamContent
    rw [index_eq_none_of_absent h]
  · intro i hocc hfirst hno
    have hi := index_eq_of_first hocc hfirst
    have hj : index (body.drop (i + 6)) (bytesOf "endstream") = none := by
      apply index_eq_none_of_absent
      intro k
      have := hno k
      unfold occursAt at this ⊢
      rw [List.drop_drop]
      exact this
    unfold streamContent
    simp only [hi, hj]

/-! ### Literal and hexadecimal strings -/

/-- C15 fails on the string `(`: `escapePDFLiteral` writes two backslashes
before the parenthesis, `decodePDFString` reads the two backslashes as one
escaped backslash and returns a backslash and a parenthesis.  One backslash
before the parenthesis is what `decodePDFString` reads back as `(`. -/
theorem c15_paren_not_inverted :
    escapePDFLiteral (bytesOf "(") = [92, 92, 40]
      ∧ decodePDFString (bytesOf "(" ++ escapePDFLiteral (bytesOf "(") ++ bytesOf ")") = some [92, 40]
      ∧ decodePDFString (bytesOf "(" ++ escapePDFLiteral (bytesOf "(") ++ bytesOf ")")
          ≠ some (bytesOf "(")
      ∧ decodePDFString (bytesOf "(" ++ [92, 40] ++ bytesOf ")") = some (bytesOf "(")
      ∧ decodePDFString (bytesOf "(" ++ escapePDFLiteral [10] ++ bytesOf ")") = some [92, 110] := by
  decide!

/-- `strings.TrimSpace` leaves a string that begins and ends with an ASCII
byte other than white space as it is. -/
theorem trimSpace_of_ends (c e : Nat) (mid : Bytes) (hc : c < 0x80) (hcs : isAsciiSpace c = false)
    (he : e < 0x80) (hes : isAsciiSpace e = false) :
    trimSpace (c :: (mid ++ [e])) = c :: (mid ++ [e]) := by
  have h1 : trimSpace (c :: (mid ++ [e])) = trimSpaceEnd (c :: (mid ++ [e])).reverse := by
    simp only [trimSpace]
    rw [if_neg (by omega), hcs]
    simp
  have h2 : (c :: (mid ++ [e])).reverse = e :: (mid.reverse ++ [c]) := by simp
  rw [h1, h2]
  simp only [trimSpaceEnd]
  rw [if_neg (by omega), hes]
  simp

theorem trimSpace_single (c : Nat) (hc : c < 0x80) (hcs : isAsciiSpace c = false) :
    trimSpace [c] = [c] := by
  simp only [trimSpace]
  rw [if_neg (by omega), hcs]
  simp only [Bool.false_eq_true, ↓reduceIte, List.reverse_cons, List.reverse_nil, List.nil_append,
    trimSpaceEnd]
  rw [if_neg (by omega), hcs]
  simp

theorem hexPairs_eq_hexDecode :
    ∀ (n : Nat) (h : Bytes), h.length ≤ n → (∀ c ∈ h, isHexDigit c = true) →
      hexPairs h = some (hexDecode h) := by
  intro n
  induction n with
  | zero =>
    intro h hn _
    have : h = [] := List.length_eq_zero.1 (by omega)
    subst this
    rfl
  | succ n ih =>
    intro h hn hh
    match h, hn, hh with
    | [], _, _ => rfl
    | [_], _, _ => rfl
    | a :: b :: rest, hn, hh =>
      simp only [List.length_cons] at hn
      have ha := hh a (by simp)
      have hb := hh b (by simp)
      have hr := ih rest (by omega) (fun c hc => hh c (by simp [hc]))
      simp only [hexPairs, ha, hb, Bool.and_self, ↓reduceIte, hr, hexDecode]

theorem hasSuffix_snoc (s : Bytes) (e : Nat) : hasSuffix (s ++ [e]) [e] = true := by
  simp [hasSuffix, hasPrefix, hasPrefix_nil]

/-- The branch `none` of `decodePDFString` is never taken: a text that begins
with `<` and ends with `>` has two bytes or more. -/
theorem decodePDFString_isSome (raw : Bytes) : (decodePDFString raw).isSome = true := by
  unfold decodePDFString
  simp only
  split
  · rfl
  · split
    · rfl
    · split
      · rename_i h
        split
        · rename_i hl
          exfalso
          rw [Bool.and_eq_true] at h
          obtain ⟨h1, h2⟩ := h
          generalize trimSpace raw = t at *
          match t, hl, h1, h2 with
          | [], _, h1, _ => simp [hasPrefix] at h1
          | [c], _, h1, h2 =>
            have e1 : c = 60 := by simpa [hasPrefix] using h1
            have e2 : c = 62 := by simpa [hasSuffix, hasPrefix] using h2
            omega
          | _ :: _ :: _, hl, _, _ => simp only [List.length_cons] at hl; omega
        · rfl
      · split <;> rfl

/-- C16: for a string `h` of hexadecimal digits, `decodePDFString` of `<h>`
is `h` decoded two digits a byte, one digit `0` appended first when the length
of `h` is odd. -/
theorem c16_hex_string (h : Bytes) (hh : ∀ c ∈ h, isHexDigit c = true) :
    decodePDFString (60 :: (h ++ [62]))
      = some (hexDecode (if h.length % 2 = 1 then h ++ [48] else h)) := by
  have ht : trimSpace (60 :: (h ++ [62])) = 60 :: (h ++ [62]) :=
    trimSpace_of_ends 60 62 h (by decide) (by decide) (by decide) (by decide)
  have hs : hasSuffix (60 :: (h ++ [62])) [62] = true := hasSuffix_snoc (60 :: h) 62
  have hmid : ((60 :: (h ++ [62])).take ((60 :: (h ++ [62])).length - 1)).drop 1 = h := by
    simp
  unfold decodePDFString
  simp only [ht, hmid, hs]
  have hp40 : hasPrefix (60 :: (h ++ [62])) [40] = false := by simp [hasPrefix]
  have hp60 : hasPrefix (60 :: (h ++ [62])) [60] = true := by simp [hasPrefix, hasPrefix_nil]
  have hlen : ¬ ((60 :: (h ++ [62])).length < 2) := by simp
  simp only [List.isEmpty_cons, Bool.false_eq_true, ↓reduceIte, hp40, Bool.false_and, hp60,
    Bool.and_self, hlen]
  have hpad : ∀ c ∈ (if h.length % 2 = 1 then h ++ [48] else h), isHexDigit c = true := by
    intro c hc
    split at hc
    · simp only [List.mem_append, List.mem_singleton] at hc
      rcases hc with hc | rfl
      · exact hh c hc
      · decide
    · exact hh c hc
  rw [hexPairs_eq_hexDecode _ _ (Nat.le_refl _) hpad]
  rfl

theorem c16_witness :
    decodePDFString (bytesOf "<4>") = some [0x40]
      ∧ decodePDFString (bytesOf "<>") = some []
      ∧ decodePDFString (bytesOf "<48656C6c6F>") = some (bytesOf "Hello") :=
  ⟨c16_hex_string (bytesOf "4") (by decide), c16_hex_string [] (by decide),
    c16_hex_string (bytesOf "48656C6c6F") (by decide)⟩

/-! ### Patches and unset selections -/

/-- C17: each field of `applyPatch cur p` is the value of the patch where the
patch names the field, the empty string included, and the value of `cur`
where it does not. -/
theorem c17_applyPatch_fields (cur : Metadata) (p : MetadataPatch) :
    (applyPatch cur p).Title = (match p.Title with | some v => v | none => cur.Title)
      ∧ (applyPatch cur p).Author = (match p.Author with | some v => v | none => cur.Author)
      ∧ (applyPatch cur p).Subject = (match p.Subject with | some v => v | none => cur.Subject)
      ∧ (applyPatch cur p).Keywords = (match p.Keywords with | some v => v | none => cur.Keywords)
      ∧ (applyPatch cur p).Creator = (match p.Creator with | some v => v | none => cur.Creator)
      ∧ (applyPatch cur p).Producer = (match p.Producer with | some v => v | none => cur.Producer)
      ∧ (applyPatch cur p).CreationDate
          = (match p.CreationDate with | some v => v | none => cur.CreationDate)
      ∧ (applyPatch cur p).ModDate = (match p.ModDate with | some v => v | none => cur.ModDate) := by
  obtain ⟨t, a, s, k, c, pr, cd, md⟩ := p
  refine ⟨?_, ?_, ?_, ?_, ?_, ?_, ?_, ?_⟩
  · cases t <;> rfl
  · cases a <;> rfl
  · cases s <;> rfl
  · cases k <;> rfl
  · cases c <;> rfl
  · cases pr <;> rfl
  · cases cd <;> rfl
  · cases md <;> rfl

/-- C18, as stated, fails: a patch that names the Title with the empty string
empties the Title of a record that has one. -/
theorem c18_empty_value_deletes :
    titledRecord.Title ≠ [] ∧ (applyPatch titledRecord emptyTitlePatch).Title = [] := by
  decide

theorem getD_ne_nil {o : Option Bytes} {v : Bytes} (ho : o ≠ some []) (hv : v ≠ []) :
    o.getD v ≠ [] := by
  cases o with
  | none => exact hv
  | some w =>
    intro h
    apply ho
    simp only [Option.getD_some] at h
    rw [h]

/-- C18, amended: a patch none of whose entries is the empty string never
deletes: each field that is non-empty in `cur` is non-empty in `applyPatch cur p`. -/
theorem c18_patch_never_deletes (cur : Metadata) (p : MetadataPatch)
    (hp : patchNonEmpty p = true) :
    (cur.Title ≠ [] → (applyPatch cur p).Title ≠ [])
      ∧ (cur.Author ≠ [] → (applyPatch cur p).Author ≠ [])
      ∧ (cur.Subject ≠ [] → (applyPatch cur p).Subject ≠ [])
      ∧ (cur.Keywords ≠ [] → (applyPatch cur p).Keywords ≠ [])
      ∧ (cur.Creator ≠ [] → (applyPatch cur p).Creator ≠ [])
      ∧ (cur.Producer ≠ [] → (applyPatch cur p).Producer ≠ [])
      ∧ (cur.CreationDate ≠ [] → (applyPatch cur p).CreationDate ≠ [])
      ∧ (cur.ModDate ≠ [] → (applyPatch cur p).ModDate ≠ []) := by
  simp only [patchNonEmpty, Bool.and_eq_true, bne_iff_ne, ne_eq] at hp
  obtain ⟨⟨⟨⟨⟨⟨⟨h1, h2⟩, h3⟩, h4⟩, h5⟩, h6⟩, h7⟩, h8⟩ := hp
  exact ⟨getD_ne_nil h1, getD_ne_nil h2, getD_ne_nil h3, getD_ne_nil h4, getD_ne_nil h5,
    getD_ne_nil h6, getD_ne_nil h7, getD_ne_nil h8⟩

theorem c18_witness :
    patchNonEmpty { Author := some (bytesOf "b") } = true
      ∧ (applyPatch titledRecord { Author := some (bytesOf "b") }).Title ≠ [] :=
  ⟨by decide, (c18_patch_never_deletes titledRecord { Author := some (bytesOf "b") }
    (by decide)).1 (by decide)⟩

theorem unsetField_fields (m : Metadata) (f : Field) :
    (unsetField m f).Title = (if f = FieldTitle then [] else m.Title)
      ∧ (unsetField m f).Author = (if f = FieldAuthor then [] else m.Author)
      ∧ (unsetField m f).Subject = (if f = FieldSubject then [] else m.Subject)
      ∧ (unsetField m f).Keywords = (if f = FieldKeywords then [] else m.Keywords)
      ∧ (unsetField m f).Creator = (if f = FieldCreator then [] else m.Creator)
      ∧ (unsetField m f).Producer = (if f = FieldProducer then [] else m.Producer)
      ∧ (unsetField m f).CreationDate = (if f = FieldCreationDate then [] else m.CreationDate)
      ∧ (unsetField m f).ModDate = (if f = FieldModDate then [] else m.ModDate) := by
  unfold unsetField
  have nTitleAuthor : FieldTitle ≠ FieldAuthor := by decide
  have nTitleSubject : FieldTitle ≠ FieldSubject := by decide
  have nTitleKeywords : FieldTitle ≠ FieldKeywords := by decide
  have nTitleCreator : FieldTitle ≠ FieldCreator := by decide
  have nTitleProducer : FieldTitle ≠ FieldProducer := by decide
  have nTitleCreationDate : FieldTitle ≠ FieldCreationDate := by decide
  have nTitleModDate : FieldTitle ≠ FieldModDate := by decide
  have nAuthorTitle : FieldAuthor ≠ FieldTitle := by decide
  have nAuthorSubject : FieldAuthor ≠ FieldSubject := by decide
  have nAuthorKeywords : FieldAuthor ≠ FieldKeywords := by decide
  have nAuthorCreator : FieldAuthor ≠ FieldCreator := by decide
  have nAuthorProducer : FieldAuthor ≠ FieldProducer := by decide
  have nAuthorCreationDate : FieldAuthor ≠ FieldCreationDate := by decide
  have nAuthorModDate : FieldAuthor ≠ FieldModDate := by decide
  have nSubjectTitle : FieldSubject ≠ FieldTitle := by decide
  have nSubjectAuthor : FieldSubject ≠ FieldAuthor := by decide
  have nSubjectKeywords : FieldSubject ≠ FieldKeywords := by decide
  have nSubjectCreator : FieldSubject ≠ FieldCreator := by decide
  have nSubjectProducer : FieldSubject ≠ FieldProducer := by decide
  have nSubjectCreationDate : FieldSubject ≠ FieldCreationDate := by decide
  have nSubjectModDate : FieldSubject ≠ FieldModDate := by decide
  have nKeywordsTitle : FieldKeywords ≠ FieldTitle := by decide
  have nKeywordsAuthor : FieldKeywords ≠ FieldAuthor := by decide
  have nKeywordsSubject : FieldKeywords ≠ FieldSubject := by decide
  have nKeywordsCreator : FieldKeywords ≠ FieldCreator := by decide
  have nKeywordsProducer : FieldKeywords ≠ FieldProducer := by decide
  have nKeywordsCreationDate : FieldKeywords ≠ FieldCreationDate := by decide
  have nKeywordsModDate : FieldKeywords ≠ FieldModDate := by decide
  have nCreatorTitle : FieldCreator ≠ FieldTitle := by decide
  have nCreatorAuthor : FieldCreator ≠ FieldAuthor := by decide
  have nCreatorSubject : FieldCreator ≠ FieldSubject := by decide
  have nCreatorKeywords : FieldCreator ≠ FieldKeywords := by decide
  have nCreatorProducer : FieldCreator ≠ FieldProducer := by decide
  have nCreatorCreationDate : FieldCreator ≠ FieldCreationDate := by decide
  have nCreatorModDate : FieldCreator ≠ FieldModDate := by decide
  have nProducerTitle : FieldProducer ≠ FieldTitle := by decide
  have nProducerAuthor : FieldProducer ≠ FieldAuthor := by decide
  have nProducerSubject : FieldProducer ≠ FieldSubject := by decide
  have nProducerKeywords : FieldProducer ≠ FieldKeywords := by decide
  have nProducerCreator : FieldProducer ≠ FieldCreator := by decide
  have nProducerCreationDate : FieldProducer ≠ FieldCreationDate := by decide
  have nProducerModDate : FieldProducer ≠ FieldModDate := by decide
  have nCreationDateTitle : FieldCreationDate ≠ FieldTitle := by decide
  have nCreationDateAuthor : FieldCreationDate ≠ FieldAuthor := by decide
  have nCreationDateSubject : FieldCreationDate ≠ FieldSubject := by decide
  have nCreationDateKeywords : FieldCreationDate ≠ FieldKeywords := by decide
  have nCreationDateCreator : FieldCreationDate ≠ FieldCreator := by decide
  have nCreationDateProducer : FieldCreationDate ≠ FieldProducer := by decide
  have nCreationDateModDate : FieldCreationDate ≠ FieldModDate := by decide
  have nModDateTitle : FieldModDate ≠ FieldTitle := by decide
  have nModDateAuthor : FieldModDate ≠ FieldAuthor := by decide
  have nModDateSubject : FieldModDate ≠ FieldSubject := by decide
  have nModDateKeywords : FieldModDate ≠ FieldKeywords := by decide
  have nModDateCreator : FieldModDate ≠ FieldCreator := by decide
  have nModDateProducer : FieldModDate ≠ FieldProducer := by decide
  have nModDateCreationDate : FieldModDate ≠ FieldCreationDate := by decide
  by_cases h0 : f = FieldTitle
  · subst h0; simp [nTitleAuthor, nTitleSubject, nTitleKeywords, nTitleCreator, nTitleProducer, nTitleCreationDate, nTitleModDate, nAuthorTitle, nAuthorSubject, nAuthorKeywords, nAuthorCreator, nAuthorProducer, nAuthorCreationDate, nAuthorModDate, nSubjectTitle, nSubjectAuthor, nSubjectKeywords, nSubjectCreator, nSubjectProducer, nSubjectCreationDate, nSubjectModDate, nKeywordsTitle, nKeywordsAuthor, nKeywordsSubject, nKeywordsCreator, nKeywordsProducer, nKeywordsCreationDate, nKeywordsModDate, nCreatorTitle, nCreatorAuthor, nCreatorSubject, nCreatorKeywords, nCreatorProducer, nCreatorCreationDate, nCreatorModDate, nProducerTitle, nProducerAuthor, nProducerSubject, nProducerKeywords, nProducerCreator, nProducerCreationDate, nProducerModDate, nCreationDateTitle, nCreationDateAuthor, nCreationDateSubject, nCreationDateKeywords, nCreationDateCreator, nCreationDateProducer, nCreationDateModDate, nModDateTitle, nModDateAuthor, nModDateSubject, nModDateKeywords, nModDateCreator, nModDateProducer, nModDateCreationDate]
  by_cases h1 : f = FieldAuthor
  · subst h1; simp [nTitleAuthor, nTitleSubject, nTitleKeywords, nTitleCreator, nTitleProducer, nTitleCreationDate, nTitleModDate, nAuthorTitle, nAuthorSubject, nAuthorKeywords, nAuthorCreator, nAuthorProducer, nAuthorCreationDate, nAuthorModDate, nSubjectTitle, nSubjectAuthor, nSubjectKeywords, nSubjectCreator, nSubjectProducer, nSubjectCreationDate, nSubjectModDate, nKeywordsTitle, nKeywordsAuthor, nKeywordsSubject, nKeywordsCreator, nKeywordsProducer, nKeywordsCreationDate, nKeywordsModDate, nCreatorTitle, nCreatorAuthor, nCreatorSubject, nCreatorKeywords, nCreatorProducer, nCreatorCreationDate, nCreatorModDate, nProducerTitle, nProducerAuthor, nProducerSubject, nProducerKeywords, nProducerCreator, nProducerCreationDate, nProducerModDate, nCreationDateTitle, nCreationDateAuthor, nCreationDateSubject, nCreationDateKeywords, nCreationDateCreator, nCreationDateProducer, nCreationDateModDate, nModDateTitle, nModDateAuthor, nModDateSubject, nModDateKeywords, nModDateCreator, nModDateProducer, nModDateCreationDate]
  by_cases h2 : f = FieldSubject
  · subst h2; simp [nTitleAuthor, nTitleSubject, nTitleKeywords, nTitleCreator, nTitleProducer, nTitleCreationDate, nTitleModDate, nAuthorTitle, nAuthorSubject, nAuthorKeywords, nAuthorCreator, nAuthorProducer, nAuthorCreationDate, nAuthorModDate, nSubjectTitle, nSubjectAuthor, nSubjectKeywords, nSubjectCreator, nSubjectProducer, nSubjectCreationDate, nSubjectModDate, nKeywordsTitle, nKeywordsAuthor, nKeywordsSubject, nKeywordsCreator, nKeywordsProducer, nKeywordsCreationDate, nKeywordsModDate, nCreatorTitle, nCreatorAuthor, nCreatorSubject, nCreatorKeywords, nCreatorProducer, nCreatorCreationDate, nCreatorModDate, nProducerTitle, nProducerAuthor, nProducerSubject, nProducerKeywords, nProducerCreator, nProducerCreationDate, nProducerModDate, nCreationDateTitle, nCreationDateAuthor, nCreationDateSubject, nCreationDateKeywords, nCreationDateCreator, nCreationDateProducer, nCreationDateModDate, nModDateTitle, nModDateAuthor, nModDateSubject, nModDateKeywords, nModDateCreator, nModDateProducer, nModDateCreationDate]
  by_cases h3 : f = FieldKeywords
  · subst h3; simp [nTitleAuthor, nTitleSubject, nTitleKeywords, nTitleCreator, nTitleProducer, nTitleCreationDate, nTitleModDate, nAuthorTitle, nAuthorSubject, nAuthorKeywords, nAuthorCreator, nAuthorProducer, nAuthorCreationDate, nAuthorModDate, nSubjectTitle, nSubjectAuthor, nSubjectKeywords, nSubjectCreator, nSubjectProducer, nSubjectCreationDate, nSubjectModDate, nKeywordsTitle, nKeywordsAuthor, nKeywordsSubject, nKeywordsCreator, nKeywordsProducer, nKeywordsCreationDate, nKeywordsModDate, nCreatorTitle, nCreatorAuthor, nCreatorSubject, nCreatorKeywords, nCreatorProducer, nCreatorCreationDate, nCreatorModDate, nProducerTitle, nProducerAuthor, nProducerSubject, nProducerKeywords, nProducerCreator, nProducerCreationDate, nProducerModDate, nCreationDateTitle, nCreationDateAuthor, nCreationDateSubject, nCreationDateKeywords, nCreationDateCreator, nCreationDateProducer, nCreationDateModDate, nModDateTitle, nModDateAuthor, nModDateSubject, nModDateKeywords, nModDateCreator, nModDateProducer, nModDateCreationDate]
  by_cases h4 : f = FieldCreator
  · subst h4; simp [nTitleAuthor, nTitleSubject, nTitleKeywords, nTitleCreator, nTitleProducer, nTitleCreationDate, nTitleModDate, nAuthorTitle, nAuthorSubject, nAuthorKeywords, nAuthorCreator, nAuthorProducer, nAuthorCreationDate, nAuthorModDate, nSubjectTitle, nSubjectAuthor, nSubjectKeywords, nSubjectCreator, nSubjectProducer, nSubjectCreationDate, nSubjectModDate, nKeywordsTitle, nKeywordsAuthor, nKeywordsSubject, nKeywordsCreator, nKeywordsProducer, nKeywordsCreationDate, nKeywordsModDate, nCreatorTitle, nCreatorAuthor, nCreatorSubject, nCreatorKeywords, nCreatorProducer, nCreatorCreationDate, nCreatorModDate, nProducerTitle, nProducerAuthor, nProducerSubject, nProducerKeywords, nProducerCreator, nProducerCreationDate, nProducerModDate, nCreationDateTitle, nCreationDateAuthor, nCreationDateSubject, nCreationDateKeywords, nCreationDateCreator, nCreationDateProducer, nCreationDateModDate, nModDateTitle, nModDateAuthor, nModDateSubject, nModDateKeywords, nModDateCreator, nModDateProducer, nModDateCreationDate]
  by_cases h5 : f = FieldProducer
  · subst h5; simp [nTitleAuthor, nTitleSubject, nTitleKeywords, nTitleCreator, nTitleProducer, nTitleCreationDate, nTitleModDate, nAuthorTitle, nAuthorSubject, nAuthorKeywords, nAuthorCreator, nAuthorProducer, nAuthorCreationDate, nAuthorModDate, nSubjectTitle, nSubjectAuthor, nSubjectKeywords, nSubjectCreator, nSubjectProducer, nSubjectCreationDate, nSubjectModDate, nKeywordsTitle, nKeywordsAuthor, nKeywordsSubject, nKeywordsCreator, nKeywordsProducer, nKeywordsCreationDate, nKeywordsModDate, nCreatorTitle, nCreatorAuthor, nCreatorSubject, nCreatorKeywords, nCreatorProducer, nCreatorCreationDate, nCreatorModDate, nProducerTitle, nProducerAuthor, nProducerSubject, nProducerKeywords, nProducerCreator, nProducerCreationDate, nProducerModDate, nCreationDateTitle, nCreationDateAuthor, nCreationDateSubject, nCreationDateKeywords, nCreationDateCreator, nCreationDateProducer, nCreationDateModDate, nModDateTitle, nModDateAuthor, nModDateSubject, nModDateKeywords, nModDateCreator, nModDateProducer, nModDateCreationDate]
  by_cases h6 : f = FieldCreationDate
  · subst h6; simp [nTitleAuthor, nTitleSubject, nTitleKeywords, nTitleCreator, nTitleProducer, nTitleCreationDate, nTitleModDate, nAuthorTitle, nAuthorSubject, nAuthorKeywords, nAuthorCreator, nAuthorProducer, nAuthorCreationDate, nAuthorModDate, nSubjectTitle, nSubjectAuthor, nSubjectKeywords, nSubjectCreator, nSubjectProducer, nSubjectCreationDate, nSubjectModDate, nKeywordsTitle, nKeywordsAuthor, nKeywordsSubject, nKeywordsCreator, nKeywordsProducer, nKeywordsCreationDate, nKeywordsModDate, nCreatorTitle, nCreatorAuthor, nCreatorSubject, nCreatorKeywords, nCreatorProducer, nCreatorCreationDate, nCreatorModDate, nProducerTitle, nProducerAuthor, nProducerSubject, nProducerKeywords, nProducerCreator, nProducerCreationDate, nProducerModDate, nCreationDateTitle, nCreationDateAuthor, nCreationDateSubject, nCreationDateKeywords, nCreationDateCreator, nCreationDateProducer, nCreationDateModDate, nModDateTitle, nModDateAuthor, nModDateSubject, nModDateKeywords, nModDateCreator, nModDateProducer, nModDateCreationDate]
  by_cases h7 : f = FieldModDate
  · subst h7; simp [nTitleAuthor, nTitleSubject, nTitleKeywords, nTitleCreator, nTitleProducer, nTitleCreationDate, nTitleModDate, nAuthorTitle, nAuthorSubject, nAuthorKeywords, nAuthorCreator, nAuthorProducer, nAuthorCreationDate, nAuthorModDate, nSubjectTitle, nSubjectAuthor, nSubjectKeywords, nSubjectCreator, nSubjectProducer, nSubjectCreationDate, nSubjectModDate, nKeywordsTitle, nKeywordsAuthor, nKeywordsSubject, nKeywordsCreator, nKeywordsProducer, nKeywordsCreationDate, nKeywordsModDate, nCreatorTitle, nCreatorAuthor, nCreatorSubject, nCreatorKeywords, nCreatorProducer, nCreatorCreationDate, nCreatorModDate, nProducerTitle, nProducerAuthor, nProducerSubject, nProducerKeywords, nProducerCreator, nProducerCreationDate, nProducerModDate, nCreationDateTitle, nCreationDateAuthor, nCreationDateSubject, nCreationDateKeywords, nCreationDateCreator, nCreationDateProducer, nCreationDateModDate, nModDateTitle, nModDateAuthor, nModDateSubject, nModDateKeywords, nModDateCreator, nModDateProducer, nModDateCreationDate]
  simp [h0, h1, h2, h3, h4, h5, h6, h7]

theorem unset_step (F f : Field) (fs : List Field) (x : Bytes) :
    (if F ∈ fs then ([] : Bytes) else if f = F then [] else x)
      = if F = f ∨ F ∈ fs then [] else x := by
  by_cases hm : F ∈ fs
  · simp [hm]
  · by_cases hf : f = F
    · subst hf; simp
    · have hf2 : ¬ F = f := fun e => hf e.symm
      simp [hm, hf, hf2]

theorem foldl_unsetField_fields (fs : List Field) :
    ∀ m : Metadata,
      (fs.foldl unsetField m).Title = (if FieldTitle ∈ fs then [] else m.Title)
      ∧ (fs.foldl unsetField m).Author = (if FieldAuthor ∈ fs then [] else m.Author)
      ∧ (fs.foldl unsetField m).Subject = (if FieldSubject ∈ fs then [] else m.Subject)
      ∧ (fs.foldl unsetField m).Keywords = (if FieldKeywords ∈ fs then [] else m.Keywords)
      ∧ (fs.foldl unsetField m).Creator = (if FieldCreator ∈ fs then [] else m.Creator)
      ∧ (fs.foldl unsetField m).Producer = (if FieldProducer ∈ fs then [] else m.Producer)
      ∧ (fs.foldl unsetField m).CreationDate
          = (if FieldCreationDate ∈ fs then [] else m.CreationDate)
      ∧ (fs.foldl unsetField m).ModDate = (if FieldModDate ∈ fs then [] else m.ModDate) := by
  induction fs with
  | nil => intro m; simp
  | cons f fs ih =>
    intro m
    obtain ⟨a1, a2, a3, a4, a5, a6, a7, a8⟩ := ih (unsetField m f)
    obtain ⟨b1, b2, b3, b4, b5, b6, b7, b8⟩ := unsetField_fields m f
    simp only [List.foldl_cons, List.mem_cons]
    rw [a1, a2, a3, a4, a5, a6, a7, a8, b1, b2, b3, b4, b5, b6, b7, b8]
    exact ⟨unset_step _ _ _ _, unset_step _ _ _ _, unset_step _ _ _ _, unset_step _ _ _ _,
      unset_step _ _ _ _, unset_step _ _ _ _, unset_step _ _ _ _, unset_step _ _ _ _⟩

/-- C19: `applyUnset cur fs true` is the zero record; `applyUnset cur fs false`
has the empty string in every field named in `fs` and the value of `cur` in
every other field. -/
theorem c19_applyUnset (cur : Metadata) (fs : List Field) :
    applyUnset cur fs true = {}
      ∧ (applyUnset cur fs false).Title = (if FieldTitle ∈ fs then [] else cur.Title)
      ∧ (applyUnset cur fs false).Author = (if FieldAuthor ∈ fs then [] else cur.Author)
      ∧ (applyUnset cur fs false).Subject = (if FieldSubject ∈ fs then [] else cur.Subject)
      ∧ (applyUnset cur fs false).Keywords = (if FieldKeywords ∈ fs then [] else cur.Keywords)
      ∧ (applyUnset cur fs false).Creator = (if FieldCreator ∈ fs then [] else cur.Creator)
      ∧ (applyUnset cur fs false).Producer = (if FieldProducer ∈ fs then [] else cur.Producer)
      ∧ (applyUnset cur fs false).CreationDate
          = (if FieldCreationDate ∈ fs then [] else cur.CreationDate)
      ∧ (applyUnset cur fs false).ModDate = (if FieldModDate ∈ fs then [] else cur.ModDate) :=
  ⟨rfl, foldl_unsetField_fields fs cur⟩

/-! ### The rendered objects -/

/-- C20: the Info object is the header, one entry `/Key (escaped value)` on a
line of its own for each field whose value is not empty after trimming, in the
order Author, CreationDate, Creator, Keywords, ModDate, Producer, Subject,
Title, which is the ascending order of the keys, and the closing lines; a
field whose trimmed value is empty has no entry. -/
theorem c20_renderInfoObject (objNr : Int) (m : Metadata) :
    renderInfoObject objNr m
        = itoa objNr ++ bytesOf " 0 obj\n<<"
          ++ (renderInfoEntry (bytesOf "Author", m.Author)
            ++ renderInfoEntry (bytesOf "CreationDate", m.CreationDate)
            ++ renderInfoEntry (bytesOf "Creator", m.Creator)
            ++ renderInfoEntry (bytesOf "Keywords", m.Keywords)
            ++ renderInfoEntry (bytesOf "ModDate", m.ModDate)
            ++ renderInfoEntry (bytesOf "Producer", m.Producer)
            ++ renderInfoEntry (bytesOf "Subject", m.Subject)
            ++ renderInfoEntry (bytesOf "Title", m.Title))
          ++ bytesOf "\n>>\nendobj\n"
      ∧ ascending infoKeysSorted = true
      ∧ (∀ key value, trimSpace value = [] → renderInfoEntry (key, value) = [])
      ∧ (∀ key value, trimSpace value ≠ [] →
          renderInfoEntry (key, value)
            = bytesOf "\n/" ++ key ++ bytesOf " (" ++ escapePDFLiteral value ++ bytesOf ")") := by
  refine ⟨?_, by decide, ?_, ?_⟩
  · have hs : sortEntries (infoEntries m)
        = [(bytesOf "Author", m.Author), (bytesOf "CreationDate", m.CreationDate),
            (bytesOf "Creator", m.Creator), (bytesOf "Keywords", m.Keywords),
            (bytesOf "ModDate", m.ModDate), (bytesOf "Producer", m.Producer),
            (bytesOf "Subject", m.Subject), (bytesOf "Title", m.Title)] := rfl
    unfold renderInfoObject
    rw [hs]
    simp only [List.map_cons, List.map_nil, List.flatten_cons, List.flatten_nil, List.append_nil,
      List.append_assoc]
  · intro key value h
    simp [renderInfoEntry, h]
  · intro key value h
    simp [renderInfoEntry, h]

theorem hasSuffix_lf_iff (p : Bytes) : hasSuffix p [10] = true ↔ p.getLast? = some 10 := by
  unfold hasSuffix
  rw [List.getLast?_eq_head?_reverse]
  cases p.reverse with
  | nil => simp [hasPrefix]
  | cons c cs => simp [hasPrefix, hasPrefix_nil]

theorem Marshal_ends_lf (M : Metadata) : ∃ body, Marshal M = body ++ [10] :=
  ⟨_, rfl⟩

/-- C21: the metadata object declares the byte length of the packet and holds
the packet, followed by one line feed only when the packet does not end with
one; for a packet of `Marshal` the bytes between the line `stream` and the
keyword `endstream` are the packet itself, as many as declared. -/
theorem c21_renderMetadataObject (objNr : Int) (p : Bytes) (M : Metadata) :
    renderMetadataObject objNr p
        = itoa objNr ++ bytesOf " 0 obj\n<< /Type /Metadata /Subtype /XML /Length "
          ++ natDigits p.length ++ bytesOf " >>\nstream\n"
          ++ (p ++ (if p.getLast? = some 10 then [] else [10]))
          ++ bytesOf "endstream\nendobj\n"
      ∧ renderMetadataObject objNr (Marshal M)
        = itoa objNr ++ bytesOf " 0 obj\n<< /Type /Metadata /Subtype /XML /Length "
          ++ natDigits (Marshal M).length ++ bytesOf " >>\nstream\n"
          ++ Marshal M ++ bytesOf "endstream\nendobj\n" := by
  have key : ∀ q : Bytes, renderMetadataObject objNr q
        = itoa objNr ++ bytesOf " 0 obj\n<< /Type /Metadata /Subtype /XML /Length "
          ++ natDigits q.length ++ bytesOf " >>\nstream\n"
          ++ (q ++ (if q.getLast? = some 10 then [] else [10]))
          ++ bytesOf "endstream\nendobj\n" := by
    intro q
    have e1 : bytesOf " 0 obj\n<< /Type /Metadata /Subtype /XML /Length "
        = bytesOf " 0 obj\n" ++ bytesOf "<< /Type /Metadata /Subtype /XML /Length " := by decide
    have e2 : bytesOf " >>\nstream\n" = bytesOf " >>\n" ++ bytesOf "stream\n" := by decide
    unfold renderMetadataObject
    rw [e1, e2]
    by_cases h : q.getLast? = some 10
    · rw [if_pos h, if_pos ((hasSuffix_lf_iff q).2 h)]
      simp only [List.append_assoc]
    · have h2 : ¬ hasSuffix q [10] = true := fun e => h ((hasSuffix_lf_iff q).1 e)
      rw [if_neg h, if_neg h2]
      simp only [List.append_assoc]
  refine ⟨key p, ?_⟩
  rw [key]
  obtain ⟨body, hb⟩ := Marshal_ends_lf M
  have hl : (Marshal M).getLast? = some 10 := by rw [hb]; simp
  rw [if_pos hl, List.append_nil]

/-- C23: a write fails exactly when one of its five probes of the source
fails: no trailer Root reference, no `startxref`, no object number, no Catalog
body or no dictionary in it; each failure has the code `ErrPDFMalformed`, and
which of the two it is does not depend on the record or the packet. -/
theorem c23_write_fails_iff (src : Bytes) (meta : Metadata) (packet : Bytes) :
    ((∃ e, writeNativeIncremental src meta packet = .error e)
        ↔ (parseTrailerRefs src = none ∨ parseStartXRef src = none ∨ maxObjectNumber src < 1
            ∨ ∀ rootRef infoRef, parseTrailerRefs src = some (rootRef, infoRef) →
                objectBody src rootRef.Obj rootRef.Gen = none
                  ∨ ∀ body, objectBody src rootRef.Obj rootRef.Gen = some body →
                      firstDict body = none))
      ∧ (∀ e, writeNativeIncremental src meta packet = .error e → e.Code = .ErrPDFMalformed)
      ∧ (∀ meta2 packet2 e, writeNativeIncremental src meta packet = .error e →
          writeNativeIncremental src meta2 packet2 = .error e) := by
  unfold writeNativeIncremental
  cases h1 : parseTrailerRefs src with
  | none => simp [malformed]
  | some refs =>
    obtain ⟨rootRef, infoRef⟩ := refs
    cases h2 : parseStartXRef src with
    | none => simp [malformed]
    | some prev =>
      by_cases h3 : maxObjectNumber src < 1
      · simp [h3, malformed]
      · cases h4 : objectBody src rootRef.Obj rootRef.Gen with
        | none => simp [h3, h4, malformed]
        | some body =>
          cases h5 : firstDict body with
          | none => simp [h3, h4, h5, malformed]
          | some dict => simp [h3, h4, h5]

theorem writeLangAlt_eq (key opening closing v : Bytes)
    (h1 : bytesOf "<" ++ (key ++ bytesOf "><rdf:Alt><rdf:li xml:lang=\"x-default\">") = opening)
    (h2 : bytesOf "</rdf:li></rdf:Alt></" ++ (key ++ bytesOf ">\n") = closing ++ [10]) :
    writeLangAlt key v = elementLine opening closing v := by
  unfold writeLangAlt elementLine
  cases v with
  | nil => rfl
  | cons c cs =>
    simp only [List.isEmpty_cons, Bool.false_eq_true, ↓reduceIte, reduceCtorEq, List.append_assoc]
    rw [← List.append_assoc (bytesOf "<"), ← List.append_assoc (bytesOf "<" ++ key), List.append_assoc
      (bytesOf "<"), h1, h2]

theorem writeSeq_eq (key opening closing v : Bytes)
    (h1 : bytesOf "<" ++ (key ++ bytesOf "><rdf:Seq><rdf:li>") = opening)
    (h2 : bytesOf "</rdf:li></rdf:Seq></" ++ (key ++ bytesOf ">\n") = closing ++ [10]) :
    writeSeq key v = elementLine opening closing v := by
  unfold writeSeq elementLine
  cases v with
  | nil => rfl
  | cons c cs =>
    simp only [List.isEmpty_cons, Bool.false_eq_true, ↓reduceIte, reduceCtorEq, List.append_assoc]
    rw [← List.append_assoc (bytesOf "<"), ← List.append_assoc (bytesOf "<" ++ key), List.append_assoc
      (bytesOf "<"), h1, h2]

theorem writeValue_eq (key opening closing v : Bytes)
    (h1 : bytesOf "<" ++ (key ++ bytesOf ">") = opening)
    (h2 : bytesOf "</" ++ (key ++ bytesOf ">\n") = closing ++ [10]) :
    writeValue key v = elementLine opening closing v := by
  unfold writeValue elementLine
  cases v with
  | nil => rfl
  | cons c cs =>
    simp only [List.isEmpty_cons, Bool.false_eq_true, ↓reduceIte, reduceCtorEq, List.append_assoc]
    rw [← List.append_assoc (bytesOf "<"), ← List.append_assoc (bytesOf "<" ++ key), List.append_assoc
      (bytesOf "<"), h1, h2]

set_option maxRecDepth 100000 in
/-- C24: the packet of `Marshal` is the fixed wrapper with, between its two
parts, the element lines of the fields that are not empty, in the order title,
creator, description, Keywords, CreatorTool, Producer, CreateDate, ModifyDate;
the packet of the zero record is the wrapper alone. -/
theorem c24_marshal_shape (M : Metadata) :
    Marshal M
        = xmpWrapperHead
          ++ (elementLine (bytesOf "<dc:title><rdf:Alt><rdf:li xml:lang=\"x-default\">")
                (bytesOf "</rdf:li></rdf:Alt></dc:title>") M.Title
            ++ elementLine (bytesOf "<dc:creator><rdf:Seq><rdf:li>")
                (bytesOf "</rdf:li></rdf:Seq></dc:creator>") M.Author
            ++ elementLine (bytesOf "<dc:description><rdf:Alt><rdf:li xml:lang=\"x-default\">")
                (bytesOf "</rdf:li></rdf:Alt></dc:description>") M.Subject
            ++ elementLine (bytesOf "<pdf:Keywords>") (bytesOf "</pdf:Keywords>") M.Keywords
            ++ elementLine (bytesOf "<xmp:CreatorTool>") (bytesOf "</xmp:CreatorTool>") M.Creator
            ++ elementLine (bytesOf "<pdf:Producer>") (bytesOf "</pdf:Producer>") M.Producer
            ++ elementLine (bytesOf "<xmp:CreateDate>") (bytesOf "</xmp:CreateDate>") M.CreationDate
            ++ elementLine (bytesOf "<xmp:ModifyDate>") (bytesOf "</xmp:ModifyDate>") M.ModDate)
          ++ xmpWrapperTail
      ∧ Marshal {} = xmpWrapperHead ++ xmpWrapperTail := by
  refine ⟨?_, by decide!⟩
  unfold Marshal
  rw [writeLangAlt_eq (bytesOf "dc:title")
      (bytesOf "<dc:title><rdf:Alt><rdf:li xml:lang=\"x-default\">")
      (bytesOf "</rdf:li></rdf:Alt></dc:title>") M.Title rfl rfl,
    writeSeq_eq (bytesOf "dc:creator") (bytesOf "<dc:creator><rdf:Seq><rdf:li>")
      (bytesOf "</rdf:li></rdf:Seq></dc:creator>") M.Author rfl rfl,
    writeLangAlt_eq (bytesOf "dc:description")
      (bytesOf "<dc:description><rdf:Alt><rdf:li xml:lang=\"x-default\">")
      (bytesOf "</rdf:li></rdf:Alt></dc:description>") M.Subject rfl rfl,
    writeValue_eq (bytesOf "pdf:Keywords") (bytesOf "<pdf:Keywords>") (bytesOf "</pdf:Keywords>")
      M.Keywords rfl rfl,
    writeValue_eq (bytesOf "xmp:CreatorTool") (bytesOf "<xmp:CreatorTool>")
      (bytesOf "</xmp:CreatorTool>") M.Creator rfl rfl,
    writeValue_eq (bytesOf "pdf:Producer") (bytesOf "<pdf:Producer>") (bytesOf "</pdf:Producer>")
      M.Producer rfl rfl,
    writeValue_eq (bytesOf "xmp:CreateDate") (bytesOf "<xmp:CreateDate>")
      (bytesOf "</xmp:CreateDate>") M.CreationDate rfl rfl,
    writeValue_eq (bytesOf "xmp:ModifyDate") (bytesOf "<xmp:ModifyDate>")
      (bytesOf "</xmp:ModifyDate>") M.ModDate rfl rfl]
  have eh : xmpWrapperHead = xpacketBegin ++ bytesOf "\n"
    ++ bytesOf "<x:xmpmeta xmlns:x=\"adobe:ns:meta/\" x:xmptk=\"pdfmeta\">\n"
    ++ bytesOf "<rdf:RDF xmlns:rdf=\"http://www.w3.org/1999/02/22-rdf-syntax-ns#\">\n"
    ++ bytesOf "<rdf:Description rdf:about=\"\""
    ++ bytesOf " xmlns:dc=\"http://purl.org/dc/elements/1.1/\""
    ++ bytesOf " xmlns:pdf=\"http://ns.adobe.com/pdf/1.3/\""
    ++ bytesOf " xmlns:xmp=\"http://ns.adobe.com/xap/1.0/\">\n" := by decide!
  have et : xmpWrapperTail = bytesOf "</rdf:Description>\n" ++ bytesOf "</rdf:RDF>\n"
    ++ bytesOf "</x:xmpmeta>\n" ++ xpacketEnd ++ bytesOf "\n" := by decide!
  rw [eh, et]
  simp only [List.append_assoc]

/-! ### The errors of `Unmarshal` -/

theorem unmarshalLoop_of_readTokens (env : XmlEnv) :
    ∀ (fuel : Nat) (input : Bytes) (openEls : List XName) (stack : List Bytes) (meta : Metadata)
      (saw : Bool),
      (readTokens env fuel input openEls = none →
          unmarshalLoop env fuel input openEls stack meta saw = .error .decode)
        ∧ (∀ ts, readTokens env fuel input openEls = some ts →
            ((saw || ts.any isXmpmetaStart) = false →
                unmarshalLoop env fuel input openEls stack meta saw = .error .notFound)
              ∧ ((saw || ts.any isXmpmetaStart) = true →
                ∃ m, unmarshalLoop env fuel input openEls stack meta saw = .ok m)) := by
  intro fuel
  induction fuel with
  | zero =>
    intro input openEls stack meta saw
    exact ⟨fun _ => rfl, fun ts h => by simp [readTokens] at h⟩
  | succ fuel ih =>
    intro input openEls stack meta saw
    cases input with
    | nil =>
      simp only [readTokens, unmarshalLoop]
      cases ho : openEls.isEmpty
      · simp
      · cases saw <;> simp [isXmpmetaStart]
    | cons b t =>
      simp only [readTokens, unmarshalLoop]
      cases hx : xmlRawToken env (b :: t) with
      | none => simp
      | some res =>
        obtain ⟨tok, rest⟩ := res
        cases tok with
        | StartElement name sc =>
          cases sc with
          | true =>
            obtain ⟨h1, h2⟩ := ih rest openEls stack meta (saw || name.Local == bytesOf "xmpmeta")
            simp only [↓reduceIte, Option.map_eq_none', Option.map_eq_some']
            refine ⟨h1, ?_⟩
            rintro ts ⟨ts2, hts, rfl⟩
            obtain ⟨h3, h4⟩ := h2 ts2 hts
            simp only [List.any_cons, isXmpmetaStart, ← Bool.or_assoc]
            exact ⟨h3, h4⟩
          | false =>
            obtain ⟨h1, h2⟩ := ih rest (name :: openEls) (stack ++ [name.Local]) meta
              (saw || name.Local == bytesOf "xmpmeta")
            simp only [Bool.false_eq_true, ↓reduceIte, Option.map_eq_none', Option.map_eq_some']
            refine ⟨h1, ?_⟩
            rintro ts ⟨ts2, hts, rfl⟩
            obtain ⟨h3, h4⟩ := h2 ts2 hts
            simp only [List.any_cons, isXmpmetaStart, ← Bool.or_assoc]
            exact ⟨h3, h4⟩
        | EndElement name =>
          cases openEls with
          | nil => simp
          | cons top els =>
            by_cases htop : top = name
            · obtain ⟨h1, h2⟩ := ih rest els stack.dropLast meta saw
              simp only [htop, ↓reduceIte, Option.map_eq_none', Option.map_eq_some']
              refine ⟨h1, ?_⟩
              rintro ts ⟨ts2, hts, rfl⟩
              obtain ⟨h3, h4⟩ := h2 ts2 hts
              simp only [List.any_cons, isXmpmetaStart, Bool.false_or]
              exact ⟨h3, h4⟩
            · simp [htop]
        | CharData data =>
          obtain ⟨h1, h2⟩ := ih rest openEls stack (unmarshalCharData stack meta data) saw
          simp only [Option.map_eq_none', Option.map_eq_some']
          refine ⟨h1, ?_⟩
          rintro ts ⟨ts2, hts, rfl⟩
          obtain ⟨h3, h4⟩ := h2 ts2 hts
          simp only [List.any_cons, isXmpmetaStart, Bool.false_or]
          exact ⟨h3, h4⟩
        | Other =>
          obtain ⟨h1, h2⟩ := ih rest openEls stack meta saw
          simp only [Option.map_eq_none', Option.map_eq_some']
          refine ⟨h1, ?_⟩
          rintro ts ⟨ts2, hts, rfl⟩
          obtain ⟨h3, h4⟩ := h2 ts2 hts
          simp only [List.any_cons, isXmpmetaStart, Bool.false_or]
          exact ⟨h3, h4⟩

/-- C25, as stated, fails: `twoRootElements` has two elements at the top level,
which no well-formed XML document has, and `Unmarshal` returns no error for
it; the text `hello` has no element at all, and `Unmarshal` answers that no
packet was found, not that the input does not decode. -/
theorem c25_two_roots_accepted :
    (tokensOf asciiEnv twoRootElements).map (fun ts => topLevelElements ts 0) = some 2
      ∧ Unmarshal asciiEnv twoRootElements = .ok {}
      ∧ (tokensOf asciiEnv (bytesOf "hello")).map (fun ts => topLevelElements ts 0) = some 0
      ∧ Unmarshal asciiEnv (bytesOf "hello") = .error .notFound := by
  decide!

/-- C25, amended: `Unmarshal` returns the decode error exactly for the inputs
on which the token reader reports a syntax error, such as an element left
open at the end; for an input the reader reads to its end it returns the
error that no packet was found when no start element has the local name
`xmpmeta`, and a record otherwise. -/
theorem c25_unmarshal_errors (env : XmlEnv) (packet : Bytes) :
    (tokensOf env packet = none → Unmarshal env packet = .error .decode)
      ∧ (∀ ts, tokensOf env packet = some ts → ts.any isXmpmetaStart = false →
          Unmarshal env packet = .error .notFound)
      ∧ (∀ ts, tokensOf env packet = some ts → ts.any isXmpmetaStart = true →
          ∃ m, Unmarshal env packet = .ok m) := by
  obtain ⟨h1, h2⟩ := unmarshalLoop_of_readTokens env (packet.length + 1) packet [] [] {} false
  refine ⟨h1, fun ts hts hany => ?_, fun ts hts hany => ?_⟩
  · exact (h2 ts hts).1 (by simpa using hany)
  · exact (h2 ts hts).2 (by simpa using hany)

/-- C25 on the inputs of the tests. -/
theorem c25_examples :
    Unmarshal asciiEnv (bytesOf "<root/>") = .error .notFound
      ∧ Unmarshal asciiEnv (bytesOf "<x:xmpmeta><rdf:RDF>") = .error .decode
      ∧ tokensOf asciiEnv (bytesOf "<x:xmpmeta><rdf:RDF>") = none := by
  decide!

/-! ### The fields `Unmarshal` takes from character data -/

theorem stackHasSuffix_append (pre want : List Bytes) : stackHasSuffix (pre ++ want) want = true := by
  unfold stackHasSuffix
  rw [if_neg (by simp)]
  simp

theorem stackHasSuffix_getLast {stack want : List Bytes} (h : stackHasSuffix stack want = true)
    (hw : want ≠ []) : stack.getLast? = want.getLast? := by
  unfold stackHasSuffix at h
  split at h
  · cases h
  · rename_i hl
    have hd : stack.drop (stack.length - want.length) = want := by simpa using h
    have hne : stack.drop (stack.length - want.length) ≠ [] := by rw [hd]; exact hw
    rw [← hd, List.getLast?_drop]
    rw [if_neg]
    intro hle
    apply hne
    exact List.drop_eq_nil_of_le hle

theorem stackHasSuffix_snoc_ne (pre : List Bytes) (k : Bytes) (want : List Bytes) (w : Bytes)
    (hk : k ≠ w) : stackHasSuffix (pre ++ [k]) (want ++ [w]) = false := by
  cases h : stackHasSuffix (pre ++ [k]) (want ++ [w]) with
  | false => rfl
  | true =>
    have := stackHasSuffix_getLast h (by simp)
    rw [List.getLast?_concat, List.getLast?_concat] at this
    exact absurd (Option.some.inj this) hk

/-- Character data under a stack that ends with none of the eight paths sets nothing. -/
theorem unmarshalCharData_no_path (stack : List Bytes) (m : Metadata) (data : Bytes)
    (h1 : stackHasSuffix stack [bytesOf "title", bytesOf "Alt", bytesOf "li"] = false)
    (h2 : stackHasSuffix stack [bytesOf "creator", bytesOf "Seq", bytesOf "li"] = false)
    (h3 : stackHasSuffix stack [bytesOf "description", bytesOf "Alt", bytesOf "li"] = false)
    (h4 : stackHasSuffix stack [bytesOf "Keywords"] = false)
    (h5 : stackHasSuffix stack [bytesOf "CreatorTool"] = false)
    (h6 : stackHasSuffix stack [bytesOf "Producer"] = false)
    (h7 : stackHasSuffix stack [bytesOf "CreateDate"] = false)
    (h8 : stackHasSuffix stack [bytesOf "ModifyDate"] = false) :
    unmarshalCharData stack m data = m := by
  simp [unmarshalCharData, h1, h2, h3, h4, h5, h6, h7, h8]

/-- One run of character data: a run that is empty after trimming sets nothing; a
run with the trimmed value `v` sets Title, Author or Subject to `v` when the
stack of local names ends with `title/Alt/li`, `creator/Seq/li` or
`description/Alt/li` and the field is still empty, and leaves a field that is
already set; it sets Keywords, Creator, Producer, CreationDate or ModDate to
`v`, whatever the field held, when the stack ends with `Keywords`,
`CreatorTool`, `Producer`, `CreateDate` or `ModifyDate`; under a stack that
ends with none of these paths it sets nothing. -/
theorem unmarshalCharData_paths (pre : List Bytes) (m : Metadata) (data : Bytes) :
    (∀ stack, trimSpace data = [] → unmarshalCharData stack m data = m)
      ∧ (trimSpace data ≠ [] →
          unmarshalCharData (pre ++ [bytesOf "title", bytesOf "Alt", bytesOf "li"]) m data
              = (if m.Title = [] then { m with Title := trimSpace data } else m)
            ∧ unmarshalCharData (pre ++ [bytesOf "creator", bytesOf "Seq", bytesOf "li"]) m data
              = (if m.Author = [] then { m with Author := trimSpace data } else m)
            ∧ unmarshalCharData (pre ++ [bytesOf "description", bytesOf "Alt", bytesOf "li"]) m data
              = (if m.Subject = [] then { m with Subject := trimSpace data } else m)
            ∧ unmarshalCharData (pre ++ [bytesOf "Keywords"]) m data
              = { m with Keywords := trimSpace data }
            ∧ unmarshalCharData (pre ++ [bytesOf "CreatorTool"]) m data
              = { m with Creator := trimSpace data }
            ∧ unmarshalCharData (pre ++ [bytesOf "Producer"]) m data
              = { m with Producer := trimSpace data }
            ∧ unmarshalCharData (pre ++ [bytesOf "CreateDate"]) m data
              = { m with CreationDate := trimSpace data }
            ∧ unmarshalCharData (pre ++ [bytesOf "ModifyDate"]) m data
              = { m with ModDate := trimSpace data })
      ∧ (∀ stack,
          stackHasSuffix stack [bytesOf "title", bytesOf "Alt", bytesOf "li"] = false →
          stackHasSuffix stack [bytesOf "creator", bytesOf "Seq", bytesOf "li"] = false →
          stackHasSuffix stack [bytesOf "description", bytesOf "Alt", bytesOf "li"] = false →
          stackHasSuffix stack [bytesOf "Keywords"] = false →
          stackHasSuffix stack [bytesOf "CreatorTool"] = false →
          stackHasSuffix stack [bytesOf "Producer"] = false →
          stackHasSuffix stack [bytesOf "CreateDate"] = false →
          stackHasSuffix stack [bytesOf "ModifyDate"] = false →
          unmarshalCharData stack m data = m) := by
  have e3 : ∀ a b c : Bytes, [a, b, c] = [a, b] ++ [c] := fun _ _ _ => rfl
  have e1 : ∀ a : Bytes, [a] = [] ++ [a] := fun _ => rfl
  have hli : ∀ (k a b : Bytes), k ≠ bytesOf "li" →
      stackHasSuffix (pre ++ [k]) [a, b, bytesOf "li"] = false := by
    intro k a b hk
    rw [e3]
    exact stackHasSuffix_snoc_ne pre k _ _ hk
  have hone : ∀ (k w : Bytes), k ≠ w → stackHasSuffix (pre ++ [k]) [w] = false := by
    intro k w hk
    rw [e1 w]
    exact stackHasSuffix_snoc_ne pre k _ _ hk
  have h3 : ∀ (x y a b : Bytes), (x ≠ a ∨ y ≠ b) →
      stackHasSuffix (pre ++ [x, y, bytesOf "li"]) [a, b, bytesOf "li"] = false := by
    intro x y a b hne
    unfold stackHasSuffix
    rw [if_neg (by simp)]
    have : (pre ++ [x, y, bytesOf "li"]).drop
        ((pre ++ [x, y, bytesOf "li"]).length - [a, b, bytesOf "li"].length)
        = [x, y, bytesOf "li"] := by simp
    rw [this]
    rcases hne with h | h <;> simp [h]
  refine ⟨?_, ?_, fun stack => unmarshalCharData_no_path stack m data⟩
  · intro stack h
    simp [unmarshalCharData, h]
  · intro hv
    have hv2 : (trimSpace data).isEmpty = false := by
      cases ht : trimSpace data with
      | nil => exact absurd ht hv
      | cons _ _ => rfl
    refine ⟨?_, ?_, ?_, ?_, ?_, ?_, ?_, ?_⟩
    · simp [unmarshalCharData, hv2, stackHasSuffix_append]
    · simp [unmarshalCharData, hv2, stackHasSuffix_append,
        h3 (bytesOf "creator") (bytesOf "Seq") (bytesOf "title") (bytesOf "Alt") (Or.inl (by decide))]
    · simp [unmarshalCharData, hv2, stackHasSuffix_append,
        h3 (bytesOf "description") (bytesOf "Alt") (bytesOf "title") (bytesOf "Alt")
          (Or.inl (by decide)),
        h3 (bytesOf "description") (bytesOf "Alt") (bytesOf "creator") (bytesOf "Seq")
          (Or.inl (by decide))]
    · simp [unmarshalCharData, hv2, stackHasSuffix_append, hli (bytesOf "Keywords") _ _ (by decide)]
    · simp [unmarshalCharData, hv2, stackHasSuffix_append,
        hli (bytesOf "CreatorTool") _ _ (by decide),
        hone (bytesOf "CreatorTool") (bytesOf "Keywords") (by decide)]
    · simp [unmarshalCharData, hv2, stackHasSuffix_append,
        hli (bytesOf "Producer") _ _ (by decide),
        hone (bytesOf "Producer") (bytesOf "Keywords") (by decide),
        hone (bytesOf "Producer") (bytesOf "CreatorTool") (by decide)]
    · simp [unmarshalCharData, hv2, stackHasSuffix_append,
        hli (bytesOf "CreateDate") _ _ (by decide),
        hone (bytesOf "CreateDate") (bytesOf "Keywords") (by decide),
        hone (bytesOf "CreateDate") (bytesOf "CreatorTool") (by decide),
        hone (bytesOf "CreateDate") (bytesOf "Producer") (by decide)]
    · simp [unmarshalCharData, hv2, stackHasSuffix_append,
        hli (bytesOf "ModifyDate") _ _ (by decide),
        hone (bytesOf "ModifyDate") (bytesOf "Keywords") (by decide),
        hone (bytesOf "ModifyDate") (bytesOf "CreatorTool") (by decide),
        hone (bytesOf "ModifyDate") (bytesOf "Producer") (by decide),
        hone (bytesOf "ModifyDate") (bytesOf "CreateDate") (by decide)]

/-- The loop of `Unmarshal` on an input that the reader reads to its end, with
an `xmpmeta` element seen: the record is the one that the runs of character
data make, one after the other. -/
theorem unmarshalLoop_runs (env : XmlEnv) :
    ∀ (fuel : Nat) (input : Bytes) (openEls : List XName) (stack : List Bytes) (meta : Metadata)
      (saw : Bool) (ts : List XmlToken),
      readTokens env fuel input openEls = some ts →
      (saw || ts.any isXmpmetaStart) = true →
      unmarshalLoop env fuel input openEls stack meta saw
        = .ok ((textRuns ts stack).foldl (fun m r => unmarshalCharData r.1 m r.2) meta) := by
  intro fuel
  induction fuel with
  | zero => intro input openEls stack meta saw ts h; simp [readTokens] at h
  | succ fuel ih =>
    intro input openEls stack meta saw ts h hx
    cases input with
    | nil =>
      simp only [readTokens] at h
      cases ho : openEls.isEmpty with
      | false => rw [ho] at h; simp at h
      | true =>
        rw [ho] at h
        simp only [↓reduceIte, Option.some.injEq] at h
        subst h
        simp only [List.any_nil, Bool.or_false] at hx
        simp [unmarshalLoop, ho, hx, textRuns]
    | cons b t =>
      simp only [readTokens] at h
      simp only [unmarshalLoop]
      cases hr : xmlRawToken env (b :: t) with
      | none => rw [hr] at h; simp at h
      | some res =>
        obtain ⟨tok, rest⟩ := res
        rw [hr] at h
        cases tok with
        | StartElement name sc =>
          simp only [Option.map_eq_some'] at h
          obtain ⟨ts2, hts, rfl⟩ := h
          simp only [List.any_cons, isXmpmetaStart, ← Bool.or_assoc] at hx
          cases sc with
          | true =>
            simp only [↓reduceIte] at hts ⊢
            rw [ih rest openEls stack meta _ ts2 hts hx]
            simp [textRuns]
          | false =>
            simp only [Bool.false_eq_true, ↓reduceIte] at hts ⊢
            rw [ih rest (name :: openEls) (stack ++ [name.Local]) meta _ ts2 hts hx]
            simp [textRuns]
        | EndElement name =>
          cases openEls with
          | nil => simp at h
          | cons top els =>
            by_cases htop : top = name
            · simp only [htop, ↓reduceIte, Option.map_eq_some'] at h ⊢
              obtain ⟨ts2, hts, rfl⟩ := h
              simp only [List.any_cons, isXmpmetaStart, Bool.false_or] at hx
              rw [ih rest els stack.dropLast meta saw ts2 hts hx]
              simp [textRuns]
            · simp [htop] at h
        | CharData data =>
          simp only [Option.map_eq_some'] at h
          obtain ⟨ts2, hts, rfl⟩ := h
          simp only [List.any_cons, isXmpmetaStart, Bool.false_or] at hx
          show unmarshalLoop env fuel rest openEls stack (unmarshalCharData stack meta data) saw = _
          rw [ih rest openEls stack (unmarshalCharData stack meta data) saw ts2 hts hx]
          simp [textRuns]
        | Other =>
          simp only [Option.map_eq_some'] at h
          obtain ⟨ts2, hts, rfl⟩ := h
          simp only [List.any_cons, isXmpmetaStart, Bool.false_or] at hx
          show unmarshalLoop env fuel rest openEls stack meta saw = _
          rw [ih rest openEls stack meta saw ts2 hts hx]
          simp [textRuns]

/-- Two paths of the same length under which one stack stands are the same path. -/
theorem stackHasSuffix_same_length {stack w1 w2 : List Bytes}
    (h1 : stackHasSuffix stack w1 = true) (h2 : stackHasSuffix stack w2 = true)
    (hl : w1.length = w2.length) : w1 = w2 := by
  unfold stackHasSuffix at h1 h2
  split at h1
  · cases h1
  · split at h2
    · cases h2
    · have e1 : stack.drop (stack.length - w1.length) = w1 := by simpa using h1
      have e2 : stack.drop (stack.length - w2.length) = w2 := by simpa using h2
      rw [← e1, ← e2, hl]

/-- The eight paths of `Unmarshal`. -/
theorem paths_exclusive (stack : List Bytes) (w1 w2 : List Bytes)
    (hw1 : w1 ∈ [[bytesOf "title", bytesOf "Alt", bytesOf "li"],
      [bytesOf "creator", bytesOf "Seq", bytesOf "li"],
      [bytesOf "description", bytesOf "Alt", bytesOf "li"], [bytesOf "Keywords"],
      [bytesOf "CreatorTool"], [bytesOf "Producer"], [bytesOf "CreateDate"],
      [bytesOf "ModifyDate"]])
    (hw2 : w2 ∈ [[bytesOf "title", bytesOf "Alt", bytesOf "li"],
      [bytesOf "creator", bytesOf "Seq", bytesOf "li"],
      [bytesOf "description", bytesOf "Alt", bytesOf "li"], [bytesOf "Keywords"],
      [bytesOf "CreatorTool"], [bytesOf "Producer"], [bytesOf "CreateDate"],
      [bytesOf "ModifyDate"]])
    (h1 : stackHasSuffix stack w1 = true) (h2 : stackHasSuffix stack w2 = true) : w1 = w2 := by
  by_cases hl : w1.length = w2.length
  · exact stackHasSuffix_same_length h1 h2 hl
  · exfalso
    have g1 := stackHasSuffix_getLast h1 (by
      intro e; subst e; simp at hw1)
    have g2 := stackHasSuffix_getLast h2 (by
      intro e; subst e; simp at hw2)
    rw [g1] at g2
    revert hl g2
    simp only [List.mem_cons, List.mem_singleton, List.not_mem_nil, or_false] at hw1 hw2
    rcases hw1 with rfl | rfl | rfl | rfl | rfl | rfl | rfl | rfl <;>
      rcases hw2 with rfl | rfl | rfl | rfl | rfl | rfl | rfl | rfl <;> decide

theorem runsAt_cons (path : List Bytes) (st : List Bytes) (d : Bytes)
    (rs : List (List Bytes × Bytes)) :
    runsAt path ((st, d) :: rs)
      = if (stackHasSuffix st path && !(trimSpace d).isEmpty) = true
        then trimSpace d :: runsAt path rs else runsAt path rs := by
  unfold runsAt
  rw [List.filter_cons]
  split <;> simp

/-- A field that keeps its first value: after the runs it holds what it held
before, or, when it was empty, the first run that counts for its path. -/
theorem fold_first (get : Metadata → Bytes) (path : List Bytes)
    (hstep : ∀ st m d, get (unmarshalCharData st m d)
      = if ((stackHasSuffix st path && !(trimSpace d).isEmpty) && (get m).isEmpty) = true
        then trimSpace d else get m) :
    ∀ (runs : List (List Bytes × Bytes)) (m : Metadata),
      get (runs.foldl (fun m r => unmarshalCharData r.1 m r.2) m)
        = if get m = [] then firstRun path runs else get m := by
  intro runs
  induction runs with
  | nil =>
    intro m
    simp only [List.foldl_nil, firstRun, runsAt, List.filter_nil, List.map_nil, List.head?_nil,
      Option.getD_none]
    split
    · assumption
    · rfl
  | cons r rs ih =>
    intro m
    obtain ⟨st, d⟩ := r
    rw [List.foldl_cons, ih, hstep]
    unfold firstRun
    rw [runsAt_cons]
    by_cases hm : get m = []
    · rw [hm]
      by_cases hc : (stackHasSuffix st path && !(trimSpace d).isEmpty) = true
      · have hne : trimSpace d ≠ [] := by
          intro e
          rw [e] at hc
          simp at hc
        simp [hc, hne]
      · simp [hc]
    · have : (get m).isEmpty = false := by
        cases h : get m with
        | nil => exact absurd h hm
        | cons _ _ => rfl
      simp [this, hm]

/-- A field that takes every value: after the runs it holds the last run that
counts for its path, or what it held before when there is none. -/
theorem fold_last (get : Metadata → Bytes) (path : List Bytes)
    (hstep : ∀ st m d, get (unmarshalCharData st m d)
      = if (stackHasSuffix st path && !(trimSpace d).isEmpty) = true
        then trimSpace d else get m) :
    ∀ (runs : List (List Bytes × Bytes)) (m : Metadata),
      get (runs.foldl (fun m r => unmarshalCharData r.1 m r.2) m)
        = if runsAt path runs = [] then get m else lastRun path runs := by
  intro runs
  induction runs with
  | nil => intro m; simp [runsAt]
  | cons r rs ih =>
    intro m
    obtain ⟨st, d⟩ := r
    rw [List.foldl_cons, ih, hstep]
    unfold lastRun
    rw [runsAt_cons]
    by_cases hc : (stackHasSuffix st path && !(trimSpace d).isEmpty) = true
    · simp only [hc, ↓reduceIte, List.cons_ne_nil]
      by_cases hr : runsAt path rs = []
      · simp [hr]
      · cases h : runsAt path rs with
        | nil => exact absurd h hr
        | cons x xs => simp [List.getLast?_cons_cons]
    · simp only [hc, Bool.false_eq_true, ↓reduceIte]

theorem paths_other {stack w1 w2 : List Bytes} (hw1 : w1 ∈ fieldPaths) (hw2 : w2 ∈ fieldPaths)
    (hne : w1 ≠ w2) (h1 : stackHasSuffix stack w1 = true) : stackHasSuffix stack w2 = false := by
  cases h2 : stackHasSuffix stack w2 with
  | false => rfl
  | true => exact absurd (paths_exclusive stack w1 w2 hw1 hw2 h1 h2) hne

theorem isEmpty_false_iff {l : Bytes} : l.isEmpty = false ↔ l ≠ [] := by
  cases l <;> simp

theorem charData_blank (st : List Bytes) (m : Metadata) (d : Bytes)
    (h : (trimSpace d).isEmpty = true) : unmarshalCharData st m d = m := by
  simp [unmarshalCharData, h]

theorem step_title (st : List Bytes) (m : Metadata) (d : Bytes) :
    (unmarshalCharData st m d).Title
      = if ((stackHasSuffix st [bytesOf "title", bytesOf "Alt", bytesOf "li"]
            && !(trimSpace d).isEmpty) && m.Title.isEmpty) = true
        then trimSpace d else m.Title := by
  by_cases hv : (trimSpace d).isEmpty = true
  · rw [charData_blank st m d hv]
    simp [hv]
  · by_cases h1 : stackHasSuffix st [bytesOf "title", bytesOf "Alt", bytesOf "li"] = true
    · simp only [unmarshalCharData, hv, h1, Bool.false_eq_true, ↓reduceIte]
      split <;> simp_all
    · simp only [unmarshalCharData, hv, h1, Bool.false_eq_true, ↓reduceIte, Bool.false_and]
      repeat' split
      all_goals rfl

theorem step_author (st : List Bytes) (m : Metadata) (d : Bytes) :
    (unmarshalCharData st m d).Author
      = if ((stackHasSuffix st [bytesOf "creator", bytesOf "Seq", bytesOf "li"]
            && !(trimSpace d).isEmpty) && m.Author.isEmpty) = true
        then trimSpace d else m.Author := by
  by_cases hv : (trimSpace d).isEmpty = true
  · rw [charData_blank st m d hv]
    simp [hv]
  · by_cases h1 : stackHasSuffix st [bytesOf "creator", bytesOf "Seq", bytesOf "li"] = true
    · have o1 := @paths_other st _ [bytesOf "title", bytesOf "Alt", bytesOf "li"]
        (by decide) (by decide) (by decide) h1
      simp only [unmarshalCharData, hv, h1, o1, Bool.false_eq_true, ↓reduceIte]
      split <;> simp_all
    · simp only [unmarshalCharData, hv, h1, Bool.false_eq_true, ↓reduceIte, Bool.false_and]
      repeat' split
      all_goals rfl

theorem step_subject (st : List Bytes) (m : Metadata) (d : Bytes) :
    (unmarshalCharData st m d).Subject
      = if ((stackHasSuffix st [bytesOf "description", bytesOf "Alt", bytesOf "li"]
            && !(trimSpace d).isEmpty) && m.Subject.isEmpty) = true
        then trimSpace d else m.Subject := by
  by_cases hv : (trimSpace d).isEmpty = true
  · rw [charData_blank st m d hv]
    simp [hv]
  · by_cases h1 : stackHasSuffix st [bytesOf "description", bytesOf "Alt", bytesOf "li"] = true
    · have o1 := @paths_other st _ [bytesOf "title", bytesOf "Alt", bytesOf "li"]
        (by decide) (by decide) (by decide) h1
      have o2 := @paths_other st _ [bytesOf "creator", bytesOf "Seq", bytesOf "li"]
        (by decide) (by decide) (by decide) h1
      simp only [unmarshalCharData, hv, h1, o1, o2, Bool.false_eq_true, ↓reduceIte]
      split <;> simp_all
    · simp only [unmarshalCharData, hv, h1, Bool.false_eq_true, ↓reduceIte, Bool.false_and]
      repeat' split
      all_goals rfl

/-- A run under one of the five paths of one name: the paths tested before it
do not match. -/
theorem step_single (st : List Bytes) (w : List Bytes)
    (hw : w ∈ fieldPaths) (h1 : stackHasSuffix st w = true) :
    ∀ w2 ∈ fieldPaths, w2 ≠ w → stackHasSuffix st w2 = false :=
  fun _ hw2 hne => paths_other hw hw2 (fun e => hne e.symm) h1

theorem step_keywords (st : List Bytes) (m : Metadata) (d : Bytes) :
    (unmarshalCharData st m d).Keywords
      = if (stackHasSuffix st [bytesOf "Keywords"] && !(trimSpace d).isEmpty) = true
        then trimSpace d else m.Keywords := by
  by_cases hv : (trimSpace d).isEmpty = true
  · rw [charData_blank st m d hv]
    simp [hv]
  · by_cases h1 : stackHasSuffix st [bytesOf "Keywords"] = true
    · have o := step_single st [bytesOf "Keywords"] (by decide) h1
      have o1 := o [bytesOf "title", bytesOf "Alt", bytesOf "li"] (by decide) (by decide)
      have o2 := o [bytesOf "creator", bytesOf "Seq", bytesOf "li"] (by decide) (by decide)
      have o3 := o [bytesOf "description", bytesOf "Alt", bytesOf "li"] (by decide) (by decide)
      simp only [unmarshalCharData, hv, h1, o1, o2, o3, Bool.false_eq_true,
        ↓reduceIte, Bool.true_and, Bool.not_false]
    · simp only [unmarshalCharData, hv, h1, Bool.false_eq_true, ↓reduceIte, Bool.false_and]
      repeat' split
      all_goals rfl

theorem step_creator (st : List Bytes) (m : Metadata) (d : Bytes) :
    (unmarshalCharData st m d).Creator
      = if (stackHasSuffix st [bytesOf "CreatorTool"] && !(trimSpace d).isEmpty) = true
        then trimSpace d else m.Creator := by
  by_cases hv : (trimSpace d).isEmpty = true
  · rw [charData_blank st m d hv]
    simp [hv]
  · by_cases h1 : stackHasSuffix st [bytesOf "CreatorTool"] = true
    · have o := step_single st [bytesOf "CreatorTool"] (by decide) h1
      have o1 := o [bytesOf "title", bytesOf "Alt", bytesOf "li"] (by decide) (by decide)
      have o2 := o [bytesOf "creator", bytesOf "Seq", bytesOf "li"] (by decide) (by decide)
      have o3 := o [bytesOf "description", bytesOf "Alt", bytesOf "li"] (by decide) (by decide)
      have o4 := o [bytesOf "Keywords"] (by decide) (by decide)
      simp only [unmarshalCharData, hv, h1, o1, o2, o3, o4, Bool.false_eq_true,
        ↓reduceIte, Bool.true_and, Bool.not_false]
    · simp only [unmarshalCharData, hv, h1, Bool.false_eq_true, ↓reduceIte, Bool.false_and]
      repeat' split
      all_goals rfl

theorem step_producer (st : List Bytes) (m : Metadata) (d : Bytes) :
    (unmarshalCharData st m d).Producer
      = if (stackHasSuffix st [bytesOf "Producer"] && !(trimSpace d).isEmpty) = true
        then trimSpace d else m.Producer := by
  by_cases hv : (trimSpace d).isEmpty = true
  · rw [charData_blank st m d hv]
    simp [hv]
  · by_cases h1 : stackHasSuffix st [bytesOf "Producer"] = true
    · have o := step_single st [bytesOf "Producer"] (by decide) h1
      have o1 := o [bytesOf "title", bytesOf "Alt", bytesOf "li"] (by decide) (by decide)
      have o2 := o [bytesOf "creator", bytesOf "Seq", bytesOf "li"] (by decide) (by decide)
      have o3 := o [bytesOf "description", bytesOf "Alt", bytesOf "li"] (by decide) (by decide)
      have o4 := o [bytesOf "Keywords"] (by decide) (by decide)
      have o5 := o [bytesOf "CreatorTool"] (by decide) (by decide)
      simp only [unmarshalCharData, hv, h1, o1, o2, o3, o4, o5, Bool.false_eq_true,
        ↓reduceIte, Bool.true_and, Bool.not_false]
    · simp only [unmarshalCharData, hv, h1, Bool.false_eq_true, ↓reduceIte, Bool.false_and]
      repeat' split
      all_goals rfl

theorem step_creationDate (st : List Bytes) (m : Metadata) (d : Bytes) :
    (unmarshalCharData st m d).CreationDate
      = if (stackHasSuffix st [bytesOf "CreateDate"] && !(trimSpace d).isEmpty) = true
        then trimSpace d else m.CreationDate := by
  by_cases hv : (trimSpace d).isEmpty = true
  · rw [charData_blank st m d hv]
    simp [hv]
  · by_cases h1 : stackHasSuffix st [bytesOf "CreateDate"] = true
    · have o := step_single st [bytesOf "CreateDate"] (by decide) h1
      have o1 := o [bytesOf "title", bytesOf "Alt", bytesOf "li"] (by decide) (by decide)
      have o2 := o [bytesOf "creator", bytesOf "Seq", bytesOf "li"] (by decide) (by decide)
      have o3 := o [bytesOf "description", bytesOf "Alt", bytesOf "li"] (by decide) (by decide)
      have o4 := o [bytesOf "Keywords"] (by decide) (by decide)
      have o5 := o [bytesOf "CreatorTool"] (by decide) (by decide)
      have o6 := o [bytesOf "Producer"] (by decide) (by decide)
      simp only [unmarshalCharData, hv, h1, o1, o2, o3, o4, o5, o6, Bool.false_eq_true,
        ↓reduceIte, Bool.true_and, Bool.not_false]
    · simp only [unmarshalCharData, hv, h1, Bool.false_eq_true, ↓reduceIte, Bool.false_and]
      repeat' split
      all_goals rfl

theorem step_modDate (st : List Bytes) (m : Metadata) (d : Bytes) :
    (unmarshalCharData st m d).ModDate
      = if (stackHasSuffix st [bytesOf "ModifyDate"] && !(trimSpace d).isEmpty) = true
        then trimSpace d else m.ModDate := by
  by_cases hv : (trimSpace d).isEmpty = true
  · rw [charData_blank st m d hv]
    simp [hv]
  · by_cases h1 : stackHasSuffix st [bytesOf "ModifyDate"] = true
    · have o := step_single st [bytesOf "ModifyDate"] (by decide) h1
      have o1 := o [bytesOf "title", bytesOf "Alt", bytesOf "li"] (by decide) (by decide)
      have o2 := o [bytesOf "creator", bytesOf "Seq", bytesOf "li"] (by decide) (by decide)
      have o3 := o [bytesOf "description", bytesOf "Alt", bytesOf "li"] (by decide) (by decide)
      have o4 := o [bytesOf "Keywords"] (by decide) (by decide)
      have o5 := o [bytesOf "CreatorTool"] (by decide) (by decide)
      have o6 := o [bytesOf "Producer"] (by decide) (by decide)
      have o7 := o [bytesOf "CreateDate"] (by decide) (by decide)
      simp only [unmarshalCharData, hv, h1, o1, o2, o3, o4, o5, o6, o7, Bool.false_eq_true,
        ↓reduceIte, Bool.true_and, Bool.not_false]
    · simp only [unmarshalCharData, hv, h1, Bool.false_eq_true, ↓reduceIte, Bool.false_and]
      repeat' split
      all_goals rfl

/-- C26: for a packet that the reader reads to its end, with the tokens `ts`
among which an `xmpmeta` element starts, `Unmarshal` returns the record that
the runs of character data make one after the other, each under the stack of
the local names of the elements open around it.  In that record Title, Author
and Subject are the first run that is not white space only and stands under a
stack ending with `title/Alt/li`, `creator/Seq/li`, `description/Alt/li`;
Keywords, Creator, Producer, CreationDate and ModDate are the last such run
under a stack ending with `Keywords`, `CreatorTool`, `Producer`, `CreateDate`,
`ModifyDate`; each value is the run trimmed, and a field without such a run is
empty. -/
theorem c26_unmarshal_runs (env : XmlEnv) (packet : Bytes) (ts : List XmlToken)
    (hts : tokensOf env packet = some ts) (hx : ts.any isXmpmetaStart = true) :
    ∃ m, Unmarshal env packet = .ok m
      ∧ m = (textRuns ts []).foldl (fun m r => unmarshalCharData r.1 m r.2) {}
      ∧ m.Title = firstRun [bytesOf "title", bytesOf "Alt", bytesOf "li"] (textRuns ts [])
      ∧ m.Author = firstRun [bytesOf "creator", bytesOf "Seq", bytesOf "li"] (textRuns ts [])
      ∧ m.Subject = firstRun [bytesOf "description", bytesOf "Alt", bytesOf "li"] (textRuns ts [])
      ∧ m.Keywords = lastRun [bytesOf "Keywords"] (textRuns ts [])
      ∧ m.Creator = lastRun [bytesOf "CreatorTool"] (textRuns ts [])
      ∧ m.Producer = lastRun [bytesOf "Producer"] (textRuns ts [])
      ∧ m.CreationDate = lastRun [bytesOf "CreateDate"] (textRuns ts [])
      ∧ m.ModDate = lastRun [bytesOf "ModifyDate"] (textRuns ts []) := by
  have hl : ∀ (get : Metadata → Bytes) (path : List Bytes) (runs : List (List Bytes × Bytes)),
      get {} = [] →
      (if runsAt path runs = [] then get {} else lastRun path runs) = lastRun path runs := by
    intro get path runs h0
    split
    · rename_i h
      rw [h0]
      simp [lastRun, h]
    · rfl
  refine ⟨_, unmarshalLoop_runs env _ packet [] [] {} false ts hts (by simpa using hx), rfl,
    ?_, ?_, ?_, ?_, ?_, ?_, ?_, ?_⟩
  · rw [fold_first (fun m => m.Title) _ step_title]
    rfl
  · rw [fold_first (fun m => m.Author) _ step_author]
    rfl
  · rw [fold_first (fun m => m.Subject) _ step_subject]
    rfl
  · rw [fold_last (fun m => m.Keywords) _ step_keywords]
    exact hl (fun m => m.Keywords) _ _ rfl
  · rw [fold_last (fun m => m.Creator) _ step_creator]
    exact hl (fun m => m.Creator) _ _ rfl
  · rw [fold_last (fun m => m.Producer) _ step_producer]
    exact hl (fun m => m.Producer) _ _ rfl
  · rw [fold_last (fun m => m.CreationDate) _ step_creationDate]
    exact hl (fun m => m.CreationDate) _ _ rfl
  · rw [fold_last (fun m => m.ModDate) _ step_modDate]
    exact hl (fun m => m.ModDate) _ _ rfl

/-- C26 on a packet with two runs for Title and two for Keywords: the first
Title and the last Keywords are kept, both trimmed, and the text of an
element outside the paths sets nothing. -/
theorem c26_witness :
    Unmarshal asciiEnv repeatedFields
        = .ok { Title := bytesOf "first", Keywords := bytesOf "k2" }
      ∧ tokensOf asciiEnv repeatedFields = some repeatedFieldsTokens
      ∧ runsAt [bytesOf "title", bytesOf "Alt", bytesOf "li"] (textRuns repeatedFieldsTokens [])
          = [bytesOf "first", bytesOf "second"]
      ∧ runsAt [bytesOf "Keywords"] (textRuns repeatedFieldsTokens []) = [bytesOf "k1", bytesOf "k2"]
      ∧ ∃ m, Unmarshal asciiEnv repeatedFields = .ok m
        ∧ m = (textRuns repeatedFieldsTokens []).foldl (fun m r => unmarshalCharData r.1 m r.2) {}
        ∧ m.Title = firstRun [bytesOf "title", bytesOf "Alt", bytesOf "li"]
            (textRuns repeatedFieldsTokens [])
        ∧ m.Author = firstRun [bytesOf "creator", bytesOf "Seq", bytesOf "li"]
            (textRuns repeatedFieldsTokens [])
        ∧ m.Subject = firstRun [bytesOf "description", bytesOf "Alt", bytesOf "li"]
            (textRuns repeatedFieldsTokens [])
        ∧ m.Keywords = lastRun [bytesOf "Keywords"] (textRuns repeatedFieldsTokens [])
        ∧ m.Creator = lastRun [bytesOf "CreatorTool"] (textRuns repeatedFieldsTokens [])
        ∧ m.Producer = lastRun [bytesOf "Producer"] (textRuns repeatedFieldsTokens [])
        ∧ m.CreationDate = lastRun [bytesOf "CreateDate"] (textRuns repeatedFieldsTokens [])
        ∧ m.ModDate = lastRun [bytesOf "ModifyDate"] (textRuns repeatedFieldsTokens []) :=
  ⟨by decide!, by decide!, by decide!, by decide!,
    c26_unmarshal_runs asciiEnv repeatedFields repeatedFieldsTokens (by decide!) (by decide!)⟩

/-! ### `Upsert` -/

theorem index_isSome_of_occurs {s sep : Bytes} {i : Nat} (h : occursAt s sep i = true) :
    ∃ k, index s sep = some k ∧ k ≤ i := by
  cases hi : index s sep with
  | none =>
    have := index_none hi i
    unfold occursAt at h
    rw [this] at h
    cases h
  | some k =>
    refine ⟨k, rfl, ?_⟩
    by_contra hlt
    have := (index_some hi).2.2 i (by omega)
    unfold occursAt at h
    rw [this] at h
    cases h

/-- C27: when `<x:xmpmeta` stands in `b` with `</x:xmpmeta>` at or behind it,
`Upsert` replaces the bytes from the first `<x:xmpmeta` through the first
`</x:xmpmeta>` at or behind it by `Marshal m`; otherwise it puts `Marshal m`
right before the last `%%EOF`, and at the end of `b` when `b` has no `%%EOF`.
The bytes of `b` outside the replaced region stay as they are. -/
theorem c27_upsert (b : Bytes) (m : Metadata) :
    ((∃ i j, i ≤ j ∧ occursAt b xmpOpenTag i = true ∧ occursAt b xmpCloseTag j = true) →
        ∃ s e, occursAt b xmpOpenTag s = true ∧ (∀ k, k < s → occursAt b xmpOpenTag k = false)
          ∧ occursAt b xmpCloseTag (s + e) = true
          ∧ (∀ k, k < e → occursAt b xmpCloseTag (s + k) = false)
          ∧ Upsert b m = b.take s ++ Marshal m ++ b.drop (s + e + 12))
      ∧ ((¬ ∃ i j, i ≤ j ∧ occursAt b xmpOpenTag i = true ∧ occursAt b xmpCloseTag j = true) →
          (∀ eof, occursAt b (bytesOf "%%EOF") eof = true →
              (∀ k, eof < k → occursAt b (bytesOf "%%EOF") k = false) →
              Upsert b m = b.take eof ++ Marshal m ++ b.drop eof)
            ∧ ((∀ k, occursAt b (bytesOf "%%EOF") k = false) → Upsert b m = b ++ Marshal m)) := by
  have hlen : xmpCloseTag.length = 12 := by decide
  constructor
  · rintro ⟨i, j, hij, hopen, hclose⟩
    obtain ⟨s, hs, hsi⟩ := index_isSome_of_occurs hopen
    have hclose2 : occursAt (b.drop s) xmpCloseTag (j - s) = true := by
      unfold occursAt at hclose ⊢
      rw [List.drop_drop, show s + (j - s) = j by omega]
      exact hclose
    obtain ⟨e, he, _⟩ := index_isSome_of_occurs hclose2
    obtain ⟨o1, _, o3⟩ := index_some hs
    obtain ⟨c1, _, c3⟩ := index_some he
    refine ⟨s, e, o1, o3, ?_, ?_, ?_⟩
    · unfold occursAt
      rw [← List.drop_drop]
      exact c1
    · intro k hk
      have := c3 k hk
      unfold occursAt
      rw [← List.drop_drop]
      exact this
    · unfold Upsert
      simp only [hs, he, hlen]
      rw [show e + (s + 12) = s + e + 12 by omega]
  · intro hno
    have hrep : (match index b xmpOpenTag with
        | none => (none : Option Bytes)
        | some start =>
          match index (b.drop start) xmpCloseTag with
          | none => none
          | some e =>
            some (b.take start ++ Marshal m ++ b.drop (e + (start + xmpCloseTag.length)))) = none := by
      cases hs : index b xmpOpenTag with
      | none => rfl
      | some s =>
        cases he : index (b.drop s) xmpCloseTag with
        | none => simp only [he]
        | some e =>
          exfalso
          apply hno
          refine ⟨s, s + e, by omega, (index_some hs).1, ?_⟩
          have := (index_some he).1
          unfold occursAt
          rw [← List.drop_drop]
          exact this
    constructor
    · intro eof hocc hlast
      have hl := lastIndex_eq_of_last (by decide) hocc hlast
      unfold Upsert
      simp only [hrep, hl]
    · intro habs
      have hl := lastIndex_eq_none_of_absent habs
      unfold Upsert
      simp only [hrep, hl]

/-- C27 on the inputs of the tests: a packet is appended where there is no
`%%EOF`, put before `%%EOF` where there is one, and a second `Upsert` replaces
the element of the first. -/
theorem c27_examples :
    Upsert (bytesOf "%PDF-1.4\n") {} = bytesOf "%PDF-1.4\n" ++ Marshal {}
      ∧ Upsert (bytesOf "%PDF-1.4\n%%EOF") {} = bytesOf "%PDF-1.4\n" ++ Marshal {} ++ bytesOf "%%EOF"
      ∧ Upsert (bytesOf "a<x:xmpmeta>old</x:xmpmeta>b") {}
          = bytesOf "a" ++ Marshal {} ++ bytesOf "b" := by
  decide!

/-! ### The PDF date pattern -/

theorem twoDigits_some {s r : Bytes} (h : twoDigits s = some r) :
    ∃ a b, s = a :: b :: r ∧ isDigit a = true ∧ isDigit b = true := by
  match s, h with
  | a :: b :: rest, h =>
    simp only [twoDigits] at h
    split at h
    · rename_i hd
      cases h
      simp only [Bool.and_eq_true] at hd
      exact ⟨a, b, rfl, hd.1, hd.2⟩
    · cases h

theorem twoDigits_cons (a b : Nat) (r : Bytes) (ha : isDigit a = true) (hb : isDigit b = true) :
    twoDigits (a :: b :: r) = some r := by
  simp [twoDigits, ha, hb]

theorem takeWhile_two (a b : Nat) (r : Bytes) (ha : isDigit a = true) (hb : isDigit b = true) :
    ((a :: b :: r).takeWhile isDigit).length = (r.takeWhile isDigit).length + 2
      ∧ (a :: b :: r).dropWhile isDigit = r.dropWhile isDigit := by
  simp [List.takeWhile_cons, List.dropWhile_cons, ha, hb]

theorem two_of_takeWhile {s : Bytes} (h : 2 ≤ (s.takeWhile isDigit).length) :
    ∃ a b r, s = a :: b :: r ∧ isDigit a = true ∧ isDigit b = true := by
  match s with
  | [] => simp at h
  | [a] =>
    simp only [List.takeWhile_cons] at h
    split at h <;> simp at h
  | a :: b :: r =>
    cases ha : isDigit a
    · simp [List.takeWhile_cons, ha] at h
    · cases hb : isDigit b
      · simp [List.takeWhile_cons, ha, hb] at h
      · exact ⟨a, b, r, rfl, ha, hb⟩

theorem dropWhile_of_takeWhile_nil {s : Bytes} (h : (s.takeWhile isDigit).length = 0) :
    s.dropWhile isDigit = s := by
  cases s with
  | nil => rfl
  | cons a r =>
    cases ha : isDigit a
    · simp [List.dropWhile_cons, ha]
    · simp [List.takeWhile_cons, ha] at h

theorem tzSuffix_head {z : Bytes} (h : tzSuffix z = true) :
    (z.takeWhile isDigit).length = 0 ∧ z.dropWhile isDigit = z := by
  have key : ∃ c r, z = c :: r ∧ isDigit c = false := by
    unfold tzSuffix at h
    simp only [Bool.or_eq_true, beq_iff_eq] at h
    rcases h with (h | h) | h
    · exact ⟨90, [], h, by decide⟩
    · exact ⟨122, [], h, by decide⟩
    · cases z with
      | nil => simp at h
      | cons c r =>
        simp only [Bool.and_eq_true, Bool.or_eq_true, beq_iff_eq] at h
        refine ⟨c, r, rfl, ?_⟩
        rcases h.1 with h1 | h1 <;> subst h1 <;> decide
  obtain ⟨c, r, rfl, hc⟩ := key
  simp [List.takeWhile_cons, List.dropWhile_cons, hc]

/-- The nested groups match exactly an even number of digits, at most
`2 * depth`, up to the end, and behind `2 * depth` digits also a time zone. -/
theorem optDigitPairs_iff :
    ∀ (depth : Nat) (s : Bytes),
      optDigitPairs depth s = true ↔
        (((s.takeWhile isDigit).length % 2 = 0 ∧ (s.takeWhile isDigit).length < 2 * depth
            ∧ s.dropWhile isDigit = [])
          ∨ ((s.takeWhile isDigit).length = 2 * depth
            ∧ (s.dropWhile isDigit = [] ∨ tzSuffix (s.dropWhile isDigit) = true))) := by
  intro depth
  induction depth with
  | zero =>
    intro s
    simp only [optDigitPairs, Bool.or_eq_true, beq_iff_eq, Nat.mul_zero, Nat.not_lt_zero,
      false_and, and_false, false_or]
    constructor
    · rintro (rfl | h)
      · simp
      · obtain ⟨h1, h2⟩ := tzSuffix_head h
        exact ⟨h1, Or.inr (by rw [h2]; exact h)⟩
    · rintro ⟨h1, h2⟩
      rw [dropWhile_of_takeWhile_nil h1] at h2
      exact h2
  | succ k ih =>
    intro s
    simp only [optDigitPairs, Bool.or_eq_true, beq_iff_eq]
    constructor
    · rintro (rfl | h)
      · left; simp
      · cases ht : twoDigits s with
        | none => rw [ht] at h; cases h
        | some r =>
          rw [ht] at h
          obtain ⟨a, b, rfl, ha, hb⟩ := twoDigits_some ht
          obtain ⟨e1, e2⟩ := takeWhile_two a b r ha hb
          rw [e1, e2]
          rcases (ih r).1 h with ⟨h1, h2, h3⟩ | ⟨h1, h2⟩
          · left; exact ⟨by omega, by omega, h3⟩
          · right; exact ⟨by omega, h2⟩
    · intro h
      by_cases hn : (s.takeWhile isDigit).length = 0
      · left
        rcases h with ⟨_, _, h3⟩ | ⟨h1, _⟩
        · rw [dropWhile_of_takeWhile_nil hn] at h3; exact h3
        · omega
      · right
        have h2 : 2 ≤ (s.takeWhile isDigit).length := by
          rcases h with ⟨h1, _, _⟩ | ⟨h1, _⟩ <;> omega
        obtain ⟨a, b, r, rfl, ha, hb⟩ := two_of_takeWhile h2
        obtain ⟨e1, e2⟩ := takeWhile_two a b r ha hb
        rw [twoDigits_cons a b r ha hb]
        rw [e1, e2] at h
        apply (ih r).2
        rcases h with ⟨h1, h2, h3⟩ | ⟨h1, h2⟩
        · left; exact ⟨by omega, by omega, h3⟩
        · right; exact ⟨by omega, h2⟩

/-- The pattern of `DateString` matches exactly the PDF dates of the specification. -/
theorem pdfDatePatternMatch_eq_spec (s : Bytes) : pdfDatePatternMatch s = specPdfDate s := by
  rw [Bool.eq_iff_iff]
  unfold specPdfDate
  simp only [Bool.and_eq_true, Bool.or_eq_true, beq_iff_eq]
  constructor
  · intro h
    match s, h with
    | 68 :: 58 :: a :: b :: c :: d :: rest, h =>
      simp only [pdfDatePatternMatch, Bool.and_eq_true] at h
      obtain ⟨⟨⟨⟨ha, hb⟩, hc⟩, hd⟩, hr⟩ := h
      refine ⟨rfl, ?_⟩
      have e1 : ((68 :: 58 :: a :: b :: c :: d :: rest : Bytes).drop 2) = a :: b :: c :: d :: rest := rfl
      rw [e1]
      obtain ⟨f1, f2⟩ := takeWhile_two a b (c :: d :: rest) ha hb
      obtain ⟨g1, g2⟩ := takeWhile_two c d rest hc hd
      rw [f1, f2, g1, g2]
      rcases (optDigitPairs_iff 5 rest).1 hr with ⟨h1, h2, h3⟩ | ⟨h1, h2⟩
      · left
        refine ⟨?_, h3⟩
        omega
      · right
        exact ⟨by omega, h2⟩
  · rintro ⟨hp, h⟩
    have hlen : 4 ≤ ((s.drop 2).takeWhile isDigit).length := by
      rcases h with ⟨h1, _⟩ | ⟨h1, _⟩ <;> omega
    obtain ⟨t, ht⟩ := (hasPrefix_iff _ _).1 hp
    have hs : s = 68 :: 58 :: t := by rw [← ht]; rfl
    subst hs
    have e1 : ((68 :: 58 :: t : Bytes).drop 2) = t := rfl
    rw [e1] at h hlen
    obtain ⟨a, b, r, rfl, ha, hb⟩ := two_of_takeWhile (by omega : 2 ≤ (t.takeWhile isDigit).length)
    obtain ⟨f1, f2⟩ := takeWhile_two a b r ha hb
    rw [f1, f2] at h
    rw [f1] at hlen
    obtain ⟨c, d, rest, rfl, hc, hd⟩ := two_of_takeWhile (by omega : 2 ≤ (r.takeWhile isDigit).length)
    obtain ⟨g1, g2⟩ := takeWhile_two c d rest hc hd
    rw [g1, g2] at h
    simp only [pdfDatePatternMatch, ha, hb, hc, hd, Bool.and_self, Bool.true_and]
    apply (optDigitPairs_iff 5 rest).2
    rcases h with ⟨h1, h3⟩ | ⟨h1, h2⟩
    · left; exact ⟨by omega, by omega, h3⟩
    · right; exact ⟨by omega, h2⟩

/-! ### `DateString` and `normalizeDate` -/

theorem DateString_ok_iff (env : TimeEnv) (v : Bytes) :
    DateString env v = .ok () ↔
      (trimSpace v ≠ [] ∧ (env.parsesRFC3339 (trimSpace v) = true
        ∨ specPdfDate (trimSpace v) = true)) := by
  unfold DateString
  rw [← pdfDatePatternMatch_eq_spec]
  cases ht : trimSpace v with
  | nil => simp
  | cons c t =>
    simp only [List.isEmpty_cons, Bool.false_eq_true, ↓reduceIte, ne_eq, reduceCtorEq,
      not_false_eq_true, true_and]
    cases h1 : env.parsesRFC3339 (c :: t)
    · cases h2 : pdfDatePatternMatch (c :: t) <;> simp
    · simp

/-- C28: `DateString` accepts a value exactly when its trimmed form is not
empty and is an RFC3339 text for `time.Parse` or a PDF date: `D:`, then 4, 6,
8, 10, 12 or 14 digits, the last form with an optional `Z`, `z` or offset.
It rejects the empty string, white space, `2026/02/17` and `D:20`. -/
theorem c28_dateString (env : TimeEnv) (v : Bytes) :
    (DateString env v = .ok () ↔
      (trimSpace v ≠ [] ∧ (env.parsesRFC3339 (trimSpace v) = true
        ∨ specPdfDate (trimSpace v) = true)))
      ∧ DateString env [] ≠ .ok ()
      ∧ DateString env (bytesOf "   ") ≠ .ok ()
      ∧ DateString env (bytesOf "2026/02/17") ≠ .ok ()
      ∧ DateString env (bytesOf "D:20") ≠ .ok () := by
  refine ⟨DateString_ok_iff env v, ?_, ?_, ?_, ?_⟩
  · intro h0
    obtain ⟨h, _⟩ := (DateString_ok_iff env _).1 h0
    exact h (by decide)
  · intro h0
    obtain ⟨h, _⟩ := (DateString_ok_iff env _).1 h0
    exact h (by decide)
  · intro h0
    obtain ⟨_, h | h⟩ := (DateString_ok_iff env _).1 h0
    · have ht : trimSpace (bytesOf "2026/02/17") = bytesOf "2026/02/17" := by decide
      rw [ht] at h
      have := (env.rfc3339_begin _ h).2
      exact absurd this (by decide)
    · exact absurd h (by decide)
  · intro h0
    obtain ⟨_, h | h⟩ := (DateString_ok_iff env _).1 h0
    · have ht : trimSpace (bytesOf "D:20") = bytesOf "D:20" := by decide
      rw [ht] at h
      have := (env.rfc3339_begin _ h).1
      exact absurd this (by decide)
    · exact absurd h (by decide)

/-- C28 on the values of the test, with `fixedTimeEnv` for the library. -/
theorem c28_examples :
    DateString fixedTimeEnv (bytesOf "2026-02-17T22:00:00Z") = .ok ()
      ∧ DateString fixedTimeEnv (bytesOf "D:20260217220000Z") = .ok ()
      ∧ DateString fixedTimeEnv (bytesOf "D:20260217220000+02'00'") = .ok ()
      ∧ DateString fixedTimeEnv (bytesOf " D:2026 ") = .ok ()
      ∧ DateString fixedTimeEnv (bytesOf "D:202602Z") ≠ .ok ()
      ∧ DateString fixedTimeEnv (bytesOf "D:20260") ≠ .ok () := by
  decide!

theorem DateString_cases (env : TimeEnv) (v : Bytes) :
    DateString env v = .ok () ∨ ∃ msg, DateString env v = .error msg := by
  cases h : DateString env v with
  | ok u => exact Or.inl rfl
  | error msg => exact Or.inr ⟨msg, rfl⟩

/-- C29: in lenient mode `normalizeDate` never fails.  With `t` the trimmed
input: for an empty `t` the result is empty; when `DateString` accepts `t` the
result is `t`; otherwise it is the RFC3339 text in UTC of the first of the
four layouts that parses `t`, and `t` itself when none does. -/
theorem c29_normalizeDate_lenient (env : TimeEnv) (v : Bytes) :
    (∃ r, normalizeDate env v false = .ok r)
      ∧ (trimSpace v = [] → normalizeDate env v false = .ok ([], false))
      ∧ (trimSpace v ≠ [] → DateString env (trimSpace v) = .ok () →
          normalizeDate env v false = .ok (trimSpace v, trimSpace v != v))
      ∧ (trimSpace v ≠ [] → DateString env (trimSpace v) ≠ .ok () →
          normalizeDate env v false
            = (match env.parseFormat .dashDate (trimSpace v) with
               | some r => .ok (r, true)
               | none =>
                 match env.parseFormat .dashDateTime (trimSpace v) with
                 | some r => .ok (r, true)
                 | none =>
                   match env.parseFormat .slashDate (trimSpace v) with
                   | some r => .ok (r, true)
                   | none =>
                     match env.parseFormat .slashDateTime (trimSpace v) with
                     | some r => .ok (r, true)
                     | none => .ok (trimSpace v, false))) := by
  have hempty : trimSpace v = [] → normalizeDate env v false = .ok ([], false) := by
    intro h
    simp [normalizeDate, h]
  have hok : trimSpace v ≠ [] → DateString env (trimSpace v) = .ok () →
      normalizeDate env v false = .ok (trimSpace v, trimSpace v != v) := by
    intro hne h
    have : (trimSpace v).isEmpty = false := by
      cases ht : trimSpace v with
      | nil => exact absurd ht hne
      | cons _ _ => rfl
    simp [normalizeDate, this, h]
  have hrej : trimSpace v ≠ [] → DateString env (trimSpace v) ≠ .ok () →
      normalizeDate env v false
        = (match env.parseFormat .dashDate (trimSpace v) with
           | some r => .ok (r, true)
           | none =>
             match env.parseFormat .dashDateTime (trimSpace v) with
             | some r => .ok (r, true)
             | none =>
               match env.parseFormat .slashDate (trimSpace v) with
               | some r => .ok (r, true)
               | none =>
                 match env.parseFormat .slashDateTime (trimSpace v) with
                 | some r => .ok (r, true)
                 | none => .ok (trimSpace v, false)) := by
    intro hne h
    have he : (trimSpace v).isEmpty = false := by
      cases ht : trimSpace v with
      | nil => exact absurd ht hne
      | cons _ _ => rfl
    rcases DateString_cases env (trimSpace v) with hd | ⟨msg, hd⟩
    · exact absurd hd h
    · simp only [normalizeDate, he, Bool.false_eq_true, ↓reduceIte, hd, dateLayouts, firstLayout]
      cases env.parseFormat .dashDate (trimSpace v) with
      | some r => rfl
      | none =>
        cases env.parseFormat .dashDateTime (trimSpace v) with
        | some r => rfl
        | none =>
          cases env.parseFormat .slashDate (trimSpace v) with
          | some r => rfl
          | none =>
            cases env.parseFormat .slashDateTime (trimSpace v) with
            | some r => rfl
            | none => rfl
  refine ⟨?_, hempty, hok, hrej⟩
  by_cases hne : trimSpace v = []
  · exact ⟨_, hempty hne⟩
  · by_cases hd : DateString env (trimSpace v) = .ok ()
    · exact ⟨_, hok hne hd⟩
    · rw [hrej hne hd]
      cases env.parseFormat .dashDate (trimSpace v) with
      | some r => exact ⟨_, rfl⟩
      | none =>
        cases env.parseFormat .dashDateTime (trimSpace v) with
        | some r => exact ⟨_, rfl⟩
        | none =>
          cases env.parseFormat .slashDate (trimSpace v) with
          | some r => exact ⟨_, rfl⟩
          | none =>
            cases env.parseFormat .slashDateTime (trimSpace v) with
            | some r => exact ⟨_, rfl⟩
            | none => exact ⟨_, rfl⟩

/-- C29 on the example of the specification, with `fixedTimeEnv` for the library. -/
theorem c29_examples :
    normalizeDate fixedTimeEnv (bytesOf "2026/02/17") false
        = .ok (bytesOf "2026-02-17T00:00:00Z", true)
      ∧ normalizeDate fixedTimeEnv (bytesOf " 2026-02-17 10:20:30 ") false
        = .ok (bytesOf "2026-02-17T10:20:30Z", true)
      ∧ normalizeDate fixedTimeEnv (bytesOf "next week") false = .ok (bytesOf "next week", false)
      ∧ normalizeDate fixedTimeEnv (bytesOf " D:2026") false = .ok (bytesOf "D:2026", true)
      ∧ normalizeDate fixedTimeEnv (bytesOf "2026/02/30") false = .ok (bytesOf "2026/02/30", false) := by
  decide!

/-! ### `strings.TrimSpace` applied twice -/

theorem isSpaceRune_ascii {c : Nat} (hc : c < 0x80) : isSpaceRune c = isAsciiSpace c := by
  unfold isSpaceRune isAsciiSpace
  have h1 : (c == 0x85) = false := by simp; omega
  have h2 : (c == 0xA0) = false := by simp; omega
  have h3 : (c == 0x1680) = false := by simp; omega
  have h4 : (decide (0x2000 ≤ c) && decide (c ≤ 0x200A)) = false := by simp; omega
  have h5 : (c == 0x2028) = false := by simp; omega
  have h6 : (c == 0x2029) = false := by simp; omega
  have h7 : (c == 0x202F) = false := by simp; omega
  have h8 : (c == 0x205F) = false := by simp; omega
  have h9 : (c == 0x3000) = false := by simp; omega
  rw [h1, h2, h3, h4, h5, h6, h7, h8, h9]
  simp

theorem decodeRune_width_pos (b : Nat) (t : Bytes) : 1 ≤ (decodeRune (b :: t)).2 := by
  rcases decodeRune_cases b t with ⟨_, h⟩ | ⟨_, h⟩ | ⟨_, _, h, _⟩
  · rw [h]
  · rw [h]
  · omega

theorem decodeRune_take (u : Bytes) (k : Nat) :
    decodeRune (u.take k) = decodeRune u ∨ (decodeRune (u.take k)).1 = runeError := by
  cases u with
  | nil => left; simp
  | cons b0 rest =>
    cases k with
    | zero => right; rfl
    | succ k =>
      simp only [List.take_succ_cons]
      by_cases h1 : b0 < 0x80
      · left; simp [decodeRune, h1]
      by_cases h2 : b0 < 0xC2
      · left; simp [decodeRune, h1, h2]
      by_cases h3 : b0 < 0xE0
      · rcases rest with _ | ⟨b1, r⟩
        · left; simp
        · rcases k with _ | k
          · right; simp [decodeRune, h1, h2, h3]
          · left; simp [decodeRune, h1, h2, h3]
      by_cases h4 : b0 < 0xF0
      · rcases rest with _ | ⟨b1, _ | ⟨b2, r⟩⟩
        · left; simp
        · rcases k with _ | k
          · right; simp [decodeRune, h1, h2, h3, h4]
          · left; simp [decodeRune, h1, h2, h3, h4]
        · rcases k with _ | _ | k
          · right; simp [decodeRune, h1, h2, h3, h4]
          · right; simp [decodeRune, h1, h2, h3, h4]
          · left; simp [decodeRune, h1, h2, h3, h4]
      by_cases h5 : b0 < 0xF5
      · rcases rest with _ | ⟨b1, _ | ⟨b2, _ | ⟨b3, r⟩⟩⟩
        · left; simp
        · rcases k with _ | k
          · right; simp [decodeRune, h1, h2, h3, h4, h5]
          · left; simp [decodeRune, h1, h2, h3, h4, h5]
        · rcases k with _ | _ | k
          · right; simp [decodeRune, h1, h2, h3, h4, h5]
          · right; simp [decodeRune, h1, h2, h3, h4, h5]
          · left; simp [decodeRune, h1, h2, h3, h4, h5]
        · rcases k with _ | _ | _ | k
          · right; simp [decodeRune, h1, h2, h3, h4, h5]
          · right; simp [decodeRune, h1, h2, h3, h4, h5]
          · right; simp [decodeRune, h1, h2, h3, h4, h5]
          · left; simp [decodeRune, h1, h2, h3, h4, h5]
      · left; simp [decodeRune, h1, h2, h3, h4, h5]

theorem first_rune_take {u : Bytes} (h : isSpaceRune (decodeRune u).1 = false) (k : Nat) :
    isSpaceRune (decodeRune (u.take k)).1 = false := by
  rcases decodeRune_take u k with h1 | h1
  · rw [h1]; exact h
  · rw [h1]; decide

theorem lastRuneStart_lt {s : Bytes} (h : s ≠ []) : lastRuneStart s < s.length := by
  have hl : 0 < s.length := List.length_pos.2 h
  unfold lastRuneStart
  simp only
  split
  · omega
  · split
    · omega
    · split
      · omega
      · split
        · omega
        · split
          · omega
          · split
            · omega
            · omega

theorem decodeLastRune_width {s : Bytes} (h : s ≠ []) :
    1 ≤ (decodeLastRune s).2 ∧ (decodeLastRune s).2 ≤ s.length := by
  have hl : 0 < s.length := List.length_pos.2 h
  unfold decodeLastRune
  cases hg : s.getLast? with
  | none => simp [List.getLast?_eq_none_iff] at hg; exact absurd hg h
  | some c =>
    simp only
    split
    · exact ⟨Nat.le_refl _, hl⟩
    · split
      · exact ⟨Nat.le_refl _, hl⟩
      · rename_i hne
        have hstart := lastRuneStart_lt h
        have heq : lastRuneStart s + (decodeRune (s.drop (lastRuneStart s))).2 = s.length := by
          simpa using hne
        cases hd : s.drop (lastRuneStart s) with
        | nil =>
          have := congrArg List.length hd
          simp at this
          omega
        | cons b t =>
          rw [hd] at heq
          have := decodeRune_width_pos b t
          exact ⟨this, by omega⟩

theorem trimLeftFunc_spec :
    ∀ (fuel : Nat) (s : Bytes), s.length ≤ fuel →
      trimLeftFunc fuel s = [] ∨ isSpaceRune (decodeRune (trimLeftFunc fuel s)).1 = false := by
  intro fuel
  induction fuel with
  | zero =>
    intro s hs
    have : s = [] := List.length_eq_zero.1 (by omega)
    subst this
    left; rfl
  | succ n ih =>
    intro s hs
    cases s with
    | nil => left; rfl
    | cons b t =>
      simp only [trimLeftFunc]
      cases hsp : isSpaceRune (decodeRune (b :: t)).1
      · right; simp [hsp]
      · simp only [↓reduceIte]
        apply ih
        have := decodeRune_width_pos b t
        simp only [List.length_drop, List.length_cons] at hs ⊢
        omega

theorem trimRightFunc_spec :
    ∀ (fuel : Nat) (s : Bytes), s.length ≤ fuel →
      (trimRightFunc fuel s = [] ∨ isSpaceRune (decodeLastRune (trimRightFunc fuel s)).1 = false)
        ∧ ∃ k, trimRightFunc fuel s = s.take k := by
  intro fuel
  induction fuel with
  | zero =>
    intro s hs
    have : s = [] := List.length_eq_zero.1 (by omega)
    subst this
    exact ⟨Or.inl rfl, 0, rfl⟩
  | succ n ih =>
    intro s hs
    cases s with
    | nil => exact ⟨Or.inl rfl, 0, rfl⟩
    | cons b t =>
      simp only [trimRightFunc]
      cases hsp : isSpaceRune (decodeLastRune (b :: t)).1
      · simp only [Bool.false_eq_true, ↓reduceIte]
        exact ⟨Or.inr hsp, (b :: t).length, by simp⟩
      · simp only [↓reduceIte]
        have hw := decodeLastRune_width (s := b :: t) (by simp)
        obtain ⟨h1, k, h2⟩ := ih ((b :: t).take ((b :: t).length - (decodeLastRune (b :: t)).2)) (by
          simp only [List.length_take, List.length_cons] at hs ⊢
          omega)
        refine ⟨h1, min k ((b :: t).length - (decodeLastRune (b :: t)).2), ?_⟩
        rw [h2, List.take_take]

theorem trimSpaceEnd_spec :
    ∀ (l : Bytes),
      (trimSpaceEnd l = [] ∨ isSpaceRune (decodeLastRune (trimSpaceEnd l)).1 = false)
        ∧ ∃ k, trimSpaceEnd l = l.reverse.take k := by
  intro l
  induction l with
  | nil => exact ⟨Or.inl rfl, 0, rfl⟩
  | cons c rest ih =>
    simp only [trimSpaceEnd]
    split
    · have := trimRightFunc_spec (rest.length + 1) (c :: rest).reverse (by simp)
      exact this
    · rename_i hc
      split
      · obtain ⟨h1, k, h2⟩ := ih
        refine ⟨h1, min k rest.reverse.length, ?_⟩
        rw [h2, List.reverse_cons, List.take_append_eq_append_take]
        have : min k rest.reverse.length - rest.reverse.length = 0 := by omega
        rw [this]
        simp [List.take_take]
      · rename_i hsp
        refine ⟨Or.inr ?_, (c :: rest).length, by simp⟩
        have hlast : (c :: rest).reverse.getLast? = some c := by simp
        have hd : decodeLastRune (c :: rest).reverse = (c, 1) := by
          unfold decodeLastRune
          rw [hlast]
          simp only
          rw [if_pos (by omega)]
        rw [hd, isSpaceRune_ascii (by omega)]
        simpa using hsp

theorem isAsciiSpace_lt {c : Nat} (h : isAsciiSpace c = true) : c < 0x80 := by
  unfold isAsciiSpace at h
  simp only [Bool.or_eq_true, beq_iff_eq] at h
  omega

/-- A string that begins and ends with a rune that is not white space is
what `strings.TrimSpace` returns for it. -/
theorem trimSpace_of_trimmed {t : Bytes}
    (h1 : isSpaceRune (decodeRune t).1 = false) (h2 : isSpaceRune (decodeLastRune t).1 = false) :
    trimSpace t = t := by
  cases t with
  | nil => rfl
  | cons c rest =>
    simp only [trimSpace]
    split
    · have e1 : trimLeftFunc (rest.length + 1) (c :: rest) = c :: rest := by
        simp only [trimLeftFunc, h1, Bool.false_eq_true, ↓reduceIte]
      rw [e1]
      simp only [trimRightFunc, h2, Bool.false_eq_true, ↓reduceIte]
    · rename_i hc
      have hd : decodeRune (c :: rest) = (c, 1) := by
        simp only [decodeRune]
        rw [if_pos (by omega)]
      rw [hd, isSpaceRune_ascii (by omega)] at h1
      simp only at h1
      rw [h1]
      simp only [Bool.false_eq_true, ↓reduceIte]
      cases hr : (c :: rest).reverse with
      | nil => simp at hr
      | cons e r =>
        have hrev : (e :: r).reverse = c :: rest := by rw [← hr, List.reverse_reverse]
        simp only [trimSpaceEnd]
        split
        · rw [hrev]
          have hlen : r.length + 1 = (c :: rest).length := by
            have := congrArg List.length hr
            simp at this
            simp
            omega
          cases hrest : rest.length + 1 with
          | zero => omega
          | succ n =>
            rw [hlen]
            simp only [List.length_cons, trimRightFunc, h2, Bool.false_eq_true, ↓reduceIte]
        · rename_i he
          have hlast : (c :: rest).getLast? = some e := by
            rw [List.getLast?_eq_head?_reverse, hr]
            rfl
          have hdl : decodeLastRune (c :: rest) = (e, 1) := by
            unfold decodeLastRune
            rw [hlast]
            simp only
            rw [if_pos (by omega)]
          rw [hdl, isSpaceRune_ascii (by omega)] at h2
          simp only at h2
          rw [h2]
          simp only [Bool.false_eq_true, ↓reduceIte]
          exact hrev

/-- What `strings.TrimSpace` returns is empty or begins and ends with a rune
that is not white space. -/
theorem trimSpace_trimmed :
    ∀ (s : Bytes), trimSpace s = [] ∨
      (isSpaceRune (decodeRune (trimSpace s)).1 = false
        ∧ isSpaceRune (decodeLastRune (trimSpace s)).1 = false) := by
  intro s
  induction s with
  | nil => left; rfl
  | cons c rest ih =>
    simp only [trimSpace]
    split
    · have hL := trimLeftFunc_spec (rest.length + 1) (c :: rest) (by simp)
      have hlen : (trimLeftFunc (rest.length + 1) (c :: rest)).length ≤ rest.length + 1 := by
        have : ∀ (fuel : Nat) (s : Bytes), (trimLeftFunc fuel s).length ≤ s.length := by
          intro fuel
          induction fuel with
          | zero => intro s; simp [trimLeftFunc]
          | succ n ihn =>
            intro s
            cases s with
            | nil => simp [trimLeftFunc]
            | cons b t =>
              simp only [trimLeftFunc]
              split
              · exact Nat.le_trans (ihn _) (by simp)
              · exact Nat.le_refl _
        exact this _ _
      obtain ⟨hR, k, hk⟩ := trimRightFunc_spec (rest.length + 1)
        (trimLeftFunc (rest.length + 1) (c :: rest)) hlen
      rcases hR with hR | hR
      · left; exact hR
      · right
        refine ⟨?_, hR⟩
        rw [hk]
        rcases hL with hL | hL
        · rw [hL]; simp; decide
        · exact first_rune_take hL k
    · rename_i hc
      split
      · exact ih
      · rename_i hsp
        obtain ⟨hE, k, hk⟩ := trimSpaceEnd_spec (c :: rest).reverse
        rcases hE with hE | hE
        · left; exact hE
        · right
          refine ⟨?_, hE⟩
          rw [hk, List.reverse_reverse]
          apply first_rune_take
          have hd : decodeRune (c :: rest) = (c, 1) := by
            simp only [decodeRune]
            rw [if_pos (by omega)]
          rw [hd, isSpaceRune_ascii (by omega)]
          simpa using hsp

/-- Trimming what `strings.TrimSpace` returned changes nothing. -/
theorem trimSpace_idem (s : Bytes) : trimSpace (trimSpace s) = trimSpace s := by
  rcases trimSpace_trimmed s with h | ⟨h1, h2⟩
  · rw [h]; rfl
  · exact trimSpace_of_trimmed h1 h2

theorem DateString_trimSpace (env : TimeEnv) (v : Bytes) :
    DateString env (trimSpace v) = DateString env v := by
  unfold DateString
  rw [trimSpace_idem]

theorem isEmpty_false_of_ne {l : Bytes} (h : l ≠ []) : l.isEmpty = false := by
  cases l with
  | nil => exact absurd rfl h
  | cons _ _ => rfl

theorem normalizeDate_strict (env : TimeEnv) (v : Bytes) (hne : trimSpace v ≠ []) :
    normalizeDate env v true
      = (match DateString env v with
         | .ok _ => .ok (trimSpace v, trimSpace v != v)
         | .error _ => .error ⟨.ErrValidation, "invalid date format"⟩) := by
  unfold normalizeDate
  simp only [isEmpty_false_of_ne hne, Bool.false_eq_true, ↓reduceIte, DateString_trimSpace]

theorem metadataPatch_creation (env : TimeEnv) (p : MetadataPatch) (v : Bytes)
    (hne : trimSpace v ≠ []) (hc : p.CreationDate = some v) (hm : p.ModDate = none) :
    metadataPatch env p true
      = (match DateString env v with
         | .ok _ => .ok ()
         | .error e => .error (validationError ("creation-date " ++ e))) := by
  unfold metadataPatch
  simp only [hc, hm, dateValue, isEmpty_false_of_ne hne, Bool.false_eq_true, ↓reduceIte]
  cases DateString env v <;> rfl

theorem metadataPatch_mod (env : TimeEnv) (p : MetadataPatch) (v : Bytes)
    (hne : trimSpace v ≠ []) (hc : p.CreationDate = none) (hm : p.ModDate = some v) :
    metadataPatch env p true
      = (match DateString env v with
         | .ok _ => .ok ()
         | .error e => .error (validationError ("mod-date " ++ e))) := by
  unfold metadataPatch
  simp only [hc, hm, dateValue, isEmpty_false_of_ne hne, Bool.false_eq_true, ↓reduceIte]
  cases DateString env v <;> rfl

/-- C30: in strict mode, for a date value whose trimmed form is not empty,
`normalizeDate` fails, with the code `ErrValidation`, exactly when
`DateString` rejects the value, and returns the trimmed value when
`DateString` accepts it; `validate.SetRequest` on a strict request with a
valid destination whose patch has this value as its one date fails, with the
code `ErrValidation`, exactly when `DateString` rejects the value. -/
theorem c30_strict_dates (env : TimeEnv) (v : Bytes) (hne : trimSpace v ≠ []) :
    ((∃ msg, normalizeDate env v true = .error ⟨.ErrValidation, msg⟩)
        ↔ DateString env v ≠ .ok ())
      ∧ (∀ e, normalizeDate env v true = .error e → e.Code = .ErrValidation)
      ∧ (DateString env v = .ok () →
          normalizeDate env v true = .ok (trimSpace v, trimSpace v != v))
      ∧ (∀ req : SetRequest, ioOptions req.Io = .ok () → req.Strict = true →
          ((req.Changes.CreationDate = some v ∧ req.Changes.ModDate = none)
            ∨ (req.Changes.CreationDate = none ∧ req.Changes.ModDate = some v)) →
          ((∃ msg, validateSetRequest env req = .error ⟨.ErrValidation, msg⟩)
              ↔ DateString env v ≠ .ok ())
            ∧ (DateString env v = .ok () → validateSetRequest env req = .ok ())) := by
  have hn := normalizeDate_strict env v hne
  refine ⟨?_, ?_, ?_, ?_⟩
  · rw [hn]
    cases hd : DateString env v with
    | ok u => simp
    | error e => simp
  · intro e he
    rw [hn] at he
    cases hd : DateString env v with
    | ok u => rw [hd] at he; cases he
    | error m => rw [hd] at he; cases he; rfl
  · intro hd
    rw [hn, hd]
  · intro req hio hs hdates
    have hany : HasAnyPatchField req.Changes = true := by
      rcases hdates with ⟨h, _⟩ | ⟨_, h⟩ <;> simp [HasAnyPatchField, h]
    have hmp : metadataPatch env req.Changes true
        = (match DateString env v with
           | .ok _ => .ok ()
           | .error e => .error (validationError
              ((if req.Changes.CreationDate = some v then "creation-date " else "mod-date ") ++ e))) := by
      rcases hdates with ⟨h1, h2⟩ | ⟨h1, h2⟩
      · rw [metadataPatch_creation env _ v hne h1 h2, h1]
        simp
      · rw [metadataPatch_mod env _ v hne h1 h2, h1]
        simp
    unfold validateSetRequest
    rw [hio, hs, hmp]
    cases hd : DateString env v with
    | ok u => simp [hany]
    | error e => simp [validationError]

theorem c30_witness :
    trimSpace (bytesOf " 2026/02/17 ") ≠ []
      ∧ DateString fixedTimeEnv (bytesOf " 2026/02/17 ") ≠ .ok ()
      ∧ normalizeDate fixedTimeEnv (bytesOf " 2026/02/17 ") true
          = .error ⟨.ErrValidation, "invalid date format"⟩
      ∧ ∃ msg, validateSetRequest fixedTimeEnv (strictDateRequest (bytesOf " 2026/02/17 "))
          = .error ⟨.ErrValidation, msg⟩ :=
  ⟨by decide!, by decide!, by decide!,
    ((c30_strict_dates fixedTimeEnv (bytesOf " 2026/02/17 ") (by decide!)).2.2.2
      (strictDateRequest (bytesOf " 2026/02/17 ")) (by decide!) rfl (Or.inl ⟨rfl, rfl⟩)).1.2
      (by decide!)⟩

/-! ### Numbers printed with `%d` and read back with `strconv.Atoi` -/

theorem itoa_of_nonneg {x : Int} (h : 0 ≤ x) : itoa x = natDigits x.toNat := by
  unfold itoa
  rw [if_neg (by omega)]

theorem itoa_isDigit {x : Int} (h : 0 ≤ x) : ∀ c ∈ itoa x, isDigit c = true := by
  rw [itoa_of_nonneg h]
  exact natDigits_isDigit _

/-- A positive number is printed as a digit other than `0` and more digits. -/
theorem itoa_pos {x : Int} (h : 1 ≤ x) :
    ∃ d ds, itoa x = d :: ds ∧ isDigit d = true ∧ d ≠ 48 ∧ ∀ c ∈ ds, isDigit c = true := by
  have hd := itoa_isDigit (x := x) (by omega)
  rw [itoa_of_nonneg (by omega)] at hd ⊢
  have h5 := (natDigits_spec x.toNat).2 (by omega)
  cases hn : natDigits x.toNat with
  | nil => exact absurd hn (natDigits_ne_nil _)
  | cons d ds =>
    rw [hn] at hd h5
    refine ⟨d, ds, rfl, hd d (by simp), by simpa using h5, fun c hc => hd c (by simp [hc])⟩

theorem all_of_forall {f : Nat → Bool} {l : Bytes} (h : ∀ c ∈ l, f c = true) : l.all f = true :=
  List.all_eq_true.2 h

theorem atoi_itoa {x : Int} (h0 : 0 ≤ x) (h1 : x ≤ maxInt) : atoi (itoa x) = (x, true) := by
  have hd := itoa_isDigit h0
  have hne := itoa_ne_nil x
  have hv : digitsValue 0 (itoa x) = x.toNat := by
    rw [itoa_of_nonneg h0]; exact (natDigits_spec _).1
  cases hx : itoa x with
  | nil => exact absurd hx hne
  | cons d ds =>
    rw [hx] at hd hv
    have hdd := isDigit_range (hd d (by simp))
    have hall : (d :: ds).all isDigit = true := all_of_forall hd
    have h45 : hasPrefix (d :: ds) [45] = false := by
      simp only [hasPrefix, Bool.and_true, beq_eq_false_iff_ne, ne_eq]; omega
    have h43 : hasPrefix (d :: ds) [43] = false := by
      simp only [hasPrefix, Bool.and_true, beq_eq_false_iff_ne, ne_eq]; omega
    unfold atoi
    simp only [h45, h43, Bool.or_self, Bool.false_eq_true, ↓reduceIte, List.isEmpty_cons, hall,
      Bool.not_true, hv]
    have : ((x.toNat : Nat) : Int) = x := Int.toNat_of_nonneg h0
    rw [this, if_pos h1]

theorem itoa_inj {x y : Int} (hx : 0 ≤ x) (hx2 : x ≤ maxInt) (hy : 0 ≤ y) (hy2 : y ≤ maxInt)
    (h : itoa x = itoa y) : x = y := by
  have h1 := atoi_itoa hx hx2
  have h2 := atoi_itoa hy hy2
  rw [h] at h1
  rw [h1] at h2
  exact (Prod.mk.injEq _ _ _ _ ▸ h2).1

/-! ### `parseNamedRef` and `upsertNamedRef` -/

theorem namedRefAt_eq (name xs : Bytes) :
    namedRefAt name xs
      = (match skipLit (47 :: name) xs with
         | none => none
         | some r1 =>
           match skipSpaces1 r1 with
           | none => none
           | some r2 =>
             match takeDigits1 r2 with
             | none => none
             | some (d1, r3) =>
               match skipSpaces1 r3 with
               | none => none
               | some r4 =>
                 match takeDigits1 r4 with
                 | none => none
                 | some (d2, r5) =>
                   match skipSpaces1 r5 with
                   | none => none
                   | some r6 =>
                     match skipLit [82] r6 with
                     | none => none
                     | some r7 => some (d1, d2, r7)) := by
  unfold namedRefAt
  cases skipLit (47 :: name) xs with
  | none => rfl
  | some r1 =>
    simp only [Option.bind_eq_bind, Option.some_bind]
    cases skipSpaces1 r1 with
    | none => rfl
    | some r2 =>
      simp only [Option.some_bind]
      cases takeDigits1 r2 with
      | none => rfl
      | some p3 =>
        obtain ⟨d1, r3⟩ := p3
        simp only [Option.some_bind]
        cases skipSpaces1 r3 with
        | none => rfl
        | some r4 =>
          simp only [Option.some_bind]
          cases takeDigits1 r4 with
          | none => rfl
          | some p5 =>
            obtain ⟨d2, r5⟩ := p5
            simp only [Option.some_bind]
            cases skipSpaces1 r5 with
            | none => rfl
            | some r6 =>
              simp only [Option.some_bind]
              cases skipLit [82] r6 with
              | none => rfl
              | some r7 => rfl

theorem matchPieces_lits (lit : Bytes) (ps : List Piece) (xs : Bytes) :
    matchPieces (lit.map Piece.lit ++ ps) xs
      = (match skipLit lit xs with
         | none => none
         | some r => matchPieces ps r) := by
  induction lit generalizing xs with
  | nil => simp [skipLit, hasPrefix_nil]
  | cons c cs ih =>
    cases xs with
    | nil => simp [matchPieces, skipLit, hasPrefix]
    | cons x t =>
      simp only [List.map_cons, List.cons_append, matchPieces]
      by_cases hx : x = c
      · subst hx
        rw [if_pos rfl]
        show matchPieces (List.map Piece.lit cs ++ ps) t = _
        rw [ih]
        simp only [skipLit, hasPrefix, beq_self_eq_true, Bool.true_and, List.length_cons,
          List.drop_succ_cons]
      · rw [if_neg hx]
        simp [skipLit, hasPrefix, hx]

theorem matchPieces_spaces (ps : List Piece) (xs : Bytes) :
    matchPieces (.spaces :: ps) xs
      = (match skipSpaces1 xs with
         | none => none
         | some r => matchPieces ps r) := by
  cases xs with
  | nil => rfl
  | cons x t =>
    simp only [matchPieces, skipSpaces1]
    split <;> rfl

theorem matchPieces_digits (ps : List Piece) (xs : Bytes) :
    matchPieces (.digits :: ps) xs
      = (match takeDigits1 xs with
         | none => none
         | some (_, r) => matchPieces ps r) := by
  simp only [matchPieces, takeDigits1]
  split <;> rfl

/-- The scanner of `parseNamedRef` and the pieces stop at the same place. -/
theorem namedRefAt_pieces (name xs : Bytes) :
    (namedRefAt name xs).map (fun m => m.2.2) = matchPieces (namedRefPieces name) xs := by
  have h1 : namedRefPieces name = (47 :: name).map Piece.lit ++ refTailPieces := rfl
  rw [namedRefAt_eq, h1, matchPieces_lits]
  cases skipLit (47 :: name) xs with
  | none => rfl
  | some r1 =>
    simp only [refTailPieces]
    rw [matchPieces_spaces]
    cases skipSpaces1 r1 with
    | none => rfl
    | some r2 =>
      simp only
      rw [matchPieces_digits]
      cases takeDigits1 r2 with
      | none => rfl
      | some p3 =>
        obtain ⟨d1, r3⟩ := p3
        simp only
        rw [matchPieces_spaces]
        cases skipSpaces1 r3 with
        | none => rfl
        | some r4 =>
          simp only
          rw [matchPieces_digits]
          cases takeDigits1 r4 with
          | none => rfl
          | some p5 =>
            obtain ⟨d2, r5⟩ := p5
            simp only
            rw [matchPieces_spaces]
            cases skipSpaces1 r5 with
            | none => rfl
            | some r6 =>
              simp only
              have e : [Piece.lit 82] = [82].map Piece.lit ++ [] := rfl
              rw [e, matchPieces_lits]
              cases skipLit [82] r6 with
              | none => rfl
              | some r7 => rfl

theorem contains_iff_mem (l : Bytes) (a : Nat) : l.contains a = true ↔ a ∈ l := by simp

theorem ne_nil_of_isEmpty_false {α : Type} {l : List α} (h : l.isEmpty = false) : l ≠ [] := by
  cases l with
  | nil => simp at h
  | cons _ _ => simp

theorem dropWhile_append_all (p : Nat → Bool) (v s : Bytes) :
    (v ++ s).dropWhile p = if v.all p then s.dropWhile p else v.dropWhile p ++ s := by
  induction v with
  | nil => simp
  | cons x t ih =>
    by_cases hx : p x = true
    · simp only [List.cons_append, List.dropWhile_cons, hx, ↓reduceIte, ih, List.all_cons,
        Bool.true_and]
    · simp only [Bool.not_eq_true] at hx
      simp [List.dropWhile_cons, hx]

theorem isBlocked_cons {name : Bytes} {s : Bytes} (h : isBlocked name s = true) :
    ∃ x t, s = x :: t ∧ isDigit x = false ∧ (isReSpace x = true ∨ isStopper name x = true) := by
  cases s with
  | nil => simp [isBlocked] at h
  | cons x t =>
    refine ⟨x, t, rfl, ?_⟩
    by_cases hx : isReSpace x = true
    · refine ⟨?_, Or.inl hx⟩
      simp only [isReSpace, Bool.or_eq_true, beq_iff_eq] at hx
      simp only [isDigit, Bool.and_eq_false_imp, decide_eq_true_eq, decide_eq_false_iff_not]
      omega
    · simp only [Bool.not_eq_true] at hx
      simp only [isBlocked, List.dropWhile_cons, hx, Bool.false_eq_true, ↓reduceIte] at h
      refine ⟨?_, Or.inr h⟩
      simp only [isStopper, Bool.and_eq_true, Bool.not_eq_eq_eq_not, Bool.not_true] at h
      exact h.1.1.2

theorem isBlocked_dropWhile {name : Bytes} {s : Bytes} (h : isBlocked name s = true) :
    ∃ b t, s.dropWhile isReSpace = b :: t ∧ isStopper name b = true := by
  unfold isBlocked at h
  cases hs : s.dropWhile isReSpace with
  | nil => rw [hs] at h; simp at h
  | cons b t => rw [hs] at h; exact ⟨b, t, rfl, h⟩

theorem isBlocked_of_stopper {name : Bytes} {b : Nat} (t : Bytes) (h : isStopper name b = true) :
    isBlocked name (b :: t) = true := by
  have h1 : isReSpace b = false := by
    simp only [isStopper, Bool.and_eq_true, Bool.not_eq_eq_eq_not, Bool.not_true] at h
    exact h.1.1.1
  simp only [isBlocked, List.dropWhile_cons, h1, Bool.false_eq_true, ↓reduceIte, h]

theorem isStopper_spec {name : Bytes} {b : Nat} (h : isStopper name b = true) :
    isReSpace b = false ∧ isDigit b = false ∧ b ≠ 82 ∧ name.contains b = false := by
  simpa [isStopper, and_assoc] using h

/-- At a stopper, pieces that are not at their end fail. -/
theorem matchPieces_stopper {name : Bytes} {ps : List Piece} (hne : ps ≠ [])
    (hps : stopsAll name ps = true) {b : Nat} (t : Bytes) (hb : isStopper name b = true) :
    matchPieces ps (b :: t) = none := by
  obtain ⟨h1, h2, h3, h4⟩ := isStopper_spec hb
  cases ps with
  | nil => exact absurd rfl hne
  | cons p ps =>
    cases p with
    | lit c =>
      simp only [stopsAll, Bool.and_eq_true, Bool.or_eq_true, beq_iff_eq] at hps
      have : b ≠ c := by
        rintro rfl
        rcases hps.1 with h | h
        · rw [h4] at h; exact absurd h (by simp)
        · exact h3 h
      simp only [matchPieces, this, ↓reduceIte]
    | spaces => simp only [matchPieces, h1, Bool.false_eq_true, ↓reduceIte]
    | digits =>
      simp only [matchPieces, List.takeWhile_cons, h2, Bool.false_eq_true, ↓reduceIte,
        List.isEmpty_nil]

/-- At a blocked text, pieces that are not at their end fail. -/
theorem matchPieces_blocked {name : Bytes} (hsp : ∀ c ∈ name, isReSpace c = false)
    {ps : List Piece} (hne : ps ≠ []) (hps : stopsAll name ps = true) {s : Bytes}
    (hs : isBlocked name s = true) : matchPieces ps s = none := by
  obtain ⟨x, t, rfl, hxd, hx⟩ := isBlocked_cons hs
  cases ps with
  | nil => exact absurd rfl hne
  | cons p ps =>
    cases p with
    | lit c =>
      rcases hx with hx | hx
      · simp only [stopsAll, Bool.and_eq_true, Bool.or_eq_true, beq_iff_eq,
          contains_iff_mem] at hps
        have : x ≠ c := by
          rintro rfl
          rcases hps.1 with h | h
          · rw [hsp x h] at hx; exact absurd hx (by simp)
          · subst h; exact absurd hx (by decide)
        simp only [matchPieces, this, ↓reduceIte]
      · exact matchPieces_stopper hne hps t hx
    | spaces =>
      rcases hx with hx | hx
      · obtain ⟨b, u, hbu, hb⟩ := isBlocked_dropWhile hs
        simp only [List.dropWhile_cons, hx, ↓reduceIte] at hbu
        simp only [stopsAll, Bool.and_eq_true, Bool.not_eq_eq_eq_not, Bool.not_true] at hps
        simp only [matchPieces, hx, ↓reduceIte, hbu]
        exact matchPieces_stopper (ne_nil_of_isEmpty_false hps.1) hps.2 u hb
      · exact matchPieces_stopper hne hps t hx
    | digits =>
      simp only [matchPieces, List.takeWhile_cons, hxd, Bool.false_eq_true, ↓reduceIte,
        List.isEmpty_nil]

/-- A match that begins before a blocked text ends before it, or there is
none: the text behind the blocked text's first bytes has no part in it. -/
theorem matchPieces_before_blocked {name : Bytes} (hsp : ∀ c ∈ name, isReSpace c = false)
    {s1 s2 : Bytes} (h1 : isBlocked name s1 = true) (h2 : isBlocked name s2 = true) :
    ∀ (ps : List Piece), stopsAll name ps = true → ∀ v : Bytes,
      (matchPieces ps (v ++ s1) = none ∧ matchPieces ps (v ++ s2) = none)
        ∨ ∃ w, matchPieces ps (v ++ s1) = some (w ++ s1)
            ∧ matchPieces ps (v ++ s2) = some (w ++ s2) := by
  intro ps
  induction ps with
  | nil => intro _ v; exact Or.inr ⟨v, rfl, rfl⟩
  | cons p ps ih =>
    intro hps v
    have hne : p :: ps ≠ [] := by simp
    cases v with
    | nil =>
      exact Or.inl ⟨matchPieces_blocked hsp hne hps h1, matchPieces_blocked hsp hne hps h2⟩
    | cons x v =>
      cases p with
      | lit c =>
        simp only [stopsAll, Bool.and_eq_true] at hps
        simp only [List.cons_append, matchPieces]
        by_cases hx : x = c
        · simp only [hx, ↓reduceIte]; exact ih hps.2 v
        · simp only [hx, ↓reduceIte, and_self, true_or]
      | spaces =>
        simp only [stopsAll, Bool.and_eq_true, Bool.not_eq_eq_eq_not, Bool.not_true] at hps
        simp only [List.cons_append, matchPieces]
        by_cases hx : isReSpace x = true
        · simp only [hx, ↓reduceIte, List.append_eq, dropWhile_append_all]
          by_cases hv : v.all isReSpace = true
          · obtain ⟨b1, u1, e1, hb1⟩ := isBlocked_dropWhile h1
            obtain ⟨b2, u2, e2, hb2⟩ := isBlocked_dropWhile h2
            simp only [hv, ↓reduceIte, e1, e2]
            exact Or.inl ⟨matchPieces_stopper (ne_nil_of_isEmpty_false hps.1) hps.2 u1 hb1,
              matchPieces_stopper (ne_nil_of_isEmpty_false hps.1) hps.2 u2 hb2⟩
          · simp only [hv, Bool.false_eq_true, ↓reduceIte]
            exact ih hps.2 _
        · simp only [hx, Bool.false_eq_true, ↓reduceIte, and_self, true_or]
      | digits =>
        simp only [stopsAll, Bool.and_eq_true, Bool.not_eq_eq_eq_not, Bool.not_true] at hps
        simp only [List.cons_append, matchPieces]
        by_cases hx : isDigit x = true
        · simp only [List.takeWhile_cons, hx, ↓reduceIte, List.isEmpty_cons, Bool.false_eq_true,
            List.dropWhile_cons, List.append_eq, dropWhile_append_all]
          by_cases hv : v.all isDigit = true
          · obtain ⟨x1, t1, rfl, hd1, _⟩ := isBlocked_cons h1
            obtain ⟨x2, t2, rfl, hd2, _⟩ := isBlocked_cons h2
            simp only [hv, ↓reduceIte, List.dropWhile_cons, hd1, hd2, Bool.false_eq_true]
            exact Or.inl ⟨matchPieces_blocked hsp (ne_nil_of_isEmpty_false hps.1) hps.2 h1,
              matchPieces_blocked hsp (ne_nil_of_isEmpty_false hps.1) hps.2 h2⟩
          · simp only [hv, Bool.false_eq_true, ↓reduceIte]
            exact ih hps.2 _
        · simp only [Bool.not_eq_true] at hx
          simp only [List.takeWhile_cons, hx, Bool.false_eq_true, ↓reduceIte, List.isEmpty_nil,
            and_self, true_or]

theorem stopsAll_lits (name : Bytes) (cs : Bytes) (ps : List Piece) (hcs : ∀ c ∈ cs, c ∈ name)
    (hps : stopsAll name ps = true) : stopsAll name (cs.map Piece.lit ++ ps) = true := by
  induction cs with
  | nil => exact hps
  | cons c cs ih =>
    simp only [List.map_cons, List.cons_append, stopsAll, Bool.and_eq_true, Bool.or_eq_true,
      contains_iff_mem, beq_iff_eq]
    exact ⟨Or.inl (hcs c (by simp)), ih (fun d hd => hcs d (by simp [hd]))⟩

theorem stopsAll_refTail (name : Bytes) : stopsAll name refTailPieces = true := by
  simp [refTailPieces, stopsAll]

/-- A match of `/name\s+\d+\s+\d+\s+R` that begins before a blocked text: there
is none before another blocked text if there is none before this one. -/
theorem namedRefAt_before_blocked {name : Bytes} (hsp : ∀ c ∈ name, isReSpace c = false)
    {s1 s2 : Bytes} (h1 : isBlocked name s1 = true) (h2 : isBlocked name s2 = true)
    {v : Bytes} (hv : v ≠ []) (h : namedRefAt name (v ++ s1) = none) :
    namedRefAt name (v ++ s2) = none := by
  have e1 := namedRefAt_pieces name (v ++ s1)
  have e2 := namedRefAt_pieces name (v ++ s2)
  rw [h] at e1
  cases v with
  | nil => exact absurd rfl hv
  | cons x v =>
    have hall : stopsAll name (name.map Piece.lit ++ refTailPieces) = true :=
      stopsAll_lits name name _ (fun _ h => h) (stopsAll_refTail name)
    simp only [namedRefPieces, List.cons_append, matchPieces] at e1 e2
    by_cases hx : x = 47
    · subst hx
      simp only [↓reduceIte] at e1 e2
      change _ = matchPieces (List.map Piece.lit name ++ refTailPieces) (v ++ s1) at e1
      change _ = matchPieces (List.map Piece.lit name ++ refTailPieces) (v ++ s2) at e2
      rcases matchPieces_before_blocked hsp h1 h2 _ hall v with ⟨_, hn⟩ | ⟨w, hw, _⟩
      · rw [hn] at e2
        simpa using e2
      · rw [hw] at e1
        simp at e1
    · simp only [hx, ↓reduceIte] at e2
      simpa using e2

theorem matchPieces_suffix :
    ∀ (ps : List Piece) (xs r : Bytes), matchPieces ps xs = some r → ∃ m, xs = m ++ r := by
  intro ps
  induction ps with
  | nil =>
    intro xs r h
    simp only [matchPieces, Option.some.injEq] at h
    exact ⟨[], by simp [h]⟩
  | cons p ps ih =>
    intro xs r h
    cases p with
    | lit c =>
      cases xs with
      | nil => simp [matchPieces] at h
      | cons x t =>
        simp only [matchPieces] at h
        split at h
        · obtain ⟨m, hm⟩ := ih t r h
          exact ⟨x :: m, by simp [hm]⟩
        · exact absurd h (by simp)
    | spaces =>
      cases xs with
      | nil => simp [matchPieces] at h
      | cons x t =>
        simp only [matchPieces] at h
        split at h
        · obtain ⟨m, hm⟩ := ih _ r h
          refine ⟨x :: (t.takeWhile isReSpace ++ m), ?_⟩
          rw [List.cons_append, List.append_assoc, ← hm, List.takeWhile_append_dropWhile]
        · exact absurd h (by simp)
    | digits =>
      simp only [matchPieces] at h
      split at h
      · exact absurd h (by simp)
      · obtain ⟨m, hm⟩ := ih _ r h
        refine ⟨xs.takeWhile isDigit ++ m, ?_⟩
        rw [List.append_assoc, ← hm, List.takeWhile_append_dropWhile]

/-- A match of `/name\s+\d+\s+\d+\s+R` is a text that begins with `/`, and the
input behind the match follows it. -/
theorem namedRefAt_suffix {name xs d1 d2 r : Bytes} (h : namedRefAt name xs = some (d1, d2, r)) :
    ∃ m, xs = 47 :: m ++ r := by
  have e := namedRefAt_pieces name xs
  rw [h] at e
  cases xs with
  | nil => simp [namedRefPieces, matchPieces] at e
  | cons x t =>
    simp only [namedRefPieces, matchPieces, Option.map_some'] at e
    split at e
    · rename_i hx
      obtain ⟨m, hm⟩ := matchPieces_suffix _ _ _ e.symm
      exact ⟨m, by rw [hx, hm]; rfl⟩
    · exact absurd e (by simp)

theorem findNamedRef_none {name : Bytes} :
    ∀ {d : Bytes}, findNamedRef name d = none →
      ∀ q, q < d.length → namedRefAt name (d.drop q) = none := by
  intro d
  induction d with
  | nil => intro _ q hq; simp at hq
  | cons x t ih =>
    intro h q hq
    simp only [findNamedRef] at h
    cases hm : namedRefAt name (x :: t) with
    | some m => rw [hm] at h; exact absurd h (by simp)
    | none =>
      rw [hm] at h
      cases q with
      | zero => exact hm
      | succ q => exact ih h q (by simpa using hq)

theorem findNamedRef_some {name : Bytes} {m : Bytes × Bytes × Bytes} :
    ∀ {d : Bytes}, findNamedRef name d = some m →
      ∃ pre xs, d = pre ++ xs ∧ namedRefAt name xs = some m
        ∧ ∀ q, q < pre.length → namedRefAt name (pre.drop q ++ xs) = none := by
  intro d
  induction d with
  | nil => intro h; simp [findNamedRef] at h
  | cons x t ih =>
    intro h
    simp only [findNamedRef] at h
    cases hm : namedRefAt name (x :: t) with
    | some m2 =>
      rw [hm] at h
      simp only [Option.some.injEq] at h
      subst h
      exact ⟨[], x :: t, rfl, hm, fun q hq => by simp at hq⟩
    | none =>
      rw [hm] at h
      obtain ⟨pre, xs, e, h1, h2⟩ := ih h
      refine ⟨x :: pre, xs, by rw [e]; rfl, h1, ?_⟩
      intro q hq
      cases q with
      | zero => simpa [e] using hm
      | succ q => exact h2 q (by simpa using hq)

theorem findNamedRef_skip {name : Bytes} (s : Bytes) :
    ∀ (v : Bytes), (∀ q, q < v.length → namedRefAt name (v.drop q ++ s) = none) →
      findNamedRef name (v ++ s) = findNamedRef name s := by
  intro v
  induction v with
  | nil => intro _; rfl
  | cons x t ih =>
    intro h
    have h0 := h 0 (by simp)
    simp only [List.drop_zero, List.cons_append] at h0
    simp only [List.cons_append, findNamedRef, List.append_eq, h0]
    exact ih (fun q hq => h (q + 1) (by simpa using hq))

theorem replaceAllRefs_skip {name : Bytes} (repl s : Bytes) :
    ∀ (v : Bytes), (∀ q, q < v.length → namedRefAt name (v.drop q ++ s) = none) →
      ∀ fuel, replaceAllRefs name repl (v.length + fuel) (v ++ s)
        = v ++ replaceAllRefs name repl fuel s := by
  intro v
  induction v with
  | nil => intro _ fuel; simp
  | cons x t ih =>
    intro h fuel
    have h0 := h 0 (by simp)
    simp only [List.drop_zero, List.cons_append] at h0
    have e : (x :: t).length + fuel = (t.length + fuel) + 1 := by simp; omega
    rw [e]
    simp only [List.cons_append, replaceAllRefs, List.append_eq, h0]
    rw [ih (fun q hq => h (q + 1) (by simpa using hq))]

/-- The fuel of `replaceAllRefs` is enough when it is more than the length of
the text; more fuel changes nothing. -/
theorem replaceAllRefs_fuel (name repl : Bytes) :
    ∀ (n : Nat) (xs : Bytes) (f1 f2 : Nat), xs.length ≤ n → xs.length < f1 → xs.length < f2 →
      replaceAllRefs name repl f1 xs = replaceAllRefs name repl f2 xs := by
  intro n
  induction n with
  | zero =>
    intro xs f1 f2 hn h1 h2
    have : xs = [] := List.length_eq_zero.1 (by omega)
    subst this
    cases f1 <;> cases f2 <;> rfl
  | succ n ih =>
    intro xs f1 f2 hn h1 h2
    cases xs with
    | nil => cases f1 <;> cases f2 <;> rfl
    | cons x t =>
      cases f1 with
      | zero => simp at h1
      | succ f1 =>
        cases f2 with
        | zero => simp at h2
        | succ f2 =>
          simp only [List.length_cons] at hn h1 h2
          simp only [replaceAllRefs]
          cases hm : namedRefAt name (x :: t) with
          | none =>
            simp only
            rw [ih t f1 f2 (by omega) (by omega) (by omega)]
          | some m =>
            obtain ⟨d1, d2, r⟩ := m
            obtain ⟨m, hm2⟩ := namedRefAt_suffix hm
            have hl : r.length ≤ t.length := by
              have := congrArg List.length hm2
              simp only [List.length_cons, List.cons_append, List.length_append] at this
              omega
            simp only
            rw [ih r f1 f2 (by omega) (by omega) (by omega)]

theorem replaceAllRefs_of_none {name : Bytes} (repl : Bytes) {s : Bytes}
    (h : findNamedRef name s = none) : replaceAllRefs name repl (s.length + 1) s = s := by
  have := replaceAllRefs_skip repl [] s
    (fun q hq => by simpa using findNamedRef_none h q hq) 1
  simpa [replaceAllRefs] using this

theorem skipLit_append (l t : Bytes) : skipLit l (l ++ t) = some t := by
  simp [skipLit, hasPrefix_append_self]

theorem takeWhile_append_stop {p : Nat → Bool} {ds : Bytes} (h : ∀ c ∈ ds, p c = true) {b : Nat}
    (hb : p b = false) (t : Bytes) :
    (ds ++ b :: t).takeWhile p = ds ∧ (ds ++ b :: t).dropWhile p = b :: t := by
  induction ds with
  | nil => simp [List.takeWhile_cons, List.dropWhile_cons, hb]
  | cons c cs ih =>
    have hc := h c (by simp)
    obtain ⟨i1, i2⟩ := ih (fun d hd => h d (by simp [hd]))
    simp [List.takeWhile_cons, List.dropWhile_cons, hc, i1, i2]

theorem takeDigits1_itoa {x : Int} (h : 0 ≤ x) {b : Nat} (hb : isDigit b = false) (t : Bytes) :
    takeDigits1 (itoa x ++ b :: t) = some (itoa x, b :: t) := by
  obtain ⟨e1, e2⟩ := takeWhile_append_stop (itoa_isDigit h) hb t
  unfold takeDigits1
  rw [e1, e2]
  have := itoa_ne_nil x
  cases hx : itoa x with
  | nil => exact absurd hx this
  | cons _ _ => rfl

theorem skipSpaces1_itoa {x : Int} (h : 0 ≤ x) (t : Bytes) :
    skipSpaces1 (32 :: (itoa x ++ t)) = some (itoa x ++ t) := by
  have hd := itoa_isDigit h
  have := itoa_ne_nil x
  cases hx : itoa x with
  | nil => exact absurd hx this
  | cons c cs =>
    rw [hx] at hd
    have hc := isDigit_range (hd c (by simp))
    have : isReSpace c = false := by
      simp only [isReSpace, Bool.or_eq_false_iff, beq_eq_false_iff_ne, ne_eq]
      omega
    show (if isReSpace 32 = true then some (((c :: cs) ++ t).dropWhile isReSpace) else none) = _
    rw [if_pos (by decide)]
    simp only [List.cons_append, List.dropWhile_cons, this, Bool.false_eq_true, ↓reduceIte]

/-- The text `upsertNamedRef` writes for a reference is a match of the pattern
`parseNamedRef` reads, and the groups are the two numbers. -/
theorem namedRefAt_entry (name : Bytes) {a b : Int} (ha : 0 ≤ a) (hb : 0 ≤ b) (t : Bytes) :
    namedRefAt name (47 :: name ++ 32 :: itoa a ++ 32 :: itoa b ++ bytesOf " R" ++ t)
      = some (itoa a, itoa b, t) := by
  have e : 47 :: name ++ 32 :: itoa a ++ 32 :: itoa b ++ bytesOf " R" ++ t
      = (47 :: name) ++ (32 :: (itoa a ++ (32 :: (itoa b ++ (32 :: 82 :: t))))) := by
    simp [bytesOf]
  rw [e, namedRefAt_eq, skipLit_append]
  simp only
  rw [skipSpaces1_itoa ha]
  simp only
  rw [takeDigits1_itoa ha (by decide)]
  simp only
  rw [skipSpaces1_itoa hb]
  simp only
  rw [takeDigits1_itoa hb (by decide)]
  have h1 : skipSpaces1 (32 :: 82 :: t) = some (82 :: t) := rfl
  have h2 : skipLit [82] (82 :: t) = some t := skipLit_append [82] t
  simp only [h1, h2]

theorem isBlocked_entry {key : Bytes} (h47 : isStopper key 47 = true) (a b : Int) (t : Bytes) :
    isBlocked key (47 :: key ++ 32 :: itoa a ++ 32 :: itoa b ++ bytesOf " R" ++ t) = true := by
  simp only [List.cons_append]
  exact isBlocked_of_stopper _ h47

theorem findNamedRef_entry (key : Bytes) {a b : Int} (ha : 0 ≤ a) (hb : 0 ≤ b) (t : Bytes) :
    findNamedRef key (47 :: key ++ 32 :: itoa a ++ 32 :: itoa b ++ bytesOf " R" ++ t)
      = some (itoa a, itoa b, t) := by
  have h := namedRefAt_entry key ha hb t
  simp only [List.cons_append] at h ⊢
  simp only [findNamedRef, h]

/-- The dictionary has an entry for the key: the first match and every later
one is replaced by the new entry, and the new entry is the first match of the
result. -/
theorem upsertNamedRef_replace {key : Bytes} (hsp : ∀ c ∈ key, isReSpace c = false)
    (h47 : isStopper key 47 = true) {d : Bytes} {r : ObjRef} (ho : 0 ≤ r.Obj) (hg : 0 ≤ r.Gen)
    {d1 d2 rest : Bytes} (h : findNamedRef key d = some (d1, d2, rest)) :
    ∃ pre matched, d = pre ++ matched ++ rest
      ∧ namedRefAt key (matched ++ rest) = some (d1, d2, rest)
      ∧ (∀ q, q < pre.length → namedRefAt key (d.drop q) = none)
      ∧ upsertNamedRef d key r
          = pre ++ (47 :: key ++ 32 :: itoa r.Obj ++ 32 :: itoa r.Gen ++ bytesOf " R")
              ++ replaceAllRefs key
                  (47 :: key ++ 32 :: itoa r.Obj ++ 32 :: itoa r.Gen ++ bytesOf " R")
                  (rest.length + 1) rest
      ∧ findNamedRef key (upsertNamedRef d key r)
          = some (itoa r.Obj, itoa r.Gen, replaceAllRefs key
                  (47 :: key ++ 32 :: itoa r.Obj ++ 32 :: itoa r.Gen ++ bytesOf " R")
                  (rest.length + 1) rest) := by
  obtain ⟨pre, xs, e, h1, h2⟩ := findNamedRef_some h
  obtain ⟨mm, hxs⟩ := namedRefAt_suffix h1
  have hup : upsertNamedRef d key r
      = pre ++ (47 :: key ++ 32 :: itoa r.Obj ++ 32 :: itoa r.Gen ++ bytesOf " R")
          ++ replaceAllRefs key
              (47 :: key ++ 32 :: itoa r.Obj ++ 32 :: itoa r.Gen ++ bytesOf " R")
              (rest.length + 1) rest := by
    unfold upsertNamedRef
    simp only [h, Option.isSome_some, ↓reduceIte]
    have hl : d.length + 1 = pre.length + (xs.length + 1) := by
      rw [e, List.length_append]; omega
    rw [hl]
    conv_lhs => rw [e]
    rw [replaceAllRefs_skip _ xs pre h2 (xs.length + 1)]
    have hx : replaceAllRefs key
        (47 :: key ++ 32 :: itoa r.Obj ++ 32 :: itoa r.Gen ++ bytesOf " R") (xs.length + 1) xs
        = (47 :: key ++ 32 :: itoa r.Obj ++ 32 :: itoa r.Gen ++ bytesOf " R")
          ++ replaceAllRefs key
              (47 :: key ++ 32 :: itoa r.Obj ++ 32 :: itoa r.Gen ++ bytesOf " R")
              xs.length rest := by
      have h1b := h1
      rw [hxs] at h1b ⊢
      simp only [List.cons_append] at h1b
      simp only [List.cons_append, replaceAllRefs, List.append_eq, h1b]
    rw [hx]
    have hlen : rest.length < xs.length := by
      rw [hxs]; simp only [List.cons_append, List.length_cons, List.length_append]; omega
    rw [replaceAllRefs_fuel key _ rest.length rest xs.length (rest.length + 1) (Nat.le_refl _)
      hlen (Nat.lt_succ_self _)]
    simp only [List.append_assoc]
  refine ⟨pre, 47 :: mm, ?_, ?_, ?_, hup, ?_⟩
  · rw [e, hxs, List.append_assoc]
  · rw [← hxs]; exact h1
  · intro q hq
    have := h2 q hq
    rwa [e, List.drop_append_of_le_length (Nat.le_of_lt hq)]
  · rw [hup, List.append_assoc]
    have hb1 : isBlocked key xs = true := by
      rw [hxs]; exact isBlocked_of_stopper _ h47
    rw [findNamedRef_skip _ pre (fun q hq =>
      namedRefAt_before_blocked hsp hb1 (isBlocked_entry h47 _ _ _)
        (by
          intro h0
          have := congrArg List.length h0
          simp only [List.length_drop, List.length_nil] at this
          omega) (h2 q hq))]
    exact findNamedRef_entry key ho hg _

/-- The dictionary has no entry for the key: the new entry is put on a line of
its own before the last `>>`, and it is the first match of the result. -/
theorem upsertNamedRef_insert {key : Bytes} (hsp : ∀ c ∈ key, isReSpace c = false)
    (h47 : isStopper key 47 = true) (h62 : isStopper key 62 = true) {d : Bytes} {r : ObjRef}
    (ho : 0 ≤ r.Obj) (hg : 0 ≤ r.Gen) (h : findNamedRef key d = none) {idx : Nat}
    (hi : lastIndex d (bytesOf ">>") = some idx) :
    upsertNamedRef d key r
        = d.take idx
          ++ (10 :: (47 :: key ++ 32 :: itoa r.Obj ++ 32 :: itoa r.Gen ++ bytesOf " R") ++ [10])
          ++ d.drop idx
      ∧ findNamedRef key (upsertNamedRef d key r)
          = some (itoa r.Obj, itoa r.Gen, 10 :: d.drop idx) := by
  have hup : upsertNamedRef d key r
        = d.take idx
          ++ (10 :: (47 :: key ++ 32 :: itoa r.Obj ++ 32 :: itoa r.Gen ++ bytesOf " R") ++ [10])
          ++ d.drop idx := by
    unfold upsertNamedRef
    simp only [h, Option.isSome_none, Bool.false_eq_true, ↓reduceIte, hi]
  refine ⟨hup, ?_⟩
  obtain ⟨hp, hlen⟩ := lastIndex_bound hi
  have hdrop := hasPrefix_eq_append hp
  have hb1 : isBlocked key (d.drop idx) = true := by
    rw [hdrop]; exact isBlocked_of_stopper _ h62
  have e2 : (10 :: (47 :: key ++ 32 :: itoa r.Obj ++ 32 :: itoa r.Gen ++ bytesOf " R") ++ [10])
      ++ d.drop idx
      = 10 :: (47 :: key ++ 32 :: itoa r.Obj ++ 32 :: itoa r.Gen ++ bytesOf " R"
          ++ (10 :: d.drop idx)) := by
    simp
  have hb2 : isBlocked key (10 :: (47 :: key ++ 32 :: itoa r.Obj ++ 32 :: itoa r.Gen
      ++ bytesOf " R" ++ (10 :: d.drop idx))) = true := by
    have := isBlocked_entry h47 r.Obj r.Gen (10 :: d.drop idx)
    simp only [isBlocked, List.dropWhile_cons] at this ⊢
    rw [if_pos (by decide)]
    exact this
  have hlt : idx ≤ d.length := by omega
  have hnone : ∀ q, q < (d.take idx).length →
      namedRefAt key ((d.take idx).drop q ++ d.drop idx) = none := by
    intro q hq
    have hq2 : q < d.length := by
      rw [List.length_take] at hq; omega
    have := findNamedRef_none h q hq2
    conv at this => lhs; rw [← List.take_append_drop idx d]
    rwa [List.drop_append_of_le_length (Nat.le_of_lt hq)] at this
  rw [hup, List.append_assoc, e2]
  rw [findNamedRef_skip _ (d.take idx) (fun q hq =>
    namedRefAt_before_blocked hsp hb1 hb2
      (by
        intro h0
        have := congrArg List.length h0
        simp only [List.length_drop, List.length_nil] at this
        omega) (hnone q hq))]
  have h10 : namedRefAt key (10 :: (47 :: key ++ 32 :: itoa r.Obj ++ 32 :: itoa r.Gen
      ++ bytesOf " R" ++ (10 :: d.drop idx))) = none := by
    rw [namedRefAt_eq]
    simp [skipLit, hasPrefix]
  simp only [findNamedRef, h10]
  exact findNamedRef_entry key ho hg _

/-- C22: for every dictionary text `d`, balanced or not, and every reference
`r` (its two numbers are not negative), `upsertNamedRef d "Metadata" r` is as
follows.  If `d` has an entry `/Metadata D D R`, then `d` is `pre`, the entry
and `rest`, and the result is `pre ++ entry ++ rest` with the entry
`/Metadata N G R` of `r` in the place of the old one, all other bytes
unchanged (a text with more than one such entry, which no dictionary is, has
each of them replaced).  If `d` has no such entry, the result is `d` with a
line feed, the entry and a line feed inserted before its last `>>`; for a `d`
that ends with `>>`, as every balanced dictionary does, that is before the
closing `>>`.  In both cases `parseNamedRef` of the result gives `r`. -/
theorem c22_upsertNamedRef (d : Bytes) (r : ObjRef)
    (ho : 0 ≤ r.Obj ∧ r.Obj ≤ maxInt) (hg : 0 ≤ r.Gen ∧ r.Gen ≤ maxInt) :
    (∀ d1 d2 rest, findNamedRef (bytesOf "Metadata") d = some (d1, d2, rest) →
      ∃ pre matched, d = pre ++ matched ++ rest
        ∧ namedRefAt (bytesOf "Metadata") (matched ++ rest) = some (d1, d2, rest)
        ∧ (∀ q, q < pre.length → namedRefAt (bytesOf "Metadata") (d.drop q) = none)
        ∧ upsertNamedRef d (bytesOf "Metadata") r
            = pre ++ (bytesOf "/Metadata " ++ itoa r.Obj ++ bytesOf " " ++ itoa r.Gen
                ++ bytesOf " R")
              ++ replaceAllRefs (bytesOf "Metadata")
                  (bytesOf "/Metadata " ++ itoa r.Obj ++ bytesOf " " ++ itoa r.Gen
                    ++ bytesOf " R") (rest.length + 1) rest
        ∧ (findNamedRef (bytesOf "Metadata") rest = none →
            upsertNamedRef d (bytesOf "Metadata") r
              = pre ++ (bytesOf "/Metadata " ++ itoa r.Obj ++ bytesOf " " ++ itoa r.Gen
                  ++ bytesOf " R") ++ rest))
    ∧ (findNamedRef (bytesOf "Metadata") d = none →
        ∀ idx, lastIndex d (bytesOf ">>") = some idx →
          upsertNamedRef d (bytesOf "Metadata") r
            = d.take idx ++ bytesOf "\n"
              ++ (bytesOf "/Metadata " ++ itoa r.Obj ++ bytesOf " " ++ itoa r.Gen
                  ++ bytesOf " R")
              ++ bytesOf "\n" ++ d.drop idx)
    ∧ ((findNamedRef (bytesOf "Metadata") d).isSome = true
          ∨ (lastIndex d (bytesOf ">>")).isSome = true →
        parseNamedRef (upsertNamedRef d (bytesOf "Metadata") r) (bytesOf "Metadata")
          = some r)
    ∧ (∀ body, d = body ++ bytesOf ">>" → findNamedRef (bytesOf "Metadata") d = none →
        upsertNamedRef d (bytesOf "Metadata") r
            = body ++ bytesOf "\n"
              ++ (bytesOf "/Metadata " ++ itoa r.Obj ++ bytesOf " " ++ itoa r.Gen
                  ++ bytesOf " R")
              ++ bytesOf "\n" ++ bytesOf ">>"
          ∧ parseNamedRef (upsertNamedRef d (bytesOf "Metadata") r) (bytesOf "Metadata")
            = some r) := by
  have hsp : ∀ c ∈ bytesOf "Metadata", isReSpace c = false := by decide
  have h47 : isStopper (bytesOf "Metadata") 47 = true := by decide
  have h62 : isStopper (bytesOf "Metadata") 62 = true := by decide
  have hentry : bytesOf "/Metadata " ++ itoa r.Obj ++ bytesOf " " ++ itoa r.Gen ++ bytesOf " R"
      = 47 :: bytesOf "Metadata" ++ 32 :: itoa r.Obj ++ 32 :: itoa r.Gen ++ bytesOf " R" := by
    simp [bytesOf]
  have hr : (some { Obj := (atoi (itoa r.Obj)).1, Gen := (atoi (itoa r.Gen)).1 } : Option ObjRef)
      = some r := by
    rw [atoi_itoa ho.1 ho.2, atoi_itoa hg.1 hg.2]
  rw [hentry]
  refine ⟨?_, ?_, ?_, ?_⟩
  rotate_left 3
  · intro body hd h
    have hi : lastIndex d (bytesOf ">>") = some (body.length + 0) := by
      rw [hd]
      exact lastIndex_append body (by decide)
    have hins := upsertNamedRef_insert hsp h47 h62 ho.1 hg.1 h hi
    refine ⟨?_, ?_⟩
    · rw [hins.1, hd]
      simp [bytesOf]
    · simp only [parseNamedRef, hins.2]
      exact hr
  · intro d1 d2 rest h
    obtain ⟨pre, matched, e1, e2, e3, e4, _⟩ := upsertNamedRef_replace hsp h47 ho.1 hg.1 h
    refine ⟨pre, matched, e1, e2, e3, e4, ?_⟩
    intro hn
    rw [e4, replaceAllRefs_of_none _ hn]
  · intro h idx hi
    rw [(upsertNamedRef_insert hsp h47 h62 ho.1 hg.1 h hi).1]
    simp [bytesOf]
  · intro h
    cases hf : findNamedRef (bytesOf "Metadata") d with
    | some m =>
      obtain ⟨d1, d2, rest⟩ := m
      obtain ⟨_, _, _, _, _, _, e5⟩ := upsertNamedRef_replace hsp h47 ho.1 hg.1 hf
      simp only [parseNamedRef, e5]
      exact hr
    | none =>
      rw [hf] at h
      cases hi : lastIndex d (bytesOf ">>") with
      | none => rw [hi] at h; simp at h
      | some idx =>
        simp only [parseNamedRef, (upsertNamedRef_insert hsp h47 h62 ho.1 hg.1 hf hi).2]
        exact hr

/-- C22 at two dictionaries: the entry of one is replaced, the other gets a
new entry before its `>>`, and the reference is read back from both. -/
theorem c22_witness :
    upsertNamedRef catalogWithMetadata (bytesOf "Metadata") sampleRef
        = bytesOf "<< /Type /Catalog /Metadata 7 0 R /Pages 2 0 R >>"
      ∧ upsertNamedRef plainCatalog (bytesOf "Metadata") sampleRef
        = bytesOf "<< /Type /Catalog /Pages 2 0 R \n/Metadata 7 0 R\n>>"
      ∧ parseNamedRef (upsertNamedRef catalogWithMetadata (bytesOf "Metadata") sampleRef)
          (bytesOf "Metadata") = some sampleRef
      ∧ parseNamedRef (upsertNamedRef plainCatalog (bytesOf "Metadata") sampleRef)
          (bytesOf "Metadata") = some sampleRef :=
  ⟨by decide!, by decide!,
    (c22_upsertNamedRef catalogWithMetadata sampleRef (by decide) (by decide)).2.2.1
      (Or.inl (by decide!)),
    (c22_upsertNamedRef plainCatalog sampleRef (by decide) (by decide)).2.2.1
      (Or.inr (by decide!))⟩

/-! ### White space as a date -/

/-- C31, the claim as written fails: in strict mode `normalizeDate` returns
the empty value for a date of white space only, with no error. -/
theorem c31_strict_blank_date_accepted :
    normalizeDate fixedTimeEnv blankDate true = .ok ([], false) := by
  decide!

/-- C31, amended: for a date value `v` that is empty after trimming,
`normalizeDate` returns the empty value, unchanged flag, and no error, in
lenient and in strict mode; `dateValue` rejects `v` in both modes, and so does
`validate.SetRequest`, with the code `ErrValidation`, for a request with a
valid destination whose patch has `v` as a date. -/
theorem c31_blank_date (env : TimeEnv) (v : Bytes) (strict : Bool) (hv : trimSpace v = []) :
    normalizeDate env v strict = .ok ([], false)
      ∧ dateValue env v strict = .error "must not be empty"
      ∧ (∀ req : SetRequest, ioOptions req.Io = .ok () → req.Strict = strict →
          (req.Changes.CreationDate = some v ∨ req.Changes.ModDate = some v) →
          ∃ msg, validateSetRequest env req = .error ⟨.ErrValidation, msg⟩) := by
  have hd : dateValue env v strict = .error "must not be empty" := by
    simp [dateValue, hv]
  refine ⟨by simp [normalizeDate, hv], hd, ?_⟩
  intro req hio hs hreq
  subst hs
  unfold validateSetRequest metadataPatch
  rw [hio]
  rcases hreq with h | h
  · rw [h]
    simp only [hd]
    exact ⟨_, rfl⟩
  · rw [h]
    cases hc : req.Changes.CreationDate with
    | none =>
      simp only [hd]
      exact ⟨_, rfl⟩
    | some w =>
      simp only
      cases hw : dateValue env w req.Strict with
      | error e => exact ⟨_, rfl⟩
      | ok u =>
        simp only [hd]
        exact ⟨_, rfl⟩

/-- C31 at a value of blanks and a tab, in strict mode. -/
theorem c31_witness :
    trimSpace blankDate = []
      ∧ normalizeDate fixedTimeEnv blankDate true = .ok ([], false)
      ∧ dateValue fixedTimeEnv blankDate true = .error "must not be empty" :=
  ⟨by decide!, (c31_blank_date fixedTimeEnv blankDate true (by decide!)).1,
    (c31_blank_date fixedTimeEnv blankDate true (by decide!)).2.1⟩

/-! ### Exit codes -/

theorem ErrorCode.text_injective (a b : ErrorCode) : a.text = b.text → a = b := by
  cases a <;> cases b <;> decide

/-- Errors of other types at the head of a chain are stepped over by `errors.As`. -/
theorem asAppError_append (pre rest : GoError)
    (hpre : pre.all (fun n => !n.isAppPointer) = true) :
    asAppError (pre ++ rest) = asAppError rest := by
  induction pre with
  | nil => rfl
  | cons n ns ih =>
    simp only [List.all_cons, Bool.and_eq_true, Bool.not_eq_true'] at hpre
    cases n with
    | app c m => simp [ErrNode.isAppPointer] at hpre
    | nilApp => simp [ErrNode.isAppPointer] at hpre
    | other t => exact ih (by simpa using hpre.2)

theorem asAppError_none (err : GoError) (h : err.all (fun n => !n.isAppPointer) = true) :
    asAppError err = none := by
  have := asAppError_append err [] h
  rwa [List.append_nil] at this

theorem ExitCode_of_code (pre rest : GoError) (k : ErrorCode) (msg : Bytes)
    (hpre : pre.all (fun n => !n.isAppPointer) = true) :
    ExitCode (pre ++ .app k.text msg :: rest) = some (specExitCode k) := by
  have hne : (pre ++ ErrNode.app k.text msg :: rest).isEmpty = false := by
    cases pre <;> rfl
  unfold ExitCode
  rw [hne, asAppError_append pre _ hpre]
  simp only [asAppError, Bool.false_eq_true, ↓reduceIte]
  cases k <;> decide

/-- C33: `ExitCode err` is 0 exactly for the nil error.  For an error that is
an `AppError` or wraps one behind errors of other types, whatever the
`AppError` wraps in turn, the exit code is the one the table of the
specification gives for its kind (2 to 9 for usage, validation, not_found,
conflict, pdf_encrypted, pdf_malformed, io, internal, and 1 for unknown), and 1
for a code that is none of the nine; for a non-nil error whose chain holds no
`AppError` it is 1.  Errors of different kinds among the eight have different
exit codes.  Outside the claim: a nil `*AppError` held in a non-nil error,
which nothing in the program makes, is found by `errors.As` and makes
`ExitCode` panic. -/
theorem c33_exitCode :
    (∀ err : GoError, ExitCode err = some 0 ↔ err = [])
      ∧ (∀ (pre rest : GoError) (k : ErrorCode) (msg : Bytes),
          pre.all (fun n => !n.isAppPointer) = true →
          ExitCode (pre ++ .app k.text msg :: rest) = some (specExitCode k))
      ∧ (∀ (pre rest : GoError) (code msg : Bytes),
          pre.all (fun n => !n.isAppPointer) = true → (∀ k : ErrorCode, code ≠ k.text) →
          ExitCode (pre ++ .app code msg :: rest) = some 1)
      ∧ (∀ err : GoError, err ≠ [] → err.all (fun n => !n.isAppPointer) = true →
          ExitCode err = some 1)
      ∧ (∀ (pre1 rest1 pre2 rest2 : GoError) (k1 k2 : ErrorCode) (m1 m2 : Bytes),
          k1 ≠ .ErrUnknown → k2 ≠ .ErrUnknown →
          pre1.all (fun n => !n.isAppPointer) = true →
          pre2.all (fun n => !n.isAppPointer) = true →
          ExitCode (pre1 ++ .app k1.text m1 :: rest1)
            = ExitCode (pre2 ++ .app k2.text m2 :: rest2) → k1 = k2)
      ∧ (∀ pre rest : GoError, pre.all (fun n => !n.isAppPointer) = true →
          ExitCode (pre ++ .nilApp :: rest) = none)
      ∧ specExitCode .ErrUsage = 2 ∧ specExitCode .ErrValidation = 3
      ∧ specExitCode .ErrNotFound = 4 ∧ specExitCode .ErrConflict = 5
      ∧ specExitCode .ErrPDFEncrypted = 6 ∧ specExitCode .ErrPDFMalformed = 7
      ∧ specExitCode .ErrIo = 8 ∧ specExitCode .ErrInternal = 9
      ∧ specExitCode .ErrUnknown = 1 := by
  refine ⟨?_, fun pre rest k msg h => ExitCode_of_code pre rest k msg h, ?_, ?_, ?_, ?_,
    rfl, rfl, rfl, rfl, rfl, rfl, rfl, rfl, rfl⟩
  · intro err
    constructor
    · intro h
      cases err with
      | nil => rfl
      | cons n rest =>
        exfalso
        unfold ExitCode at h
        simp only [List.isEmpty_cons, Bool.false_eq_true, ↓reduceIte] at h
        cases ha : asAppError (n :: rest) with
        | none => rw [ha] at h; simp at h
        | some found =>
          cases found with
          | none => rw [ha] at h; simp at h
          | some code =>
            rw [ha] at h
            simp only at h
            repeat' split at h
            all_goals simp at h
    · rintro rfl
      rfl
  · intro pre rest code msg hpre hk
    have hne : (pre ++ ErrNode.app code msg :: rest).isEmpty = false := by
      cases pre <;> rfl
    unfold ExitCode
    rw [hne, asAppError_append pre _ hpre]
    simp only [asAppError, Bool.false_eq_true, ↓reduceIte, hk _]
  · intro err hne h
    have hne2 : err.isEmpty = false := by
      cases err with
      | nil => exact absurd rfl hne
      | cons _ _ => rfl
    unfold ExitCode
    rw [hne2, asAppError_none err h]
    rfl
  · intro pre1 rest1 pre2 rest2 k1 k2 m1 m2 h1 h2 hp1 hp2 he
    rw [ExitCode_of_code pre1 rest1 k1 m1 hp1, ExitCode_of_code pre2 rest2 k2 m2 hp2] at he
    revert h1 h2 he
    cases k1 <;> cases k2 <;> decide
  · intro pre rest hpre
    have hne : (pre ++ ErrNode.nilApp :: rest).isEmpty = false := by
      cases pre <;> rfl
    unfold ExitCode
    rw [hne, asAppError_append pre _ hpre]
    rfl

/-- C33 on the errors of the test of `ExitCode`: nil, a plain error, an
`AppError` of each kind, an `AppError` of kind validation wrapped by another
error, one of kind io wrapped twice, and one with a code that is no kind. -/
theorem c33_witness :
    ExitCode [] = some 0
      ∧ ExitCode [.other (bytesOf "x")] = some 1
      ∧ ExitCode [.app (bytesOf "usage") []] = some 2
      ∧ ExitCode [.app (bytesOf "validation") []] = some 3
      ∧ ExitCode [.app (bytesOf "not_found") []] = some 4
      ∧ ExitCode [.app (bytesOf "conflict") []] = some 5
      ∧ ExitCode [.app (bytesOf "pdf_encrypted") []] = some 6
      ∧ ExitCode [.app (bytesOf "pdf_malformed") []] = some 7
      ∧ ExitCode [.app (bytesOf "io") []] = some 8
      ∧ ExitCode [.app (bytesOf "internal") []] = some 9
      ∧ ExitCode [.app (bytesOf "unknown") []] = some 1
      ∧ ExitCode wrappedValidationError = some 3
      ∧ ExitCode wrappedIoError = some 8
      ∧ ExitCode [.app (bytesOf "teapot") []] = some 1 :=
  ⟨(c33_exitCode.1 []).2 rfl,
    c33_exitCode.2.2.2.1 [.other (bytesOf "x")] (by decide) (by decide),
    c33_exitCode.2.1 [] [] .ErrUsage [] (by decide),
    c33_exitCode.2.1 [] [] .ErrValidation [] (by decide),
    c33_exitCode.2.1 [] [] .ErrNotFound [] (by decide),
    c33_exitCode.2.1 [] [] .ErrConflict [] (by decide),
    c33_exitCode.2.1 [] [] .ErrPDFEncrypted [] (by decide),
    c33_exitCode.2.1 [] [] .ErrPDFMalformed [] (by decide),
    c33_exitCode.2.1 [] [] .ErrIo [] (by decide),
    c33_exitCode.2.1 [] [] .ErrInternal [] (by decide),
    c33_exitCode.2.1 [] [] .ErrUnknown [] (by decide),
    c33_exitCode.2.1 [.other (bytesOf "wrap: validation")] [] .ErrValidation [] (by decide),
    c33_exitCode.2.1 [.other (bytesOf "outer"), .other (bytesOf "inner")] [] .ErrIo
      (bytesOf "disk") (by decide),
    c33_exitCode.2.2.1 [] [] (bytesOf "teapot") [] (by decide)
      (fun k => by cases k <;> decide)⟩

/-! ### `NormalizeFields` -/

theorem AllFields_nodup : AllFields.Nodup := by decide

theorem isKnownField_iff (f : Field) : isKnownField f = true ↔ f ∈ AllFields := by
  simp [isKnownField]

theorem checkFields_error_code :
    ∀ (fs seen : List Field) (e : AppError), checkFields fs seen = .error e →
      e.Code = .ErrValidation := by
  intro fs
  induction fs with
  | nil => intro seen e h; simp [checkFields] at h
  | cons f fs ih =>
    intro seen e h
    simp only [checkFields] at h
    split at h
    · cases h; rfl
    · split at h
      · cases h; rfl
      · exact ih _ _ h

theorem checkFields_ok :
    ∀ (fs seen : List Field), (∀ f ∈ fs, f ∈ AllFields) → (fs ++ seen).Nodup →
      checkFields fs seen = .ok (fs.reverse ++ seen) := by
  intro fs
  induction fs with
  | nil => intro seen _ _; rfl
  | cons f fs ih =>
    intro seen hk hn
    have h1 : isKnownField f = true := (isKnownField_iff f).2 (hk f (by simp))
    have hn2 : f ∉ fs ++ seen ∧ (fs ++ seen).Nodup := by
      simpa [List.nodup_cons] using hn
    have h2 : seen.contains f = false := by
      have : f ∉ seen := fun h => hn2.1 (by simp [h])
      simpa using this
    simp only [checkFields, h1, h2, Bool.not_true, Bool.false_eq_true, ↓reduceIte]
    rw [ih (f :: seen) (fun g hg => hk g (by simp [hg]))]
    · simp
    · have : (fs ++ f :: seen).Perm (f :: (fs ++ seen)) := List.perm_middle
      exact this.nodup_iff.2 (by simpa [List.nodup_cons] using hn2)

theorem checkFields_isOk :
    ∀ (fs seen r : List Field), checkFields fs seen = .ok r →
      (∀ f ∈ fs, f ∈ AllFields) ∧ fs.Nodup ∧ (∀ f ∈ fs, f ∉ seen) := by
  intro fs
  induction fs with
  | nil => intro seen r _; simp
  | cons f fs ih =>
    intro seen r h
    simp only [checkFields] at h
    split at h
    · cases h
    · rename_i hk
      split at h
      · cases h
      · rename_i hs
        obtain ⟨i1, i2, i3⟩ := ih _ _ h
        have hk2 : f ∈ AllFields := (isKnownField_iff f).1 (by simpa using hk)
        have hs2 : f ∉ seen := by simpa using hs
        refine ⟨?_, ?_, ?_⟩
        · intro g hg
          rcases List.mem_cons.1 hg with rfl | hg
          · exact hk2
          · exact i1 g hg
        · refine List.nodup_cons.2 ⟨?_, i2⟩
          intro hf
          exact i3 f hf (by simp)
        · intro g hg
          rcases List.mem_cons.1 hg with rfl | hg
          · exact hs2
          · intro hgs
            exact i3 g hg (by simp [hgs])

/-- C32: `NormalizeFields fs` fails exactly when `fs` has a field that is not
one of the eight of `AllFields` or has a field twice, and every failure has
the code `ErrValidation`.  Otherwise the result is `AllFields` with the fields
that are not in `fs` left out: a sublist of `AllFields`, so in its order, that
holds the fields of `fs` and each of them once.  For the empty list the result
is empty. -/
theorem c32_normalizeFields (fs : List Field) :
    ((∃ e, NormalizeFields fs = .error e) ↔ (∃ f ∈ fs, f ∉ AllFields) ∨ ¬ fs.Nodup)
      ∧ (∀ e, NormalizeFields fs = .error e → e.Code = .ErrValidation)
      ∧ ((∀ f ∈ fs, f ∈ AllFields) → fs.Nodup →
          NormalizeFields fs = .ok (AllFields.filter (fun f => decide (f ∈ fs)))
            ∧ (AllFields.filter (fun f => decide (f ∈ fs))).Sublist AllFields
            ∧ (AllFields.filter (fun f => decide (f ∈ fs))).Perm fs)
      ∧ NormalizeFields [] = .ok [] := by
  have hok : (∀ f ∈ fs, f ∈ AllFields) → fs.Nodup →
      NormalizeFields fs = .ok (AllFields.filter (fun f => decide (f ∈ fs))) := by
    intro hk hn
    unfold NormalizeFields
    cases fs with
    | nil => rfl
    | cons f t =>
      rw [checkFields_ok _ _ hk (by simpa using hn)]
      simp only [List.isEmpty_cons, Bool.false_eq_true, ↓reduceIte, List.append_nil]
      congr 1
      apply List.filter_congr
      intro g _
      simp [Bool.or_comm]
  refine ⟨?_, ?_, ?_, rfl⟩
  · constructor
    · rintro ⟨e, he⟩
      by_contra hcon
      simp only [not_or, not_exists, not_and, not_not] at hcon
      rw [hok (fun f hf => hcon.1 f hf) hcon.2] at he
      cases he
    · intro h
      unfold NormalizeFields
      cases hfs : fs with
      | nil =>
        subst hfs
        rcases h with ⟨f, hf, _⟩ | h
        · simp at hf
        · exact absurd List.nodup_nil h
      | cons f t =>
        simp only [List.isEmpty_cons, Bool.false_eq_true, ↓reduceIte]
        cases hc : checkFields (f :: t) [] with
        | error e => exact ⟨e, rfl⟩
        | ok r =>
          exfalso
          obtain ⟨i1, i2, _⟩ := checkFields_isOk _ _ _ hc
          rw [hfs] at h
          rcases h with ⟨g, hg, hg2⟩ | h
          · exact hg2 (i1 g hg)
          · exact h i2
  · intro e he
    unfold NormalizeFields at he
    split at he
    · cases he
    · cases hc : checkFields fs [] with
      | error e2 =>
        rw [hc] at he
        simp only [Except.error.injEq] at he
        subst he
        exact checkFields_error_code _ _ _ hc
      | ok r => rw [hc] at he; cases he
  · intro hk hn
    refine ⟨hok hk hn, List.filter_sublist _, ?_⟩
    apply (List.perm_ext_iff_of_nodup (AllFields_nodup.filter _) hn).2
    intro a
    simp only [List.mem_filter, decide_eq_true_eq]
    exact ⟨fun h => h.2, fun h => ⟨hk a h, h⟩⟩

/-- C32 on the lists of the test of `NormalizeFields`. -/
theorem c32_examples :
    NormalizeFields [FieldAuthor, FieldTitle] = .ok [FieldTitle, FieldAuthor]
      ∧ NormalizeFields [FieldModDate, FieldKeywords, FieldTitle]
          = .ok [FieldTitle, FieldKeywords, FieldModDate]
      ∧ NormalizeFields [bytesOf "unknown"] = .error (validationError "unknown field")
      ∧ NormalizeFields [FieldTitle, FieldTitle] = .error (validationError "duplicate field")
      ∧ NormalizeFields [] = .ok [] := by
  decide

/-! ### The packet read back, field by field -/

/-- C37: for every record whose eight fields are valid UTF-8 made of
characters XML 1.0 allows, `Unmarshal (Marshal M)` succeeds, and each field of
the record it returns is the field of `M` with `strings.TrimSpace` applied; a
field that is empty after trimming is read back empty. -/
theorem c37_xmp_round_trip (env : XmlEnv) (M : Metadata) (h : fieldsXmlSafe M = true) :
    ∃ R, Unmarshal env (Marshal M) = .ok R
      ∧ R.Title = trimSpace M.Title ∧ R.Author = trimSpace M.Author
      ∧ R.Subject = trimSpace M.Subject ∧ R.Keywords = trimSpace M.Keywords
      ∧ R.Creator = trimSpace M.Creator ∧ R.Producer = trimSpace M.Producer
      ∧ R.CreationDate = trimSpace M.CreationDate ∧ R.ModDate = trimSpace M.ModDate
      ∧ (trimSpace M.Title = [] → R.Title = []) ∧ (trimSpace M.Author = [] → R.Author = [])
      ∧ (trimSpace M.Subject = [] → R.Subject = [])
      ∧ (trimSpace M.Keywords = [] → R.Keywords = [])
      ∧ (trimSpace M.Creator = [] → R.Creator = [])
      ∧ (trimSpace M.Producer = [] → R.Producer = [])
      ∧ (trimSpace M.CreationDate = [] → R.CreationDate = [])
      ∧ (trimSpace M.ModDate = [] → R.ModDate = []) :=
  ⟨trimFields M, unmarshal_marshal env M h, rfl, rfl, rfl, rfl, rfl, rfl, rfl, rfl,
    id, id, id, id, id, id, id, id⟩

/-- C37 at `markupRecord`: the markup characters, the quotes and the CR, LF
and TAB inside a value come back as they were, the padded value comes back
trimmed and the value of white space comes back empty. -/
theorem c37_witness :
    fieldsXmlSafe markupRecord = true
      ∧ Unmarshal asciiEnv (Marshal markupRecord)
          = .ok { Title := bytesOf "a & b <c> \"d\" 'e'", Subject := bytesOf "line1\r\nline2\tend",
                  Author := [0xE2, 0x82, 0xAC], Producer := bytesOf "padded" }
      ∧ ∃ R, Unmarshal asciiEnv (Marshal markupRecord) = .ok R ∧ R.Keywords = [] :=
  ⟨by decide!, by decide!,
    (c37_xmp_round_trip asciiEnv markupRecord (by decide!)).elim
      (fun R hR => ⟨R, hR.1, hR.2.2.2.2.2.2.2.2.2.2.2.2.1 (by decide!)⟩)⟩

/-! ### `Upsert` applied twice -/

/-- C39, the code on the file of its own test: the first `Upsert` appends the
packet; the second replaces the bytes from `<x:xmpmeta` through `</x:xmpmeta>`,
which lie inside the packet, by a whole packet, so the `xpacket` lines of the
first packet stay around it.  The result is not the result of the first
`Upsert`, and it has two begin markers and two end markers. -/
theorem c39_second_upsert_wraps :
    Upsert headerOnlyPdf firstTitle = headerOnlyPdf ++ Marshal firstTitle
      ∧ Upsert (Upsert headerOnlyPdf firstTitle) firstTitle
          = headerOnlyPdf ++ (xpacketBegin ++ bytesOf "\n") ++ Marshal firstTitle
              ++ (bytesOf "\n" ++ xpacketEnd ++ bytesOf "\n")
      ∧ Upsert (Upsert headerOnlyPdf firstTitle) firstTitle ≠ Upsert headerOnlyPdf firstTitle
      ∧ countAt (Upsert headerOnlyPdf firstTitle) xpacketBegin = 1
      ∧ countAt (Upsert (Upsert headerOnlyPdf firstTitle) firstTitle) xpacketBegin = 2
      ∧ countAt (Upsert (Upsert headerOnlyPdf firstTitle) firstTitle) xpacketEnd = 2
      ∧ countAt (Upsert (Upsert headerOnlyPdf firstTitle) firstTitle) xmpOpenTag = 1 := by
  decide!

/-! ### The flag of `normalizeMetadata` -/

/-- C40, the code at two records: a date that is no date is trimmed in lenient
mode, and a date of white space is emptied in strict mode; the record that
`normalizeMetadata` returns differs from its input in that date, and the flag
`changed` is false.  A padded title sets the flag. -/
theorem c40_trimmed_date_not_flagged :
    normalizeMetadata fixedTimeEnv paddedDateRecord false
        = .ok ({ Title := bytesOf "Report", CreationDate := bytesOf "next week" }, false)
      ∧ normalizeMetadata fixedTimeEnv blankDateRecord true
        = .ok ({ Title := bytesOf "Report" }, false)
      ∧ normalizeMetadata fixedTimeEnv { Title := bytesOf " Report" } true
        = .ok ({ Title := bytesOf "Report" }, true) := by
  decide!

/-! ### The template store -/

theorem replaceNamed_some {r : TemplateRecord} :
    ∀ {l l2 : List TemplateRecord}, replaceNamed r l = some l2 →
      ∃ pre old post, l = pre ++ old :: post ∧ old.Name = r.Name
        ∧ (∀ t ∈ pre, t.Name ≠ r.Name) ∧ l2 = pre ++ r :: post := by
  intro l
  induction l with
  | nil => intro l2 h; simp [replaceNamed] at h
  | cons t ts ih =>
    intro l2 h
    simp only [replaceNamed] at h
    split at h
    · rename_i ht
      simp only [Option.some.injEq] at h
      exact ⟨[], t, ts, rfl, ht, by simp, by simp [h]⟩
    · rename_i ht
      cases hr : replaceNamed r ts with
      | none => rw [hr] at h; cases h
      | some r2 =>
        rw [hr] at h
        simp only [Option.some.injEq] at h
        obtain ⟨pre, old, post, e1, e2, e3, e4⟩ := ih hr
        refine ⟨t :: pre, old, post, by simp [e1], e2, ?_, by simp [← h, e4]⟩
        intro u hu
        rcases List.mem_cons.1 hu with rfl | hu
        · exact ht
        · exact e3 u hu

theorem replaceNamed_none {r : TemplateRecord} :
    ∀ {l : List TemplateRecord}, replaceNamed r l = none → ∀ t ∈ l, t.Name ≠ r.Name := by
  intro l
  induction l with
  | nil => intro _ t ht; simp at ht
  | cons u us ih =>
    intro h t ht
    simp only [replaceNamed] at h
    split at h
    · cases h
    · rename_i hu
      cases hr : replaceNamed r us with
      | some r2 => rw [hr] at h; cases h
      | none =>
        rcases List.mem_cons.1 ht with rfl | ht
        · exact hu
        · exact ih hr t ht

theorem ctxErr_quiet {io : StoreIo} (h : io.canceled = false) : ctxErr io = none := by
  simp [ctxErr, h]

theorem isEmpty_eq_false_of_ne {l : Bytes} (h : l ≠ []) : l.isEmpty = false := by
  cases l with
  | nil => exact absurd rfl h
  | cons _ _ => rfl

/-- Records of one list whose names differ pairwise: a record is known by its name. -/
theorem eq_of_name_eq {l : List TemplateRecord} (hn : (l.map (fun t => t.Name)).Nodup)
    {a b : TemplateRecord} (ha : a ∈ l) (hb : b ∈ l) (h : a.Name = b.Name) : a = b :=
  List.inj_on_of_nodup_map hn ha hb h

theorem find_name_perm {l l2 : List TemplateRecord} (hp : l.Perm l2)
    (hn : (l.map (fun t => t.Name)).Nodup) (x : Bytes) :
    l.find? (fun t => t.Name == x) = l2.find? (fun t => t.Name == x) := by
  have hn2 : (l2.map (fun t => t.Name)).Nodup := (hp.map _).nodup_iff.1 hn
  cases h1 : l.find? (fun t => t.Name == x) with
  | none =>
    symm
    rw [List.find?_eq_none] at h1 ⊢
    intro t ht
    exact h1 t (hp.mem_iff.2 ht)
  | some a =>
    have ha := List.find?_some h1
    have ham := List.mem_of_find?_eq_some h1
    cases h2 : l2.find? (fun t => t.Name == x) with
    | none =>
      rw [List.find?_eq_none] at h2
      exact absurd ha (h2 a (hp.mem_iff.1 ham))
    | some b =>
      have hb := List.find?_some h2
      have hbm := List.mem_of_find?_eq_some h2
      simp only [beq_iff_eq] at ha hb
      rw [eq_of_name_eq hn ham (hp.mem_iff.2 hbm) (ha.trans hb.symm)]

/-- With the context alive and the file readable, `Get` looks the trimmed name
up in the sorted records. -/
theorem Get_quiet (env : SortEnv) {io : StoreIo} (hc : io.canceled = false)
    (hl : io.loadError = none) (file : List TemplateRecord) {n : Bytes} (hn : trimSpace n ≠ []) :
    FileStore.Get env io file n
      = (match (sortTemplates env file).find? (fun t => t.Name == trimSpace n) with
         | some t => .ok t
         | none => .error ⟨.ErrNotFound, "template not found"⟩) := by
  unfold FileStore.Get FileStore.load
  rw [ctxErr_quiet hc, hl]
  simp only [isEmpty_eq_false_of_ne hn, Bool.false_eq_true, ↓reduceIte]

theorem find_append_replace {pre post : List TemplateRecord} {a b : TemplateRecord} {x : Bytes}
    (ha : a.Name ≠ x) (hb : b.Name ≠ x) :
    (pre ++ a :: post).find? (fun t => t.Name == x)
      = (pre ++ b :: post).find? (fun t => t.Name == x) := by
  induction pre with
  | nil => simp [List.find?_cons, ha, hb]
  | cons p ps ih => simp only [List.cons_append, List.find?_cons, ih]

/-- Records that JSON carries unchanged are not changed by writing them. -/
theorem map_jsonRecord_kept {l : List TemplateRecord} (h : ∀ t ∈ l, jsonRecord t = t) :
    l.map jsonRecord = l := by
  induction l with
  | nil => rfl
  | cons t ts ih =>
    rw [List.map_cons, h t (List.mem_cons_self _ _),
      ih (fun u hu => h u (List.mem_cons_of_mem _ hu))]

/-- C35, the claim as written fails: a store written by hand may hold a record
without a name; a record whose name is white space has that name after
trimming, and `Save` rejects it with the code `ErrValidation`, not `ErrConflict`. -/
theorem c35_nameless_record_not_conflict :
    (∃ t ∈ namelessStore, t.Name = trimSpace (bytesOf " "))
      ∧ FileStore.Save insertionSortEnv {} namelessStore { Name := bytesOf " " } false
          = (.error ⟨.ErrValidation, "template name is required"⟩, namelessStore) := by
  refine ⟨⟨_, List.mem_singleton.2 rfl, by decide⟩, by decide⟩

/-- C35, amended: the context is alive, the file can be read and written, and
its records are as JSON carries them (as the records of every file are).
For a record whose trimmed name is not empty and is the name of a stored
record: without `force`, `Save` fails with the code `ErrConflict` and the file
stays as it is; with `force`, `Save` returns the record with its trimmed name,
and the file `after` holds the sorted records, with the first record of that
name replaced by the new one, as `json.MarshalIndent` writes them: the new
record as JSON carries it (`jsonRecord`) and the others as they were.  When
the stored names differ pairwise and the trimmed name is valid UTF-8, `Get` of
the name then returns the new record as JSON carries it, which is the new
record itself when all its strings are valid UTF-8, and `Get` of any other
name returns what it returned before. -/
theorem c35_save_existing (env : SortEnv) (io : StoreIo) (file : List TemplateRecord)
    (record : TemplateRecord)
    (hio : io.canceled = false ∧ io.loadError = none ∧ io.storeError = none)
    (hname : trimSpace record.Name ≠ [])
    (hex : ∃ t ∈ file, t.Name = trimSpace record.Name)
    (hfile : ∀ t ∈ file, jsonRecord t = t) :
    (∃ msg, FileStore.Save env io file record false = (.error ⟨.ErrConflict, msg⟩, file))
      ∧ ∃ pre old post after, sortTemplates env file = pre ++ old :: post
          ∧ old.Name = trimSpace record.Name
          ∧ (∀ t ∈ pre, t.Name ≠ trimSpace record.Name)
          ∧ FileStore.Save env io file record true
              = (.ok { record with Name := trimSpace record.Name }, after)
          ∧ after = (sortTemplates env
                (pre ++ { record with Name := trimSpace record.Name } :: post)).map jsonRecord
          ∧ after.Perm (pre ++ jsonRecord { record with Name := trimSpace record.Name } :: post)
          ∧ ((file.map (fun t => t.Name)).Nodup →
              jsonText (trimSpace record.Name) = trimSpace record.Name →
              FileStore.Get env io after record.Name
                = .ok (jsonRecord { record with Name := trimSpace record.Name })
              ∧ (jsonRecord { record with Name := trimSpace record.Name }
                    = { record with Name := trimSpace record.Name } →
                  FileStore.Get env io after record.Name
                    = .ok { record with Name := trimSpace record.Name })
              ∧ ∀ n, trimSpace n ≠ trimSpace record.Name →
                  FileStore.Get env io after n = FileStore.Get env io file n) := by
  obtain ⟨hc, hl, hs⟩ := hio
  obtain ⟨t, ht, htn⟩ := hex
  have hmem : t ∈ sortTemplates env file := (env.perm file).mem_iff.2 ht
  cases hr : replaceNamed { record with Name := trimSpace record.Name } (sortTemplates env file) with
  | none => exact absurd htn (replaceNamed_none hr t hmem)
  | some replaced =>
    obtain ⟨pre, old, post, e1, e2, e3, e4⟩ := replaceNamed_some hr
    have hsave : ∀ force, FileStore.Save env io file record force
        = if !force then (.error ⟨.ErrConflict, "template already exists"⟩, file)
          else (.ok { record with Name := trimSpace record.Name },
            (sortTemplates env replaced).map jsonRecord) := by
      intro force
      unfold FileStore.Save FileStore.load FileStore.store
      rw [ctxErr_quiet hc, hl, hs]
      simp only [isEmpty_eq_false_of_ne hname, Bool.false_eq_true, ↓reduceIte, hr]
    have hp1 : (pre ++ old :: post).Perm file := e1 ▸ env.perm file
    have hkept : ∀ u ∈ pre ++ old :: post, jsonRecord u = u :=
      fun u hu => hfile u (hp1.mem_iff.1 hu)
    have hpre : pre.map jsonRecord = pre :=
      map_jsonRecord_kept (fun u hu => hkept u (List.mem_append_left _ hu))
    have hpost : post.map jsonRecord = post :=
      map_jsonRecord_kept (fun u hu =>
        hkept u (List.mem_append_right _ (List.mem_cons_of_mem _ hu)))
    have hperm : ((sortTemplates env
        (pre ++ { record with Name := trimSpace record.Name } :: post)).map jsonRecord).Perm
        (pre ++ jsonRecord { record with Name := trimSpace record.Name } :: post) := by
      have := (env.perm (pre ++ { record with Name := trimSpace record.Name } :: post)).map
        jsonRecord
      rwa [List.map_append, List.map_cons, hpre, hpost] at this
    refine ⟨⟨_, by rw [hsave]; rfl⟩, pre, old, post, _, e1, e2, e3,
      by rw [hsave, e4]; rfl, rfl, hperm, ?_⟩
    intro hnd hvalid
    have hjn : (jsonRecord { record with Name := trimSpace record.Name }).Name
        = trimSpace record.Name := hvalid
    have hnames : (pre ++ jsonRecord { record with Name := trimSpace record.Name } :: post).map
        (fun t => t.Name) = (pre ++ old :: post).map (fun t => t.Name) := by
      simp [e2, hjn]
    have hnd1 : ((pre ++ old :: post).map (fun t => t.Name)).Nodup :=
      (hp1.map _).nodup_iff.2 hnd
    have hnd2 : ((pre ++ jsonRecord { record with Name := trimSpace record.Name } :: post).map
        (fun t => t.Name)).Nodup := by rw [hnames]; exact hnd1
    have hps : (pre ++ jsonRecord { record with Name := trimSpace record.Name } :: post).Perm
        (sortTemplates env ((sortTemplates env
          (pre ++ { record with Name := trimSpace record.Name } :: post)).map jsonRecord)) :=
      (hperm.symm).trans (env.perm _).symm
    have hget : FileStore.Get env io ((sortTemplates env
          (pre ++ { record with Name := trimSpace record.Name } :: post)).map jsonRecord)
          record.Name
        = .ok (jsonRecord { record with Name := trimSpace record.Name }) := by
      rw [Get_quiet env hc hl _ hname, ← find_name_perm hps hnd2]
      have : (pre ++ jsonRecord { record with Name := trimSpace record.Name } :: post).find?
          (fun t => t.Name == trimSpace record.Name)
          = some (jsonRecord { record with Name := trimSpace record.Name }) := by
        rw [List.find?_append]
        have hpre0 : pre.find? (fun t => t.Name == trimSpace record.Name) = none := by
          rw [List.find?_eq_none]
          intro u hu
          simpa using e3 u hu
        rw [hpre0]
        simp [List.find?_cons, hjn]
      rw [this]
    refine ⟨hget, fun hrec => by rw [hget, hrec], ?_⟩
    intro n hn
    by_cases hne : trimSpace n = []
    · unfold FileStore.Get
      rw [ctxErr_quiet hc]
      simp [hne]
    · rw [Get_quiet env hc hl _ hne, Get_quiet env hc hl _ hne,
        ← find_name_perm hps hnd2, e1]
      rw [find_append_replace
        (a := jsonRecord { record with Name := trimSpace record.Name }) (b := old)
        (fun h => hn (h.symm.trans hjn)) (fun h => hn (h.symm.trans e2))]

/-- C35 on the records of the test of `Save`: the second record of the name
`default` is refused without `force` and replaces the first with `force`. -/
theorem c35_witness :
    FileStore.Save insertionSortEnv {} twoTemplates defaultV2 true
        = (.ok { defaultV2 with Name := bytesOf "default" },
           [{ Name := bytesOf "alpha" }, { defaultV2 with Name := bytesOf "default" }])
      ∧ FileStore.Get insertionSortEnv {}
          [{ Name := bytesOf "alpha" }, { defaultV2 with Name := bytesOf "default" }]
          (bytesOf "default") = .ok { defaultV2 with Name := bytesOf "default" }
      ∧ ∃ msg, FileStore.Save insertionSortEnv {} twoTemplates defaultV2 false
          = (.error ⟨.ErrConflict, msg⟩, twoTemplates) :=
  ⟨by decide, by decide,
    (c35_save_existing insertionSortEnv {} twoTemplates defaultV2 ⟨rfl, rfl, rfl⟩ (by decide)
      ⟨defaultV1, by decide, by decide⟩ (by decide)).1⟩

/-! ### The order of the stored records -/

theorem store_ok {env : SortEnv} {io : StoreIo} {state f : List TemplateRecord}
    (h : FileStore.store env io state = .ok f) : f = (env.sort state).map jsonRecord := by
  unfold FileStore.store at h
  cases hs : io.storeError with
  | some e => rw [hs] at h; cases h
  | none =>
    rw [hs] at h
    simp only [Except.ok.injEq] at h
    exact h.symm

/-- After a `Save` that succeeds the file holds, sorted and as JSON carries
them, records of the file before and the record saved. -/
theorem Save_ok_shape {env : SortEnv} {io : StoreIo} {file f : List TemplateRecord}
    {record r : TemplateRecord} {force : Bool}
    (h : FileStore.Save env io file record force = (.ok r, f)) :
    ∃ l, f = (env.sort l).map jsonRecord
      ∧ ∀ t ∈ l, t ∈ file ∨ t = { record with Name := trimSpace record.Name } := by
  unfold FileStore.Save at h
  cases hc : ctxErr io with
  | some e => rw [hc] at h; simp at h
  | none =>
    rw [hc] at h
    simp only at h
    by_cases hn : (trimSpace record.Name).isEmpty = true
    · simp [hn] at h
    · simp only [hn, Bool.false_eq_true, ↓reduceIte] at h
      cases hl : FileStore.load env io file with
      | error e => rw [hl] at h; simp at h
      | ok state =>
        have hstate : ∀ t ∈ state, t ∈ file := by
          intro t ht
          unfold FileStore.load at hl
          cases he : io.loadError with
          | some e => rw [he] at hl; cases hl
          | none =>
            rw [he] at hl
            simp only [Except.ok.injEq] at hl
            rw [← hl] at ht
            exact (env.perm file).mem_iff.1 ht
        rw [hl] at h
        simp only at h
        cases hr : replaceNamed { record with Name := trimSpace record.Name } state with
        | some replaced =>
          rw [hr] at h
          simp only at h
          cases force with
          | false => simp at h
          | true =>
            simp only [Bool.not_true, Bool.false_eq_true, ↓reduceIte] at h
            cases hs : FileStore.store env io replaced with
            | error e => rw [hs] at h; simp at h
            | ok f2 =>
              rw [hs] at h
              simp only [Prod.mk.injEq] at h
              refine ⟨_, h.2 ▸ store_ok hs, ?_⟩
              obtain ⟨pre, old, post, e1, -, -, e4⟩ := replaceNamed_some hr
              intro t ht
              rw [e4] at ht
              rcases List.mem_append.1 ht with ht | ht
              · exact Or.inl (hstate t (e1 ▸ List.mem_append_left _ ht))
              · rcases List.mem_cons.1 ht with rfl | ht
                · exact Or.inr rfl
                · exact Or.inl (hstate t
                    (e1 ▸ List.mem_append_right _ (List.mem_cons_of_mem _ ht)))
        | none =>
          rw [hr] at h
          simp only at h
          cases hs : FileStore.store env io
              (sortTemplates env (state ++ [{ record with Name := trimSpace record.Name }])) with
          | error e => rw [hs] at h; simp at h
          | ok f2 =>
            rw [hs] at h
            simp only [Prod.mk.injEq] at h
            refine ⟨_, h.2 ▸ store_ok hs, ?_⟩
            intro t ht
            have ht2 := (env.perm _).mem_iff.1 ht
            rcases List.mem_append.1 ht2 with ht2 | ht2
            · exact Or.inl (hstate t ht2)
            · exact Or.inr (List.mem_singleton.1 ht2)

/-- After a `Delete` that succeeds the file holds, sorted and as JSON carries
them, records of the file before. -/
theorem Delete_ok_shape {env : SortEnv} {io : StoreIo} {file f : List TemplateRecord}
    {name : Bytes} (h : FileStore.Delete env io file name = (none, f)) :
    ∃ l, f = (env.sort l).map jsonRecord ∧ ∀ t ∈ l, t ∈ file := by
  unfold FileStore.Delete at h
  cases hc : ctxErr io with
  | some e => rw [hc] at h; simp at h
  | none =>
    rw [hc] at h
    simp only at h
    by_cases hn : (trimSpace name).isEmpty = true
    · simp [hn] at h
    · simp only [hn, Bool.false_eq_true, ↓reduceIte] at h
      cases hl : FileStore.load env io file with
      | error e => rw [hl] at h; simp at h
      | ok state =>
        have hstate : ∀ t ∈ state, t ∈ file := by
          intro t ht
          unfold FileStore.load at hl
          cases he : io.loadError with
          | some e => rw [he] at hl; cases hl
          | none =>
            rw [he] at hl
            simp only [Except.ok.injEq] at hl
            rw [← hl] at ht
            exact (env.perm file).mem_iff.1 ht
        rw [hl] at h
        simp only at h
        by_cases hf : state.any (fun t => t.Name == trimSpace name) = true
        · simp only [hf, Bool.not_true, Bool.false_eq_true, ↓reduceIte] at h
          cases hs : FileStore.store env io
              (sortTemplates env (state.filter (fun t => !(t.Name == trimSpace name)))) with
          | error e => rw [hs] at h; simp at h
          | ok f2 =>
            rw [hs] at h
            simp only [Prod.mk.injEq] at h
            refine ⟨_, h.2 ▸ store_ok hs, ?_⟩
            intro t ht
            have ht2 := (env.perm _).mem_iff.1 ht
            exact hstate t (List.mem_of_mem_filter ht2)
        · simp [hf] at h

/-- Sorted records whose names are valid UTF-8 are written in their order, and
the names read back are the same. -/
theorem sorted_json_kept (env : SortEnv) (l : List TemplateRecord)
    (hk : ∀ t ∈ l, jsonText t.Name = t.Name) :
    ((env.sort l).map jsonRecord).Pairwise (fun a b => bytesLt b.Name a.Name = false)
      ∧ ∀ u ∈ (env.sort l).map jsonRecord, jsonText u.Name = u.Name := by
  have hk2 : ∀ t ∈ env.sort l, (jsonRecord t).Name = t.Name :=
    fun t ht => hk t ((env.perm l).mem_iff.1 ht)
  constructor
  · rw [List.pairwise_map]
    refine (env.sorted l).imp_of_mem ?_
    intro a b ha hb h
    rw [hk2 a ha, hk2 b hb]
    exact h
  · intro u hu
    obtain ⟨t, ht, rfl⟩ := List.mem_map.1 hu
    rw [hk2 t ht]
    exact hk t ((env.perm l).mem_iff.1 ht)

/-- A run of calls that succeed and save names of valid UTF-8 only: the names
of the file stay valid UTF-8, and the file is sorted after the first call. -/
theorem runStoreOps_kept (env : SortEnv) :
    ∀ (steps : List (StoreIo × StoreOp)) (file f : List TemplateRecord),
      (∀ t ∈ file, jsonText t.Name = t.Name) →
      (∀ s ∈ steps, s.2.nameKept = true) →
      runStoreOps env file steps = some f →
      (∀ t ∈ f, jsonText t.Name = t.Name)
        ∧ (steps ≠ [] ∨ file.Pairwise (fun a b => bytesLt b.Name a.Name = false) →
            f.Pairwise (fun a b => bytesLt b.Name a.Name = false)) := by
  intro steps
  induction steps with
  | nil =>
    intro file f hk _ h
    simp only [runStoreOps, Option.some.injEq] at h
    subst h
    exact ⟨hk, fun hs => hs.resolve_left (fun hne => hne rfl)⟩
  | cons s rest ih =>
    intro file f hk hv h
    obtain ⟨io, op⟩ := s
    have hvr : ∀ s ∈ rest, s.2.nameKept = true := fun s hs => hv s (List.mem_cons_of_mem _ hs)
    have hop : op.nameKept = true := hv (io, op) (List.mem_cons_self _ _)
    have key : ∀ f1 l, f1 = (env.sort l).map jsonRecord → (∀ t ∈ l, jsonText t.Name = t.Name) →
        runStoreOps env f1 rest = some f →
        (∀ t ∈ f, jsonText t.Name = t.Name)
          ∧ f.Pairwise (fun a b => bytesLt b.Name a.Name = false) := by
      intro f1 l hf1 hl hrun
      obtain ⟨h1, h2⟩ := sorted_json_kept env l hl
      rw [← hf1] at h1 h2
      obtain ⟨h3, h4⟩ := ih f1 f h2 hvr hrun
      exact ⟨h3, h4 (Or.inr h1)⟩
    cases op with
    | save record force =>
      simp only [runStoreOps] at h
      cases hr : FileStore.Save env io file record force with
      | mk res f1 =>
        rw [hr] at h
        cases res with
        | error e => cases h
        | ok r =>
          obtain ⟨l, hl, hmem⟩ := Save_ok_shape hr
          have hkl : ∀ t ∈ l, jsonText t.Name = t.Name := by
            intro t ht
            rcases hmem t ht with ht | rfl
            · exact hk t ht
            · simpa [StoreOp.nameKept] using hop
          obtain ⟨h3, h4⟩ := key f1 l hl hkl h
          exact ⟨h3, fun _ => h4⟩
    | delete name =>
      simp only [runStoreOps] at h
      cases hr : FileStore.Delete env io file name with
      | mk res f1 =>
        rw [hr] at h
        cases res with
        | some e => cases h
        | none =>
          obtain ⟨l, hl, hmem⟩ := Delete_ok_shape hr
          obtain ⟨h3, h4⟩ := key f1 l hl (fun t ht => hk t (hmem t ht)) h
          exact ⟨h3, fun _ => h4⟩

/-- C36, the claim as written fails: after the name `F0 9F 98 80`, a
character of four bytes, the name `FF` is saved, which is no UTF-8.  Both
calls succeed and `Save` sorts the two records, `FF` last; the file then holds
the second name as JSON wrote it, `EF BF BD`, which is smaller than the first:
the persisted list is not in ascending order.  `List` sorts what it reads. -/
theorem c36_invalid_name_unsorted :
    runStoreOps insertionSortEnv [] invalidNameSteps
        = some [{ Name := [0xF0, 0x9F, 0x98, 0x80] }, { Name := [0xEF, 0xBF, 0xBD] }]
      ∧ bytesLt [0xEF, 0xBF, 0xBD] [0xF0, 0x9F, 0x98, 0x80] = true
      ∧ ¬ List.Pairwise (fun a b => bytesLt b.Name a.Name = false)
          [({ Name := [0xF0, 0x9F, 0x98, 0x80] } : TemplateRecord), { Name := [0xEF, 0xBF, 0xBD] }]
      ∧ FileStore.ListRecords insertionSortEnv {}
          [{ Name := [0xF0, 0x9F, 0x98, 0x80] }, { Name := [0xEF, 0xBF, 0xBD] }]
          = .ok [{ Name := [0xEF, 0xBF, 0xBD] }, { Name := [0xF0, 0x9F, 0x98, 0x80] }] := by
  refine ⟨by decide, by decide, by decide, by decide⟩

/-- C36, amended: after a sequence of calls of `Save` and `Delete` that all
succeed, a `List` that succeeds returns the records of the file in ascending
order of their names (no record stands before one of a smaller name),
whatever the file holds.  The file itself holds its records in that order
when the names it held before and the trimmed names of the records saved are
valid UTF-8, and the sequence is not empty or the store was empty before it. -/
theorem c36_sorted (env : SortEnv) (file0 : List TemplateRecord)
    (steps : List (StoreIo × StoreOp)) (file : List TemplateRecord)
    (h : runStoreOps env file0 steps = some file) :
    (∀ io l, FileStore.ListRecords env io file = .ok l →
        l.Pairwise (fun a b => bytesLt b.Name a.Name = false) ∧ l.Perm file)
      ∧ ((∀ t ∈ file0, jsonText t.Name = t.Name) → (∀ s ∈ steps, s.2.nameKept = true) →
          (steps ≠ [] ∨ file0 = [] →
            file.Pairwise (fun a b => bytesLt b.Name a.Name = false))
          ∧ ∀ t ∈ file, jsonText t.Name = t.Name) := by
  constructor
  · intro io l hl
    unfold FileStore.ListRecords FileStore.load at hl
    cases hc : ctxErr io with
    | some e => rw [hc] at hl; cases hl
    | none =>
      rw [hc] at hl
      cases he : io.loadError with
      | some e => rw [he] at hl; cases hl
      | none =>
        rw [he] at hl
        simp only [Except.ok.injEq] at hl
        rw [← hl]
        exact ⟨env.sorted _, (env.perm _).trans (env.perm _)⟩
  · intro hk hv
    obtain ⟨h1, h2⟩ := runStoreOps_kept env steps file0 file hk hv h
    refine ⟨fun hs => h2 ?_, h1⟩
    rcases hs with hs | hs
    · exact Or.inl hs
    · exact Or.inr (hs ▸ List.Pairwise.nil)

/-- C36 on the calls of the test of `List`, with one more record saved and
deleted: the file and the list are `alpha`, `zeta`. -/
theorem c36_witness :
    runStoreOps insertionSortEnv [] listTestSteps
        = some [{ Name := bytesOf "alpha" }, { Name := bytesOf "zeta" }]
      ∧ FileStore.ListRecords insertionSortEnv {}
          [{ Name := bytesOf "alpha" }, { Name := bytesOf "zeta" }]
          = .ok [{ Name := bytesOf "alpha" }, { Name := bytesOf "zeta" }]
      ∧ List.Pairwise (fun a b => bytesLt b.Name a.Name = false)
          [({ Name := bytesOf "alpha" } : TemplateRecord), { Name := bytesOf "zeta" }] :=
  ⟨by decide, by decide,
    ((c36_sorted insertionSortEnv [] listTestSteps _ (by decide)).2
      (fun t ht => by cases ht) (by decide)).1 (Or.inr rfl)⟩

/-! ### The batch engine -/

theorem runItems_length {σ ε : Type} (r : Runner σ ε) (strict : Bool) :
    ∀ (items : List Item) (s : σ), (runItems r strict items s).2.length = items.length := by
  intro items
  induction items with
  | nil => intro s; rfl
  | cons item rest ih =>
    intro s
    simp only [runItems, List.length_cons, ih]

theorem filter_split_length {α : Type} (p : α → Bool) (l : List α) :
    (l.filter (fun e => !p e)).length + (l.filter p).length = l.length := by
  induction l with
  | nil => rfl
  | cons a t ih =>
    cases h : p a <;> simp [List.filter_cons, h] <;> omega

theorem executeLoop_continue {σ ε : Type} (r : Runner σ ε) (canceled : σ → Bool)
    (hc : ∀ s, canceled s = false) (strict : Bool) :
    ∀ (items : List Item) (s : σ) (result : BatchResult),
      executeLoop r canceled strict true items s result
        = ((runItems r strict items s).1,
           { result with
             Items := result.Items ++ (runItems r strict items s).2.map Prod.fst
             Succeeded := result.Succeeded
               + ((runItems r strict items s).2.filter (fun e => !e.2)).length
             Failed := result.Failed + ((runItems r strict items s).2.filter (fun e => e.2)).length },
           AggregateError
             { result with
               Items := result.Items ++ (runItems r strict items s).2.map Prod.fst
               Succeeded := result.Succeeded
                 + ((runItems r strict items s).2.filter (fun e => !e.2)).length
               Failed := result.Failed
                 + ((runItems r strict items s).2.filter (fun e => e.2)).length }) := by
  intro items
  induction items with
  | nil => intro s result; simp [executeLoop, runItems]
  | cons item rest ih =>
    intro s result
    simp only [executeLoop, hc, Bool.false_eq_true, ↓reduceIte, runItems]
    cases h : executeItem r s item strict with
    | mk s1 p =>
      obtain ⟨entry, err⟩ := p
      cases err with
      | some e =>
        simp only [Bool.not_true, Bool.false_eq_true, ↓reduceIte, ih, Option.isSome_some,
          List.map_cons, List.filter_cons, Bool.not_true, List.append_assoc, List.singleton_append,
          List.length_cons]
        simp only [Nat.add_assoc, Nat.add_comm 1]
      | none =>
        simp only [ih, Option.isSome_none, List.map_cons, List.filter_cons, Bool.not_false,
          Bool.false_eq_true, ↓reduceIte, List.append_assoc, List.singleton_append,
          List.length_cons]
        simp only [Nat.add_assoc, Nat.add_comm 1]

theorem firstFailureLength_le {σ ε : Type} (r : Runner σ ε) (strict : Bool) :
    ∀ (items : List Item) (s : σ), firstFailureLength r strict items s ≤ items.length := by
  intro items
  induction items with
  | nil => intro s; exact Nat.le_refl _
  | cons item rest ih =>
    intro s
    simp only [firstFailureLength, List.length_cons]
    cases h : executeItem r s item strict with
    | mk s1 p =>
      obtain ⟨entry, err⟩ := p
      cases err with
      | some e => simp
      | none => simpa using ih s1

theorem executeLoop_stop {σ ε : Type} (r : Runner σ ε) (canceled : σ → Bool)
    (hc : ∀ s, canceled s = false) (strict : Bool) :
    ∀ (items : List Item) (s : σ) (result : BatchResult),
      executeLoop r canceled strict false items s result
        = ((runItems r strict (items.take (firstFailureLength r strict items s)) s).1,
           { result with
             Items := result.Items
               ++ (runItems r strict (items.take (firstFailureLength r strict items s)) s).2.map
                    Prod.fst
             Succeeded := result.Succeeded
               + ((runItems r strict (items.take (firstFailureLength r strict items s)) s).2.filter
                    (fun e => !e.2)).length
             Failed := result.Failed
               + ((runItems r strict (items.take (firstFailureLength r strict items s)) s).2.filter
                    (fun e => e.2)).length },
           AggregateError
             { result with
               Items := result.Items
                 ++ (runItems r strict (items.take (firstFailureLength r strict items s)) s).2.map
                      Prod.fst
               Succeeded := result.Succeeded
                 + ((runItems r strict (items.take (firstFailureLength r strict items s))
                      s).2.filter (fun e => !e.2)).length
               Failed := result.Failed
                 + ((runItems r strict (items.take (firstFailureLength r strict items s))
                      s).2.filter (fun e => e.2)).length }) := by
  intro items
  induction items with
  | nil => intro s result; simp [executeLoop, runItems, firstFailureLength]
  | cons item rest ih =>
    intro s result
    simp only [executeLoop, hc, Bool.false_eq_true, ↓reduceIte, firstFailureLength]
    cases h : executeItem r s item strict with
    | mk s1 p =>
      obtain ⟨entry, err⟩ := p
      cases err with
      | some e =>
        simp [runItems, h]
      | none =>
        simp only [ih, List.take_succ_cons, runItems, h, Option.isSome_none, List.map_cons,
          List.filter_cons, Bool.not_false, Bool.false_eq_true, ↓reduceIte, List.append_assoc,
          List.singleton_append, List.length_cons]
        simp only [Nat.add_assoc, Nat.add_comm 1]

/-- Without `ContinueOnError` no entry before the last is a failure, there is
at most one failure, and when items are left over the last entry is one. -/
theorem runItems_firstFailure {σ ε : Type} (r : Runner σ ε) (strict : Bool) :
    ∀ (items : List Item) (s : σ),
      (∀ e ∈ (runItems r strict (items.take (firstFailureLength r strict items s)) s).2.dropLast,
          e.2 = false)
        ∧ ((runItems r strict (items.take (firstFailureLength r strict items s)) s).2.filter
            (fun e => e.2)).length ≤ 1
        ∧ (firstFailureLength r strict items s < items.length →
            ∃ e, (runItems r strict (items.take (firstFailureLength r strict items s)) s).2.getLast?
                = some e ∧ e.2 = true) := by
  intro items
  induction items with
  | nil => intro s; simp [firstFailureLength, runItems]
  | cons item rest ih =>
    intro s
    simp only [firstFailureLength]
    cases h : executeItem r s item strict with
    | mk s1 p =>
      obtain ⟨entry, err⟩ := p
      cases err with
      | some e => simp [runItems, h]
      | none =>
        obtain ⟨i1, i2, i3⟩ := ih s1
        simp only [List.take_succ_cons, runItems, h, Option.isSome_none, List.length_cons,
          Nat.add_lt_add_iff_right]
        have hlen := runItems_length r strict (rest.take (firstFailureLength r strict rest s1)) s1
        refine ⟨?_, ?_, ?_⟩
        · intro e he
          cases hes : (runItems r strict (rest.take (firstFailureLength r strict rest s1)) s1).2 with
          | nil => rw [hes] at he; simp at he
          | cons a t =>
            rw [hes] at he i1
            rw [List.dropLast_cons₂] at he
            rcases List.mem_cons.1 he with rfl | he
            · rfl
            · exact i1 e he
        · simpa [List.filter_cons] using i2
        · intro hlt
          obtain ⟨e, he, he2⟩ := i3 hlt
          refine ⟨e, ?_, he2⟩
          cases hes : (runItems r strict (rest.take (firstFailureLength r strict rest s1)) s1).2 with
          | nil => rw [hes] at he; simp at he
          | cons a t =>
            rw [hes] at he
            rw [List.getLast?_cons_cons]
            exact he

/-- C34: the context is never cancelled and the manifest loads with the items
`items`.  Then `Execute` runs a prefix of `items` in their order, each item in
the state of the world the one before left, and nothing else: the state after
the call is the state after that prefix, and `Items` holds the entries of that
prefix in order.  `Total` is the number of items of the manifest, `Succeeded`
and `Failed` count the entries without and with an error, so their sum is the
number of entries, and the error returned is not nil exactly when `Failed` is
positive.  With `ContinueOnError` the prefix is the whole manifest.  Without
it no entry before the last is a failure, at most one entry is, and when the
prefix is shorter than the manifest its last entry is a failure. -/
theorem c34_execute {σ ε : Type} (r : Runner σ ε) (canceled : σ → Bool) (req : BatchRequest)
    (decoded : Except AppError (List Item)) (items : List Item) (s0 : σ)
    (hc : ∀ s, canceled s = false)
    (hm : LoadManifest req.ManifestPath decoded = .ok items) :
    ∃ n s es err,
      n ≤ items.length
        ∧ runItems r req.Strict (items.take n) s0 = (s, es)
        ∧ Execute (some r) canceled req decoded s0
            = (s, { Items := es.map Prod.fst, Total := items.length,
                    Succeeded := (es.filter (fun e => !e.2)).length,
                    Failed := (es.filter (fun e => e.2)).length }, err)
        ∧ es.length = n
        ∧ (es.filter (fun e => !e.2)).length + (es.filter (fun e => e.2)).length = es.length
        ∧ (err.isSome = true ↔ 0 < (es.filter (fun e => e.2)).length)
        ∧ (req.ContinueOnError = true → n = items.length)
        ∧ (req.ContinueOnError = false →
            (∀ e ∈ es.dropLast, e.2 = false) ∧ (es.filter (fun e => e.2)).length ≤ 1
              ∧ (n < items.length → ∃ e, es.getLast? = some e ∧ e.2 = true)) := by
  have hagg : ∀ res : BatchResult, (AggregateError res).isSome = true ↔ 0 < res.Failed := by
    intro res
    unfold AggregateError
    by_cases h : res.Failed = 0
    · simp [h]
    · simp [h]; omega
  cases hcoe : req.ContinueOnError with
  | true =>
    have hex : Execute (some r) canceled req decoded s0
        = ((runItems r req.Strict items s0).1,
           { Items := (runItems r req.Strict items s0).2.map Prod.fst, Total := items.length,
             Succeeded := ((runItems r req.Strict items s0).2.filter (fun e => !e.2)).length,
             Failed := ((runItems r req.Strict items s0).2.filter (fun e => e.2)).length },
           AggregateError
             { Items := (runItems r req.Strict items s0).2.map Prod.fst, Total := items.length,
               Succeeded := ((runItems r req.Strict items s0).2.filter (fun e => !e.2)).length,
               Failed := ((runItems r req.Strict items s0).2.filter (fun e => e.2)).length }) := by
      unfold Execute
      rw [hm]
      simp only [hcoe, executeLoop_continue r canceled hc, List.nil_append, Nat.zero_add]
    exact ⟨items.length, (runItems r req.Strict items s0).1, (runItems r req.Strict items s0).2,
      _, Nat.le_refl _, by rw [List.take_length], hex, runItems_length _ _ _ _,
      filter_split_length _ _, hagg _, fun _ => rfl, fun h => by cases h⟩
  | false =>
    have hle := firstFailureLength_le r req.Strict items s0
    obtain ⟨i1, i2, i3⟩ := runItems_firstFailure r req.Strict items s0
    have hex : Execute (some r) canceled req decoded s0
        = ((runItems r req.Strict (items.take (firstFailureLength r req.Strict items s0)) s0).1,
           { Items := (runItems r req.Strict
                (items.take (firstFailureLength r req.Strict items s0)) s0).2.map Prod.fst,
             Total := items.length,
             Succeeded := ((runItems r req.Strict
                (items.take (firstFailureLength r req.Strict items s0)) s0).2.filter
                  (fun e => !e.2)).length,
             Failed := ((runItems r req.Strict
                (items.take (firstFailureLength r req.Strict items s0)) s0).2.filter
                  (fun e => e.2)).length },
           AggregateError
             { Items := (runItems r req.Strict
                  (items.take (firstFailureLength r req.Strict items s0)) s0).2.map Prod.fst,
               Total := items.length,
               Succeeded := ((runItems r req.Strict
                  (items.take (firstFailureLength r req.Strict items s0)) s0).2.filter
                    (fun e => !e.2)).length,
               Failed := ((runItems r req.Strict
                  (items.take (firstFailureLength r req.Strict items s0)) s0).2.filter
                    (fun e => e.2)).length }) := by
      unfold Execute
      rw [hm]
      simp only [hcoe, executeLoop_stop r canceled hc, List.nil_append, Nat.zero_add]
    refine ⟨firstFailureLength r req.Strict items s0, _, _, _, hle, rfl, hex, ?_,
      filter_split_length _ _, hagg _, (fun h => by cases h), fun _ => ⟨i1, i2, i3⟩⟩
    rw [runItems_length, List.length_take]
    omega

/-- C34 on the manifest of the tests, three items of which the second fails:
with `ContinueOnError` all three are run and recorded, two succeed and one
fails; without it the third is not run, and the counts are 3, 1 and 1. -/
theorem c34_witness :
    Execute (some (fakeRunner [bytesOf "b.pdf"])) (fun _ => false)
        { ManifestPath := bytesOf "m.json", ContinueOnError := true, Strict := false }
        (.ok threeItems) []
      = ([bytesOf "show:a.pdf", bytesOf "set:b.pdf", bytesOf "unset:c.pdf"],
         { Items := [{ InputPath := bytesOf "a.pdf", Status := bytesOf "ok" },
                     { InputPath := bytesOf "b.pdf", Status := bytesOf "error",
                       Error := bytesOf "boom" },
                     { InputPath := bytesOf "c.pdf", Status := bytesOf "ok" }],
           Total := 3, Succeeded := 2, Failed := 1 },
         some ⟨.ErrUnknown, "batch completed with failures"⟩)
      ∧ Execute (some (fakeRunner [bytesOf "b.pdf"])) (fun _ => false)
          { ManifestPath := bytesOf "m.json", ContinueOnError := false, Strict := false }
          (.ok threeItems) []
        = ([bytesOf "show:a.pdf", bytesOf "set:b.pdf"],
           { Items := [{ InputPath := bytesOf "a.pdf", Status := bytesOf "ok" },
                       { InputPath := bytesOf "b.pdf", Status := bytesOf "error",
                         Error := bytesOf "boom" }],
             Total := 3, Succeeded := 1, Failed := 1 },
           some ⟨.ErrUnknown, "batch completed with failures"⟩)
      ∧ ∃ n s es, n ≤ threeItems.length
          ∧ runItems (fakeRunner [bytesOf "b.pdf"]) false (threeItems.take n) [] = (s, es) :=
  ⟨by decide, by decide,
    (c34_execute (fakeRunner [bytesOf "b.pdf"]) (fun _ => false)
      { ManifestPath := bytesOf "m.json", ContinueOnError := false, Strict := false }
      (.ok threeItems) threeItems [] (fun _ => rfl) rfl).elim
      (fun n h => h.elim (fun s h => h.elim (fun es h => h.elim
        (fun _ h => ⟨n, s, es, h.1, h.2.1⟩))))⟩

/-! ### Object numbers above `maxObjectNumber` -/

/-- A match that begins before a text at which the pieces fail ends before
that text, or there is none. -/
theorem matchPieces_before_dying (s : Bytes) :
    ∀ (ps : List Piece), piecesDie s ps = true → ∀ v : Bytes,
      matchPieces ps (v ++ s) = none
        ∨ ∃ w, matchPieces ps (v ++ s) = some (w ++ s) ∧ w.length ≤ v.length := by
  intro ps
  induction ps with
  | nil => intro _ v; exact Or.inr ⟨v, rfl, Nat.le_refl _⟩
  | cons p ps ih =>
    intro hps v
    cases p with
    | lit c =>
      simp only [piecesDie, Bool.and_eq_true, Option.isNone_iff_eq_none] at hps
      cases v with
      | nil => exact Or.inl hps.1
      | cons x v =>
        simp only [List.cons_append, matchPieces]
        by_cases hx : x = c
        · simp only [hx, ↓reduceIte]
          rcases ih hps.2 v with h | ⟨w, h, hw⟩
          · exact Or.inl h
          · exact Or.inr ⟨w, h, by simp only [List.length_cons]; omega⟩
        · simp only [hx, ↓reduceIte, true_or]
    | spaces =>
      simp only [piecesDie, Bool.and_eq_true, Option.isNone_iff_eq_none] at hps
      cases v with
      | nil => exact Or.inl hps.1.1
      | cons x v =>
        simp only [List.cons_append, matchPieces]
        by_cases hx : isReSpace x = true
        · simp only [hx, ↓reduceIte, List.append_eq, dropWhile_append_all]
          by_cases hv : v.all isReSpace = true
          · simp only [hv, ↓reduceIte]
            exact Or.inl hps.1.2
          · simp only [hv, Bool.false_eq_true, ↓reduceIte]
            rcases ih hps.2 (v.dropWhile isReSpace) with h | ⟨w, h, hw⟩
            · exact Or.inl h
            · refine Or.inr ⟨w, h, ?_⟩
              have := (List.dropWhile_suffix (l := v) isReSpace).length_le
              simp only [List.length_cons]
              omega
        · simp only [hx, Bool.false_eq_true, ↓reduceIte, true_or]
    | digits =>
      simp only [piecesDie, Bool.and_eq_true, Option.isNone_iff_eq_none] at hps
      cases v with
      | nil => exact Or.inl hps.1.1
      | cons x v =>
        simp only [List.cons_append, matchPieces]
        by_cases hx : isDigit x = true
        · simp only [List.takeWhile_cons, hx, ↓reduceIte, List.isEmpty_cons, Bool.false_eq_true,
            List.dropWhile_cons, List.append_eq, dropWhile_append_all]
          by_cases hv : v.all isDigit = true
          · simp only [hv, ↓reduceIte]
            exact Or.inl hps.1.2
          · simp only [hv, Bool.false_eq_true, ↓reduceIte]
            rcases ih hps.2 (v.dropWhile isDigit) with h | ⟨w, h, hw⟩
            · exact Or.inl h
            · refine Or.inr ⟨w, h, ?_⟩
              have := (List.dropWhile_suffix (l := v) isDigit).length_le
              simp only [List.length_cons]
              omega
        · simp only [Bool.not_eq_true] at hx
          simp only [List.takeWhile_cons, hx, Bool.false_eq_true, ↓reduceIte, List.isEmpty_nil,
            true_or]

theorem objHeaderAt_eq (xs : Bytes) :
    objHeaderAt xs
      = (match takeDigits1 xs with
         | none => none
         | some (d1, r1) =>
           match skipSpaces1 r1 with
           | none => none
           | some r2 =>
             match takeDigits1 r2 with
             | none => none
             | some (_, r3) =>
               match skipSpaces1 r3 with
               | none => none
               | some r4 =>
                 match skipLit (bytesOf "obj") r4 with
                 | none => none
                 | some r5 => if boundaryAfterWord r5 then some (d1, r5) else none) := by
  unfold objHeaderAt
  cases takeDigits1 xs with
  | none => rfl
  | some p1 =>
    obtain ⟨d1, r1⟩ := p1
    simp only [Option.bind_eq_bind, Option.some_bind]
    cases skipSpaces1 r1 with
    | none => rfl
    | some r2 =>
      simp only [Option.some_bind]
      cases takeDigits1 r2 with
      | none => rfl
      | some p3 =>
        obtain ⟨d2, r3⟩ := p3
        simp only [Option.some_bind]
        cases skipSpaces1 r3 with
        | none => rfl
        | some r4 =>
          simp only [Option.some_bind]
          cases skipLit (bytesOf "obj") r4 with
          | none => rfl
          | some r5 =>
            simp only [Option.some_bind]
            split <;> rfl

/-- A header that `maxObjectNumber` reads is a match of its pieces. -/
theorem objHeaderAt_pieces {xs d1 r : Bytes} (h : objHeaderAt xs = some (d1, r)) :
    matchPieces headerPieces xs = some r := by
  rw [objHeaderAt_eq] at h
  unfold headerPieces
  rw [matchPieces_digits]
  cases h1 : takeDigits1 xs with
  | none => rw [h1] at h; cases h
  | some p1 =>
    obtain ⟨e1, r1⟩ := p1
    rw [h1] at h
    simp only at h ⊢
    rw [matchPieces_spaces]
    cases h2 : skipSpaces1 r1 with
    | none => rw [h2] at h; cases h
    | some r2 =>
      rw [h2] at h
      simp only at h ⊢
      rw [matchPieces_digits]
      cases h3 : takeDigits1 r2 with
      | none => rw [h3] at h; cases h
      | some p3 =>
        obtain ⟨e2, r3⟩ := p3
        rw [h3] at h
        simp only at h ⊢
        rw [matchPieces_spaces]
        cases h4 : skipSpaces1 r3 with
        | none => rw [h4] at h; cases h
        | some r4 =>
          rw [h4] at h
          simp only at h ⊢
          have e : [Piece.lit 111, Piece.lit 98, Piece.lit 106]
              = (bytesOf "obj").map Piece.lit ++ [] := rfl
          rw [e, matchPieces_lits]
          cases h5 : skipLit (bytesOf "obj") r4 with
          | none => rw [h5] at h; cases h
          | some r5 =>
            rw [h5] at h
            simp only at h ⊢
            split at h
            · simp only [Option.some.injEq, Prod.mk.injEq] at h
              rw [h.2]
              rfl
            · cases h

theorem skipLit_some {lit xs r : Bytes} (h : skipLit lit xs = some r) : xs = lit ++ r := by
  unfold skipLit at h
  split at h
  · rename_i hp
    simp only [Option.some.injEq] at h
    rw [← h]
    exact hasPrefix_eq_append hp
  · cases h

theorem skipSpaces1_some {xs r : Bytes} (h : skipSpaces1 xs = some r) :
    ∃ w t, xs = w :: t ∧ isReSpace w = true ∧ r = t.dropWhile isReSpace := by
  cases xs with
  | nil => simp [skipSpaces1] at h
  | cons w t =>
    simp only [skipSpaces1] at h
    split at h
    · rename_i hw
      simp only [Option.some.injEq] at h
      exact ⟨w, t, rfl, hw, h.symm⟩
    · cases h

theorem isDigit_not_space {c : Nat} (h : isDigit c = true) : isReSpace c = false := by
  have := isDigit_range h
  simp only [isReSpace, Bool.or_eq_false_iff, beq_eq_false_iff_ne, ne_eq]
  omega

theorem isReSpace_not_digit {c : Nat} (h : isReSpace c = true) : isDigit c = false := by
  cases hd : isDigit c with
  | false => rfl
  | true => rw [isDigit_not_space hd] at h; cases h

theorem itoa_cons {x : Int} (h : 0 ≤ x) :
    ∃ d ds, itoa x = d :: ds ∧ isDigit d = true := by
  have hd := itoa_isDigit h
  cases hx : itoa x with
  | nil => exact absurd hx (itoa_ne_nil x)
  | cons d ds => exact ⟨d, ds, rfl, hd d (by rw [hx]; simp)⟩

theorem objectAt_eq (num gen xs : Bytes) :
    objectAt num gen xs
      = (match skipLit num xs with
         | none => none
         | some r1 =>
           match skipSpaces1 r1 with
           | none => none
           | some r2 =>
             match skipLit gen r2 with
             | none => none
             | some r3 =>
               match skipSpaces1 r3 with
               | none => none
               | some r4 =>
                 match skipLit (bytesOf "obj") r4 with
                 | none => none
                 | some r5 => if boundaryAfterWord r5 then bodyToEndobj 106 r5 else none) := by
  unfold objectAt
  cases skipLit num xs with
  | none => rfl
  | some r1 =>
    simp only [Option.bind_eq_bind, Option.some_bind]
    cases skipSpaces1 r1 with
    | none => rfl
    | some r2 =>
      simp only [Option.some_bind]
      cases skipLit gen r2 with
      | none => rfl
      | some r3 =>
        simp only [Option.some_bind]
        cases skipSpaces1 r3 with
        | none => rfl
        | some r4 =>
          simp only [Option.some_bind]
          cases skipLit (bytesOf "obj") r4 with
          | none => rfl
          | some r5 => rfl

/-- The steps of a header `N g obj` at the head of `H`, for numbers `N` and
`g` that are not negative: `maxObjectNumber` reads a header with the digits of
`N` at the same place, and a match of the header pattern that begins before a
line break in front of `H` ends before that line break. -/
theorem header_core {N g : Int} (hN : 0 ≤ N) (hg : 0 ≤ g) {H r1 r2 r3 r4 r5 : Bytes}
    (h1 : skipLit (itoa N) H = some r1) (h2 : skipSpaces1 r1 = some r2)
    (h3 : skipLit (itoa g) r2 = some r3) (h4 : skipSpaces1 r3 = some r4)
    (h5 : skipLit (bytesOf "obj") r4 = some r5) (hb : boundaryAfterWord r5 = true) :
    objHeaderAt H = some (itoa N, r5)
      ∧ (∃ d t, H = d :: t)
      ∧ ∀ c, c = 13 ∨ c = 10 → piecesDie (c :: H) headerPieces = true := by
  have e1 := skipLit_some h1
  obtain ⟨w, t1, e2, hw, e2b⟩ := skipSpaces1_some h2
  have e3 := skipLit_some h3
  obtain ⟨w2, t3, e4, hw2, e4b⟩ := skipSpaces1_some h4
  obtain ⟨dn, dns, hdn, hdn1⟩ := itoa_cons hN
  obtain ⟨dg, dgs, hdg, hdg1⟩ := itoa_cons hg
  have t1' : takeDigits1 H = some (itoa N, r1) := by
    rw [e1, e2]
    exact takeDigits1_itoa hN (isReSpace_not_digit hw) t1
  have t3' : takeDigits1 r2 = some (itoa g, r3) := by
    rw [e3, e4]
    exact takeDigits1_itoa hg (isReSpace_not_digit hw2) t3
  have hhead : objHeaderAt H = some (itoa N, r5) := by
    rw [objHeaderAt_eq, t1']
    simp only [h2, t3', h4, h5, hb, ↓reduceIte]
  have F2 : ∀ ps, matchPieces (.lit 111 :: ps) H = none := by
    intro ps
    rw [e1, hdn]
    have := isDigit_range hdn1
    simp only [List.cons_append, matchPieces]
    rw [if_neg (by omega)]
  have F1 : matchPieces [.digits, .spaces, .lit 111, .lit 98, .lit 106] H = none := by
    rw [matchPieces_digits, t1']
    simp only
    rw [matchPieces_spaces, h2]
    simp only
    rw [e3, hdg]
    have := isDigit_range hdg1
    simp only [List.cons_append, matchPieces]
    rw [if_neg (by omega)]
  refine ⟨hhead, ⟨dn, dns ++ r1, by rw [e1, hdn]; rfl⟩, ?_⟩
  intro c hc
  have hcs : isReSpace c = true := by rcases hc with rfl | rfl <;> rfl
  have hcd : isDigit c = false := isReSpace_not_digit hcs
  have hH : H.dropWhile isReSpace = H := by
    rw [e1, hdn]
    simp only [List.cons_append, List.dropWhile_cons, isDigit_not_space hdn1,
      Bool.false_eq_true, ↓reduceIte]
  have c1 : c ≠ 111 := by rcases hc with rfl | rfl <;> decide
  have c2 : c ≠ 98 := by rcases hc with rfl | rfl <;> decide
  have c3 : c ≠ 106 := by rcases hc with rfl | rfl <;> decide
  simp only [headerPieces, piecesDie, matchPieces, List.takeWhile_cons, hcd,
    Bool.false_eq_true, ↓reduceIte, List.isEmpty_nil, List.dropWhile_cons, hcs, hH,
    c1, c2, c3, Option.isNone_none, Bool.and_self, Bool.true_and,
    Option.isNone_iff_eq_none, Bool.and_eq_true, decide_eq_true_eq]
  exact ⟨F1, F1, F2 _, F2 _, trivial⟩

/-- The text of an object that `objectBody` finds for the numbers `N` and `g`,
neither negative, begins with a header that `maxObjectNumber` reads. -/
theorem objectAt_header {N g : Int} (hN : 0 ≤ N) (hg : 0 ≤ g) {H body : Bytes}
    (h : objectAt (itoa N) (itoa g) H = some body) :
    (∃ r, objHeaderAt H = some (itoa N, r))
      ∧ (∃ d t, H = d :: t)
      ∧ ∀ c, c = 13 ∨ c = 10 → piecesDie (c :: H) headerPieces = true := by
  rw [objectAt_eq] at h
  cases h1 : skipLit (itoa N) H with
  | none => rw [h1] at h; cases h
  | some r1 =>
    rw [h1] at h
    simp only at h
    cases h2 : skipSpaces1 r1 with
    | none => rw [h2] at h; cases h
    | some r2 =>
      rw [h2] at h
      simp only at h
      cases h3 : skipLit (itoa g) r2 with
      | none => rw [h3] at h; cases h
      | some r3 =>
        rw [h3] at h
        simp only at h
        cases h4 : skipSpaces1 r3 with
        | none => rw [h4] at h; cases h
        | some r4 =>
          rw [h4] at h
          simp only at h
          cases h5 : skipLit (bytesOf "obj") r4 with
          | none => rw [h5] at h; cases h
          | some r5 =>
            rw [h5] at h
            simp only at h
            have hb : boundaryAfterWord r5 = true := by
              cases hb : boundaryAfterWord r5 with
              | true => rfl
              | false => rw [hb] at h; simp at h
            obtain ⟨q1, q2, q3⟩ := header_core hN hg h1 h2 h3 h4 h5 hb
            exact ⟨⟨r5, q1⟩, q2, q3⟩

theorem matchPieces_shorter {p : Piece} {ps : List Piece} {xs r : Bytes}
    (h : matchPieces (p :: ps) xs = some r) : r.length < xs.length := by
  cases p with
  | lit c =>
    cases xs with
    | nil => simp [matchPieces] at h
    | cons x t =>
      simp only [matchPieces] at h
      split at h
      · obtain ⟨m, hm⟩ := matchPieces_suffix _ _ _ h
        rw [hm]
        simp only [List.length_cons, List.length_append]
        omega
      · cases h
  | spaces =>
    cases xs with
    | nil => simp [matchPieces] at h
    | cons x t =>
      simp only [matchPieces] at h
      split at h
      · obtain ⟨m, hm⟩ := matchPieces_suffix _ _ _ h
        have h1 := congrArg List.length hm
        have h2 := (List.dropWhile_suffix (l := t) isReSpace).length_le
        simp only [List.length_append] at h1
        simp only [List.length_cons]
        omega
      · cases h
  | digits =>
    simp only [matchPieces] at h
    split at h
    · cases h
    · rename_i hne
      obtain ⟨m, hm⟩ := matchPieces_suffix _ _ _ h
      have h1 := congrArg List.length hm
      have h2 := congrArg List.length (List.takeWhile_append_dropWhile isDigit xs)
      have h3 : 0 < (xs.takeWhile isDigit).length := by
        cases hx : xs.takeWhile isDigit with
        | nil => rw [hx] at hne; simp at hne
        | cons _ _ => simp
      simp only [List.length_append] at h1 h2
      omega

theorem maxObjLoop_mono : ∀ (fuel : Nat) (xs : Bytes) (mx : Int), mx ≤ maxObjLoop fuel xs mx := by
  intro fuel
  induction fuel with
  | zero => intro xs mx; simp [maxObjLoop]
  | succ f ih =>
    intro xs mx
    cases xs with
    | nil => simp [maxObjLoop]
    | cons x t =>
      simp only [maxObjLoop]
      cases objHeaderAt (x :: t) with
      | none => exact ih t mx
      | some p =>
        obtain ⟨d1, rest⟩ := p
        simp only
        refine le_trans ?_ (ih rest _)
        split
        · rename_i hc
          simp only [Bool.and_eq_true, decide_eq_true_eq] at hc
          omega
        · exact le_refl _

/-- At a header with the digits of `N` the loop of `maxObjectNumber` takes `N` in. -/
theorem maxObjLoop_header {N : Int} (h0 : 0 ≤ N) (h1 : N ≤ maxInt) {H r : Bytes}
    (hne : ∃ d t, H = d :: t) (hh : objHeaderAt H = some (itoa N, r)) (fuel : Nat) (mx : Int) :
    N ≤ maxObjLoop (fuel + 1) H mx := by
  obtain ⟨d, t, rfl⟩ := hne
  simp only [maxObjLoop, hh, atoi_itoa h0 h1, Bool.true_and]
  refine le_trans ?_ (maxObjLoop_mono fuel r _)
  split
  · exact le_refl _
  · rename_i hc
    simp only [decide_eq_true_eq, not_lt] at hc
    omega

/-- The loop of `maxObjectNumber` comes to every header that stands at the
start of a line: no match before it takes its first digit away. -/
theorem maxObjLoop_reaches {N : Int} (h0 : 0 ≤ N) (h1 : N ≤ maxInt) {H r : Bytes} {c : Nat}
    (hne : ∃ d t, H = d :: t) (hh : objHeaderAt H = some (itoa N, r))
    (hdie : piecesDie (c :: H) headerPieces = true) :
    ∀ (fuel : Nat) (v : Bytes) (mx : Int), (v ++ c :: H).length < fuel →
      N ≤ maxObjLoop fuel (v ++ c :: H) mx := by
  intro fuel
  induction fuel with
  | zero => intro v mx h; omega
  | succ f ih =>
    intro v mx hlen
    have hnone : ∀ u, objHeaderAt (u ++ c :: H) = none
        ∨ ∃ d1 w, objHeaderAt (u ++ c :: H) = some (d1, w ++ c :: H) ∧ w.length < u.length := by
      intro u
      cases ho : objHeaderAt (u ++ c :: H) with
      | none => exact Or.inl rfl
      | some p =>
        obtain ⟨d1, rest⟩ := p
        have hp := objHeaderAt_pieces ho
        rcases matchPieces_before_dying (c :: H) headerPieces hdie u with hn | ⟨w, hw, _⟩
        · rw [hn] at hp; cases hp
        · rw [hw] at hp
          simp only [Option.some.injEq] at hp
          have hs := matchPieces_shorter (p := .digits) hw
          simp only [List.length_append] at hs
          exact Or.inr ⟨d1, w, by rw [← hp], by omega⟩
    cases v with
    | nil =>
      simp only [List.nil_append, maxObjLoop]
      rcases hnone [] with hn | ⟨d1, w, _, hw⟩
      · simp only [List.nil_append] at hn
        rw [hn]
        simp only [List.nil_append, List.length_cons] at hlen
        obtain ⟨d, t, hH⟩ := hne
        cases f with
        | zero => rw [hH] at hlen; simp at hlen
        | succ f2 => exact maxObjLoop_header h0 h1 ⟨d, t, hH⟩ hh f2 mx
      · simp at hw
    | cons x v1 =>
      simp only [List.cons_append, maxObjLoop, List.append_eq]
      simp only [List.cons_append, List.length_cons] at hlen
      rcases hnone (x :: v1) with hn | ⟨d1, w, hw1, hw2⟩
      · simp only [List.cons_append] at hn
        rw [hn]
        exact ih v1 mx (by omega)
      · simp only [List.cons_append] at hw1
        rw [hw1]
        simp only [List.length_cons] at hw2
        exact ih w _ (by simp only [List.length_append, List.length_cons] at hlen ⊢; omega)

theorem findObjectLine_some {num gen : Bytes} :
    ∀ {b body : Bytes}, findObjectLine num gen b = some body →
      ∃ v c H, b = v ++ c :: H ∧ (c = 13 ∨ c = 10) ∧ objectAt num gen H = some body := by
  intro b
  induction b with
  | nil => intro body h; simp [findObjectLine] at h
  | cons x t ih =>
    intro body h
    simp only [findObjectLine] at h
    by_cases hx : (x == 13 || x == 10) = true
    · simp only [hx, ↓reduceIte] at h
      cases ho : objectAt num gen t with
      | some b2 =>
        rw [ho] at h
        simp only [Option.some.injEq] at h
        refine ⟨[], x, t, rfl, ?_, by rw [ho, h]⟩
        simpa using hx
      | none =>
        rw [ho] at h
        obtain ⟨v, c, H, e, hc, hH⟩ := ih h
        exact ⟨x :: v, c, H, by rw [e]; rfl, hc, hH⟩
    · simp only [hx, Bool.false_eq_true, ↓reduceIte] at h
      obtain ⟨v, c, H, e, hc, hH⟩ := ih h
      exact ⟨x :: v, c, H, by rw [e]; rfl, hc, hH⟩

/-- An object that `objectBody` finds, with a generation number that is not
negative, has a number that `maxObjectNumber` has seen. -/
theorem objectBody_le_max {src body : Bytes} {N g : Int} (h0 : 0 ≤ N) (h1 : N ≤ maxInt)
    (hg : 0 ≤ g) (h : objectBody src N g = some body) : N ≤ maxObjectNumber src := by
  unfold objectBody at h
  unfold maxObjectNumber
  cases ho : objectAt (itoa N) (itoa g) src with
  | some b2 =>
    obtain ⟨⟨r, hr⟩, hne, _⟩ := objectAt_header h0 hg ho
    exact maxObjLoop_header h0 h1 hne hr _ _
  | none =>
    rw [ho] at h
    obtain ⟨v, c, H, e, hc, hH⟩ := findObjectLine_some h
    obtain ⟨⟨r, hr⟩, hne, hdie⟩ := objectAt_header h0 hg hH
    rw [e]
    exact maxObjLoop_reaches h0 h1 hne hr (hdie c hc) _ v 0 (Nat.lt_succ_self _)

/-- C38: the object numbers above the largest one are free.  For every byte
string `src`, every `k ≥ 1` with `maxObjectNumber src + k` a value of the Go
`int`, and every generation number `g` (a generation number is not negative),
`objectBody src (maxObjectNumber src + k) g` finds nothing: no object that
`objectBody` can locate has a number greater than `maxObjectNumber src`. -/
theorem c38_fresh_numbers (src : Bytes) (k g : Int) (hk : 1 ≤ k)
    (hmax : maxObjectNumber src + k ≤ maxInt) (hg : 0 ≤ g) :
    objectBody src (maxObjectNumber src + k) g = none := by
  cases h : objectBody src (maxObjectNumber src + k) g with
  | none => rfl
  | some body =>
    have hm : (0 : Int) ≤ maxObjectNumber src := maxObjLoop_mono _ _ 0
    have := objectBody_le_max (by omega) hmax hg h
    omega

/-- C38 at `minimalPdf`, whose largest object number is 2: the numbers 3, 4
and 5 that a write would take are free. -/
theorem c38_witness :
    maxObjectNumber minimalPdf = 2
      ∧ objectBody minimalPdf (maxObjectNumber minimalPdf + 1) 0 = none
      ∧ objectBody minimalPdf (maxObjectNumber minimalPdf + 3) 0 = none :=
  ⟨by decide!, c38_fresh_numbers minimalPdf 1 0 (by decide) (by decide!) (by decide),
    c38_fresh_numbers minimalPdf 3 0 (by decide) (by decide!) (by decide)⟩

/-! ### The objects of a file after a write -/

/-- Two texts at which the pieces fail: a match that begins before one of them
ends before it, and it is the same match before the other. -/
theorem matchPieces_two_tails (s1 s2 : Bytes) :
    ∀ (ps : List Piece), piecesDie s1 ps = true → piecesDie s2 ps = true → ∀ v : Bytes,
      (matchPieces ps (v ++ s1) = none ∧ matchPieces ps (v ++ s2) = none)
        ∨ ∃ w, matchPieces ps (v ++ s1) = some (w ++ s1)
            ∧ matchPieces ps (v ++ s2) = some (w ++ s2) ∧ w.length ≤ v.length := by
  intro ps
  induction ps with
  | nil => intro _ _ v; exact Or.inr ⟨v, rfl, rfl, Nat.le_refl _⟩
  | cons p ps ih =>
    intro h1 h2 v
    cases p with
    | lit c =>
      simp only [piecesDie, Bool.and_eq_true, Option.isNone_iff_eq_none] at h1 h2
      cases v with
      | nil => exact Or.inl ⟨h1.1, h2.1⟩
      | cons x v =>
        simp only [List.cons_append, matchPieces]
        by_cases hx : x = c
        · simp only [hx, ↓reduceIte]
          rcases ih h1.2 h2.2 v with h | ⟨w, ha, hb, hw⟩
          · exact Or.inl h
          · exact Or.inr ⟨w, ha, hb, by simp only [List.length_cons]; omega⟩
        · simp only [hx, ↓reduceIte, and_self, true_or]
    | spaces =>
      simp only [piecesDie, Bool.and_eq_true, Option.isNone_iff_eq_none] at h1 h2
      cases v with
      | nil => exact Or.inl ⟨h1.1.1, h2.1.1⟩
      | cons x v =>
        simp only [List.cons_append, matchPieces]
        by_cases hx : isReSpace x = true
        · simp only [hx, ↓reduceIte, List.append_eq, dropWhile_append_all]
          by_cases hv : v.all isReSpace = true
          · simp only [hv, ↓reduceIte]
            exact Or.inl ⟨h1.1.2, h2.1.2⟩
          · simp only [hv, Bool.false_eq_true, ↓reduceIte]
            rcases ih h1.2 h2.2 (v.dropWhile isReSpace) with h | ⟨w, ha, hb, hw⟩
            · exact Or.inl h
            · refine Or.inr ⟨w, ha, hb, ?_⟩
              have := (List.dropWhile_suffix (l := v) isReSpace).length_le
              simp only [List.length_cons]
              omega
        · simp only [hx, Bool.false_eq_true, ↓reduceIte, and_self, true_or]
    | digits =>
      simp only [piecesDie, Bool.and_eq_true, Option.isNone_iff_eq_none] at h1 h2
      cases v with
      | nil => exact Or.inl ⟨h1.1.1, h2.1.1⟩
      | cons x v =>
        simp only [List.cons_append, matchPieces]
        by_cases hx : isDigit x = true
        · simp only [List.takeWhile_cons, hx, ↓reduceIte, List.isEmpty_cons, Bool.false_eq_true,
            List.dropWhile_cons, List.append_eq, dropWhile_append_all]
          by_cases hv : v.all isDigit = true
          · simp only [hv, ↓reduceIte]
            exact Or.inl ⟨h1.1.2, h2.1.2⟩
          · simp only [hv, Bool.false_eq_true, ↓reduceIte]
            rcases ih h1.2 h2.2 (v.dropWhile isDigit) with h | ⟨w, ha, hb, hw⟩
            · exact Or.inl h
            · refine Or.inr ⟨w, ha, hb, ?_⟩
              have := (List.dropWhile_suffix (l := v) isDigit).length_le
              simp only [List.length_cons]
              omega
        · simp only [Bool.not_eq_true] at hx
          simp only [List.takeWhile_cons, hx, Bool.false_eq_true, ↓reduceIte, List.isEmpty_nil,
            and_self, true_or]

theorem piecesDie_lits (s : Bytes) (cs : Bytes) (ps : List Piece)
    (hcs : ∀ c ∈ cs, ∀ q, matchPieces (.lit c :: q) s = none) (hps : piecesDie s ps = true) :
    piecesDie s (cs.map Piece.lit ++ ps) = true := by
  induction cs with
  | nil => exact hps
  | cons c cs ih =>
    simp only [List.map_cons, List.cons_append, piecesDie, Bool.and_eq_true,
      Option.isNone_iff_eq_none]
    exact ⟨hcs c (by simp) _, ih (fun d hd => hcs d (by simp [hd]))⟩

theorem objectAt_pieces (num gen xs : Bytes) :
    objectAt num gen xs
      = (match matchPieces (objectPieces num gen) xs with
         | none => none
         | some r5 => if boundaryAfterWord r5 then bodyToEndobj 106 r5 else none) := by
  rw [objectAt_eq]
  unfold objectPieces
  rw [matchPieces_lits]
  cases skipLit num xs with
  | none => rfl
  | some r1 =>
    simp only
    rw [matchPieces_spaces]
    cases skipSpaces1 r1 with
    | none => rfl
    | some r2 =>
      simp only
      rw [matchPieces_lits]
      cases skipLit gen r2 with
      | none => rfl
      | some r3 =>
        simp only
        rw [matchPieces_spaces]
        cases skipSpaces1 r3 with
        | none => rfl
        | some r4 =>
          simp only
          have e : [Piece.lit 111, Piece.lit 98, Piece.lit 106]
              = (bytesOf "obj").map Piece.lit ++ [] := rfl
          rw [e, matchPieces_lits]
          cases skipLit (bytesOf "obj") r4 with
          | none => rfl
          | some r5 => rfl

/-- A match of the pieces of `N g obj` at a word boundary is a header that
`maxObjectNumber` reads. -/
theorem objectPieces_header {N g : Int} (hN : 0 ≤ N) (hg : 0 ≤ g) {H r5 : Bytes}
    (h : matchPieces (objectPieces (itoa N) (itoa g)) H = some r5)
    (hb : boundaryAfterWord r5 = true) :
    objHeaderAt H = some (itoa N, r5)
      ∧ (∃ d t, H = d :: t)
      ∧ ∀ c, c = 13 ∨ c = 10 → piecesDie (c :: H) headerPieces = true := by
  unfold objectPieces at h
  rw [matchPieces_lits] at h
  cases h1 : skipLit (itoa N) H with
  | none => rw [h1] at h; cases h
  | some r1 =>
    rw [h1] at h
    simp only at h
    rw [matchPieces_spaces] at h
    cases h2 : skipSpaces1 r1 with
    | none => rw [h2] at h; cases h
    | some r2 =>
      rw [h2] at h
      simp only at h
      rw [matchPieces_lits] at h
      cases h3 : skipLit (itoa g) r2 with
      | none => rw [h3] at h; cases h
      | some r3 =>
        rw [h3] at h
        simp only at h
        rw [matchPieces_spaces] at h
        cases h4 : skipSpaces1 r3 with
        | none => rw [h4] at h; cases h
        | some r4 =>
          rw [h4] at h
          simp only at h
          have e : [Piece.lit 111, Piece.lit 98, Piece.lit 106]
              = (bytesOf "obj").map Piece.lit ++ [] := rfl
          rw [e, matchPieces_lits] at h
          cases h5 : skipLit (bytesOf "obj") r4 with
          | none => rw [h5] at h; cases h
          | some r6 =>
            rw [h5] at h
            simp only [matchPieces, Option.some.injEq] at h
            subst h
            exact header_core hN hg h1 h2 h3 h4 h5 hb


theorem itoa_zero : itoa 0 = [48] := by decide

theorem matchPieces_lit_ne {c x : Nat} (q : List Piece) (t : Bytes) (h : x ≠ c) :
    matchPieces (.lit c :: q) (x :: t) = none := by
  simp only [matchPieces, h, ↓reduceIte]

/-- The pieces of `N 0 obj` fail at a line feed that stands before a number
without a leading zero. -/
theorem piecesDie_object_lf {N : Int} (hN : 0 ≤ N) {d : Nat} (A : Bytes)
    (hd : isDigit d = true) (hd0 : d ≠ 48) :
    piecesDie (10 :: d :: A) (objectPieces (itoa N) (itoa 0)) = true := by
  have hr := isDigit_range hd
  have hs : isReSpace d = false := isDigit_not_space hd
  unfold objectPieces
  apply piecesDie_lits
  · intro c hc q
    have := isDigit_range (itoa_isDigit hN c hc)
    exact matchPieces_lit_ne q _ (by omega)
  · have h111 : d ≠ 111 := by omega
    rw [itoa_zero]
    simp only [ite_self, List.map_cons, List.map_nil, List.cons_append, List.nil_append,
      piecesDie, matchPieces, List.dropWhile_cons, hs, hd0, h111, Bool.false_eq_true, ↓reduceIte,
      Option.isNone_none, Bool.and_self, Bool.true_and, Nat.reduceEqDiff,
      show isReSpace 10 = true from rfl, show isDigit 10 = false from rfl]

theorem piecesDie_object_nil (N : Int) :
    piecesDie [] (objectPieces (itoa N) (itoa 0)) = true := by
  unfold objectPieces
  apply piecesDie_lits
  · intro c _ q
    rfl
  · rw [itoa_zero]
    simp only [ite_self, List.map_cons, List.map_nil, List.cons_append, List.nil_append,
      piecesDie, matchPieces, List.dropWhile_nil, List.takeWhile_nil, List.isEmpty_nil,
      ↓reduceIte, Option.isNone_none, Bool.and_self]

theorem piecesDie_object_lf_end {N : Int} (hN : 0 ≤ N) :
    piecesDie [10] (objectPieces (itoa N) (itoa 0)) = true := by
  unfold objectPieces
  apply piecesDie_lits
  · intro c hc q
    have := isDigit_range (itoa_isDigit hN c hc)
    exact matchPieces_lit_ne q _ (by omega)
  · rw [itoa_zero]
    simp only [ite_self, List.map_cons, List.map_nil, List.cons_append, List.nil_append,
      piecesDie, matchPieces, List.dropWhile_cons, List.dropWhile_nil, Bool.false_eq_true,
      ↓reduceIte, Option.isNone_none, Bool.and_self, Bool.true_and, Nat.reduceEqDiff,
      show isReSpace 10 = true from rfl, show isDigit 10 = false from rfl]

/-- An object number above `maxObjectNumber src` has no header at the start of
the source or of one of its lines, also when more text is put behind the
source: `src` is `pre ++ v ++ tail0`, with `tail0` empty or one line feed, and
behind `v` stand a line feed and a number without a leading zero. -/
theorem objectAt_fresh {src : Bytes} {N : Int} (hN : maxObjectNumber src < N) (hN2 : N ≤ maxInt)
    {pre v tail0 : Bytes} (hsrc : src = pre ++ v ++ tail0) (ht : tail0 = [] ∨ tail0 = [10])
    (hpre : pre = [] ∨ ∃ a c, pre = a ++ [c] ∧ (c = 13 ∨ c = 10))
    {d : Nat} (A : Bytes) (hd : isDigit d = true) (hd0 : d ≠ 48) :
    objectAt (itoa N) (itoa 0) (v ++ 10 :: d :: A) = none := by
  have hm : (0 : Int) ≤ maxObjectNumber src := maxObjLoop_mono _ _ 0
  have h0 : 0 ≤ N := by omega
  rw [objectAt_pieces]
  have hdie2 : piecesDie tail0 (objectPieces (itoa N) (itoa 0)) = true := by
    rcases ht with rfl | rfl
    · exact piecesDie_object_nil N
    · exact piecesDie_object_lf_end h0
  rcases matchPieces_two_tails (10 :: d :: A) tail0 _ (piecesDie_object_lf h0 A hd hd0) hdie2 v
    with ⟨hn, _⟩ | ⟨w, hw1, hw2, _⟩
  · rw [hn]
  · rw [hw1]
    simp only
    by_cases hb : boundaryAfterWord (w ++ 10 :: d :: A) = true
    · exfalso
      have hb2 : boundaryAfterWord (w ++ tail0) = true := by
        cases w with
        | nil => rcases ht with rfl | rfl <;> rfl
        | cons x w => exact hb
      obtain ⟨q1, q2, q3⟩ := objectPieces_header h0 (le_refl 0) hw2 hb2
      have hle : N ≤ maxObjectNumber src := by
        unfold maxObjectNumber
        rcases hpre with rfl | ⟨a, c, rfl, hc⟩
        · rw [hsrc, List.nil_append]
          exact maxObjLoop_header h0 hN2 q2 q1 _ _
        · rw [hsrc]
          have e : a ++ [c] ++ v ++ tail0 = a ++ c :: (v ++ tail0) := by simp
          rw [e]
          exact maxObjLoop_reaches h0 hN2 q2 q1 (q3 c hc) _ a 0 (Nat.lt_succ_self _)
      omega
    · simp only [hb, Bool.false_eq_true, ↓reduceIte]


theorem findObjectLine_skip {num gen : Bytes} (t : Bytes) :
    ∀ (u : Bytes),
      (∀ a c b, u = a ++ c :: b → (c = 13 ∨ c = 10) → objectAt num gen (b ++ t) = none) →
      findObjectLine num gen (u ++ t) = findObjectLine num gen t := by
  intro u
  induction u with
  | nil => intro _; rfl
  | cons x u ih =>
    intro h
    have hstep : (if (x == 13 || x == 10) = true then objectAt num gen (u ++ t) else none)
        = none := by
      by_cases hx : (x == 13 || x == 10) = true
      · rw [if_pos hx]
        exact h [] x u rfl (by simpa using hx)
      · rw [if_neg hx]
    simp only [List.cons_append, findObjectLine, List.append_eq, hstep]
    exact ih (fun a c b e hc => h (x :: a) c b (by rw [e]; rfl) hc)

theorem objectAt_of_nondigit {N : Int} (hN : 0 ≤ N) (gen : Bytes) {x : Nat} (t : Bytes)
    (hx : isDigit x = false) : objectAt (itoa N) gen (x :: t) = none := by
  obtain ⟨d, ds, hd, hd1⟩ := itoa_cons hN
  have hne : x ≠ d := by
    rintro rfl
    rw [hd1] at hx
    cases hx
  rw [objectAt_eq, hd]
  simp [skipLit, hasPrefix, hne]

theorem objectAt_nil (num gen : Bytes) (h : num ≠ []) : objectAt num gen [] = none := by
  rw [objectAt_eq]
  cases num with
  | nil => exact absurd rfl h
  | cons c cs => rfl

theorem lineSafe_cons_cons (a b : Nat) (t : Bytes) :
    lineSafe (a :: b :: t) = ((!(a == 13 || a == 10) || !isDigit b) && lineSafe (b :: t)) := rfl

/-- The part of a safe text behind one of its line breaks does not begin with a digit. -/
theorem lineSafe_split :
    ∀ (u : Bytes), lineSafe u = true → ∀ a c b, u = a ++ c :: b → (c = 13 ∨ c = 10) →
      ∀ x t, b = x :: t → isDigit x = false := by
  intro u
  induction u with
  | nil => intro _ a c b e; simp at e
  | cons y u ih =>
    intro hs a c b e hc x t hb
    cases a with
    | nil =>
      simp only [List.nil_append, List.cons.injEq] at e
      obtain ⟨rfl, rfl⟩ := e
      subst hb
      rw [lineSafe_cons_cons] at hs
      simp only [Bool.and_eq_true, Bool.or_eq_true, Bool.not_eq_true', Bool.or_eq_false_iff,
        beq_eq_false_iff_ne, ne_eq] at hs
      rcases hs.1 with h | h
      · rcases hc with rfl | rfl
        · exact absurd rfl h.1
        · exact absurd rfl h.2
      · exact h
    | cons a0 a =>
      simp only [List.cons_append, List.cons.injEq] at e
      obtain ⟨rfl, rfl⟩ := e
      have hs2 : lineSafe (a ++ c :: b) = true := by
        cases hab : a ++ c :: b with
        | nil => rfl
        | cons z zs =>
          rw [hab, lineSafe_cons_cons] at hs
          simp only [Bool.and_eq_true] at hs
          exact hs.2
      exact ih hs2 a c b rfl hc x t hb

/-- The search for an object passes over a safe text that is followed by a line feed. -/
theorem findObjectLine_lineSafe {N : Int} (hN : 0 ≤ N) (gen : Bytes) {u : Bytes}
    (hu : lineSafe u = true) (t : Bytes) :
    findObjectLine (itoa N) gen (u ++ 10 :: t) = findObjectLine (itoa N) gen (10 :: t) := by
  apply findObjectLine_skip
  intro a c b e hc
  cases hb : b with
  | nil => exact objectAt_of_nondigit hN gen t rfl
  | cons x b2 => exact objectAt_of_nondigit hN gen _ (lineSafe_split u hu a c b e hc x b2 hb)

theorem lineSafe_of_noNL {u : Bytes} (h : ∀ c ∈ u, c ≠ 10 ∧ c ≠ 13) : lineSafe u = true := by
  induction u with
  | nil => rfl
  | cons a t ih =>
    cases t with
    | nil => rfl
    | cons b t2 =>
      rw [lineSafe_cons_cons]
      have ha := h a (by simp)
      have := ih (fun c hc => h c (by simp [hc]))
      simp [ha.1, ha.2, this]

/-- Two safe texts one after the other are safe when the second does not begin with a digit. -/
theorem lineSafe_append_head {a b : Bytes} (ha : lineSafe a = true) (hb : lineSafe b = true)
    (hh : ∀ x t, b = x :: t → isDigit x = false) : lineSafe (a ++ b) = true := by
  induction a with
  | nil => exact hb
  | cons x a ih =>
    cases a with
    | nil =>
      cases b with
      | nil => rfl
      | cons y b2 =>
        simp only [List.cons_append, List.nil_append, lineSafe_cons_cons, Bool.and_eq_true]
        exact ⟨by simp [hh y b2 rfl], hb⟩
    | cons y a2 =>
      rw [lineSafe_cons_cons] at ha
      simp only [Bool.and_eq_true] at ha
      simp only [List.cons_append, lineSafe_cons_cons, Bool.and_eq_true]
      exact ⟨ha.1, ih ha.2⟩

/-- Two safe texts one after the other are safe when the first does not end with a line break. -/
theorem lineSafe_append_last {a b : Bytes} (ha : lineSafe a = true) (hb : lineSafe b = true)
    (hl : ∀ x, a.getLast? = some x → x ≠ 10 ∧ x ≠ 13) : lineSafe (a ++ b) = true := by
  induction a with
  | nil => exact hb
  | cons x a ih =>
    cases a with
    | nil =>
      cases b with
      | nil => rfl
      | cons y b2 =>
        have := hl x rfl
        simp only [List.cons_append, List.nil_append, lineSafe_cons_cons, Bool.and_eq_true]
        exact ⟨by simp [this.1, this.2], hb⟩
    | cons y a2 =>
      rw [lineSafe_cons_cons] at ha
      simp only [Bool.and_eq_true] at ha
      simp only [List.cons_append, lineSafe_cons_cons, Bool.and_eq_true]
      exact ⟨ha.1, ih ha.2 (fun z hz => hl z (by rw [List.getLast?_cons_cons]; exact hz))⟩

/-- The header of another object is not the header looked for. -/
theorem objectAt_other_number {N i : Int} (hN : 0 ≤ N) (hN2 : N ≤ maxInt) (hi : 0 ≤ i)
    (hi2 : i ≤ maxInt) (hne : N ≠ i) (gen t : Bytes) :
    objectAt (itoa N) gen (itoa i ++ 32 :: t) = none := by
  rw [objectAt_eq]
  cases h1 : skipLit (itoa N) (itoa i ++ 32 :: t) with
  | none => rfl
  | some r1 =>
    simp only
    have e := skipLit_some h1
    rcases List.append_eq_append_iff.1 e with ⟨a2, e1, e2⟩ | ⟨c2, e1, e2⟩
    · exfalso
      cases a2 with
      | nil =>
        simp only [List.append_nil] at e1
        exact hne (itoa_inj hN hN2 hi hi2 e1)
      | cons x a3 =>
        simp only [List.cons_append, List.cons.injEq] at e2
        have hx : x ∈ itoa N := by rw [e1]; simp
        have := isDigit_range (itoa_isDigit hN x hx)
        omega
    · cases c2 with
      | nil =>
        simp only [List.append_nil] at e1
        exact absurd (itoa_inj hN hN2 hi hi2 e1.symm) hne
      | cons x c3 =>
        have hx : x ∈ itoa i := by rw [e1]; simp
        have hd := itoa_isDigit hi x hx
        rw [e2]
        simp only [List.cons_append, skipSpaces1, isDigit_not_space hd, Bool.false_eq_true,
          ↓reduceIte]

/-- A text that begins a longer one with a byte in between that the pattern lacks. -/
theorem hasPrefix_append_sep {p : Bytes} {x : Nat} (hx : x ∉ p) :
    ∀ (a t : Bytes) (q : Bytes), (∀ c ∈ q, c ∈ p) →
      hasPrefix (a ++ x :: t) q = true → hasPrefix a q = true := by
  intro a
  induction a with
  | nil =>
    intro t q hq h
    cases q with
    | nil => rfl
    | cons c q =>
      have hc : x ≠ c := by
        rintro rfl
        exact hx (hq x (by simp))
      rw [List.nil_append, hasPrefix_cons_ne _ _ hc] at h
      exact absurd h (by simp)
  | cons y a ih =>
    intro t q hq h
    cases q with
    | nil => exact hasPrefix_nil _
    | cons c q =>
      by_cases hyc : y = c
      · subst hyc
        simp only [List.cons_append, hasPrefix, beq_self_eq_true, Bool.true_and] at h ⊢
        exact ih t q (fun d hd => hq d (by simp [hd])) h
      · rw [List.cons_append, hasPrefix_cons_ne _ _ hyc] at h
        exact absurd h (by simp)

theorem index_tail_none {p : Bytes} {c : Nat} {u : Bytes} (h : index (c :: u) p = none) :
    index u p = none := by
  apply index_eq_none_of_absent
  intro j
  have := index_none h (j + 1)
  simpa [occursAt] using this

theorem bodyToEndobj_cons (prev c : Nat) (rest : Bytes) :
    bodyToEndobj prev (c :: rest)
      = if (!isWordByte prev && hasPrefix (c :: rest) (bytesOf "endobj")) = true then some []
        else match bodyToEndobj c rest with
          | some body => some (c :: body)
          | none => none := rfl

/-- The group of `objectBody` is the text up to the line `endobj` when the
word does not occur in it. -/
theorem bodyToEndobj_exact (t : Bytes) :
    ∀ (u : Bytes) (prev : Nat), index u (bytesOf "endobj") = none →
      bodyToEndobj prev (u ++ 10 :: (bytesOf "endobj" ++ t)) = some (u ++ [10]) := by
  intro u
  induction u with
  | nil =>
    intro prev _
    have : bodyToEndobj 10 (bytesOf "endobj" ++ t) = some [] := by
      have e : bytesOf "endobj" ++ t = 101 :: (bytesOf "ndobj" ++ t) := rfl
      rw [e, bodyToEndobj_cons, ← e, hasPrefix_append_self]
      rfl
    have h1 : hasPrefix (10 :: (bytesOf "endobj" ++ t)) (bytesOf "endobj") = false :=
      hasPrefix_cons_ne _ _ (by decide)
    rw [List.nil_append, bodyToEndobj_cons, h1, this]
    simp
  | cons c u ih =>
    intro prev h
    have h0 : hasPrefix (c :: u) (bytesOf "endobj") = false := by
      simpa using index_none h 0
    have h1 : hasPrefix (c :: u ++ 10 :: (bytesOf "endobj" ++ t)) (bytesOf "endobj") = false := by
      cases hh : hasPrefix (c :: u ++ 10 :: (bytesOf "endobj" ++ t)) (bytesOf "endobj") with
      | false => rfl
      | true =>
        have := hasPrefix_append_sep (p := bytesOf "endobj") (x := 10) (by decide) (c :: u) _
          (bytesOf "endobj") (fun _ h => h) hh
        rw [this] at h0
        exact absurd h0 (by simp)
    rw [List.cons_append] at h1 ⊢
    rw [bodyToEndobj_cons, h1, ih c (index_tail_none h)]
    simp

/-- The group of `objectBody` ends at the line `endobj` or before it. -/
theorem bodyToEndobj_prefix (t : Bytes) :
    ∀ (u : Bytes) (prev : Nat),
      ∃ body, bodyToEndobj prev (u ++ 10 :: (bytesOf "endobj" ++ t)) = some body
        ∧ body <+: u ++ [10] := by
  intro u
  induction u with
  | nil =>
    intro prev
    exact ⟨[10], by simpa using bodyToEndobj_exact t [] prev (by decide), List.prefix_refl _⟩
  | cons c u ih =>
    intro prev
    obtain ⟨body, hb, hp⟩ := ih c
    rw [List.cons_append, bodyToEndobj_cons]
    split
    · exact ⟨[], rfl, List.nil_prefix⟩
    · rw [hb]
      exact ⟨c :: body, rfl, by simpa using hp⟩

/-- At the header `N 0 obj` of an appended object the pattern of `objectBody`
for `N 0` has matched its header. -/
theorem objectAt_own (N : Int) (Y : Bytes) :
    objectAt (itoa N) (itoa 0) (itoa N ++ bytesOf " 0 obj" ++ 10 :: Y)
      = bodyToEndobj 106 (10 :: Y) := by
  have e : itoa N ++ bytesOf " 0 obj" ++ 10 :: Y
      = itoa N ++ (32 :: 48 :: 32 :: 111 :: 98 :: 106 :: 10 :: Y) := by
    simp [bytesOf]
  rw [e, objectAt_eq, skipLit_append]
  have h2 : skipSpaces1 (32 :: 48 :: 32 :: 111 :: 98 :: 106 :: 10 :: Y)
      = some (48 :: 32 :: 111 :: 98 :: 106 :: 10 :: Y) := rfl
  have h3 : skipLit (itoa 0) (48 :: 32 :: 111 :: 98 :: 106 :: 10 :: Y)
      = some (32 :: 111 :: 98 :: 106 :: 10 :: Y) := by
    rw [itoa_zero]; exact skipLit_append [48] _
  have h4 : skipSpaces1 (32 :: 111 :: 98 :: 106 :: 10 :: Y)
      = some (111 :: 98 :: 106 :: 10 :: Y) := rfl
  have h5 : skipLit (bytesOf "obj") (111 :: 98 :: 106 :: 10 :: Y) = some (10 :: Y) :=
    skipLit_append (bytesOf "obj") _
  simp only [h2, h3, h4, h5]
  rfl

/-- The search for an object whose number is above every number of the source
begins at the line feed behind the source. -/
theorem objectBody_appended {src : Bytes} (hsrc : src ≠ []) {N : Int}
    (hN : maxObjectNumber src < N) (hN2 : N ≤ maxInt)
    {d : Nat} (A : Bytes) (hd : isDigit d = true) (hd0 : d ≠ 48) :
    objectBody (src ++ sourceLF src ++ d :: A) N 0
      = match objectAt (itoa N) (itoa 0) (d :: A) with
        | some body => some body
        | none => findObjectLine (itoa N) (itoa 0) (d :: A) := by
  obtain ⟨S0, tail0, hs, ht, hout⟩ : ∃ S0 tail0, src = S0 ++ tail0 ∧ (tail0 = [] ∨ tail0 = [10])
      ∧ src ++ sourceLF src = S0 ++ [10] := by
    by_cases hl : src.getLast? = some 10
    · obtain ⟨S0, rfl⟩ : ∃ S0, src = S0 ++ [10] := by
        rcases List.eq_nil_or_concat src with h | ⟨S0, b, h⟩
        · exact absurd h hsrc
        · subst h
          have hl2 : b = 10 := by simpa using hl
          subst hl2
          exact ⟨S0, List.concat_eq_append _ _⟩
      refine ⟨S0, [10], rfl, Or.inr rfl, ?_⟩
      simp [sourceLF]
    · refine ⟨src, [], by simp, Or.inl rfl, ?_⟩
      have : 0 < src.length := List.length_pos.2 hsrc
      simp [sourceLF, hl, this]
  rw [hout]
  have e : S0 ++ [10] ++ d :: A = S0 ++ 10 :: d :: A := by simp
  rw [e]
  have h1 : objectAt (itoa N) (itoa 0) (S0 ++ 10 :: d :: A) = none :=
    @objectAt_fresh src N hN hN2 [] S0 tail0 (by simpa using hs) ht (Or.inl rfl) d A hd hd0
  have h2 : findObjectLine (itoa N) (itoa 0) (S0 ++ 10 :: d :: A)
      = findObjectLine (itoa N) (itoa 0) (10 :: d :: A) := by
    apply findObjectLine_skip
    intro a c b hab hc
    exact @objectAt_fresh src N hN hN2 (a ++ [c]) b tail0
      (by rw [hs, hab]; simp) ht (Or.inr ⟨a, c, rfl, hc⟩) d A hd hd0
  have h3 : findObjectLine (itoa N) (itoa 0) (10 :: d :: A)
      = match objectAt (itoa N) (itoa 0) (d :: A) with
        | some body => some body
        | none => findObjectLine (itoa N) (itoa 0) (d :: A) := rfl
  unfold objectBody
  rw [h1, h2, h3]


/-! ### Occurrences of a word in texts put together -/

/-- A pattern at the head of two texts one after the other is at the head of
the first, or the first is a part of it that the second goes on with. -/
theorem hasPrefix_append_cases :
    ∀ (a b p : Bytes), hasPrefix (a ++ b) p = true →
      hasPrefix a p = true ∨ ∃ p2, p = a ++ p2 ∧ p2 ≠ [] ∧ hasPrefix b p2 = true := by
  intro a
  induction a with
  | nil =>
    intro b p h
    cases p with
    | nil => exact Or.inl rfl
    | cons c q => exact Or.inr ⟨c :: q, rfl, by simp, h⟩
  | cons y a ih =>
    intro b p h
    cases p with
    | nil => exact Or.inl (hasPrefix_nil _)
    | cons c q =>
      by_cases hyc : y = c
      · subst hyc
        simp only [List.cons_append, hasPrefix, beq_self_eq_true, Bool.true_and] at h ⊢
        rcases ih b q h with h1 | ⟨p2, e, hne, h2⟩
        · exact Or.inl h1
        · exact Or.inr ⟨p2, by rw [e], hne, h2⟩
      · rw [List.cons_append, hasPrefix_cons_ne _ _ hyc] at h
        exact absurd h (by simp)

theorem getLast?_drop_of_lt {a : Bytes} {j : Nat} (hj : j < a.length) :
    (a.drop j).getLast? = a.getLast? := by
  induction a generalizing j with
  | nil => simp at hj
  | cons x t ih =>
    cases j with
    | zero => rfl
    | succ j =>
      have hj2 : j < t.length := by simpa using hj
      rw [List.drop_succ_cons, ih hj2]
      cases t with
      | nil => simp at hj2
      | cons y t2 => rfl

/-- No occurrence of the pattern begins in `a` when `a` has none and ends with
a byte the pattern lacks. -/
theorem hasPrefix_drop_append_of_last {p a : Bytes} (ha : index a p = none)
    (hl : ∀ x, a.getLast? = some x → x ∉ p) (b : Bytes) {j : Nat} (hj : j < a.length) :
    hasPrefix (a.drop j ++ b) p = false := by
  cases hh : hasPrefix (a.drop j ++ b) p with
  | false => rfl
  | true =>
    exfalso
    rcases hasPrefix_append_cases _ _ _ hh with h1 | ⟨p2, e, _, _⟩
    · rw [index_none ha j] at h1
      exact absurd h1 (by simp)
    · have hne : a.drop j ≠ [] := by
        intro h0
        have := congrArg List.length h0
        simp only [List.length_drop, List.length_nil] at this
        omega
      have hx := List.getLast?_eq_getLast _ hne
      rw [getLast?_drop_of_lt hj] at hx
      apply hl _ hx
      rw [e]
      exact List.mem_append_left _ (List.getLast_mem hne)

/-- No occurrence of the pattern begins in `a` when `a` has none and the text
behind it begins with a byte the pattern lacks. -/
theorem hasPrefix_drop_append_of_head {p a : Bytes} (ha : index a p = none)
    {x : Nat} (hx : x ∉ p) (b : Bytes) (j : Nat) :
    hasPrefix (a.drop j ++ x :: b) p = false := by
  cases hh : hasPrefix (a.drop j ++ x :: b) p with
  | false => rfl
  | true =>
    exfalso
    rcases hasPrefix_append_cases _ _ _ hh with h1 | ⟨p2, e, hne, h2⟩
    · rw [index_none ha j] at h1
      exact absurd h1 (by simp)
    · cases p2 with
      | nil => exact hne rfl
      | cons c q =>
        by_cases hxc : x = c
        · subst hxc
          exact hx (by rw [e]; simp)
        · rw [hasPrefix_cons_ne _ _ hxc] at h2
          exact absurd h2 (by simp)

theorem drop_append_cases (a b : Bytes) (j : Nat) :
    (j < a.length ∧ (a ++ b).drop j = a.drop j ++ b)
      ∨ (a.length ≤ j ∧ (a ++ b).drop j = b.drop (j - a.length)) := by
  by_cases h : j < a.length
  · exact Or.inl ⟨h, List.drop_append_of_le_length (Nat.le_of_lt h)⟩
  · refine Or.inr ⟨by omega, ?_⟩
    have : j = a.length + (j - a.length) := by omega
    conv_lhs => rw [this]
    exact List.drop_append _

theorem index_append_none_of_last {p a b : Bytes} (ha : index a p = none)
    (hb : index b p = none) (hl : ∀ x, a.getLast? = some x → x ∉ p) :
    index (a ++ b) p = none := by
  apply index_eq_none_of_absent
  intro j
  unfold occursAt
  rcases drop_append_cases a b j with ⟨hj, e⟩ | ⟨_, e⟩
  · rw [e]; exact hasPrefix_drop_append_of_last ha hl b hj
  · rw [e]; exact index_none hb _

theorem index_append_none_of_head {p a b : Bytes} (ha : index a p = none)
    {x : Nat} (hx : x ∉ p) (hb : index (x :: b) p = none) :
    index (a ++ x :: b) p = none := by
  apply index_eq_none_of_absent
  intro j
  unfold occursAt
  rcases drop_append_cases a (x :: b) j with ⟨_, e⟩ | ⟨_, e⟩
  · rw [e]; exact hasPrefix_drop_append_of_head ha hx b j
  · rw [e]; exact index_none hb _

/-- The first occurrence of the pattern is behind `a` when `a` has none and
ends with a byte the pattern lacks. -/
theorem index_append_first {p a b : Bytes} (ha : index a p = none)
    (hl : ∀ x, a.getLast? = some x → x ∉ p) (hb : hasPrefix b p = true) :
    index (a ++ b) p = some a.length := by
  apply index_eq_of_first
  · unfold occursAt
    rw [List.drop_left]
    exact hb
  · intro j hj
    unfold occursAt
    rw [List.drop_append_of_le_length (Nat.le_of_lt hj)]
    exact hasPrefix_drop_append_of_last ha hl b hj

theorem index_none_of_prefix {p a b : Bytes} (h : index (a ++ b) p = none) :
    index a p = none := by
  apply index_eq_none_of_absent
  intro j
  unfold occursAt
  cases hh : hasPrefix (a.drop j) p with
  | false => rfl
  | true =>
    exfalso
    have h1 := index_none h j
    rcases drop_append_cases a b j with ⟨_, e⟩ | ⟨hj, _⟩
    · rw [e] at h1
      have := (hasPrefix_iff _ _).1 hh
      have h2 := (hasPrefix_iff (a.drop j ++ b) p).2 (this.trans (List.prefix_append _ _))
      rw [h1] at h2
      exact absurd h2 (by simp)
    · rw [List.drop_of_length_le hj] at hh
      have hp : p = [] := by
        have := hasPrefix_length hh
        exact List.length_eq_zero.1 (by simpa using this)
      subst hp
      rw [hasPrefix_nil] at h1
      exact absurd h1 (by simp)

theorem index_none_of_suffix {p a b : Bytes} (h : index (a ++ b) p = none) :
    index b p = none := by
  apply index_eq_none_of_absent
  intro j
  unfold occursAt
  have := index_none h (a.length + j)
  rwa [List.drop_append] at this


/-! ### The trailer of the output -/

theorem wrapInt_of_range {x : Int} (h0 : minInt ≤ x) (h1 : x ≤ maxInt) : wrapInt x = x := by
  unfold wrapInt
  unfold minInt at h0
  unfold maxInt at h1
  omega

theorem namedRefAt_ne_slash (name : Bytes) {x : Nat} (hx : x ≠ 47) (t : Bytes) :
    namedRefAt name (x :: t) = none := by
  rw [namedRefAt_eq]
  have : skipLit (47 :: name) (x :: t) = none := by
    unfold skipLit
    rw [hasPrefix_cons_ne _ _ hx]
    rfl
  rw [this]

theorem namedRefAt_other_key {n0 k : Nat} (name : Bytes) (hk : k ≠ n0) (t : Bytes) :
    namedRefAt (n0 :: name) (47 :: k :: t) = none := by
  rw [namedRefAt_eq]
  have : skipLit (47 :: n0 :: name) (47 :: k :: t) = none := by
    unfold skipLit
    have : hasPrefix (47 :: k :: t) (47 :: n0 :: name) = false := by
      simp only [hasPrefix, beq_self_eq_true, Bool.true_and]
      exact hasPrefix_cons_ne _ _ hk
    rw [this]
    rfl
  rw [this]

theorem findNamedRef_skip_noslash (name : Bytes) {v : Bytes} (hv : ∀ c ∈ v, c ≠ 47) (s : Bytes) :
    findNamedRef name (v ++ s) = findNamedRef name s := by
  apply findNamedRef_skip
  intro q hq
  cases hd : v.drop q with
  | nil =>
    have := congrArg List.length hd
    simp only [List.length_drop, List.length_nil] at this
    omega
  | cons x t =>
    have hx : x ∈ v := List.mem_of_mem_drop (by rw [hd]; simp)
    exact namedRefAt_ne_slash name (hv x hx) _

theorem findNamedRef_cons_none {name : Bytes} {x : Nat} {t : Bytes}
    (h : namedRefAt name (x :: t) = none) :
    findNamedRef name (x :: t) = findNamedRef name t := by
  simp only [findNamedRef, h]

theorem itoa_ne_slash (x : Int) : ∀ c ∈ itoa x, c ≠ 47 := by
  intro c hc
  rcases itoa_bytes x c hc with rfl | h
  · decide
  · have := isDigit_range h
    omega

/-- The trailer dictionary the writer appends names the new Catalog and the
new Info object. -/
theorem parseNamedRef_trailer {s c i prev : Int} (hc0 : 0 ≤ c) (hc1 : c ≤ maxInt)
    (hi0 : 0 ≤ i) (hi1 : i ≤ maxInt) :
    parseNamedRef (bytesOf "<< /Size " ++ itoa s ++ bytesOf " /Root " ++ itoa c
        ++ bytesOf " 0 R /Info " ++ itoa i ++ bytesOf " 0 R /Prev " ++ itoa prev ++ bytesOf " >>")
        (bytesOf "Root") = some { Obj := c, Gen := 0 }
      ∧ parseNamedRef (bytesOf "<< /Size " ++ itoa s ++ bytesOf " /Root " ++ itoa c
        ++ bytesOf " 0 R /Info " ++ itoa i ++ bytesOf " 0 R /Prev " ++ itoa prev ++ bytesOf " >>")
        (bytesOf "Info") = some { Obj := i, Gen := 0 } := by
  have e : ∀ t : Bytes, bytesOf "<< /Size " ++ itoa s ++ bytesOf " /Root " ++ itoa c
        ++ bytesOf " 0 R /Info " ++ itoa i ++ bytesOf " 0 R /Prev " ++ itoa prev ++ t
      = bytesOf "<< " ++ (47 :: 83 :: ((bytesOf "ize " ++ itoa s ++ [32])
          ++ (47 :: bytesOf "Root" ++ 32 :: itoa c ++ 32 :: itoa 0 ++ bytesOf " R"
            ++ (32 :: (47 :: bytesOf "Info" ++ 32 :: itoa i ++ 32 :: itoa 0 ++ bytesOf " R"
              ++ (bytesOf " /Prev " ++ itoa prev ++ t)))))) := by
    intro t
    rw [itoa_zero]
    simp [bytesOf]
  have hsize : ∀ c ∈ bytesOf "ize " ++ itoa s ++ [32], c ≠ 47 := by
    intro c hc
    simp only [List.mem_append, List.mem_singleton] at hc
    rcases hc with (hc | hc) | hc
    · revert c; decide
    · exact itoa_ne_slash s c hc
    · omega
  have kR : ∀ t : Bytes, namedRefAt (bytesOf "Root") (47 :: 83 :: t) = none :=
    fun t => @namedRefAt_other_key 82 83 (bytesOf "oot") (by decide) t
  have kI : ∀ t : Bytes, namedRefAt (bytesOf "Info") (47 :: 83 :: t) = none :=
    fun t => @namedRefAt_other_key 73 83 (bytesOf "nfo") (by decide) t
  have kI2 : ∀ t : Bytes, namedRefAt (bytesOf "Info") (47 :: 82 :: t) = none :=
    fun t => @namedRefAt_other_key 73 82 (bytesOf "nfo") (by decide) t
  rw [e]
  constructor
  · unfold parseNamedRef
    rw [findNamedRef_skip_noslash _ (by decide),
      findNamedRef_cons_none (kR _),
      findNamedRef_cons_none (namedRefAt_ne_slash _ (by decide) _),
      findNamedRef_skip_noslash _ hsize,
      findNamedRef_entry _ hc0 (by decide)]
    simp only [atoi_itoa hc0 hc1, atoi_itoa (x := 0) (by decide) (by decide)]
  · unfold parseNamedRef
    rw [findNamedRef_skip_noslash _ (by decide),
      findNamedRef_cons_none (kI _),
      findNamedRef_cons_none (namedRefAt_ne_slash _ (by decide) _),
      findNamedRef_skip_noslash _ hsize]
    have e2 : 47 :: bytesOf "Root" ++ 32 :: itoa c ++ 32 :: itoa 0 ++ bytesOf " R"
            ++ (32 :: (47 :: bytesOf "Info" ++ 32 :: itoa i ++ 32 :: itoa 0 ++ bytesOf " R"
              ++ (bytesOf " /Prev " ++ itoa prev ++ bytesOf " >>")))
        = 47 :: 82 :: ((bytesOf "oot " ++ itoa c ++ bytesOf " 0 R ")
            ++ (47 :: bytesOf "Info" ++ 32 :: itoa i ++ 32 :: itoa 0 ++ bytesOf " R"
              ++ (bytesOf " /Prev " ++ itoa prev ++ bytesOf " >>"))) := by
      rw [itoa_zero]
      simp [bytesOf]
    have hroot : ∀ x ∈ bytesOf "oot " ++ itoa c ++ bytesOf " 0 R ", x ≠ 47 := by
      intro x hx
      simp only [List.mem_append] at hx
      rcases hx with (hx | hx) | hx
      · revert x; decide
      · exact itoa_ne_slash c x hx
      · revert x; decide
    rw [e2, findNamedRef_cons_none (kI2 _),
      findNamedRef_cons_none (namedRefAt_ne_slash _ (by decide) _),
      findNamedRef_skip_noslash _ hroot,
      findNamedRef_entry _ hi0 (by decide)]
    simp only [atoi_itoa hi0 hi1, atoi_itoa (x := 0) (by decide) (by decide)]

/-- The last trailer dictionary of the output of the writer is the one it appends. -/
theorem lastTrailerDict_output (src : Bytes) (meta : Metadata) (packet : Bytes)
    (mx prev : Int) (rootDict : Bytes) :
    lastTrailerDict (incrementalOutput src meta packet mx prev rootDict)
      = bytesOf "<< /Size " ++ itoa (wrapInt (mx + 4))
        ++ bytesOf " /Root " ++ itoa (wrapInt (mx + 3))
        ++ bytesOf " 0 R /Info " ++ itoa (wrapInt (mx + 1))
        ++ bytesOf " 0 R /Prev " ++ itoa prev ++ bytesOf " >>" := by
  simp only [incrementalOutput, renderTrailer_eq]
  generalize hx : src ++ sourceLF src ++ renderInfoObject _ meta ++ renderMetadataObject _ packet
    ++ renderCatalogObject _ _ ++ renderXRef _ _ = x
  generalize hn : natDigits _ = ds
  have hds : ds.all (fun c => c != 108) = true := by
    rw [← hn]
    exact natDigits_all _ _ (fun c hc => by have := isDigit_range hc; simp; omega)
  have hi : ∀ y : Int, (itoa y).all (fun c => c != 108) = true := fun y =>
    itoa_all _ y (by decide) (fun c hc => by have := isDigit_range hc; simp; omega)
  have hi2 : ∀ y : Int, (itoa y).all (fun c => c != 60 && c != 62) = true := fun y =>
    itoa_all _ y (by decide) (fun c hc => by have := isDigit_range hc; simp; omega)
  have e0 : ∀ (p : Bytes), x ++ (bytesOf "trailer" ++ ([10, 60, 60] ++ p ++ [62, 62, 10]))
      ++ bytesOf "startxref\n" ++ (ds ++ bytesOf "\n") ++ bytesOf "%%EOF\n"
      = x ++ (bytesOf "trailer" ++ ([10, 60, 60] ++ p
          ++ 62 :: 62 :: ([10] ++ bytesOf "startxref\n" ++ (ds ++ bytesOf "\n") ++ bytesOf "%%EOF\n")))
      := by
    intro p
    simp only [List.append_assoc, List.cons_append, List.nil_append]
  rw [e0, lastTrailerDict_appended]
  · have e1 : bytesOf "<< /Size " = [60, 60] ++ bytesOf " /Size " := by decide
    have e2 : bytesOf " 0 R /Info " = [32] ++ itoa 0 ++ bytesOf " R /Info " := by decide
    have e3 : bytesOf " 0 R /Prev " = [32] ++ itoa 0 ++ bytesOf " R /Prev " := by decide
    have e4 : bytesOf " >>" = [32] ++ [62, 62] := by decide
    rw [e1, e2, e3, e4, wrapInt_wrapInt_add]
    have e5 : mx + 3 + 1 = mx + 4 := by ring
    rw [e5]
    simp only [List.append_assoc, List.cons_append, List.nil_append]
  · intro c hc
    have hall : (bytesOf " /Size " ++ itoa (wrapInt (wrapInt (mx + 3) + 1))
        ++ bytesOf " /Root " ++ itoa (wrapInt (mx + 3)) ++ [32]
        ++ itoa (0 : Int) ++ bytesOf " R /Info " ++ itoa (wrapInt (mx + 1)) ++ [32]
        ++ itoa (0 : Int) ++ bytesOf " R /Prev " ++ itoa prev ++ [32]).all
          (fun c => c != 60 && c != 62) = true := by
      simp only [List.all_append, hi2, Bool.and_eq_true, and_true, true_and]
      decide
    have := List.all_eq_true.1 hall c hc
    simpa using this
  · apply lastIndex_none_of_missing (q := 108) (by decide)
    apply not_mem_of_all
    simp only [List.all_append, List.all_cons, hi, hds, Bool.and_eq_true, and_true, true_and]
    decide

/-- The references `readNativeMetadata` finds in the output of the writer. -/
theorem parseTrailerRefs_output (src : Bytes) (meta : Metadata) (packet : Bytes)
    {mx : Int} (prev : Int) (rootDict : Bytes) (h0 : 0 ≤ mx) (h1 : mx + 3 ≤ maxInt) :
    parseTrailerRefs (incrementalOutput src meta packet mx prev rootDict)
      = some ({ Obj := mx + 3, Gen := 0 }, { Obj := mx + 1, Gen := 0 }) := by
  have hmax : maxInt = 9223372036854775807 := rfl
  have hmin : minInt = -9223372036854775808 := rfl
  unfold parseTrailerRefs
  simp only [lastTrailerDict_output]
  rw [wrapInt_of_range (x := mx + 3) (by omega) h1, wrapInt_of_range (x := mx + 1) (by omega) (by omega)]
  obtain ⟨hr, hi⟩ := @parseNamedRef_trailer (wrapInt (mx + 4)) (mx + 3) (mx + 1) prev
    (by omega) h1 (by omega) (by omega)
  rw [hr, hi]
  have hne : (bytesOf "<< /Size " ++ itoa (wrapInt (mx + 4)) ++ bytesOf " /Root " ++ itoa (mx + 3)
      ++ bytesOf " 0 R /Info " ++ itoa (mx + 1) ++ bytesOf " 0 R /Prev " ++ itoa prev
      ++ bytesOf " >>").isEmpty = false := by
    simp [bytesOf]
  rw [hne]
  rfl

/-! ### The Info dictionary of the output -/

theorem trimSpace_nil : trimSpace [] = [] := by decide

theorem unescapeLiteral_cons_ne (c : Nat) (rest : Bytes) (h : c ≠ 92) :
    unescapeLiteral (c :: rest) = c :: unescapeLiteral rest := by
  rw [unescapeLiteral.eq_def]
  simp only [h, ↓reduceIte]

theorem literalBody_close (rest : Bytes) : literalBody (41 :: rest) = some [41] := by
  unfold literalBody
  simp

theorem literalBody_cons_ne (c : Nat) (rest : Bytes) (h41 : c ≠ 41) (h92 : c ≠ 92) :
    literalBody (c :: rest)
      = match literalBody rest with
        | some m => some (c :: m)
        | none => none := by
  rw [literalBody.eq_def]
  simp only [h41, h92, ↓reduceIte]

theorem dictEntryAt_ne_slash (K : Bytes) {x : Nat} (hx : x ≠ 47) (t : Bytes) :
    dictEntryAt K (x :: t) = none := by
  unfold dictEntryAt
  have : skipLit (47 :: K) (x :: t) = none := by
    unfold skipLit
    rw [hasPrefix_cons_ne _ _ hx]
    rfl
  rw [this]
  rfl

/-- The pattern of `findDictValue` fails at the entry of a key that the key
looked for does not begin. -/
theorem dictEntryAt_other {K k : Bytes} (h32 : 32 ∉ K) (hk : hasPrefix k K = false) (t : Bytes) :
    dictEntryAt K (47 :: (k ++ 32 :: t)) = none := by
  unfold dictEntryAt
  have : skipLit (47 :: K) (47 :: (k ++ 32 :: t)) = none := by
    unfold skipLit
    have : hasPrefix (47 :: (k ++ 32 :: t)) (47 :: K) = false := by
      simp only [hasPrefix, beq_self_eq_true, Bool.true_and]
      cases hh : hasPrefix (k ++ 32 :: t) K with
      | false => rfl
      | true =>
        rw [hasPrefix_append_sep h32 k t K (fun _ h => h) hh] at hk
        exact absurd hk (by simp)
    rw [this]
    rfl
  rw [this]
  rfl

theorem findDictEntry_cons_none {K : Bytes} {x : Nat} {t : Bytes}
    (h : dictEntryAt K (x :: t) = none) : findDictEntry K (x :: t) = findDictEntry K t := by
  simp only [findDictEntry, h]

theorem findDictEntry_skip_noslash (K : Bytes) (s : Bytes) :
    ∀ (v : Bytes), (∀ c ∈ v, c ≠ 47) → findDictEntry K (v ++ s) = findDictEntry K s := by
  intro v
  induction v with
  | nil => intro _; rfl
  | cons x t ih =>
    intro h
    rw [List.cons_append, findDictEntry_cons_none (dictEntryAt_ne_slash K (h x (by simp)) _)]
    exact ih (fun c hc => h c (by simp [hc]))


theorem sortEntries_infoEntries (m : Metadata) :
    sortEntries (infoEntries m)
      = [(bytesOf "Author", m.Author), (bytesOf "CreationDate", m.CreationDate),
          (bytesOf "Creator", m.Creator), (bytesOf "Keywords", m.Keywords),
          (bytesOf "ModDate", m.ModDate), (bytesOf "Producer", m.Producer),
          (bytesOf "Subject", m.Subject), (bytesOf "Title", m.Title)] := rfl

theorem renderInfoObject_eq (i : Int) (m : Metadata) :
    renderInfoObject i m
      = itoa i ++ bytesOf " 0 obj"
        ++ 10 :: ((60 :: 60 :: (((sortEntries (infoEntries m)).map renderInfoEntry).flatten
            ++ [10, 62, 62])) ++ 10 :: (bytesOf "endobj" ++ [10])) := by
  unfold renderInfoObject
  have e1 : bytesOf " 0 obj\n<<" = bytesOf " 0 obj" ++ [10, 60, 60] := by decide
  have e2 : bytesOf "\n>>\nendobj\n" = [10, 62, 62] ++ 10 :: (bytesOf "endobj" ++ [10]) := by decide
  rw [e1, e2]
  simp only [List.append_assoc, List.cons_append, List.nil_append]

theorem isDigit_not_nl {c : Nat} (h : isDigit c = true) : c ≠ 10 ∧ c ≠ 13 := by
  have := isDigit_range h
  omega

theorem header_noNL {i : Int} (hi : 0 ≤ i) :
    ∀ c ∈ itoa i ++ bytesOf " 0 obj", c ≠ 10 ∧ c ≠ 13 := by
  intro c hc
  rcases List.mem_append.1 hc with hc | hc
  · exact isDigit_not_nl (itoa_isDigit hi c hc)
  · have : ∀ d ∈ bytesOf " 0 obj", d ≠ 10 ∧ d ≠ 13 := by decide
    exact this c hc

theorem literalByte_spec {c : Nat} (h : literalByte c = true) :
    c ≠ 40 ∧ c ≠ 41 ∧ c ≠ 10 ∧ c ≠ 13 ∧ c ≠ 9 := by
  simpa [literalByte, and_assoc] using h

theorem escapeByte_literal {c : Nat} (h : literalByte c = true) : escapeByte c = [c] := by
  obtain ⟨h1, h2, h3, h4, h5⟩ := literalByte_spec h
  simp [escapeByte, h1, h2, h3, h4, h5]

theorem escapePDFLiteral_pair (rest : Bytes) :
    escapePDFLiteral (92 :: 92 :: rest) = 92 :: 92 :: 92 :: 92 :: escapePDFLiteral rest := by
  simp [escapePDFLiteral]

/-- A byte that is copied and is no backslash comes first in the escaped text. -/
theorem escapePDFLiteral_cons_ne {c : Nat} (hc : literalByte c = true) (h92 : c ≠ 92)
    (rest : Bytes) : escapePDFLiteral (c :: rest) = c :: escapePDFLiteral rest := by
  cases rest with
  | nil => simp [escapePDFLiteral, escapeByte_literal hc]
  | cons d r => simp [escapePDFLiteral, h92, escapeByte_literal hc]

/-- A backslash before a byte that is no backslash is copied. -/
theorem escapePDFLiteral_lone {d : Nat} (hd : d ≠ 92) (rest : Bytes) :
    escapePDFLiteral (92 :: d :: rest) = 92 :: escapePDFLiteral (d :: rest) := by
  simp [escapePDFLiteral, hd, escapeByte]

theorem backslashOk_pair (rest : Bytes) : backslashOk (92 :: 92 :: rest) = backslashOk rest := by
  simp [backslashOk]

theorem backslashOk_lone {d : Nat} (hd : d ≠ 92) (rest : Bytes) :
    backslashOk (92 :: d :: rest)
      = (!(d == 110 || d == 114 || d == 116) && backslashOk (d :: rest)) := by
  simp [backslashOk, hd]

theorem backslashOk_cons_ne {c : Nat} (h92 : c ≠ 92) (rest : Bytes) :
    backslashOk (c :: rest) = backslashOk rest := by
  cases rest with
  | nil => simp [backslashOk, h92]
  | cons d r => simp [backslashOk, h92]

/-- The three shapes of a text as `escapePDFLiteral` reads it. -/
theorem literal_shapes (v : Bytes) :
    v = [] ∨ (∃ rest, v = 92 :: 92 :: rest) ∨ v = [92]
      ∨ (∃ d rest, v = 92 :: d :: rest ∧ d ≠ 92) ∨ (∃ c rest, v = c :: rest ∧ c ≠ 92) := by
  match v with
  | [] => exact Or.inl rfl
  | [c] =>
    by_cases h : c = 92
    · subst h; exact Or.inr (Or.inr (Or.inl rfl))
    · exact Or.inr (Or.inr (Or.inr (Or.inr ⟨c, [], rfl, h⟩)))
  | c :: d :: rest =>
    by_cases h : c = 92
    · subst h
      by_cases h2 : d = 92
      · subst h2; exact Or.inr (Or.inl ⟨rest, rfl⟩)
      · exact Or.inr (Or.inr (Or.inr (Or.inl ⟨d, rest, rfl, h2⟩)))
    · exact Or.inr (Or.inr (Or.inr (Or.inr ⟨c, d :: rest, rfl, h⟩)))

theorem literalBody_pair (d : Nat) (rest : Bytes) (hd : d ≠ 10) :
    literalBody (92 :: d :: rest)
      = match literalBody rest with
        | some m => some (92 :: d :: m)
        | none => none := by
  rw [literalBody.eq_def]
  simp only [hd, ↓reduceIte]
  try (cases literalBody rest <;> rfl)

theorem unescapeLiteral_pair (rest : Bytes) :
    unescapeLiteral (92 :: 92 :: rest) = 92 :: unescapeLiteral rest := by
  rw [unescapeLiteral.eq_def]
  simp

theorem unescapeLiteral_lone {d : Nat} (h1 : d ≠ 92) (h2 : d ≠ 40) (h3 : d ≠ 41) (h4 : d ≠ 110)
    (h5 : d ≠ 114) (h6 : d ≠ 116) (rest : Bytes) :
    unescapeLiteral (92 :: d :: rest) = 92 :: d :: unescapeLiteral rest := by
  rw [unescapeLiteral.eq_def]
  simp [h1, h2, h3, h4, h5, h6]

/-- The value between the parentheses, as the writer escapes it, is read to
its closing parenthesis and decoded to the value. -/
theorem literal_round_trip :
    ∀ (n : Nat) (v : Bytes), v.length ≤ n → (∀ c ∈ v, literalByte c = true) →
      backslashOk v = true →
      (∀ rest, literalBody (escapePDFLiteral v ++ 41 :: rest) = some (escapePDFLiteral v ++ [41]))
        ∧ unescapeLiteral (escapePDFLiteral v) = v := by
  intro n
  induction n with
  | zero =>
    intro v hn _ _
    have : v = [] := List.length_eq_zero.1 (by omega)
    subst this
    exact ⟨fun rest => literalBody_close rest, rfl⟩
  | succ n ih =>
    intro v hn hl hb
    rcases literal_shapes v with rfl | ⟨rest, rfl⟩ | rfl | ⟨d, rest, rfl, hd⟩ | ⟨c, rest, rfl, hc⟩
    · exact ⟨fun rest => literalBody_close rest, rfl⟩
    · rw [backslashOk_pair] at hb
      simp only [List.length_cons] at hn
      obtain ⟨i1, i2⟩ := ih rest (by omega) (fun c hc => hl c (by simp [hc])) hb
      rw [escapePDFLiteral_pair]
      refine ⟨fun r => ?_, ?_⟩
      · simp only [List.cons_append]
        rw [literalBody_pair 92 _ (by decide), literalBody_pair 92 _ (by decide), i1 r]
      · rw [unescapeLiteral_pair, unescapeLiteral_pair, i2]
    · simp [backslashOk] at hb
    · rw [backslashOk_lone hd] at hb
      simp only [Bool.and_eq_true, Bool.not_eq_eq_eq_not, Bool.not_true, Bool.or_eq_false_iff,
        beq_eq_false_iff_ne, ne_eq] at hb
      obtain ⟨⟨⟨h110, h114⟩, h116⟩, hb2⟩ := hb
      have hdl := literalByte_spec (hl d (by simp))
      rw [backslashOk_cons_ne hd] at hb2
      simp only [List.length_cons] at hn
      obtain ⟨i1, i2⟩ := ih rest (by omega) (fun c hc => hl c (by simp [hc])) hb2
      rw [escapePDFLiteral_lone hd, escapePDFLiteral_cons_ne (hl d (by simp)) hd]
      refine ⟨fun r => ?_, ?_⟩
      · simp only [List.cons_append]
        rw [literalBody_pair d _ hdl.2.2.1, i1 r]
      · rw [unescapeLiteral_lone hd hdl.1 hdl.2.1 h110 h114 h116, i2]
    · have hcl := literalByte_spec (hl c (by simp))
      rw [backslashOk_cons_ne hc] at hb
      simp only [List.length_cons] at hn
      obtain ⟨i1, i2⟩ := ih rest (by omega) (fun c hc => hl c (by simp [hc])) hb
      rw [escapePDFLiteral_cons_ne (hl c (by simp)) hc]
      refine ⟨fun r => ?_, ?_⟩
      · simp only [List.cons_append]
        rw [literalBody_cons_ne c _ hcl.2.1 hc, i1 r]
      · rw [unescapeLiteral_cons_ne c _ hc, i2]

theorem literalByte_92 : literalByte 92 = true := by decide

/-- The first byte of the escaped text is the first byte of the text. -/
theorem escapePDFLiteral_head {x : Nat} (hx : literalByte x = true) (t : Bytes) :
    ∃ Y, escapePDFLiteral (x :: t) = x :: Y := by
  by_cases h : x = 92
  · subst h
    cases t with
    | nil => exact ⟨[], rfl⟩
    | cons d r =>
      by_cases hd : d = 92
      · subst hd; exact ⟨_, escapePDFLiteral_pair r⟩
      · exact ⟨_, escapePDFLiteral_lone hd r⟩
  · exact ⟨_, escapePDFLiteral_cons_ne hx h t⟩

/-- A property of texts that holds of the escaped text when it holds of the
text: the proof goes through the three shapes. -/
theorem escapePDFLiteral_bytes :
    ∀ (n : Nat) (v : Bytes), v.length ≤ n → (∀ c ∈ v, literalByte c = true) →
      ∀ c ∈ escapePDFLiteral v, c ∈ v := by
  intro n
  induction n with
  | zero =>
    intro v hn _ c hc
    have : v = [] := List.length_eq_zero.1 (by omega)
    subst this
    simp [escapePDFLiteral] at hc
  | succ n ih =>
    intro v hn hl c hc
    rcases literal_shapes v with rfl | ⟨rest, rfl⟩ | rfl | ⟨d, rest, rfl, hd⟩ | ⟨x, rest, rfl, hx⟩
    · simp [escapePDFLiteral] at hc
    · rw [escapePDFLiteral_pair] at hc
      simp only [List.length_cons] at hn
      simp only [List.mem_cons] at hc ⊢
      rcases hc with h | h | h | h | h
      · exact Or.inl h
      · exact Or.inl h
      · exact Or.inl h
      · exact Or.inl h
      · exact Or.inr (Or.inr (ih rest (by omega) (fun c hc => hl c (by simp [hc])) c h))
    · simpa [escapePDFLiteral, escapeByte] using hc
    · rw [escapePDFLiteral_lone hd] at hc
      simp only [List.length_cons] at hn
      rcases List.mem_cons.1 hc with h | h
      · exact h ▸ List.mem_cons_self _ _
      · exact List.mem_cons_of_mem _
          (ih (d :: rest) (by simp; omega) (fun c hc => hl c (by simp [hc])) c h)
    · rw [escapePDFLiteral_cons_ne (hl x (by simp)) hx] at hc
      simp only [List.length_cons] at hn
      rcases List.mem_cons.1 hc with h | h
      · exact h ▸ List.mem_cons_self _ _
      · exact List.mem_cons_of_mem _
          (ih rest (by omega) (fun c hc => hl c (by simp [hc])) c h)

theorem escapePDFLiteral_literal {v : Bytes} (hl : ∀ c ∈ v, literalByte c = true) :
    ∀ c ∈ escapePDFLiteral v, literalByte c = true :=
  fun c hc => hl c (escapePDFLiteral_bytes v.length v (Nat.le_refl _) hl c hc)

theorem anglePairFree_cons_ne {c : Nat} (h60 : c ≠ 60) (h62 : c ≠ 62) (t : Bytes) :
    anglePairFree (c :: t) = anglePairFree t := by
  cases t with
  | nil => rfl
  | cons d r => simp [anglePairFree, h60, h62]

theorem anglePairFree_cons_cons (a b : Nat) (t : Bytes) :
    anglePairFree (a :: b :: t)
      = (!((a == 60 && b == 60) || (a == 62 && b == 62)) && anglePairFree (b :: t)) := rfl

/-- Doubling the backslashes makes no `<<` and no `>>`. -/
theorem anglePairFree_escape :
    ∀ (n : Nat) (v : Bytes), v.length ≤ n → (∀ c ∈ v, literalByte c = true) →
      anglePairFree (escapePDFLiteral v) = anglePairFree v := by
  intro n
  induction n with
  | zero =>
    intro v hn _
    have : v = [] := List.length_eq_zero.1 (by omega)
    subst this
    rfl
  | succ n ih =>
    intro v hn hl
    rcases literal_shapes v with rfl | ⟨rest, rfl⟩ | rfl | ⟨d, rest, rfl, hd⟩ | ⟨x, rest, rfl, hx⟩
    · rfl
    · simp only [List.length_cons] at hn
      rw [escapePDFLiteral_pair, anglePairFree_cons_ne (by decide) (by decide),
        anglePairFree_cons_ne (by decide) (by decide), anglePairFree_cons_ne (by decide) (by decide),
        anglePairFree_cons_ne (by decide) (by decide), anglePairFree_cons_ne (by decide) (by decide),
        anglePairFree_cons_ne (by decide) (by decide),
        ih rest (by omega) (fun c hc => hl c (by simp [hc]))]
    · rfl
    · simp only [List.length_cons] at hn
      rw [escapePDFLiteral_lone hd, anglePairFree_cons_ne (by decide) (by decide),
        anglePairFree_cons_ne (by decide) (by decide),
        ih (d :: rest) (by simp; omega) (fun c hc => hl c (by simp [hc]))]
    · simp only [List.length_cons] at hn
      rw [escapePDFLiteral_cons_ne (hl x (by simp)) hx]
      have ihr := ih rest (by omega) (fun c hc => hl c (by simp [hc]))
      cases rest with
      | nil => rfl
      | cons y t =>
        obtain ⟨Y, hY⟩ := escapePDFLiteral_head (hl y (by simp)) t
        rw [hY] at ihr ⊢
        rw [anglePairFree_cons_cons, anglePairFree_cons_cons, ihr]

/-- A word without a backslash begins the escaped text exactly when it begins the text. -/
theorem hasPrefix_escape (p : Bytes) (hp : 92 ∉ p) :
    ∀ (n : Nat) (v : Bytes), v.length ≤ n → (∀ c ∈ v, literalByte c = true) → p ≠ [] →
      hasPrefix (escapePDFLiteral v) p = hasPrefix v p := by
  induction p with
  | nil => intro n v _ _ h; exact absurd rfl h
  | cons q qs ihp =>
    intro n v hn hl _
    have hq : q ≠ 92 := fun e => hp (e ▸ List.mem_cons_self _ _)
    have hqs : 92 ∉ qs := fun h => hp (List.mem_cons_of_mem _ h)
    rcases literal_shapes v with rfl | ⟨rest, rfl⟩ | rfl | ⟨d, rest, rfl, hd⟩ | ⟨x, rest, rfl, hx⟩
    · rfl
    · rw [escapePDFLiteral_pair]
      have : (92 == q) = false := by simpa using Ne.symm hq
      simp [hasPrefix, this]
    · rfl
    · rw [escapePDFLiteral_lone hd]
      have : (92 == q) = false := by simpa using Ne.symm hq
      simp [hasPrefix, this]
    · rw [escapePDFLiteral_cons_ne (hl x (by simp)) hx]
      simp only [hasPrefix]
      cases qs with
      | nil => simp [hasPrefix_nil]
      | cons q2 qs2 =>
        rw [ihp hqs rest.length rest (Nat.le_refl _) (fun c hc => hl c (by simp [hc])) (by simp)]

theorem hasEndobj_cons_ne {c : Nat} (h : c ≠ 101) (prev : Nat) (t : Bytes) :
    hasEndobj prev (c :: t) = hasEndobj c t := by
  have : hasPrefix (c :: t) (bytesOf "endobj") = false := by
    have e : bytesOf "endobj" = 101 :: bytesOf "ndobj" := by decide
    rw [e]
    simp [hasPrefix, h]
  simp [hasEndobj, this]

/-- Doubling the backslashes moves no `endobj` to the start of a word. -/
theorem hasEndobj_escape :
    ∀ (n : Nat) (v : Bytes) (prev : Nat), v.length ≤ n → (∀ c ∈ v, literalByte c = true) →
      hasEndobj prev (escapePDFLiteral v) = hasEndobj prev v := by
  intro n
  induction n with
  | zero =>
    intro v prev hn _
    have : v = [] := List.length_eq_zero.1 (by omega)
    subst this
    rfl
  | succ n ih =>
    intro v prev hn hl
    rcases literal_shapes v with rfl | ⟨rest, rfl⟩ | rfl | ⟨d, rest, rfl, hd⟩ | ⟨x, rest, rfl, hx⟩
    · rfl
    · simp only [List.length_cons] at hn
      rw [escapePDFLiteral_pair, hasEndobj_cons_ne (by decide), hasEndobj_cons_ne (by decide),
        hasEndobj_cons_ne (by decide), hasEndobj_cons_ne (by decide),
        hasEndobj_cons_ne (by decide), hasEndobj_cons_ne (by decide),
        ih rest 92 (by omega) (fun c hc => hl c (by simp [hc]))]
    · rfl
    · simp only [List.length_cons] at hn
      rw [escapePDFLiteral_lone hd, hasEndobj_cons_ne (by decide), hasEndobj_cons_ne (by decide),
        ih (d :: rest) 92 (by simp; omega) (fun c hc => hl c (by simp [hc]))]
    · simp only [List.length_cons] at hn
      have hp := hasPrefix_escape (bytesOf "endobj") (by decide) _ (x :: rest) (Nat.le_refl _) hl
        (by decide)
      rw [escapePDFLiteral_cons_ne (hl x (by simp)) hx] at hp ⊢
      simp only [hasEndobj, hp, ih rest x (by omega) (fun c hc => hl c (by simp [hc]))]

/-- What follows the key of an entry: white space and the first byte of a value. -/
theorem shadowAt_eq (key s : Bytes) :
    shadowAt key s
      = (if hasPrefix s (47 :: key) then
          (match s.drop (47 :: key).length with
            | [] => false
            | c :: r => isReSpace c && valueStart (r.dropWhile isReSpace))
        else false) := by
  unfold shadowAt skipLit
  by_cases h : hasPrefix s (47 :: key) = true
  · simp only [h, ↓reduceIte]
    cases s.drop (47 :: key).length with
    | nil => rfl
    | cons c r =>
      simp only [skipSpaces1]
      by_cases hc : isReSpace c = true
      · simp only [hc, ↓reduceIte, Bool.true_and]
      · simp only [hc, Bool.false_eq_true, ↓reduceIte, Bool.false_and]
  · simp only [h, Bool.false_eq_true, ↓reduceIte]

theorem dropWhile_append_stop {p : Nat → Bool} (a : Bytes) {x : Nat} (hx : p x = false) (t : Bytes) :
    (a ++ x :: t).dropWhile p = a.dropWhile p ++ x :: t := by
  induction a with
  | nil => simp [List.dropWhile_cons, hx]
  | cons c cs ih =>
    by_cases hc : p c = true
    · simp only [List.cons_append, List.dropWhile_cons, hc, ↓reduceIte, ih]
    · simp only [List.cons_append, List.dropWhile_cons, hc, Bool.false_eq_true, ↓reduceIte]

/-- Where no entry of the key begins in the text, the pattern of
`findDictValue` does not match before the closing parenthesis. -/
theorem dictEntryAt_noshadow {key : Bytes} (h41 : 41 ∉ key) (s rest : Bytes)
    (hs : shadowAt key s = false) : dictEntryAt key (s ++ 41 :: rest) = none := by
  rw [shadowAt_eq] at hs
  unfold dictEntryAt skipLit
  by_cases h : hasPrefix s (47 :: key) = true
  · have hse := hasPrefix_eq_append h
    rw [if_pos h] at hs
    have hfull : hasPrefix (s ++ 41 :: rest) (47 :: key) = true := by
      rw [hse, List.append_assoc]
      exact hasPrefix_append_self _ _
    have hdrop : (s ++ 41 :: rest).drop (47 :: key).length
        = s.drop (47 :: key).length ++ 41 :: rest := by
      rw [List.drop_append_of_le_length (hasPrefix_length h)]
    simp only [hfull, ↓reduceIte, Option.bind_eq_bind, Option.some_bind, hdrop]
    cases hr : s.drop (47 :: key).length with
    | nil => rfl
    | cons c r =>
      rw [hr] at hs
      simp only [List.cons_append, skipSpaces1]
      by_cases hc : isReSpace c = true
      · simp only [hc, ↓reduceIte, Option.some_bind, Bool.true_and] at hs ⊢
        rw [dropWhile_append_stop r (by decide)]
        cases hr2 : r.dropWhile isReSpace with
        | nil => rfl
        | cons x t =>
          rw [hr2] at hs
          simp only [List.cons_append, dictValueAt]
          by_cases h40 : x = 40
          · subst h40; simp [valueStart] at hs
          · by_cases h60 : x = 60
            · subst h60; simp [valueStart] at hs
            · simp only [h40, h60, ↓reduceIte]
              by_cases h47 : x = 47
              · subst h47
                cases t with
                | nil => simp [List.takeWhile_cons, isNameValueByte]
                | cons d t2 =>
                  have hd : isNameValueByte d = false := by simpa [valueStart] using hs
                  simp [List.takeWhile_cons, hd]
              · simp only [h47, ↓reduceIte]
      · simp only [hc, Bool.false_eq_true, ↓reduceIte, Option.none_bind]
  · have hfull : hasPrefix (s ++ 41 :: rest) (47 :: key) = false := by
      cases hh : hasPrefix (s ++ 41 :: rest) (47 :: key) with
      | false => rfl
      | true =>
        have := hasPrefix_append_sep (p := 47 :: key) (x := 41)
          (by simp only [List.mem_cons, not_or]; exact ⟨by decide, h41⟩) s rest (47 :: key)
          (fun _ hc => hc) hh
        exact absurd this h
    simp only [hfull, Bool.false_eq_true, ↓reduceIte, Option.bind_eq_bind, Option.none_bind]

/-- The search for a key passes over a text in which no entry of the key begins. -/
theorem findDictEntry_skip_shadow {key : Bytes} (h41 : 41 ∉ key) (rest : Bytes) :
    ∀ (W : Bytes), hasShadow key W = false →
      findDictEntry key (W ++ 41 :: rest) = findDictEntry key (41 :: rest) := by
  intro W
  induction W with
  | nil => intro _; rfl
  | cons c t ih =>
    intro h
    simp only [hasShadow, Bool.or_eq_false_iff] at h
    have := dictEntryAt_noshadow h41 (c :: t) rest h.1
    rw [List.cons_append] at this ⊢
    rw [findDictEntry_cons_none this]
    exact ih h.2

theorem escapePDFLiteral_append_plain (b : Bytes) :
    ∀ (a : Bytes), (∀ c ∈ a, literalByte c = true ∧ c ≠ 92) →
      escapePDFLiteral (a ++ b) = a ++ escapePDFLiteral b := by
  intro a
  induction a with
  | nil => intro _; rfl
  | cons x t ih =>
    intro h
    obtain ⟨h1, h2⟩ := h x (by simp)
    rw [List.cons_append, escapePDFLiteral_cons_ne h1 h2, ih (fun c hc => h c (by simp [hc]))]
    rfl

theorem isReSpace_ne_92 {c : Nat} (h : isReSpace c = true) : c ≠ 92 := by
  rintro rfl
  simp [isReSpace] at h

theorem dropWhile_escape :
    ∀ (t : Bytes), (∀ c ∈ t, literalByte c = true) →
      (escapePDFLiteral t).dropWhile isReSpace = escapePDFLiteral (t.dropWhile isReSpace) := by
  intro t
  induction t with
  | nil => intro _; rfl
  | cons x r ih =>
    intro h
    have hx := h x (by simp)
    by_cases hs : isReSpace x = true
    · rw [escapePDFLiteral_cons_ne hx (isReSpace_ne_92 hs)]
      simp only [List.dropWhile_cons, hs, ↓reduceIte]
      exact ih (fun c hc => h c (by simp [hc]))
    · obtain ⟨Y, hY⟩ := escapePDFLiteral_head hx r
      simp only [List.dropWhile_cons, hs, Bool.false_eq_true, ↓reduceIte]
      rw [hY]
      simp only [List.dropWhile_cons, hs, Bool.false_eq_true, ↓reduceIte]

theorem valueStart_escape (r : Bytes) (h : ∀ c ∈ r, literalByte c = true) :
    valueStart (escapePDFLiteral r) = valueStart r := by
  match r, h with
  | [], _ => rfl
  | [x], h =>
    rw [show escapePDFLiteral [x] = [x] from escapeByte_literal (h x (by simp))]
  | x :: c :: t, h =>
    by_cases hx : x = 92
    · subst hx
      obtain ⟨Y, hY⟩ := escapePDFLiteral_head (h 92 (by simp)) (c :: t)
      rw [hY]
      rfl
    · rw [escapePDFLiteral_cons_ne (h x (by simp)) hx]
      obtain ⟨Y, hY⟩ := escapePDFLiteral_head (h c (by simp)) t
      rw [hY]
      by_cases h40 : x = 40
      · subst h40; rfl
      · by_cases h60 : x = 60
        · subst h60; rfl
        · by_cases h47 : x = 47
          · subst h47; rfl
          · simp [valueStart, h40, h60, h47]

/-- Doubling the backslashes makes and removes no beginning of an entry. -/
theorem shadowAt_escape {key : Bytes} (hk : ∀ c ∈ key, literalByte c = true ∧ c ≠ 92)
    (s : Bytes) (hs : ∀ c ∈ s, literalByte c = true) :
    shadowAt key (escapePDFLiteral s) = shadowAt key s := by
  have hk2 : ∀ c ∈ 47 :: key, literalByte c = true ∧ c ≠ 92 := by
    intro c hc
    rcases List.mem_cons.1 hc with rfl | hc
    · exact ⟨by decide, by decide⟩
    · exact hk c hc
  have h92 : 92 ∉ 47 :: key := fun h => (hk2 92 h).2 rfl
  have hp := hasPrefix_escape (47 :: key) h92 s.length s (Nat.le_refl _) hs (by simp)
  rw [shadowAt_eq, shadowAt_eq, hp]
  by_cases h : hasPrefix s (47 :: key) = true
  · simp only [h, ↓reduceIte]
    have hse := hasPrefix_eq_append h
    generalize hr : s.drop (47 :: key).length = r at hse
    have hrl : ∀ c ∈ r, literalByte c = true := by
      intro c hc
      exact hs c (by rw [hse]; exact List.mem_append_right _ hc)
    have he : escapePDFLiteral s = (47 :: key) ++ escapePDFLiteral r := by
      conv => lhs; rw [hse]
      exact escapePDFLiteral_append_plain r (47 :: key) hk2
    rw [he, List.drop_left]
    cases r with
    | nil => rfl
    | cons c t =>
      by_cases hc : isReSpace c = true
      · rw [escapePDFLiteral_cons_ne (hrl c (by simp)) (isReSpace_ne_92 hc)]
        simp only [hc, Bool.true_and]
        rw [dropWhile_escape t (fun c hc => hrl c (by simp [hc]))]
        apply valueStart_escape
        intro d hd
        have : d ∈ t := (List.dropWhile_sublist _).subset hd
        exact hrl d (by simp [this])
      · obtain ⟨Y, hY⟩ := escapePDFLiteral_head (hrl c (by simp)) t
        rw [hY]
        simp [hc]
  · simp only [h, Bool.false_eq_true, ↓reduceIte]

theorem shadowAt_cons_ne (key : Bytes) {c : Nat} (h : c ≠ 47) (t : Bytes) :
    shadowAt key (c :: t) = false := by
  rw [shadowAt_eq, hasPrefix_cons_ne _ _ h]
  rfl

theorem hasShadow_cons_ne (key : Bytes) {c : Nat} (h : c ≠ 47) (t : Bytes) :
    hasShadow key (c :: t) = hasShadow key t := by
  simp [hasShadow, shadowAt_cons_ne key h]

theorem hasShadow_escape {key : Bytes} (hk : ∀ c ∈ key, literalByte c = true ∧ c ≠ 92) :
    ∀ (n : Nat) (v : Bytes), v.length ≤ n → (∀ c ∈ v, literalByte c = true) →
      hasShadow key (escapePDFLiteral v) = hasShadow key v := by
  intro n
  induction n with
  | zero =>
    intro v hn _
    have : v = [] := List.length_eq_zero.1 (by omega)
    subst this
    rfl
  | succ n ih =>
    intro v hn hl
    rcases literal_shapes v with rfl | ⟨rest, rfl⟩ | rfl | ⟨d, rest, rfl, hd⟩ | ⟨x, rest, rfl, hx⟩
    · rfl
    · simp only [List.length_cons] at hn
      rw [escapePDFLiteral_pair, hasShadow_cons_ne key (by decide), hasShadow_cons_ne key (by decide),
        hasShadow_cons_ne key (by decide), hasShadow_cons_ne key (by decide),
        hasShadow_cons_ne key (by decide), hasShadow_cons_ne key (by decide),
        ih rest (by omega) (fun c hc => hl c (by simp [hc]))]
    · rfl
    · simp only [List.length_cons] at hn
      rw [escapePDFLiteral_lone hd, hasShadow_cons_ne key (by decide),
        hasShadow_cons_ne key (by decide),
        ih (d :: rest) (by simp; omega) (fun c hc => hl c (by simp [hc]))]
    · simp only [List.length_cons] at hn
      have hsa := shadowAt_escape hk (x :: rest) hl
      rw [escapePDFLiteral_cons_ne (hl x (by simp)) hx] at hsa ⊢
      simp only [hasShadow, hsa, ih rest (by omega) (fun c hc => hl c (by simp [hc]))]

/-- What the search of a key needs of the entry of another key to pass over it. -/
theorem renderInfoEntry_value (k : Bytes) {v : Bytes} (h : (trimSpace v).isEmpty = false) :
    renderInfoEntry (k, v) = 10 :: 47 :: (k ++ 32 :: 40 :: (escapePDFLiteral v ++ [41])) := by
  unfold renderInfoEntry
  simp only [h, Bool.false_eq_true, ↓reduceIte]
  simp [bytesOf]

theorem renderInfoEntry_empty (k : Bytes) : renderInfoEntry (k, []) = [] := by
  unfold renderInfoEntry
  have : trimSpace [] = [] := by decide
  simp [this]

/-- The pattern of `findDictValue` at an entry of the key itself reads the value in parentheses. -/
theorem dictEntryAt_value (K : Bytes) {v : Bytes} (hv : ∀ c ∈ v, literalByte c = true)
    (hb : backslashOk v = true) (rest : Bytes) :
    dictEntryAt K (47 :: (K ++ 32 :: 40 :: (escapePDFLiteral v ++ 41 :: rest)))
      = some (40 :: (escapePDFLiteral v ++ [41])) := by
  have e : (47 :: (K ++ 32 :: 40 :: (escapePDFLiteral v ++ 41 :: rest)))
      = (47 :: K) ++ (32 :: 40 :: (escapePDFLiteral v ++ 41 :: rest)) := by simp
  have h2 : skipSpaces1 (32 :: 40 :: (escapePDFLiteral v ++ 41 :: rest))
      = some (40 :: (escapePDFLiteral v ++ 41 :: rest)) := rfl
  unfold dictEntryAt
  rw [e, skipLit_append]
  simp only [Option.bind_eq_bind, Option.some_bind, h2, dictValueAt, ↓reduceIte,
    (literal_round_trip v.length v (Nat.le_refl _) hv hb).1 rest]

/-- The search for a key passes over the entries of other keys whose values
contain no beginning of an entry of the key. -/
theorem findDictEntry_values_skip {K : Bytes} (h32 : 32 ∉ K) (h41 : 41 ∉ K)
    (hK : ∀ c ∈ K, literalByte c = true ∧ c ≠ 92) (B : Bytes) :
    ∀ (es : List (Bytes × Bytes)),
      (∀ e ∈ es, hasPrefix e.1 K = false ∧ (∀ c ∈ e.1, c ≠ 47)
        ∧ (e.2 = [] ∨ ((trimSpace e.2).isEmpty = false ∧ (∀ c ∈ e.2, literalByte c = true)
            ∧ hasShadow K e.2 = false))) →
      findDictEntry K ((es.map renderInfoEntry).flatten ++ B) = findDictEntry K B := by
  intro es
  induction es with
  | nil => intro _; rfl
  | cons e es ih =>
    intro h
    obtain ⟨k, v⟩ := e
    obtain ⟨h1, h2, h3⟩ := h (k, v) (by simp)
    have ih2 := ih (fun e he => h e (by simp [he]))
    simp only [List.map_cons, List.flatten_cons, List.append_assoc]
    rcases h3 with hnil | ⟨hne, hl, hsh⟩
    · simp only at hnil
      subst hnil
      rw [renderInfoEntry_empty, List.nil_append]; exact ih2
    · simp only at hne hl hsh
      rw [renderInfoEntry_value k hne]
      have e1 : 10 :: 47 :: (k ++ 32 :: 40 :: (escapePDFLiteral v ++ [41]))
            ++ ((es.map renderInfoEntry).flatten ++ B)
          = 10 :: 47 :: (k ++ 32 :: (40 :: (escapePDFLiteral v ++ [41])
            ++ ((es.map renderInfoEntry).flatten ++ B))) := by simp
      rw [e1, findDictEntry_cons_none (dictEntryAt_ne_slash K (by decide) _),
        findDictEntry_cons_none (dictEntryAt_other h32 h1 _)]
      have e2 : k ++ 32 :: (40 :: (escapePDFLiteral v ++ [41])
            ++ ((es.map renderInfoEntry).flatten ++ B))
          = (k ++ [32, 40]) ++ (escapePDFLiteral v
            ++ 41 :: ((es.map renderInfoEntry).flatten ++ B)) := by simp
      rw [e2, findDictEntry_skip_noslash, findDictEntry_skip_shadow h41,
        findDictEntry_cons_none (dictEntryAt_ne_slash K (by decide) _)]
      · exact ih2
      · rw [hasShadow_escape hK v.length v (Nat.le_refl _) hl]
        exact hsh
      · intro c hc
        simp only [List.mem_append, List.mem_cons, List.mem_singleton, List.not_mem_nil,
          or_false] at hc
        rcases hc with hc | rfl | rfl
        · exact h2 c hc
        · decide
        · decide

/-- The value `findDictValue` reads for a key from the entries the writer
renders: the escaped value of the key in parentheses, or nothing when it is empty. -/
theorem findDictEntry_values_own {K : Bytes} (h32 : 32 ∉ K) (h41 : 41 ∉ K)
    (hK : ∀ c ∈ K, literalByte c = true ∧ c ≠ 92) (B : Bytes)
    (hB : findDictEntry K B = none) (es1 es2 : List (Bytes × Bytes)) {v : Bytes}
    (h1 : ∀ e ∈ es1, hasPrefix e.1 K = false ∧ (∀ c ∈ e.1, c ≠ 47)
        ∧ (e.2 = [] ∨ ((trimSpace e.2).isEmpty = false ∧ (∀ c ∈ e.2, literalByte c = true)
            ∧ hasShadow K e.2 = false)))
    (h2 : ∀ e ∈ es2, hasPrefix e.1 K = false ∧ (∀ c ∈ e.1, c ≠ 47)
        ∧ (e.2 = [] ∨ ((trimSpace e.2).isEmpty = false ∧ (∀ c ∈ e.2, literalByte c = true)
            ∧ hasShadow K e.2 = false)))
    (hv : v = [] ∨ ((trimSpace v).isEmpty = false ∧ (∀ c ∈ v, literalByte c = true)
            ∧ backslashOk v = true)) :
    findDictEntry K (((es1 ++ (K, v) :: es2).map renderInfoEntry).flatten ++ B)
      = if v = [] then none else some (40 :: (escapePDFLiteral v ++ [41])) := by
  simp only [List.map_append, List.map_cons, List.flatten_append, List.flatten_cons,
    List.append_assoc]
  rw [findDictEntry_values_skip h32 h41 hK _ es1 h1]
  rcases hv with hnil | ⟨hne, hl, hb⟩
  · subst hnil
    rw [renderInfoEntry_empty, List.nil_append, findDictEntry_values_skip h32 h41 hK _ es2 h2, hB,
      if_pos rfl]
  · have hne2 : v ≠ [] := by
      rintro rfl
      exact absurd hne (by decide)
    rw [renderInfoEntry_value K hne, if_neg hne2]
    have e1 : 10 :: 47 :: (K ++ 32 :: 40 :: (escapePDFLiteral v ++ [41]))
          ++ ((es2.map renderInfoEntry).flatten ++ B)
        = 10 :: 47 :: (K ++ 32 :: 40 :: (escapePDFLiteral v
          ++ 41 :: ((es2.map renderInfoEntry).flatten ++ B))) := by
      simp
    rw [e1, findDictEntry_cons_none (dictEntryAt_ne_slash K (by decide) _)]
    simp only [findDictEntry, dictEntryAt_value K hl hb]

/-- The value `parseInfoDict` decodes from the text `findDictValue` reads for a field. -/
theorem decode_value {v : Bytes}
    (hv : v = [] ∨ ((trimSpace v).isEmpty = false ∧ (∀ c ∈ v, literalByte c = true)
            ∧ backslashOk v = true)) :
    (decodePDFString ((if v = [] then none
      else some (40 :: (escapePDFLiteral v ++ [41]))).getD [])).getD [] = v := by
  rcases hv with rfl | ⟨hne, hl, hb⟩
  · decide
  · have hne2 : v ≠ [] := by
      rintro rfl
      exact absurd hne (by decide)
    rw [if_neg hne2]
    simp only [Option.getD_some]
    generalize hW : escapePDFLiteral v = W
    have hu : unescapeLiteral W = v := by
      rw [← hW]; exact (literal_round_trip v.length v (Nat.le_refl _) hl hb).2
    unfold decodePDFString
    have ht : trimSpace (40 :: (W ++ [41])) = 40 :: (W ++ [41]) :=
      trimSpace_of_ends 40 41 W (by decide) (by decide) (by decide) (by decide)
    have hs : hasSuffix (40 :: (W ++ [41])) [41] = true := by
      have := hasSuffix_snoc (40 :: W) 41
      simpa using this
    have hd : ((40 :: (W ++ [41])).take ((40 :: (W ++ [41])).length - 1)).drop 1 = W := by
      simp
    simp only [ht, List.isEmpty_cons, Bool.false_eq_true, ↓reduceIte, hs, hasPrefix, hasPrefix_nil,
      beq_self_eq_true, Bool.and_self, Bool.true_and, hd]
    simp [hu]

theorem safeField_spec {k v : Bytes} (h : safeField k v = true) :
    v = [] ∨ ((trimSpace v).isEmpty = false ∧ (∀ c ∈ v, literalByte c = true)
      ∧ backslashOk v = true ∧ anglePairFree v = true ∧ hasEndobj 40 v = false
      ∧ ∀ K ∈ infoKeyNames, K ≠ k → hasShadow K v = false) := by
  unfold safeField at h
  rcases Bool.or_eq_true_iff.1 h with h | h
  · left
    simpa using h
  · right
    simp only [safeValue, Bool.and_eq_true, Bool.not_eq_eq_eq_not, Bool.not_true,
      List.all_eq_true, Bool.or_eq_true, beq_iff_eq] at h
    obtain ⟨⟨⟨⟨⟨h1, h2⟩, h3⟩, h4⟩, h5⟩, h6⟩ := h
    refine ⟨h1, h2, h3, h4, h5, ?_⟩
    intro K hK hne
    rcases h6 K hK with h | h
    · exact absurd h hne
    · exact h

theorem infoKeyNames_spec : ∀ K ∈ infoKeyNames,
    32 ∉ K ∧ 41 ∉ K ∧ ∀ c ∈ K, literalByte c = true ∧ c ≠ 92 := by decide

theorem hasPrefix_self (K : Bytes) : hasPrefix K K = true := by
  have := hasPrefix_append_self K []
  simpa using this

/-- The value `parseInfoDict` reads for a key from the dictionary the writer
renders for safe fields is the field itself. -/
theorem infoGet_values {K : Bytes} (hKin : K ∈ infoKeyNames) (es1 es2 : List (Bytes × Bytes))
    {v : Bytes}
    (hk1 : es1.all (fun e => !hasPrefix e.1 K && e.1.all (fun c => c != 47)) = true)
    (hk2 : es2.all (fun e => !hasPrefix e.1 K && e.1.all (fun c => c != 47)) = true)
    (hvs : ∀ e ∈ es1 ++ (K, v) :: es2, safeField e.1 e.2 = true) :
    infoGet (60 :: 60 :: (((es1 ++ (K, v) :: es2).map renderInfoEntry).flatten ++ [10, 62, 62])) K
      = v := by
  obtain ⟨h32, h41, hK⟩ := infoKeyNames_spec K hKin
  have hB : findDictEntry K [10, 62, 62] = none := by
    rw [findDictEntry_cons_none (dictEntryAt_ne_slash K (by decide) _),
      findDictEntry_cons_none (dictEntryAt_ne_slash K (by decide) _),
      findDictEntry_cons_none (dictEntryAt_ne_slash K (by decide) _)]
    rfl
  have hskip : ∀ (es : List (Bytes × Bytes)),
      es.all (fun e => !hasPrefix e.1 K && e.1.all (fun c => c != 47)) = true →
      (∀ e ∈ es, safeField e.1 e.2 = true) →
      ∀ e ∈ es, hasPrefix e.1 K = false ∧ (∀ c ∈ e.1, c ≠ 47)
        ∧ (e.2 = [] ∨ ((trimSpace e.2).isEmpty = false ∧ (∀ c ∈ e.2, literalByte c = true)
            ∧ hasShadow K e.2 = false)) := by
    intro es hk hs e he
    have := List.all_eq_true.1 hk e he
    simp only [Bool.and_eq_true, Bool.not_eq_eq_eq_not, Bool.not_true, List.all_eq_true,
      bne_iff_ne, ne_eq] at this
    refine ⟨this.1, this.2, ?_⟩
    have hne : K ≠ e.1 := by
      intro h
      have h2 := this.1
      rw [← h, hasPrefix_self] at h2
      exact absurd h2 (by simp)
    rcases safeField_spec (hs e he) with h | ⟨a1, a2, _, _, _, a6⟩
    · exact Or.inl h
    · exact Or.inr ⟨a1, a2, a6 K hKin hne⟩
  have hown : v = [] ∨ ((trimSpace v).isEmpty = false ∧ (∀ c ∈ v, literalByte c = true)
      ∧ backslashOk v = true) := by
    rcases safeField_spec (hvs (K, v) (by simp)) with h | ⟨a1, a2, a3, _⟩
    · exact Or.inl h
    · exact Or.inr ⟨a1, a2, a3⟩
  unfold infoGet findDictValue
  rw [findDictEntry_cons_none (dictEntryAt_ne_slash K (by decide) _),
    findDictEntry_cons_none (dictEntryAt_ne_slash K (by decide) _),
    findDictEntry_values_own h32 h41 hK _ hB es1 es2
      (hskip es1 hk1 (fun e he => hvs e (by simp [he])))
      (hskip es2 hk2 (fun e he => hvs e (by simp [he]))) hown]
  exact decode_value hown

theorem safeRecord_entries {m : Metadata} (h : safeRecord m = true) :
    ∀ e ∈ sortEntries (infoEntries m), safeField e.1 e.2 = true := by
  simp only [safeRecord, Bool.and_eq_true] at h
  obtain ⟨⟨⟨⟨⟨⟨⟨h1, h2⟩, h3⟩, h4⟩, h5⟩, h6⟩, h7⟩, h8⟩ := h
  rw [sortEntries_infoEntries]
  intro e he
  simp only [List.mem_cons, List.mem_singleton, List.not_mem_nil, or_false] at he
  rcases he with rfl | rfl | rfl | rfl | rfl | rfl | rfl | rfl <;> assumption

set_option maxRecDepth 100000 in
/-- The record `parseInfoDict` reads from the dictionary the writer renders
for a record of safe fields is the record itself. -/
theorem parseInfoDict_values {m : Metadata} (h : safeRecord m = true) :
    parseInfoDict (60 :: 60 :: (((sortEntries (infoEntries m)).map renderInfoEntry).flatten
      ++ [10, 62, 62])) = m := by
  have hall := safeRecord_entries h
  rw [sortEntries_infoEntries] at hall ⊢
  have g1 := infoGet_values (K := bytesOf "Author") (by decide) []
    [(bytesOf "CreationDate", m.CreationDate),
          (bytesOf "Creator", m.Creator), (bytesOf "Keywords", m.Keywords),
          (bytesOf "ModDate", m.ModDate), (bytesOf "Producer", m.Producer),
          (bytesOf "Subject", m.Subject), (bytesOf "Title", m.Title)] rfl rfl hall
  have g2 := infoGet_values (K := bytesOf "CreationDate") (by decide)
    [(bytesOf "Author", m.Author)]
    [(bytesOf "Creator", m.Creator), (bytesOf "Keywords", m.Keywords),
          (bytesOf "ModDate", m.ModDate), (bytesOf "Producer", m.Producer),
          (bytesOf "Subject", m.Subject), (bytesOf "Title", m.Title)] rfl rfl hall
  have g3 := infoGet_values (K := bytesOf "Creator") (by decide)
    [(bytesOf "Author", m.Author), (bytesOf "CreationDate", m.CreationDate)]
    [(bytesOf "Keywords", m.Keywords),
          (bytesOf "ModDate", m.ModDate), (bytesOf "Producer", m.Producer),
          (bytesOf "Subject", m.Subject), (bytesOf "Title", m.Title)] rfl rfl hall
  have g4 := infoGet_values (K := bytesOf "Keywords") (by decide)
    [(bytesOf "Author", m.Author), (bytesOf "CreationDate", m.CreationDate),
          (bytesOf "Creator", m.Creator)]
    [(bytesOf "ModDate", m.ModDate), (bytesOf "Producer", m.Producer),
          (bytesOf "Subject", m.Subject), (bytesOf "Title", m.Title)] rfl rfl hall
  have g5 := infoGet_values (K := bytesOf "ModDate") (by decide)
    [(bytesOf "Author", m.Author), (bytesOf "CreationDate", m.CreationDate),
          (bytesOf "Creator", m.Creator), (bytesOf "Keywords", m.Keywords)]
    [(bytesOf "Producer", m.Producer),
          (bytesOf "Subject", m.Subject), (bytesOf "Title", m.Title)] rfl rfl hall
  have g6 := infoGet_values (K := bytesOf "Producer") (by decide)
    [(bytesOf "Author", m.Author), (bytesOf "CreationDate", m.CreationDate),
          (bytesOf "Creator", m.Creator), (bytesOf "Keywords", m.Keywords),
          (bytesOf "ModDate", m.ModDate)]
    [(bytesOf "Subject", m.Subject), (bytesOf "Title", m.Title)] rfl rfl hall
  have g7 := infoGet_values (K := bytesOf "Subject") (by decide)
    [(bytesOf "Author", m.Author), (bytesOf "CreationDate", m.CreationDate),
          (bytesOf "Creator", m.Creator), (bytesOf "Keywords", m.Keywords),
          (bytesOf "ModDate", m.ModDate), (bytesOf "Producer", m.Producer)]
    [(bytesOf "Title", m.Title)] rfl rfl hall
  have g8 := infoGet_values (K := bytesOf "Title") (by decide)
    [(bytesOf "Author", m.Author), (bytesOf "CreationDate", m.CreationDate),
          (bytesOf "Creator", m.Creator), (bytesOf "Keywords", m.Keywords),
          (bytesOf "ModDate", m.ModDate), (bytesOf "Producer", m.Producer),
          (bytesOf "Subject", m.Subject)] [] rfl rfl hall
  unfold parseInfoDict
  cases m
  simp only [List.cons_append, List.nil_append] at g1 g2 g3 g4 g5 g6 g7 g8
  simp only [g1, g2, g3, g4, g5, g6, g7, g8]

theorem hasPrefix_append_left {a q : Bytes} (h : hasPrefix a q = true) (b : Bytes) :
    hasPrefix (a ++ b) q = true := by
  rw [hasPrefix_iff] at h ⊢
  exact h.trans (List.prefix_append a b)

/-- A byte that the word lacks separates the matches of `\bendobj` before it
from those behind it. -/
theorem hasEndobj_append_sep {x : Nat} (hx : x ∉ bytesOf "endobj") (t : Bytes) :
    ∀ (a : Bytes) (prev : Nat),
      hasEndobj prev (a ++ x :: t) = (hasEndobj prev a || hasEndobj x t) := by
  intro a
  induction a with
  | nil =>
    intro prev
    have hx1 : x ≠ 101 := by
      rintro rfl
      exact hx (by decide)
    rw [List.nil_append, hasEndobj_cons_ne hx1]
    rfl
  | cons c a ih =>
    intro prev
    have hp : hasPrefix (c :: a ++ x :: t) (bytesOf "endobj")
        = hasPrefix (c :: a) (bytesOf "endobj") := by
      cases h1 : hasPrefix (c :: a) (bytesOf "endobj") with
      | true => exact hasPrefix_append_left h1 _
      | false =>
        cases h2 : hasPrefix (c :: a ++ x :: t) (bytesOf "endobj") with
        | false => rfl
        | true =>
          rw [hasPrefix_append_sep hx (c :: a) t _ (fun _ h => h) h2] at h1
          exact absurd h1 (by simp)
    show hasEndobj prev (c :: (a ++ x :: t)) = _
    simp only [hasEndobj]
    rw [ih c]
    rw [List.cons_append] at hp
    rw [hp, Bool.or_assoc]

theorem hasEndobj_nil (prev : Nat) : hasEndobj prev [] = false := rfl

/-- A byte other than `<` and `>` separates the pairs before it from those behind it. -/
theorem anglePairFree_append_sep {x : Nat} (h60 : x ≠ 60) (h62 : x ≠ 62) (t : Bytes) :
    ∀ (a : Bytes), anglePairFree (a ++ x :: t) = (anglePairFree a && anglePairFree t) := by
  intro a
  induction a with
  | nil =>
    rw [List.nil_append, anglePairFree_cons_ne h60 h62]
    rfl
  | cons c a ih =>
    cases a with
    | nil =>
      have e : [c] ++ x :: t = c :: x :: t := rfl
      rw [e, anglePairFree_cons_cons, anglePairFree_cons_ne h60 h62]
      have h1 : (x == 60) = false := by simpa using h60
      have h2 : (x == 62) = false := by simpa using h62
      simp [h1, h2, anglePairFree]
    | cons d a2 =>
      have e : c :: d :: a2 ++ x :: t = c :: d :: (a2 ++ x :: t) := rfl
      have e2 : d :: (a2 ++ x :: t) = (d :: a2) ++ x :: t := rfl
      rw [e, anglePairFree_cons_cons, e2, ih, anglePairFree_cons_cons, Bool.and_assoc]

theorem anglePairFree_of_plain : ∀ (a : Bytes), (∀ c ∈ a, c ≠ 60 ∧ c ≠ 62) →
    anglePairFree a = true := by
  intro a
  induction a with
  | nil => intro _; rfl
  | cons c a ih =>
    intro h
    rw [anglePairFree_cons_ne (h c (by simp)).1 (h c (by simp)).2]
    exact ih (fun d hd => h d (by simp [hd]))

theorem anglePairFree_tail {c : Nat} {t : Bytes} (h : anglePairFree (c :: t) = true) :
    anglePairFree t = true := by
  cases t with
  | nil => rfl
  | cons d r =>
    rw [anglePairFree_cons_cons] at h
    exact (Bool.and_eq_true _ _ |>.mp h).2

/-- Scanning a text without `<<` and `>>` that does not end with `>` up to the
closing `>>`. -/
theorem matchDictEndFrom_pairFree (z : Bytes) :
    ∀ (p : Bytes) (i : Nat), anglePairFree p = true → (∀ x, p.getLast? = some x → x ≠ 62) →
      matchDictEndFrom (p ++ 62 :: 62 :: z) i 1 = some (i + p.length) := by
  intro p
  induction p with
  | nil => intro i _ _; simp [matchDictEndFrom]
  | cons c cs ih =>
    intro i hp hl
    have hcs := anglePairFree_tail hp
    have hl2 : ∀ x, cs.getLast? = some x → x ≠ 62 := by
      intro x hx
      apply hl x
      cases cs with
      | nil => simp at hx
      | cons d r => simpa using hx
    cases cs with
    | nil =>
      have hc : c ≠ 62 := hl c rfl
      have e : [c] ++ 62 :: 62 :: z = c :: 62 :: (62 :: z) := rfl
      rw [e]
      have : matchDictEndFrom (c :: 62 :: (62 :: z)) i 1
          = matchDictEndFrom (62 :: (62 :: z)) (i + 1) 1 := by
        simp [matchDictEndFrom, hc]
      rw [this]
      simp [matchDictEndFrom]
    | cons d r =>
      rw [anglePairFree_cons_cons] at hp
      have hpair : ¬ (c = 60 ∧ d = 60) ∧ ¬ (c = 62 ∧ d = 62) := by
        have := (Bool.and_eq_true _ _ |>.mp hp).1
        simp only [Bool.not_eq_eq_eq_not, Bool.not_true, Bool.or_eq_false_iff,
          Bool.and_eq_false_imp, beq_iff_eq] at this
        constructor
        · rintro ⟨h1, h2⟩
          have := this.1 h1
          simp [h2] at this
        · rintro ⟨h1, h2⟩
          have := this.2 h1
          simp [h2] at this
      have e : c :: d :: r ++ 62 :: 62 :: z = c :: d :: (r ++ 62 :: 62 :: z) := rfl
      have step : matchDictEndFrom (c :: d :: (r ++ 62 :: 62 :: z)) i 1
          = matchDictEndFrom (d :: (r ++ 62 :: 62 :: z)) (i + 1) 1 := by
        simp [matchDictEndFrom, hpair.1, hpair.2]
      have e2 : d :: (r ++ 62 :: 62 :: z) = (d :: r) ++ 62 :: 62 :: z := rfl
      rw [e, step, e2, ih (i + 1) hcs hl2]
      simp only [List.length_cons, Option.some.injEq]
      omega

/-- The dictionary of a body that is a line feed, `<<`, a text without `<<`
and `>>` that does not end with `>`, `>>` and what follows. -/
theorem firstDict_pairFree (p z : Bytes) (hp : anglePairFree p = true)
    (hl : ∀ x, p.getLast? = some x → x ≠ 62) :
    firstDict (10 :: 60 :: 60 :: (p ++ 62 :: 62 :: z)) = some (60 :: 60 :: (p ++ [62, 62])) := by
  have e2 : bytesOf "<<" = [60, 60] := by decide
  have hidx : index (10 :: 60 :: 60 :: (p ++ 62 :: 62 :: z)) (bytesOf "<<") = some 1 := by
    rw [e2]
    simp [index, hasPrefix, hasPrefix_nil]
  have hm : matchDictEnd (10 :: 60 :: 60 :: (p ++ 62 :: 62 :: z)) 1 = some (1 + 2 + p.length) := by
    unfold matchDictEnd
    simp only [List.drop_succ_cons, List.drop_zero, matchDictEndFrom, and_self, ↓reduceIte,
      zero_add]
    exact matchDictEndFrom_pairFree z p _ hp hl
  unfold firstDict
  simp only [hidx, hm]
  have e3 : 1 + 2 + p.length + 2 = 1 + (2 + p.length + 2) := by omega
  rw [e3, drop_take_add]
  have e4 : (10 :: 60 :: 60 :: (p ++ 62 :: 62 :: z)).drop 1
      = (60 :: 60 :: (p ++ [62, 62])) ++ z := by simp
  have e5 : 2 + p.length + 2 = (60 :: 60 :: (p ++ [62, 62])).length := by
    simp only [List.length_append, List.length_cons, List.length_nil]
    omega
  rw [e4, e5, take_length_append]

/-- The group of `objectBody` is the text up to the line `endobj` when the
pattern `\bendobj` does not match in it. -/
theorem bodyToEndobj_boundary (t : Bytes) :
    ∀ (u : Bytes) (prev : Nat), hasEndobj prev u = false →
      bodyToEndobj prev (u ++ 10 :: (bytesOf "endobj" ++ t)) = some (u ++ [10]) := by
  intro u
  induction u with
  | nil =>
    intro prev _
    exact bodyToEndobj_exact t [] prev (by decide)
  | cons c u ih =>
    intro prev h
    simp only [hasEndobj, Bool.or_eq_false_iff] at h
    have h1 : (!isWordByte prev && hasPrefix (c :: u ++ 10 :: (bytesOf "endobj" ++ t))
        (bytesOf "endobj")) = false := by
      cases hw : isWordByte prev with
      | true => rfl
      | false =>
        have h0 : hasPrefix (c :: u) (bytesOf "endobj") = false := by
          simpa [hw] using h.1
        cases hh : hasPrefix (c :: u ++ 10 :: (bytesOf "endobj" ++ t)) (bytesOf "endobj") with
        | false => rfl
        | true =>
          have := hasPrefix_append_sep (p := bytesOf "endobj") (x := 10) (by decide) (c :: u) _
            (bytesOf "endobj") (fun _ h => h) hh
          rw [this] at h0
          exact absurd h0 (by simp)
    rw [List.cons_append] at h1 ⊢
    rw [bodyToEndobj_cons, h1, ih c h.2]
    simp

theorem infoKeySafe_spec {k : Bytes} (h : infoKeySafe k = true) :
    (∀ c ∈ k, c ≠ 60 ∧ c ≠ 62 ∧ c ≠ 10 ∧ c ≠ 13) ∧ hasEndobj 47 k = false := by
  simp only [infoKeySafe, Bool.and_eq_true, List.all_eq_true, bne_iff_ne, ne_eq,
    Bool.not_eq_eq_eq_not, Bool.not_true] at h
  exact ⟨fun c hc => ⟨(h.1 c hc).1.1.1, (h.1 c hc).1.1.2, (h.1 c hc).1.2, (h.1 c hc).2⟩, h.2⟩

theorem infoKeys_safe (m : Metadata) :
    (sortEntries (infoEntries m)).all (fun e => infoKeySafe e.1) = true := rfl

theorem getLast?_append_cons (a : Bytes) (x : Nat) (t : Bytes) :
    (a ++ x :: t).getLast? = (x :: t).getLast? := by
  rw [List.getLast?_append]
  cases h : (x :: t).getLast? with
  | none => simp at h
  | some y => rfl

/-- The entries the writer renders for safe fields: no `<<` and no `>>`, no
line break before a digit, a `)` at the end, no match of `\bendobj`. -/
theorem entries_values_shape :
    ∀ (es : List (Bytes × Bytes)),
      (∀ e ∈ es, infoKeySafe e.1 = true ∧ safeField e.1 e.2 = true) →
      anglePairFree ((es.map renderInfoEntry).flatten) = true
        ∧ lineSafe ((es.map renderInfoEntry).flatten) = true
        ∧ (∀ x, ((es.map renderInfoEntry).flatten).getLast? = some x → x = 41)
        ∧ (∀ prev, hasEndobj prev ((es.map renderInfoEntry).flatten) = false) := by
  intro es
  induction es with
  | nil =>
    intro _
    exact ⟨rfl, rfl, by simp, fun _ => rfl⟩
  | cons e es ih =>
    intro h
    obtain ⟨k, v⟩ := e
    obtain ⟨hk, hv⟩ := h (k, v) (by simp)
    obtain ⟨i1, i2, i3, i4⟩ := ih (fun e he => h e (by simp [he]))
    simp only [List.map_cons, List.flatten_cons]
    generalize ((es.map renderInfoEntry).flatten) = E at i1 i2 i3 i4
    rcases safeField_spec hv with hnil | ⟨a1, a2, _, a4, a5, _⟩
    · simp only at hnil
      subst hnil
      rw [renderInfoEntry_empty, List.nil_append]
      exact ⟨i1, i2, i3, i4⟩
    · simp only at a1 a2 a4 a5
      rw [renderInfoEntry_value k a1]
      obtain ⟨hkb, hke⟩ := infoKeySafe_spec hk
      have hW := escapePDFLiteral_literal a2
      have hWa := anglePairFree_escape v.length v (Nat.le_refl _) a2
      have hWe := hasEndobj_escape v.length v 40 (Nat.le_refl _) a2
      generalize escapePDFLiteral v = W at hW hWa hWe
      rw [a4] at hWa
      rw [a5] at hWe
      have hWnl : ∀ c ∈ W, c ≠ 10 ∧ c ≠ 13 := fun c hc =>
        ⟨(literalByte_spec (hW c hc)).2.2.1, (literalByte_spec (hW c hc)).2.2.2.1⟩
      have eA : 10 :: 47 :: (k ++ 32 :: 40 :: (W ++ [41])) ++ E
          = (10 :: 47 :: (k ++ [32])) ++ 40 :: (W ++ 41 :: E) := by simp
      have hAa : anglePairFree (10 :: 47 :: (k ++ [32])) = true := by
        apply anglePairFree_of_plain
        intro c hc
        simp only [List.mem_cons, List.mem_append, List.mem_singleton, List.not_mem_nil,
          or_false] at hc
        rcases hc with rfl | rfl | hc | rfl
        · decide
        · decide
        · exact ⟨(hkb c hc).1, (hkb c hc).2.1⟩
        · decide
      have hAe : ∀ prev, hasEndobj prev (10 :: 47 :: (k ++ [32])) = false := by
        intro prev
        rw [hasEndobj_cons_ne (by decide), hasEndobj_cons_ne (by decide),
          hasEndobj_append_sep (by decide), hke]
        rfl
      have hbytes : ∀ c ∈ 47 :: (k ++ 32 :: 40 :: (W ++ [41])), c ≠ 10 ∧ c ≠ 13 := by
        intro c hc
        simp only [List.mem_append, List.mem_cons, List.mem_singleton, List.not_mem_nil,
          or_false] at hc
        rcases hc with rfl | hc | rfl | rfl | hc | rfl
        · decide
        · exact ⟨(hkb c hc).2.2.1, (hkb c hc).2.2.2⟩
        · decide
        · decide
        · exact hWnl c hc
        · decide
      have hsafe : lineSafe (10 :: 47 :: (k ++ 32 :: 40 :: (W ++ [41]))) = true := by
        rw [lineSafe_cons_cons, lineSafe_of_noNL hbytes]
        rfl
      have hlast : (10 :: 47 :: (k ++ 32 :: 40 :: (W ++ [41]))).getLast? = some 41 := by
        have e1 : 10 :: 47 :: (k ++ 32 :: 40 :: (W ++ [41]))
            = (10 :: 47 :: (k ++ 32 :: 40 :: W)) ++ [41] := by simp
        rw [e1, List.getLast?_append]
        rfl
      refine ⟨?_, ?_, ?_, ?_⟩
      · rw [eA, anglePairFree_append_sep (by decide) (by decide),
          anglePairFree_append_sep (by decide) (by decide), hAa, hWa, i1]
        rfl
      · apply lineSafe_append_last hsafe i2
        intro x hx
        rw [hlast] at hx
        simp only [Option.some.injEq] at hx
        subst hx
        decide
      · intro x hx
        cases E with
        | nil =>
          rw [List.append_nil, hlast] at hx
          simpa using hx.symm
        | cons y t =>
          rw [getLast?_append_cons] at hx
          exact i3 x hx
      · intro prev
        rw [eA, hasEndobj_append_sep (by decide), hasEndobj_append_sep (by decide), hAe, hWe,
          i4]
        rfl

theorem info_entries_safe {m : Metadata} (h : safeRecord m = true) :
    ∀ e ∈ sortEntries (infoEntries m), infoKeySafe e.1 = true ∧ safeField e.1 e.2 = true :=
  fun e he => ⟨List.all_eq_true.1 (infoKeys_safe m) e he, safeRecord_entries h e he⟩

/-- The Info object the writer appends for a record of safe fields: the
group of `objectBody` at its header, the dictionary `firstDict` finds in it and
the record `parseInfoDict` reads; no line of the object but the first begins
with a digit. -/
theorem info_object_values {m : Metadata} (h : safeRecord m = true) {i : Int} (hi : 0 ≤ i)
    (rest : Bytes) :
    ∃ body dict I0, objectAt (itoa i) (itoa 0) (renderInfoObject i m ++ rest) = some body
      ∧ firstDict body = some dict ∧ parseInfoDict dict = m
      ∧ renderInfoObject i m = I0 ++ [10] ∧ lineSafe I0 = true := by
  obtain ⟨s1, s2, s3, s4⟩ := entries_values_shape _ (info_entries_safe h)
  generalize hE : ((sortEntries (infoEntries m)).map renderInfoEntry).flatten = E at s1 s2 s3 s4
  have hro := renderInfoObject_eq i m
  rw [hE] at hro
  have hfree : hasEndobj 106 (10 :: 60 :: 60 :: (E ++ [10, 62, 62])) = false := by
    rw [hasEndobj_cons_ne (by decide), hasEndobj_cons_ne (by decide),
      hasEndobj_cons_ne (by decide), hasEndobj_append_sep (by decide), s4]
    rfl
  refine ⟨10 :: (60 :: 60 :: (E ++ [10, 62, 62])) ++ [10], 60 :: 60 :: (E ++ [10, 62, 62]),
    itoa i ++ bytesOf " 0 obj" ++ 10 :: ((60 :: 60 :: (E ++ [10, 62, 62])) ++ 10 :: bytesOf "endobj"),
    ?_, ?_, ?_, ?_, ?_⟩
  · rw [hro]
    have e1 : itoa i ++ bytesOf " 0 obj"
          ++ 10 :: ((60 :: 60 :: (E ++ [10, 62, 62])) ++ 10 :: (bytesOf "endobj" ++ [10])) ++ rest
        = itoa i ++ bytesOf " 0 obj"
          ++ 10 :: ((60 :: 60 :: (E ++ [10, 62, 62])) ++ 10 :: (bytesOf "endobj" ++ 10 :: rest)) := by
      simp
    rw [e1, objectAt_own]
    have := bodyToEndobj_boundary (10 :: rest) (10 :: 60 :: 60 :: (E ++ [10, 62, 62])) 106 hfree
    simpa using this
  · have e1 : 10 :: (60 :: 60 :: (E ++ [10, 62, 62])) ++ [10]
        = 10 :: 60 :: 60 :: ((E ++ [10]) ++ 62 :: 62 :: [10]) := by simp
    rw [e1, firstDict_pairFree (E ++ [10]) [10]]
    · simp
    · have e : E ++ [10] = E ++ 10 :: [] := rfl
      rw [e, anglePairFree_append_sep (by decide) (by decide), s1]
      rfl
    · intro x hx
      rw [List.getLast?_append] at hx
      have : x = 10 := by simpa using hx.symm
      subst this
      decide
  · rw [← hE]
    exact parseInfoDict_values h
  · rw [hro]
    simp
  · have hs3 : ∀ x, E.getLast? = some x → x ≠ 10 ∧ x ≠ 13 := by
      intro x hx
      rw [s3 x hx]
      decide
    have e1 : itoa i ++ bytesOf " 0 obj"
          ++ 10 :: ((60 :: 60 :: (E ++ [10, 62, 62])) ++ 10 :: bytesOf "endobj")
        = (itoa i ++ bytesOf " 0 obj") ++ ([10, 60, 60] ++ (E ++ bytesOf "\n>>\nendobj")) := by
      simp [bytesOf]
    rw [e1]
    apply lineSafe_append_head (lineSafe_of_noNL (header_noNL hi))
    · apply lineSafe_append_last (by decide)
      · apply lineSafe_append_head s2 (by decide)
        intro x t hx
        have : x = 10 := by
          have := congrArg List.head? hx
          simpa [bytesOf] using this.symm
        subst this
        rfl
      · intro x hx
        have : x = 60 := by simpa using hx.symm
        subst this
        decide
    · intro x t hx
      have : x = 10 := by
        have := congrArg List.head? hx
        simpa using this.symm
      subst this
      rfl

/-! ### The metadata object of the output -/

theorem escapeRune_no_newline (b : Nat) (t : Bytes) :
    ∀ c ∈ escapeRune (decodeRune (b :: t)).1 (decodeRune (b :: t)).2 (b :: t), c ≠ 10 ∧ c ≠ 13 := by
  intro c hc
  unfold escapeRune at hc
  split at hc
  · revert c; decide
  · split at hc
    · revert c; decide
    · split at hc
      · revert c; decide
      · split at hc
        · revert c; decide
        · split at hc
          · revert c; decide
          · split at hc
            · revert c; decide
            · split at hc
              · revert c; decide
              · split at hc
                · revert c; decide
                · split at hc
                  · revert c; decide
                  · rename_i h10 h13 hbad
                    rcases decodeRune_cases b t with ⟨_, h⟩ | ⟨_, h⟩ | ⟨_, _, _, _, h⟩
                    · rw [h] at hc h10 h13
                      simp only [List.take_succ_cons, List.take_zero, List.mem_singleton] at hc
                      subst hc
                      exact ⟨h10, h13⟩
                    · rw [h] at hbad
                      exact absurd rfl hbad
                    · have := h c hc
                      omega

/-- The text `xml.EscapeText` writes has no line break. -/
theorem escapeText_no_newline :
    ∀ (fuel : Nat) (s : Bytes), ∀ c ∈ escapeText fuel s, c ≠ 10 ∧ c ≠ 13 := by
  intro fuel
  induction fuel with
  | zero => intro s c hc; simp [escapeText] at hc
  | succ fuel ih =>
    intro s c hc
    cases s with
    | nil => simp [escapeText] at hc
    | cons b t =>
      simp only [escapeText, List.mem_append] at hc
      rcases hc with hc | hc
      · exact escapeRune_no_newline b t c hc
      · exact ih _ c hc

theorem lineStart_spec {u : Bytes} (h : lineStart u = true) :
    lineSafe u = true ∧ ∀ x t, u = x :: t → isDigit x = false := by
  unfold lineStart at h
  simp only [Bool.and_eq_true] at h
  refine ⟨h.1, ?_⟩
  intro x t hu
  subst hu
  simpa using h.2

theorem lineStart_of {u : Bytes} (h1 : lineSafe u = true)
    (h2 : ∀ x t, u = x :: t → isDigit x = false) : lineStart u = true := by
  unfold lineStart
  rw [h1]
  cases u with
  | nil => rfl
  | cons x t => simp [h2 x t rfl]

theorem lineStart_append {a b : Bytes} (ha : lineStart a = true) (hb : lineStart b = true) :
    lineStart (a ++ b) = true := by
  obtain ⟨a1, a2⟩ := lineStart_spec ha
  obtain ⟨b1, b2⟩ := lineStart_spec hb
  apply lineStart_of (lineSafe_append_head a1 b1 b2)
  intro x t hx
  cases a with
  | nil => exact b2 x t hx
  | cons y a =>
    simp only [List.cons_append, List.cons.injEq] at hx
    rw [← hx.1]
    exact a2 y a rfl

/-- A line of the packet: a text without line breaks that begins with `<`, and a line feed. -/
theorem lineStart_line {u : Bytes} (hu : ∀ c ∈ u, c ≠ 10 ∧ c ≠ 13) :
    lineStart (60 :: (u ++ [10])) = true := by
  apply lineStart_of
  · have e : 60 :: (u ++ [10]) = (60 :: u) ++ [10] := by simp
    rw [e]
    apply lineSafe_append_head (b := [10]) (lineSafe_of_noNL _) rfl
    · intro x t hx
      simp only [List.cons.injEq] at hx
      rw [← hx.1]
      rfl
    · intro c hc
      rcases List.mem_cons.1 hc with rfl | hc
      · decide
      · exact hu c hc
  · intro x t hx
    simp only [List.cons.injEq] at hx
    rw [← hx.1]
    rfl

theorem xmlEscape_no_newline (v : Bytes) : ∀ c ∈ xmlEscape v, c ≠ 10 ∧ c ≠ 13 :=
  escapeText_no_newline _ _

theorem lineStart_writeLangAlt (key v : Bytes) (hk : ∀ c ∈ key, c ≠ 10 ∧ c ≠ 13) :
    lineStart (writeLangAlt key v) = true := by
  unfold writeLangAlt
  split
  · rfl
  · have e : bytesOf "<" ++ key ++ bytesOf "><rdf:Alt><rdf:li xml:lang=\"x-default\">"
        ++ xmlEscape v ++ bytesOf "</rdf:li></rdf:Alt></" ++ key ++ bytesOf ">\n"
        = 60 :: ((key ++ bytesOf "><rdf:Alt><rdf:li xml:lang=\"x-default\">"
        ++ xmlEscape v ++ bytesOf "</rdf:li></rdf:Alt></" ++ key ++ bytesOf ">") ++ [10]) := by
      simp [bytesOf]
    rw [e]
    apply lineStart_line
    have h1 : ∀ c ∈ bytesOf "><rdf:Alt><rdf:li xml:lang=\"x-default\">", c ≠ 10 ∧ c ≠ 13 := by decide
    have h2 : ∀ c ∈ bytesOf "</rdf:li></rdf:Alt></", c ≠ 10 ∧ c ≠ 13 := by decide
    have h3 : ∀ c ∈ bytesOf ">", c ≠ 10 ∧ c ≠ 13 := by decide
    intro c hc
    simp only [List.mem_append] at hc
    rcases hc with ((((hc | hc) | hc) | hc) | hc) | hc
    · exact hk c hc
    · exact h1 c hc
    · exact xmlEscape_no_newline v c hc
    · exact h2 c hc
    · exact hk c hc
    · exact h3 c hc

theorem lineStart_writeSeq (key v : Bytes) (hk : ∀ c ∈ key, c ≠ 10 ∧ c ≠ 13) :
    lineStart (writeSeq key v) = true := by
  unfold writeSeq
  split
  · rfl
  · have e : bytesOf "<" ++ key ++ bytesOf "><rdf:Seq><rdf:li>"
        ++ xmlEscape v ++ bytesOf "</rdf:li></rdf:Seq></" ++ key ++ bytesOf ">\n"
        = 60 :: ((key ++ bytesOf "><rdf:Seq><rdf:li>"
        ++ xmlEscape v ++ bytesOf "</rdf:li></rdf:Seq></" ++ key ++ bytesOf ">") ++ [10]) := by
      simp [bytesOf]
    rw [e]
    apply lineStart_line
    have h1 : ∀ c ∈ bytesOf "><rdf:Seq><rdf:li>", c ≠ 10 ∧ c ≠ 13 := by decide
    have h2 : ∀ c ∈ bytesOf "</rdf:li></rdf:Seq></", c ≠ 10 ∧ c ≠ 13 := by decide
    have h3 : ∀ c ∈ bytesOf ">", c ≠ 10 ∧ c ≠ 13 := by decide
    intro c hc
    simp only [List.mem_append] at hc
    rcases hc with ((((hc | hc) | hc) | hc) | hc) | hc
    · exact hk c hc
    · exact h1 c hc
    · exact xmlEscape_no_newline v c hc
    · exact h2 c hc
    · exact hk c hc
    · exact h3 c hc

theorem lineStart_writeValue (key v : Bytes) (hk : ∀ c ∈ key, c ≠ 10 ∧ c ≠ 13) :
    lineStart (writeValue key v) = true := by
  unfold writeValue
  split
  · rfl
  · have e : bytesOf "<" ++ key ++ bytesOf ">" ++ xmlEscape v ++ bytesOf "</" ++ key
          ++ bytesOf ">\n"
        = 60 :: ((key ++ bytesOf ">" ++ xmlEscape v ++ bytesOf "</" ++ key ++ bytesOf ">")
          ++ [10]) := by
      simp [bytesOf]
    rw [e]
    apply lineStart_line
    have h1 : ∀ c ∈ bytesOf ">", c ≠ 10 ∧ c ≠ 13 := by decide
    have h2 : ∀ c ∈ bytesOf "</", c ≠ 10 ∧ c ≠ 13 := by decide
    intro c hc
    simp only [List.mem_append] at hc
    rcases hc with ((((hc | hc) | hc) | hc) | hc) | hc
    · exact hk c hc
    · exact h1 c hc
    · exact xmlEscape_no_newline v c hc
    · exact h2 c hc
    · exact hk c hc
    · exact h1 c hc

set_option maxRecDepth 100000 in
/-- No line of a packet of `Marshal` begins with a digit. -/
theorem lineStart_Marshal (M : Metadata) : lineStart (Marshal M) = true :=
  lineStart_append (lineStart_append (lineStart_append (lineStart_append (lineStart_append
  (lineStart_append (lineStart_append (lineStart_append (lineStart_append (lineStart_append
  (lineStart_append (lineStart_append (lineStart_append (lineStart_append (lineStart_append
  (lineStart_append (lineStart_append (lineStart_append (lineStart_append (lineStart_append
    (by decide) (by decide)) (by decide)) (by decide)) (by decide)) (by decide)) (by decide))
    (by decide))
    (lineStart_writeLangAlt _ _ (by decide))) (lineStart_writeSeq _ _ (by decide)))
    (lineStart_writeLangAlt _ _ (by decide))) (lineStart_writeValue _ _ (by decide)))
    (lineStart_writeValue _ _ (by decide))) (lineStart_writeValue _ _ (by decide)))
    (lineStart_writeValue _ _ (by decide))) (lineStart_writeValue _ _ (by decide)))
    (by decide)) (by decide)) (by decide)) (by decide)) (by decide)

set_option maxRecDepth 100000 in
/-- A packet of `Marshal` begins with `<` and ends with `>` and a line feed. -/
theorem Marshal_ends (M : Metadata) : ∃ Q, Marshal M = 60 :: (Q ++ [62, 10]) := by
  have e1 : xpacketBegin = 60 :: bytesOf "?xpacket begin=\"\\uFEFF\" id=\"W5M0MpCehiHzreSzNTczkc9d\"?>" := by
    decide
  have e2 : xpacketEnd ++ bytesOf "\n" = bytesOf "<?xpacket end=\"w\"?" ++ [62, 10] := by decide
  unfold Marshal
  rw [List.append_assoc _ xpacketEnd, e2, ← List.append_assoc, e1]
  simp only [List.cons_append]
  exact ⟨_, rfl⟩


theorem renderMetadataObject_eq (m : Int) (Q : Bytes) :
    renderMetadataObject m (60 :: (Q ++ [62, 10]))
      = itoa m ++ bytesOf " 0 obj"
        ++ 10 :: ((bytesOf "<< /Type /Metadata /Subtype /XML /Length "
            ++ (natDigits (60 :: (Q ++ [62, 10])).length
              ++ (bytesOf " >>\n" ++ (bytesOf "stream"
                ++ (10 :: ((60 :: (Q ++ [62, 10])) ++ bytesOf "endstream"))))))
          ++ 10 :: (bytesOf "endobj" ++ [10])) := by
  have hs : hasSuffix (60 :: (Q ++ [62, 10])) [10] = true := by
    have := hasSuffix_snoc (60 :: (Q ++ [62])) 10
    simpa using this
  have e1 : bytesOf " 0 obj\n" = bytesOf " 0 obj" ++ [10] := by decide
  have e2 : bytesOf "stream\n" = bytesOf "stream" ++ [10] := by decide
  have e3 : bytesOf "endstream\nendobj\n" = bytesOf "endstream" ++ 10 :: (bytesOf "endobj" ++ [10]) := by
    decide
  unfold renderMetadataObject
  rw [hs, e1, e2, e3]
  simp only [↓reduceIte, List.append_assoc, List.cons_append, List.nil_append, List.append_nil]

theorem natDigits_not_mem (n : Nat) {q : Nat} (hq : isDigit q = false) : q ∉ natDigits n := by
  intro h
  rw [natDigits_isDigit n q h] at hq
  exact absurd hq (by simp)

theorem getLast?_cons_append_singleton (x : Nat) (a : Bytes) (y : Nat) :
    (x :: (a ++ [y])).getLast? = some y := by
  have e : x :: (a ++ [y]) = (x :: a) ++ [y] := by simp
  rw [e, List.getLast?_append]
  rfl

theorem trimRightCRLF_packet (Q : Bytes) :
    trimRightCRLF (60 :: (Q ++ [62, 10])) = 60 :: (Q ++ [62]) := by
  have e : 60 :: (Q ++ [62, 10]) = (60 :: (Q ++ [62])) ++ [10] := by simp
  unfold trimRightCRLF
  rw [e, List.reverse_append]
  have e2 : (60 :: (Q ++ [62])).reverse = 62 :: (60 :: Q).reverse := by simp
  rw [e2]
  simp [List.dropWhile_cons]

theorem take_drop_succ (l : Bytes) (n k : Nat) :
    (l.take (n + k)).drop (n + 1) = ((l.drop n).take k).drop 1 := by
  rw [← drop_take_add, List.drop_drop]

/-- What `escapeText` writes for a rune: an entity, the replacement character,
or the bytes of the rune. -/
theorem escapeRune_cases (r w : Nat) (s : Bytes) :
    (∃ e, escapeRune r w s = 38 :: e ∧ ∀ c ∈ e, c ∈ bytesOf "#349;amplgtxAD")
      ∨ escapeRune r w s = [0xEF, 0xBF, 0xBD]
      ∨ (escapeRune r w s = s.take w ∧ ¬ (r = runeError ∧ w = 1)) := by
  by_cases h1 : r = 34
  · exact Or.inl ⟨_, by rw [escapeRune, if_pos h1]; rfl, by decide⟩
  by_cases h2 : r = 39
  · exact Or.inl ⟨_, by rw [escapeRune, if_neg h1, if_pos h2]; rfl, by decide⟩
  by_cases h3 : r = 38
  · exact Or.inl ⟨_, by rw [escapeRune, if_neg h1, if_neg h2, if_pos h3]; rfl, by decide⟩
  by_cases h4 : r = 60
  · exact Or.inl ⟨_, by rw [escapeRune, if_neg h1, if_neg h2, if_neg h3, if_pos h4]; rfl,
      by decide⟩
  by_cases h5 : r = 62
  · exact Or.inl ⟨_, by rw [escapeRune, if_neg h1, if_neg h2, if_neg h3, if_neg h4, if_pos h5]; rfl,
      by decide⟩
  by_cases h6 : r = 9
  · exact Or.inl ⟨_, by
      rw [escapeRune, if_neg h1, if_neg h2, if_neg h3, if_neg h4, if_neg h5, if_pos h6]; rfl,
      by decide⟩
  by_cases h7 : r = 10
  · exact Or.inl ⟨_, by
      rw [escapeRune, if_neg h1, if_neg h2, if_neg h3, if_neg h4, if_neg h5, if_neg h6,
        if_pos h7]; rfl,
      by decide⟩
  by_cases h8 : r = 13
  · exact Or.inl ⟨_, by
      rw [escapeRune, if_neg h1, if_neg h2, if_neg h3, if_neg h4, if_neg h5, if_neg h6,
        if_neg h7, if_pos h8]; rfl,
      by decide⟩
  by_cases h9 : (!isInCharacterRange r || (r == runeError && w == 1)) = true
  · exact Or.inr (Or.inl (by
      rw [escapeRune, if_neg h1, if_neg h2, if_neg h3, if_neg h4, if_neg h5, if_neg h6,
        if_neg h7, if_neg h8, if_pos h9]))
  · refine Or.inr (Or.inr ⟨by
      rw [escapeRune, if_neg h1, if_neg h2, if_neg h3, if_neg h4, if_neg h5, if_neg h6,
        if_neg h7, if_neg h8, if_neg h9], ?_⟩)
    rintro ⟨rfl, rfl⟩
    exact h9 (by decide)

/-- What `escapeText` writes for the first rune of a text: an entity, bytes
outside ASCII, or the ASCII byte itself. -/
theorem escapeRune_shape (b : Nat) (t : Bytes) :
    (∃ e, escapeRune (decodeRune (b :: t)).1 (decodeRune (b :: t)).2 (b :: t) = 38 :: e
        ∧ ∀ c ∈ e, c ∈ bytesOf "#349;amplgtxAD")
      ∨ (escapeRune (decodeRune (b :: t)).1 (decodeRune (b :: t)).2 (b :: t) ≠ []
          ∧ ∀ c ∈ escapeRune (decodeRune (b :: t)).1 (decodeRune (b :: t)).2 (b :: t), 0x80 ≤ c)
      ∨ (b < 0x80 ∧ decodeRune (b :: t) = (b, 1)
          ∧ escapeRune (decodeRune (b :: t)).1 (decodeRune (b :: t)).2 (b :: t) = [b]) := by
  rcases escapeRune_cases (decodeRune (b :: t)).1 (decodeRune (b :: t)).2 (b :: t)
    with h | h | ⟨h, hbad⟩
  · exact Or.inl h
  · rw [h]
    exact Or.inr (Or.inl ⟨by simp, by decide⟩)
  · rw [h]
    rcases decodeRune_cases b t with ⟨hb, hd⟩ | ⟨_, hd⟩ | ⟨_, _, h2, h3, hd⟩
    · refine Or.inr (Or.inr ⟨hb, hd, ?_⟩)
      rw [hd]
      rfl
    · rw [hd] at hbad
      exact absurd ⟨rfl, rfl⟩ hbad
    · refine Or.inr (Or.inl ⟨?_, hd⟩)
      intro h0
      have := congrArg List.length h0
      simp only [List.length_take, List.length_cons, List.length_nil] at this h3
      omega

theorem escapeText_cons (fuel : Nat) (b : Nat) (t : Bytes) :
    escapeText (fuel + 1) (b :: t)
      = escapeRune (decodeRune (b :: t)).1 (decodeRune (b :: t)).2 (b :: t)
        ++ escapeText fuel ((b :: t).drop (decodeRune (b :: t)).2) := rfl

theorem hasPrefix_cons_cons (x y : Nat) (s p : Bytes) :
    hasPrefix (x :: s) (y :: p) = (x == y && hasPrefix s p) := rfl

/-- A text of ASCII bytes other than `&` at the head of what `escapeText`
writes is at the head of its argument. -/
theorem hasPrefix_escapeText :
    ∀ (q : Bytes), (∀ c ∈ q, c < 0x80 ∧ c ≠ 38) → ∀ (fuel : Nat) (s : Bytes),
      hasPrefix (escapeText fuel s) q = true → hasPrefix s q = true := by
  intro q
  induction q with
  | nil => intro _ _ s _; exact hasPrefix_nil s
  | cons c q ih =>
    intro hq fuel s h
    obtain ⟨hc1, hc2⟩ := hq c (by simp)
    cases fuel with
    | zero => simp [escapeText, hasPrefix] at h
    | succ fuel =>
      cases s with
      | nil => simp [escapeText, hasPrefix] at h
      | cons b t =>
        rw [escapeText_cons] at h
        rcases escapeRune_shape b t with ⟨e, hR, _⟩ | ⟨hne, hR⟩ | ⟨_, hd, hR⟩
        · rw [hR, List.cons_append, hasPrefix_cons_ne _ _ (fun h0 => hc2 h0.symm)] at h
          exact absurd h (by simp)
        · cases hE : escapeRune (decodeRune (b :: t)).1 (decodeRune (b :: t)).2 (b :: t) with
          | nil => exact absurd hE hne
          | cons x xs =>
            have hx : 0x80 ≤ x := hR x (by rw [hE]; simp)
            rw [hE, List.cons_append, hasPrefix_cons_ne _ _ (by omega)] at h
            exact absurd h (by simp)
        · rw [hR, hd] at h
          simp only [List.singleton_append, List.drop_succ_cons, List.drop_zero,
            hasPrefix_cons_cons, Bool.and_eq_true, beq_iff_eq] at h
          rw [hasPrefix_cons_cons, h.1]
          simp only [beq_self_eq_true, Bool.true_and]
          exact ih (fun d hd => hq d (by simp [hd])) fuel t h.2

theorem isWordByte_high {c : Nat} (h : 0x80 ≤ c) : isWordByte c = false := by
  have h1 : isDigit c = false := by
    simp only [isDigit, Bool.and_eq_false_imp, decide_eq_true_eq, decide_eq_false_iff_not]
    omega
  have h2 : (c == 95) = false := by
    simp only [beq_eq_false_iff_ne, ne_eq]
    omega
  simp only [isWordByte, h1, h2, Bool.false_or, Bool.or_false, Bool.or_eq_false_iff,
    Bool.and_eq_false_imp, decide_eq_true_eq, decide_eq_false_iff_not]
  omega

/-- The pattern `\bendobj` looks at the byte before the text only to see
whether it is a word character. -/
theorem hasEndobj_congr {p q : Nat} (h : isWordByte p = isWordByte q) (x : Bytes) :
    hasEndobj p x = hasEndobj q x := by
  cases x with
  | nil => rfl
  | cons c t => simp only [hasEndobj, h]

theorem hasEndobj_mono {p : Nat} (hp : isWordByte p = false) {x : Bytes}
    (h : hasEndobj p x = false) (q : Nat) : hasEndobj q x = false := by
  cases x with
  | nil => rfl
  | cons c t =>
    simp only [hasEndobj, hp, Bool.not_false, Bool.true_and, Bool.or_eq_false_iff] at h ⊢
    refine ⟨?_, h.2⟩
    rw [h.1]
    simp

/-- After bytes that are no word characters the pattern `\bendobj` matches
in what is left only if it matches in the whole. -/
theorem hasEndobj_drop :
    ∀ (k : Nat) (s : Bytes) (prev : Nat), 1 ≤ k → (∀ c ∈ s.take k, isWordByte c = false) →
      hasEndobj prev s = false → ∀ q, hasEndobj q (s.drop k) = false := by
  intro k
  induction k with
  | zero => intro s prev h; omega
  | succ k ih =>
    intro s prev _ hw h q
    cases s with
    | nil => rfl
    | cons b t =>
      have hb : isWordByte b = false := hw b (by simp)
      simp only [hasEndobj, Bool.or_eq_false_iff] at h
      rw [List.drop_succ_cons]
      cases k with
      | zero => exact hasEndobj_mono hb h.2 q
      | succ k =>
        exact ih t b (by omega) (fun c hc => hw c (by
          rw [List.take_succ_cons]
          exact List.mem_cons_of_mem _ hc)) h.2 q

theorem hasEndobj_skip (X : Bytes) :
    ∀ (R : Bytes) (prev : Nat), (∀ c ∈ R, c ≠ 101) → R ≠ [] →
      ∃ q, hasEndobj prev (R ++ X) = hasEndobj q X := by
  intro R
  induction R with
  | nil => intro _ _ h; exact absurd rfl h
  | cons c R ih =>
    intro prev h _
    rw [List.cons_append, hasEndobj_cons_ne (h c (by simp))]
    cases R with
    | nil => exact ⟨c, rfl⟩
    | cons d R2 => exact ih c (fun x hx => h x (by simp [hx])) (by simp)

/-- A word character is written as it is by `escapeText`. -/
theorem escapeRune_word {b : Nat} (h : isWordByte b = true) (t : Bytes) :
    b < 0x80 ∧ escapeRune b 1 (b :: t) = [b] := by
  have hb : (48 ≤ b ∧ b ≤ 57) ∨ (65 ≤ b ∧ b ≤ 90) ∨ (97 ≤ b ∧ b ≤ 122) ∨ b = 95 := by
    simp only [isWordByte, isDigit, Bool.or_eq_true, Bool.and_eq_true, decide_eq_true_eq,
      beq_iff_eq] at h
    omega
  refine ⟨by omega, ?_⟩
  have hr : isInCharacterRange b = true := by
    simp only [isInCharacterRange, Bool.or_eq_true, beq_iff_eq, Bool.and_eq_true,
      decide_eq_true_eq]
    omega
  have hne : (b == runeError) = false := by
    simp only [runeError, beq_eq_false_iff_ne, ne_eq]
    omega
  unfold escapeRune
  rw [if_neg (by omega), if_neg (by omega), if_neg (by omega), if_neg (by omega),
    if_neg (by omega), if_neg (by omega), if_neg (by omega), if_neg (by omega)]
  simp [hr, hne]

theorem entity_bytes_101 : ∀ c ∈ bytesOf "#349;amplgtxAD", c ≠ 101 := by decide

theorem entity_bytes_60 : ∀ c ∈ bytesOf "#349;amplgtxAD", c ≠ 60 := by decide

theorem decodeRune_ascii {b : Nat} (hb : b < 0x80) (t : Bytes) : decodeRune (b :: t) = (b, 1) := by
  simp [decodeRune, hb]

/-- The bytes of the first rune of a text are no word characters when the
first is none. -/
theorem rune_not_word (b : Nat) (t : Bytes) (h : isWordByte b = false) :
    ∀ c ∈ (b :: t).take (decodeRune (b :: t)).2, isWordByte c = false := by
  rcases decodeRune_cases b t with ⟨hb, hd⟩ | ⟨hb, hd⟩ | ⟨_, _, _, _, hd⟩
  · rw [hd]
    intro c hc
    simp only [List.take_succ_cons, List.take_zero, List.mem_singleton] at hc
    subst hc
    exact h
  · rw [hd]
    intro c hc
    simp only [List.take_succ_cons, List.take_zero, List.mem_singleton] at hc
    subst hc
    exact h
  · intro c hc
    exact isWordByte_high (hd c hc)

/-- What `escapeText` writes has no match of `\bendobj` unless its argument has one. -/
theorem escapeText_boundary :
    ∀ (fuel : Nat) (s : Bytes) (prev : Nat), hasEndobj prev s = false →
      hasEndobj prev (escapeText fuel s) = false := by
  intro fuel
  induction fuel with
  | zero => intro s prev _; rfl
  | succ fuel ih =>
    intro s prev hs
    cases s with
    | nil => rfl
    | cons b t =>
      rw [escapeText_cons]
      generalize hRdef : escapeRune (decodeRune (b :: t)).1 (decodeRune (b :: t)).2 (b :: t) = R
      have hshape := escapeRune_shape b t
      rw [hRdef] at hshape
      have hw1 := decodeRune_width_pos b t
      have hword : isWordByte b = true → R = [b] := by
        intro hw
        obtain ⟨h1, h2⟩ := escapeRune_word hw t
        rw [← hRdef, decodeRune_ascii h1]
        exact h2
      have hnot : isWordByte b = false → ∀ q, hasEndobj q
          (escapeText fuel ((b :: t).drop (decodeRune (b :: t)).2)) = false := by
        intro hb q
        apply ih
        exact hasEndobj_drop _ _ prev hw1 (rune_not_word b t hb) hs q
      rcases hshape with ⟨e, hR, he⟩ | ⟨hne, hR⟩ | ⟨_, hdec, hR⟩
      · have h101 : ∀ c ∈ R, c ≠ 101 := by
          intro c hc
          rw [hR] at hc
          rcases List.mem_cons.1 hc with rfl | hc
          · decide
          · exact entity_bytes_101 c (he c hc)
        obtain ⟨q, hq⟩ := hasEndobj_skip
          (escapeText fuel ((b :: t).drop (decodeRune (b :: t)).2)) R prev h101 (by rw [hR]; simp)
        rw [hq]
        apply hnot
        cases hw : isWordByte b with
        | false => rfl
        | true =>
          have h0 := hword hw
          rw [hR] at h0
          simp only [List.cons.injEq] at h0
          rw [← h0.1] at hw
          exact absurd hw (by decide)
      · have h101 : ∀ c ∈ R, c ≠ 101 := by
          intro c hc
          have := hR c hc
          omega
        obtain ⟨q, hq⟩ := hasEndobj_skip
          (escapeText fuel ((b :: t).drop (decodeRune (b :: t)).2)) R prev h101 hne
        rw [hq]
        apply hnot
        cases hw : isWordByte b with
        | false => rfl
        | true =>
          have h0 := hword hw
          have hb : 0x80 ≤ b := hR b (by rw [h0]; simp)
          have := (escapeRune_word hw t).1
          omega
      · rw [hR, hdec]
        simp only [List.singleton_append, List.drop_succ_cons, List.drop_zero]
        have hs2 : ((!isWordByte prev && hasPrefix (b :: t) (bytesOf "endobj"))
            || hasEndobj b t) = false := hs
        rw [Bool.or_eq_false_iff] at hs2
        show ((!isWordByte prev && hasPrefix (b :: escapeText fuel t) (bytesOf "endobj"))
            || hasEndobj b (escapeText fuel t)) = false
        rw [Bool.or_eq_false_iff]
        refine ⟨?_, ih t b hs2.2⟩
        cases hw : isWordByte prev with
        | true => rfl
        | false =>
          have h0 : hasPrefix (b :: t) (bytesOf "endobj") = false := by simpa [hw] using hs2.1
          cases hh : hasPrefix (b :: escapeText fuel t) (bytesOf "endobj") with
          | false => rfl
          | true =>
            exfalso
            have e : bytesOf "endobj" = 101 :: bytesOf "ndobj" := by decide
            rw [e, hasPrefix_cons_cons, Bool.and_eq_true] at hh
            have h1 := hasPrefix_escapeText (bytesOf "ndobj") (by decide) fuel t hh.2
            rw [e, hasPrefix_cons_cons, hh.1, h1] at h0
            simp at h0

theorem xmlEscape_boundary {v : Bytes} {p : Nat} (hp : isWordByte p = false)
    (h : hasEndobj p v = false) (q : Nat) : hasEndobj q (xmlEscape v) = false :=
  hasEndobj_mono hp (escapeText_boundary _ v p h) q

/-- What `escapeText` writes has no `<`. -/
theorem escapeText_no_lt :
    ∀ (fuel : Nat) (s : Bytes), ∀ c ∈ escapeText fuel s, c ≠ 60 := by
  intro fuel
  induction fuel with
  | zero => intro s c hc; simp [escapeText] at hc
  | succ fuel ih =>
    intro s c hc
    cases s with
    | nil => simp [escapeText] at hc
    | cons b t =>
      rw [escapeText_cons] at hc
      rcases List.mem_append.1 hc with hc | hc
      · generalize hRdef : escapeRune (decodeRune (b :: t)).1 (decodeRune (b :: t)).2 (b :: t) = R
          at hc
        have hshape := escapeRune_shape b t
        rw [hRdef] at hshape
        rcases hshape with ⟨e, hR, he⟩ | ⟨_, hR⟩ | ⟨hb, hdec, hR⟩
        · rw [hR] at hc
          rcases List.mem_cons.1 hc with rfl | hc
          · decide
          · exact entity_bytes_60 c (he c hc)
        · have := hR c hc
          omega
        · rw [hR] at hc
          simp only [List.mem_singleton] at hc
          subst hc
          rintro rfl
          have : escapeRune (decodeRune (60 :: t)).1 (decodeRune (60 :: t)).2 (60 :: t)
              = bytesOf "&lt;" := rfl
          rw [this] at hRdef
          rw [← hRdef] at hR
          exact absurd hR (by decide)
      · exact ih _ c hc

theorem xmlEscape_no_lt (v : Bytes) : ∀ c ∈ xmlEscape v, c ≠ 60 := escapeText_no_lt _ v

theorem xmlEscape_ne_nil {v : Bytes} (h : v ≠ []) : xmlEscape v ≠ [] := by
  cases v with
  | nil => exact absurd rfl h
  | cons b t =>
    unfold xmlEscape
    rw [List.length_cons, escapeText_cons]
    intro h0
    have h1 := (List.append_eq_nil.1 h0).1
    rcases escapeRune_shape b t with ⟨e, hR, _⟩ | ⟨hne, _⟩ | ⟨_, _, hR⟩
    · rw [hR] at h1; simp at h1
    · exact hne h1
    · rw [hR] at h1; simp at h1

theorem dropWhile_append_tail {p : Nat → Bool} (hp : p 60 = false) {tail : Bytes}
    (ht : tail = [] ∨ ∃ r, tail = 60 :: r) (y : Bytes) :
    (y ++ tail).dropWhile p = y.dropWhile p ++ tail := by
  rcases ht with rfl | ⟨r, rfl⟩
  · simp
  · exact dropWhile_append_stop y hp r

theorem mem_of_mem_dropWhile_tail {p : Nat → Bool} {y : Bytes} {e : Nat} {z : Bytes}
    (h : y.dropWhile p = e :: z) : ∀ c ∈ z, c ∈ y := by
  intro c hc
  have h1 : c ∈ y.dropWhile p := by rw [h]; exact List.mem_cons_of_mem _ hc
  exact (List.dropWhile_sublist p).subset h1

/-- The input left after a character reference or entity: what follows the
`;` that ends the digits or the name. -/
theorem xmlEntity_rest {xs t r2 : Bytes} (h : xmlEntity xs = some (t, r2)) :
    ∃ (p : Nat → Bool) (k : Nat), p 60 = false ∧ (xs.drop k).dropWhile p = 59 :: r2
      ∧ (k = 0 ∨ k = 1 ∨ (k = 2 ∧ hasPrefix (xs.drop 1) [120] = true)) := by
  unfold xmlEntity at h
  cases xs with
  | nil => simp at h
  | cons c r =>
    simp only at h
    by_cases hc : c = 35
    · simp only [hc, ↓reduceIte] at h
      by_cases hx : hasPrefix r [120] = true
      · simp only [hx, ↓reduceIte] at h
        split at h
        · simp at h
        · rename_i e z heq
          by_cases he : e = 59
          · subst he
            split at h
            · simp at h
            · split at h
              · simp only [Option.some.injEq, Prod.mk.injEq] at h
                refine ⟨fun d => isHexDigit d, 2, by decide, ?_, Or.inr (Or.inr ⟨rfl, hx⟩)⟩
                rw [← h.2, ← heq]
                rfl
              · simp at h
          · simp [he] at h
      · simp only [hx, Bool.false_eq_true, ↓reduceIte] at h
        split at h
        · simp at h
        · rename_i e z heq
          by_cases he : e = 59
          · subst he
            split at h
            · simp at h
            · split at h
              · simp only [Option.some.injEq, Prod.mk.injEq] at h
                refine ⟨fun d => isDigit d, 1, by decide, ?_, Or.inr (Or.inl rfl)⟩
                rw [← h.2, ← heq]
                rfl
              · simp at h
          · simp [he] at h
    · simp only [hc, ↓reduceIte] at h
      split at h
      · simp at h
      · rename_i e z heq
        by_cases he : e = 59
        · subst he
          simp only [ne_eq, not_true_eq_false, ↓reduceIte] at h
          split at h
          · simp only [Option.some.injEq, Prod.mk.injEq] at h
            refine ⟨isReadNameByte, 0, by decide, ?_, Or.inl rfl⟩
            rw [← h.2, ← heq]
            rfl
          · simp at h
        · simp [he] at h

/-- A character reference or entity in a text without `<`, before `<` or the
end of the input, is an error or ends inside the text. -/
theorem xmlEntity_before {tail : Bytes} (ht : tail = [] ∨ ∃ r, tail = 60 :: r) (y : Bytes)
    (hy : 60 ∉ y) {t r2 : Bytes} (h : xmlEntity (y ++ tail) = some (t, r2)) :
    ∃ y2, r2 = y2 ++ tail ∧ 60 ∉ y2 := by
  obtain ⟨p, k, hp, hd, hk⟩ := xmlEntity_rest h
  have key : ∀ (u : Bytes), 60 ∉ u → (u ++ tail).dropWhile p = 59 :: r2 →
      ∃ y2, r2 = y2 ++ tail ∧ 60 ∉ y2 := by
    intro u hu hdu
    rw [dropWhile_append_tail hp ht] at hdu
    cases hz : u.dropWhile p with
    | nil =>
      rw [hz, List.nil_append] at hdu
      rcases ht with rfl | ⟨r, rfl⟩
      · simp at hdu
      · simp at hdu
    | cons e z =>
      rw [hz, List.cons_append] at hdu
      simp only [List.cons.injEq] at hdu
      exact ⟨z, hdu.2.symm, fun hm => hu (mem_of_mem_dropWhile_tail hz 60 hm)⟩
  have hdrop : ∀ j, j ≤ y.length → (y ++ tail).drop j = y.drop j ++ tail :=
    fun j hj => List.drop_append_of_le_length hj
  have hmem : ∀ j, 60 ∉ y.drop j := fun j hm => hy (List.mem_of_mem_drop hm)
  rcases hk with rfl | rfl | ⟨rfl, hx⟩
  · exact key y hy (by simpa using hd)
  · cases y with
    | nil =>
      rcases ht with rfl | ⟨r, rfl⟩
      · simp [xmlEntity] at h
      · exfalso
        have : xmlEntity (60 :: r) = none := by
          simp [xmlEntity, isReadNameByte, isNameByte, isLetter, isDigit, List.dropWhile]
        rw [List.nil_append, this] at h
        simp at h
    | cons c y1 =>
      rw [hdrop 1 (by simp)] at hd
      exact key _ (hmem 1) hd
  · cases y with
    | nil =>
      rcases ht with rfl | ⟨r, rfl⟩
      · simp [xmlEntity] at h
      · exfalso
        have : xmlEntity (60 :: r) = none := by
          simp [xmlEntity, isReadNameByte, isNameByte, isLetter, isDigit, List.dropWhile]
        rw [List.nil_append, this] at h
        simp at h
    | cons c y1 =>
      cases y1 with
      | nil =>
        exfalso
        rcases ht with rfl | ⟨r, rfl⟩
        · simp [hasPrefix] at hx
        · simp [hasPrefix] at hx
      | cons d y2 =>
        rw [hdrop 2 (by simp)] at hd
        exact key _ (hmem 2) hd

/-- The loop of the method `text` over a text without `<`, before `<` or the
end of the input: an error, or the input left is what follows the text. -/
theorem xmlTextLoop_before {tail : Bytes} (ht : tail = [] ∨ ∃ r, tail = 60 :: r) :
    ∀ (fuel b0 b1 : Nat) (y buf : Bytes), 60 ∉ y → ∀ d r,
      xmlTextLoop none false fuel b0 b1 (y ++ tail) buf = some (d, r) → r = tail := by
  intro fuel
  induction fuel with
  | zero => intro b0 b1 y buf _ d r h; simp [xmlTextLoop] at h
  | succ fuel ih =>
    intro b0 b1 y buf hy d r h
    cases y with
    | nil =>
      rcases ht with rfl | ⟨r0, rfl⟩
      · simp only [List.nil_append, xmlTextLoop, Bool.false_eq_true, ↓reduceIte,
          Option.some.injEq, Prod.mk.injEq] at h
        exact h.2.symm
      · simp only [List.nil_append, xmlTextLoop] at h
        rw [if_neg (by omega)] at h
        simp only [and_self, ↓reduceIte, Option.isSome_none, Bool.false_eq_true,
          Option.some.injEq, Prod.mk.injEq] at h
        exact h.2.symm
    | cons b y1 =>
      have hb : b ≠ 60 := fun e => hy (by rw [e]; simp)
      have hy1 : 60 ∉ y1 := fun hm => hy (List.mem_cons_of_mem _ hm)
      simp only [List.cons_append, xmlTextLoop] at h
      split at h
      · simp at h
      · split at h
        · rename_i h60
          exact absurd h60.1 hb
        · split at h
          · rename_i hq
            simp at hq
          · split at h
            · split at h
              · rename_i text rest2 hent
                obtain ⟨y2, e2, hy2⟩ := xmlEntity_before ht y1 hy1 hent
                rw [e2] at h
                exact ih _ _ y2 _ hy2 d r h
              · simp at h
            · exact ih _ _ y1 _ hy1 d r h

/-- The method `text` over a text without `<`, before `<` or the end of the input. -/
theorem xmlText_before {tail : Bytes} (ht : tail = [] ∨ ∃ r, tail = 60 :: r) (y : Bytes)
    (hy : 60 ∉ y) :
    xmlText none false (y ++ tail) = none ∨ ∃ d, xmlText none false (y ++ tail) = some (d, tail) := by
  unfold xmlText
  cases h : xmlTextLoop none false ((y ++ tail).length + 1) 0 0 (y ++ tail) [] with
  | none => left; rfl
  | some dr =>
    obtain ⟨d, r⟩ := dr
    have hr := xmlTextLoop_before ht _ _ _ y _ hy d r h
    subst hr
    simp only
    by_cases hv : validChars d.length d = true
    · right; exact ⟨d, by simp [hv]⟩
    · left; simp [hv]

/-- The token read from a text without `<` that is not empty, before `<` or
the end of the input. -/
theorem xmlRawToken_before (env : XmlEnv) {tail : Bytes} (ht : tail = [] ∨ ∃ r, tail = 60 :: r)
    (y : Bytes) (hy : 60 ∉ y) (hne : y ≠ []) :
    xmlRawToken env (y ++ tail) = none
      ∨ ∃ d, xmlRawToken env (y ++ tail) = some (.CharData d, tail) := by
  cases y with
  | nil => exact absurd rfl hne
  | cons b y1 =>
    have hb : b ≠ 60 := fun e => hy (by rw [e]; simp)
    rcases xmlText_before ht (b :: y1) hy with h | ⟨d, h⟩
    · left
      rw [List.cons_append] at h ⊢
      unfold xmlRawToken
      simp only [ne_eq, hb, not_false_eq_true, ↓reduceIte, h]
    · right
      refine ⟨d, ?_⟩
      rw [List.cons_append] at h ⊢
      unfold xmlRawToken
      simp only [ne_eq, hb, not_false_eq_true, ↓reduceIte, h]

theorem outcome_of_reaches {env : XmlEnv} {s s2 : LoopState} {Q : Metadata → Prop}
    (h : Reaches env s s2) (h2 : Outcome env s2 Q) : Outcome env s Q := by
  obtain ⟨k, hk, hrun⟩ := h
  intro fuel hf
  have e : fuel = (fuel - k) + k := by omega
  rw [e, hrun]
  exact h2 _ (by omega)

theorem outcome_done (env : XmlEnv) (st : List Bytes) (m : Metadata) {Q : Metadata → Prop}
    (h : Q m) : Outcome env ⟨[], [], st, m, true⟩ Q := by
  intro fuel hf
  right
  refine ⟨m, ?_, h⟩
  cases fuel with
  | zero => simp at hf
  | succ f => simp [LoopState.run, unmarshalLoop]

/-- The loop at a text without `<` that the input ends in, inside an element:
an error. -/
theorem outcome_cut (env : XmlEnv) (y : Bytes) (hy : 60 ∉ y) {o : List XName} (ho : o ≠ [])
    (st : List Bytes) (m : Metadata) (saw : Bool) (Q : Metadata → Prop) :
    Outcome env ⟨y, o, st, m, saw⟩ Q := by
  intro fuel hf
  left
  have hempty : ∀ f m2, unmarshalLoop env (f + 1) [] o st m2 saw = .error .decode := by
    intro f m2
    cases o with
    | nil => exact absurd rfl ho
    | cons x xs => simp [unmarshalLoop]
  cases fuel with
  | zero => simp at hf
  | succ f =>
    cases y with
    | nil => exact ⟨_, hempty f m⟩
    | cons b y1 =>
      simp only [List.length_cons] at hf
      obtain ⟨f2, rfl⟩ : ∃ f2, f = f2 + 1 := ⟨f - 1, by omega⟩
      have htok := xmlRawToken_before env (Or.inl rfl) (b :: y1) hy (by simp)
      rw [List.append_nil] at htok
      rcases htok with h | ⟨d, h⟩
      · exact ⟨.decode, by simp only [LoopState.run, unmarshalLoop, h]⟩
      · refine ⟨.decode, ?_⟩
        simp only [LoopState.run]
        rw [unmarshalLoop]
        simp only [h]
        exact hempty f2 _

/-- The loop at a text without `<` that is not empty, before `<`: an error,
or the text is character data and the loop goes on behind it. -/
theorem outcome_value (env : XmlEnv) (y r : Bytes) (hy : 60 ∉ y) (hne : y ≠ [])
    (o : List XName) (st : List Bytes) (m : Metadata) (saw : Bool) (Q : Metadata → Prop)
    (h : ∀ d, Outcome env ⟨60 :: r, o, st, unmarshalCharData st m d, saw⟩ Q) :
    Outcome env ⟨y ++ 60 :: r, o, st, m, saw⟩ Q := by
  intro fuel hf
  cases y with
  | nil => exact absurd rfl hne
  | cons b y1 =>
    simp only [List.cons_append, List.length_cons, List.length_append] at hf
    obtain ⟨f, rfl⟩ : ∃ f, fuel = f + 1 := ⟨fuel - 1, by omega⟩
    rcases xmlRawToken_before env (Or.inr ⟨r, rfl⟩) (b :: y1) hy (by simp) with ht | ⟨d, ht⟩
    · left
      refine ⟨.decode, ?_⟩
      rw [List.cons_append] at ht ⊢
      simp only [LoopState.run, unmarshalLoop, ht]
    · have := h d f (by simp only [List.length_cons]; omega)
      rw [List.cons_append] at ht ⊢
      simp only [LoopState.run] at this ⊢
      rw [unmarshalLoop]
      simp only [ht]
      exact this

theorem keep_title (st : List Bytes) (m : Metadata) (d : Bytes)
    (h : stackHasSuffix st [bytesOf "title", bytesOf "Alt", bytesOf "li"] = false) :
    (unmarshalCharData st m d).Title = m.Title := by
  rw [step_title, h]
  simp

theorem keep_author (st : List Bytes) (m : Metadata) (d : Bytes)
    (h : stackHasSuffix st [bytesOf "creator", bytesOf "Seq", bytesOf "li"] = false) :
    (unmarshalCharData st m d).Author = m.Author := by
  rw [step_author, h]
  simp

theorem keep_subject (st : List Bytes) (m : Metadata) (d : Bytes)
    (h : stackHasSuffix st [bytesOf "description", bytesOf "Alt", bytesOf "li"] = false) :
    (unmarshalCharData st m d).Subject = m.Subject := by
  rw [step_subject, h]
  simp

theorem keep_keywords (st : List Bytes) (m : Metadata) (d : Bytes)
    (h : stackHasSuffix st [bytesOf "Keywords"] = false) :
    (unmarshalCharData st m d).Keywords = m.Keywords := by
  rw [step_keywords, h]
  simp

theorem keep_creator (st : List Bytes) (m : Metadata) (d : Bytes)
    (h : stackHasSuffix st [bytesOf "CreatorTool"] = false) :
    (unmarshalCharData st m d).Creator = m.Creator := by
  rw [step_creator, h]
  simp

theorem keep_producer (st : List Bytes) (m : Metadata) (d : Bytes)
    (h : stackHasSuffix st [bytesOf "Producer"] = false) :
    (unmarshalCharData st m d).Producer = m.Producer := by
  rw [step_producer, h]
  simp

theorem keep_creationDate (st : List Bytes) (m : Metadata) (d : Bytes)
    (h : stackHasSuffix st [bytesOf "CreateDate"] = false) :
    (unmarshalCharData st m d).CreationDate = m.CreationDate := by
  rw [step_creationDate, h]
  simp

theorem keep_modDate (st : List Bytes) (m : Metadata) (d : Bytes)
    (h : stackHasSuffix st [bytesOf "ModifyDate"] = false) :
    (unmarshalCharData st m d).ModDate = m.ModDate := by
  rw [step_modDate, h]
  simp

theorem lineOk_of (env : XmlEnv) (Inv : Metadata → Prop) (op cl v : Bytes) (els : List XName)
    (stk : List Bytes) (hels : els ≠ [])
    (h1 : index (60 :: (op ++ [62])) (bytesOf "endobj") = none)
    (h2 : index (60 :: (op ++ [62])) (bytesOf "endstream") = none)
    (h3 : index ((60 :: cl) ++ [10]) (bytesOf "endobj") = none)
    (h4 : index ((60 :: cl) ++ [10]) (bytesOf "endstream") = none)
    (h5 : ∀ r m, Reaches env ⟨(60 :: (op ++ [62])) ++ r, descriptionEls, descriptionStack, m, true⟩
        ⟨r, els, stk, m, true⟩)
    (h6 : ∀ r m, Reaches env ⟨(60 :: cl) ++ 10 :: 60 :: r, els, stk, m, true⟩
        ⟨60 :: r, descriptionEls, descriptionStack, m, true⟩)
    (h7 : v ≠ [] → ∀ m d, Inv m → Inv (unmarshalCharData stk m d)) :
    LineOk env Inv (60 :: (op ++ [62]), 60 :: cl, v) :=
  ⟨op, cl, els, stk, rfl, rfl, hels, h1, h2, h3, h4, h5, h6, h7⟩

theorem lineOk_title (env : XmlEnv) (M : Metadata) :
    LineOk env (emptyWhere M) (bytesOf "<dc:title><rdf:Alt><rdf:li xml:lang=\"x-default\">", bytesOf "</rdf:li></rdf:Alt></dc:title>", M.Title) := by
  refine lineOk_of env (emptyWhere M) (bytesOf "dc:title><rdf:Alt><rdf:li xml:lang=\"x-default\"") (bytesOf "/rdf:li></rdf:Alt></dc:title>") M.Title
    (([⟨bytesOf "rdf", bytesOf "li"⟩, ⟨bytesOf "rdf", bytesOf "Alt"⟩, ⟨bytesOf "dc", bytesOf "title"⟩] : List XName) ++ descriptionEls)
    (descriptionStack ++ [bytesOf "title", bytesOf "Alt", bytesOf "li"]) (by simp) (by decide) (by decide) (by decide) (by decide)
    (fun r m => Reaches.of_run 3 (bytesOf "<dc:title><rdf:Alt><rdf:li xml:lang=\"x-default\">") rfl (by decide) (fun _ => rfl))
    (fun r m => Reaches.of_run 4 (bytesOf "</rdf:li></rdf:Alt></dc:title>\n") rfl (by decide) (fun _ => rfl)) ?_
  intro hne m d hInv
  obtain ⟨i1, i2, i3, i4, i5, i6, i7, i8⟩ := hInv
  refine ⟨?_, ?_, ?_, ?_, ?_, ?_, ?_, ?_⟩
  · exact fun h => absurd h hne
  · intro h
    rw [keep_author _ _ _ (by decide)]
    exact i2 h
  · intro h
    rw [keep_subject _ _ _ (by decide)]
    exact i3 h
  · intro h
    rw [keep_keywords _ _ _ (by decide)]
    exact i4 h
  · intro h
    rw [keep_creator _ _ _ (by decide)]
    exact i5 h
  · intro h
    rw [keep_producer _ _ _ (by decide)]
    exact i6 h
  · intro h
    rw [keep_creationDate _ _ _ (by decide)]
    exact i7 h
  · intro h
    rw [keep_modDate _ _ _ (by decide)]
    exact i8 h

theorem lineOk_author (env : XmlEnv) (M : Metadata) :
    LineOk env (emptyWhere M) (bytesOf "<dc:creator><rdf:Seq><rdf:li>", bytesOf "</rdf:li></rdf:Seq></dc:creator>", M.Author) := by
  refine lineOk_of env (emptyWhere M) (bytesOf "dc:creator><rdf:Seq><rdf:li") (bytesOf "/rdf:li></rdf:Seq></dc:creator>") M.Author
    (([⟨bytesOf "rdf", bytesOf "li"⟩, ⟨bytesOf "rdf", bytesOf "Seq"⟩, ⟨bytesOf "dc", bytesOf "creator"⟩] : List XName) ++ descriptionEls)
    (descriptionStack ++ [bytesOf "creator", bytesOf "Seq", bytesOf "li"]) (by simp) (by decide) (by decide) (by decide) (by decide)
    (fun r m => Reaches.of_run 3 (bytesOf "<dc:creator><rdf:Seq><rdf:li>") rfl (by decide) (fun _ => rfl))
    (fun r m => Reaches.of_run 4 (bytesOf "</rdf:li></rdf:Seq></dc:creator>\n") rfl (by decide) (fun _ => rfl)) ?_
  intro hne m d hInv
  obtain ⟨i1, i2, i3, i4, i5, i6, i7, i8⟩ := hInv
  refine ⟨?_, ?_, ?_, ?_, ?_, ?_, ?_, ?_⟩
  · intro h
    rw [keep_title _ _ _ (by decide)]
    exact i1 h
  · exact fun h => absurd h hne
  · intro h
    rw [keep_subject _ _ _ (by decide)]
    exact i3 h
  · intro h
    rw [keep_keywords _ _ _ (by decide)]
    exact i4 h
  · intro h
    rw [keep_creator _ _ _ (by decide)]
    exact i5 h
  · intro h
    rw [keep_producer _ _ _ (by decide)]
    exact i6 h
  · intro h
    rw [keep_creationDate _ _ _ (by decide)]
    exact i7 h
  · intro h
    rw [keep_modDate _ _ _ (by decide)]
    exact i8 h

theorem lineOk_subject (env : XmlEnv) (M : Metadata) :
    LineOk env (emptyWhere M) (bytesOf "<dc:description><rdf:Alt><rdf:li xml:lang=\"x-default\">", bytesOf "</rdf:li></rdf:Alt></dc:description>", M.Subject) := by
  refine lineOk_of env (emptyWhere M) (bytesOf "dc:description><rdf:Alt><rdf:li xml:lang=\"x-default\"") (bytesOf "/rdf:li></rdf:Alt></dc:description>") M.Subject
    (([⟨bytesOf "rdf", bytesOf "li"⟩, ⟨bytesOf "rdf", bytesOf "Alt"⟩, ⟨bytesOf "dc", bytesOf "description"⟩] : List XName) ++ descriptionEls)
    (descriptionStack ++ [bytesOf "description", bytesOf "Alt", bytesOf "li"]) (by simp) (by decide) (by decide) (by decide) (by decide)
    (fun r m => Reaches.of_run 3 (bytesOf "<dc:description><rdf:Alt><rdf:li xml:lang=\"x-default\">") rfl (by decide) (fun _ => rfl))
    (fun r m => Reaches.of_run 4 (bytesOf "</rdf:li></rdf:Alt></dc:description>\n") rfl (by decide) (fun _ => rfl)) ?_
  intro hne m d hInv
  obtain ⟨i1, i2, i3, i4, i5, i6, i7, i8⟩ := hInv
  refine ⟨?_, ?_, ?_, ?_, ?_, ?_, ?_, ?_⟩
  · intro h
    rw [keep_title _ _ _ (by decide)]
    exact i1 h
  · intro h
    rw [keep_author _ _ _ (by decide)]
    exact i2 h
  · exact fun h => absurd h hne
  · intro h
    rw [keep_keywords _ _ _ (by decide)]
    exact i4 h
  · intro h
    rw [keep_creator _ _ _ (by decide)]
    exact i5 h
  · intro h
    rw [keep_producer _ _ _ (by decide)]
    exact i6 h
  · intro h
    rw [keep_creationDate _ _ _ (by decide)]
    exact i7 h
  · intro h
    rw [keep_modDate _ _ _ (by decide)]
    exact i8 h

theorem lineOk_keywords (env : XmlEnv) (M : Metadata) :
    LineOk env (emptyWhere M) (bytesOf "<pdf:Keywords>", bytesOf "</pdf:Keywords>", M.Keywords) := by
  refine lineOk_of env (emptyWhere M) (bytesOf "pdf:Keywords") (bytesOf "/pdf:Keywords>") M.Keywords
    (([⟨bytesOf "pdf", bytesOf "Keywords"⟩] : List XName) ++ descriptionEls)
    (descriptionStack ++ [bytesOf "Keywords"]) (by simp) (by decide) (by decide) (by decide) (by decide)
    (fun r m => Reaches.of_run 1 (bytesOf "<pdf:Keywords>") rfl (by decide) (fun _ => rfl))
    (fun r m => Reaches.of_run 2 (bytesOf "</pdf:Keywords>\n") rfl (by decide) (fun _ => rfl)) ?_
  intro hne m d hInv
  obtain ⟨i1, i2, i3, i4, i5, i6, i7, i8⟩ := hInv
  refine ⟨?_, ?_, ?_, ?_, ?_, ?_, ?_, ?_⟩
  · intro h
    rw [keep_title _ _ _ (by decide)]
    exact i1 h
  · intro h
    rw [keep_author _ _ _ (by decide)]
    exact i2 h
  · intro h
    rw [keep_subject _ _ _ (by decide)]
    exact i3 h
  · exact fun h => absurd h hne
  · intro h
    rw [keep_creator _ _ _ (by decide)]
    exact i5 h
  · intro h
    rw [keep_producer _ _ _ (by decide)]
    exact i6 h
  · intro h
    rw [keep_creationDate _ _ _ (by decide)]
    exact i7 h
  · intro h
    rw [keep_modDate _ _ _ (by decide)]
    exact i8 h

theorem lineOk_creator (env : XmlEnv) (M : Metadata) :
    LineOk env (emptyWhere M) (bytesOf "<xmp:CreatorTool>", bytesOf "</xmp:CreatorTool>", M.Creator) := by
  refine lineOk_of env (emptyWhere M) (bytesOf "xmp:CreatorTool") (bytesOf "/xmp:CreatorTool>") M.Creator
    (([⟨bytesOf "xmp", bytesOf "CreatorTool"⟩] : List XName) ++ descriptionEls)
    (descriptionStack ++ [bytesOf "CreatorTool"]) (by simp) (by decide) (by decide) (by decide) (by decide)
    (fun r m => Reaches.of_run 1 (bytesOf "<xmp:CreatorTool>") rfl (by decide) (fun _ => rfl))
    (fun r m => Reaches.of_run 2 (bytesOf "</xmp:CreatorTool>\n") rfl (by decide) (fun _ => rfl)) ?_
  intro hne m d hInv
  obtain ⟨i1, i2, i3, i4, i5, i6, i7, i8⟩ := hInv
  refine ⟨?_, ?_, ?_, ?_, ?_, ?_, ?_, ?_⟩
  · intro h
    rw [keep_title _ _ _ (by decide)]
    exact i1 h
  · intro h
    rw [keep_author _ _ _ (by decide)]
    exact i2 h
  · intro h
    rw [keep_subject _ _ _ (by decide)]
    exact i3 h
  · intro h
    rw [keep_keywords _ _ _ (by decide)]
    exact i4 h
  · exact fun h => absurd h hne
  · intro h
    rw [keep_producer _ _ _ (by decide)]
    exact i6 h
  · intro h
    rw [keep_creationDate _ _ _ (by decide)]
    exact i7 h
  · intro h
    rw [keep_modDate _ _ _ (by decide)]
    exact i8 h

theorem lineOk_producer (env : XmlEnv) (M : Metadata) :
    LineOk env (emptyWhere M) (bytesOf "<pdf:Producer>", bytesOf "</pdf:Producer>", M.Producer) := by
  refine lineOk_of env (emptyWhere M) (bytesOf "pdf:Producer") (bytesOf "/pdf:Producer>") M.Producer
    (([⟨bytesOf "pdf", bytesOf "Producer"⟩] : List XName) ++ descriptionEls)
    (descriptionStack ++ [bytesOf "Producer"]) (by simp) (by decide) (by decide) (by decide) (by decide)
    (fun r m => Reaches.of_run 1 (bytesOf "<pdf:Producer>") rfl (by decide) (fun _ => rfl))
    (fun r m => Reaches.of_run 2 (bytesOf "</pdf:Producer>\n") rfl (by decide) (fun _ => rfl)) ?_
  intro hne m d hInv
  obtain ⟨i1, i2, i3, i4, i5, i6, i7, i8⟩ := hInv
  refine ⟨?_, ?_, ?_, ?_, ?_, ?_, ?_, ?_⟩
  · intro h
    rw [keep_title _ _ _ (by decide)]
    exact i1 h
  · intro h
    rw [keep_author _ _ _ (by decide)]
    exact i2 h
  · intro h
    rw [keep_subject _ _ _ (by decide)]
    exact i3 h
  · intro h
    rw [keep_keywords _ _ _ (by decide)]
    exact i4 h
  · intro h
    rw [keep_creator _ _ _ (by decide)]
    exact i5 h
  · exact fun h => absurd h hne
  · intro h
    rw [keep_creationDate _ _ _ (by decide)]
    exact i7 h
  · intro h
    rw [keep_modDate _ _ _ (by decide)]
    exact i8 h

theorem lineOk_creationDate (env : XmlEnv) (M : Metadata) :
    LineOk env (emptyWhere M) (bytesOf "<xmp:CreateDate>", bytesOf "</xmp:CreateDate>", M.CreationDate) := by
  refine lineOk_of env (emptyWhere M) (bytesOf "xmp:CreateDate") (bytesOf "/xmp:CreateDate>") M.CreationDate
    (([⟨bytesOf "xmp", bytesOf "CreateDate"⟩] : List XName) ++ descriptionEls)
    (descriptionStack ++ [bytesOf "CreateDate"]) (by simp) (by decide) (by decide) (by decide) (by decide)
    (fun r m => Reaches.of_run 1 (bytesOf "<xmp:CreateDate>") rfl (by decide) (fun _ => rfl))
    (fun r m => Reaches.of_run 2 (bytesOf "</xmp:CreateDate>\n") rfl (by decide) (fun _ => rfl)) ?_
  intro hne m d hInv
  obtain ⟨i1, i2, i3, i4, i5, i6, i7, i8⟩ := hInv
  refine ⟨?_, ?_, ?_, ?_, ?_, ?_, ?_, ?_⟩
  · intro h
    rw [keep_title _ _ _ (by decide)]
    exact i1 h
  · intro h
    rw [keep_author _ _ _ (by decide)]
    exact i2 h
  · intro h
    rw [keep_subject _ _ _ (by decide)]
    exact i3 h
  · intro h
    rw [keep_keywords _ _ _ (by decide)]
    exact i4 h
  · intro h
    rw [keep_creator _ _ _ (by decide)]
    exact i5 h
  · intro h
    rw [keep_producer _ _ _ (by decide)]
    exact i6 h
  · exact fun h => absurd h hne
  · intro h
    rw [keep_modDate _ _ _ (by decide)]
    exact i8 h

theorem lineOk_modDate (env : XmlEnv) (M : Metadata) :
    LineOk env (emptyWhere M) (bytesOf "<xmp:ModifyDate>", bytesOf "</xmp:ModifyDate>", M.ModDate) := by
  refine lineOk_of env (emptyWhere M) (bytesOf "xmp:ModifyDate") (bytesOf "/xmp:ModifyDate>") M.ModDate
    (([⟨bytesOf "xmp", bytesOf "ModifyDate"⟩] : List XName) ++ descriptionEls)
    (descriptionStack ++ [bytesOf "ModifyDate"]) (by simp) (by decide) (by decide) (by decide) (by decide)
    (fun r m => Reaches.of_run 1 (bytesOf "<xmp:ModifyDate>") rfl (by decide) (fun _ => rfl))
    (fun r m => Reaches.of_run 2 (bytesOf "</xmp:ModifyDate>\n") rfl (by decide) (fun _ => rfl)) ?_
  intro hne m d hInv
  obtain ⟨i1, i2, i3, i4, i5, i6, i7, i8⟩ := hInv
  refine ⟨?_, ?_, ?_, ?_, ?_, ?_, ?_, ?_⟩
  · intro h
    rw [keep_title _ _ _ (by decide)]
    exact i1 h
  · intro h
    rw [keep_author _ _ _ (by decide)]
    exact i2 h
  · intro h
    rw [keep_subject _ _ _ (by decide)]
    exact i3 h
  · intro h
    rw [keep_keywords _ _ _ (by decide)]
    exact i4 h
  · intro h
    rw [keep_creator _ _ _ (by decide)]
    exact i5 h
  · intro h
    rw [keep_producer _ _ _ (by decide)]
    exact i6 h
  · intro h
    rw [keep_creationDate _ _ _ (by decide)]
    exact i7 h
  · exact fun h => absurd h hne

/-- Each element line of a packet is read as the proofs about packets need it. -/
theorem xmpLines_ok (env : XmlEnv) (M : Metadata) :
    ∀ l ∈ xmpLines M, LineOk env (emptyWhere M) l := by
  intro l hl
  simp only [xmpLines, List.mem_cons, List.mem_singleton, List.not_mem_nil, or_false] at hl
  rcases hl with rfl | rfl | rfl | rfl | rfl | rfl | rfl | rfl
  · exact lineOk_title env M
  · exact lineOk_author env M
  · exact lineOk_subject env M
  · exact lineOk_keywords env M
  · exact lineOk_creator env M
  · exact lineOk_producer env M
  · exact lineOk_creationDate env M
  · exact lineOk_modDate env M

theorem hasEndobj_of_free : ∀ (a : Bytes), index a (bytesOf "endobj") = none →
    ∀ q, hasEndobj q a = false := by
  intro a
  induction a with
  | nil => intro _ _; rfl
  | cons c t ih =>
    intro h q
    have h0 : hasPrefix (c :: t) (bytesOf "endobj") = false := by
      simpa using index_none h 0
    simp only [hasEndobj, h0, Bool.and_false, Bool.false_or]
    exact ih (index_tail_none h) c

theorem lineText_cases (l : Bytes × Bytes × Bytes) :
    (l.2.2 = [] ∧ lineText l = [])
      ∨ (l.2.2 ≠ [] ∧ lineText l = l.1 ++ xmlEscape l.2.2 ++ l.2.1 ++ [10]) := by
  unfold lineText elementLine
  by_cases h : l.2.2 = []
  · exact Or.inl ⟨h, by rw [if_pos h]⟩
  · exact Or.inr ⟨h, by rw [if_neg h]⟩

/-- The element lines before a text that begins with `<` begin with `<`. -/
theorem lines_head (env : XmlEnv) (Inv : Metadata → Prop) (r : Bytes) :
    ∀ (ls : List (Bytes × Bytes × Bytes)), (∀ l ∈ ls, LineOk env Inv l) →
      ∃ r2, (ls.map lineText).flatten ++ 60 :: r = 60 :: r2 := by
  intro ls
  induction ls with
  | nil => intro _; exact ⟨r, rfl⟩
  | cons l ls ih =>
    intro h
    obtain ⟨op, cl, els, stk, e1, _⟩ := h l (by simp)
    simp only [List.map_cons, List.flatten_cons, List.append_assoc]
    rcases lineText_cases l with ⟨_, ht⟩ | ⟨_, ht⟩
    · rw [ht, List.nil_append]
      exact ih (fun l2 h2 => h l2 (by simp [h2]))
    · rw [ht, e1]
      simp only [List.cons_append, List.append_assoc]
      exact ⟨_, rfl⟩

/-- The pattern `\bendobj` does not match in element lines whose values it does
not match in. -/
theorem lines_boundary (env : XmlEnv) (Inv : Metadata → Prop) (X : Bytes)
    (hX : ∀ q, hasEndobj q X = false) :
    ∀ (ls : List (Bytes × Bytes × Bytes)),
      (∀ l ∈ ls, LineOk env Inv l ∧ (l.2.2 = [] ∨ ∀ q, hasEndobj q (xmlEscape l.2.2) = false)) →
      ∀ q, hasEndobj q ((ls.map lineText).flatten ++ X) = false := by
  intro ls
  induction ls with
  | nil => intro _ q; exact hX q
  | cons l ls ih =>
    intro h q
    obtain ⟨⟨op, cl, els, stk, e1, e2, _, f1, _, f3, _⟩, hv⟩ := h l (by simp)
    have ih2 := ih (fun l2 h2 => h l2 (by simp [h2]))
    simp only [List.map_cons, List.flatten_cons, List.append_assoc]
    rcases lineText_cases l with ⟨_, ht⟩ | ⟨hne, ht⟩
    · rw [ht, List.nil_append]
      exact ih2 q
    · have hE : ∀ q, hasEndobj q (xmlEscape l.2.2) = false := by
        rcases hv with hv | hv
        · exact absurd hv hne
        · exact hv
      rw [ht, e1, e2]
      rw [e1] at f1
      rw [e2] at f3
      have g1 : ∀ q, hasEndobj q (60 :: op) = false := by
        intro q
        have := hasEndobj_of_free _ f1 q
        have e : 60 :: (op ++ [62]) = (60 :: op) ++ 62 :: [] := by simp
        rw [e, hasEndobj_append_sep (by decide), Bool.or_eq_false_iff] at this
        exact this.1
      have g2 : hasEndobj 60 cl = false := by
        have := hasEndobj_of_free _ f3 0
        have e : (60 :: cl) ++ [10] = 60 :: (cl ++ 10 :: []) := by simp
        rw [e, hasEndobj_cons_ne (by decide), hasEndobj_append_sep (by decide),
          Bool.or_eq_false_iff] at this
        exact this.1
      have e : 60 :: (op ++ [62]) ++ xmlEscape l.2.2 ++ 60 :: cl ++ [10]
            ++ ((ls.map lineText).flatten ++ X)
          = (60 :: op) ++ 62 :: (xmlEscape l.2.2 ++ 60 :: (cl ++ 10 ::
            ((ls.map lineText).flatten ++ X))) := by simp
      rw [e, hasEndobj_append_sep (by decide), hasEndobj_append_sep (by decide),
        hasEndobj_append_sep (by decide), g1, hE, g2, ih2]
      rfl

/-- The loop of `Unmarshal` over element lines: an error, or what the loop
comes to behind them. -/
theorem lines_outcome (env : XmlEnv) (Inv Q : Metadata → Prop) (r : Bytes)
    (hr : ∀ m, Inv m → Outcome env ⟨60 :: r, descriptionEls, descriptionStack, m, true⟩ Q) :
    ∀ (ls : List (Bytes × Bytes × Bytes)), (∀ l ∈ ls, LineOk env Inv l) →
      ∀ m, Inv m →
        Outcome env ⟨(ls.map lineText).flatten ++ 60 :: r, descriptionEls, descriptionStack, m,
          true⟩ Q := by
  intro ls
  induction ls with
  | nil => intro _ m hm; exact hr m hm
  | cons l ls ih =>
    intro h m hm
    have hls : ∀ l2 ∈ ls, LineOk env Inv l2 := fun l2 h2 => h l2 (by simp [h2])
    have ih2 := ih hls
    obtain ⟨r2, hr2⟩ := lines_head env Inv r ls hls
    obtain ⟨op, cl, els, stk, e1, e2, hels, _, _, _, _, hopen, hclose, hinv⟩ := h l (by simp)
    simp only [List.map_cons, List.flatten_cons, List.append_assoc]
    rcases lineText_cases l with ⟨_, ht⟩ | ⟨hne, ht⟩
    · rw [ht, List.nil_append]
      exact ih2 m hm
    · rw [ht, hr2]
      have e : l.1 ++ xmlEscape l.2.2 ++ l.2.1 ++ [10] ++ 60 :: r2
          = l.1 ++ (xmlEscape l.2.2 ++ 60 :: (cl ++ 10 :: 60 :: r2)) := by
        rw [e2]; simp
      rw [e]
      apply outcome_of_reaches (hopen _ m)
      apply outcome_value env _ _ (fun h60 => xmlEscape_no_lt _ 60 h60 rfl) (xmlEscape_ne_nil hne)
      intro d
      have hc := hclose r2 (unmarshalCharData stk m d)
      rw [e2] at hc
      apply outcome_of_reaches hc
      rw [← hr2]
      exact ih2 _ (hinv hne m d hm)

/-- A split of a text in two after a part without the word, when the second
half begins with the word and the word cannot straddle the end of the part. -/
theorem split_after {a b T U p : Bytes} (hfree : index a p = none)
    (hsep : (∀ x, a.getLast? = some x → x ∉ p) ∨ ∃ x t, b = x :: t ∧ x ∉ p)
    (h : a ++ b = T ++ U) (hU : hasPrefix U p = true) :
    ∃ a2, T = a ++ a2 ∧ b = a2 ++ U := by
  rcases List.append_eq_append_iff.1 h with ⟨a2, h1, h2⟩ | ⟨c, h1, h2⟩
  · exact ⟨a2, h1, h2⟩
  · cases c with
    | nil =>
      refine ⟨[], ?_, ?_⟩
      · rw [h1]; simp
      · rw [h2]; simp
    | cons x c2 =>
      exfalso
      have hd : a.drop T.length = x :: c2 := by rw [h1, List.drop_left]
      have hj : T.length < a.length := by
        rw [h1]
        simp
      rw [h2, ← hd] at hU
      rcases hsep with hl | ⟨y, t, hb, hy⟩
      · rw [hasPrefix_drop_append_of_last hfree hl b hj] at hU
        exact absurd hU (by simp)
      · rw [hb, hasPrefix_drop_append_of_head hfree hy t T.length] at hU
        exact absurd hU (by simp)

theorem head_of_split {B2 T U : Bytes} (h : 60 :: B2 = T ++ U)
    (hU : hasPrefix U (bytesOf "endstream") = true) : ∃ T2, T = 60 :: T2 := by
  cases T with
  | nil =>
    rw [List.nil_append] at h
    rw [← h] at hU
    exact absurd hU (by simp [hasPrefix, bytesOf])
  | cons x T2 =>
    simp only [List.cons_append, List.cons.injEq] at h
    exact ⟨T2, by rw [h.1]⟩

theorem getLast_snoc_exists {a : Bytes} (ha : a ≠ []) : ∃ t x, a = t ++ [x] := by
  rcases List.eq_nil_or_concat a with h | ⟨t, x, h⟩
  · exact absurd h ha
  · exact ⟨t, x, by rw [h, List.concat_eq_append]⟩

/-- The loop of `Unmarshal` over element lines cut off where `endstream`
stands: an error; the text before the cut does not end with a line break. -/
theorem lines_cut (env : XmlEnv) (Inv Q : Metadata → Prop) (r : Bytes)
    (hr : index (60 :: r) (bytesOf "endstream") = none) :
    ∀ (ls : List (Bytes × Bytes × Bytes)), (∀ l ∈ ls, LineOk env Inv l) →
      ∀ T U, (ls.map lineText).flatten ++ 60 :: r = T ++ U →
        hasPrefix U (bytesOf "endstream") = true →
        (∀ m, Outcome env ⟨T, descriptionEls, descriptionStack, m, true⟩ Q)
          ∧ ∃ t x, T = t ++ [x] ∧ x ≠ 10 ∧ x ≠ 13 := by
  intro ls
  induction ls with
  | nil =>
    intro _ T U h hU
    exfalso
    have hd : U = (60 :: r).drop T.length := by
      simp only [List.map_nil, List.flatten_nil, List.nil_append] at h
      rw [h, List.drop_left]
    rw [hd, index_none hr] at hU
    exact absurd hU (by simp)
  | cons l ls ih =>
    intro h T U hTU hU
    have hls : ∀ l2 ∈ ls, LineOk env Inv l2 := fun l2 h2 => h l2 (by simp [h2])
    have ih2 := ih hls
    obtain ⟨r2, hr2⟩ := lines_head env Inv r ls hls
    obtain ⟨op, cl, els, stk, e1, e2, hels, _, f2, _, f4, hopen, hclose, hinv⟩ := h l (by simp)
    simp only [List.map_cons, List.flatten_cons, List.append_assoc] at hTU
    rcases lineText_cases l with ⟨_, ht⟩ | ⟨hne, ht⟩
    · rw [ht, List.nil_append] at hTU
      exact ih2 T U hTU hU
    · rw [ht] at hTU
      have e : l.1 ++ xmlEscape l.2.2 ++ l.2.1 ++ [10] ++ ((ls.map lineText).flatten ++ 60 :: r)
          = l.1 ++ (xmlEscape l.2.2 ++ ((l.2.1 ++ [10]) ++ ((ls.map lineText).flatten ++ 60 :: r))) := by
        simp
      rw [e] at hTU
      have hlast : ∀ x, l.1.getLast? = some x → x ∉ bytesOf "endstream" := by
        intro x hx
        have e3 : l.1 = (60 :: op) ++ [62] := by rw [e1]; simp
        rw [e3, List.getLast?_append] at hx
        have : x = 62 := by simpa using hx.symm
        subst this
        decide
      obtain ⟨a1, hT1, h1⟩ := split_after f2 (Or.inl hlast) hTU hU
      have hE60 : ∀ c ∈ xmlEscape l.2.2, c ≠ 60 := xmlEscape_no_lt _
      have hEnl := xmlEscape_no_newline l.2.2
      rcases List.append_eq_append_iff.1 h1 with ⟨a2, ha1, hZ⟩ | ⟨c, hE, hU2⟩
      · -- the cut is behind the line
        rw [hr2] at hZ
        obtain ⟨a3, ha2, hB⟩ := split_after f4 (Or.inr ⟨60, r2, rfl, by decide⟩) hZ hU
        rw [← hr2] at hB
        obtain ⟨o1, t, x, hx, hx1, hx2⟩ := ih2 a3 U hB hU
        rw [hr2] at hB
        obtain ⟨a4, ha4⟩ := head_of_split hB hU
        have hT : T = l.1 ++ (xmlEscape l.2.2 ++ 60 :: (cl ++ 10 :: 60 :: a4)) := by
          rw [hT1, ha1, ha2, ha4, e2]
          simp
        refine ⟨fun m => ?_, ?_⟩
        · rw [hT]
          apply outcome_of_reaches (hopen _ m)
          apply outcome_value env _ _ (fun h60 => hE60 60 h60 rfl) (xmlEscape_ne_nil hne)
          intro d
          have hc := hclose a4 (unmarshalCharData stk m d)
          rw [e2] at hc
          apply outcome_of_reaches hc
          rw [← ha4]
          exact o1 _
        · refine ⟨l.1 ++ xmlEscape l.2.2 ++ (l.2.1 ++ [10]) ++ t, x, ?_, hx1, hx2⟩
          rw [hT1, ha1, ha2, hx]
          simp
      · -- the cut is inside the value
        have ha60 : 60 ∉ a1 := fun hm => hE60 60 (by rw [hE]; exact List.mem_append_left _ hm) rfl
        refine ⟨fun m => ?_, ?_⟩
        · rw [hT1]
          exact outcome_of_reaches (hopen a1 m) (outcome_cut env a1 ha60 hels _ _ _ Q)
        · by_cases ha : a1 = []
          · subst ha
            refine ⟨60 :: op, 62, ?_, by decide, by decide⟩
            rw [hT1, e1]
            simp
          · obtain ⟨t, x, hx⟩ := getLast_snoc_exists ha
            have hxE : x ∈ xmlEscape l.2.2 := by
              rw [hE, hx]
              simp
            exact ⟨l.1 ++ t, x, by rw [hT1, hx]; simp, hEnl x hxE⟩

set_option maxRecDepth 100000 in
/-- The packet of `Marshal`: the wrapper with the element lines in between. -/
theorem Marshal_lines (M : Metadata) :
    Marshal M = xmpWrapperHead ++ (((xmpLines M).map lineText).flatten ++ xmpWrapperTail) := by
  unfold Marshal
  rw [writeLangAlt_eq (bytesOf "dc:title")
      (bytesOf "<dc:title><rdf:Alt><rdf:li xml:lang=\"x-default\">")
      (bytesOf "</rdf:li></rdf:Alt></dc:title>") M.Title rfl rfl,
    writeSeq_eq (bytesOf "dc:creator") (bytesOf "<dc:creator><rdf:Seq><rdf:li>")
      (bytesOf "</rdf:li></rdf:Seq></dc:creator>") M.Author rfl rfl,
    writeLangAlt_eq (bytesOf "dc:description")
      (bytesOf "<dc:description><rdf:Alt><rdf:li xml:lang=\"x-default\">")
      (bytesOf "</rdf:li></rdf:Alt></dc:description>") M.Subject rfl rfl,
    writeValue_eq (bytesOf "pdf:Keywords") (bytesOf "<pdf:Keywords>") (bytesOf "</pdf:Keywords>")
      M.Keywords rfl rfl,
    writeValue_eq (bytesOf "xmp:CreatorTool") (bytesOf "<xmp:CreatorTool>")
      (bytesOf "</xmp:CreatorTool>") M.Creator rfl rfl,
    writeValue_eq (bytesOf "pdf:Producer") (bytesOf "<pdf:Producer>") (bytesOf "</pdf:Producer>")
      M.Producer rfl rfl,
    writeValue_eq (bytesOf "xmp:CreateDate") (bytesOf "<xmp:CreateDate>")
      (bytesOf "</xmp:CreateDate>") M.CreationDate rfl rfl,
    writeValue_eq (bytesOf "xmp:ModifyDate") (bytesOf "<xmp:ModifyDate>")
      (bytesOf "</xmp:ModifyDate>") M.ModDate rfl rfl]
  have eh : xmpWrapperHead = xpacketBegin ++ bytesOf "\n"
    ++ bytesOf "<x:xmpmeta xmlns:x=\"adobe:ns:meta/\" x:xmptk=\"pdfmeta\">\n"
    ++ bytesOf "<rdf:RDF xmlns:rdf=\"http://www.w3.org/1999/02/22-rdf-syntax-ns#\">\n"
    ++ bytesOf "<rdf:Description rdf:about=\"\""
    ++ bytesOf " xmlns:dc=\"http://purl.org/dc/elements/1.1/\""
    ++ bytesOf " xmlns:pdf=\"http://ns.adobe.com/pdf/1.3/\""
    ++ bytesOf " xmlns:xmp=\"http://ns.adobe.com/xap/1.0/\">\n" := by decide!
  have et : xmpWrapperTail = bytesOf "</rdf:Description>\n" ++ bytesOf "</rdf:RDF>\n"
    ++ bytesOf "</x:xmpmeta>\n" ++ xpacketEnd ++ bytesOf "\n" := by decide!
  rw [eh, et]
  simp only [xmpLines, lineText, List.map_cons, List.map_nil, List.flatten_cons, List.flatten_nil,
    List.append_assoc, List.append_nil]

set_option maxRecDepth 100000 in
/-- The wrapper before the element lines without its last line feed. -/
theorem xmpWrapperHead_eq : xmpWrapperHead
    = bytesOf "<?xpacket begin=\"\\uFEFF\" id=\"W5M0MpCehiHzreSzNTczkc9d\"?>\n<x:xmpmeta xmlns:x=\"adobe:ns:meta/\" x:xmptk=\"pdfmeta\">\n<rdf:RDF xmlns:rdf=\"http://www.w3.org/1999/02/22-rdf-syntax-ns#\">\n<rdf:Description rdf:about=\"\" xmlns:dc=\"http://purl.org/dc/elements/1.1/\" xmlns:pdf=\"http://ns.adobe.com/pdf/1.3/\" xmlns:xmp=\"http://ns.adobe.com/xap/1.0/\">"
      ++ [10] := by decide!

set_option maxRecDepth 100000 in
theorem xmpWrapperTail_eq : xmpWrapperTail
    = 60 :: (bytesOf "/rdf:Description>\n</rdf:RDF>\n</x:xmpmeta>\n<?xpacket end=\"w\"?>" ++ [10]) := by
  decide!

theorem emptyWhere_zero (M : Metadata) : emptyWhere M {} :=
  ⟨fun _ => rfl, fun _ => rfl, fun _ => rfl, fun _ => rfl, fun _ => rfl, fun _ => rfl,
    fun _ => rfl, fun _ => rfl⟩

set_option maxRecDepth 100000 in
/-- The loop of `Unmarshal` from the start over the wrapper and what follows it. -/
theorem outcome_head (env : XmlEnv) (r1 : Bytes) (Q : Metadata → Prop)
    (h : Outcome env ⟨60 :: r1, descriptionEls, descriptionStack, {}, true⟩ Q) :
    Outcome env ⟨xmpWrapperHead ++ 60 :: r1, [], [], {}, false⟩ Q := by
  have e : xmpWrapperHead ++ 60 :: r1
      = bytesOf "<?xpacket begin=\"\\uFEFF\" id=\"W5M0MpCehiHzreSzNTczkc9d\"?>\n<x:xmpmeta xmlns:x=\"adobe:ns:meta/\" x:xmptk=\"pdfmeta\">\n<rdf:RDF xmlns:rdf=\"http://www.w3.org/1999/02/22-rdf-syntax-ns#\">\n<rdf:Description rdf:about=\"\" xmlns:dc=\"http://purl.org/dc/elements/1.1/\" xmlns:pdf=\"http://ns.adobe.com/pdf/1.3/\" xmlns:xmp=\"http://ns.adobe.com/xap/1.0/\">"
        ++ 10 :: 60 :: r1 := by
    rw [xmpWrapperHead_eq]
    simp
  rw [e]
  have s0 : Reaches env
      ⟨bytesOf "<?xpacket begin=\"\\uFEFF\" id=\"W5M0MpCehiHzreSzNTczkc9d\"?>\n<x:xmpmeta xmlns:x=\"adobe:ns:meta/\" x:xmptk=\"pdfmeta\">\n<rdf:RDF xmlns:rdf=\"http://www.w3.org/1999/02/22-rdf-syntax-ns#\">\n<rdf:Description rdf:about=\"\" xmlns:dc=\"http://purl.org/dc/elements/1.1/\" xmlns:pdf=\"http://ns.adobe.com/pdf/1.3/\" xmlns:xmp=\"http://ns.adobe.com/xap/1.0/\">"
        ++ 10 :: 60 :: r1, [], [], {}, false⟩
      ⟨10 :: 60 :: r1, descriptionEls, descriptionStack, {}, true⟩ :=
    Reaches.of_run 7 _ rfl (by decide) (fun _ => rfl)
  exact outcome_of_reaches s0
    (outcome_of_reaches (Reaches.newline env r1 descriptionEls descriptionStack {} true) h)

theorem outcome_unmarshal {env : XmlEnv} {S : Bytes} {Q : Metadata → Prop}
    (h : Outcome env ⟨S, [], [], {}, false⟩ Q) :
    (∃ e, Unmarshal env S = .error e) ∨ ∃ R, Unmarshal env S = .ok R ∧ Q R :=
  h (S.length + 1) (Nat.le_refl _)

set_option maxRecDepth 100000 in
/-- What `Unmarshal` reads from the stream of the metadata object, the packet
without its last line feed: an error, or a record in which every field that is
empty in the record written is empty. -/
theorem unmarshal_stream (env : XmlEnv) (M : Metadata) :
    (∃ e, Unmarshal env (Marshal M).dropLast = .error e)
      ∨ ∃ R, Unmarshal env (Marshal M).dropLast = .ok R ∧ emptyWhere M R := by
  apply outcome_unmarshal
  obtain ⟨r1, hr1⟩ := lines_head env (emptyWhere M)
    (bytesOf "/rdf:Description>\n</rdf:RDF>\n</x:xmpmeta>\n<?xpacket end=\"w\"?>")
    (xmpLines M) (xmpLines_ok env M)
  have e : (Marshal M).dropLast = xmpWrapperHead ++ 60 :: r1 := by
    rw [Marshal_lines, xmpWrapperTail_eq, ← hr1]
    have e2 : xmpWrapperHead ++ (((xmpLines M).map lineText).flatten
        ++ 60 :: (bytesOf "/rdf:Description>\n</rdf:RDF>\n</x:xmpmeta>\n<?xpacket end=\"w\"?>"
          ++ [10]))
        = (xmpWrapperHead ++ (((xmpLines M).map lineText).flatten
        ++ 60 :: bytesOf "/rdf:Description>\n</rdf:RDF>\n</x:xmpmeta>\n<?xpacket end=\"w\"?>"))
          ++ [10] := by simp
    rw [e2, List.dropLast_concat]
  rw [e]
  apply outcome_head
  rw [← hr1]
  apply lines_outcome env (emptyWhere M) (emptyWhere M) _ _ _ (xmpLines_ok env M) _
    (emptyWhere_zero M)
  intro m hm
  have s9 : Reaches env
      ⟨60 :: bytesOf "/rdf:Description>\n</rdf:RDF>\n</x:xmpmeta>\n<?xpacket end=\"w\"?>",
        descriptionEls, descriptionStack, m, true⟩
      ⟨[], [], [], m, true⟩ :=
    Reaches.of_run 7 (bytesOf "</rdf:Description>\n</rdf:RDF>\n</x:xmpmeta>\n<?xpacket end=\"w\"?>")
      rfl (by decide) (fun _ => rfl)
  exact outcome_of_reaches s9 (outcome_done env [] m hm)

theorem trimRightCRLF_of_last (t : Bytes) (x : Nat) (h1 : x ≠ 10) (h2 : x ≠ 13) :
    trimRightCRLF (t ++ [x]) = t ++ [x] := by
  unfold trimRightCRLF
  rw [List.reverse_append]
  simp [List.dropWhile_cons, h1, h2]

set_option maxRecDepth 100000 in
/-- What `Unmarshal` reads from a packet cut off where `endstream` stands: an error. -/
theorem unmarshal_cut (env : XmlEnv) (M : Metadata) (T U : Bytes) (h : Marshal M = T ++ U)
    (hU : hasPrefix U (bytesOf "endstream") = true) :
    ∃ e, Unmarshal env (trimRightCRLF T) = .error e := by
  rw [Marshal_lines] at h
  have hfree : index xmpWrapperHead (bytesOf "endstream") = none := by decide!
  have hlast : ∀ x, xmpWrapperHead.getLast? = some x → x ∉ bytesOf "endstream" := by
    intro x hx
    rw [xmpWrapperHead_eq, List.getLast?_append] at hx
    have : x = 10 := by simpa using hx.symm
    subst this
    decide
  obtain ⟨a, hT, hB⟩ := split_after hfree (Or.inl hlast) h hU
  have htail : index (60 :: (bytesOf
      "/rdf:Description>\n</rdf:RDF>\n</x:xmpmeta>\n<?xpacket end=\"w\"?>" ++ [10]))
      (bytesOf "endstream") = none := by decide!
  rw [xmpWrapperTail_eq] at hB
  obtain ⟨o1, t, x, hx, hx1, hx2⟩ := lines_cut env (emptyWhere M) (fun _ => False) _ htail
    (xmpLines M) (xmpLines_ok env M) a U hB hU
  obtain ⟨r1, hr1⟩ := lines_head env (emptyWhere M)
    (bytesOf "/rdf:Description>\n</rdf:RDF>\n</x:xmpmeta>\n<?xpacket end=\"w\"?>" ++ [10])
    (xmpLines M) (xmpLines_ok env M)
  rw [hr1] at hB
  obtain ⟨a2, ha2⟩ := head_of_split hB hU
  have hTt : trimRightCRLF T = T := by
    rw [hT, hx, ← List.append_assoc]
    exact trimRightCRLF_of_last _ x hx1 hx2
  rw [hTt, hT, ha2]
  have ho : Outcome env ⟨xmpWrapperHead ++ 60 :: a2, [], [], {}, false⟩ (fun _ => False) := by
    apply outcome_head
    rw [← ha2]
    exact o1 {}
  rcases outcome_unmarshal ho with he | ⟨R, _, hf⟩
  · exact he
  · exact absurd hf id

set_option maxRecDepth 100000 in
/-- The pattern `\bendobj` does not match in a packet whose values it does not match in. -/
theorem Marshal_boundary (env : XmlEnv) (M : Metadata)
    (h : ∀ l ∈ xmpLines M, l.2.2 = [] ∨ ∀ q, hasEndobj q (xmlEscape l.2.2) = false) :
    ∀ q, hasEndobj q (Marshal M) = false := by
  intro q
  have hH : index (bytesOf "<?xpacket begin=\"\\uFEFF\" id=\"W5M0MpCehiHzreSzNTczkc9d\"?>\n<x:xmpmeta xmlns:x=\"adobe:ns:meta/\" x:xmptk=\"pdfmeta\">\n<rdf:RDF xmlns:rdf=\"http://www.w3.org/1999/02/22-rdf-syntax-ns#\">\n<rdf:Description rdf:about=\"\" xmlns:dc=\"http://purl.org/dc/elements/1.1/\" xmlns:pdf=\"http://ns.adobe.com/pdf/1.3/\" xmlns:xmp=\"http://ns.adobe.com/xap/1.0/\">")
      (bytesOf "endobj") = none := by decide!
  have hT : index xmpWrapperTail (bytesOf "endobj") = none := by decide!
  rw [Marshal_lines, xmpWrapperHead_eq, List.append_assoc, List.singleton_append,
    hasEndobj_append_sep (by decide), hasEndobj_of_free _ hH,
    lines_boundary env (emptyWhere M) _ (hasEndobj_of_free _ hT) (xmpLines M)
      (fun l hl => ⟨xmpLines_ok env M l hl, h l hl⟩)]
  rfl

theorem hasEndobj_no_e : ∀ (a : Bytes), (∀ c ∈ a, c ≠ 101) → ∀ q, hasEndobj q a = false := by
  intro a
  induction a with
  | nil => intro _ _; rfl
  | cons c t ih =>
    intro h q
    rw [hasEndobj_cons_ne (h c (by simp))]
    exact ih (fun d hd => h d (by simp [hd])) c

set_option maxRecDepth 100000 in
/-- The metadata object the writer appends for a packet that begins with `<`,
ends with `>` and a line feed and in which `\bendobj` does not match: the
group of `objectBody` at its header and the stream `streamContent` cuts from
it, which is the packet without its last line feed, or the packet up to its
first `endstream`; no line of the object but the first begins with a digit. -/
theorem metadata_object_packet {m : Int} (hm : 0 ≤ m) (Q : Bytes)
    (h1 : ∀ q, hasEndobj q (60 :: (Q ++ [62, 10])) = false)
    (h3 : lineStart (60 :: (Q ++ [62, 10])) = true) (rest : Bytes) :
    ∃ body M0 S,
      objectAt (itoa m) (itoa 0) (renderMetadataObject m (60 :: (Q ++ [62, 10])) ++ rest)
          = some body
        ∧ streamContent body = some S
        ∧ (S = 60 :: (Q ++ [62])
          ∨ ∃ T U, 60 :: (Q ++ [62, 10]) = T ++ U ∧ hasPrefix U (bytesOf "endstream") = true
              ∧ S = trimRightCRLF T)
        ∧ renderMetadataObject m (60 :: (Q ++ [62, 10])) = M0 ++ [10] ∧ lineSafe M0 = true := by
  have hro := renderMetadataObject_eq m Q
  have htrim := trimRightCRLF_packet Q
  have hP1 : ∀ q, hasEndobj q (60 :: (Q ++ [62])) = false := by
    intro q
    have := h1 q
    have e : 60 :: (Q ++ [62, 10]) = (60 :: (Q ++ [62])) ++ 10 :: [] := by simp
    rw [e, hasEndobj_append_sep (by decide), Bool.or_eq_false_iff] at this
    exact this.1
  have hPe : (60 :: (Q ++ [62, 10]) : Bytes) = (60 :: (Q ++ [62])) ++ [10] := by simp
  generalize hP : (60 :: (Q ++ [62, 10]) : Bytes) = P at h1 h3 hro htrim hPe
  generalize hP0 : (60 :: (Q ++ [62]) : Bytes) = P0 at hP1 htrim hPe
  generalize hds : natDigits P.length = ds at hro
  have hPlast : P.getLast? = some 10 := by
    rw [hPe, List.getLast?_append]
    rfl
  have hPhead : ∃ t, P = 60 :: t := by
    rw [← hP]
    exact ⟨_, rfl⟩
  have hdig : ∀ q, isDigit q = false → q ∉ ds := by
    intro q hq
    rw [← hds]
    exact natDigits_not_mem _ hq
  have hdsNL : ∀ c ∈ ds, c ≠ 10 ∧ c ≠ 13 := by
    intro c hc
    rw [← hds] at hc
    exact isDigit_not_nl (natDigits_isDigit _ c hc)
  -- the pattern `\bendobj` does not match in the body
  have hfree : hasEndobj 106 (10 :: (bytesOf "<< /Type /Metadata /Subtype /XML /Length "
      ++ (ds ++ (bytesOf " >>\n" ++ (bytesOf "stream" ++ (10 :: (P ++ bytesOf "endstream")))))))
      = false := by
    have e1 : 10 :: (bytesOf "<< /Type /Metadata /Subtype /XML /Length "
        ++ (ds ++ (bytesOf " >>\n" ++ (bytesOf "stream" ++ (10 :: (P ++ bytesOf "endstream"))))))
        = bytesOf "\n<< /Type /Metadata /Subtype /XML /Length"
          ++ 32 :: (ds ++ 32 :: (bytesOf ">>\nstream" ++ 10 :: (P0 ++ 10 :: bytesOf "endstream"))) := by
      rw [hPe]
      simp [bytesOf]
    rw [e1, hasEndobj_append_sep (by decide), hasEndobj_append_sep (by decide),
      hasEndobj_append_sep (by decide), hasEndobj_append_sep (by decide), hP1,
      hasEndobj_no_e ds (fun c hc he => hdig 101 (by decide) (he ▸ hc))]
    decide
  -- the first `stream` of the body
  have hA : index (10 :: (bytesOf "<< /Type /Metadata /Subtype /XML /Length "
      ++ (ds ++ bytesOf " >>\n"))) (bytesOf "stream") = none := by
    have e1 : 10 :: (bytesOf "<< /Type /Metadata /Subtype /XML /Length " ++ (ds ++ bytesOf " >>\n"))
        = bytesOf "\n<< /Type /Metadata /Subtype /XML /Length " ++ (ds ++ 32 :: bytesOf ">>\n") := by
      simp [bytesOf]
    rw [e1]
    apply index_append_none_of_last (by decide)
    · exact index_append_none_of_head (index_none_of_not_mem _ _ (hdig 115 (by decide)))
        (by decide) (by decide)
    · intro x hx
      have : x = 32 := by simpa [bytesOf] using hx.symm
      subst this
      decide
  have hAlast : ∀ x, (10 :: (bytesOf "<< /Type /Metadata /Subtype /XML /Length "
      ++ (ds ++ bytesOf " >>\n"))).getLast? = some x → x ∉ bytesOf "stream" := by
    intro x hx
    have e1 : 10 :: (bytesOf "<< /Type /Metadata /Subtype /XML /Length " ++ (ds ++ bytesOf " >>\n"))
        = 10 :: ((bytesOf "<< /Type /Metadata /Subtype /XML /Length " ++ (ds ++ bytesOf " >>"))
          ++ [10]) := by
      simp [bytesOf]
    rw [e1, getLast?_cons_append_singleton] at hx
    simp only [Option.some.injEq] at hx
    subst hx
    decide
  -- the first `endstream` behind it
  have hocc : occursAt (10 :: P ++ (bytesOf "endstream" ++ [10])) (bytesOf "endstream")
      (10 :: P).length = true := by
    unfold occursAt
    rw [List.drop_left]
    exact hasPrefix_append_self _ _
  obtain ⟨j, hj, hjle⟩ := index_isSome_of_occurs hocc
  obtain ⟨hj1, _, _⟩ := index_some hj
  have hj0 : 1 ≤ j := by
    rcases Nat.eq_zero_or_pos j with h0 | h0
    · subst h0
      rw [List.drop_zero, List.cons_append] at hj1
      exact absurd hj1 (by simp [hasPrefix, bytesOf])
    · exact h0
  have hcut : ((10 :: P ++ (bytesOf "endstream" ++ [10])).take j).drop 1 = P.take (j - 1) := by
    obtain ⟨k, rfl⟩ : ∃ k, j = k + 1 := ⟨j - 1, by omega⟩
    simp only [List.length_cons] at hjle
    simp only [List.cons_append, List.take_succ_cons, List.drop_succ_cons, List.drop_zero,
      Nat.add_sub_cancel]
    rw [List.take_append_of_le_length (by omega)]
  have hS : trimRightCRLF (P.take (j - 1)) = P0
      ∨ ∃ T U, P = T ++ U ∧ hasPrefix U (bytesOf "endstream") = true
          ∧ trimRightCRLF (P.take (j - 1)) = trimRightCRLF T := by
    by_cases hfull : j = (10 :: P).length
    · left
      rw [hfull]
      simp only [List.length_cons, Nat.add_sub_cancel, List.take_length]
      exact htrim
    · right
      simp only [List.length_cons] at hjle hfull
      refine ⟨P.take (j - 1), P.drop (j - 1), (List.take_append_drop _ _).symm, ?_, rfl⟩
      obtain ⟨k, rfl⟩ : ∃ k, j = k + 1 := ⟨j - 1, by omega⟩
      simp only [List.cons_append, List.drop_succ_cons, Nat.add_sub_cancel] at hj1 ⊢
      have hk : k < P.length := by omega
      rw [List.drop_append_of_le_length (by omega)] at hj1
      rcases hasPrefix_append_cases _ _ _ hj1 with h | ⟨p2, e, hne, _⟩
      · exact h
      · exfalso
        have hl : (P.drop k).getLast? = some 10 := by
          rw [getLast?_drop_of_lt hk]
          exact hPlast
        have hmem : (10 : Nat) ∈ bytesOf "endstream" := by
          rw [e]
          apply List.mem_append_left
          obtain ⟨ys, hys⟩ := List.getLast?_eq_some_iff.1 hl
          rw [hys]
          simp
        exact absurd hmem (by decide)
  refine ⟨10 :: (bytesOf "<< /Type /Metadata /Subtype /XML /Length "
      ++ (ds ++ (bytesOf " >>\n" ++ (bytesOf "stream" ++ (10 :: (P ++ bytesOf "endstream"))))))
      ++ [10],
    itoa m ++ bytesOf " 0 obj"
        ++ 10 :: ((bytesOf "<< /Type /Metadata /Subtype /XML /Length "
            ++ (ds ++ (bytesOf " >>\n" ++ (bytesOf "stream"
                ++ (10 :: (P ++ bytesOf "endstream"))))))
          ++ 10 :: bytesOf "endobj"),
    trimRightCRLF (P.take (j - 1)), ?_, ?_, ?_, ?_, ?_⟩
  · rw [hro]
    have e1 : ∀ Y : Bytes, itoa m ++ bytesOf " 0 obj"
          ++ 10 :: (Y ++ 10 :: (bytesOf "endobj" ++ [10])) ++ rest
        = itoa m ++ bytesOf " 0 obj"
          ++ 10 :: (Y ++ 10 :: (bytesOf "endobj" ++ 10 :: rest)) := by
      intro Y; simp
    rw [e1, objectAt_own]
    have := bodyToEndobj_boundary (10 :: rest) _ 106 hfree
    simpa using this
  · have ebody : 10 :: (bytesOf "<< /Type /Metadata /Subtype /XML /Length "
        ++ (ds ++ (bytesOf " >>\n" ++ (bytesOf "stream" ++ (10 :: (P ++ bytesOf "endstream"))))))
        ++ [10]
        = (10 :: (bytesOf "<< /Type /Metadata /Subtype /XML /Length " ++ (ds ++ bytesOf " >>\n")))
          ++ (bytesOf "stream" ++ (10 :: P ++ (bytesOf "endstream" ++ [10]))) := by
      simp
    rw [ebody]
    generalize hAdef : (10 :: (bytesOf "<< /Type /Metadata /Subtype /XML /Length "
      ++ (ds ++ bytesOf " >>\n")) : Bytes) = A at hA hAlast
    have hi1 : index (A ++ (bytesOf "stream" ++ (10 :: P ++ (bytesOf "endstream" ++ [10]))))
        (bytesOf "stream") = some A.length :=
      index_append_first hA hAlast (hasPrefix_append_self _ _)
    have hdrop : (A ++ (bytesOf "stream" ++ (10 :: P ++ (bytesOf "endstream" ++ [10])))).drop
        (A.length + 6) = 10 :: P ++ (bytesOf "endstream" ++ [10]) := by
      rw [← List.drop_drop, List.drop_left]
      rfl
    have htw : ((10 :: P ++ (bytesOf "endstream" ++ [10])).takeWhile
        (fun c => c == 10 || c == 13)).length = 1 := by
      obtain ⟨t, ht⟩ := hPhead
      rw [ht]
      simp [List.takeWhile_cons]
    unfold streamContent
    simp only [hi1, hdrop, hj, htw]
    rw [take_drop_succ, hdrop, hcut]
  · rcases hS with h | ⟨T, U, h1, h2, h3⟩
    · left; exact h
    · right; exact ⟨T, U, h1, h2, h3⟩
  · rw [hro]
    simp
  · have e1 : itoa m ++ bytesOf " 0 obj"
        ++ 10 :: ((bytesOf "<< /Type /Metadata /Subtype /XML /Length "
            ++ (ds ++ (bytesOf " >>\n" ++ (bytesOf "stream"
                ++ (10 :: (P ++ bytesOf "endstream"))))))
          ++ 10 :: bytesOf "endobj")
        = (itoa m ++ bytesOf " 0 obj")
          ++ (bytesOf "\n<< /Type /Metadata /Subtype /XML /Length "
            ++ (ds ++ (bytesOf " >>\nstream\n" ++ (P ++ bytesOf "endstream\nendobj")))) := by
      simp [bytesOf]
    rw [e1]
    obtain ⟨p1, p2⟩ := lineStart_spec h3
    have hx10 : ∀ (u : Bytes) (x : Nat) (t : Bytes), (bytesOf "\n<< /Type /Metadata /Subtype /XML /Length " ++ u) = x :: t →
        isDigit x = false := by
      intro u x t hx
      have : x = 10 := by
        have := congrArg List.head? hx
        simpa [bytesOf] using this.symm
      subst this
      rfl
    apply lineSafe_append_head (lineSafe_of_noNL (header_noNL hm)) _ (hx10 _)
    apply lineSafe_append_last (by decide)
    · apply lineSafe_append_head (lineSafe_of_noNL hdsNL)
      · apply lineSafe_append_head (by decide)
        · apply lineSafe_append_head p1 (by decide)
          intro x t hx
          have : x = 101 := by
            have := congrArg List.head? hx
            simpa [bytesOf] using this.symm
          subst this
          rfl
        · intro x t hx
          obtain ⟨t2, ht2⟩ := hPhead
          rw [ht2] at hx
          simp only [List.cons_append, List.cons.injEq] at hx
          rw [← hx.1]
          rfl
      · intro x t hx
        have : x = 32 := by
          have := congrArg List.head? hx
          simpa [bytesOf] using this.symm
        subst this
        rfl
    · intro x hx
      have : x = 32 := by simpa [bytesOf] using hx.symm
      subst this
      decide

/-! ### The Catalog of the output -/

theorem skipLit_extend {l a r : Bytes} (h : skipLit l a = some r) (b : Bytes) :
    skipLit l (a ++ b) = some (r ++ b) := by
  have e := skipLit_some h
  rw [e, List.append_assoc, skipLit_append]

theorem skipSpaces1_extend {a r : Bytes} (h : skipSpaces1 a = some r) (hr : r ≠ []) (b : Bytes) :
    skipSpaces1 (a ++ b) = some (r ++ b) := by
  cases a with
  | nil => simp [skipSpaces1] at h
  | cons c t =>
    simp only [skipSpaces1] at h
    by_cases hc : isReSpace c = true
    · simp only [hc, ↓reduceIte, Option.some.injEq] at h
      have hall : t.all isReSpace = false := by
        cases hh : t.all isReSpace with
        | false => rfl
        | true =>
          exfalso
          apply hr
          rw [← h]
          exact List.dropWhile_eq_nil_iff.2 (fun x hx => List.all_eq_true.1 hh x hx)
      simp only [List.cons_append, skipSpaces1, hc, ↓reduceIte, dropWhile_append_all, hall,
        Bool.false_eq_true, h]
    · simp only [hc, Bool.false_eq_true, ↓reduceIte] at h
      exact absurd h (by simp)

theorem takeWhile_append_of_drop {p : Nat → Bool} {a : Bytes} (h : a.dropWhile p ≠ []) (b : Bytes) :
    (a ++ b).takeWhile p = a.takeWhile p ∧ (a ++ b).dropWhile p = a.dropWhile p ++ b := by
  induction a with
  | nil => exact absurd rfl h
  | cons x t ih =>
    by_cases hx : p x = true
    · simp only [List.dropWhile_cons, hx, ↓reduceIte] at h
      obtain ⟨i1, i2⟩ := ih h
      simp only [List.cons_append, List.takeWhile_cons, hx, ↓reduceIte, i1, List.dropWhile_cons,
        i2, and_self]
    · simp only [Bool.not_eq_true] at hx
      simp [List.takeWhile_cons, List.dropWhile_cons, hx]

theorem takeDigits1_extend {a d r : Bytes} (h : takeDigits1 a = some (d, r)) (hr : r ≠ [])
    (b : Bytes) : takeDigits1 (a ++ b) = some (d, r ++ b) := by
  unfold takeDigits1 at h ⊢
  split at h
  · exact absurd h (by simp)
  · rename_i hne
    simp only [Option.some.injEq, Prod.mk.injEq] at h
    obtain ⟨h1, h2⟩ := h
    obtain ⟨e1, e2⟩ := takeWhile_append_of_drop (p := isDigit) (a := a) (by rw [h2]; exact hr) b
    rw [e1, e2, if_neg hne, h1, h2]

theorem takeDigits1_nil : takeDigits1 [] = none := rfl

theorem skipLit_R_nil : skipLit [82] [] = none := rfl

/-- A match of `/name\s+(\d+)\s+(\d+)\s+R` stays a match, with the same groups,
when the text goes on. -/
theorem namedRefAt_extend {name a g1 g2 r : Bytes} (h : namedRefAt name a = some (g1, g2, r))
    (b : Bytes) : namedRefAt name (a ++ b) = some (g1, g2, r ++ b) := by
  rw [namedRefAt_eq] at h ⊢
  cases h1 : skipLit (47 :: name) a with
  | none => rw [h1] at h; exact absurd h (by simp)
  | some r1 =>
    rw [h1] at h
    simp only at h
    cases h2 : skipSpaces1 r1 with
    | none => rw [h2] at h; exact absurd h (by simp)
    | some r2 =>
      rw [h2] at h
      simp only at h
      cases h3 : takeDigits1 r2 with
      | none => rw [h3] at h; exact absurd h (by simp)
      | some p3 =>
        obtain ⟨d1, r3⟩ := p3
        rw [h3] at h
        simp only at h
        cases h4 : skipSpaces1 r3 with
        | none => rw [h4] at h; exact absurd h (by simp)
        | some r4 =>
          rw [h4] at h
          simp only at h
          cases h5 : takeDigits1 r4 with
          | none => rw [h5] at h; exact absurd h (by simp)
          | some p5 =>
            obtain ⟨d2, r5⟩ := p5
            rw [h5] at h
            simp only at h
            cases h6 : skipSpaces1 r5 with
            | none => rw [h6] at h; exact absurd h (by simp)
            | some r6 =>
              rw [h6] at h
              simp only at h
              cases h7 : skipLit [82] r6 with
              | none => rw [h7] at h; exact absurd h (by simp)
              | some r7 =>
                rw [h7] at h
                simp only [Option.some.injEq, Prod.mk.injEq] at h
                obtain ⟨rfl, rfl, rfl⟩ := h
                have n2 : r2 ≠ [] := by rintro rfl; rw [takeDigits1_nil] at h3; cases h3
                have n3 : r3 ≠ [] := by rintro rfl; simp [skipSpaces1] at h4
                have n4 : r4 ≠ [] := by rintro rfl; rw [takeDigits1_nil] at h5; cases h5
                have n5 : r5 ≠ [] := by rintro rfl; simp [skipSpaces1] at h6
                have n6 : r6 ≠ [] := by rintro rfl; rw [skipLit_R_nil] at h7; cases h7
                rw [skipLit_extend h1 b]
                simp only
                rw [skipSpaces1_extend h2 n2 b]
                simp only
                rw [takeDigits1_extend h3 n3 b]
                simp only
                rw [skipSpaces1_extend h4 n4 b]
                simp only
                rw [takeDigits1_extend h5 n5 b]
                simp only
                rw [skipSpaces1_extend h6 n6 b]
                simp only
                rw [skipLit_extend h7 b]

theorem skipLit_shrink {l a r : Bytes} (hl : 10 ∉ l) (h : skipLit l (a ++ [10]) = some r) :
    ∃ r2, r = r2 ++ [10] ∧ skipLit l a = some r2 := by
  unfold skipLit at h
  split at h
  · rename_i hp
    have hp2 := hasPrefix_append_sep hl a [] l (fun _ h => h) hp
    have hlen := hasPrefix_length hp2
    simp only [Option.some.injEq] at h
    refine ⟨a.drop l.length, ?_, ?_⟩
    · rw [← h, List.drop_append_of_le_length hlen]
    · unfold skipLit
      rw [if_pos hp2]
  · exact absurd h (by simp)

theorem skipSpaces1_shrink {a r : Bytes} (h : skipSpaces1 (a ++ [10]) = some r) (hr : r ≠ []) :
    ∃ r2, r = r2 ++ [10] ∧ skipSpaces1 a = some r2 := by
  cases a with
  | nil =>
    have : skipSpaces1 ([] ++ [10]) = some [] := rfl
    rw [this] at h
    simp only [Option.some.injEq] at h
    exact absurd h.symm hr
  | cons c t =>
    simp only [List.cons_append, skipSpaces1] at h ⊢
    by_cases hc : isReSpace c = true
    · simp only [hc, ↓reduceIte, Option.some.injEq, dropWhile_append_all] at h ⊢
      by_cases hall : t.all isReSpace = true
      · rw [if_pos hall] at h
        have : ([10] : Bytes).dropWhile isReSpace = [] := rfl
        rw [this] at h
        exact absurd h.symm hr
      · rw [if_neg hall] at h
        exact ⟨_, h.symm, rfl⟩
    · simp only [hc, Bool.false_eq_true, ↓reduceIte] at h
      exact absurd h (by simp)

theorem digits_append_lf (a : Bytes) :
    (a ++ [10]).takeWhile isDigit = a.takeWhile isDigit
      ∧ (a ++ [10]).dropWhile isDigit = a.dropWhile isDigit ++ [10] := by
  induction a with
  | nil => exact ⟨rfl, rfl⟩
  | cons x t ih =>
    by_cases hx : isDigit x = true
    · simp only [List.cons_append, List.takeWhile_cons, hx, ↓reduceIte, ih.1,
        List.dropWhile_cons, ih.2, and_self]
    · simp only [Bool.not_eq_true] at hx
      simp [List.takeWhile_cons, List.dropWhile_cons, hx]

theorem takeDigits1_shrink {a d r : Bytes} (h : takeDigits1 (a ++ [10]) = some (d, r)) :
    ∃ r2, r = r2 ++ [10] ∧ takeDigits1 a = some (d, r2) := by
  obtain ⟨e1, e2⟩ := digits_append_lf a
  unfold takeDigits1 at h ⊢
  rw [e1, e2] at h
  split at h
  · exact absurd h (by simp)
  · rename_i hne
    simp only [Option.some.injEq, Prod.mk.injEq] at h
    refine ⟨a.dropWhile isDigit, h.2.symm, ?_⟩
    rw [if_neg hne, h.1]

/-- A match of `/name\s+(\d+)\s+(\d+)\s+R` in a text that ends with a line
feed is a match in the text without the line feed. -/
theorem namedRefAt_shrink {name a g1 g2 r : Bytes} (hn : 10 ∉ name)
    (h : namedRefAt name (a ++ [10]) = some (g1, g2, r)) :
    ∃ r2, namedRefAt name a = some (g1, g2, r2) := by
  rw [namedRefAt_eq] at h
  cases h1 : skipLit (47 :: name) (a ++ [10]) with
  | none => rw [h1] at h; exact absurd h (by simp)
  | some r1 =>
    rw [h1] at h
    simp only at h
    cases h2 : skipSpaces1 r1 with
    | none => rw [h2] at h; exact absurd h (by simp)
    | some r2 =>
      rw [h2] at h
      simp only at h
      cases h3 : takeDigits1 r2 with
      | none => rw [h3] at h; exact absurd h (by simp)
      | some p3 =>
        obtain ⟨d1, r3⟩ := p3
        rw [h3] at h
        simp only at h
        cases h4 : skipSpaces1 r3 with
        | none => rw [h4] at h; exact absurd h (by simp)
        | some r4 =>
          rw [h4] at h
          simp only at h
          cases h5 : takeDigits1 r4 with
          | none => rw [h5] at h; exact absurd h (by simp)
          | some p5 =>
            obtain ⟨d2, r5⟩ := p5
            rw [h5] at h
            simp only at h
            cases h6 : skipSpaces1 r5 with
            | none => rw [h6] at h; exact absurd h (by simp)
            | some r6 =>
              rw [h6] at h
              simp only at h
              cases h7 : skipLit [82] r6 with
              | none => rw [h7] at h; exact absurd h (by simp)
              | some r7 =>
                rw [h7] at h
                simp only [Option.some.injEq, Prod.mk.injEq] at h
                obtain ⟨rfl, rfl, rfl⟩ := h
                have n2 : r2 ≠ [] := by rintro rfl; rw [takeDigits1_nil] at h3; cases h3
                have n4 : r4 ≠ [] := by rintro rfl; rw [takeDigits1_nil] at h5; cases h5
                have n6 : r6 ≠ [] := by rintro rfl; rw [skipLit_R_nil] at h7; cases h7
                have hl : 10 ∉ (47 :: name) := by
                  intro hm
                  rcases List.mem_cons.1 hm with h0 | h0
                  · exact absurd h0 (by decide)
                  · exact hn h0
                obtain ⟨s1, rfl, k1⟩ := skipLit_shrink hl h1
                obtain ⟨s2, rfl, k2⟩ := skipSpaces1_shrink h2 n2
                obtain ⟨s3, rfl, k3⟩ := takeDigits1_shrink h3
                obtain ⟨s4, rfl, k4⟩ := skipSpaces1_shrink h4 n4
                obtain ⟨s5, rfl, k5⟩ := takeDigits1_shrink h5
                obtain ⟨s6, rfl, k6⟩ := skipSpaces1_shrink h6 n6
                obtain ⟨s7, _, k7⟩ := skipLit_shrink (l := [82]) (by decide) h7
                refine ⟨s7, ?_⟩
                rw [namedRefAt_eq, k1]
                simp only
                rw [k2]
                simp only
                rw [k3]
                simp only
                rw [k4]
                simp only
                rw [k5]
                simp only
                rw [k6]
                simp only
                rw [k7]

theorem namedRefAt_nil (name : Bytes) : namedRefAt name [] = none := by
  rw [namedRefAt_eq]
  rfl

theorem refsOk_nil (name d1 d2 : Bytes) : refsOk name d1 d2 [] := by
  intro q g1 g2 r h
  rw [List.drop_nil, namedRefAt_nil] at h
  exact absurd h (by simp)

theorem refsOk_prefix {name d1 d2 a b : Bytes} (h : refsOk name d1 d2 (a ++ b)) :
    refsOk name d1 d2 a := by
  intro q g1 g2 r hm
  rcases drop_append_cases a b q with ⟨_, e⟩ | ⟨hq, _⟩
  · have := namedRefAt_extend hm b
    rw [← e] at this
    exact h q _ _ _ this
  · rw [List.drop_of_length_le hq, namedRefAt_nil] at hm
    exact absurd hm (by simp)

theorem refsOk_drop {name d1 d2 s : Bytes} (h : refsOk name d1 d2 s) (k : Nat) :
    refsOk name d1 d2 (s.drop k) := by
  intro q g1 g2 r hm
  rw [List.drop_drop] at hm
  exact h _ _ _ _ hm

theorem refsOk_take {name d1 d2 s : Bytes} (h : refsOk name d1 d2 s) (k : Nat) :
    refsOk name d1 d2 (s.take k) := by
  apply refsOk_prefix (b := s.drop k)
  rw [List.take_append_drop]
  exact h

theorem refsOk_cons {name d1 d2 s : Bytes} {x : Nat} (hx : x ≠ 47) (h : refsOk name d1 d2 s) :
    refsOk name d1 d2 (x :: s) := by
  intro q g1 g2 r hm
  cases q with
  | zero =>
    rw [List.drop_zero, namedRefAt_ne_slash name hx] at hm
    exact absurd hm (by simp)
  | succ q => exact h q _ _ _ hm

theorem refsOk_lf {name d1 d2 s : Bytes} (hn : 10 ∉ name) (h : refsOk name d1 d2 s) :
    refsOk name d1 d2 (s ++ [10]) := by
  intro q g1 g2 r hm
  rcases drop_append_cases s [10] q with ⟨_, e⟩ | ⟨_, e⟩
  · rw [e] at hm
    obtain ⟨r2, h2⟩ := namedRefAt_shrink hn hm
    exact h q _ _ _ h2
  · rw [e] at hm
    cases hd : ([10] : Bytes).drop (q - s.length) with
    | nil => rw [hd, namedRefAt_nil] at hm; exact absurd hm (by simp)
    | cons x t =>
      have hx : x ∈ ([10] : Bytes) := List.mem_of_mem_drop (by rw [hd]; simp)
      have : x = 10 := by simpa using hx
      subst this
      rw [hd, namedRefAt_ne_slash name (by decide)] at hm
      exact absurd hm (by simp)

/-- The reference `parseNamedRef` reads from a text all of whose matches have
the groups of a reference is that reference. -/
theorem parseNamedRef_refsOk {name s : Bytes} {a b : Int} (ha0 : 0 ≤ a) (ha1 : a ≤ maxInt)
    (hb0 : 0 ≤ b) (hb1 : b ≤ maxInt) (h : refsOk name (itoa a) (itoa b) s) {ref : ObjRef}
    (hp : parseNamedRef s name = some ref) : ref = { Obj := a, Gen := b } := by
  unfold parseNamedRef at hp
  cases hf : findNamedRef name s with
  | none => rw [hf] at hp; exact absurd hp (by simp)
  | some m =>
    obtain ⟨g1, g2, r⟩ := m
    rw [hf] at hp
    simp only [Option.some.injEq] at hp
    obtain ⟨pre, xs, e, hm, _⟩ := findNamedRef_some hf
    have hd : s.drop pre.length = xs := by rw [e, List.drop_left]
    rw [← hd] at hm
    obtain ⟨rfl, rfl⟩ := h _ _ _ _ hm
    rw [atoi_itoa ha0 ha1, atoi_itoa hb0 hb1] at hp
    exact hp.symm


theorem refsOk_append_of {name d1 d2 A B : Bytes}
    (hA : ∀ q, q < A.length → ∀ g1 g2 r,
      namedRefAt name (A.drop q ++ B) = some (g1, g2, r) → g1 = d1 ∧ g2 = d2)
    (hB : refsOk name d1 d2 B) : refsOk name d1 d2 (A ++ B) := by
  intro q g1 g2 r hm
  rcases drop_append_cases A B q with ⟨hq, e⟩ | ⟨_, e⟩
  · rw [e] at hm
    exact hA q hq _ _ _ hm
  · rw [e] at hm
    exact hB _ _ _ _ hm

theorem refsOk_of_none {name : Bytes} (d1 d2 : Bytes) {s : Bytes}
    (h : findNamedRef name s = none) : refsOk name d1 d2 s := by
  intro q g1 g2 r hm
  by_cases hq : q < s.length
  · rw [findNamedRef_none h q hq] at hm
    exact absurd hm (by simp)
  · rw [List.drop_of_length_le (by omega), namedRefAt_nil] at hm
    exact absurd hm (by simp)

theorem stopper_not_mem {key : Bytes} (h47 : isStopper key 47 = true) : 47 ∉ key := by
  have := (isStopper_spec h47).2.2.2
  intro hm
  rw [(contains_iff_mem key 47).2 hm] at this
  exact absurd this (by simp)

/-- Behind its first byte the entry `upsertNamedRef` writes has no `/`. -/
theorem entry_tail_no_slash {key : Bytes} (h47 : 47 ∉ key) (a b : Int) :
    ∀ c ∈ key ++ 32 :: itoa a ++ 32 :: itoa b ++ bytesOf " R", c ≠ 47 := by
  intro c hc
  simp only [List.mem_append, List.mem_cons] at hc
  rcases hc with ((hc | rfl | hc) | rfl | hc) | hc
  · rintro rfl; exact h47 hc
  · decide
  · exact itoa_ne_slash a c hc
  · decide
  · exact itoa_ne_slash b c hc
  · have : ∀ d ∈ bytesOf " R", d ≠ 47 := by decide
    exact this c hc

/-- The entry `upsertNamedRef` writes, put before a text all of whose matches
have the groups of the reference, gives such a text. -/
theorem refsOk_entry {key : Bytes} (h47 : 47 ∉ key) {a b : Int} (ha : 0 ≤ a) (hb : 0 ≤ b)
    {Z : Bytes} (hZ : refsOk key (itoa a) (itoa b) Z) :
    refsOk key (itoa a) (itoa b)
      ((47 :: key ++ 32 :: itoa a ++ 32 :: itoa b ++ bytesOf " R") ++ Z) := by
  apply refsOk_append_of _ hZ
  intro q hq g1 g2 r hm
  cases q with
  | zero =>
    rw [List.drop_zero, namedRefAt_entry key ha hb Z] at hm
    simp only [Option.some.injEq, Prod.mk.injEq] at hm
    exact ⟨hm.1.symm, hm.2.1.symm⟩
  | succ q =>
    exfalso
    have e : (47 :: key ++ 32 :: itoa a ++ 32 :: itoa b ++ bytesOf " R").drop (q + 1)
        = (key ++ 32 :: itoa a ++ 32 :: itoa b ++ bytesOf " R").drop q := by
      simp only [List.cons_append, List.drop_succ_cons]
    rw [e] at hm
    cases hd : (key ++ 32 :: itoa a ++ 32 :: itoa b ++ bytesOf " R").drop q with
    | nil =>
      have := congrArg List.length hd
      simp only [List.cons_append, List.length_cons, List.length_drop, List.length_nil] at this hq
      omega
    | cons x t =>
      have hx : x ∈ key ++ 32 :: itoa a ++ 32 :: itoa b ++ bytesOf " R" :=
        List.mem_of_mem_drop (by rw [hd]; simp)
      rw [hd, List.cons_append, namedRefAt_ne_slash key (entry_tail_no_slash h47 a b x hx)] at hm
      exact absurd hm (by simp)

/-- The text `replaceAllRefs` returns is the text itself when it has no match,
and else the text before the first match, the entry and more. -/
theorem replaceAllRefs_shape {key : Bytes} (repl : Bytes) (t : Bytes) (fuel : Nat)
    (hf : t.length < fuel) :
    (findNamedRef key t = none ∧ replaceAllRefs key repl fuel t = t)
      ∨ ∃ pre xs Z, t = pre ++ 47 :: xs ∧ replaceAllRefs key repl fuel t = pre ++ (repl ++ Z)
          ∧ ∀ q, q < pre.length → namedRefAt key (pre.drop q ++ 47 :: xs) = none := by
  cases h : findNamedRef key t with
  | none =>
    left
    refine ⟨rfl, ?_⟩
    rw [replaceAllRefs_fuel key repl t.length t fuel (t.length + 1) (Nat.le_refl _) hf
      (Nat.lt_succ_self _)]
    exact replaceAllRefs_of_none repl h
  | some m =>
    right
    obtain ⟨g1, g2, rest⟩ := m
    obtain ⟨pre, xs, e, h1, h2⟩ := findNamedRef_some h
    obtain ⟨mm, hxs⟩ := namedRefAt_suffix h1
    have hlen : t.length = pre.length + xs.length := by rw [e, List.length_append]
    have hxl : 0 < xs.length := by rw [hxs]; simp
    obtain ⟨f2, hf2⟩ : ∃ f2, fuel = pre.length + (f2 + 1) := ⟨fuel - pre.length - 1, by omega⟩
    refine ⟨pre, mm ++ rest, replaceAllRefs key repl f2 rest, ?_, ?_, ?_⟩
    · rw [e, hxs]; simp
    · rw [hf2]
      conv_lhs => rw [e]
      rw [replaceAllRefs_skip repl xs pre h2 (f2 + 1)]
      have h1b := h1
      rw [hxs] at h1b ⊢
      simp only [List.cons_append] at h1b
      simp only [List.cons_append, replaceAllRefs, List.append_eq, h1b]
    · intro q hq
      have := h2 q hq
      rw [hxs] at this
      simpa using this

/-- After `replaceAllRefs` every match has the groups of the new entry. -/
theorem refsOk_replaceAll {key : Bytes} (hsp : ∀ c ∈ key, isReSpace c = false)
    (h47 : isStopper key 47 = true) {a b : Int} (ha : 0 ≤ a) (hb : 0 ≤ b) :
    ∀ (n : Nat) (xs : Bytes) (fuel : Nat), xs.length ≤ n → xs.length < fuel →
      refsOk key (itoa a) (itoa b)
        (replaceAllRefs key (47 :: key ++ 32 :: itoa a ++ 32 :: itoa b ++ bytesOf " R") fuel xs) := by
  intro n
  induction n with
  | zero =>
    intro xs fuel hn _
    have : xs = [] := List.length_eq_zero.1 (by omega)
    subst this
    cases fuel <;> exact refsOk_nil _ _ _
  | succ n ih =>
    intro xs fuel hn hf
    cases xs with
    | nil => cases fuel <;> exact refsOk_nil _ _ _
    | cons x t =>
      cases fuel with
      | zero => simp at hf
      | succ fuel =>
        simp only [List.length_cons] at hn hf
        simp only [replaceAllRefs]
        cases hm : namedRefAt key (x :: t) with
        | some m =>
          obtain ⟨g1, g2, rest⟩ := m
          obtain ⟨mm, hm2⟩ := namedRefAt_suffix hm
          have hl : rest.length ≤ t.length := by
            have := congrArg List.length hm2
            simp only [List.length_cons, List.cons_append, List.length_append] at this
            omega
          simp only
          exact refsOk_entry (stopper_not_mem h47) ha hb
            (ih rest fuel (by omega) (by omega))
        | none =>
          simp only
          have iht := ih t fuel (by omega) (by omega)
          intro q g1 g2 r hq
          cases q with
          | succ q => exact iht q _ _ _ hq
          | zero =>
            exfalso
            rw [List.drop_zero] at hq
            rcases @replaceAllRefs_shape key
                (47 :: key ++ 32 :: itoa a ++ 32 :: itoa b ++ bytesOf " R") t fuel (by omega)
              with ⟨_, e⟩ | ⟨pre, ys, Z, e1, e2, _⟩
            · rw [e, hm] at hq
              exact absurd hq (by simp)
            · rw [e2] at hq
              have hb1 : isBlocked key (47 :: ys) = true := isBlocked_of_stopper _ h47
              have hb2 : isBlocked key
                  ((47 :: key ++ 32 :: itoa a ++ 32 :: itoa b ++ bytesOf " R") ++ Z) = true := by
                simp only [List.cons_append]
                exact isBlocked_of_stopper _ h47
              have h0 : namedRefAt key ((x :: pre) ++ 47 :: ys) = none := by
                rw [List.cons_append, ← e1]; exact hm
              have := namedRefAt_before_blocked hsp hb1 hb2 (v := x :: pre) (by simp) h0
              rw [List.cons_append] at this
              rw [this] at hq
              exact absurd hq (by simp)

/-- In the dictionary `upsertNamedRef` returns every match of the pattern of
`parseNamedRef` has the groups of the new reference. -/
theorem refsOk_upsert {key : Bytes} (hsp : ∀ c ∈ key, isReSpace c = false)
    (h47 : isStopper key 47 = true) (h62 : isStopper key 62 = true) (d : Bytes)
    {a b : Int} (ha : 0 ≤ a) (hb : 0 ≤ b) :
    refsOk key (itoa a) (itoa b) (upsertNamedRef d key { Obj := a, Gen := b }) := by
  cases hf : findNamedRef key d with
  | some m =>
    have : upsertNamedRef d key { Obj := a, Gen := b }
        = replaceAllRefs key (47 :: key ++ 32 :: itoa a ++ 32 :: itoa b ++ bytesOf " R")
            (d.length + 1) d := by
      unfold upsertNamedRef
      simp only [hf, Option.isSome_some, ↓reduceIte]
    rw [this]
    exact refsOk_replaceAll hsp h47 ha hb d.length d _ (Nat.le_refl _) (Nat.lt_succ_self _)
  | none =>
    cases hi : lastIndex d (bytesOf ">>") with
    | none =>
      have : upsertNamedRef d key { Obj := a, Gen := b } = d := by
        unfold upsertNamedRef
        simp only [hf, Option.isSome_none, Bool.false_eq_true, ↓reduceIte, hi]
      rw [this]
      exact refsOk_of_none _ _ hf
    | some idx =>
      rw [(upsertNamedRef_insert hsp h47 h62 (r := { Obj := a, Gen := b }) ha hb hf hi).1]
      obtain ⟨hp, hlen⟩ := lastIndex_bound hi
      have hdrop := hasPrefix_eq_append hp
      have hb1 : isBlocked key (d.drop idx) = true := by
        rw [hdrop]; exact isBlocked_of_stopper _ h62
      have hsuf : findNamedRef key (d.drop idx) = none := by
        cases hs : findNamedRef key (d.drop idx) with
        | none => rfl
        | some m =>
          exfalso
          obtain ⟨pre, xs, e, hm, _⟩ := findNamedRef_some hs
          have hq : namedRefAt key (d.drop (idx + pre.length)) = some m := by
            rw [← List.drop_drop, e, List.drop_left]
            exact hm
          have hlt : idx + pre.length < d.length := by
            by_contra hge
            rw [List.drop_of_length_le (by omega), namedRefAt_nil] at hq
            exact absurd hq (by simp)
          rw [findNamedRef_none hf _ hlt] at hq
          exact absurd hq (by simp)
      have e2 : d.take idx
            ++ (10 :: (47 :: key ++ 32 :: itoa a ++ 32 :: itoa b ++ bytesOf " R") ++ [10])
            ++ d.drop idx
          = d.take idx ++ (10 :: ((47 :: key ++ 32 :: itoa a ++ 32 :: itoa b ++ bytesOf " R")
              ++ (10 :: d.drop idx))) := by
        simp
      rw [e2]
      have hZ : refsOk key (itoa a) (itoa b) (10 :: d.drop idx) :=
        refsOk_cons (by decide) (refsOk_of_none _ _ hsuf)
      have hE := refsOk_cons (x := 10) (by decide) (refsOk_entry (stopper_not_mem h47) ha hb hZ)
      apply refsOk_append_of _ hE
      intro q hq g1 g2 r hm
      exfalso
      have hq2 : q < d.length := by
        rw [List.length_take] at hq; omega
      have hold : namedRefAt key ((d.take idx).drop q ++ d.drop idx) = none := by
        have := findNamedRef_none hf q hq2
        conv at this => lhs; rw [← List.take_append_drop idx d]
        rwa [List.drop_append_of_le_length (Nat.le_of_lt hq)] at this
      have hb2 : isBlocked key (10 :: ((47 :: key ++ 32 :: itoa a ++ 32 :: itoa b ++ bytesOf " R")
          ++ (10 :: d.drop idx))) = true := by
        have := isBlocked_entry h47 a b (10 :: d.drop idx)
        simp only [isBlocked, List.dropWhile_cons] at this ⊢
        rw [if_pos (by decide)]
        exact this
      have hnone := namedRefAt_before_blocked hsp hb1 hb2
        (by
          intro h0
          have := congrArg List.length h0
          simp only [List.length_drop, List.length_nil] at this
          omega) hold
      rw [hnone] at hm
      exact absurd hm (by simp)


theorem trimLeftFunc_drop : ∀ (fuel : Nat) (s : Bytes), ∃ k, trimLeftFunc fuel s = s.drop k := by
  intro fuel
  induction fuel with
  | zero => intro s; exact ⟨0, rfl⟩
  | succ fuel ih =>
    intro s
    cases s with
    | nil => exact ⟨0, rfl⟩
    | cons c t =>
      simp only [trimLeftFunc]
      split
      · obtain ⟨k, hk⟩ := ih ((c :: t).drop (decodeRune (c :: t)).2)
        exact ⟨(decodeRune (c :: t)).2 + k, by rw [hk, List.drop_drop]⟩
      · exact ⟨0, rfl⟩

/-- The result of `strings.TrimSpace` is a part of its argument. -/
theorem trimSpace_infix : ∀ (s : Bytes), ∃ a b, trimSpace s = (s.drop a).take b := by
  intro s
  induction s with
  | nil => exact ⟨0, 0, rfl⟩
  | cons c t ih =>
    unfold trimSpace
    split
    · obtain ⟨k1, h1⟩ := trimLeftFunc_drop (t.length + 1) (c :: t)
      obtain ⟨_, k2, h2⟩ := trimRightFunc_spec (t.length + 1) (trimLeftFunc (t.length + 1) (c :: t))
        (by rw [h1, List.length_drop]; simp only [List.length_cons]; omega)
      exact ⟨k1, k2, by rw [h2, h1]⟩
    · split
      · obtain ⟨a, b, h⟩ := ih
        exact ⟨a + 1, b, by rw [h]; rfl⟩
      · obtain ⟨_, k, h⟩ := trimSpaceEnd_spec (c :: t).reverse
        exact ⟨0, k, by rw [h, List.reverse_reverse]; rfl⟩

theorem renderCatalogObject_eq (c : Int) (D : Bytes) :
    renderCatalogObject c D
      = itoa c ++ bytesOf " 0 obj" ++ 10 :: (trimSpace D ++ 10 :: (bytesOf "endobj" ++ [10])) := by
  unfold renderCatalogObject
  have e1 : bytesOf " 0 obj\n" = bytesOf " 0 obj" ++ [10] := by decide
  have e2 : bytesOf "\nendobj\n" = 10 :: (bytesOf "endobj" ++ [10]) := by decide
  rw [e1, e2]
  simp only [List.append_assoc, List.cons_append, List.nil_append]

/-- The Catalog object the writer appends: the group of `objectBody` at its
header is a text all of whose matches of the pattern of `parseNamedRef` have
the groups of the reference the writer put in. -/
theorem catalog_object {key : Bytes} (hn : 10 ∉ key) {d1 d2 D : Bytes}
    (hD : refsOk key d1 d2 D) (c : Int) (rest : Bytes) :
    ∃ body, objectAt (itoa c) (itoa 0) (renderCatalogObject c D ++ rest) = some body
      ∧ refsOk key d1 d2 body := by
  obtain ⟨a, b, hT⟩ := trimSpace_infix D
  have hT2 : refsOk key d1 d2 (trimSpace D) := by
    rw [hT]
    exact refsOk_take (refsOk_drop hD a) b
  have hW : refsOk key d1 d2 (10 :: trimSpace D ++ [10]) :=
    refsOk_cons (by decide) (refsOk_lf hn hT2)
  obtain ⟨body, hb, hp⟩ := bodyToEndobj_prefix (10 :: rest) (10 :: trimSpace D) 106
  refine ⟨body, ?_, ?_⟩
  · rw [renderCatalogObject_eq]
    have e1 : itoa c ++ bytesOf " 0 obj"
          ++ 10 :: (trimSpace D ++ 10 :: (bytesOf "endobj" ++ [10])) ++ rest
        = itoa c ++ bytesOf " 0 obj"
          ++ 10 :: (trimSpace D ++ 10 :: (bytesOf "endobj" ++ 10 :: rest)) := by
      simp
    rw [e1, objectAt_own]
    simpa using hb
  · obtain ⟨z, hz⟩ := hp
    apply refsOk_prefix (b := z)
    rw [hz]
    exact hW

/-- The reference `parseNamedRef` reads from the dictionary `firstDict` finds
in a text all of whose matches have the groups of a reference. -/
theorem parseNamedRef_firstDict {key body dict : Bytes} {a b : Int} (ha0 : 0 ≤ a)
    (ha1 : a ≤ maxInt) (hb0 : 0 ≤ b) (hb1 : b ≤ maxInt)
    (h : refsOk key (itoa a) (itoa b) body) (hd : firstDict body = some dict) {ref : ObjRef}
    (hp : parseNamedRef dict key = some ref) : ref = { Obj := a, Gen := b } := by
  unfold firstDict at hd
  cases hi : index body (bytesOf "<<") with
  | none => rw [hi] at hd; exact absurd hd (by simp)
  | some start =>
    rw [hi] at hd
    simp only at hd
    cases hm : matchDictEnd body start with
    | none => rw [hm] at hd; exact absurd hd (by simp)
    | some e =>
      rw [hm] at hd
      simp only [Option.some.injEq] at hd
      have : refsOk key (itoa a) (itoa b) dict := by
        rw [← hd]
        exact refsOk_drop (refsOk_take h _) _
      exact parseNamedRef_refsOk ha0 ha1 hb0 hb1 this hp

/-! ### What `readNativeMetadata` reads from the output -/

theorem findObjectLine_lf (num gen rest : Bytes) :
    findObjectLine num gen (10 :: rest)
      = match objectAt num gen rest with
        | some body => some body
        | none => findObjectLine num gen rest := rfl

/-- The search for an object passes over an appended object with another
number, no line of which, but the first, begins with a digit. -/
theorem findObjectLine_other {N i : Int} (hN : 0 ≤ N) (hN2 : N ≤ maxInt) (hi : 0 ≤ i)
    (hi2 : i ≤ maxInt) (hne : N ≠ i) {O O0 t : Bytes} (hO : O = O0 ++ [10])
    (hsafe : lineSafe O0 = true) (hhead : O = itoa i ++ 32 :: t) (rest : Bytes) :
    (match objectAt (itoa N) (itoa 0) (O ++ rest) with
      | some body => some body
      | none => findObjectLine (itoa N) (itoa 0) (O ++ rest))
      = match objectAt (itoa N) (itoa 0) rest with
        | some body => some body
        | none => findObjectLine (itoa N) (itoa 0) rest := by
  have h1 : objectAt (itoa N) (itoa 0) (O ++ rest) = none := by
    rw [hhead]
    have e : itoa i ++ 32 :: t ++ rest = itoa i ++ 32 :: (t ++ rest) := by simp
    rw [e]
    exact objectAt_other_number hN hN2 hi hi2 hne _ _
  rw [h1]
  simp only
  rw [hO]
  have e : O0 ++ [10] ++ rest = O0 ++ 10 :: rest := by simp
  rw [e, findObjectLine_lineSafe hN _ hsafe, findObjectLine_lf]

theorem renderInfoObject_head (i : Int) (m : Metadata) :
    ∃ t, renderInfoObject i m = itoa i ++ 32 :: t := by
  have e : bytesOf " 0 obj" = 32 :: bytesOf "0 obj" := by decide
  rw [renderInfoObject_eq, e]
  simp only [List.append_assoc, List.cons_append]
  exact ⟨_, rfl⟩

theorem renderMetadataObject_head (i : Int) (Q : Bytes) :
    ∃ t, renderMetadataObject i (60 :: (Q ++ [62, 10])) = itoa i ++ 32 :: t := by
  have e : bytesOf " 0 obj" = 32 :: bytesOf "0 obj" := by decide
  rw [renderMetadataObject_eq, e]
  simp only [List.append_assoc, List.cons_append]
  exact ⟨_, rfl⟩

/-- The three objects the writer appends, as `objectBody` finds them in the
output: an object whose number is above every number of the source is looked
for from the first appended object on. -/
theorem objectBody_output {src : Bytes} (hsrc : src ≠ []) {N i : Int}
    (hN : maxObjectNumber src < N) (hN2 : N ≤ maxInt) (hi : 1 ≤ i) {O t : Bytes}
    (hhead : O = itoa i ++ 32 :: t) (rest : Bytes) :
    objectBody (src ++ sourceLF src ++ (O ++ rest)) N 0
      = match objectAt (itoa N) (itoa 0) (O ++ rest) with
        | some body => some body
        | none => findObjectLine (itoa N) (itoa 0) (O ++ rest) := by
  obtain ⟨d, ds, hd, hd1, hd0, _⟩ := itoa_pos hi
  have e : O ++ rest = d :: (ds ++ 32 :: t ++ rest) := by
    rw [hhead, hd]
    simp
  rw [e]
  exact objectBody_appended hsrc hN hN2 _ hd1 hd0

/-- A record read as fallback that is empty wherever the primary record is
empty changes nothing in the merge. -/
theorem mergeMetadata_emptyWhere {M R : Metadata} (h : emptyWhere M R) : mergeMetadata M R = M := by
  have hf : ∀ (v w : Bytes), (v = [] → w = []) → (if v.isEmpty then w else v) = v := by
    intro v w hvw
    cases v with
    | nil => simpa using hvw rfl
    | cons c t => rfl
  obtain ⟨h1, h2, h3, h4, h5, h6, h7, h8⟩ := h
  cases M
  cases R
  simp only at h1 h2 h3 h4 h5 h6 h7 h8
  simp only [mergeMetadata, hf _ _ h1, hf _ _ h2, hf _ _ h3, hf _ _ h4, hf _ _ h5, hf _ _ h6,
    hf _ _ h7, hf _ _ h8]

/-- The pattern `\bendobj` does not match in the packet of a record of safe fields. -/
theorem Marshal_safe (env : XmlEnv) {M : Metadata} (h : safeRecord M = true) :
    ∀ q, hasEndobj q (Marshal M) = false := by
  apply Marshal_boundary env
  have hv : ∀ k v, safeField k v = true → v = [] ∨ ∀ q, hasEndobj q (xmlEscape v) = false := by
    intro k v hkv
    rcases safeField_spec hkv with h0 | ⟨_, _, _, _, a5, _⟩
    · exact Or.inl h0
    · exact Or.inr (xmlEscape_boundary (p := 40) (by decide) a5)
  simp only [safeRecord, Bool.and_eq_true] at h
  obtain ⟨⟨⟨⟨⟨⟨⟨h1, h2⟩, h3⟩, h4⟩, h5⟩, h6⟩, h7⟩, h8⟩ := h
  intro l hl
  simp only [xmpLines, List.mem_cons, List.mem_singleton, List.not_mem_nil, or_false] at hl
  rcases hl with rfl | rfl | rfl | rfl | rfl | rfl | rfl | rfl
  · exact hv _ _ h1
  · exact hv _ _ h2
  · exact hv _ _ h3
  · exact hv _ _ h4
  · exact hv _ _ h5
  · exact hv _ _ h6
  · exact hv _ _ h7
  · exact hv _ _ h8

set_option maxRecDepth 100000 in
/-- What `readNativeMetadata` reads from the output of the writer, for a
record of safe fields and its packet. -/
theorem readNativeMetadata_values (env : XmlEnv) {src : Bytes} (hsrc : src ≠ [])
    {next : Metadata} (prev : Int) (rootDict : Bytes)
    (h1 : 1 ≤ maxObjectNumber src) (hmax : maxObjectNumber src + 3 ≤ maxInt)
    (hsafe : safeRecord next = true) :
    (readNativeMetadata env
      (incrementalOutput src next (Marshal next) (maxObjectNumber src) prev rootDict)).1
      = next := by
  have hmaxv : maxInt = 9223372036854775807 := rfl
  have hminv : minInt = -9223372036854775808 := rfl
  obtain ⟨Q, hQ⟩ := Marshal_ends next
  have hls := lineStart_Marshal next
  have hp1 := Marshal_safe env hsafe
  have hfull := unmarshal_stream env next
  have hcutM := unmarshal_cut env next
  have hdl : (Marshal next).dropLast = 60 :: (Q ++ [62]) := by
    have e2 : (60 :: (Q ++ [62, 10]) : Bytes) = (60 :: (Q ++ [62])) ++ [10] := by simp
    rw [hQ, e2, List.dropLast_concat]
  rw [hdl] at hfull
  rw [hQ] at hp1 hls hcutM
  generalize hmx : maxObjectNumber src = mx at h1 hmax
  have w1 : wrapInt (mx + 1) = mx + 1 := wrapInt_of_range (by omega) (by omega)
  have w2 : wrapInt (mx + 2) = mx + 2 := wrapInt_of_range (by omega) (by omega)
  have w3 : wrapInt (mx + 3) = mx + 3 := wrapInt_of_range (by omega) (by omega)
  have hrefs := parseTrailerRefs_output src next (Marshal next) prev rootDict
    (show 0 ≤ mx by omega) hmax
  obtain ⟨R, hout⟩ : ∃ R, incrementalOutput src next (Marshal next) mx prev rootDict
      = src ++ sourceLF src ++ (renderInfoObject (mx + 1) next
        ++ (renderMetadataObject (mx + 2) (60 :: (Q ++ [62, 10]))
          ++ (renderCatalogObject (mx + 3)
              (upsertNamedRef rootDict (bytesOf "Metadata") { Obj := mx + 2, Gen := 0 }) ++ R))) := by
    simp only [incrementalOutput, w1, w2, w3, hQ, List.append_assoc]
    exact ⟨_, rfl⟩
  generalize hI : renderInfoObject (mx + 1) next = I at hout
  generalize hM : renderMetadataObject (mx + 2) (60 :: (Q ++ [62, 10])) = Mo at hout
  generalize hC : renderCatalogObject (mx + 3)
      (upsertNamedRef rootDict (bytesOf "Metadata") { Obj := mx + 2, Gen := 0 }) = C at hout
  -- the three objects
  obtain ⟨bodyI, dictI, I0, oI, fI, pI, eI, sI⟩ :=
    info_object_values hsafe (i := mx + 1) (by omega) (Mo ++ (C ++ R))
  rw [hI] at oI eI
  obtain ⟨bodyM, M0, S, oM, sM, hS, eM, lM⟩ :=
    metadata_object_packet (m := mx + 2) (by omega) Q hp1 hls (C ++ R)
  rw [hM] at oM eM
  have hD := @refsOk_upsert (bytesOf "Metadata") (by decide) (by decide) (by decide)
    rootDict (mx + 2) 0 (by omega) (by decide)
  obtain ⟨bodyC, oC, rC⟩ := @catalog_object (bytesOf "Metadata") (by decide) _ _ _ hD (mx + 3) R
  rw [hC] at oC
  obtain ⟨tI, hIh⟩ := renderInfoObject_head (mx + 1) next
  rw [hI] at hIh
  obtain ⟨tM, hMh⟩ := renderMetadataObject_head (mx + 2) Q
  rw [hM] at hMh
  have hsrcmx : ∀ N : Int, mx < N → maxObjectNumber src < N := by
    intro N hN; rw [hmx]; exact hN
  -- the bodies `objectBody` finds
  have bI : objectBody (incrementalOutput src next (Marshal next) mx prev rootDict) (mx + 1) 0
      = some bodyI := by
    rw [hout, objectBody_output hsrc (hsrcmx _ (by omega)) (by omega) (i := mx + 1) (by omega) hIh,
      oI]
  have bM : objectBody (incrementalOutput src next (Marshal next) mx prev rootDict) (mx + 2) 0
      = some bodyM := by
    rw [hout, objectBody_output hsrc (hsrcmx _ (by omega)) (by omega) (i := mx + 1) (by omega) hIh,
      findObjectLine_other (N := mx + 2) (i := mx + 1) (by omega) (by omega) (by omega) (by omega)
        (by omega) eI sI hIh, oM]
  have bC : objectBody (incrementalOutput src next (Marshal next) mx prev rootDict) (mx + 3) 0
      = some bodyC := by
    rw [hout, objectBody_output hsrc (hsrcmx _ (by omega)) (by omega) (i := mx + 1) (by omega) hIh,
      findObjectLine_other (N := mx + 3) (i := mx + 1) (by omega) (by omega) (by omega) (by omega)
        (by omega) eI sI hIh,
      findObjectLine_other (N := mx + 3) (i := mx + 2) (by omega) (by omega) (by omega) (by omega)
        (by omega) eM lM hMh, oC]
  -- the stream of the metadata object
  have hSread : (∃ e, Unmarshal env S = .error e) ∨ ∃ X, Unmarshal env S = .ok X ∧ emptyWhere next X := by
    rcases hS with h | ⟨T, U, hTU, hU, hST⟩
    · rw [h]; exact hfull
    · left
      rw [hST]
      exact hcutM T U hTU hU
  -- the two views
  have vI : infoViewOf (incrementalOutput src next (Marshal next) mx prev rootDict) = next := by
    unfold infoViewOf readInfoView
    rw [hrefs]
    simp only
    rw [if_pos (by omega), bI]
    simp only [fI, pI, Option.getD_some]
  have vX : emptyWhere next
      (xmpViewOf env (incrementalOutput src next (Marshal next) mx prev rootDict)) := by
    unfold xmpViewOf readXmpView
    rw [hrefs]
    simp only
    rw [if_pos (by omega), bC]
    simp only
    cases hfd : firstDict bodyC with
    | none => exact emptyWhere_zero next
    | some dictC =>
      simp only
      cases hpr : parseNamedRef dictC (bytesOf "Metadata") with
      | none => exact emptyWhere_zero next
      | some ref =>
        have href := parseNamedRef_firstDict (a := mx + 2) (b := 0) (by omega) (by omega)
          (by decide) (by decide) rC hfd hpr
        subst href
        simp only [bM, sM]
        rcases hSread with ⟨e, he⟩ | ⟨X, hX, hXe⟩
        · rw [he]
          exact emptyWhere_zero next
        · rw [hX]
          exact hXe
  rw [readNativeMetadata_eq_merge, vI]
  exact mergeMetadata_emptyWhere vX

/-! ### The round trip of a write -/

set_option maxRecDepth 1000000 in
/-- A value with a `(` is left out by `safeValue` and is not read back: the
write to `minimalPdf` succeeds, the patched record is not safe, and the record
read back is another one. -/
theorem excluded_open_paren :
    roundTripFails minimalPdf { Title := some (bytesOf "a(b") } = true
      ∧ safeRecord (applyPatch (readNativeMetadata asciiEnv minimalPdf).1
          { Title := some (bytesOf "a(b") }) = false := by
  decide!

set_option maxRecDepth 1000000 in
/-- A value with a `)` is left out by `safeValue` and is not read back: the
write to `minimalPdf` succeeds, the patched record is not safe, and the record
read back is another one. -/
theorem excluded_close_paren :
    roundTripFails minimalPdf { Title := some (bytesOf "a)b") } = true
      ∧ safeRecord (applyPatch (readNativeMetadata asciiEnv minimalPdf).1
          { Title := some (bytesOf "a)b") }) = false := by
  decide!

set_option maxRecDepth 1000000 in
/-- A value with a LF is left out by `safeValue` and is not read back: the
write to `minimalPdf` succeeds, the patched record is not safe, and the record
read back is another one. -/
theorem excluded_line_feed :
    roundTripFails minimalPdf { Title := some [97, 10, 98] } = true
      ∧ safeRecord (applyPatch (readNativeMetadata asciiEnv minimalPdf).1
          { Title := some [97, 10, 98] }) = false := by
  decide!

set_option maxRecDepth 1000000 in
/-- A value with a CR is left out by `safeValue` and is not read back: the
write to `minimalPdf` succeeds, the patched record is not safe, and the record
read back is another one. -/
theorem excluded_carriage_return :
    roundTripFails minimalPdf { Title := some [97, 13, 98] } = true
      ∧ safeRecord (applyPatch (readNativeMetadata asciiEnv minimalPdf).1
          { Title := some [97, 13, 98] }) = false := by
  decide!

set_option maxRecDepth 1000000 in
/-- A value with a TAB is left out by `safeValue` and is not read back: the
write to `minimalPdf` succeeds, the patched record is not safe, and the record
read back is another one. -/
theorem excluded_tab :
    roundTripFails minimalPdf { Title := some [97, 9, 98] } = true
      ∧ safeRecord (applyPatch (readNativeMetadata asciiEnv minimalPdf).1
          { Title := some [97, 9, 98] }) = false := by
  decide!

set_option maxRecDepth 1000000 in
/-- A value with a backslash before `n` is left out by `safeValue` and is not read back: the
write to `minimalPdf` succeeds, the patched record is not safe, and the record
read back is another one. -/
theorem excluded_backslash_n :
    roundTripFails minimalPdf { Title := some (bytesOf "a\\nb") } = true
      ∧ safeRecord (applyPatch (readNativeMetadata asciiEnv minimalPdf).1
          { Title := some (bytesOf "a\\nb") }) = false := by
  decide!

set_option maxRecDepth 1000000 in
/-- A value with a backslash at the end is left out by `safeValue` and is not read back: the
write to `minimalPdf` succeeds, the patched record is not safe, and the record
read back is another one. -/
theorem excluded_backslash_end :
    roundTripFails minimalPdf { Title := some (bytesOf "a\\"), Subject := some (bytesOf "endstream") } = true
      ∧ safeRecord (applyPatch (readNativeMetadata asciiEnv minimalPdf).1
          { Title := some (bytesOf "a\\"), Subject := some (bytesOf "endstream") }) = false := by
  decide!

set_option maxRecDepth 1000000 in
/-- A value with `<<` is left out by `safeValue` and is not read back: the
write to `minimalPdf` succeeds, the patched record is not safe, and the record
read back is another one. -/
theorem excluded_angle_open :
    roundTripFails minimalPdf { Title := some (bytesOf "a<<b"), Subject := some (bytesOf "endstream") } = true
      ∧ safeRecord (applyPatch (readNativeMetadata asciiEnv minimalPdf).1
          { Title := some (bytesOf "a<<b"), Subject := some (bytesOf "endstream") }) = false := by
  decide!

set_option maxRecDepth 1000000 in
/-- A value with `>>` is left out by `safeValue` and is not read back: the
write to `minimalPdf` succeeds, the patched record is not safe, and the record
read back is another one. -/
theorem excluded_angle_close :
    roundTripFails minimalPdf { Title := some (bytesOf "a>>b"), Subject := some (bytesOf "endstream") } = true
      ∧ safeRecord (applyPatch (readNativeMetadata asciiEnv minimalPdf).1
          { Title := some (bytesOf "a>>b"), Subject := some (bytesOf "endstream") }) = false := by
  decide!

set_option maxRecDepth 1000000 in
/-- A value with `endobj` at the start of a word is left out by `safeValue` and is not read back: the
write to `minimalPdf` succeeds, the patched record is not safe, and the record
read back is another one. -/
theorem excluded_endobj_word :
    roundTripFails minimalPdf { Title := some (bytesOf "endobj") } = true
      ∧ safeRecord (applyPatch (readNativeMetadata asciiEnv minimalPdf).1
          { Title := some (bytesOf "endobj") }) = false := by
  decide!

set_option maxRecDepth 1000000 in
/-- A value with the beginning of an entry of another key is left out by `safeValue` and is not read back: the
write to `minimalPdf` succeeds, the patched record is not safe, and the record
read back is another one. -/
theorem excluded_shadow_entry :
    roundTripFails minimalPdf { Author := some (bytesOf "/Title /x") } = true
      ∧ safeRecord (applyPatch (readNativeMetadata asciiEnv minimalPdf).1
          { Author := some (bytesOf "/Title /x") }) = false := by
  decide!

set_option maxRecDepth 1000000 in
/-- C1, the claim as written fails: the patch that sets the Title of
`minimalPdf` to one space is written without error, and the record read back
from the output has the empty Title, because the writer of the Info dictionary
skips a value that is blank and `xmp.Unmarshal` trims the value of the packet. -/
theorem c1_blank_title_lost :
    writeNativeIncremental minimalPdf
        (applyPatch (readNativeMetadata asciiEnv minimalPdf).1 blankTitlePatch)
        (Marshal (applyPatch (readNativeMetadata asciiEnv minimalPdf).1 blankTitlePatch))
        = .ok blankTitlePdf
      ∧ (applyPatch (readNativeMetadata asciiEnv minimalPdf).1 blankTitlePatch).Title = [32]
      ∧ (readNativeMetadata asciiEnv blankTitlePdf).1.Title = []
      ∧ (readNativeMetadata asciiEnv blankTitlePdf).1
          ≠ applyPatch (readNativeMetadata asciiEnv minimalPdf).1 blankTitlePatch := by
  decide!

/-- C1, amended: let `next` be `applyPatch m D` for the record `m` that
`readNativeMetadata` reads from the source.  If `writeNativeIncremental src next
(Marshal next)` returns `out`, the three new object numbers do not overflow the
Go `int`, and every field of `next` is empty or a safe value of its key (not
blank; without `(`, `)`, CR, LF and TAB; every backslash one of a pair or
before a byte other than `n`, `r`, `t`; without `<<` and `>>`; without
`endobj` at the start of a word; without the beginning of an entry of another
Info key), then `readNativeMetadata out` returns a record equal to `next` on
all eight fields. -/
theorem c1_round_trip (env : XmlEnv) (src : Bytes) (D : MetadataPatch) (out : Bytes)
    (hw : writeNativeIncremental src (applyPatch (readNativeMetadata env src).1 D)
        (Marshal (applyPatch (readNativeMetadata env src).1 D)) = .ok out)
    (hmax : maxObjectNumber src + 3 ≤ maxInt)
    (hsafe : safeRecord (applyPatch (readNativeMetadata env src).1 D) = true) :
    (readNativeMetadata env out).1 = applyPatch (readNativeMetadata env src).1 D := by
  obtain ⟨rootRef, infoRef, prev, rootBody, rootDict, h1, -, h3, -, -, rfl⟩ :=
    writeNativeIncremental_ok hw
  have hsrc : src ≠ [] := by
    rintro rfl
    rw [parseTrailerRefs_nil] at h1
    exact absurd h1 (by simp)
  exact readNativeMetadata_values env hsrc prev rootDict h3 hmax hsafe

set_option maxRecDepth 1000000 in
/-- C1 at `minimalPdf` and a patch whose values hold a slash, a single `>`, a
backslash, `endobj` inside a word, an ampersand and the word `endstream`: the
write succeeds and the record read back is the patched record. -/
theorem c1_witness :
    writeNativeIncremental minimalPdf
        (applyPatch (readNativeMetadata asciiEnv minimalPdf).1 awkwardPatch)
        (Marshal (applyPatch (readNativeMetadata asciiEnv minimalPdf).1 awkwardPatch))
        = .ok awkwardPdf
      ∧ maxObjectNumber minimalPdf + 3 ≤ maxInt
      ∧ safeRecord (applyPatch (readNativeMetadata asciiEnv minimalPdf).1 awkwardPatch) = true
      ∧ (readNativeMetadata asciiEnv awkwardPdf).1
          = applyPatch (readNativeMetadata asciiEnv minimalPdf).1 awkwardPatch :=
  ⟨by decide!, by decide!, by decide!,
    c1_round_trip asciiEnv minimalPdf awkwardPatch awkwardPdf (by decide!) (by decide!) (by decide!)⟩

end PdfMeta
